import Mathlib

/-!
# ModelsPHOG: a verification development

Shallow embedding of the tree store, the tree slice, the TCond interpreter, the
branched/simple condition programs and the TGen program table of
`eth-sri/ModelsPHOG`, together with theorems about them.

Conventions of the embedding:
* C `int` values are `Int`; conversions to and from `unsigned` are explicit
  (`toUnsigned`, `toSigned`, both modulo `2^32`).
* `std::string` is `List Char`.
* A `CHECK` failure, an uncaught exception or an out-of-bounds access is `none`.
-/

namespace PHOG

/-! # Part I: the embedding -/

/-! ## Type labels (`tree.h`, `tree.cpp`) -/

/-- Mirror of `struct TreeSubstitutionOnlyLabel` (`tree.h`). -/
structure TreeSubstitutionOnlyLabel where
  type : Int
  has_first_child : Bool
  has_right_sib : Bool
deriving DecidableEq, Repr

/-- Conversion `int -> unsigned` (value modulo `2^32`). -/
def toUnsigned (i : Int) : Nat := (i % 4294967296).toNat
/-- Conversion `unsigned -> int` (two's complement, 32 bits). -/
def toSigned (n : Nat) : Int :=
  if n % 4294967296 < 2147483648 then ((n % 4294967296 : Nat) : Int)
  else ((n % 4294967296 : Nat) : Int) - 4294967296

/-- Mirror of `EncodeTypeLabel` (`tree.cpp`); `none` is the failed `CHECK_LE`. -/
def EncodeTypeLabel (type_label : TreeSubstitutionOnlyLabel) : Option Int :=
  if type_label.type ≤ 0x1fffffff then
    let x := toUnsigned type_label.type
    let x := x &&& 0x3fffffff
    let x := if type_label.has_first_child then x ||| 0x40000000 else x
    let x := if type_label.has_right_sib then x ||| 0x80000000 else x
    some (toSigned x)
  else none

/-- Mirror of `DecodeTypeLabel` (`tree.cpp`). -/
def DecodeTypeLabel (encoded_label : Int) : TreeSubstitutionOnlyLabel :=
  let x := toUnsigned encoded_label
  let has_first_child := (x &&& 0x40000000) != 0
  let has_right_sib := (x &&& 0x80000000) != 0
  let x := x &&& 0x3fffffff
  let x := if (x &&& 0x20000000) != 0 then x ||| 0xe0000000 else x
  { type := toSigned x, has_first_child := has_first_child, has_right_sib := has_right_sib }

/-! ## Strings and the helpers of `base/` -/

/-- A `std::string`, as its sequence of characters. -/
abbrev Str := List Char

/-- Modelled from the spec: `SplitStringUsing` of `base/strutil.h` (not among the sources). It
cuts `s` at every occurrence of `delim` and keeps empty pieces, so that the empty string gives one
empty piece: the callers guard against an empty input (`tcond_language.cpp`) and handle empty
pieces (`branched_cond.cpp`, "Allow empty values"), and the case `on ""` of the tests is one
empty value. -/
def SplitStringUsing (s : Str) (delim : Char) : List Str := s.splitOn delim

/-- Modelled from the spec: `TrimLeadingAndTrailingSpaces` of `base/strutil.h` (not among the
sources): removes the spaces at both ends. -/
def TrimLeadingAndTrailingSpaces (s : Str) : Str :=
  ((s.dropWhile (· == ' ')).reverse.dropWhile (· == ' ')).reverse

/-- Modelled from the spec: `EscapeStrSeparators` of `base/strutil.h` (not among the sources):
"`\s` is the literal space escape". -/
def EscapeStrSeparators : Str → Str
  | [] => []
  | c :: t => if c = ' ' then '\\' :: 's' :: EscapeStrSeparators t else c :: EscapeStrSeparators t

/-- Modelled from the spec: `UnEscapeStrSeparators` of `base/strutil.h` (not among the sources):
every `\s` becomes a space. -/
def UnEscapeStrSeparators : Str → Str
  | [] => []
  | [c] => [c]
  | c :: d :: t =>
    if c = '\\' ∧ d = 's' then ' ' :: UnEscapeStrSeparators t
    else c :: UnEscapeStrSeparators (d :: t)

/-- The C string seen through `c_str()`: the characters before the first NUL. -/
def cstr (s : Str) : Str := s.takeWhile (· != Char.ofNat 0)

/-- The decimal digit `d` as a character. -/
def digitChar (d : Nat) : Char :=
  match d with
  | 0 => '0' | 1 => '1' | 2 => '2' | 3 => '3' | 4 => '4'
  | 5 => '5' | 6 => '6' | 7 => '7' | 8 => '8' | _ => '9'

/-- The value of a decimal digit character. -/
def digitVal (c : Char) : Option Nat :=
  if c = '0' then some 0 else if c = '1' then some 1 else if c = '2' then some 2
  else if c = '3' then some 3 else if c = '4' then some 4 else if c = '5' then some 5
  else if c = '6' then some 6 else if c = '7' then some 7 else if c = '8' then some 8
  else if c = '9' then some 9 else none

/-- Decimal digits of `n`, most significant first; `fuel` bounds the number of digits. -/
def natToDecAux : Nat → Nat → Str
  | 0, _ => []
  | fuel + 1, n =>
    if n < 10 then [digitChar n] else natToDecAux fuel (n / 10) ++ [digitChar (n % 10)]

/-- What `printf("%u")` prints for a natural number. -/
def natToDec (n : Nat) : Str := natToDecAux (n + 1) n

/-- What `printf("%d")` (`StringAppendF`, `StringPrintf`) prints for an `int`. -/
def intToDec (i : Int) : Str :=
  if i < 0 then '-' :: natToDec (-i).toNat else natToDec i.toNat

/-- Reads the longest run of decimal digits at the start of the string. -/
def parseDigitsAux : Str → Nat → Nat × Str
  | [], acc => (acc, [])
  | c :: cs, acc =>
    match digitVal c with
    | some d => parseDigitsAux cs (acc * 10 + d)
    | none => (acc, c :: cs)

/-- A non-empty run of digits at the start of the string, and what follows it. -/
def parseNatPrefix (s : Str) : Option (Nat × Str) :=
  match s with
  | [] => none
  | c :: _ => if (digitVal c).isSome then some (parseDigitsAux s 0) else none

/-- An optional sign and a non-empty run of digits, and what follows them
(the subject sequence of `strtol` in base 10). -/
def parseSignedPrefix (s : Str) : Option (Int × Str) :=
  match s with
  | [] => none
  | c :: t =>
    if c = '-' then (parseNatPrefix t).map (fun r => (-(r.1 : Int), r.2))
    else if c = '+' then (parseNatPrefix t).map (fun r => ((r.1 : Int), r.2))
    else (parseNatPrefix s).map (fun r => ((r.1 : Int), r.2))

/-- The white-space characters of C `isspace`. -/
def isCSpace (c : Char) : Bool :=
  c == ' ' || c == '\t' || c == '\n' || c == Char.ofNat 11 || c == Char.ofNat 12 || c == '\r'

/-- Whether the value fits a 32-bit `int`. -/
def inInt32 (v : Int) : Bool := decide (-2147483648 ≤ v) && decide (v ≤ 2147483647)

/-- The conversion `%d` of `sscanf` and the function `std::stoi`: white space is skipped, then
an optional sign and digits are read, trailing characters are left. `none` when there are no
digits (`stoi` throws `invalid_argument`, `sscanf` converts nothing) and when the value does not
fit an `int` (`stoi` throws `out_of_range`; for `sscanf` the C standard leaves it undefined). -/
def scanInt (s : Str) : Option (Int × Str) :=
  match parseSignedPrefix (s.dropWhile isCSpace) with
  | some (v, rest) => if inInt32 v then some (v, rest) else none
  | none => none

/-- The function `std::stoi(str)` with an uncaught exception as `none`. -/
def stoi (s : Str) : Option Int := (scanInt s).map Prod.fst

/-- Modelled from the spec: `ParseInt32` of `base/strutil.h` (not among the sources): the whole
string is an optionally signed decimal number that fits an `int`. -/
def ParseInt32 (s : Str) : Option Int :=
  match parseSignedPrefix s with
  | some (v, []) => if inInt32 v then some v else none
  | _ => none

/-- Skips a literal at the start of `s` (an ordinary character sequence of a `scanf` format). -/
def scanLit (lit s : Str) : Option Str :=
  if lit.isPrefixOf s then some (s.drop lit.length) else none

/-- The call `sscanf(s, "else goto %d", &label) == 1`: the blank in a format matches any amount
of white space, none included. -/
def sscanf_else_goto (s : Str) : Option Int :=
  (scanLit "else".toList s).bind fun s1 =>
  (scanLit "goto".toList (s1.dropWhile isCSpace)).bind fun s2 =>
  (scanInt (s2.dropWhile isCSpace)).map Prod.fst

/-- The call `sscanf(s, " goto %d", &label) == 1`. -/
def sscanf_goto (s : Str) : Option Int :=
  (scanLit "goto".toList (s.dropWhile isCSpace)).bind fun s2 =>
  (scanInt (s2.dropWhile isCSpace)).map Prod.fst

/-- The method `std::string::find(pat, from)`: index of the first occurrence at or after `i`
in the remaining text `s`, which starts at index `i`. -/
def findFrom (pat : Str) : Str → Nat → Option Nat
  | [], i => if pat = [] then some i else none
  | c :: cs, i => if pat.isPrefixOf (c :: cs) then some i else findFrom pat cs (i + 1)

/-- The method `std::string::find(pat)`. -/
def strFind (s pat : Str) : Option Nat := findFrom pat s 0

/-- The method `std::string::find(pat, pos)`. -/
def strFindAt (s pat : Str) (pos : Nat) : Option Nat :=
  if pos ≤ s.length then findFrom pat (s.drop pos) pos else none

/-- Modelled from the spec: the string interner `StringSet` of `base/stringset.h` (not among the
sources): "ids are dense and monotonically assigned"; the id of a string is its index. -/
structure StringSet where
  strings : List Str
deriving DecidableEq, Repr

/-- The index of the first occurrence of `s` in the list. -/
def indexOfStr (s : Str) : List Str → Nat
  | [] => 0
  | t :: ts => if t = s then 0 else indexOfStr s ts + 1

/-- Modelled from the spec: `StringSet::findString`, "lookup(bytes) → id or -1". -/
def StringSet.findString (ss : StringSet) (s : Str) : Int :=
  if s ∈ ss.strings then (indexOfStr s ss.strings : Nat) else -1

/-- Modelled from the spec: `StringSet::addString`, "intern(bytes) → id". -/
def StringSet.addString (ss : StringSet) (s : Str) : Int × StringSet :=
  if s ∈ ss.strings then ((indexOfStr s ss.strings : Nat), ss)
  else ((ss.strings.length : Nat), { strings := ss.strings ++ [s] })

/-- Modelled from the spec: `StringSet::getString`, "str(id) → bytes"; `none` for an id that was
never assigned. -/
def StringSet.getString (ss : StringSet) (id : Int) : Option Str :=
  if 0 ≤ id then ss.strings[id.toNat]? else none

/-! ## The TCond language (`tcond_language.h`, `tcond_language.cpp`) -/

/-- Mirror of `TCondLanguage::OpCmd`. -/
inductive OpCmd where
  | WRITE_TYPE | WRITE_VALUE | WRITE_POS
  | UP | LEFT | RIGHT | DOWN_FIRST | DOWN_LAST | PREV_DFS | PREV_LEAF | NEXT_LEAF
  | PREV_NODE_VALUE | PREV_NODE_TYPE | PREV_NODE_CONTEXT
  | LAST_OP_CMD
deriving DecidableEq, Repr

/-- Mirror of `TCondLanguage::OpCmdStr`. -/
def OpCmdStr (cmd : OpCmd) : Str :=
  match cmd with
  | .WRITE_TYPE => "WRITE_TYPE".toList
  | .WRITE_VALUE => "WRITE_VALUE".toList
  | .WRITE_POS => "WRITE_POS".toList
  | .UP => "UP".toList
  | .LEFT => "LEFT".toList
  | .RIGHT => "RIGHT".toList
  | .DOWN_FIRST => "DOWN_FIRST".toList
  | .DOWN_LAST => "DOWN_LAST".toList
  | .PREV_DFS => "PREV_DFS".toList
  | .PREV_LEAF => "PREV_LEAF".toList
  | .NEXT_LEAF => "NEXT_LEAF".toList
  | .PREV_NODE_VALUE => "PREV_NODE_VALUE".toList
  | .PREV_NODE_TYPE => "PREV_NODE_TYPE".toList
  | .PREV_NODE_CONTEXT => "PREV_NODE_CONTEXT".toList
  | .LAST_OP_CMD => "ERROR".toList

/-- Mirror of `TCondLanguage::Op`. -/
structure Op where
  cmd : OpCmd
  extra_data : Int
deriving DecidableEq, Repr

/-- Mirror of `TCondLanguage::Program`. -/
abbrev Program := List Op

/-- One round of the loop of `ProgramToString`: the text appended for `op`. -/
def opToString (first : Bool) (op : Op) : Str :=
  (if first then [] else [' ']) ++ OpCmdStr op.cmd ++
    (if op.extra_data != -1 then '@' :: intToDec op.extra_data else [])

/-- The loop of `ProgramToString`, with the variables `result` and `first`. -/
def ProgramToStringLoop : Program → Str → Bool → Str
  | [], result, _ => result
  | op :: p, result, first => ProgramToStringLoop p (result ++ opToString first op) false

/-- Mirror of `TCondLanguage::ProgramToString`. -/
def ProgramToString (p : Program) : Str := ProgramToStringLoop p [] true

/-- The commands in the order in which the loop of `ParseStringToProgramOrDie` tries them
(`WRITE_TYPE` up to the command before `LAST_OP_CMD`). -/
def opCmdsInOrder : List OpCmd :=
  [.WRITE_TYPE, .WRITE_VALUE, .WRITE_POS, .UP, .LEFT, .RIGHT, .DOWN_FIRST, .DOWN_LAST, .PREV_DFS,
   .PREV_LEAF, .NEXT_LEAF, .PREV_NODE_VALUE, .PREV_NODE_TYPE, .PREV_NODE_CONTEXT]

/-- The body of the loop over the tokens in `ParseStringToProgramOrDie`: `none` when the loop over
the commands arrives at `LAST_OP_CMD` (failed `CHECK`) or `std::stoi` throws. -/
def parseOp (op_str : Str) : Option Op :=
  let op_parts := SplitStringUsing op_str '@'
  match opCmdsInOrder.find? (fun i => OpCmdStr i == op_parts.headD []) with
  | none => none
  | some i =>
    if op_parts.length > 1 then
      (stoi (op_parts.getD 1 [])).map fun e => { cmd := i, extra_data := e }
    else some { cmd := i, extra_data := -1 }

/-- Mirror of `TCondLanguage::ParseStringToProgramOrDie`; `none` is "die". -/
def ParseStringToProgramOrDie (s : Str) : Option Program :=
  let op_strs := if s ≠ [] then SplitStringUsing s ' ' else []
  op_strs.mapM parseOp

/-! ## Simple condition programs (`simple_cond.h`, `simple_cond.cpp`) -/

/-- Mirror of `SimpleCondProgram`. -/
structure SimpleCondProgram where
  eq_program : Program
  context_program : Program
deriving DecidableEq, Repr

/-- Mirror of `SimpleCondProgram::ParseFromStringOrDie`, called on the object `self`. -/
def SimpleCondProgram.ParseFromStringOrDie (self : SimpleCondProgram) (str : Str) :
    Option SimpleCondProgram :=
  if str = "empty".toList then
    some { self with eq_program := [], context_program := [] }
  else
    match strFind str "=eq=".toList with
    | none =>
      (ParseStringToProgramOrDie str).map fun c =>
        { self with eq_program := [], context_program := c }
    | some pos =>
      (ParseStringToProgramOrDie (TrimLeadingAndTrailingSpaces (str.take pos))).bind fun e =>
      (ParseStringToProgramOrDie (TrimLeadingAndTrailingSpaces (str.drop (pos + 4)))).map fun c =>
        { self with eq_program := e, context_program := c }

/-- Mirror of `SimpleCondProgram::ToString`. -/
def SimpleCondProgram.ToString (self : SimpleCondProgram) : Str :=
  if self.eq_program.isEmpty then
    if self.context_program.isEmpty then "empty".toList
    else ProgramToString self.context_program
  else
    ProgramToString self.eq_program ++ " =eq= ".toList ++ ProgramToString self.context_program

/-- The characters that `%d` can print. -/
def isDecChar (c : Char) : Bool := c == '-' || (digitVal c).isSome

/-- The value of a run of digits read after `acc`. -/
def digitsValue (xs : Str) (acc : Nat) : Nat :=
  xs.foldl (fun a c => a * 10 + (digitVal c).getD 0) acc

/-- The text does not go on with a digit. -/
def noDigitHead (s : Str) : Prop := ∀ c ∈ s.head?, digitVal c = none

/-! ## TCond programs: serializer and parser -/

/-- The text of one op, as `ProgramToString` prints it. -/
def tokText (op : Op) : Str :=
  OpCmdStr op.cmd ++ (if op.extra_data != -1 then '@' :: intToDec op.extra_data else [])

/-- The characters of the command names. -/
def isNameChar (c : Char) : Bool := c.isUpper || c == '_'

/-- The characters of a serialized program. -/
def isProgChar (c : Char) : Bool := isNameChar c || isDecChar c || c == '@'

/-- The ops that the parser can produce and the serializer prints faithfully: a command of the
language and an `int` as extra data. -/
def ValidOp (op : Op) : Prop := op.cmd ≠ .LAST_OP_CMD ∧ inInt32 op.extra_data = true

instance (op : Op) : Decidable (ValidOp op) := by unfold ValidOp; infer_instance

/-- The text neither starts nor ends with a space. -/
def noEdgeSpace (s : Str) : Prop := (∀ c ∈ s.head?, c ≠ ' ') ∧ (∀ c ∈ s.getLast?, c ≠ ' ')

/-! ## Claims on TCond program texts -/

/-- An integer literal: an optional minus sign and at least one decimal digit. -/
def isIntLiteral (s : Str) : Bool :=
  match s with
  | [] => false
  | c :: t =>
    if c = '-' then !t.isEmpty && t.all (fun d => (digitVal d).isSome)
    else (c :: t).all (fun d => (digitVal d).isSome)

/-- A token of a TCond program text: `OPCODE` or `OPCODE@INT` with `OPCODE` one of the
14 command names. -/
def isTCondToken (t : Str) : Bool :=
  opCmdsInOrder.any fun c =>
    t == OpCmdStr c ||
      ((OpCmdStr c ++ ['@']).isPrefixOf t && isIntLiteral (t.drop ((OpCmdStr c).length + 1)))

/-- The words of a text: its maximal runs of characters other than white space. Two texts are
equal modulo white-space normalization when they have the same words. -/
def wsWords (s : Str) : List Str := (s.splitOnP isCSpace).filter (fun w => !w.isEmpty)

/-- A well-formed TCond program text: its words are tokens. -/
def WellFormedTCondText (P : Str) : Bool := (wsWords P).all isTCondToken

/-- The text of a token given by its command and its optional integer. -/
def tokenText (t : OpCmd × Option Int) : Str :=
  match t.2 with
  | none => OpCmdStr t.1
  | some n => OpCmdStr t.1 ++ '@' :: intToDec n

/-- The op denoted by a token. -/
def tokenOp (t : OpCmd × Option Int) : Op := { cmd := t.1, extra_data := t.2.getD (-1) }

/-- A token in canonical form: a command of the language, and an integer that is a 32-bit
`int` other than `-1`, printed in decimal. -/
def CanonicalToken (t : OpCmd × Option Int) : Prop :=
  t.1 ≠ .LAST_OP_CMD ∧ ∀ n, t.2 = some n → inInt32 n = true ∧ n ≠ -1

instance (t : OpCmd × Option Int) : Decidable (CanonicalToken t) := by
  unfold CanonicalToken
  cases t.2 with
  | none => exact decidable_of_iff (t.1 ≠ .LAST_OP_CMD) (by simp)
  | some m => exact decidable_of_iff (t.1 ≠ .LAST_OP_CMD ∧ inInt32 m = true ∧ m ≠ -1) (by simp)

/-! ## Branched condition programs (`branched_cond.h`, `branched_cond.cpp`) -/

/-- Mirror of `BranchCond::PredefinedProgram`. -/
inductive PredefinedProgram where
  | TYPE_COND | PARENT_TYPE_COND | TYPE_AND_PARENT_TYPE_COND
deriving DecidableEq, Repr

/-- Mirror of `BranchCond`. -/
structure BranchCond where
  program : Program
deriving DecidableEq, Repr

/-- Mirror of the constructor `BranchCond(PredefinedProgram p)`. -/
def BranchCond.ofPredefined (p : PredefinedProgram) : BranchCond :=
  match p with
  | .TYPE_COND => { program := [⟨.WRITE_TYPE, -1⟩] }
  | .PARENT_TYPE_COND => { program := [⟨.UP, -1⟩, ⟨.WRITE_TYPE, -1⟩] }
  | .TYPE_AND_PARENT_TYPE_COND => { program := [⟨.WRITE_TYPE, -1⟩, ⟨.UP, -1⟩, ⟨.WRITE_TYPE, -1⟩] }

/-- Mirror of `BranchCond::ParseFromStringOrDie`. -/
def BranchCond.ParseFromStringOrDie (self : BranchCond) (str : Str) : Option BranchCond :=
  if str = "type".toList then some (BranchCond.ofPredefined .TYPE_COND)
  else if str = "parent_type".toList then some (BranchCond.ofPredefined .PARENT_TYPE_COND)
  else if str = "type_parent_type".toList then
    some (BranchCond.ofPredefined .TYPE_AND_PARENT_TYPE_COND)
  else (ParseStringToProgramOrDie str).map fun p => { self with program := p }

/-- Mirror of `BranchCond::ToString`. -/
def BranchCond.ToString (self : BranchCond) : Str := ProgramToString self.program

/-- The order of `std::vector<int>` keys in a `std::map`: `std::lexicographical_compare`. -/
def vecLt : List Int → List Int → Bool
  | _, [] => false
  | [], _ :: _ => true
  | a :: as, b :: bs => if a < b then true else if b < a then false else vecLt as bs

/-- A `std::map<std::vector<int>, int>`, as its entries in iteration order. -/
abbrev CaseMap := List (List Int × Int)

/-- The assignment `m[k] = v` on a `std::map`. -/
def mapAssign : CaseMap → List Int → Int → CaseMap
  | [], k, v => [(k, v)]
  | (k', v') :: rest, k, v =>
    if vecLt k k' then (k, v) :: (k', v') :: rest
    else if vecLt k' k then (k', v') :: mapAssign rest k v
    else (k, v) :: rest

/-- The lookup `m.find(k)` on a `std::map`: the mapped value, or `none` for `end()`. -/
def mapFind : CaseMap → List Int → Option Int
  | [], _ => none
  | (k', v') :: rest, k =>
    if vecLt k k' then none
    else if vecLt k' k then mapFind rest k
    else some v'

/-- The call `s.insert(x)` on a `std::set<int>`, kept as its elements in increasing order. -/
def setInsert : List Int → Int → List Int
  | [], x => [x]
  | y :: rest, x =>
    if x < y then x :: y :: rest
    else if y < x then y :: setInsert rest x
    else y :: rest

/-- The call `s.erase(x)` on a `std::set<int>`. -/
def setErase (s : List Int) (x : Int) : List Int := s.filter (fun y => y != x)

/-- Mirror of `BranchCondProgram`. -/
structure BranchCondProgram where
  cond : BranchCond
  per_case_p : CaseMap
  p_default : Int
deriving DecidableEq, Repr

/-- Mirror of `BranchCondProgram::GetReferencedPrograms`. -/
def BranchCondProgram.GetReferencedPrograms (self : BranchCondProgram) : List Int :=
  setInsert (self.per_case_p.foldl (fun s it => setInsert s it.2) []) self.p_default

/-- The loop of `BranchCondProgram::CaseToString`; `first` stands for `i == 0`. -/
def CaseToStringLoop (ss : StringSet) : List Int → Bool → Str → Option Str
  | [], _, result => some result
  | curr_value :: values, first, result =>
    let result := if first then result else result ++ [' ']
    if curr_value < 0 then
      CaseToStringLoop ss values false (result ++ intToDec curr_value)
    else
      match ss.getString curr_value with
      | none => none
      | some s => CaseToStringLoop ss values false (result ++ EscapeStrSeparators s)

/-- Mirror of `BranchCondProgram::CaseToString`; `none` when a value is not an id of `ss`. -/
def CaseToString (values : List Int) (ss : StringSet) : Option Str :=
  CaseToStringLoop ss values true []

/-- The inner loop of `ToStringAsProgramLine` over the cases, for the program `p`. -/
def casesToStringLoop (ss : StringSet) (p : Int) : CaseMap → Bool → Str → Option Str
  | [], _, result => some result
  | it :: rest, first_cond, result =>
    if it.2 = p then
      match CaseToString it.1 ss with
      | none => none
      | some s =>
        casesToStringLoop ss p rest false ((if first_cond then result else result ++ ['|']) ++ s)
    else casesToStringLoop ss p rest first_cond result

/-- The outer loop of `ToStringAsProgramLine` over the referenced programs. -/
def programsToStringLoop (ss : StringSet) (self : BranchCondProgram) : List Int → Str → Option Str
  | [], result => some result
  | p :: programs, result =>
    if p = self.p_default then
      programsToStringLoop ss self programs (result ++ " else goto ".toList ++ intToDec p)
    else
      match casesToStringLoop ss p self.per_case_p true (result ++ " on \"".toList) with
      | none => none
      | some r =>
        programsToStringLoop ss self programs (r ++ "\" goto ".toList ++ intToDec p ++ [';'])

/-- Mirror of `BranchCondProgram::ToStringAsProgramLine`; `none` when a case value is not an id
of the string set. -/
def BranchCondProgram.ToStringAsProgramLine (self : BranchCondProgram) (ss : StringSet) :
    Option Str :=
  let result := "switch ".toList ++ self.cond.ToString ++ [':']
  let programs_set := setErase self.GetReferencedPrograms self.p_default
  let programs := programs_set ++ [self.p_default]
  programsToStringLoop ss self programs result

/-- The loop over `cmds` in `ParseAsProgramLineOrDie`, at index `i`. A write to `cmd_ids[i]`
after `cmd_ids.clear()` changes no element of the (empty) vector. -/
def parseCmdsLoop : List Str → Nat → List Int → StringSet → Option (List Int × StringSet)
  | [], _, cmd_ids, ss => some (cmd_ids, ss)
  | cmd :: cmds, i, cmd_ids, ss =>
    match cmd with
    | [] => parseCmdsLoop cmds (i + 1) [] ss
    | c :: _ =>
      if c = '-' then
        match ParseInt32 cmd with
        | none => none
        | some v => parseCmdsLoop cmds (i + 1) (cmd_ids.set i v) ss
      else
        let r := ss.addString (cstr (UnEscapeStrSeparators cmd))
        parseCmdsLoop cmds (i + 1) (cmd_ids.set i r.1) r.2

/-- The loop over `values` in `ParseAsProgramLineOrDie`. -/
def parseValuesLoop (label : Int) : List Str → CaseMap → StringSet → Option (CaseMap × StringSet)
  | [], per_case_p, ss => some (per_case_p, ss)
  | value :: values, per_case_p, ss =>
    let cmds := SplitStringUsing (TrimLeadingAndTrailingSpaces value) ' '
    match parseCmdsLoop cmds 0 (List.replicate cmds.length (-1)) ss with
    | none => none
    | some (cmd_ids, ss') => parseValuesLoop label values (mapAssign per_case_p cmd_ids label) ss'

/-- The body of the loop over `cases` in `ParseAsProgramLineOrDie`, on the state
`(per_case_p, p_default, ss)`. -/
def parseCase (case_str : Str) (st : CaseMap × Int × StringSet) :
    Option (CaseMap × Int × StringSet) :=
  let curr_case := TrimLeadingAndTrailingSpaces case_str
  match sscanf_else_goto curr_case with
  | some label => some (st.1, label, st.2.2)
  | none =>
    if ¬ "on ".toList.isPrefixOf curr_case then none else
    match strFind curr_case ['"'] with
    | none => none
    | some q1 =>
      let q2 := strFindAt curr_case ['"'] (q1 + 1)
      -- `q2 + 1` wraps to 0 and `q2 - q1 - 1` is huge when `q2` is `npos`
      match sscanf_goto (curr_case.drop (match q2 with | some q => q + 1 | none => 0)) with
      | none => none
      | some label =>
        let values := SplitStringUsing
          ((curr_case.drop (q1 + 1)).take (match q2 with
            | some q => q - q1 - 1
            | none => curr_case.length)) '|'
        match parseValuesLoop label values st.1 st.2.2 with
        | none => none
        | some (per_case_p, ss') => some (per_case_p, st.2.1, ss')

/-- The loop over `cases` in `ParseAsProgramLineOrDie`. -/
def parseCasesLoop : List Str → CaseMap × Int × StringSet → Option (CaseMap × Int × StringSet)
  | [], st => some st
  | c :: cases, st =>
    match parseCase c st with
    | none => none
    | some st' => parseCasesLoop cases st'

/-- Mirror of `BranchCondProgram::ParseAsProgramLineOrDie`, called on the object `self` with the
string set of the language; `none` is "die". -/
def BranchCondProgram.ParseAsProgramLineOrDie (self : BranchCondProgram) (ss : StringSet)
    (str : Str) : Option (BranchCondProgram × StringSet) :=
  if ¬ "switch ".toList.isPrefixOf str then none else
  match strFind str [':'] with
  | none => none
  | some colon =>
    match self.cond.ParseFromStringOrDie
        (TrimLeadingAndTrailingSpaces ((str.drop 7).take (colon - 7))) with
    | none => none
    | some cond =>
      let cases := SplitStringUsing (str.drop (colon + 1)) ';'
      match parseCasesLoop cases ([], self.p_default, ss) with
      | none => none
      | some (per_case_p, p_default, ss') =>
        some ({ cond := cond, per_case_p := per_case_p, p_default := p_default }, ss')

/-- The entries of a `std::map` are in strictly increasing order of their keys. -/
def SortedMap (m : CaseMap) : Prop := m.Pairwise (fun e1 e2 => vecLt e1.1 e2.1 = true)

instance (m : CaseMap) : Decidable (SortedMap m) := by unfold SortedMap; infer_instance

/-- Assigning the entries of `l` one after the other. -/
def assignAll (m : CaseMap) (l : CaseMap) : CaseMap :=
  l.foldl (fun m e => mapAssign m e.1 e.2) m

/-! ## Branched condition programs: the serialized line -/

/-- The entries of a `std::set<int>` are in strictly increasing order. -/
def SortedSet (s : List Int) : Prop := s.Pairwise (fun a b => a < b)

/-- The programs of the cases of `p`, the default program excluded, in increasing order: the
vector `programs` of `ToStringAsProgramLine` without its last element. -/
def caseTargets (p : BranchCondProgram) : List Int := setErase p.GetReferencedPrograms p.p_default

/-- The text of one value of a case key: a negative number in decimal, or the escaped string of
an id. -/
def caseTokText (ss : StringSet) (x : Int) : Str :=
  if x < 0 then intToDec x else EscapeStrSeparators ((ss.getString x).getD [])

/-- The text of a case key: its values separated by spaces. -/
def caseText (ss : StringSet) (k : List Int) : Str := [' '].intercalate (k.map (caseTokText ss))

/-- The keys of the cases of the map that go to program `n`, in the order of the map. -/
def keysFor (n : Int) (l : CaseMap) : List (List Int) :=
  (l.filter (fun it => it.2 = n)).map Prod.fst

/-- The clause `on "..." goto n` of a line, without the separator that ends it. -/
def caseLine (ss : StringSet) (l : CaseMap) (n : Int) : Str :=
  " on \"".toList ++ ['|'].intercalate ((keysFor n l).map (caseText ss)) ++
    "\" goto ".toList ++ intToDec n

/-- The clause `else goto d` of a line. -/
def elseLine (d : Int) : Str := " else goto ".toList ++ intToDec d

/-- Every non-negative value of the key is an id of the string set. -/
def KeyInSet (ss : StringSet) (k : List Int) : Prop :=
  ∀ x ∈ k, 0 ≤ x → (ss.getString x).isSome = true

/-- The line that `ToStringAsProgramLine` builds. -/
def programLine (ss : StringSet) (p : BranchCondProgram) : Str :=
  "switch ".toList ++ ProgramToString p.cond.program ++ [':'] ++
    (((caseTargets p).map (fun n => caseLine ss p.per_case_p n ++ [';'])).flatten ++
      elseLine p.p_default)

/-! ## Branched condition programs: parsing the serialized line -/

/-- The characters that separate the parts of a clause. -/
def isCaseSep (c : Char) : Bool := c == ' ' || c == '|' || c == ';' || c == '"'

/-- A string of the string set that a case prints and reads back faithfully: its escaped form is
not empty, does not start with a minus sign, holds no separator of a clause, and unescapes to the
string itself. -/
def GoodName (s : Str) : Prop :=
  EscapeStrSeparators s ≠ [] ∧ (∀ c ∈ (EscapeStrSeparators s).head?, c ≠ '-') ∧
  (∀ c ∈ EscapeStrSeparators s, isCaseSep c = false) ∧
  cstr (UnEscapeStrSeparators (EscapeStrSeparators s)) = s

instance (s : Str) : Decidable (GoodName s) := by unfold GoodName; infer_instance

/-- A case key that prints and reads back faithfully: its values are 32-bit, and the
non-negative ones are ids of good names. -/
def KeyOK (ss : StringSet) (k : List Int) : Prop :=
  ∀ x ∈ k, inInt32 x = true ∧ (0 ≤ x → ∃ s ∈ ss.getString x, GoodName s)

instance (ss : StringSet) (k : List Int) : Decidable (KeyOK ss k) := by
  unfold KeyOK; infer_instance

/-- A branched program that its line gives back: the condition is made of valid ops; the case map
is a `std::map` (keys in strictly increasing order); every key prints and reads back; every
program id is 32-bit; and no case goes to the default program. -/
def BranchProgOK (ss : StringSet) (p : BranchCondProgram) : Prop :=
  (∀ op ∈ p.cond.program, ValidOp op) ∧ SortedMap p.per_case_p ∧
  (∀ it ∈ p.per_case_p, KeyOK ss it.1 ∧ inInt32 it.2 = true ∧ it.2 ≠ p.p_default) ∧
  inInt32 p.p_default = true

instance (ss : StringSet) (p : BranchCondProgram) : Decidable (BranchProgOK ss p) := by
  unfold BranchProgOK; infer_instance

/-! ## The TGen program table (`tgen_program.h`, `tgen_program.cpp`) -/

/-- Mirror of `TGenProgram::ProgramType`. -/
inductive ProgramType where
  | SIMPLE_PROGRAM | BRANCHED_PROGRAM
deriving DecidableEq, Repr

/-- Mirror of `TGenProgram::InternalEntry`. -/
structure InternalEntry where
  type : ProgramType
  program_internal_index : Nat
deriving DecidableEq, Repr

/-- Mirror of `TGenProgram`. -/
structure TGenProgram where
  entries_ : List InternalEntry
  branched_progs_ : List BranchCondProgram
  simple_progs_ : List SimpleCondProgram
deriving DecidableEq, Repr

/-- Mirror of `TGenProgram::Clear`. -/
def TGenProgram.Clear (_self : TGenProgram) : TGenProgram :=
  { entries_ := [], branched_progs_ := [], simple_progs_ := [] }

/-- Mirror of `TGenProgram::AddProgram(const BranchCondProgram&)`: the index and the new table. -/
def TGenProgram.AddProgramBranched (self : TGenProgram) (prog : BranchCondProgram) :
    Nat × TGenProgram :=
  let e : InternalEntry :=
    { type := .BRANCHED_PROGRAM, program_internal_index := self.branched_progs_.length }
  let t : TGenProgram :=
    { self with entries_ := self.entries_ ++ [e], branched_progs_ := self.branched_progs_ ++ [prog] }
  (t.entries_.length - 1, t)

/-- Mirror of `TGenProgram::AddProgram(const SimpleCondProgram&)`: the index and the new table. -/
def TGenProgram.AddProgramSimple (self : TGenProgram) (prog : SimpleCondProgram) :
    Nat × TGenProgram :=
  let e : InternalEntry :=
    { type := .SIMPLE_PROGRAM, program_internal_index := self.simple_progs_.length }
  let t : TGenProgram :=
    { self with entries_ := self.entries_ ++ [e], simple_progs_ := self.simple_progs_ ++ [prog] }
  (t.entries_.length - 1, t)

/-- Mirror of `TGenProgram::size`. -/
def TGenProgram.size (self : TGenProgram) : Nat := self.entries_.length

/-- Mirror of `TGenProgram::program_type`; `none` is the failed `CHECK`. -/
def TGenProgram.program_type (self : TGenProgram) (pos : Nat) : Option ProgramType :=
  self.entries_[pos]?.map (·.type)

/-- Mirror of `TGenProgram::branched_prog`; `none` is a failed `CHECK` or an index out of the
vector. -/
def TGenProgram.branched_prog (self : TGenProgram) (pos : Nat) : Option BranchCondProgram :=
  match self.entries_[pos]? with
  | none => none
  | some e =>
    if e.type = .BRANCHED_PROGRAM then self.branched_progs_[e.program_internal_index]?
    else none

/-- Mirror of `TGenProgram::simple_prog`; `none` is a failed `CHECK` or an index out of the
vector. -/
def TGenProgram.simple_prog (self : TGenProgram) (pos : Nat) : Option SimpleCondProgram :=
  match self.entries_[pos]? with
  | none => none
  | some e =>
    if e.type = .SIMPLE_PROGRAM then self.simple_progs_[e.program_internal_index]?
    else none

/-- Mirror of `TGenProgram::SaveProgramAtPosToString`. -/
def TGenProgram.SaveProgramAtPosToString (self : TGenProgram) (pos : Nat) (ss : StringSet) :
    Option Str :=
  match self.program_type pos with
  | none => none
  | some .BRANCHED_PROGRAM => (self.branched_prog pos).bind fun p => p.ToStringAsProgramLine ss
  | some .SIMPLE_PROGRAM => (self.simple_prog pos).map fun p => p.ToString

/-- The loop of `SaveToString` from position `i`, with `n` positions left. -/
def TGenProgram.SaveToStringLoop (self : TGenProgram) (ss : StringSet) : Nat → Nat → Str → Option Str
  | 0, _, result => some result
  | n + 1, i, result =>
    match self.SaveProgramAtPosToString i ss with
    | none => none
    | some s => self.SaveToStringLoop ss n (i + 1) (result ++ s ++ ['\n'])

/-- Mirror of `TGenProgram::SaveToString`. -/
def TGenProgram.SaveToString (self : TGenProgram) (ss : StringSet) : Option Str :=
  self.SaveToStringLoop ss self.size 0 []

/-- The loop over the lines in `LoadFromStringOrDie`. A `BranchCondProgram` is default-constructed
for every `switch` line: its condition and cases are empty and its member `p_default` is not
initialised, `uninit` stands for its value. -/
def LoadLoop (uninit : Int) : List Str → TGenProgram → StringSet → Option (TGenProgram × StringSet)
  | [], t, ss => some (t, ss)
  | l :: lines, t, ss =>
    let line := TrimLeadingAndTrailingSpaces l
    if line.isEmpty then LoadLoop uninit lines t ss
    else if "switch".toList.isPrefixOf line then
      match (BranchCondProgram.mk ⟨[]⟩ [] uninit).ParseAsProgramLineOrDie ss line with
      | none => none
      | some (p, ss') => LoadLoop uninit lines (t.AddProgramBranched p).2 ss'
    else
      match (SimpleCondProgram.mk [] []).ParseFromStringOrDie line with
      | none => none
      | some p => LoadLoop uninit lines (t.AddProgramSimple p).2 ss

/-- Mirror of `TGenProgram::LoadFromStringOrDie`; `none` is "die". -/
def TGenProgram.LoadFromStringOrDie (self : TGenProgram) (ss : StringSet) (uninit : Int)
    (str : Str) : Option (TGenProgram × StringSet) :=
  LoadLoop uninit (SplitStringUsing str '\n') self.Clear ss

/-! ## The TGen program table: save and load -/

/-- An entry of a table, as `TGenProgram::Entry` gives it: a simple program or a branched
program. -/
inductive Entry where
  | simple (s : SimpleCondProgram)
  | branched (b : BranchCondProgram)
deriving DecidableEq, Repr

/-- Adds the entry with the matching `AddProgram`. -/
def addEntry (t : TGenProgram) (e : Entry) : TGenProgram :=
  match e with
  | .simple s => (t.AddProgramSimple s).2
  | .branched b => (t.AddProgramBranched b).2

/-- The table built by adding the entries, one after the other, to an empty table. -/
def tableOf (es : List Entry) : TGenProgram := es.foldl addEntry ⟨[], [], []⟩

/-- The entry at a position of the table (`program_at`). -/
def entryAt (t : TGenProgram) (i : Nat) : Option Entry :=
  match t.entries_[i]? with
  | none => none
  | some e =>
    match e.type with
    | .SIMPLE_PROGRAM => t.simple_progs_[e.program_internal_index]?.map Entry.simple
    | .BRANCHED_PROGRAM => t.branched_progs_[e.program_internal_index]?.map Entry.branched

/-- The line of an entry in the text of a table. -/
def entryLine (ss : StringSet) (e : Entry) : Str :=
  match e with
  | .simple s => s.ToString
  | .branched b => programLine ss b

/-- The text of a table with the given entries: one line per entry, each ended by a newline. -/
def tgenText (ss : StringSet) (es : List Entry) : Str :=
  (es.map (fun e => entryLine ss e ++ ['\n'])).flatten

/-- The internal indices of the table point into its vectors. -/
def TableInv (t : TGenProgram) : Prop :=
  ∀ e ∈ t.entries_,
    (e.type = .SIMPLE_PROGRAM → e.program_internal_index < t.simple_progs_.length) ∧
    (e.type = .BRANCHED_PROGRAM → e.program_internal_index < t.branched_progs_.length)

/-- The entry can be serialized: the non-negative values of the keys of a branched program are
ids of the string set. -/
def EntryInSet (ss : StringSet) (e : Entry) : Prop :=
  match e with
  | .simple _ => True
  | .branched b => ∀ it ∈ b.per_case_p, KeyInSet ss it.1

/-- The type of an entry. -/
def entryType (e : Entry) : ProgramType :=
  match e with
  | .simple _ => .SIMPLE_PROGRAM
  | .branched _ => .BRANCHED_PROGRAM

/-! ## Claims on the TGen program table -/

/-- An entry that the text of a table gives back: a simple program made of valid ops, or a
branched program that satisfies `BranchProgOK` and whose line holds no newline. -/
def EntryOK (ss : StringSet) (e : Entry) : Prop :=
  match e with
  | .simple s => (∀ op ∈ s.eq_program, ValidOp op) ∧ (∀ op ∈ s.context_program, ValidOp op)
  | .branched b => BranchProgOK ss b ∧ '\n' ∉ programLine ss b

instance (ss : StringSet) (e : Entry) : Decidable (EntryOK ss e) := by
  unfold EntryOK
  cases e <;> infer_instance

/-! ## Tree nodes and tree stores (`tree.h`) -/

/-- Mirror of `struct TreeNode`. -/
structure TreeNode where
  type : Int
  value : Int
  parent : Int
  left_sib : Int
  right_sib : Int
  first_child : Int
  last_child : Int
  child_index : Int
deriving DecidableEq, Repr

/-- Mirror of `TreeNode::EMPTY_NODE_LABEL`. -/
def EMPTY_NODE_LABEL : Int := -1

/-- Mirror of `TreeNode::UNKNOWN_LABEL`. -/
def UNKNOWN_LABEL : Int := -2

/-- Mirror of `TreeNode::EMPTY_NODE`. -/
def TreeNode.EMPTY_NODE : TreeNode :=
  { type := EMPTY_NODE_LABEL, value := EMPTY_NODE_LABEL, parent := -1, left_sib := -1,
    right_sib := -1, first_child := -1, last_child := -1, child_index := -1 }

/-- Mirror of `TREEPOINTER_NO_VALUE`. -/
def TREEPOINTER_NO_VALUE : Int := -1

/-- Mirror of `TREEPOINTER_VALUE_IN_PARENT`. -/
def TREEPOINTER_VALUE_IN_PARENT : Int := -2

/-- Mirror of `TREEPOINTER_DEALLOCATED`. -/
def TREEPOINTER_DEALLOCATED : Int := -3

/-- Mirror of `TreeNode::Value`. -/
def TreeNode.Value (n : TreeNode) : Int :=
  if n.value ≠ UNKNOWN_LABEL then n.value else EMPTY_NODE_LABEL

/-- Mirror of `TreeNode::Type`. -/
def TreeNode.Type (n : TreeNode) : Int :=
  if n.type ≠ UNKNOWN_LABEL then n.type else EMPTY_NODE_LABEL

/-- Mirror of `TreeNode::IsUnknownValue`. -/
def TreeNode.IsUnknownValue (n : TreeNode) : Bool := n.value == UNKNOWN_LABEL

/-- Mirror of `TreeNode::IsUnknownType`. -/
def TreeNode.IsUnknownType (n : TreeNode) : Bool := n.type == UNKNOWN_LABEL

/-- Mirror of `TreeNode::HasNonTerminal`. -/
def TreeNode.HasNonTerminal (n : TreeNode) : Bool := n.IsUnknownType || n.IsUnknownValue

/-- Mirror of `TreeNode::SetType`. -/
def TreeNode.SetType (n : TreeNode) (t : Int) : TreeNode := { n with type := t }

/-- Mirror of `class TreeStorage`. The pointer `parent_` is the address of the parent store in
the memory, `none` for `nullptr`. -/
structure TreeStorage where
  nodes_ : List TreeNode
  parent_ : Option Nat
  position_in_parent_ : Int
  first_free_node_ : Int
deriving DecidableEq, Repr

/-- The tree stores that exist, each at its address (its index in the list). A pointer
`const TreeStorage*` is an address, or `none` for `nullptr`. -/
abbrev Memory := List TreeStorage

/-- The element `nodes_[i]` of a store; `none` outside the vector. -/
def TreeStorage.nodeAt (s : TreeStorage) (i : Int) : Option TreeNode :=
  if 0 ≤ i then s.nodes_[i.toNat]? else none

/-- The expression `storage->nodes_[i]` for a pointer `storage`. -/
def Memory.nodeAt (m : Memory) (storage : Option Nat) (i : Int) : Option TreeNode :=
  match storage with
  | none => none
  | some a => m[a]?.bind fun s => s.nodeAt i

/-- Mirror of `TreeStorage::NumAllocatedNodes`. -/
def TreeStorage.NumAllocatedNodes (s : TreeStorage) : Int := (s.nodes_.length : Nat)

/-- Mirror of the constructor `TreeStorage()`, with `AddFirstNode`. -/
def TreeStorage.create : TreeStorage :=
  { nodes_ :=
      [{ type := UNKNOWN_LABEL, value := -1, parent := -1, left_sib := -1,
         right_sib := -1, first_child := -1, last_child := -1, child_index := 0 }],
    parent_ := none, position_in_parent_ := -1, first_free_node_ := -1 }

/-- Mirror of the constructor `TreeStorage(parent, position_in_parent)`, with `AddFirstNode` and
`AttachTo`, for a parent store that exists (`parent != nullptr`). -/
def TreeStorage.createAttached (m : Memory) (parent : Nat) (position_in_parent : Int) :
    Option TreeStorage :=
  (Memory.nodeAt m (some parent) position_in_parent).map fun pn =>
    let n0 : TreeNode :=
      { type := UNKNOWN_LABEL, value := -1, parent := -1, left_sib := -1,
        right_sib := -1, first_child := -1, last_child := -1, child_index := 0 }
    let n1 := if pn.left_sib ≥ 0 then { n0 with left_sib := TREEPOINTER_VALUE_IN_PARENT } else n0
    let n2 := if pn.right_sib ≥ 0 then { n1 with right_sib := TREEPOINTER_VALUE_IN_PARENT } else n1
    let n3 := { n2 with parent := TREEPOINTER_VALUE_IN_PARENT, child_index := pn.child_index }
    { nodes_ := [n3], parent_ := some parent, position_in_parent_ := position_in_parent,
      first_free_node_ := -1 }

/-! ## Traversals (`tree.h`) -/

/-- Mirror of `class FullTreeTraversal`. -/
structure FullTreeTraversal where
  storage_ : Option Nat
  position_ : Int
deriving DecidableEq, Repr

/-- Mirror of `FullTreeTraversal::node`. -/
def FullTreeTraversal.node (m : Memory) (t : FullTreeTraversal) : Option TreeNode :=
  m.nodeAt t.storage_ t.position_

/-- Mirror of `FullTreeTraversal::move_to_parent_storage`: the moved traversal and the node it
returns. -/
def FullTreeTraversal.move_to_parent_storage (m : Memory) (t : FullTreeTraversal) :
    Option (FullTreeTraversal × TreeNode) :=
  match t.storage_ with
  | none => none
  | some a =>
    m[a]?.bind fun s =>
      let t' : FullTreeTraversal := { storage_ := s.parent_, position_ := s.position_in_parent_ }
      (m.nodeAt t'.storage_ t'.position_).map fun n => (t', n)

/-- Mirror of `FullTreeTraversal::left`: the returned flag and the traversal after the call. -/
def FullTreeTraversal.left (m : Memory) (t : FullTreeTraversal) :
    Option (Bool × FullTreeTraversal) :=
  (t.node m).bind fun n =>
    let left_sib := n.left_sib
    (if left_sib = TREEPOINTER_VALUE_IN_PARENT then
        (t.move_to_parent_storage m).map fun r => (r.1, r.2.left_sib)
      else some (t, left_sib)).map fun r =>
      if r.2 < 0 then (false, r.1) else (true, { r.1 with position_ := r.2 })

/-- Mirror of `FullTreeTraversal::right`. -/
def FullTreeTraversal.right (m : Memory) (t : FullTreeTraversal) :
    Option (Bool × FullTreeTraversal) :=
  (t.node m).bind fun n =>
    let right_sib := n.right_sib
    (if right_sib = TREEPOINTER_VALUE_IN_PARENT then
        (t.move_to_parent_storage m).map fun r => (r.1, r.2.right_sib)
      else some (t, right_sib)).map fun r =>
      if r.2 < 0 then (false, r.1) else (true, { r.1 with position_ := r.2 })

/-- Mirror of `FullTreeTraversal::up`. -/
def FullTreeTraversal.up (m : Memory) (t : FullTreeTraversal) :
    Option (Bool × FullTreeTraversal) :=
  (t.node m).bind fun n =>
    let parent := n.parent
    (if parent = TREEPOINTER_VALUE_IN_PARENT then
        (t.move_to_parent_storage m).map fun r => (r.1, r.2.parent)
      else some (t, parent)).map fun r =>
      if r.2 < 0 then (false, r.1) else (true, { r.1 with position_ := r.2 })

/-- Mirror of `FullTreeTraversal::down_first_child`. -/
def FullTreeTraversal.down_first_child (m : Memory) (t : FullTreeTraversal) :
    Option (Bool × FullTreeTraversal) :=
  (t.node m).map fun n =>
    if n.first_child < 0 then (false, t) else (true, { t with position_ := n.first_child })

/-- Mirror of `FullTreeTraversal::down_last_child`. -/
def FullTreeTraversal.down_last_child (m : Memory) (t : FullTreeTraversal) :
    Option (Bool × FullTreeTraversal) :=
  (t.node m).map fun n =>
    if n.last_child < 0 then (false, t) else (true, { t with position_ := n.last_child })

/-- Mirror of `class LocalTreeTraversal` and of `class ConstLocalTreeTraversal`, whose members
and moves are the same. -/
structure LocalTreeTraversal where
  storage_ : Option Nat
  position_ : Int
deriving DecidableEq, Repr

/-- Mirror of `LocalTreeTraversal::node` and `ConstLocalTreeTraversal::node`. -/
def LocalTreeTraversal.node (m : Memory) (t : LocalTreeTraversal) : Option TreeNode :=
  m.nodeAt t.storage_ t.position_

/-- Mirror of `LocalTreeTraversal::left` and `ConstLocalTreeTraversal::left`. -/
def LocalTreeTraversal.left (m : Memory) (t : LocalTreeTraversal) :
    Option (Bool × LocalTreeTraversal) :=
  (t.node m).map fun n =>
    if n.left_sib < 0 then (false, t) else (true, { t with position_ := n.left_sib })

/-- Mirror of `LocalTreeTraversal::right` and `ConstLocalTreeTraversal::right`. -/
def LocalTreeTraversal.right (m : Memory) (t : LocalTreeTraversal) :
    Option (Bool × LocalTreeTraversal) :=
  (t.node m).map fun n =>
    if n.right_sib < 0 then (false, t) else (true, { t with position_ := n.right_sib })

/-- Mirror of `LocalTreeTraversal::up` and `ConstLocalTreeTraversal::up`. -/
def LocalTreeTraversal.up (m : Memory) (t : LocalTreeTraversal) :
    Option (Bool × LocalTreeTraversal) :=
  (t.node m).map fun n =>
    if n.parent < 0 then (false, t) else (true, { t with position_ := n.parent })

/-- Mirror of `LocalTreeTraversal::down_first_child` and
`ConstLocalTreeTraversal::down_first_child`. -/
def LocalTreeTraversal.down_first_child (m : Memory) (t : LocalTreeTraversal) :
    Option (Bool × LocalTreeTraversal) :=
  (t.node m).map fun n =>
    if n.first_child < 0 then (false, t) else (true, { t with position_ := n.first_child })

/-- Mirror of `LocalTreeTraversal::down_last_child` and
`ConstLocalTreeTraversal::down_last_child`. -/
def LocalTreeTraversal.down_last_child (m : Memory) (t : LocalTreeTraversal) :
    Option (Bool × LocalTreeTraversal) :=
  (t.node m).map fun n =>
    if n.last_child < 0 then (false, t) else (true, { t with position_ := n.last_child })

/-! ## Tree slices and sliced traversals (`tree_slice.h`) -/

/-- Mirror of `class TreeSlice`. -/
structure TreeSlice where
  storage_ : Option Nat
  begin_ : Int
  end_ : Int
  allow_reading_type_for_begin_node_ : Bool
deriving DecidableEq, Repr

/-- Mirror of the constructor `TreeSlice(storage)`. -/
def TreeSlice.ofStorage (storage : Option Nat) : TreeSlice :=
  { storage_ := storage, begin_ := -1, end_ := -1, allow_reading_type_for_begin_node_ := false }

/-- Mirror of the constructor `TreeSlice(storage, begin, allow_reading_type_for_begin_node)`
(and, with `false`, of `TreeSlice(storage, begin)`): the slice ends at
`storage->NumAllocatedNodes()`. -/
def TreeSlice.ofBegin (m : Memory) (storage : Nat) (begin : Int)
    (allow_reading_type_for_begin_node : Bool) : Option TreeSlice :=
  m[storage]?.map fun s =>
    { storage_ := some storage, begin_ := begin, end_ := s.NumAllocatedNodes,
      allow_reading_type_for_begin_node_ := allow_reading_type_for_begin_node }

/-- Mirror of `TreeSlice::IsNodeSliced`. -/
def TreeSlice.IsNodeSliced (sl : TreeSlice) (storage : Option Nat) (node_id : Int) : Bool :=
  decide (storage = sl.storage_) && decide (node_id ≥ sl.begin_) && decide (node_id < sl.end_)

/-- Mirror of `class SlicedTreeTraversal`; `slice_` is the slice that the pointer refers to. -/
structure SlicedTreeTraversal where
  storage_ : Option Nat
  position_ : Int
  slice_ : Option TreeSlice
  last_subtree_position_ : Int
  last_subtree_ : Option Nat
deriving DecidableEq, Repr

/-- Mirror of the constructors `SlicedTreeTraversal(storage, position)` (with `none`) and
`SlicedTreeTraversal(storage, position, slice)`. -/
def SlicedTreeTraversal.create (storage : Option Nat) (position : Int) (slice : Option TreeSlice) :
    SlicedTreeTraversal :=
  { storage_ := storage, position_ := position, slice_ := slice,
    last_subtree_position_ := -1, last_subtree_ := none }

/-- The test `slice_ != nullptr && slice_->IsNodeSliced(storage, node_id)`. -/
def SlicedTreeTraversal.sliced (t : SlicedTreeTraversal) (storage : Option Nat) (node_id : Int) :
    Bool :=
  match t.slice_ with
  | none => false
  | some sl => sl.IsNodeSliced storage node_id

/-- The test `node_id == slice_->BeginNode()`, used where `slice_` is not null. -/
def SlicedTreeTraversal.isBegin (t : SlicedTreeTraversal) (node_id : Int) : Bool :=
  match t.slice_ with
  | none => false
  | some sl => decide (node_id = sl.begin_)

/-- Mirror of `SlicedTreeTraversal::node`. -/
def SlicedTreeTraversal.node (m : Memory) (t : SlicedTreeTraversal) : Option TreeNode :=
  match t.slice_ with
  | some sl =>
    if sl.IsNodeSliced t.storage_ t.position_ then
      if t.position_ = sl.begin_ then
        (m.nodeAt t.storage_ t.position_).map fun n =>
          let result : TreeNode :=
            { TreeNode.EMPTY_NODE with
              child_index := n.child_index, left_sib := n.left_sib, parent := n.parent }
          if sl.allow_reading_type_for_begin_node_ then result.SetType n.Type else result
      else some TreeNode.EMPTY_NODE
    else m.nodeAt t.storage_ t.position_
  | none => m.nodeAt t.storage_ t.position_

/-- Mirror of `SlicedTreeTraversal::can_move_to_parent_storage`. -/
def SlicedTreeTraversal.can_move_to_parent_storage (m : Memory) (t : SlicedTreeTraversal) :
    Option Bool :=
  match t.storage_ with
  | none => none
  | some a =>
    m[a]?.map fun s =>
      !(t.sliced s.parent_ s.position_in_parent_ && !(t.isBegin s.position_in_parent_))

/-- Mirror of `SlicedTreeTraversal::move_to_parent_storage`: the moved traversal and the node it
returns; `none` when `CHECK(position_ == 0)` fails. -/
def SlicedTreeTraversal.move_to_parent_storage (m : Memory) (t : SlicedTreeTraversal) :
    Option (SlicedTreeTraversal × TreeNode) :=
  if t.position_ ≠ 0 then none else
  match t.storage_ with
  | none => none
  | some a =>
    m[a]?.bind fun s =>
      let t' : SlicedTreeTraversal :=
        { t with last_subtree_ := t.storage_, last_subtree_position_ := s.position_in_parent_,
                 position_ := s.position_in_parent_, storage_ := s.parent_ }
      (m.nodeAt t'.storage_ t'.position_).map fun n => (t', n)

/-- Mirror of `SlicedTreeTraversal::move_to_subtree_storage`; `none` when the `CHECK` fails. -/
def SlicedTreeTraversal.move_to_subtree_storage (t : SlicedTreeTraversal) :
    Option SlicedTreeTraversal :=
  match t.last_subtree_ with
  | none => none
  | some a =>
    some { t with storage_ := some a, position_ := 0, last_subtree_ := none,
                  last_subtree_position_ := -1 }

/-- Mirror of `SlicedTreeTraversal::can_move_to_subtree_storage`. -/
def SlicedTreeTraversal.can_move_to_subtree_storage (t : SlicedTreeTraversal) (position : Int) :
    Bool :=
  decide (position = t.last_subtree_position_) && t.last_subtree_.isSome

/-- The first lines of `left`, `right` and `up`: the pointer read at the position, replaced by
the pointer of the parent store when it is `TREEPOINTER_VALUE_IN_PARENT` and the traversal can
move to the parent store. `field` selects `left_sib`, `right_sib` or `parent`. -/
def SlicedTreeTraversal.resolve (m : Memory) (t : SlicedTreeTraversal) (ptr : Int)
    (field : TreeNode → Int) : Option (SlicedTreeTraversal × Int) :=
  if ptr = TREEPOINTER_VALUE_IN_PARENT then
    (t.can_move_to_parent_storage m).bind fun can =>
      if can then (t.move_to_parent_storage m).map fun r => (r.1, field r.2)
      else some (t, ptr)
  else some (t, ptr)

/-- Mirror of `SlicedTreeTraversal::left`: the returned flag and the traversal after the call;
`none` when a `CHECK` fails. -/
def SlicedTreeTraversal.left (m : Memory) (t : SlicedTreeTraversal) :
    Option (Bool × SlicedTreeTraversal) :=
  (m.nodeAt t.storage_ t.position_).bind fun n =>
  (t.resolve m n.left_sib TreeNode.left_sib).bind fun r =>
    let t1 := r.1
    let left_sib := r.2
    if left_sib < 0 then some (false, t1)
    else if t1.sliced t1.storage_ left_sib then
      if t1.isBegin left_sib then none else some (false, t1)
    else some (true, { t1 with position_ := left_sib })

/-- Mirror of `SlicedTreeTraversal::right`. -/
def SlicedTreeTraversal.right (m : Memory) (t : SlicedTreeTraversal) :
    Option (Bool × SlicedTreeTraversal) :=
  (t.node m).bind fun n =>
  (t.resolve m n.right_sib TreeNode.right_sib).bind fun r =>
    let t1 := r.1
    let right_sib := r.2
    if right_sib < 0 then some (false, t1)
    else if t1.sliced t1.storage_ right_sib && !(t1.isBegin right_sib) then some (false, t1)
    else some (true, { t1 with position_ := right_sib })

/-- Mirror of `SlicedTreeTraversal::up`. -/
def SlicedTreeTraversal.up (m : Memory) (t : SlicedTreeTraversal) :
    Option (Bool × SlicedTreeTraversal) :=
  (m.nodeAt t.storage_ t.position_).bind fun n =>
  (t.resolve m n.parent TreeNode.parent).bind fun r =>
    let t1 := r.1
    let parent := r.2
    if parent < 0 then some (false, t1)
    else if t1.sliced t1.storage_ parent then
      if t1.isBegin parent then none else some (false, t1)
    else some (true, { t1 with position_ := parent })

/-- Mirror of `SlicedTreeTraversal::down_first_child`. -/
def SlicedTreeTraversal.down_first_child (m : Memory) (t : SlicedTreeTraversal) :
    Option (Bool × SlicedTreeTraversal) :=
  (m.nodeAt t.storage_ t.position_).bind fun n =>
    let first_child := n.first_child
    if first_child < 0 then some (false, t)
    else if t.can_move_to_subtree_storage first_child then
      t.move_to_subtree_storage.map fun t' => (true, t')
    else if t.sliced t.storage_ first_child && !(t.isBegin first_child) then some (false, t)
    else some (true, { t with position_ := first_child })

/-- Mirror of `SlicedTreeTraversal::down_last_child`. -/
def SlicedTreeTraversal.down_last_child (m : Memory) (t : SlicedTreeTraversal) :
    Option (Bool × SlicedTreeTraversal) :=
  (m.nodeAt t.storage_ t.position_).bind fun n =>
    let last_child := n.last_child
    if last_child < 0 then some (false, t)
    else if t.can_move_to_subtree_storage last_child then
      t.move_to_subtree_storage.map fun t' => (true, t')
    else if t.sliced t.storage_ last_child then some (false, t)
    else
      (m.nodeAt t.storage_ last_child).map fun c =>
        if c.HasNonTerminal then (false, t) else (true, { t with position_ := last_child })

/-! ## The stores of the traversal tests (`tree_test.cpp`) -/

/-- The store `root_tree` of the tests `FullTraversalSlice` and `FullTraversalSlice2` after
`root_tree.SubstituteNode(0, TreeSubstitution({{7,-1,1,-1}, {3,-1,-1,2}, {4,-1,-1,-1}}))`,
printed by the tests as `[7 [3] [4]]`: node 0 is the root, nodes 1 and 2 are its children. -/
def test_root_tree : TreeStorage :=
  { nodes_ :=
      [{ type := 7, value := -1, parent := -1, left_sib := -1, right_sib := -1,
         first_child := 1, last_child := 2, child_index := 0 },
       { type := 3, value := -1, parent := 0, left_sib := -1, right_sib := 2,
         first_child := -1, last_child := -1, child_index := 0 },
       { type := 4, value := -1, parent := 0, left_sib := 1, right_sib := -1,
         first_child := -1, last_child := -1, child_index := 1 }],
    parent_ := none, position_in_parent_ := -1, first_free_node_ := -1 }

/-- The store `second_tree` of those tests, constructed as
`TreeStorage second_tree(&root_tree, position_in_parent)` with `root_tree` at address `0`, after
`second_tree.SubstituteNode(0, TreeSubstitution({{5,-1,1,-1}, {6,-1,-1,2}, {10,-1,-1,-1}}))`,
printed as `[5 [6] [10]]`: node 0 keeps the pointers that `AttachTo` gave it. -/
def test_second_tree (position_in_parent : Int) : Option TreeStorage :=
  (TreeStorage.createAttached [test_root_tree] 0 position_in_parent).map fun s =>
    { s with
      nodes_ :=
        (s.nodes_.map fun n0 => { n0 with type := 5, value := -1, first_child := 1, last_child := 2 })
          ++ [{ type := 6, value := -1, parent := 0, left_sib := -1, right_sib := 2,
                first_child := -1, last_child := -1, child_index := 0 },
              { type := 10, value := -1, parent := 0, left_sib := 1, right_sib := -1,
                first_child := -1, last_child := -1, child_index := 1 }] }

/-- The memory of a test: `root_tree` at address `0` and `second_tree`, attached at
`position_in_parent`, at address `1`. -/
def test_memory (position_in_parent : Int) : Memory :=
  test_root_tree :: (test_second_tree position_in_parent).toList

/-- The node that `SlicedTreeTraversal::node` builds at the begin node of the slice from the
stored node `n`. -/
def beginNodeView (allow_reading_type_for_begin_node : Bool) (n : TreeNode) : TreeNode :=
  { type := if allow_reading_type_for_begin_node then n.Type else -1, value := -1,
    parent := n.parent, left_sib := n.left_sib, right_sib := -1, first_child := -1,
    last_child := -1, child_index := n.child_index }

/-! ## Walk over the nodes of a store (`tree.h`) -/

/-- The inner loop of `TreeStorage::ForEachSubnodeOfNode`, which leaves a node without children:
`some none` when the walk is over, `some (some id)` for the next node to visit, `none` when a node
is read outside the vector or the loop does not end within `fuel` rounds. -/
def TreeStorage.leaveNode (s : TreeStorage) (start_node : Int) :
    Nat → Int → Option (Option Int)
  | 0, _ => none
  | fuel + 1, current_node =>
    if current_node = start_node then some none
    else
      (s.nodeAt current_node).bind fun n =>
        if n.right_sib ≥ 0 then some (some n.right_sib)
        else s.leaveNode start_node fuel n.parent

/-- The outer loop of `TreeStorage::ForEachSubnodeOfNode`: the nodes passed to the callback, in
order. -/
def TreeStorage.walkFrom (s : TreeStorage) (start_node : Int) :
    Nat → Int → Option (List Int)
  | 0, _ => none
  | fuel + 1, current_node =>
    (s.nodeAt current_node).bind fun n =>
      if n.first_child ≥ 0 then
        (s.walkFrom start_node fuel n.first_child).map fun rest => current_node :: rest
      else
        (s.leaveNode start_node (s.nodes_.length + 1) current_node).bind fun next =>
          match next with
          | none => some [current_node]
          | some c => (s.walkFrom start_node fuel c).map fun rest => current_node :: rest

/-- Mirror of `TreeStorage::ForEachSubnodeOfNode`: the list of the nodes passed to the callback.
Each loop is a function of the current node alone, so a walk that ends visits no node twice and
`nodes_.size() + 1` rounds are enough for it; `none` is a walk that reads outside the vector or
does not end. -/
def TreeStorage.ForEachSubnodeOfNode (s : TreeStorage) (start_node : Int) : Option (List Int) :=
  s.walkFrom start_node (s.nodes_.length + 1) start_node

/-! ## Actor index (`tree_index.h`, `tree_index.cpp`) -/

/-- The three subclasses of `ActorFinder`. -/
inductive ActorFinder where
  | ActorFinderByNodeType | ActorFinderByNodeValue | ActorFinderByNodeContext
deriving DecidableEq, Repr

/-- Mirror of `SequenceHashFeature::PushBack` (`pbox.h`) on the member `hash_`. Modelled from the
spec: `FingerprintCat` of `base/` is not among the sources and is the parameter of this
function. `none` is `std::abs` of the least `int`, which is undefined. -/
def SequenceHashFeature.PushBack (FingerprintCat : Int → Int → Int) (hash_ : Int) (value : Int) :
    Option Int :=
  if FingerprintCat hash_ value = -2147483648 then none
  else some (Int.natAbs (FingerprintCat hash_ value) : Nat)

/-- The loop of `ActorFinderByNodeContext::GetNodeActorSymbol` on the variables `f.hash_` and `t`;
the counter `left` is `3 - context_size` at the start of a round. -/
def contextSymbolLoop (FingerprintCat : Int → Int → Int) (m : Memory) :
    Nat → Int → SlicedTreeTraversal → Option Int
  | 0, hash_, _ => some hash_
  | left + 1, hash_, t =>
    (t.node m).bind fun n =>
    (SequenceHashFeature.PushBack FingerprintCat hash_ n.Value).bind fun h1 =>
    (SequenceHashFeature.PushBack FingerprintCat h1 n.Type).bind fun h2 =>
    (t.up m).bind fun r =>
      if r.1 && decide (0 < left) then contextSymbolLoop FingerprintCat m left h2 r.2
      else some h2

/-- Mirror of the three overrides of `ActorFinder::GetNodeActorSymbol`. -/
def ActorFinder.GetNodeActorSymbol (FingerprintCat : Int → Int → Int) (m : Memory)
    (af : ActorFinder) (t : SlicedTreeTraversal) : Option Int :=
  match af with
  | .ActorFinderByNodeType => (t.node m).map TreeNode.Type
  | .ActorFinderByNodeValue => (t.node m).map TreeNode.Value
  | .ActorFinderByNodeContext => contextSymbolLoop FingerprintCat m 3 0 t

/-- Mirror of `ActorIndex::SymbolSequencePredecessor`. -/
structure SymbolSequencePredecessor where
  symbol : Int
  pred_position : Int
deriving DecidableEq, Repr

/-- Mirror of `class ActorIndex`; the `unordered_map` is kept as the list of its entries, with
one entry for a key. -/
structure ActorIndex where
  actor_finder_ : ActorFinder
  tree_ : Option Nat
  symbol_sequences_ : List (Int × List Int)
  symbol_predecessors_ : List SymbolSequencePredecessor
deriving DecidableEq, Repr

/-- Mirror of the constructor of `ActorIndex`. -/
def ActorIndex.create (actor_finder : ActorFinder) (tree : Option Nat) : ActorIndex :=
  { actor_finder_ := actor_finder, tree_ := tree, symbol_sequences_ := [],
    symbol_predecessors_ := [] }

/-- Mirror of `ActorIndex::find_sequence`; `none` is `nullptr`. -/
def ActorIndex.find_sequence (idx : ActorIndex) (symbol : Int) : Option (List Int) :=
  idx.symbol_sequences_.lookup symbol

/-- The assignment `m[key] = nodes` on the `unordered_map`. -/
def sequencesAssign : List (Int × List Int) → Int → List Int → List (Int × List Int)
  | [], key, nodes => [(key, nodes)]
  | (k, ns) :: rest, key, nodes =>
    if key = k then (k, nodes) :: rest else (k, ns) :: sequencesAssign rest key nodes

/-- The callback of `ActorIndex::Build` for one node. -/
def ActorIndex.BuildVisit (FingerprintCat : Int → Int → Int) (m : Memory) (idx : ActorIndex)
    (node_id : Int) : Option ActorIndex :=
  (idx.actor_finder_.GetNodeActorSymbol FingerprintCat m
      (SlicedTreeTraversal.create idx.tree_ node_id (some (TreeSlice.ofStorage none)))).bind
    fun symbol =>
      if symbol ≥ 0 then
        let symbol_nodes := (idx.find_sequence symbol).getD []
        if 0 ≤ node_id then
          (idx.symbol_predecessors_[node_id.toNat]?).map fun old =>
            { idx with
              symbol_predecessors_ :=
                idx.symbol_predecessors_.set node_id.toNat
                  { symbol := symbol,
                    pred_position := (symbol_nodes.getLast?).getD old.pred_position },
              symbol_sequences_ :=
                sequencesAssign idx.symbol_sequences_ symbol (symbol_nodes ++ [node_id]) }
        else none
      else some idx

/-- The calls of the callback of `ActorIndex::Build` on the nodes of the walk, in order. -/
def ActorIndex.BuildLoop (FingerprintCat : Int → Int → Int) (m : Memory) :
    List Int → ActorIndex → Option ActorIndex
  | [], idx => some idx
  | node_id :: rest, idx =>
    (idx.BuildVisit FingerprintCat m node_id).bind fun idx1 =>
      ActorIndex.BuildLoop FingerprintCat m rest idx1

/-- Mirror of `ActorIndex::Build`. -/
def ActorIndex.Build (FingerprintCat : Int → Int → Int) (m : Memory) (idx : ActorIndex) :
    Option ActorIndex :=
  match idx.tree_ with
  | none => none
  | some a =>
    m[a]?.bind fun tree =>
      (tree.ForEachSubnodeOfNode 0).bind fun visited =>
        ActorIndex.BuildLoop FingerprintCat m visited
          { idx with
            symbol_predecessors_ :=
              List.replicate tree.nodes_.length { symbol := -1, pred_position := -1 } }

/-- Mirror of `ActorIndex::get_symbol_pedecessor`: the returned flag and `*position` after the
call; `none` is the failed `CHECK_LT` or an index below the vector. -/
def ActorIndex.get_symbol_pedecessor (idx : ActorIndex) (tree : Option Nat) (symbol : Int)
    (position : Int) : Option (Bool × Int) :=
  if tree = idx.tree_ then
    if position < (idx.symbol_predecessors_.length : Nat) then
      if 0 ≤ position then
        (idx.symbol_predecessors_[position.toNat]?).map fun sp =>
          if sp.symbol = symbol then (true, sp.pred_position) else (false, position)
      else none
    else none
  else some (false, position)

/-- The call `std::lower_bound(nodes.begin(), nodes.end(), value)` as the offset of the returned
iterator: the number of leading elements less than `value`. `none` when the range is not
partitioned with respect to `element < value`, for which the call is undefined. -/
def lower_bound (nodes : List Int) (value : Int) : Option Nat :=
  if (nodes.dropWhile (fun x => decide (x < value))).all (fun x => !decide (x < value)) then
    some (nodes.takeWhile (fun x => decide (x < value))).length
  else none

/-- The loop `while (local_t.down_last_child()) {}`. -/
def LocalTreeTraversal.whileDownLast (m : Memory) :
    Nat → LocalTreeTraversal → Option LocalTreeTraversal
  | 0, _ => none
  | fuel + 1, t =>
    (t.down_last_child m).bind fun r =>
      if r.1 then LocalTreeTraversal.whileDownLast m fuel r.2 else some r.2

/-- The loop of `ActorSymbolIterator::MoveLeft` over the local tree: `some (some t)` when a node
with the symbol is found at `t`, `some none` when the loop is left with `break`. -/
def ActorSymbolIterator.localLoop (FingerprintCat : Int → Int → Int) (m : Memory)
    (af : ActorFinder) (symbol_ : Int) (fuel0 : Nat) :
    Nat → LocalTreeTraversal → Option (Option LocalTreeTraversal)
  | 0, _ => none
  | fuel + 1, local_t =>
    (local_t.left m).bind fun r =>
      (if r.1 then (LocalTreeTraversal.whileDownLast m fuel0 r.2).map some
       else (r.2.up m).map fun u => if u.1 then some u.2 else none).bind fun next =>
        match next with
        | none => some none
        | some l =>
          (af.GetNodeActorSymbol FingerprintCat m
              (SlicedTreeTraversal.create l.storage_ l.position_ none)).bind fun symbol =>
            if symbol = symbol_ then some (some l)
            else ActorSymbolIterator.localLoop FingerprintCat m af symbol_ fuel0 fuel l

/-- The end of `ActorSymbolIterator::MoveLeft`, "The tree is indexed. Lookup the index.": the
returned flag and `tree_pos_` after the call. -/
def ActorSymbolIterator.lookupIndex (symbol_ : Int) (tree_pos_ : SlicedTreeTraversal)
    (index_ : ActorIndex) : Option (Bool × SlicedTreeTraversal) :=
  match index_.find_sequence symbol_ with
  | none => some (false, tree_pos_)
  | some nodes =>
    (lower_bound nodes tree_pos_.position_).bind fun it =>
      if it = 0 then some (false, tree_pos_)
      else
        (nodes[it - 1]?).map fun node_id =>
          (true, SlicedTreeTraversal.create tree_pos_.storage_ node_id tree_pos_.slice_)

/-- Mirror of `ActorSymbolIterator::MoveLeft` on the iterator
`ActorSymbolIterator(symbol_, tree_pos_, index_)`: the returned flag and `tree_pos_` after the
call, which `GetItem` returns. `fuel` bounds the rounds of each loop. -/
def ActorSymbolIterator.MoveLeft (FingerprintCat : Int → Int → Int) (m : Memory) (fuel : Nat)
    (symbol_ : Int) (tree_pos_ : SlicedTreeTraversal) (index_ : ActorIndex) :
    Option (Bool × SlicedTreeTraversal) :=
  (index_.get_symbol_pedecessor tree_pos_.storage_ symbol_ tree_pos_.position_).bind fun r =>
    if r.1 then
      if r.2 < 0 then some (false, tree_pos_)
      else some (true, SlicedTreeTraversal.create tree_pos_.storage_ r.2 tree_pos_.slice_)
    else
      match tree_pos_.storage_ with
      | none => none
      | some a =>
        m[a]?.bind fun storage =>
          if storage.parent_.isSome then
            (ActorSymbolIterator.localLoop FingerprintCat m index_.actor_finder_ symbol_ fuel fuel
                { storage_ := tree_pos_.storage_, position_ := tree_pos_.position_ }).bind
              fun found =>
                match found with
                | some l =>
                  some (true, SlicedTreeTraversal.create l.storage_ l.position_ tree_pos_.slice_)
                | none =>
                  ActorSymbolIterator.lookupIndex symbol_
                    (SlicedTreeTraversal.create storage.parent_ storage.position_in_parent_
                      tree_pos_.slice_) index_
          else ActorSymbolIterator.lookupIndex symbol_ tree_pos_ index_

/-! ## Execution of a TCond program (`tcond_language.h`) -/

/-- Mirror of `TCondLanguage::ExecutionForTree`, without the string set, which the execution
uses for the debug text only. -/
structure ExecutionForTree where
  tree_ : Option Nat
  index_by_node_type_ : ActorIndex
  index_by_node_value_ : ActorIndex
  index_by_node_context_ : ActorIndex
deriving DecidableEq, Repr

/-- Mirror of the constructor of `ExecutionForTree`, which builds the three indices. -/
def ExecutionForTree.create (FingerprintCat : Int → Int → Int) (m : Memory) (tree : Option Nat) :
    Option ExecutionForTree :=
  ((ActorIndex.create .ActorFinderByNodeType tree).Build FingerprintCat m).bind fun nt =>
  ((ActorIndex.create .ActorFinderByNodeValue tree).Build FingerprintCat m).bind fun nv =>
  ((ActorIndex.create .ActorFinderByNodeContext tree).Build FingerprintCat m).map fun nc =>
    { tree_ := tree, index_by_node_type_ := nt, index_by_node_value_ := nv,
      index_by_node_context_ := nc }

/-- The loop `while (t->down_last_child()) {}`. -/
def SlicedTreeTraversal.whileDownLast (m : Memory) :
    Nat → SlicedTreeTraversal → Option SlicedTreeTraversal
  | 0, _ => none
  | fuel + 1, t =>
    (t.down_last_child m).bind fun r =>
      if r.1 then SlicedTreeTraversal.whileDownLast m fuel r.2 else some r.2

/-- The loop `while (t->down_first_child()) {}`. -/
def SlicedTreeTraversal.whileDownFirst (m : Memory) :
    Nat → SlicedTreeTraversal → Option SlicedTreeTraversal
  | 0, _ => none
  | fuel + 1, t =>
    (t.down_first_child m).bind fun r =>
      if r.1 then SlicedTreeTraversal.whileDownFirst m fuel r.2 else some r.2

/-- The loop of the case `PREV_LEAF`. -/
def prevLeafLoop (m : Memory) (fuel0 : Nat) : Nat → SlicedTreeTraversal → Option SlicedTreeTraversal
  | 0, _ => none
  | fuel + 1, t =>
    (t.left m).bind fun r =>
      if r.1 then SlicedTreeTraversal.whileDownLast m fuel0 r.2
      else (r.2.up m).bind fun u => if u.1 then prevLeafLoop m fuel0 fuel u.2 else some u.2

/-- The loop of the case `NEXT_LEAF`. -/
def nextLeafLoop (m : Memory) (fuel0 : Nat) : Nat → SlicedTreeTraversal → Option SlicedTreeTraversal
  | 0, _ => none
  | fuel + 1, t =>
    (t.right m).bind fun r =>
      if r.1 then SlicedTreeTraversal.whileDownFirst m fuel0 r.2
      else (r.2.up m).bind fun u => if u.1 then nextLeafLoop m fuel0 fuel u.2 else some u.2

/-- The cases `PREV_NODE_TYPE` and `PREV_NODE_CONTEXT`: the traversal after the case. -/
def prevNodeStep (FingerprintCat : Int → Int → Int) (m : Memory) (fuel : Nat) (index : ActorIndex)
    (t : SlicedTreeTraversal) : Option SlicedTreeTraversal :=
  (index.actor_finder_.GetNodeActorSymbol FingerprintCat m t).bind fun symbol =>
    (ActorSymbolIterator.MoveLeft FingerprintCat m fuel symbol t index).map fun r =>
      if r.1 then r.2 else t

/-- One round of the loop of `GetConditionedFeaturesForPosition`: the values passed to the
callback and the traversal after the operation. The difference of `WRITE_POS` is undefined when
it does not fit an `int`. -/
def ExecutionForTree.executeOp (FingerprintCat : Int → Int → Int) (m : Memory) (fuel : Nat)
    (exec : ExecutionForTree) (op : Op) (t : SlicedTreeTraversal) :
    Option (List Int × SlicedTreeTraversal) :=
  match op.cmd with
  | .WRITE_TYPE => (t.node m).map fun n => ([n.Type], t)
  | .WRITE_VALUE => (t.node m).map fun n => ([n.Value], t)
  | .WRITE_POS =>
    (t.node m).bind fun n =>
      if inInt32 (-1000 - n.child_index) then some ([-1000 - n.child_index], t) else none
  | .UP => (t.up m).map fun r => ([], r.2)
  | .LEFT => (t.left m).map fun r => ([], r.2)
  | .RIGHT => (t.right m).map fun r => ([], r.2)
  | .DOWN_FIRST => (t.down_first_child m).map fun r => ([], r.2)
  | .DOWN_LAST => (t.down_last_child m).map fun r => ([], r.2)
  | .PREV_LEAF => (prevLeafLoop m fuel fuel t).map fun t1 => ([], t1)
  | .NEXT_LEAF => (nextLeafLoop m fuel fuel t).map fun t1 => ([], t1)
  | .PREV_DFS =>
    (t.left m).bind fun r =>
      if r.1 then (SlicedTreeTraversal.whileDownLast m fuel r.2).map fun t1 => ([], t1)
      else (r.2.up m).map fun u => ([], u.2)
  | .PREV_NODE_VALUE =>
    (ActorFinder.ActorFinderByNodeValue.GetNodeActorSymbol FingerprintCat m t).bind fun symbol =>
      if symbol ≠ -1 then
        (prevNodeStep FingerprintCat m fuel exec.index_by_node_value_ t).map fun t1 => ([], t1)
      else some ([], t)
  | .PREV_NODE_TYPE =>
    (prevNodeStep FingerprintCat m fuel exec.index_by_node_type_ t).map fun t1 => ([], t1)
  | .PREV_NODE_CONTEXT =>
    (prevNodeStep FingerprintCat m fuel exec.index_by_node_context_ t).map fun t1 => ([], t1)
  | .LAST_OP_CMD => some ([], t)

/-- Mirror of `ExecutionForTree::GetConditionedFeaturesForPosition` with `debug_info == nullptr`:
the values passed to `feature_callback`, in order, and the traversal `*t` after the call (the
function returns true). `none` is a failed `CHECK`, a read outside a vector or a null pointer, or
a loop that does not end within `fuel` rounds. -/
def ExecutionForTree.GetConditionedFeaturesForPosition (FingerprintCat : Int → Int → Int)
    (m : Memory) (fuel : Nat) (exec : ExecutionForTree) :
    Program → SlicedTreeTraversal → Option (List Int × SlicedTreeTraversal)
  | [], t => some ([], t)
  | op :: p, t =>
    (exec.executeOp FingerprintCat m fuel op t).bind fun r =>
      (ExecutionForTree.GetConditionedFeaturesForPosition FingerprintCat m fuel exec p r.2).map
        fun r2 => (r.1 ++ r2.1, r2.2)

/-! ## Calling programs of a table (`model.h`, `model.cpp`) -/

/-- The lines `auto it = per_case_p.find(branch_context);` and
`(it == per_case_p.end()) ? p_default : it->second`. -/
def BranchCondProgram.called_p (curr : BranchCondProgram) (branch_context : List Int) : Int :=
  match mapFind curr.per_case_p branch_context with
  | none => curr.p_default
  | some p => p

/-- Mirror of `ExecuteContextProgramByIdInAll` with the callee
`ExecuteContextProgram(..., const BranchCondProgram* curr, ...)` in its first case and
`ExecuteContextProgram(..., const SimpleCondProgram* curr, ...)` in its second: the values passed
to the callback and `*traversal` after the call. `depth` bounds the nesting of the calls. -/
def ExecuteContextProgramByIdInAll (FingerprintCat : Int → Int → Int) (m : Memory) (fuel : Nat)
    (exec : ExecutionForTree) ( all : TGenProgram) :
    Nat → SlicedTreeTraversal → Int → Option (List Int × SlicedTreeTraversal)
  | 0, _, _ => none
  | depth + 1, traversal, program_id_in_all =>
    if program_id_in_all < 0 then none
    else
      match all.program_type program_id_in_all.toNat with
      | none => none
      | some .BRANCHED_PROGRAM =>
        (all.branched_prog program_id_in_all.toNat).bind fun curr =>
          let branch_t := traversal
          (exec.GetConditionedFeaturesForPosition FingerprintCat m fuel curr.cond.program
              branch_t).bind fun r =>
            ExecuteContextProgramByIdInAll FingerprintCat m fuel exec all depth traversal
              (curr.called_p r.1)
      | some .SIMPLE_PROGRAM =>
        (all.simple_prog program_id_in_all.toNat).bind fun curr =>
          exec.GetConditionedFeaturesForPosition FingerprintCat m fuel curr.context_program
            traversal

/-- Mirror of `ExecuteContextProgram(exec, traversal, debug_info, const BranchCondProgram* curr,
all, cb)`. -/
def ExecuteContextProgram (FingerprintCat : Int → Int → Int) (m : Memory) (fuel : Nat)
    (exec : ExecutionForTree) ( all : TGenProgram) (depth : Nat) (traversal : SlicedTreeTraversal)
    (curr : BranchCondProgram) : Option (List Int × SlicedTreeTraversal) :=
  let branch_t := traversal
  (exec.GetConditionedFeaturesForPosition FingerprintCat m fuel curr.cond.program branch_t).bind
    fun r =>
      ExecuteContextProgramByIdInAll FingerprintCat m fuel exec all depth traversal
        (curr.called_p r.1)

/-- Mirror of `class TGenModel` with its members `program_` and `is_for_node_type_`; the
counters of the model are left out. -/
structure TGenModel where
  program_ : TGenProgram
  is_for_node_type_ : Bool
deriving DecidableEq, Repr

/-- Mirror of `TGenModel::GetSubmodelBranch`. The argument `sample` is passed by value. -/
def TGenModel.GetSubmodelBranch (FingerprintCat : Int → Int → Int) (m : Memory) (fuel : Nat)
    (self : TGenModel) (program_id : Int) (exec : ExecutionForTree) (sample : FullTreeTraversal)
    (slice : Option TreeSlice) : Option Int :=
  if program_id < 0 then none
  else
    (self.program_.branched_prog program_id.toNat).bind fun program =>
      let traversal := SlicedTreeTraversal.create sample.storage_ sample.position_ slice
      (exec.GetConditionedFeaturesForPosition FingerprintCat m fuel program.cond.program
          traversal).map fun r => program.called_p r.1

/-! ## The store of the execution tests (`tcond_language_test.cpp`) -/

/-- The store `tree` of the test `SimpleProgramExecution` after `tree.SubstituteNode(0, s)`: node
0 is `Root` (string 0) with the children 1, `VarDecls` (string 1), and 3, `PlusExpr` (string 4);
node 2, `Var` (string 2) with the value `v1` (string 3), is the child of node 1; nodes 4, `Var`
with the value `v1`, and 5, `Var` with the value `v2` (string 5), are the children of node 3. -/
def test_tcond_tree : TreeStorage :=
  { nodes_ :=
      [{ type := 0, value := -1, parent := -1, left_sib := -1, right_sib := -1,
         first_child := 1, last_child := 3, child_index := 0 },
       { type := 1, value := -1, parent := 0, left_sib := -1, right_sib := 3,
         first_child := 2, last_child := 2, child_index := 0 },
       { type := 2, value := 3, parent := 1, left_sib := -1, right_sib := -1,
         first_child := -1, last_child := -1, child_index := 0 },
       { type := 4, value := -1, parent := 0, left_sib := 1, right_sib := -1,
         first_child := 4, last_child := 5, child_index := 1 },
       { type := 2, value := 3, parent := 3, left_sib := -1, right_sib := 5,
         first_child := -1, last_child := -1, child_index := 0 },
       { type := 2, value := 5, parent := 3, left_sib := 4, right_sib := -1,
         first_child := -1, last_child := -1, child_index := 1 }],
    parent_ := none, position_in_parent_ := -1, first_free_node_ := -1 }

/-- A function that stands for `FingerprintCat` where a concrete one is needed. -/
def test_FingerprintCat (a b : Int) : Int := (a * 31 + b + 7) % 1000003

/-- A model whose program 0 is the branched program
`switch UP WRITE_TYPE: case 4 goto 1; else goto 2`, program 1 is the simple program `WRITE_TYPE`
and program 2 is the simple program `WRITE_VALUE`. -/
def test_model : TGenModel :=
  { program_ :=
      tableOf
        [.branched
          { cond := BranchCond.ofPredefined .PARENT_TYPE_COND, per_case_p := [([4], 1)],
            p_default := 2 },
         .simple { eq_program := [], context_program := [⟨.WRITE_TYPE, -1⟩] },
         .simple { eq_program := [], context_program := [⟨.WRITE_VALUE, -1⟩] }],
    is_for_node_type_ := true }

/-- The execution that the constructor of `ExecutionForTree` builds for `test_tcond_tree` at
address `0` with `test_FingerprintCat`. -/
def test_exec : ExecutionForTree :=
  { tree_ := some 0,
    index_by_node_type_ :=
      { actor_finder_ := .ActorFinderByNodeType, tree_ := some 0,
        symbol_sequences_ := [(0, [0]), (1, [1]), (2, [2, 4, 5]), (4, [3])],
        symbol_predecessors_ := [⟨0, -1⟩, ⟨1, -1⟩, ⟨2, -1⟩, ⟨4, -1⟩, ⟨2, 2⟩, ⟨2, 4⟩] },
    index_by_node_value_ :=
      { actor_finder_ := .ActorFinderByNodeValue, tree_ := some 0,
        symbol_sequences_ := [(3, [2, 4]), (5, [5])],
        symbol_predecessors_ := [⟨-1, -1⟩, ⟨-1, -1⟩, ⟨3, -1⟩, ⟨-1, -1⟩, ⟨3, 2⟩, ⟨5, -1⟩] },
    index_by_node_context_ :=
      { actor_finder_ := .ActorFinderByNodeContext, tree_ := some 0,
        symbol_sequences_ :=
          [(193, [0]), (186627, [1]), (788944, [2]), (189510, [3]), (791827, [4]), (49955, [5])],
        symbol_predecessors_ :=
          [⟨193, -1⟩, ⟨186627, -1⟩, ⟨788944, -1⟩, ⟨189510, -1⟩, ⟨791827, -1⟩, ⟨49955, -1⟩] } }

/-- The slice `TreeSlice slice(&tree, 5, allow_reading_type_for_begin_node)` of the test
`SimpleProgramExecution`, with `test_tcond_tree` at address `0`. -/
def test_slice (allow_reading_type_for_begin_node : Bool) : TreeSlice :=
  { storage_ := some 0, begin_ := 5, end_ := 6,
    allow_reading_type_for_begin_node_ := allow_reading_type_for_begin_node }

/-! ## Stores in pre-order and stores that differ inside a slice -/

/-- The pointers of node `i` of a store of `N` nodes respect the pre-order numbering: the parent
and the left sibling come before the node, the right sibling and the children after it, and the
value that `WRITE_POS` computes from `child_index` fits an `int`. -/
def TreeNode.PreOrderAt (n : TreeNode) (i : Nat) (N : Nat) : Prop :=
  (-1 ≤ n.parent ∧ n.parent < i) ∧ (-1 ≤ n.left_sib ∧ n.left_sib < i) ∧
  (n.right_sib = -1 ∨ ((i : Int) < n.right_sib ∧ n.right_sib < N)) ∧
  (n.first_child = -1 ∨ ((i : Int) < n.first_child ∧ n.first_child < N)) ∧
  (n.last_child = -1 ∨ ((i : Int) < n.last_child ∧ n.last_child < N)) ∧
  inInt32 (-1000 - n.child_index) = true

instance (n : TreeNode) (i N : Nat) : Decidable (n.PreOrderAt i N) := by
  unfold TreeNode.PreOrderAt; infer_instance

/-- A store without a parent store whose nodes are numbered in pre-order ("nodes are numbered in
depth-first search left-to-right order", `tcond_language.h`): the walk from the root visits the
nodes `0, 1, ..., N - 1` in this order and every pointer respects the numbering. -/
def Canonical (s : TreeStorage) : Prop :=
  s.parent_ = none ∧
  s.ForEachSubnodeOfNode 0 = some ((List.range s.nodes_.length).map Int.ofNat) ∧
  ∀ x ∈ s.nodes_.enum, x.2.PreOrderAt x.1 s.nodes_.length

instance (s : TreeStorage) : Decidable (Canonical s) := by
  unfold Canonical; infer_instance

/-- Nodes `a` and `b` at position `i` of two stores have the same pointers and child index, the
same type and value when `i` is before `begin`, and, when reading the type of the begin node is
allowed, the same `Type()` at `begin`. -/
def NodeEquiv (begin : Int) (allow_reading_type_for_begin_node : Bool) (i : Nat)
    (a b : TreeNode) : Prop :=
  a.parent = b.parent ∧ a.left_sib = b.left_sib ∧ a.right_sib = b.right_sib ∧
  a.first_child = b.first_child ∧ a.last_child = b.last_child ∧
  a.child_index = b.child_index ∧
  ((i : Int) < begin → a.type = b.type ∧ a.value = b.value) ∧
  ((i : Int) = begin → allow_reading_type_for_begin_node = true → a.Type = b.Type)

instance (begin : Int) (allow : Bool) (i : Nat) (a b : TreeNode) :
    Decidable (NodeEquiv begin allow i a b) := by
  unfold NodeEquiv; infer_instance

/-- Two stores have the same number of nodes and the same structure and differ at most in the
type and the value of the nodes from `begin` on (the type of the node `begin` excepted when
reading it is allowed). -/
def SliceEquivalent (begin : Int) (allow_reading_type_for_begin_node : Bool)
    (sA sB : TreeStorage) : Prop :=
  sA.nodes_.length = sB.nodes_.length ∧
  ∀ x ∈ (sA.nodes_.zip sB.nodes_).enum,
    NodeEquiv begin allow_reading_type_for_begin_node x.1 x.2.1 x.2.2

instance (begin : Int) (allow : Bool) (sA sB : TreeStorage) :
    Decidable (SliceEquivalent begin allow sA sB) := by
  unfold SliceEquivalent; infer_instance

/-- The store `test_tcond_tree` with another type and value at node 5. -/
def test_tcond_tree_variant : TreeStorage :=
  { test_tcond_tree with
    nodes_ :=
      test_tcond_tree.nodes_.take 5 ++
        [{ type := 1, value := 3, parent := 3, left_sib := 4, right_sib := -1,
           first_child := -1, last_child := -1, child_index := 1 }] }

/-- The slice that `TreeSlice(storage, begin, allow_reading_type_for_begin_node)` builds for the
store of `N` nodes at address `0`. -/
def sliceFrom (begin : Int) (N : Nat) (allow_reading_type_for_begin_node : Bool) : TreeSlice :=
  { storage_ := some 0, begin_ := begin, end_ := (N : Int),
    allow_reading_type_for_begin_node_ := allow_reading_type_for_begin_node }

/-- The sliced traversal `SlicedTreeTraversal(storage, pos, &sl)` for the store at address `0`. -/
def atPos (sl : TreeSlice) (pos : Int) : SlicedTreeTraversal :=
  SlicedTreeTraversal.create (some 0) pos (some sl)

/-- The move `f` from position `pos` gives in both stores the same flag and the same new
position, which is not after `begin`; a failed move stays at `pos`, a move that succeeds goes to
a later position when `down` is set and to an earlier one otherwise. -/
def MoveAgree (f : Memory → SlicedTreeTraversal → Option (Bool × SlicedTreeTraversal))
    (sA sB : TreeStorage) (sl : TreeSlice) (begin : Int) (pos : Int) (down : Bool) : Prop :=
  ∃ b pos', f [sA] (atPos sl pos) = some (b, atPos sl pos') ∧
    f [sB] (atPos sl pos) = some (b, atPos sl pos') ∧ 0 ≤ pos' ∧ pos' ≤ begin ∧
    (b = false → pos' = pos) ∧ (b = true → if down then pos < pos' else pos' < pos)

/-- The loop `f` from position `pos` ends in both stores at the same position, which is not
after `begin`. -/
def LoopAgree (f : Memory → SlicedTreeTraversal → Option SlicedTreeTraversal)
    (sA sB : TreeStorage) (sl : TreeSlice) (begin : Int) (pos : Int) : Prop :=
  ∃ pos', f [sA] (atPos sl pos) = some (atPos sl pos') ∧
    f [sB] (atPos sl pos) = some (atPos sl pos') ∧ 0 ≤ pos' ∧ pos' ≤ begin

/-- The traversal `SlicedTreeTraversal(tree_, node_id, &slice)` of `ActorIndex::Build`, whose
slice `TreeSlice slice(nullptr)` slices nothing, for the store at address `0`. -/
def unslicedAt (node_id : Int) : SlicedTreeTraversal :=
  SlicedTreeTraversal.create (some 0) node_id (some (TreeSlice.ofStorage none))

/-- The symbol that `ActorIndex::Build` computes for node `j` of the store `s`. -/
def symOf (FingerprintCat : Int → Int → Int) (s : TreeStorage) (af : ActorFinder) (j : Nat) :
    Int :=
  ((af.GetNodeActorSymbol FingerprintCat [s] (unslicedAt j)).getD (-1))

/-- The nodes before `k` whose symbol is `symbol`, in increasing order. -/
def nodesWith (sym : Nat → Int) (symbol : Int) (k : Nat) : List Int :=
  ((List.range k).filter fun j => decide (sym j = symbol)).map Int.ofNat

/-- The index after `ActorIndex::Build` has visited the nodes before `k` of a store of `N` nodes
whose symbols are `sym`: a visited node with a symbol that is not negative has its symbol and
the last earlier node with this symbol as predecessor, and the sequence of a symbol holds the
visited nodes with this symbol. -/
def IndexInv (sym : Nat → Int) (af : ActorFinder) (N k : Nat) (idx : ActorIndex) : Prop :=
  idx.tree_ = some 0 ∧ idx.actor_finder_ = af ∧
  (∀ i, i < N → idx.symbol_predecessors_[i]? =
    some (if i < k ∧ 0 ≤ sym i
          then { symbol := sym i, pred_position := ((nodesWith sym (sym i) i).getLast?).getD (-1) }
          else { symbol := -1, pred_position := -1 })) ∧
  idx.symbol_predecessors_.length = N ∧
  (∀ symbol, idx.find_sequence symbol =
    if 0 ≤ symbol ∧ nodesWith sym symbol k ≠ [] then some (nodesWith sym symbol k) else none)

/-- The three indices of the execution `e` are the built indices of the store `s`. -/
def ExecInv (FingerprintCat : Int → Int → Int) (s : TreeStorage) (e : ExecutionForTree) : Prop :=
  IndexInv (symOf FingerprintCat s .ActorFinderByNodeType) .ActorFinderByNodeType
    s.nodes_.length s.nodes_.length e.index_by_node_type_ ∧
  IndexInv (symOf FingerprintCat s .ActorFinderByNodeValue) .ActorFinderByNodeValue
    s.nodes_.length s.nodes_.length e.index_by_node_value_ ∧
  IndexInv (symOf FingerprintCat s .ActorFinderByNodeContext) .ActorFinderByNodeContext
    s.nodes_.length s.nodes_.length e.index_by_node_context_

/-! ## Changing a store (`tree.h`, `tree.cpp`) -/

/-- The assignment `nodes_[i] = f(nodes_[i])` to fields of an element; `none` outside the
vector. -/
def TreeStorage.modifyNode (s : TreeStorage) (i : Int) (f : TreeNode → TreeNode) :
    Option TreeStorage :=
  (s.nodeAt i).map fun n => { s with nodes_ := s.nodes_.set i.toNat (f n) }

/-- Mirror of `TreeStorage::AllocateNode`: the returned id and the store after the call. -/
def TreeStorage.AllocateNode (s : TreeStorage) (data : TreeNode) : Option (Nat × TreeStorage) :=
  if s.first_free_node_ ≠ -1 then
    (s.nodeAt s.first_free_node_).map fun n =>
      (s.first_free_node_.toNat,
       { s with first_free_node_ := n.type,
                nodes_ := s.nodes_.set s.first_free_node_.toNat data })
  else some (s.nodes_.length, { s with nodes_ := s.nodes_ ++ [data] })

/-- Mirror of `TreeStorage::AddLastNode`: the returned id and the store after the call. The
reference `node` is the new element, whose `left_sib` and `parent` are those of `added_node`. -/
def TreeStorage.AddLastNode (s : TreeStorage) (added_node : TreeNode) :
    Option (Int × TreeStorage) :=
  if added_node.type = EMPTY_NODE_LABEL then some (-1, s)
  else
    (s.AllocateNode added_node).bind fun r =>
      let node_id : Int := (r.1 : Nat)
      (if added_node.left_sib ≥ 0 then
          r.2.modifyNode added_node.left_sib fun n => { n with right_sib := node_id }
        else some r.2).bind fun s1 =>
      (s1.nodeAt added_node.parent).bind fun p =>
      (if p.first_child < 0 then
          s1.modifyNode added_node.parent fun n => { n with first_child := node_id }
        else some s1).bind fun s2 =>
      (s2.modifyNode added_node.parent fun n => { n with last_child := node_id }).map fun s3 =>
        (node_id, s3)

/-- Mirror of `TreeStorage::DeallocateNode` for the `unsigned` argument `node_id`. -/
def TreeStorage.DeallocateNode (s : TreeStorage) (node_id : Nat) : Option TreeStorage :=
  if node_id + 1 = s.nodes_.length then some { s with nodes_ := s.nodes_.dropLast }
  else
    (s.modifyNode node_id fun n =>
        { n with parent := TREEPOINTER_DEALLOCATED, type := s.first_free_node_ }).map fun s1 =>
      { s1 with first_free_node_ := node_id }

/-- Mirror of `class LocalEpsTreeTraversal`. The store that the pointer `storage_` refers to is
an argument of the moves, which return it as they leave it. -/
structure LocalEpsTreeTraversal where
  position_ : Int
  eps_node_ : TreeNode
deriving DecidableEq, Repr

/-- Mirror of the constructor of `LocalEpsTreeTraversal`; the member `eps_node_` is built by
`TreeNode()`. -/
def LocalEpsTreeTraversal.create (position : Int) : LocalEpsTreeTraversal :=
  { position_ := position,
    eps_node_ := { type := -1, value := -1, parent := -1, left_sib := -1, right_sib := -1,
                   first_child := -1, last_child := -1, child_index := -1 } }

/-- Mirror of `LocalEpsTreeTraversal::node`. -/
def LocalEpsTreeTraversal.node (s : TreeStorage) (t : LocalEpsTreeTraversal) : Option TreeNode :=
  if t.position_ < 0 then some t.eps_node_ else s.nodeAt t.position_

/-- The assignments `node().type = type; node().value = value;` through the reference that
`node()` returns. -/
def LocalEpsTreeTraversal.setLabels (s : TreeStorage) (t : LocalEpsTreeTraversal)
    (type value : Int) : Option (TreeStorage × LocalEpsTreeTraversal) :=
  if t.position_ < 0 then
    some (s, { t with eps_node_ := { t.eps_node_ with type := type, value := value } })
  else (s.modifyNode t.position_ fun n => { n with type := type, value := value }).map fun s1 =>
    (s1, t)

/-- The line `if (position_ < 0) position_ = storage_->AddLastNode(eps_node_);`, which is also
the body of `LocalEpsTreeTraversal::write_node`. -/
def LocalEpsTreeTraversal.write_node (s : TreeStorage) (t : LocalEpsTreeTraversal) :
    Option (TreeStorage × LocalEpsTreeTraversal) :=
  if t.position_ < 0 then
    (s.AddLastNode t.eps_node_).map fun r => (r.2, { t with position_ := r.1 })
  else some (s, t)

/-- Mirror of `LocalEpsTreeTraversal::allocate_eps_child`. -/
def LocalEpsTreeTraversal.allocate_eps_child (t : LocalEpsTreeTraversal) :
    LocalEpsTreeTraversal :=
  { t with
    eps_node_ := { type := EMPTY_NODE_LABEL, value := -1, parent := t.position_, left_sib := -1,
                   right_sib := -1, first_child := -1, last_child := -1, child_index := 0 } }

/-- Mirror of `LocalEpsTreeTraversal::allocate_eps_right_sibling` at the node `n = node()`. -/
def LocalEpsTreeTraversal.allocate_eps_right_sibling (t : LocalEpsTreeTraversal) (n : TreeNode) :
    LocalEpsTreeTraversal :=
  { t with
    eps_node_ := { type := EMPTY_NODE_LABEL, value := -1, parent := n.parent,
                   left_sib := t.position_, right_sib := -1, first_child := -1,
                   last_child := -1, child_index := n.child_index + 1 } }

/-- Mirror of `LocalEpsTreeTraversal::right`: the returned flag, the store and the traversal
after the call. -/
def LocalEpsTreeTraversal.right (s : TreeStorage) (t : LocalEpsTreeTraversal) :
    Option (Bool × TreeStorage × LocalEpsTreeTraversal) :=
  (t.node s).bind fun n0 =>
    if n0.type = EMPTY_NODE_LABEL then some (false, s, t)
    else
      (t.write_node s).bind fun r =>
        let s1 := r.1
        let t1 := r.2
        if t1.position_ < 0 then some (false, s1, t1)
        else
          (t1.node s1).map fun n =>
            if n.right_sib < 0 then
              if t1.position_ = 0 then (false, s1, t1)
              else (true, s1, { t1.allocate_eps_right_sibling n with position_ := n.right_sib })
            else (true, s1, { t1 with position_ := n.right_sib })

/-- Mirror of `LocalEpsTreeTraversal::up`. -/
def LocalEpsTreeTraversal.up (s : TreeStorage) (t : LocalEpsTreeTraversal) :
    Option (Bool × TreeStorage × LocalEpsTreeTraversal) :=
  (t.write_node s).bind fun r =>
    let s1 := r.1
    let t1 := r.2
    (t1.node s1).map fun n =>
      if n.parent < 0 then (false, s1, t1) else (true, s1, { t1 with position_ := n.parent })

/-- Mirror of `LocalEpsTreeTraversal::down_first_child`. -/
def LocalEpsTreeTraversal.down_first_child (s : TreeStorage) (t : LocalEpsTreeTraversal) :
    Option (Bool × TreeStorage × LocalEpsTreeTraversal) :=
  (t.node s).bind fun n0 =>
    if n0.type = EMPTY_NODE_LABEL then some (false, s, t)
    else
      (t.write_node s).bind fun r =>
        let s1 := r.1
        let t1 := r.2
        (t1.node s1).map fun n =>
          if n.first_child < 0 then
            (true, s1, { t1.allocate_eps_child with position_ := n.first_child })
          else (true, s1, { t1 with position_ := n.first_child })

/-- Mirror of `class ConstLocalEpsTreeTraversal`; the store is an argument of the moves. -/
structure ConstLocalEpsTreeTraversal where
  position_ : Int
  eps_node_ : TreeNode
deriving DecidableEq, Repr

/-- Mirror of the constructor of `ConstLocalEpsTreeTraversal`. -/
def ConstLocalEpsTreeTraversal.create (position : Int) : ConstLocalEpsTreeTraversal :=
  { position_ := position,
    eps_node_ := { type := -1, value := -1, parent := -1, left_sib := -1, right_sib := -1,
                   first_child := -1, last_child := -1, child_index := -1 } }

/-- Mirror of `ConstLocalEpsTreeTraversal::node`. -/
def ConstLocalEpsTreeTraversal.node (s : TreeStorage) (t : ConstLocalEpsTreeTraversal) :
    Option TreeNode :=
  if t.position_ < 0 then some t.eps_node_ else s.nodeAt t.position_

/-- Mirror of `ConstLocalEpsTreeTraversal::right`. -/
def ConstLocalEpsTreeTraversal.right (s : TreeStorage) (t : ConstLocalEpsTreeTraversal) :
    Option (Bool × ConstLocalEpsTreeTraversal) :=
  (t.node s).map fun n =>
    if n.type = EMPTY_NODE_LABEL then (false, t)
    else if t.position_ < 0 then (false, t)
    else if n.right_sib < 0 then
      if t.position_ = 0 then (false, t)
      else
        (true,
          { position_ := n.right_sib,
            eps_node_ := { type := EMPTY_NODE_LABEL, value := -1, parent := n.parent,
                           left_sib := t.position_, right_sib := -1, first_child := -1,
                           last_child := -1, child_index := n.child_index + 1 } })
    else (true, { t with position_ := n.right_sib })

/-- Mirror of `ConstLocalEpsTreeTraversal::up`. -/
def ConstLocalEpsTreeTraversal.up (s : TreeStorage) (t : ConstLocalEpsTreeTraversal) :
    Option (Bool × ConstLocalEpsTreeTraversal) :=
  (t.node s).map fun n =>
    if n.parent < 0 then (false, t) else (true, { t with position_ := n.parent })

/-- Mirror of `ConstLocalEpsTreeTraversal::down_first_child`. -/
def ConstLocalEpsTreeTraversal.down_first_child (s : TreeStorage)
    (t : ConstLocalEpsTreeTraversal) : Option (Bool × ConstLocalEpsTreeTraversal) :=
  (t.node s).map fun n =>
    if n.type = EMPTY_NODE_LABEL then (false, t)
    else if n.first_child < 0 then
      (true,
        { position_ := n.first_child,
          eps_node_ := { type := EMPTY_NODE_LABEL, value := -1, parent := t.position_,
                         left_sib := -1, right_sib := -1, first_child := -1, last_child := -1,
                         child_index := 0 } })
    else (true, { t with position_ := n.first_child })

/-! ## Iterators (`TreeIterator` in `tree.h`) -/

/-- The loop `do { if (t_.right()) return; } while (t_.up()); at_end_ = true;` of
`TreeIterator::pre_order_forward` over a `LocalEpsTreeTraversal`: the store, the traversal and
the flag `at_end_` after it. -/
def LocalEpsTreeTraversal.preOrderClimb :
    Nat → TreeStorage → LocalEpsTreeTraversal → Option (TreeStorage × LocalEpsTreeTraversal × Bool)
  | 0, _, _ => none
  | fuel + 1, s, t =>
    (t.right s).bind fun r =>
      if r.1 then some (r.2.1, r.2.2, false)
      else
        (r.2.2.up r.2.1).bind fun u =>
          if u.1 then LocalEpsTreeTraversal.preOrderClimb fuel u.2.1 u.2.2
          else some (u.2.1, u.2.2, true)

/-- Mirror of `TreeIterator::pre_order_forward` over a `LocalEpsTreeTraversal`. -/
def LocalEpsTreeTraversal.pre_order_forward (fuel : Nat) (s : TreeStorage)
    (t : LocalEpsTreeTraversal) : Option (TreeStorage × LocalEpsTreeTraversal × Bool) :=
  (t.down_first_child s).bind fun d =>
    if d.1 then some (d.2.1, d.2.2, false)
    else LocalEpsTreeTraversal.preOrderClimb fuel d.2.1 d.2.2

/-- The loop of `TreeIterator::pre_order_forward` over a `ConstLocalEpsTreeTraversal`. -/
def ConstLocalEpsTreeTraversal.preOrderClimb (s : TreeStorage) :
    Nat → ConstLocalEpsTreeTraversal → Option (ConstLocalEpsTreeTraversal × Bool)
  | 0, _ => none
  | fuel + 1, t =>
    (t.right s).bind fun r =>
      if r.1 then some (r.2, false)
      else
        (r.2.up s).bind fun u =>
          if u.1 then ConstLocalEpsTreeTraversal.preOrderClimb s fuel u.2
          else some (u.2, true)

/-- Mirror of `TreeIterator::pre_order_forward` over a `ConstLocalEpsTreeTraversal`. -/
def ConstLocalEpsTreeTraversal.pre_order_forward (fuel : Nat) (s : TreeStorage)
    (t : ConstLocalEpsTreeTraversal) : Option (ConstLocalEpsTreeTraversal × Bool) :=
  (t.down_first_child s).bind fun d =>
    if d.1 then some (d.2, false)
    else ConstLocalEpsTreeTraversal.preOrderClimb s fuel d.2

/-- The loop `while (t_.down_first_child()) { }` of `TreeIterator::post_order_start` and
`post_order_forward` over a `LocalTreeTraversal` of the store, kept at address `0` of a memory of
one store. -/
def TreeStorage.descendFirst (s : TreeStorage) : Nat → Int → Option Int
  | 0, _ => none
  | fuel + 1, position =>
    (LocalTreeTraversal.down_first_child [s] { storage_ := some 0, position_ := position }).bind
      fun r => if r.1 then s.descendFirst fuel r.2.position_ else some r.2.position_

/-- Mirror of `TreeIterator::post_order_forward` over a `LocalTreeTraversal` of the store: the
position after it (the flag `at_end_` is not read by the callers). -/
def TreeStorage.post_order_forward (s : TreeStorage) (fuel : Nat) (position : Int) :
    Option Int :=
  (LocalTreeTraversal.right [s] { storage_ := some 0, position_ := position }).bind fun r =>
    if r.1 then s.descendFirst fuel r.2.position_
    else (LocalTreeTraversal.up [s] r.2).map fun u => u.2.position_

/-! ## Removing and substituting nodes (`tree.h`, `tree.cpp`) -/

/-- The loop `while (it.position() != start_node_id)` of `TreeStorage::RemoveNodeChildren`. -/
def TreeStorage.removeLoop (start_node_id : Int) (fuel0 : Nat) :
    Nat → TreeStorage → Int → Option TreeStorage
  | 0, _, _ => none
  | fuel + 1, s, position =>
    if position = start_node_id then some s
    else
      (s.post_order_forward fuel0 position).bind fun next =>
        if position < 0 then none
        else
          (s.DeallocateNode position.toNat).bind fun s1 =>
            TreeStorage.removeLoop start_node_id fuel0 fuel s1 next

/-- Mirror of `TreeStorage::RemoveNodeChildren`; `fuel` bounds the rounds of each loop. -/
def TreeStorage.RemoveNodeChildren (fuel : Nat) (s : TreeStorage) (start_node_id : Int) :
    Option TreeStorage :=
  (s.nodeAt start_node_id).bind fun n =>
    let curr := n.first_child
    if curr < 0 then some s
    else
      (s.descendFirst fuel curr).bind fun it =>
        (s.modifyNode start_node_id fun n => { n with first_child := -1, last_child := -1 }).bind
          fun s1 => TreeStorage.removeLoop start_node_id fuel fuel s1 it

/-- Mirror of `TreeStorage::RemoveNode`; the failed `CHECK_LT` is `none`. -/
def TreeStorage.RemoveNode (fuel : Nat) (s : TreeStorage) (node_id : Int) : Option TreeStorage :=
  (s.RemoveNodeChildren fuel node_id).bind fun s1 =>
    if node_id = 0 then some s1
    else
      (s1.nodeAt node_id).bind fun node =>
        if ¬ node.right_sib < 0 then none
        else
          (if node.parent ≥ 0 then
              (s1.nodeAt node.parent).bind fun p =>
                (if p.first_child = node_id then
                    s1.modifyNode node.parent fun n => { n with first_child := -1 }
                  else some s1).bind fun s2 =>
                  s2.modifyNode node.parent fun n => { n with last_child := node.left_sib }
            else some s1).bind fun s3 =>
          (if node.left_sib ≥ 0 then
              s3.modifyNode node.left_sib fun n => { n with right_sib := -1 }
            else some s3).bind fun s4 =>
          s4.DeallocateNode node_id.toNat

/-- Mirror of `TreeSubstitution::Node`. -/
structure TreeSubstitution.Node where
  type : Int
  value : Int
  first_child : Int
  right_sib : Int
deriving DecidableEq, Repr

/-- Mirror of `class TreeSubstitution`. -/
structure TreeSubstitution where
  data : List TreeSubstitution.Node
deriving DecidableEq, Repr

/-- Mirror of `TreeStorage::CanSubstituteNode`; `none` when `nodes_[node_id]` is outside the
vector. -/
def TreeStorage.CanSubstituteNode (s : TreeStorage) (node_id : Int) (subst : TreeSubstitution) :
    Option Bool :=
  (s.nodeAt node_id).map fun node =>
    match subst.data with
    | [] => decide (node_id ≠ 0) && decide (node.right_sib = -1)
    | d :: _ =>
      if d.right_sib ≥ 0 then decide (node_id ≠ 0) && decide (node.right_sib = -1) else true

/-- Mirror of `TreeStorage::CanSubstituteSingleNode`. -/
def TreeStorage.CanSubstituteSingleNode (s : TreeStorage) (node_id : Int)
    (subst_node : TreeSubstitution.Node) : Option Bool :=
  (s.nodeAt node_id).map fun node =>
    if subst_node.right_sib ≥ 0 then decide (node_id ≠ 0) && decide (node.right_sib = -1)
    else true

/-- Mirror of `TreeStorage::CanSubstituteNodeType`. -/
def TreeStorage.CanSubstituteNodeType (s : TreeStorage) (node_id : Int) (type : Int) :
    Option Bool :=
  (s.nodeAt node_id).map fun node =>
    if type = -1 then
      decide (node_id ≠ 0) && decide (node.right_sib = -1) && decide (node.first_child = -1)
    else true

/-- The block of `SubstituteNode`, `SubstituteSingleNode` and `SubstituteNodeType` that goes to
the first child of `node_id`, sets its type and value to `UNKNOWN_LABEL` and writes it: the store
and `it.position()` after it; the failed `CHECK` is `none`. -/
def TreeStorage.writeUnknownChild (s : TreeStorage) (node_id : Int) :
    Option (TreeStorage × Int) :=
  ((LocalEpsTreeTraversal.create node_id).down_first_child s).bind fun d =>
    if ¬ d.1 then none
    else
      (d.2.2.setLabels d.2.1 UNKNOWN_LABEL UNKNOWN_LABEL).bind fun w =>
        (w.2.write_node w.1).map fun r => (r.1, r.2.position_)

/-- The block of `SubstituteSingleNode` and `SubstituteNodeType` that goes to the right of
`node_id`, sets the type and value there to `UNKNOWN_LABEL` and writes the node; in
`SubstituteNode` (`keep_existing`) the two are set only when the type there is
`EMPTY_NODE_LABEL`. -/
def TreeStorage.writeUnknownRight (s : TreeStorage) (node_id : Int) ( keep_existing : Bool) :
    Option (TreeStorage × Int) :=
  ((LocalEpsTreeTraversal.create node_id).right s).bind fun d =>
    if ¬ d.1 then none
    else
      (d.2.2.node d.2.1).bind fun n =>
        (if keep_existing && decide (n.type ≠ EMPTY_NODE_LABEL) then some d.2
          else d.2.2.setLabels d.2.1 UNKNOWN_LABEL UNKNOWN_LABEL).bind fun w =>
          (w.2.write_node w.1).map fun r => (r.1, r.2.position_)

/-- The loop `while (!rqueue.empty())` of `TreeStorage::SubstituteNode` on the queue
`rqueue` of pairs (entry of the substitution, node). -/
def TreeStorage.substituteLoop (subst : TreeSubstitution) :
    Nat → TreeStorage → List (Int × Int) → Option TreeStorage
  | _, s, [] => some s
  | 0, _, _ :: _ => none
  | fuel + 1, s, el :: rqueue =>
    (if 0 ≤ el.1 then subst.data[el.1.toNat]? else none).bind fun n =>
      if n.type = EMPTY_NODE_LABEL then none
      else
        (s.modifyNode el.2 fun x => { x with type := n.type, value := n.value }).bind fun s1 =>
        (if n.first_child ≠ -1 then
            (s1.writeUnknownChild el.2).bind fun r =>
              if r.2 = -1 then none
              else some (r.1, if n.first_child ≥ 0 then rqueue ++ [(n.first_child, r.2)]
                              else rqueue)
          else some (s1, rqueue)).bind fun a =>
        (if n.right_sib ≠ -1 then
            if n.right_sib = -2 ∧ el.2 = 0 then some a
            else
              (a.1.writeUnknownRight el.2 true).bind fun r =>
                if r.2 = -1 then none
                else some (r.1, if n.right_sib ≥ 0 then a.2 ++ [(n.right_sib, r.2)] else a.2)
          else some a).bind fun b =>
        TreeStorage.substituteLoop subst fuel b.1 b.2

/-- Mirror of `TreeStorage::SubstituteNode` (the `DCHECK` of `CanSubstituteNode` belongs to debug
builds and is left out); `fuel` bounds the rounds of each loop. -/
def TreeStorage.SubstituteNode (fuel : Nat) (s : TreeStorage) (node_id : Int)
    (subst : TreeSubstitution) : Option TreeStorage :=
  if subst.data.length = 0 then s.RemoveNode fuel node_id
  else
    (s.RemoveNodeChildren fuel node_id).bind fun s1 =>
      TreeStorage.substituteLoop subst fuel s1 [(0, node_id)]

/-- Mirror of `TreeStorage::SubstituteSingleNode`. -/
def TreeStorage.SubstituteSingleNode (fuel : Nat) (s : TreeStorage) (node_id : Int)
    (node : TreeSubstitution.Node) : Option TreeStorage :=
  (s.RemoveNodeChildren fuel node_id).bind fun s1 =>
  (s1.modifyNode node_id fun x => { x with type := node.type, value := node.value }).bind
    fun s2 =>
  (if node.first_child ≠ -1 then (s2.writeUnknownChild node_id).map Prod.fst
    else some s2).bind fun s3 =>
  if node.right_sib ≠ -1 ∧ node_id ≠ 0 then (s3.writeUnknownRight node_id false).map Prod.fst
  else some s3

/-- Mirror of `TreeStorage::SubstituteNodeType`. -/
def TreeStorage.SubstituteNodeType (fuel : Nat) (s : TreeStorage) (node_id : Int) (type : Int) :
    Option TreeStorage :=
  if type = EMPTY_NODE_LABEL then s.RemoveNode fuel node_id
  else
    (s.RemoveNodeChildren fuel node_id).bind fun s1 =>
    (s1.modifyNode node_id fun x => { x with type := type, value := UNKNOWN_LABEL }).bind
      fun s2 =>
    (s2.writeUnknownChild node_id).bind fun r =>
      if node_id ≠ 0 then (r.1.writeUnknownRight node_id false).map Prod.fst
      else some r.1

/-! ## Consistency (`tree.cpp`) -/

/-- Mirror of `TreeStorage::CheckNodeConsistencyRecursive(node_id, max_depth)` with
`depth = max_depth + 1`, so that `depth = 0` is the failed `CHECK_GE(max_depth, 0)`: the returned
number of nodes, `none` when a `CHECK` fails or a node is read outside a vector. `parent_node` is
the element `parent_->nodes_[position_in_parent_]` of the parent store when there is one. -/
def TreeStorage.CheckNodeConsistencyRecursive (s : TreeStorage) (parent_node : Option TreeNode) :
    Nat → Int → Option Int
  | 0, _ => none
  | depth + 1, node_id =>
    (s.nodeAt node_id).bind fun node =>
    let nodeIs (i : Int) (p : TreeNode → Bool) : Bool :=
      match s.nodeAt i with
      | some n => p n
      | none => false
    if node.parent = TREEPOINTER_DEALLOCATED then none
    else if node.parent ≥ 0 ∧ node.left_sib < 0 ∧
        ¬ nodeIs node.parent (fun p => decide (p.first_child = node_id)) then none
    else if node.left_sib < 0 ∧
        ¬ (if node_id = 0 ∧ s.parent_.isSome then
            (match parent_node with
             | some pn => decide (node.child_index = pn.child_index)
             | none => false)
           else decide (node.child_index = 0)) then none
    else if node.left_sib ≥ 0 ∧
        ¬ nodeIs node.left_sib (fun l => decide (l.right_sib = node_id) &&
            decide (l.parent = node.parent) && decide (l.child_index + 1 = node.child_index))
        then none
    else if node.right_sib ≥ 0 ∧
        ¬ nodeIs node.right_sib (fun r => decide (r.left_sib = node_id)) then none
    else if node.parent ≥ 0 ∧ node.right_sib < 0 ∧
        ¬ nodeIs node.parent (fun p => decide (p.last_child = node_id)) then none
    else if node.first_child ≥ 0 ∧
        ¬ nodeIs node.first_child (fun c => decide (c.parent = node_id)) then none
    else if node.last_child ≥ 0 ∧
        ¬ nodeIs node.last_child (fun c => decide (c.parent = node_id)) then none
    else
      (if node.first_child ≥ 0 then
          s.CheckNodeConsistencyRecursive parent_node depth node.first_child
        else some 0).bind fun a =>
      (if node.right_sib ≥ 0 then
          s.CheckNodeConsistencyRecursive parent_node depth node.right_sib
        else some 0).map fun b => 1 + a + b

/-- The loop `while (dealloc != -1)` of `TreeStorage::CheckConsistency`, which fails when
`num_freed_nodes` exceeds `nodes_.size()`: `left` is the number of rounds that remain before
that. The result is `num_freed_nodes`. -/
def TreeStorage.countFreed (s : TreeStorage) : Nat → Int → Nat → Option Nat
  | left, dealloc, num_freed_nodes =>
    if dealloc = -1 then some num_freed_nodes
    else
      match left with
      | 0 => none
      | left + 1 =>
        (s.nodeAt dealloc).bind fun n => s.countFreed left n.type (num_freed_nodes + 1)

/-- Mirror of `TreeStorage::CheckConsistency`: `some ()` when every `CHECK` passes. -/
def TreeStorage.CheckConsistency (m : Memory) (s : TreeStorage) : Option Unit :=
  (s.CheckNodeConsistencyRecursive (m.nodeAt s.parent_ s.position_in_parent_) 33 0).bind
    fun num_nodes =>
    (s.countFreed s.nodes_.length s.first_free_node_ 0).bind fun num_freed_nodes =>
      if num_nodes + (num_freed_nodes : Int) = (s.nodes_.length : Nat) then some () else none

/-! ## Copying trees (`tree.cpp`) -/

/-- Mirror of the constructor `TreeStorage(parent, position_in_parent)` for any pointer `parent`:
with `nullptr`, `AttachTo` returns after setting the two members. -/
def TreeStorage.createAt (m : Memory) (parent : Option Nat) (position_in_parent : Int) :
    Option TreeStorage :=
  match parent with
  | none => some { TreeStorage.create with position_in_parent_ := position_in_parent }
  | some a => TreeStorage.createAttached m a position_in_parent

/-- The loop `for (auto it = reader.begin(); !it.at_end(); ++it)` of `Canonicalize` and of
`InlineIntoParent`, which copies the type and the value that the iterator `it` over the store
`rs` reads to the iterator `write_it` over the store `ws`: the written store and `write_it` with
its flag `at_end_` after the loop. The failed `CHECK(!write_it.at_end())` is `none`. -/
def copyLoop (fuel0 : Nat) (rs : TreeStorage) :
    Nat → ConstLocalEpsTreeTraversal × Bool → TreeStorage → LocalEpsTreeTraversal × Bool →
      Option (TreeStorage × LocalEpsTreeTraversal × Bool)
  | 0, _, _, _ => none
  | fuel + 1, it, ws, write_it =>
    if it.2 then some (ws, write_it.1, write_it.2)
    else if write_it.2 then none
    else
      (it.1.node rs).bind fun n =>
      (write_it.1.setLabels ws n.type n.value).bind fun w =>
      (w.2.pre_order_forward fuel0 w.1).bind fun w1 =>
      (it.1.pre_order_forward fuel0 rs).bind fun it1 =>
        copyLoop fuel0 rs fuel it1 w1.1 (w1.2.1, w1.2.2)

/-- Mirror of `TreeStorage::Canonicalize`: the store after the call (the store `tmp` that is
swapped in). `m` holds the parent store, if any; `fuel` bounds the rounds of each loop. -/
def TreeStorage.Canonicalize (m : Memory) (fuel : Nat) (s : TreeStorage) : Option TreeStorage :=
  (TreeStorage.createAt m s.parent_ s.position_in_parent_).bind fun tmp =>
    (copyLoop fuel s fuel (ConstLocalEpsTreeTraversal.create 0, false) tmp
        (LocalEpsTreeTraversal.create 0, false)).bind fun r =>
      if r.2.2 then some r.1 else none

/-- Mirror of `TreeStorage::InlineIntoParent` called on the store `self` with the argument
`parent`, which points to the store at address `a`: the store at `a` after the call; `none` when
`CHECK_EQ(parent_, parent)` fails. With `parent == nullptr` the call changes nothing and the
function is not used. -/
def TreeStorage.InlineIntoParent (m : Memory) (fuel : Nat) (self : TreeStorage) (a : Nat) :
    Option TreeStorage :=
  if self.parent_ ≠ some a then none
  else
    m[a]?.bind fun parent =>
      (parent.RemoveNodeChildren fuel self.position_in_parent_).bind fun p1 =>
        (copyLoop fuel self fuel (ConstLocalEpsTreeTraversal.create 0, false) p1
            (LocalEpsTreeTraversal.create self.position_in_parent_, false)).map fun r => r.1

/-- The loop of `TreeStorage::GetSubtreeForCompletion`. -/
def completionLoop (fuel0 : Nat) (rs : TreeStorage) (position : Int) ( is_for_node_type : Bool)
    (node_type : Int) :
    Nat → ConstLocalEpsTreeTraversal × Bool → TreeStorage → LocalEpsTreeTraversal →
      Option TreeStorage
  | 0, _, _, _ => none
  | fuel + 1, it, ws, write_it =>
    if it.2 then some ws
    else if it.1.position_ = position then
      (write_it.setLabels ws (if is_for_node_type then UNKNOWN_LABEL else node_type)
          UNKNOWN_LABEL).bind fun w =>
        (w.2.pre_order_forward fuel0 w.1).map fun w1 => w1.1
    else
      (it.1.node rs).bind fun n =>
      (write_it.setLabels ws n.Type n.Value).bind fun w =>
      (w.2.pre_order_forward fuel0 w.1).bind fun w1 =>
      (it.1.pre_order_forward fuel0 rs).bind fun it1 =>
        completionLoop fuel0 rs position is_for_node_type node_type fuel it1 w1.1 w1.2.1

/-- Mirror of `TreeStorage::GetSubtreeForCompletion` called on the store at address `a`: the
returned store, whose `parent_` is `a`. -/
def TreeStorage.GetSubtreeForCompletion (m : Memory) (fuel : Nat) (a : Nat) (position : Int)
    ( is_for_node_type : Bool) : Option TreeStorage :=
  m[a]?.bind fun self =>
  (self.nodeAt position).bind fun n =>
    let subtree_pos := if n.parent = -1 then position else n.parent
    (TreeStorage.createAttached m a subtree_pos).bind fun subtree =>
    (subtree.CheckConsistency m).bind fun _ =>
      completionLoop fuel self position is_for_node_type n.Type fuel
        (ConstLocalEpsTreeTraversal.create subtree_pos, false) subtree
        (LocalEpsTreeTraversal.create 0)

/-! ## Comparing trees (`tree.h`, `tree.cpp`) -/

/-- Mirror of `struct TreeCompareInfo`. -/
structure TreeCompareInfo where
  num_type_equalities : Int
  num_type_diffs : Int
  num_value_equalities : Int
  num_value_diffs : Int
  num_size_greater_diffs : Int
  num_size_smaller_diffs : Int
  num_aggregated_trees : Int
deriving DecidableEq, Repr

/-- Mirror of the constructor `TreeCompareInfo()`. -/
def TreeCompareInfo.create : TreeCompareInfo :=
  { num_type_equalities := 0, num_type_diffs := 0, num_value_equalities := 0,
    num_value_diffs := 0, num_size_greater_diffs := 0, num_size_smaller_diffs := 0,
    num_aggregated_trees := 1 }

/-- Mirror of `TreeCompareInfo::GetDifferences`. -/
def TreeCompareInfo.GetDifferences (i : TreeCompareInfo) : Int :=
  i.num_type_diffs + i.num_value_diffs + i.num_size_greater_diffs + i.num_size_smaller_diffs

/-- Mirror of `TreeCompareInfo::GetEqualities`. -/
def TreeCompareInfo.GetEqualities (i : TreeCompareInfo) : Int :=
  i.num_type_equalities + i.num_value_equalities

/-- The inner loop of `TreeSize`, which leaves a node without children: `some none` when the
function returns at `start_pos`, `some (some t)` when the loop is left by `break` at `t`; the
failed `CHECK(t.up())` is `none`. -/
def TreeSize.leaveLoop (m : Memory) (start_pos : Int) :
    Nat → LocalTreeTraversal → Option (Option LocalTreeTraversal)
  | 0, _ => none
  | fuel + 1, t =>
    if t.position_ = start_pos then some none
    else
      (t.right m).bind fun r =>
        if r.1 then some (some r.2)
        else
          (t.up m).bind fun u =>
            if u.1 then TreeSize.leaveLoop m start_pos fuel u.2 else none

/-- The outer loop of `TreeSize`. -/
def TreeSize.loop (m : Memory) (start_pos : Int) (fuel0 : Nat) :
    Nat → LocalTreeTraversal → Int → Option Int
  | 0, _, _ => none
  | fuel + 1, t, result =>
    (t.down_first_child m).bind fun d =>
      if d.1 then TreeSize.loop m start_pos fuel0 fuel d.2 (result + 1)
      else
        (TreeSize.leaveLoop m start_pos fuel0 d.2).bind fun l =>
          match l with
          | none => some (result + 1)
          | some t1 => TreeSize.loop m start_pos fuel0 fuel t1 (result + 1)

/-- Mirror of `TreeSize`; `fuel` bounds the rounds of each loop. -/
def TreeSize (m : Memory) (fuel : Nat) (t : LocalTreeTraversal) : Option Int :=
  TreeSize.loop m t.position_ fuel fuel t 0

/-- The loop `do { n += 2 * TreeSize(t); } while (t.right());` of `CompareTrees`: the counter
and the traversal after it. -/
def CompareTrees.excessLoop (m : Memory) (fuel0 : Nat) :
    Nat → LocalTreeTraversal → Int → Option (Int × LocalTreeTraversal)
  | 0, _, _ => none
  | fuel + 1, t, n =>
    (TreeSize m fuel0 t).bind fun size =>
      (t.right m).bind fun r =>
        if r.1 then CompareTrees.excessLoop m fuel0 fuel r.2 (n + 2 * size)
        else some (n + 2 * size, r.2)

/-- The state of the loops of `CompareTrees`. -/
structure CompareTrees.State where
  t1 : LocalTreeTraversal
  t2 : LocalTreeTraversal
  info : TreeCompareInfo
  depth : Int
deriving DecidableEq, Repr

/-- The inner loop of `CompareTrees`, which moves both traversals to the next pair of nodes:
`some (none, info)` when the function returns, `some (some st, _)` when the loop is left by
`break`; a failed `CHECK` is `none`. -/
def CompareTrees.leaveLoop (m : Memory) (start_t1 start_t2 : Int) (fuel0 : Nat) :
    Nat → CompareTrees.State → Option (Option CompareTrees.State × TreeCompareInfo)
  | 0, _ => none
  | fuel + 1, st =>
    if st.t1.position_ = start_t1 then
      if st.t2.position_ = start_t2 then some (none, st.info) else none
    else
      (st.t1.right m).bind fun r1 =>
      (st.t2.right m).bind fun r2 =>
        let t1_right := r1.1
        let t2_right := r2.1
        let st1 : CompareTrees.State := { st with t1 := r1.2, t2 := r2.2 }
        if t1_right && t2_right then some (some st1, st1.info)
        else if t1_right && !t2_right then
          (TreeSize m fuel0 st1.t1).bind fun size =>
            CompareTrees.leaveLoop m start_t1 start_t2 fuel0 fuel
              { st1 with
                info := { st1.info with
                          num_size_greater_diffs := st1.info.num_size_greater_diffs + 2 * size } }
        else if t2_right && !t1_right then
          (TreeSize m fuel0 st1.t1).bind fun size =>
            CompareTrees.leaveLoop m start_t1 start_t2 fuel0 fuel
              { st1 with
                info := { st1.info with
                          num_size_smaller_diffs := st1.info.num_size_smaller_diffs + 2 * size } }
        else
          (st1.t1.up m).bind fun u1 =>
            if ¬ u1.1 then none
            else
              (st1.t2.up m).bind fun u2 =>
                if ¬ u2.1 then none
                else
                  CompareTrees.leaveLoop m start_t1 start_t2 fuel0 fuel
                    { st1 with t1 := u1.2, t2 := u2.2, depth := st1.depth - 1 }

/-- The part of the outer loop of `CompareTrees` under `if (depth < max_depth)`: `Sum.inl` when
the loop goes on by `continue`, `Sum.inr` when it goes to the inner loop. -/
def CompareTrees.descend (m : Memory) (fuel0 : Nat) (st : CompareTrees.State) :
    Option (CompareTrees.State ⊕ CompareTrees.State) :=
  (st.t1.down_first_child m).bind fun d1 =>
  (st.t2.down_first_child m).bind fun d2 =>
    let t1_down := d1.1
    let t2_down := d2.1
    let st1 : CompareTrees.State := { st with t1 := d1.2, t2 := d2.2, depth := st.depth + 1 }
    if t1_down && t2_down then some (Sum.inl st1)
    else
      (if t1_down && !t2_down then
          (CompareTrees.excessLoop m fuel0 fuel0 st1.t1 st1.info.num_size_greater_diffs).bind
            fun r =>
              (r.2.up m).map fun u =>
                ({ st1 with
                   t1 := u.2
                   info := { st1.info with num_size_greater_diffs := r.1 }
                   depth := st1.depth - 1 } : CompareTrees.State)
        else some st1).bind fun st2 =>
      (if !t1_down && t2_down then
          (CompareTrees.excessLoop m fuel0 fuel0 st2.t2 st2.info.num_size_smaller_diffs).bind
            fun r =>
              (r.2.up m).map fun u =>
                ({ st2 with
                   t2 := u.2
                   info := { st2.info with num_size_smaller_diffs := r.1 }
                   depth := st2.depth - 1 } : CompareTrees.State)
        else some st2).map Sum.inr

/-- The outer loop of `CompareTrees`. -/
def CompareTrees.loop (m : Memory) (start_t1 start_t2 : Int) (only_types : Bool)
    (max_depth : Int) (fuel0 : Nat) : Nat → CompareTrees.State → Option TreeCompareInfo
  | 0, _ => none
  | fuel + 1, st =>
    (st.t1.node m).bind fun n1 =>
    (st.t2.node m).bind fun n2 =>
      let i0 := st.info
      let i1 : TreeCompareInfo :=
        if n1.type = n2.type then { i0 with num_type_equalities := i0.num_type_equalities + 1 }
        else { i0 with num_type_diffs := i0.num_type_diffs + 1 }
      let i2 : TreeCompareInfo :=
        if only_types then i1
        else if n1.value = n2.value then
          { i1 with num_value_equalities := i1.num_value_equalities + 1 }
        else { i1 with num_value_diffs := i1.num_value_diffs + 1 }
      let st1 : CompareTrees.State := { st with info := i2 }
      (if st1.depth < max_depth then CompareTrees.descend m fuel0 st1
        else some (Sum.inr st1)).bind fun r =>
        match r with
        | Sum.inl st2 => CompareTrees.loop m start_t1 start_t2 only_types max_depth fuel0 fuel st2
        | Sum.inr st2 =>
          (CompareTrees.leaveLoop m start_t1 start_t2 fuel0 fuel0 st2).bind fun l =>
            match l.1 with
            | none => some l.2
            | some st3 =>
              CompareTrees.loop m start_t1 start_t2 only_types max_depth fuel0 fuel st3

/-- Mirror of `CompareTrees(t1, t2, info, only_types, max_depth)`: the counters written to
`info`, whose field `num_aggregated_trees` is left as the caller made it; `fuel` bounds the
rounds of each loop. -/
def CompareTrees (m : Memory) (fuel : Nat) (t1 t2 : LocalTreeTraversal)
    (info : TreeCompareInfo) (only_types : Bool) (max_depth : Int) : Option TreeCompareInfo :=
  CompareTrees.loop m t1.position_ t2.position_ only_types max_depth fuel fuel
    { t1 := t1, t2 := t2,
      info := { info with
                num_type_equalities := 0, num_type_diffs := 0, num_value_equalities := 0,
                num_value_diffs := 0, num_size_greater_diffs := 0,
                num_size_smaller_diffs := 0 },
      depth := 0 }

/-- The default `max_depth` of `CompareTrees`, `std::numeric_limits<int>::max()`. -/
def CompareTrees.default_max_depth : Int := 2147483647

/-- Mirror of `CompareTrees(t1, t2, num_equalities, num_diffs)`: the two numbers written. -/
def CompareTrees.totals (m : Memory) (fuel : Nat) (t1 t2 : LocalTreeTraversal) :
    Option (Int × Int) :=
  (CompareTrees m fuel t1 t2 TreeCompareInfo.create false CompareTrees.default_max_depth).map
    fun info => (info.GetEqualities, info.GetDifferences)

/-- The store `[0:0 [1:0]]`. -/
def compare_small_tree : TreeStorage :=
  { nodes_ :=
      [{ type := 0, value := 0, parent := -1, left_sib := -1, right_sib := -1, first_child := 1,
         last_child := 1, child_index := 0 },
       { type := 1, value := 0, parent := 0, left_sib := -1, right_sib := -1, first_child := -1,
         last_child := -1, child_index := 0 }],
    parent_ := none, position_in_parent_ := -1, first_free_node_ := -1 }

/-- The store `[0:0 [1:0] [2:0 [3:0]]]`. -/
def compare_large_tree : TreeStorage :=
  { nodes_ :=
      [{ type := 0, value := 0, parent := -1, left_sib := -1, right_sib := -1, first_child := 1,
         last_child := 2, child_index := 0 },
       { type := 1, value := 0, parent := 0, left_sib := -1, right_sib := 2, first_child := -1,
         last_child := -1, child_index := 0 },
       { type := 2, value := 0, parent := 0, left_sib := 1, right_sib := -1, first_child := 3,
         last_child := 3, child_index := 1 },
       { type := 3, value := 0, parent := 2, left_sib := -1, right_sib := -1, first_child := -1,
         last_child := -1, child_index := 0 }],
    parent_ := none, position_in_parent_ := -1, first_free_node_ := -1 }

/-! ## Parsing a tree from JSON (`tree.cpp`) -/

/-- Modelled from the spec: a JSON value, the class `Json::Value` of the library jsoncpp (not
among the sources), "a JSON array whose elements are either objects or the trailing integer 0",
objects with fields that are strings, integers or arrays of integers. -/
inductive Json.Value where
  | null : Json.Value
  | int : Int → Json.Value
  | str : Str → Json.Value
  | array : List Json.Value → Json.Value
  | object : List (Str × Json.Value) → Json.Value

/-- Modelled from the spec: `Json::Value::isNull`. -/
def Json.Value.isNull : Json.Value → Bool
  | Json.Value.null => true
  | _ => false

/-- Modelled from the spec: `Json::Value::isObject`. -/
def Json.Value.isObject : Json.Value → Bool
  | Json.Value.object _ => true
  | _ => false

/-- Modelled from the spec: `Json::Value::isArray`. -/
def Json.Value.isArray : Json.Value → Bool
  | Json.Value.array _ => true
  | _ => false

/-- Modelled from the spec: `Json::Value::isString`. -/
def Json.Value.isString : Json.Value → Bool
  | Json.Value.str _ => true
  | _ => false

/-- Modelled from the spec: `Json::Value::size`, the number of elements of an array or of
members of an object, 0 for the other values. -/
def Json.Value.size : Json.Value → Nat
  | Json.Value.array l => l.length
  | Json.Value.object l => l.length
  | _ => 0

/-- Modelled from the spec: `Json::Value::operator[](ArrayIndex) const` on an array: the
element, the null value outside the array. -/
def Json.Value.index : Json.Value → Nat → Json.Value
  | Json.Value.array l, i => l[i]?.getD Json.Value.null
  | _, _ => Json.Value.null

/-- The first member with the given name. -/
def Json.lookupMember (key : Str) : List (Str × Json.Value) → Option Json.Value
  | [] => none
  | (k, v) :: rest => if k = key then some v else Json.lookupMember key rest

/-- Modelled from the spec: `Json::Value::isMember`. -/
def Json.Value.isMember : Json.Value → Str → Bool
  | Json.Value.object l, key => (Json.lookupMember key l).isSome
  | _, _ => false

/-- Modelled from the spec: `Json::Value::operator[](const char*) const` on an object: the
member, the null value when there is none. -/
def Json.Value.member : Json.Value → Str → Json.Value
  | Json.Value.object l, key => (Json.lookupMember key l).getD Json.Value.null
  | _, _ => Json.Value.null

/-- Modelled from the spec: `Json::Value::asInt`: the integer, 0 for the null value; for a value
that is not convertible to `int` the library throws, which is `none`. -/
def Json.Value.asInt : Json.Value → Option Int
  | Json.Value.int i => if inInt32 i then some i else none
  | Json.Value.null => some 0
  | _ => none

/-- Modelled from the spec: `Json::Value::asCString`, the text of a string value. -/
def Json.Value.asCString : Json.Value → Option Str
  | Json.Value.str s => some (cstr s)
  | _ => none

/-- The loop `while (node_count > 0 && !v[node_count - 1].isObject()) --node_count` of
`TreeStorage::Parse`. -/
def TreeStorage.parseNodeCount (v : Json.Value) : Nat → Nat
  | 0 => 0
  | n + 1 => if !(v.index n).isObject then TreeStorage.parseNodeCount v n else n + 1

/-- The loop over `children` of `TreeStorage::Parse`, at index `i` with `last_child_id`; a failed
`CHECK` is `none`. -/
def TreeStorage.parseChildren (node_id node_count : Int) :
    List Json.Value → Int → Int → TreeStorage → Option TreeStorage
  | [], _, _, s => some s
  | c :: cs, i, last_child_id, s =>
    c.asInt.bind fun child_node_id =>
      if ¬ child_node_id ≥ node_id then none
      else if ¬ child_node_id < node_count then none
      else
        (s.modifyNode child_node_id fun n => { n with child_index := i, parent := node_id }).bind
          fun s1 =>
        (if last_child_id = -1 then
            s1.modifyNode node_id fun n => { n with first_child := child_node_id }
          else
            (s1.modifyNode last_child_id fun n => { n with right_sib := child_node_id }).bind
              fun s2 => s2.modifyNode child_node_id fun n => { n with left_sib := last_child_id }
          ).bind fun s3 =>
        (s3.modifyNode node_id fun n => { n with last_child := child_node_id }).bind fun s4 =>
          TreeStorage.parseChildren node_id node_count cs (i + 1) child_node_id s4

/-- The body of the loop over `node_id` of `TreeStorage::Parse`. -/
def TreeStorage.parseNode (v : Json.Value) (node_count : Nat) (st : TreeStorage × StringSet)
    (node_id : Nat) : Option (TreeStorage × StringSet) :=
  let json_node := v.index node_id
  if json_node.isNull then none
  else if ¬ json_node.isObject then none
  else
    (if json_node.isMember "id".toList then
        ((json_node.member "id".toList).asInt).bind fun id =>
          if (node_id : Int) = id then some () else none
      else some ()).bind fun _ =>
    ((json_node.member "type".toList).asCString).bind fun type =>
      let r := st.2.addString type
      (st.1.modifyNode node_id fun n => { n with type := r.1 }).bind fun s1 =>
      let value := json_node.member "value".toList
      let rv : Int × StringSet :=
        if json_node.isMember "value".toList then
          match value.asCString with
          | some text => r.2.addString text
          | none => (-1, r.2)
        else (-1, r.2)
      (s1.modifyNode node_id fun n => { n with value := rv.1 }).bind fun s2 =>
      match json_node.member "children".toList with
      | Json.Value.array children =>
        (TreeStorage.parseChildren node_id node_count children 0 (-1) s2).map fun s3 =>
          (s3, rv.2)
      | _ => some (s2, rv.2)

/-- Mirror of `TreeStorage::Parse`: the store and the string set after the call; a failed `CHECK`,
an exception of the JSON library and the write to `nodes_[0]` of an empty vector are `none`. -/
def TreeStorage.Parse (v : Json.Value) (ss : StringSet) : Option (TreeStorage × StringSet) :=
  if ¬ v.isArray then none
  else
    let node_count := TreeStorage.parseNodeCount v v.size
    let empty_node : TreeNode :=
      { type := UNKNOWN_LABEL, value := -1, parent := -1, left_sib := -1, right_sib := -1,
        first_child := -1, last_child := -1, child_index := -1 }
    let s0 : TreeStorage :=
      { nodes_ := List.replicate node_count empty_node, parent_ := none,
        position_in_parent_ := -1, first_free_node_ := -1 }
    (s0.modifyNode 0 fun n => { n with child_index := 0 }).bind fun s1 =>
      (List.range node_count).foldlM (TreeStorage.parseNode v node_count) (s1, ss)

/-- The JSON text `[{"type":"a","children":[0]}]`. -/
def json_self_child : Json.Value :=
  Json.Value.array
    [Json.Value.object
      [("type".toList, Json.Value.str "a".toList),
       ("children".toList, Json.Value.array [Json.Value.int 0])]]

/-- The JSON text `[{"type":"a","children":[1]},{"type":"b"},0]`. -/
def json_parent_and_child : Json.Value :=
  Json.Value.array
    [Json.Value.object
      [("type".toList, Json.Value.str "a".toList),
       ("children".toList, Json.Value.array [Json.Value.int 1])],
     Json.Value.object [("type".toList, Json.Value.str "b".toList)],
     Json.Value.int 0]

/-! ## Iterating over the nodes with a symbol (`tree_index.h`) -/

/-- The loop `while (it.MoveLeft()) visit(it.GetItem().position());` on the iterator
`ActorSymbolIterator(symbol_, tree_pos_, index_)`: the positions visited, in order; `rounds`
bounds the number of calls of `MoveLeft`, `none` when it does not suffice. -/
def ActorSymbolIterator.moveLeftUntilFalse (FingerprintCat : Int → Int → Int) (m : Memory)
    (fuel : Nat) (symbol_ : Int) (index_ : ActorIndex) :
    Nat → SlicedTreeTraversal → Option (List Int)
  | 0, _ => none
  | rounds + 1, tree_pos_ =>
    (ActorSymbolIterator.MoveLeft FingerprintCat m fuel symbol_ tree_pos_ index_).bind fun r =>
      if r.1 then
        (ActorSymbolIterator.moveLeftUntilFalse FingerprintCat m fuel symbol_ index_ rounds
            r.2).map fun rest => r.2.position_ :: rest
      else some []

/-- The linear scan of the specification: the nodes of the walk over the store from the root, in
the order of the walk, whose actor symbol is `symbol`. -/
def linearScanForSymbol (FingerprintCat : Int → Int → Int) (s : TreeStorage) (af : ActorFinder)
    (symbol : Int) : Option (List Int) :=
  (s.ForEachSubnodeOfNode 0).map fun visited =>
    visited.filter fun j =>
      decide (af.GetNodeActorSymbol FingerprintCat [s] (unslicedAt j) = some symbol)

/-- The store of `TEST(TreeIndex, TestIterator)`, `[100 [101] [105] [106] [101] [105]]`. -/
def index_test_tree : TreeStorage :=
  { nodes_ :=
      [{ type := 100, value := -1, parent := -1, left_sib := -1, right_sib := -1,
         first_child := 1, last_child := 5, child_index := 0 },
       { type := 101, value := -1, parent := 0, left_sib := -1, right_sib := 2,
         first_child := -1, last_child := -1, child_index := 0 },
       { type := 105, value := -1, parent := 0, left_sib := 1, right_sib := 3,
         first_child := -1, last_child := -1, child_index := 1 },
       { type := 106, value := -1, parent := 0, left_sib := 2, right_sib := 4,
         first_child := -1, last_child := -1, child_index := 2 },
       { type := 101, value := -1, parent := 0, left_sib := 3, right_sib := 5,
         first_child := -1, last_child := -1, child_index := 3 },
       { type := 105, value := -1, parent := 0, left_sib := 4, right_sib := -1,
         first_child := -1, last_child := -1, child_index := 4 }],
    parent_ := none, position_in_parent_ := -1, first_free_node_ := -1 }

/-- The index that `ActorIndex::Build` makes for `index_test_tree` with
`ActorFinderByNodeType`. -/
def index_test_index : ActorIndex :=
  { actor_finder_ := .ActorFinderByNodeType, tree_ := some 0,
    symbol_sequences_ := [(100, [0]), (101, [1, 4]), (105, [2, 5]), (106, [3])],
    symbol_predecessors_ :=
      [{ symbol := 100, pred_position := -1 }, { symbol := 101, pred_position := -1 },
       { symbol := 105, pred_position := -1 }, { symbol := 106, pred_position := -1 },
       { symbol := 101, pred_position := 1 }, { symbol := 105, pred_position := 2 }] }

/-! ## Counters (`pbox.h`) -/

/-- The sum of two `int` values as the machine computes it, modulo `2^32` in two's complement. -/
def addInt32 (a b : Int) : Int := (a + b + 2147483648) % 4294967296 - 2147483648

/-- Mirror of `class SequenceHashFeature`. -/
structure SequenceHashFeature where
  hash_ : Int
  size_ : Int
deriving DecidableEq, Repr

/-- Mirror of the constructor `SequenceHashFeature()`. -/
def SequenceHashFeature.create : SequenceHashFeature := { hash_ := 0, size_ := 0 }

/-- Mirror of `SequenceHashFeature::operator==`: features are equal when their hashes are. -/
def SequenceHashFeature.equals (a b : SequenceHashFeature) : Bool := a.hash_ == b.hash_

/-- Mirror of `SequenceHashFeature::size`. -/
def SequenceHashFeature.size (f : SequenceHashFeature) : Int := f.size_

/-- Mirror of `enum SmoothingTypes`, value `KneserNey`. -/
def KneserNey : Int := 1

/-- The conversion of a `double` to `int`, which drops the fraction. -/
def truncToInt (x : ℚ) : Int := if 0 ≤ x then ⌊x⌋ else ⌈x⌉

/-- Mirror of `class KneserNeyDelta`; the arrays `counts_[5]` and `deltas_[4]` are lists, and a
`double` is a rational number. -/
structure KneserNeyDelta where
  deltas_estimated_ : Bool
  counts_ : List Int
  deltas_ : List ℚ
deriving DecidableEq, Repr

/-- Mirror of `KneserNeyDelta::clear`. -/
def KneserNeyDelta.clear (_d : KneserNeyDelta) : KneserNeyDelta :=
  { deltas_estimated_ := false, counts_ := [0, 0, 0, 0, 0], deltas_ := [0, 0, 0, 0] }

/-- Mirror of the constructor `KneserNeyDelta()`. -/
def KneserNeyDelta.create : KneserNeyDelta :=
  { deltas_estimated_ := false, counts_ := [0, 0, 0, 0, 0], deltas_ := [0, 0, 0, 0] }

/-- Mirror of `KneserNeyDelta::GetDelta`; `none` is the failed `CHECK` or an index outside the
array. -/
def KneserNeyDelta.GetDelta (d : KneserNeyDelta) (count : Int) : Option ℚ :=
  if d.deltas_estimated_ then
    if 0 ≤ min count 3 then d.deltas_[(min count 3).toNat]? else none
  else none

/-- Mirror of `KneserNeyDelta::AddCount`; `none` is the failed `CHECK(count > 0)`. -/
def KneserNeyDelta.AddCount (d : KneserNeyDelta) (count : Int) : Option KneserNeyDelta :=
  if count > 0 then
    (d.counts_[(min count 4).toNat]?).map fun old =>
      { d with counts_ := d.counts_.set (min count 4).toNat (old + 1) }
  else none

/-- Mirror of `KneserNeyDelta::EndAdding`; `none` when an array is read outside its bounds. -/
def KneserNeyDelta.EndAdding (d : KneserNeyDelta) : Option KneserNeyDelta :=
  match d.counts_, d.deltas_ with
  | [_, n1, n2, n3, n4], [d0, d1, d2, d3] =>
    let deltas : List ℚ :=
      if n1 ≠ 0 ∨ n2 ≠ 0 then
        let Y : ℚ := (n1 : ℚ) / ((n1 + 2 * n2 : Int) : ℚ)
        [d0,
         if n1 ≠ 0 then 1 - 2 * Y * ((n2 : ℚ) / (n1 : ℚ)) else d1,
         if n2 ≠ 0 then 2 - 3 * Y * ((n3 : ℚ) / (n2 : ℚ)) else d2,
         if n3 ≠ 0 then 3 - 4 * Y * ((n4 : ℚ) / (n3 : ℚ)) else d3]
      else [d0, d1, d2, d3]
    some { d with deltas_estimated_ := true, deltas_ := deltas.map fun x => max (min x 1) 0 }
  | _, _ => none

/-- Mirror of `PerFeatureValueCounter::ValueStats`; the `unordered_map` is the list of its
entries. -/
structure ValueStats where
  per_value_continuations_ : List (Int × Int)
  total_count_ : Int
deriving DecidableEq, Repr

/-- Mirror of the constructor `ValueStats()`. -/
def ValueStats.create : ValueStats := { per_value_continuations_ := [], total_count_ := 0 }

/-- The element `m[key]` of an `unordered_map` or hash map `m` after the update `f`: the element
comes last in the list when it is new, made from `init`. -/
def hashMapModify {K V : Type} (eq : K → K → Bool) (init : V) (f : V → V) :
    List (K × V) → K → List (K × V)
  | [], key => [(key, f init)]
  | (k, v) :: rest, key =>
    if eq k key then (k, f v) :: rest else (k, v) :: hashMapModify eq init f rest key

/-- The call `m.find(key)` on an `unordered_map` or hash map: the element, `none` for `end()`. -/
def hashMapFind {K V : Type} (eq : K → K → Bool) : List (K × V) → K → Option V
  | [], _ => none
  | (k, v) :: rest, key => if eq k key then some v else hashMapFind eq rest key

/-- Mirror of `ValueStats::AddFeatureForValue`; the two numbers count entries of the hash table
and stay below `2^31`. -/
def ValueStats.AddFeatureForValue (vs : ValueStats) (value : Int) : ValueStats :=
  { per_value_continuations_ :=
      hashMapModify (· == ·) 0 (fun n => n + 1) vs.per_value_continuations_ value,
    total_count_ := vs.total_count_ + 1 }

/-- Mirror of `ValueStats::GetValuePrefixCount`. -/
def ValueStats.GetValuePrefixCount (vs : ValueStats) (value : Int) : Int :=
  (hashMapFind (· == ·) vs.per_value_continuations_ value).getD 0

/-- Mirror of `ValueStats::TotalPrefixCount`. -/
def ValueStats.TotalPrefixCount (vs : ValueStats) : Int := vs.total_count_

/-- Mirror of `PerFeatureValueCounter::FeatureStats`. A pointer `const V*` into the hash table
`feature_value_counts_` is the place of the entry in the table, in the order of iteration, which
is the order of the addresses. -/
structure FeatureStats where
  total_count_ : Int
  unique_count_ : Int
  sorted_by_prob_ : List (ℚ × Nat)
  counts_ : List Int
deriving DecidableEq, Repr

/-- Mirror of the constructor `FeatureStats()`. -/
def FeatureStats.create : FeatureStats :=
  { total_count_ := 0, unique_count_ := 0, sorted_by_prob_ := [], counts_ := [0, 0, 0, 0] }

/-- Mirror of `FeatureStats::TotalCount`. -/
def FeatureStats.TotalCount (fs : FeatureStats) : Int := fs.total_count_

/-- Mirror of `FeatureStats::UniqueLabels`. -/
def FeatureStats.UniqueLabels (fs : FeatureStats) : Int := fs.unique_count_

/-- Mirror of `FeatureStats::GetCounts`. -/
def FeatureStats.GetCounts (fs : FeatureStats) : List Int := fs.counts_

/-- Mirror of `FeatureStats::AddValue`; `none` is the write `counts_[std::min(count, 3)]++`
outside the vector, for a negative count. The sum `total_count_ += count` is the machine sum;
`unique_count_` and `counts_` count entries of the hash table and stay below `2^31`. -/
def FeatureStats.AddValue (fs : FeatureStats) (count : Int) (value : Nat) :
    Option FeatureStats :=
  if 0 ≤ min count 3 then
    (fs.counts_[(min count 3).toNat]?).map fun old =>
      { total_count_ := addInt32 fs.total_count_ count,
        unique_count_ := fs.unique_count_ + 1,
        sorted_by_prob_ := fs.sorted_by_prob_ ++ [((count : ℚ), value)],
        counts_ := fs.counts_.set (min count 3).toNat (old + 1) }
  else none

/-- Mirror of `FeatureStats::GetMLProb`; the quotient of the two `double` values is the exact
quotient (0 for the divisor 0, where the machine gives an infinity or no number). -/
def FeatureStats.GetMLProb (fs : FeatureStats) (count : Int) : ℚ :=
  (count : ℚ) / (fs.total_count_ : ℚ)

/-- Mirror of `FeatureStats::GetLaplaceSmoothedMLProb`. -/
def FeatureStats.GetLaplaceSmoothedMLProb (fs : FeatureStats) (count : Int) : ℚ :=
  ((count : ℚ) + 1) / ((fs.total_count_ : ℚ) + (fs.unique_count_ : ℚ) + 1)

/-- Mirror of `FeatureStats::CalculateProb`. -/
def FeatureStats.CalculateProb (fs : FeatureStats) : FeatureStats :=
  { fs with
    sorted_by_prob_ := fs.sorted_by_prob_.map fun p => (fs.GetMLProb (truncToInt p.1), p.2) }

/-- The order `std::greater<std::pair<double, const V*> >` or equality: the first components
decide, then the pointers. -/
def probGreaterEq (a b : ℚ × Nat) : Prop := b.1 < a.1 ∨ (b.1 = a.1 ∧ b.2 ≤ a.2)

instance : DecidableRel probGreaterEq := fun a b => by
  unfold probGreaterEq; infer_instance

/-- Mirror of `FeatureStats::SortValues`: `std::sort` with `std::greater`. -/
def FeatureStats.SortValues (fs : FeatureStats) : FeatureStats :=
  { fs with sorted_by_prob_ := fs.sorted_by_prob_.insertionSort probGreaterEq }

/-- Mirror of `class PerFeatureValueCounter<F, V>` for the features `SequenceHashFeature` and the
labels `int`, as the model uses it. Modelled from the spec: the hash map `dense_hash_map` of
`base/sparsehash` is not among the sources, "keys are (feature, label) pairs; value is an integer
count"; a hash map is the list of its entries in the order of iteration. -/
structure PerFeatureValueCounter where
  feature_value_counts_ : List ((SequenceHashFeature × Int) × Int)
  feature_stats_ : List (SequenceHashFeature × FeatureStats)
  value_stats_ : List (Int × ValueStats)
  deltas_ : List (Int × KneserNeyDelta)
deriving DecidableEq, Repr

/-- Mirror of the constructor `PerFeatureValueCounter()`. -/
def PerFeatureValueCounter.create : PerFeatureValueCounter :=
  { feature_value_counts_ := [], feature_stats_ := [], value_stats_ := [], deltas_ := [] }

/-- Equality of the keys `std::pair<F, V>` of `feature_value_counts_`. -/
def keyEquals (a b : SequenceHashFeature × Int) : Bool := a.1.equals b.1 && a.2 == b.2

/-- The statement `feature_value_counts_[key] += count` on the entries of the hash table.
Modelled from the spec: where the table of `base/sparsehash` puts a new entry, and how it
rearranges the others then, is the library's alone; `layout` is this rearrangement of the
entries, the new one included. -/
def countsAdd (layout : List ((SequenceHashFeature × Int) × Int) →
      List ((SequenceHashFeature × Int) × Int))
    (table : List ((SequenceHashFeature × Int) × Int)) (key : SequenceHashFeature × Int)
    (count : Int) : List ((SequenceHashFeature × Int) × Int) :=
  match hashMapFind keyEquals table key with
  | some _ => hashMapModify keyEquals 0 (fun n => addInt32 n count) table key
  | none => layout (table ++ [(key, addInt32 0 count)])

/-- Mirror of `PerFeatureValueCounter::AddValue`. -/
def PerFeatureValueCounter.AddValue
    (layout : List ((SequenceHashFeature × Int) × Int) →
      List ((SequenceHashFeature × Int) × Int))
    (c : PerFeatureValueCounter) (feature : SequenceHashFeature) (value : Int) (count : Int) :
    PerFeatureValueCounter :=
  { c with
    feature_value_counts_ := countsAdd layout c.feature_value_counts_ (feature, value) count }

/-- Mirror of `PerFeatureValueCounter::GetCount`. -/
def PerFeatureValueCounter.GetCount (c : PerFeatureValueCounter) (feature : SequenceHashFeature)
    (value : Int) : Int :=
  (hashMapFind keyEquals c.feature_value_counts_ (feature, value)).getD 0

/-- The variables of the first loop of `PerFeatureValueCounter::EndAdding`. -/
structure EndAddingState where
  feature_stats_ : List (SequenceHashFeature × FeatureStats)
  value_stats_ : List (Int × ValueStats)
  deltas_ : List (Int × KneserNeyDelta)
  max_feature_size : Int
deriving DecidableEq, Repr

/-- The body of the first loop of `PerFeatureValueCounter::EndAdding` for the entry at the place
`ptr` of the table. -/
def EndAddingState.visit (smoothing_type : Int) (st : EndAddingState)
    (ptr : Nat) (entry : (SequenceHashFeature × Int) × Int) : Option EndAddingState :=
  let feature := entry.1.1
  let old := (hashMapFind SequenceHashFeature.equals st.feature_stats_ feature).getD
    FeatureStats.create
  (old.AddValue entry.2 ptr).bind fun fs =>
    let st1 : EndAddingState :=
      { st with
        feature_stats_ :=
          hashMapModify SequenceHashFeature.equals FeatureStats.create (fun _ => fs)
            st.feature_stats_ feature,
        max_feature_size := max st.max_feature_size feature.size }
    if smoothing_type = KneserNey then
      let oldd := (hashMapFind (· == ·) st1.deltas_ feature.size).getD KneserNeyDelta.create
      (oldd.AddCount entry.2).map fun d =>
        { st1 with
          value_stats_ :=
            hashMapModify (· == ·) ValueStats.create
              (fun vs => vs.AddFeatureForValue entry.1.2) st1.value_stats_ feature.size,
          deltas_ :=
            hashMapModify (· == ·) KneserNeyDelta.create (fun _ => d) st1.deltas_ feature.size }
    else some st1

/-- The first loop of `PerFeatureValueCounter::EndAdding`, over the entries of the table from the
place `ptr` on. -/
def EndAddingState.visitAll (smoothing_type : Int) :
    List ((SequenceHashFeature × Int) × Int) → Nat → EndAddingState → Option EndAddingState
  | [], _, st => some st
  | entry :: rest, ptr, st =>
    (st.visit smoothing_type ptr entry).bind fun st1 =>
      EndAddingState.visitAll smoothing_type rest (ptr + 1) st1

/-- The loop over `it.second.per_value_continuations_` of `PerFeatureValueCounter::EndAdding`,
which calls `AddCount` with the count of each element. -/
def KneserNeyDelta.addCounts : List (Int × Int) → KneserNeyDelta → Option KneserNeyDelta
  | [], d => some d
  | p :: rest, d => (d.AddCount p.2).bind fun d1 => KneserNeyDelta.addCounts rest d1

/-- The loop `for (const auto it : value_stats_)` of `PerFeatureValueCounter::EndAdding` on the
map `deltas_`; `none` is a failed `CHECK`. -/
def estimateDeltas (max_feature_size : Int) :
    List (Int × ValueStats) → List (Int × KneserNeyDelta) → Option (List (Int × KneserNeyDelta))
  | [], deltas => some deltas
  | it :: rest, deltas =>
    match hashMapFind (· == ·) deltas it.1 with
    | none => none
    | some delta =>
      (if it.1 = max_feature_size then delta.EndAdding
        else
          (KneserNeyDelta.addCounts it.2.per_value_continuations_ delta.clear).bind fun d =>
            d.EndAdding).bind fun d =>
        estimateDeltas max_feature_size rest
          (hashMapModify (· == ·) KneserNeyDelta.create (fun _ => d) deltas it.1)

/-- Mirror of `PerFeatureValueCounter::EndAdding` with the flag `FLAGS_smoothing_type`; `none` is
a failed `CHECK` or a write outside a vector. -/
def PerFeatureValueCounter.EndAdding (smoothing_type : Int) (c : PerFeatureValueCounter) :
    Option PerFeatureValueCounter :=
  (EndAddingState.visitAll smoothing_type c.feature_value_counts_ 0
      { feature_stats_ := [], value_stats_ := [], deltas_ := [], max_feature_size := -1 }).bind
    fun st =>
      (if smoothing_type = KneserNey then
          estimateDeltas st.max_feature_size st.value_stats_ st.deltas_
        else some st.deltas_).map fun deltas =>
        { c with
          feature_stats_ := st.feature_stats_.map fun e => (e.1, e.2.CalculateProb.SortValues),
          value_stats_ := st.value_stats_,
          deltas_ := deltas }

/-- Mirror of `PerFeatureValueCounter::GetFeatureStatsOrNull`; `none` is `nullptr`. -/
def PerFeatureValueCounter.GetFeatureStatsOrNull (c : PerFeatureValueCounter)
    (feature : SequenceHashFeature) : Option FeatureStats :=
  hashMapFind SequenceHashFeature.equals c.feature_stats_ feature

/-- Mirror of `PerFeatureValueCounter::LabelsSortedByProbability`. -/
def PerFeatureValueCounter.LabelsSortedByProbability (c : PerFeatureValueCounter)
    (feature : SequenceHashFeature) : List (ℚ × Nat) :=
  match hashMapFind SequenceHashFeature.equals c.feature_stats_ feature with
  | none => []
  | some fs => fs.sorted_by_prob_

/-- The label `*p.second` that an element `p` of `LabelsSortedByProbability` points to, with its
probability; `none` for a pointer that is not the place of an entry of the table. -/
def PerFeatureValueCounter.labelAt (c : PerFeatureValueCounter) (p : ℚ × Nat) :
    Option (ℚ × Int) :=
  (c.feature_value_counts_[p.2]?).map fun e => (p.1, e.1.2)

/-- Mirror of `PerFeatureValueCounter::GetValuePrefixCount`. -/
def PerFeatureValueCounter.GetValuePrefixCount (smoothing_type : Int)
    (c : PerFeatureValueCounter) (feature : SequenceHashFeature) (value : Int) : Int :=
  if smoothing_type ≠ KneserNey then 0
  else
    match hashMapFind (· == ·) c.value_stats_ feature.size with
    | some vs => vs.GetValuePrefixCount value
    | none => 0

/-- Mirror of `PerFeatureValueCounter::GetTotalPrefixCount`. -/
def PerFeatureValueCounter.GetTotalPrefixCount (smoothing_type : Int)
    (c : PerFeatureValueCounter) (feature : SequenceHashFeature) : Int :=
  if smoothing_type ≠ KneserNey then 0
  else
    match hashMapFind (· == ·) c.value_stats_ feature.size with
    | some vs => vs.TotalPrefixCount
    | none => 0

/-- Mirror of `PerFeatureValueCounter::GetKneserNeyDelta`: `some none` is `nullptr`, `none` the
failed `CHECK`. -/
def PerFeatureValueCounter.GetKneserNeyDelta (smoothing_type : Int)
    (c : PerFeatureValueCounter) (feature : SequenceHashFeature) :
    Option (Option KneserNeyDelta) :=
  if smoothing_type ≠ KneserNey then some none
  else (hashMapFind (· == ·) c.deltas_ feature.size).map some

/-- The calls `AddValue(feature, value, count)` for the triples of a list, in order. -/
def PerFeatureValueCounter.addValues
    (layout : List ((SequenceHashFeature × Int) × Int) →
      List ((SequenceHashFeature × Int) × Int))
    (c : PerFeatureValueCounter) : List (SequenceHashFeature × Int × Int) →
    PerFeatureValueCounter
  | [] => c
  | x :: rest =>
    PerFeatureValueCounter.addValues layout (c.AddValue layout x.1 x.2.1 x.2.2) rest

/-- The labels `*p.second` that the elements of a list of `LabelsSortedByProbability` point to,
each with its probability; `none` when a pointer is not the place of an entry of the table. -/
def PerFeatureValueCounter.labelsAt (c : PerFeatureValueCounter) :
    List (ℚ × Nat) → Option (List (ℚ × Int))
  | [] => some []
  | p :: ps => (c.labelAt p).bind fun x => (c.labelsAt ps).map fun xs => x :: xs

/-- Mirror of `class ValueCounter<X>` for the values `int`, with the fields of its `Data`. The
hash map `values_` is the list of its entries, each with its `CounterValue` as the pair of
`prob_` and `count_`; a pointer `const X*` is the place of the entry in the table. -/
structure ValueCounter where
  values_ : List (Int × ℚ × Int)
  sorted_by_prob_ : List (ℚ × Nat)
  unmet_log_prob_ : ℚ
  total_count_ : Int
deriving DecidableEq, Repr

/-- Mirror of the constructor `ValueCounter()`. -/
def ValueCounter.create : ValueCounter :=
  { values_ := [], sorted_by_prob_ := [], unmet_log_prob_ := 0, total_count_ := 0 }

/-- Mirror of `ValueCounter::AddValue`; `none` is the failed `CHECK`, "AddValue after
EndAdding". Modelled from the spec: `layout` is the rearrangement of the entries that the hash
table of `base/sparsehash` makes when an entry is added. -/
def ValueCounter.AddValue (layout : List (Int × ℚ × Int) → List (Int × ℚ × Int))
    (c : ValueCounter) (value : Int) (count : Int) : Option ValueCounter :=
  if c.sorted_by_prob_.isEmpty then
    some
      { c with
        values_ :=
          match hashMapFind (· == ·) c.values_ value with
          | some _ =>
            hashMapModify (· == ·) (0, 0) (fun v => (v.1, addInt32 v.2 count)) c.values_ value
          | none => layout (c.values_ ++ [(value, 0, addInt32 0 count)]),
        total_count_ := addInt32 c.total_count_ count }
  else none

/-- Mirror of `ValueCounter::EndAdding`; `none` is the failed `CHECK`, "EndAdding called twice".
The function `log2` of the C library is the parameter `log2`. -/
def ValueCounter.EndAdding (log2 : ℚ → ℚ) (c : ValueCounter) : Option ValueCounter :=
  if c.sorted_by_prob_.isEmpty then
    let z : ℚ := (c.total_count_ : ℚ) + 1 * ((c.values_.length : ℚ) + 1)
    let values := c.values_.map fun e => (e.1, log2 (((e.2.2 : ℚ) + 1) / z), e.2.2)
    some
      { c with
        values_ := values,
        sorted_by_prob_ :=
          (values.enum.map fun e => (e.2.2.1, e.1)).insertionSort probGreaterEq,
        unmet_log_prob_ := log2 (1 / z) }
  else none

/-- The feature `SequenceHashFeature()` of the unconditioned count, with hash 0 and size 0. -/
def test_feature : SequenceHashFeature := { hash_ := 0, size_ := 0 }

/-- The layout of a hash table that keeps the entries in the order in which they were added. -/
def test_layout (table : List ((SequenceHashFeature × Int) × Int)) :
    List ((SequenceHashFeature × Int) × Int) := table

/-- The counter with the one count `(test_feature, 10) -> 1`. -/
def test_counter : PerFeatureValueCounter :=
  { feature_value_counts_ := [((test_feature, 10), 1)], feature_stats_ := [],
    value_stats_ := [], deltas_ := [] }

/-- The counter `test_counter` after `EndAdding` with the smoothing type 0. -/
def test_counter_ended : PerFeatureValueCounter :=
  { feature_value_counts_ := [((test_feature, 10), 1)],
    feature_stats_ :=
      [(test_feature,
        { total_count_ := 1, unique_count_ := 1, sorted_by_prob_ := [(1, 0)],
          counts_ := [0, 1, 0, 0] })],
    value_stats_ := [], deltas_ := [] }

/-! ## Vocabulary for the theorems on counters -/

/-- The keys of a hash map are different from each other. -/
def DistinctKeys {K V : Type} (eq : K → K → Bool) (table : List (K × V)) : Prop :=
  (table.map Prod.fst).Pairwise fun a b => eq a b = false

instance {K V : Type} (eq : K → K → Bool) (table : List (K × V)) :
    Decidable (DistinctKeys eq table) := by
  unfold DistinctKeys; infer_instance

/-- The relation `eq` of the keys of a hash map is an equivalence. -/
def KeyEquivalence {K : Type} (eq : K → K → Bool) : Prop :=
  (∀ a, eq a a = true) ∧ (∀ a b, eq a b = eq b a) ∧
  ∀ a b c, eq a b = true → eq b c = eq a c

/-- The hash table of a counter holds a key once. -/
def PerFeatureValueCounter.WellFormed (c : PerFeatureValueCounter) : Prop :=
  DistinctKeys keyEquals c.feature_value_counts_

instance (c : PerFeatureValueCounter) : Decidable c.WellFormed := by
  unfold PerFeatureValueCounter.WellFormed; infer_instance

/-- The effect of `AddValue(x.1, x.2.1, x.2.2)` on the result of `find` for every key. -/
def findAfterAdd (g : SequenceHashFeature × Int → Option Int)
    (x : SequenceHashFeature × Int × Int) : SequenceHashFeature × Int → Option Int :=
  fun key =>
    if keyEquals (x.1, x.2.1) key then
      some (addInt32 ((g key).getD 0) x.2.2)
    else g key

/-- The statistics of a feature after the first loop of `EndAdding` has seen the entries of the
feature, given as pairs of the place in the table and the count: the machine sum of the counts,
the number of entries, the counts as `double` with the pointers, and the number of entries in
each of the four buckets `std::min(count, 3)`. -/
def statsOf (entries : List (Nat × Int)) : FeatureStats :=
  { total_count_ := entries.foldl (fun a e => addInt32 a e.2) 0,
    unique_count_ := (entries.length : Nat),
    sorted_by_prob_ := entries.map fun e => ((e.2 : ℚ), e.1),
    counts_ :=
      [((entries.countP fun e => decide (min e.2 3 = 0) : Nat) : Int),
       ((entries.countP fun e => decide (min e.2 3 = 1) : Nat) : Int),
       ((entries.countP fun e => decide (min e.2 3 = 2) : Nat) : Int),
       ((entries.countP fun e => decide (min e.2 3 = 3) : Nat) : Int)] }

/-- The entries of the feature `f` among the entries `done` of the table, each with its place:
the pairs of place and count. -/
def entriesFor (f : SequenceHashFeature)
    (done : List (Nat × (SequenceHashFeature × Int) × Int)) : List (Nat × Int) :=
  (done.filter fun e => e.2.1.1.equals f).map fun e => (e.1, e.2.2)

/-- The statistics that the map `feature_stats_` holds for a feature with the given entries:
none when there is no entry. -/
def statsFor (entries : List (Nat × Int)) : Option FeatureStats :=
  if entries = [] then none else some (statsOf entries)

/-- The counts with which `EndAdding` does not fail: not negative, and positive when the
smoothing is Kneser-Ney. -/
def countOK (smoothing_type : Int) (count : Int) : Prop :=
  0 ≤ count ∧ (smoothing_type = KneserNey → 0 < count)

instance (smoothing_type count : Int) : Decidable (countOK smoothing_type count) := by
  unfold countOK; infer_instance

/-- The maps `value_stats_` and `deltas_` during `EndAdding`: every length with value statistics
has a delta, the arrays of a delta have 5 and 4 elements, and every continuation count is
positive. -/
def DeltasReady (value_stats : List (Int × ValueStats))
    (deltas : List (Int × KneserNeyDelta)) : Prop :=
  (∀ e ∈ value_stats, (hashMapFind (· == ·) deltas e.1).isSome = true) ∧
  (∀ e ∈ deltas, e.2.counts_.length = 5 ∧ e.2.deltas_.length = 4) ∧
  (∀ e ∈ value_stats, ∀ p ∈ e.2.per_value_continuations_, 0 < p.2)

/-- Two counters after `EndAdding` have the same statistics for the feature `f`: both have none,
or both have some with the same total count, number of labels and bucket counts, and lists of
labels by probability that hold the same pairs of probability and label, both in the order of
falling probability. -/
def SameFeatureStats (e1 e2 : PerFeatureValueCounter) (f : SequenceHashFeature) : Prop :=
  match e1.GetFeatureStatsOrNull f, e2.GetFeatureStatsOrNull f with
  | none, none => True
  | some s1, some s2 =>
    s1.TotalCount = s2.TotalCount ∧ s1.UniqueLabels = s2.UniqueLabels ∧
    s1.GetCounts = s2.GetCounts ∧
    ∃ l1 l2, e1.labelsAt (e1.LabelsSortedByProbability f) = some l1 ∧
      e2.labelsAt (e2.LabelsSortedByProbability f) = some l2 ∧ l1.Perm l2 ∧
      l1.Sorted (fun a b => b.1 ≤ a.1) ∧ l2.Sorted (fun a b => b.1 ≤ a.1)
  | _, _ => False

/-- The map `feature_stats_` during the first loop of `EndAdding`, after the entries `done` of
the table: for every feature the statistics of its entries. -/
def StatsInv (feature_stats : List (SequenceHashFeature × FeatureStats))
    (done : List (Nat × (SequenceHashFeature × Int) × Int)) : Prop :=
  ∀ f, hashMapFind SequenceHashFeature.equals feature_stats f = statsFor (entriesFor f done)

/-- The labels and counts of the entries of the feature `f` in a table, in the order of the
table. -/
def tableEntries (f : SequenceHashFeature) (table : List ((SequenceHashFeature × Int) × Int)) :
    List (Int × Int) :=
  (table.filter fun e => e.1.1.equals f).map fun e => (e.1.2, e.2)

instance : IsTotal (ℚ × Nat) probGreaterEq where
  total := by
    intro a b
    unfold probGreaterEq
    rcases lt_trichotomy a.1 b.1 with h | h | h
    · exact Or.inr (Or.inl h)
    · rcases Nat.le_total a.2 b.2 with h2 | h2
      · exact Or.inr (Or.inr ⟨h, h2⟩)
      · exact Or.inl (Or.inr ⟨h.symm, h2⟩)
    · exact Or.inl (Or.inl h)

instance : IsTrans (ℚ × Nat) probGreaterEq where
  trans := by
    intro a b c hab hbc
    unfold probGreaterEq at *
    rcases hab with h1 | ⟨h1, h2⟩ <;> rcases hbc with h3 | ⟨h3, h4⟩
    · exact Or.inl (lt_trans h3 h1)
    · exact Or.inl (h3 ▸ h1)
    · exact Or.inl (h1 ▸ h3)
    · exact Or.inr ⟨h3.trans h1, Nat.le_trans h4 h2⟩

/-! ## Trees that a store holds -/

/-- A tree in the form in which a store links it: a node has a type, a value, the tree of its
first child and the tree of its right sibling; `eps` is no node. -/
inductive FT where
  | eps : FT
  | node (type value : Int) (child sib : FT) : FT
deriving DecidableEq, Repr

/-- The number of nodes of a tree. -/
def FT.size : FT → Nat
  | .eps => 0
  | .node _ _ c sb => 1 + c.size + sb.size

/-- The types and values that a pre-order walk with the places of the missing nodes reads: a
missing node reads as `EMPTY_NODE_LABEL` and -1. -/
def FT.epsLabels : FT → List (Int × Int)
  | .eps => [(EMPTY_NODE_LABEL, -1)]
  | .node ty v c sb => (ty, v) :: (c.epsLabels ++ sb.epsLabels)

/-- The types and values of the nodes in pre-order. -/
def FT.labels : FT → List (Int × Int)
  | .eps => []
  | .node ty v c sb => (ty, v) :: (c.labels ++ sb.labels)

/-- No node of the tree has the type `EMPTY_NODE_LABEL`. -/
def FT.NoEmpty : FT → Prop
  | .eps => True
  | .node ty _ c sb => ty ≠ EMPTY_NODE_LABEL ∧ c.NoEmpty ∧ sb.NoEmpty

/-- The store `s` holds the tree `t` at the node `id` (-1 when `t` is `eps`), as a child of the
node `p` with the left sibling `ls` and the child index `ci`: `L` lists the nodes of `t` in
pre-order, and `last` is the last node of the chain of siblings that starts at `id`, which is
`ls` when `t` is `eps`. -/
def Chain (s : TreeStorage) : FT → Int → Int → Int → Int → List Nat → Int → Prop
  | .eps, id, _, ls, _, L, last => id = -1 ∧ L = [] ∧ last = ls
  | .node ty v c sb, id, p, ls, ci, L, last =>
    0 < id ∧ ∃ n Lc Ls, s.nodeAt id = some n ∧ n.type = ty ∧ n.value = v ∧ n.parent = p ∧
      n.left_sib = ls ∧ n.child_index = ci ∧
      Chain s c n.first_child id (-1) 0 Lc n.last_child ∧
      Chain s sb n.right_sib p id (ci + 1) Ls last ∧ L = id.toNat :: (Lc ++ Ls)

/-- The free list of the store `s` from the head `h` holds the slots `F`: each is marked
deallocated and links to the next through its field `type`. -/
def FreeChain (s : TreeStorage) : List Nat → Int → Prop
  | [], h => h = -1
  | f :: fs, h => h = (f : Int) ∧ ∃ n, s.nodeAt f = some n ∧
      n.parent = TREEPOINTER_DEALLOCATED ∧ FreeChain s fs n.type

/-- The free list of the store `s` holds the slots `F`, each once. -/
def FreeList (s : TreeStorage) (F : List Nat) : Prop :=
  FreeChain s F s.first_free_node_ ∧ F.Nodup

/-- The ids that `m` calls of `AllocateNode` return on a store of `len` slots with the free list
`F`: the free slots first, then new slots. -/
def allocIds (F : List Nat) (len m : Nat) : List Nat :=
  F.take m ++ List.range' len (m - F.length)

/-- The node `eps_node_` that `allocate_eps_child` and `allocate_eps_right_sibling` make. -/
def epsNode (parent left_sib child_index : Int) : TreeNode :=
  { type := EMPTY_NODE_LABEL, value := -1, parent := parent, left_sib := left_sib,
    right_sib := -1, first_child := -1, last_child := -1, child_index := child_index }

/-- The reading traversal stands at the place `rid` of a chain below the node `rp`: at the node
`rid`, or for a negative `rid` at the missing node after the chain. -/
def ReaderAt (it : ConstLocalEpsTreeTraversal) (rid rp : Int) : Prop :=
  it.position_ = rid ∧ (rid < 0 → it.eps_node_.type = EMPTY_NODE_LABEL ∧ it.eps_node_.parent = rp)

/-- The node `p` can be left by an iterator: it is an element of the store that is not empty,
and when it is the node 0 it has no parent and no right sibling in the store. -/
def Leavable (s : TreeStorage) (p : Int) : Prop :=
  ∃ n, s.nodeAt p = some n ∧ n.type ≠ EMPTY_NODE_LABEL ∧
    (p = 0 → n.right_sib < 0 ∧ n.parent < 0)

/-- The reading iterator after it has left the children of the node `rp`: at the end when `rp`
is the node 0, at the place to the right of `rp` otherwise. -/
def ReaderAfter (rs : TreeStorage) (rp : Int) (it : ConstLocalEpsTreeTraversal) (er : Bool) :
    Prop :=
  ∃ n, rs.nodeAt rp = some n ∧
    if rp = 0 then er = true else er = false ∧ ReaderAt it n.right_sib n.parent

/-- The writing traversal stands at the missing node after the last child `wls` of the node
`wp`, or at the missing first child when `wls` is negative. -/
def WriterAt (wit : LocalEpsTreeTraversal) (wp wls wci : Int) : Prop :=
  wit.position_ < 0 ∧ wit.eps_node_ = epsNode wp wls wci

/-- The writing iterator after it has left the children of the node `wp`. -/
def WriterAfter (ws : TreeStorage) (wp : Int) (wit : LocalEpsTreeTraversal) (ew : Bool) :
    Prop :=
  ∃ n, ws.nodeAt wp = some n ∧
    if wp = 0 then ew = true
    else ew = false ∧ wit.position_ = n.right_sib ∧
      (n.right_sib < 0 → wit.eps_node_ = epsNode n.parent wp (n.child_index + 1))

/-- The place after the last child `wls` of the node `wp` of the store `ws` can be written: `wp`
is an element with the last child `wls`, `wls` has no right sibling, and neither is a slot of the
free list `F`, nor is the root. -/
def WriterSlot (ws : TreeStorage) (F : List Nat) (wp wls : Int) : Prop :=
  0 ≤ wp ∧ 0 ∉ F ∧ wp.toNat ∉ F ∧ ∃ pn, ws.nodeAt wp = some pn ∧ pn.last_child = wls ∧
    (wls < 0 → wls = -1 ∧ pn.first_child = -1) ∧
    (0 ≤ wls → 0 ≤ pn.first_child ∧ wls ≠ wp ∧ wls.toNat ∉ F ∧
      ∃ ln, ws.nodeAt wls = some ln ∧ ln.right_sib = -1)

/-- The store `ws1` is the store `ws` after a chain with the nodes `Lw`, the first node `wid`
and the last node `lastw` was written after the last child `wls` of the node `wp`: the two nodes
are linked to the chain, and the elements other than these and `Lw` are the same. -/
def CopyRel (ws ws1 : TreeStorage) (wp wls wid lastw : Int) (Lw : List Nat) : Prop :=
  (∀ j : Int, (∀ i ∈ Lw, j ≠ (i : Int)) → j ≠ wp → j ≠ wls → ws1.nodeAt j = ws.nodeAt j) ∧
  (∀ pn, ws.nodeAt wp = some pn → ws1.nodeAt wp = some { pn with
      first_child := if wls < 0 then wid else pn.first_child, last_child := lastw }) ∧
  (∀ ln, 0 ≤ wls → ws.nodeAt wls = some ln →
    ws1.nodeAt wls = some { ln with right_sib := wid }) ∧
  ws1.parent_ = ws.parent_ ∧ ws1.position_in_parent_ = ws.position_in_parent_

/-- The store `s` holds a tree with the type `ty` and the value `v` at its root, the node 0, and
the tree `t` below the root, at the nodes `L` in pre-order. -/
def Holds (s : TreeStorage) (ty v : Int) (t : FT) (L : List Nat) : Prop :=
  ∃ r, s.nodeAt 0 = some r ∧ r.type = ty ∧ r.value = v ∧ r.right_sib < 0 ∧ r.parent < 0 ∧
    Chain s t r.first_child 0 (-1) 0 L r.last_child

/-- The test of `Chain` by a walk over the tree `t`: the nodes in pre-order and the last node of
the chain of siblings when the store holds `t` at `id`. -/
def chainCheck (s : TreeStorage) : FT → Int → Int → Int → Int → Option (List Nat × Int)
  | .eps, id, _, ls, _ => if id = -1 then some ([], ls) else none
  | .node ty v c sb, id, p, ls, ci =>
    if 0 < id then
      (s.nodeAt id).bind fun n =>
        if n.type = ty ∧ n.value = v ∧ n.parent = p ∧ n.left_sib = ls ∧ n.child_index = ci then
          (chainCheck s c n.first_child id (-1) 0).bind fun a =>
            if a.2 = n.last_child then
              (chainCheck s sb n.right_sib p id (ci + 1)).map fun b =>
                (id.toNat :: (a.1 ++ b.1), b.2)
            else none
        else none
    else none

/-- The test of `Holds`: the nodes below the root in pre-order. -/
def holdsCheck (s : TreeStorage) (ty v : Int) (t : FT) : Option (List Nat) :=
  (s.nodeAt 0).bind fun r =>
    if r.type = ty ∧ r.value = v ∧ r.right_sib < 0 ∧ r.parent < 0 then
      (chainCheck s t r.first_child 0 (-1) 0).bind fun a =>
        if a.2 = r.last_child then some a.1 else none
    else none

/-- A store that holds the tree `[1 [2 [4]] [3]]` with nodes that are not in pre-order (the
node of type 4 is the slot 4) and with the free slot 3. -/
def scattered_store : TreeStorage :=
  { nodes_ :=
      [{ type := 1, value := 10, parent := -1, left_sib := -1, right_sib := -1,
         first_child := 1, last_child := 2, child_index := 0 },
       { type := 2, value := 20, parent := 0, left_sib := -1, right_sib := 2,
         first_child := 4, last_child := 4, child_index := 0 },
       { type := 3, value := 30, parent := 0, left_sib := 1, right_sib := -1,
         first_child := -1, last_child := -1, child_index := 1 },
       { type := -1, value := 50, parent := -3, left_sib := -1, right_sib := -1,
         first_child := -1, last_child := -1, child_index := 0 },
       { type := 4, value := 40, parent := 1, left_sib := -1, right_sib := -1,
         first_child := -1, last_child := -1, child_index := 0 }],
    parent_ := none, position_in_parent_ := -1, first_free_node_ := 3 }

/-- The tree below the root of `scattered_store`. -/
def scattered_tree : FT :=
  .node 2 20 (.node 4 40 .eps .eps) (.node 3 30 .eps .eps)

/-- The part of the tree `t`, whose nodes in pre-order are `L`, that starts at the node `k`: the
node `k` with its children and with its right siblings. -/
def FT.subAt : FT → List Nat → Nat → Option FT
  | .eps, _, _ => none
  | .node _ _ _ _, [], _ => none
  | .node ty v c sb, x :: rest, k =>
    if x = k then some (.node ty v c sb)
    else if k ∈ rest.take c.size then c.subAt (rest.take c.size) k
    else sb.subAt (rest.drop c.size) k

/-- The tree `t`, whose nodes in pre-order are `L`, with the part that starts at the node `k`
replaced by the tree `sub`. -/
def FT.graft : FT → List Nat → Nat → FT → FT
  | .eps, _, _, _ => .eps
  | .node ty v c sb, [], _, _ => .node ty v c sb
  | .node ty v c sb, x :: rest, k, sub =>
    if x = k then sub
    else if k ∈ rest.take c.size then .node ty v (c.graft (rest.take c.size) k sub) sb
    else .node ty v c (sb.graft (rest.drop c.size) k sub)

/-- The store `s1` is the store `s` after the chain of siblings that starts after the node `lsk`
(at the first child when `lsk` is negative) under the node `pk` was replaced by a chain with the
first node `k1` and the last node `lastk1`: the two nodes are linked to the new chain, and the
other elements at the nodes `keep` are the same. -/
def Glue (s s1 : TreeStorage) (keep : List Nat) (pk lsk k1 lastk1 : Int) : Prop :=
  (∀ j ∈ keep, (j : Int) ≠ pk → (j : Int) ≠ lsk → s1.nodeAt (j : Int) = s.nodeAt (j : Int)) ∧
  (∀ pn, s.nodeAt pk = some pn → s1.nodeAt pk = some { pn with
      first_child := if lsk < 0 then k1 else pn.first_child, last_child := lastk1 }) ∧
  (∀ ln, 0 ≤ lsk → s.nodeAt lsk = some ln →
    s1.nodeAt lsk = some { ln with right_sib := k1 })

/-- The node at which a post-order walk over the tree `t` with the nodes `L` starts: the first
node without a child on the way along the first children; -1 when `t` is `eps`. -/
def FT.postFirst : FT → List Nat → Int
  | .eps, _ => -1
  | .node _ _ _ _, [] => -1
  | .node _ _ .eps _, x :: _ => (x : Int)
  | .node _ _ (.node ty v c sb) _, _ :: rest => (FT.node ty v c sb).postFirst rest

/-- The test of `CheckNodeConsistencyRecursive` on the child index of the root `r`: it is the
child index of the node of the parent store to which the store is attached, and 0 when the store
has no parent. -/
def rootIndexOK (m : Memory) (s : TreeStorage) (r : TreeNode) : Prop :=
  if s.parent_.isSome then
    ∃ pn, m.nodeAt s.parent_ s.position_in_parent_ = some pn ∧ r.child_index = pn.child_index
  else r.child_index = 0

/-- The store `s` is well formed: its root, the node 0, has the type `ty` and the value `v`, no
parent and no sibling in the store; it holds the tree `t` below the root at the nodes `L`; its
free list holds the slots `F`; and every slot is the root, a node of `L` or a slot of `F`, and
only one of these. -/
def WF (m : Memory) (s : TreeStorage) (ty v : Int) (t : FT) (L F : List Nat) : Prop :=
  ∃ r, s.nodeAt 0 = some r ∧ r.type = ty ∧ r.value = v ∧ r.parent < 0 ∧
    r.parent ≠ TREEPOINTER_DEALLOCATED ∧ r.left_sib < 0 ∧ r.right_sib < 0 ∧ rootIndexOK m s r ∧
    Chain s t r.first_child 0 (-1) 0 L r.last_child ∧ FreeList s F ∧ (L ++ F).Nodup ∧ 0 ∉ F ∧
    L.length + F.length + 1 = s.nodes_.length

/-- The depth of a tree in the recursion of `CheckNodeConsistencyRecursive`, which goes to the
first child and to the right sibling. -/
def FT.height : FT → Nat
  | .eps => 0
  | .node _ _ c sb => 1 + max c.height sb.height

/-- The body of `TreeStorage::CheckConsistency` with the depth `depth - 1` in the place of the
constant 32. -/
def TreeStorage.checkConsistencyAt (m : Memory) (depth : Nat) (s : TreeStorage) : Option Unit :=
  (s.CheckNodeConsistencyRecursive (m.nodeAt s.parent_ s.position_in_parent_) depth 0).bind
    fun num_nodes =>
    (s.countFreed s.nodes_.length s.first_free_node_ 0).bind fun num_freed_nodes =>
      if num_nodes + (num_freed_nodes : Int) = (s.nodes_.length : Nat) then some () else none

/-- The test of `FreeList`: the slots of the free list from the head `h`, `none` when a slot is
not marked deallocated or the list is longer than `fuel`. -/
def freeCheck (s : TreeStorage) : Nat → Int → Option (List Nat)
  | fuel, h =>
    if h = -1 then some []
    else
      match fuel with
      | 0 => none
      | fuel + 1 =>
        if 0 ≤ h then
          (s.nodeAt h).bind fun n =>
            if n.parent = TREEPOINTER_DEALLOCATED then
              (freeCheck s fuel n.type).map fun fs => h.toNat :: fs
            else none
        else none

/-- The test of `rootIndexOK`. -/
def rootIndexCheck (m : Memory) (s : TreeStorage) (r : TreeNode) : Bool :=
  if s.parent_.isSome then
    match m.nodeAt s.parent_ s.position_in_parent_ with
    | some pn => decide (r.child_index = pn.child_index)
    | none => false
  else decide (r.child_index = 0)

/-- The test of `WF`: the nodes below the root in pre-order and the slots of the free list. -/
def wfCheck (m : Memory) (s : TreeStorage) (ty v : Int) (t : FT) :
    Option (List Nat × List Nat) :=
  (s.nodeAt 0).bind fun r =>
    if r.type = ty ∧ r.value = v ∧ r.parent < 0 ∧ r.parent ≠ TREEPOINTER_DEALLOCATED ∧
        r.left_sib < 0 ∧ r.right_sib < 0 ∧ rootIndexCheck m s r = true then
      (chainCheck s t r.first_child 0 (-1) 0).bind fun a =>
        if a.2 = r.last_child then
          (freeCheck s s.nodes_.length s.first_free_node_).bind fun F =>
            if (a.1 ++ F).Nodup ∧ 0 ∉ F ∧ a.1.length + F.length + 1 = s.nodes_.length then
              some (a.1, F)
            else none
        else none
    else none

/-- A store like `root_tree` of the test `FullTraversal` of `tree_test.cpp`, which holds the tree
`[7 [1] [-2] [4]]`. -/
def inline_parent : TreeStorage :=
  { nodes_ :=
      [{ type := 7, value := -2, parent := -1, left_sib := -1, right_sib := -1,
         first_child := 1, last_child := 3, child_index := 0 },
       { type := 1, value := -2, parent := 0, left_sib := -1, right_sib := 2,
         first_child := -1, last_child := -1, child_index := 0 },
       { type := -2, value := -2, parent := 0, left_sib := 1, right_sib := 3,
         first_child := -1, last_child := -1, child_index := 1 },
       { type := 4, value := -2, parent := 0, left_sib := 2, right_sib := -1,
         first_child := -1, last_child := -1, child_index := 2 }],
    parent_ := none, position_in_parent_ := -1, first_free_node_ := -1 }

/-- A store like `second_tree` of the test `FullTraversal`, attached to the node 2 of `root_tree`,
which holds the tree `[5 [6] [10]]`. -/
def inline_overlay : TreeStorage :=
  { nodes_ :=
      [{ type := 5, value := -2, parent := -2, left_sib := -2, right_sib := -2,
         first_child := 1, last_child := 2, child_index := 1 },
       { type := 6, value := -2, parent := 0, left_sib := -1, right_sib := 2,
         first_child := -1, last_child := -1, child_index := 0 },
       { type := 10, value := -2, parent := 0, left_sib := 1, right_sib := -1,
         first_child := -1, last_child := -1, child_index := 1 }],
    parent_ := some 0, position_in_parent_ := 2, first_free_node_ := -1 }

/-- The tree below the root of `inline_parent`. -/
def inline_parent_tree : FT :=
  .node 1 (-2) .eps (.node (-2) (-2) .eps (.node 4 (-2) .eps .eps))

/-- The tree below the root of `inline_overlay`. -/
def inline_overlay_tree : FT :=
  .node 6 (-2) .eps (.node 10 (-2) .eps .eps)

/-- The store `scattered_store` after `SubstituteSingleNode(1, n)` for an `n` of the type
`EMPTY_NODE_LABEL` and the value 7 that asks for no child and no right sibling: it holds the
tree `[1 [EMPTY] [3]]`, and the slot 3 is free. -/
def empty_sibling_store : TreeStorage :=
  { nodes_ :=
      [{ type := 1, value := 10, parent := -1, left_sib := -1, right_sib := -1,
         first_child := 1, last_child := 2, child_index := 0 },
       { type := -1, value := 7, parent := 0, left_sib := -1, right_sib := 2,
         first_child := -1, last_child := -1, child_index := 0 },
       { type := 3, value := 30, parent := 0, left_sib := 1, right_sib := -1,
         first_child := -1, last_child := -1, child_index := 1 },
       { type := -1, value := 50, parent := -3, left_sib := -1, right_sib := -1,
         first_child := -1, last_child := -1, child_index := 0 }],
    parent_ := none, position_in_parent_ := -1, first_free_node_ := 3 }

/-- The store that holds the root of `scattered_store` and no other node. -/
def root_only_store : TreeStorage :=
  { nodes_ :=
      [{ type := 1, value := 10, parent := -1, left_sib := -1, right_sib := -1,
         first_child := -1, last_child := -1, child_index := 0 }],
    parent_ := none, position_in_parent_ := -1, first_free_node_ := -1 }

/-- The overlay `inline_overlay` after `SubstituteSingleNode(1, n)` for an `n` of the type
`EMPTY_NODE_LABEL` and the value 7 that asks for no child and no right sibling: it holds the
tree `[5 [EMPTY] [10]]`. -/
def empty_sibling_overlay : TreeStorage :=
  { nodes_ :=
      [{ type := 5, value := -2, parent := -2, left_sib := -2, right_sib := -2,
         first_child := 1, last_child := 2, child_index := 1 },
       { type := -1, value := 7, parent := 0, left_sib := -1, right_sib := 2,
         first_child := -1, last_child := -1, child_index := 0 },
       { type := 10, value := -2, parent := 0, left_sib := 1, right_sib := -1,
         first_child := -1, last_child := -1, child_index := 1 }],
    parent_ := some 0, position_in_parent_ := 2, first_free_node_ := -1 }

/-- The store `inline_parent` with the type 5 at the node 2, which has no child: the tree
`[7 [1] [5] [4]]`. -/
def inlined_without_children : TreeStorage :=
  { nodes_ :=
      [{ type := 7, value := -2, parent := -1, left_sib := -1, right_sib := -1,
         first_child := 1, last_child := 3, child_index := 0 },
       { type := 1, value := -2, parent := 0, left_sib := -1, right_sib := 2,
         first_child := -1, last_child := -1, child_index := 0 },
       { type := 5, value := -2, parent := 0, left_sib := 1, right_sib := 3,
         first_child := -1, last_child := -1, child_index := 1 },
       { type := 4, value := -2, parent := 0, left_sib := 2, right_sib := -1,
         first_child := -1, last_child := -1, child_index := 2 }],
    parent_ := none, position_in_parent_ := -1, first_free_node_ := -1 }

/-! ## The slice of a sample (`model.cpp`) -/

/-- The line `TreeSlice slice(sample.tree_storage(), sample.position(), !is_for_node_type_);` of
`TGenModel::GenerativeTrainOneSample`; `none` when the pointer is not a store. -/
def TGenModel.trainingSlice (m : Memory) (self : TGenModel) (sample : FullTreeTraversal) :
    Option TreeSlice :=
  sample.storage_.bind fun a =>
    TreeSlice.ofBegin m a sample.position_ (!self.is_for_node_type_)

/-- The line `TreeSlice slice(exec.tree(), position_in_tree, !model->is_for_node_type());` of
`TGenModelEvaluationMetricComputation::AddSample`. -/
def TGenModel.evaluationSlice (m : Memory) (model : TGenModel) (exec : ExecutionForTree)
    (position_in_tree : Int) : Option TreeSlice :=
  exec.tree_.bind fun a =>
    TreeSlice.ofBegin m a position_in_tree (!model.is_for_node_type_)

/-! ## The estimate of the Kneser-Ney deltas (`pbox.h`) -/

/-- The calls `AddCount(c)` for the counts of a list, in order. -/
def KneserNeyDelta.addAll : List Int → KneserNeyDelta → Option KneserNeyDelta
  | [], d => some d
  | c :: rest, d => (d.AddCount c).bind fun d1 => KneserNeyDelta.addAll rest d1

/-- The quotient of two `double` values, `none` for the divisor 0. -/
def divChecked (a b : ℚ) : Option ℚ := if b = 0 then none else some (a / b)

/-- Mirror of `KneserNeyDelta::EndAdding` in which a division by zero is `none`. -/
def KneserNeyDelta.EndAddingChecked (d : KneserNeyDelta) : Option KneserNeyDelta :=
  match d.counts_, d.deltas_ with
  | [_, n1, n2, n3, n4], [d0, d1, d2, d3] =>
    (if n1 ≠ 0 ∨ n2 ≠ 0 then
        (divChecked (n1 : ℚ) ((n1 + 2 * n2 : Int) : ℚ)).bind fun Y =>
        (if n1 ≠ 0 then (divChecked (n2 : ℚ) (n1 : ℚ)).map fun q => 1 - 2 * Y * q
          else some d1).bind fun e1 =>
        (if n2 ≠ 0 then (divChecked (n3 : ℚ) (n2 : ℚ)).map fun q => 2 - 3 * Y * q
          else some d2).bind fun e2 =>
        (if n3 ≠ 0 then (divChecked (n4 : ℚ) (n3 : ℚ)).map fun q => 3 - 4 * Y * q
          else some d3).map fun e3 => [d0, e1, e2, e3]
      else some [d0, d1, d2, d3]).map fun deltas =>
      { d with deltas_estimated_ := true, deltas_ := deltas.map fun x => max (min x 1) 0 }
  | _, _ => none

/-- The number of the counts of a list that are exactly `i`. -/
def countExactly (cs : List Int) (i : Int) : Int := ((cs.countP fun c => decide (c = i) : Nat) : Int)

/-- The number of the counts of a list that are at least `i`. -/
def countAtLeast (cs : List Int) (i : Int) : Int := ((cs.countP fun c => decide (i ≤ c) : Nat) : Int)

/-- A `double` clamped to the interval from 0 to 1, `std::max(std::min(x, 1.0), 0.0)`. -/
def clamp01 (x : ℚ) : ℚ := max (min x 1) 0

/-- The four deltas in the words of the specification, from the numbers `n1`, ..., `n4`:
`Y = n1 / (n1 + 2 n2)`, `delta1 = 1 - 2Y(n2/n1)`, `delta2 = 2 - 3Y(n3/n2)`,
`delta3 = 3 - 4Y(n4/n3)`, each clamped, and `delta0 = 0`. -/
def specDeltas (n1 n2 n3 n4 : Int) : List ℚ :=
  let Y : ℚ := (n1 : ℚ) / ((n1 + 2 * n2 : Int) : ℚ)
  [0, clamp01 (1 - 2 * Y * ((n2 : ℚ) / (n1 : ℚ))), clamp01 (2 - 3 * Y * ((n3 : ℚ) / (n2 : ℚ))),
    clamp01 (3 - 4 * Y * ((n4 : ℚ) / (n3 : ℚ)))]

/-- The four deltas that `EndAdding` sets on a new or cleared object with the numbers `n1`, ...,
`n4` in `counts_`: a delta is estimated when its divisor is not 0 and `n1` or `n2` is not 0, and
is 0 otherwise. -/
def estimatedDeltas (n1 n2 n3 n4 : Int) : List ℚ :=
  let Y : ℚ := (n1 : ℚ) / ((n1 + 2 * n2 : Int) : ℚ)
  [0,
   if n1 ≠ 0 then clamp01 (1 - 2 * Y * ((n2 : ℚ) / (n1 : ℚ))) else 0,
   if n2 ≠ 0 then clamp01 (2 - 3 * Y * ((n3 : ℚ) / (n2 : ℚ))) else 0,
   if n3 ≠ 0 ∧ (n1 ≠ 0 ∨ n2 ≠ 0) then clamp01 (3 - 4 * Y * ((n4 : ℚ) / (n3 : ℚ))) else 0]

/-! ## The statistics of a counter after `EndAdding` -/

/-- The entries of a table whose feature has the size `n`. -/
def entriesOfSize (n : Int) (table : List ((SequenceHashFeature × Int) × Int)) :
    List ((SequenceHashFeature × Int) × Int) :=
  table.filter fun e => e.1.1.size == n

/-- The entries of a table whose feature has the size `n` and whose label is `v`. -/
def entriesOfSizeWithLabel (n : Int) (v : Int)
    (table : List ((SequenceHashFeature × Int) × Int)) :
    List ((SequenceHashFeature × Int) × Int) :=
  table.filter fun e => e.1.1.size == n && e.1.2 == v

/-- The map `value_stats_` during the first loop of `EndAdding`, after the entries `done` of the
table: for every size the number of the entries and, for every label, the number of the entries
with the label. -/
def ValueStatsInv (value_stats : List (Int × ValueStats))
    (done : List ((SequenceHashFeature × Int) × Int)) : Prop :=
  ∀ n : Int,
    ((hashMapFind (· == ·) value_stats n).map ValueStats.TotalPrefixCount).getD 0
      = ((entriesOfSize n done).length : Nat) ∧
    ∀ v : Int,
      ((hashMapFind (· == ·) value_stats n).map fun s => s.GetValuePrefixCount v).getD 0
        = ((entriesOfSizeWithLabel n v done).length : Nat)

/-- The counter of the test `ContinuationTest`, with the hashes 12, 13, 14 for the three
features of size 2. -/
def continuation_counter : PerFeatureValueCounter :=
  { feature_value_counts_ :=
      [(({ hash_ := 12, size_ := 2 }, 10), 3), (({ hash_ := 13, size_ := 2 }, 10), 2),
       (({ hash_ := 12, size_ := 2 }, 11), 1), (({ hash_ := 13, size_ := 2 }, 11), 1),
       (({ hash_ := 14, size_ := 2 }, 11), 1), ((test_feature, 11), 1),
       ((test_feature, 10), 2)],
    feature_stats_ := [], value_stats_ := [], deltas_ := [] }

/-- The counter `continuation_counter` after `EndAdding` with the Kneser-Ney smoothing. -/
def continuation_counter_ended : PerFeatureValueCounter :=
  { feature_value_counts_ := continuation_counter.feature_value_counts_,
    feature_stats_ :=
      [({ hash_ := 12, size_ := 2 },
        { total_count_ := 4, unique_count_ := 2, sorted_by_prob_ := [(3 / 4, 0), (1 / 4, 2)],
          counts_ := [0, 1, 0, 1] }),
       ({ hash_ := 13, size_ := 2 },
        { total_count_ := 3, unique_count_ := 2, sorted_by_prob_ := [(2 / 3, 1), (1 / 3, 3)],
          counts_ := [0, 1, 1, 0] }),
       ({ hash_ := 14, size_ := 2 },
        { total_count_ := 1, unique_count_ := 1, sorted_by_prob_ := [(1, 4)],
          counts_ := [0, 1, 0, 0] }),
       (test_feature,
        { total_count_ := 3, unique_count_ := 2, sorted_by_prob_ := [(2 / 3, 6), (1 / 3, 5)],
          counts_ := [0, 1, 1, 0] })],
    value_stats_ :=
      [(2, { per_value_continuations_ := [(10, 2), (11, 3)], total_count_ := 5 }),
       (0, { per_value_continuations_ := [(11, 1), (10, 1)], total_count_ := 2 })],
    deltas_ :=
      [(2, { deltas_estimated_ := true, counts_ := [0, 3, 1, 1, 0],
             deltas_ := [0, 3 / 5, 1 / 5, 1] }),
       (0, { deltas_estimated_ := true, counts_ := [0, 2, 0, 0, 0], deltas_ := [0, 1, 0, 0] })] }

/-! ## Training and evaluation of a model (`model.h`, `model.cpp`) -/

/-- Mirror of `ExecuteEqProgramByIdInAll` with the callee
`ExecuteEqProgram(..., const BranchCondProgram* curr, ...)` in its first case, which runs the
condition on `traversal` itself, and `ExecuteEqProgram(..., const SimpleCondProgram* curr, ...)`
in its second: the values passed to the callback and `*traversal` after the call. `depth` bounds
the nesting of the calls. -/
def ExecuteEqProgramByIdInAll (FingerprintCat : Int → Int → Int) (m : Memory) (fuel : Nat)
    (exec : ExecutionForTree) ( all : TGenProgram) :
    Nat → SlicedTreeTraversal → Int → Option (List Int × SlicedTreeTraversal)
  | 0, _, _ => none
  | depth + 1, traversal, program_id_in_all =>
    if program_id_in_all < 0 then none
    else
      match all.program_type program_id_in_all.toNat with
      | none => none
      | some .BRANCHED_PROGRAM =>
        (all.branched_prog program_id_in_all.toNat).bind fun curr =>
          (exec.GetConditionedFeaturesForPosition FingerprintCat m fuel curr.cond.program
              traversal).bind fun r =>
            ExecuteEqProgramByIdInAll FingerprintCat m fuel exec all depth r.2
              (curr.called_p r.1)
      | some .SIMPLE_PROGRAM =>
        (all.simple_prog program_id_in_all.toNat).bind fun curr =>
          exec.GetConditionedFeaturesForPosition FingerprintCat m fuel curr.eq_program
            traversal

/-- The ways in which the loop
`while (program_.program_type(program_id) == BRANCHED_PROGRAM) { ... }` ends, each with the value
of `call_length`, which is the number of the calls of `GetSubmodelBranch` made: `straight` is the
regular end at a program that is not branched, `check_failed` the failed
`CHECK_LE(call_length, program_.size())`, `aborted` a failed `CHECK` of `program_type` or a call
of `GetSubmodelBranch` without a result, and `out_of_rounds` the end of the rounds given to the
loop. -/
inductive Resolved where
  | straight (program_id : Int) (call_length : Nat)
  | check_failed (call_length : Nat)
  | aborted (call_length : Nat)
  | out_of_rounds
deriving DecidableEq, Repr

/-- The loop `while (program_.program_type(program_id) == BRANCHED_PROGRAM)` at the start of
`GenerativeTrainOneSample`, `GetLabelAtPosition`, `GetLabelLogProb`, `GetBestLabelLogProb` and
`IsLabelBestPrediction`, with the variables `program_id` and `call_length`. -/
def TGenModel.resolveLoop (FingerprintCat : Int → Int → Int) (m : Memory) (fuel : Nat)
    (self : TGenModel) (exec : ExecutionForTree) (sample : FullTreeTraversal)
    (slice : Option TreeSlice) : Nat → Int → Nat → Resolved
  | 0, _, _ => .out_of_rounds
  | rounds + 1, program_id, call_length =>
    if program_id < 0 then .aborted call_length
    else
      match self.program_.program_type program_id.toNat with
      | none => .aborted call_length
      | some .SIMPLE_PROGRAM => .straight program_id call_length
      | some .BRANCHED_PROGRAM =>
        match self.GetSubmodelBranch FingerprintCat m fuel program_id exec sample slice with
        | none => .aborted call_length
        | some p =>
          if call_length + 1 ≤ self.program_.size then
            TGenModel.resolveLoop FingerprintCat m fuel self exec sample slice rounds p
              (call_length + 1)
          else .check_failed (call_length + 1)

/-- The loop `resolveLoop` from `call_length = 0`, with `program_.size() + 2` rounds. -/
def TGenModel.resolve (FingerprintCat : Int → Int → Int) (m : Memory) (fuel : Nat)
    (self : TGenModel) (program_id : Int) (exec : ExecutionForTree) (sample : FullTreeTraversal)
    (slice : Option TreeSlice) : Resolved :=
  self.resolveLoop FingerprintCat m fuel exec sample slice (self.program_.size + 2) program_id 0

/-- The program that the loop ends at, none when the loop does not end regularly. -/
def Resolved.program (r : Resolved) : Option Int :=
  match r with
  | .straight program_id _ => some program_id
  | _ => none

/-- Mirror of `TEQ_LABEL_INDEX_START`. -/
def TEQ_LABEL_INDEX_START : Int := -10

/-- Mirror of `TEQ_MAX_LABEL_INDEX`. -/
def TEQ_MAX_LABEL_INDEX : Int := 10

/-- The callback of `GetLabelAtPosition` on the variables `label` and `op_count`. -/
def teqCallback (st : Int × Int) (op : Int) : Int × Int :=
  (if st.1 ≥ 0 ∧ op = st.1 ∧ st.2 < TEQ_MAX_LABEL_INDEX then TEQ_LABEL_INDEX_START - st.2
    else st.1,
   st.2 + 1)

/-- Mirror of `TGenModel::GetLabelAtPosition` with the flag `FLAGS_enable_teq`; the argument
`use_teq` has the default `true` in the source. `none` is a failed `CHECK` or a call without a
result. -/
def TGenModel.GetLabelAtPosition (FingerprintCat : Int → Int → Int) (m : Memory) (fuel : Nat)
    (depth : Nat) (enable_teq : Bool) (self : TGenModel) (program_id : Int)
    (exec : ExecutionForTree) (sample : FullTreeTraversal) (slice : Option TreeSlice)
    (use_teq : Bool) : Option Int :=
  (if enable_teq && use_teq then
      (self.resolve FingerprintCat m fuel program_id exec sample slice).program
    else some program_id).bind fun program_id =>
  (sample.node m).bind fun node =>
    let label : Int := if self.is_for_node_type_ then node.Type else node.Value
    (if enable_teq && use_teq then
        (ExecuteEqProgramByIdInAll FingerprintCat m fuel exec self.program_ depth
            (SlicedTreeTraversal.create sample.storage_ sample.position_ slice) program_id).map
          fun r => (r.1.foldl teqCallback (label, 0)).1
      else some label).bind fun label =>
    if self.is_for_node_type_ then
      EncodeTypeLabel
        { type := label, has_first_child := node.first_child != -1,
          has_right_sib := node.right_sib != -1 }
    else some label

/-- Mirror of `SequenceHashFeature::PushBack` on the feature, with `SequenceHashFeature.PushBack`
for the member `hash_`. -/
def SequenceHashFeature.pushBack (FingerprintCat : Int → Int → Int) (f : SequenceHashFeature)
    (value : Int) : Option SequenceHashFeature :=
  (SequenceHashFeature.PushBack FingerprintCat f.hash_ value).map fun h =>
    { hash_ := h, size_ := f.size_ + 1 }

/-- The calls of the callback of `GenerativeTrainOneSample` for the values `op_added` of a list,
on the variable `f` and the counter `counts_[program_id]`. -/
def trainLoop (FingerprintCat : Int → Int → Int)
    (layout : List ((SequenceHashFeature × Int) × Int) →
      List ((SequenceHashFeature × Int) × Int)) (label : Int) :
    List Int → SequenceHashFeature → PerFeatureValueCounter →
    Option (SequenceHashFeature × PerFeatureValueCounter)
  | [], f, c => some (f, c)
  | op_added :: rest, f, c =>
    (f.pushBack FingerprintCat op_added).bind fun f1 =>
      trainLoop FingerprintCat layout label rest f1 (c.AddValue layout f1 label 1)

/-- Mirror of `TGenModel::GenerativeTrainOneSample` on the member `counts_`, which is the
argument `counts`: the counters after the call. -/
def TGenModel.GenerativeTrainOneSample (FingerprintCat : Int → Int → Int) (m : Memory)
    (fuel : Nat) (depth : Nat) (enable_teq : Bool)
    (layout : List ((SequenceHashFeature × Int) × Int) →
      List ((SequenceHashFeature × Int) × Int))
    (self : TGenModel) (counts : List PerFeatureValueCounter) (program_id : Int)
    (exec : ExecutionForTree) (sample : FullTreeTraversal) :
    Option (List PerFeatureValueCounter) :=
  (self.trainingSlice m sample).bind fun slice =>
  (self.resolve FingerprintCat m fuel program_id exec sample (some slice)).program.bind
    fun program_id =>
  (self.GetLabelAtPosition FingerprintCat m fuel depth enable_teq program_id exec sample
      (some slice) true).bind fun label =>
  (counts[program_id.toNat]?).bind fun c =>
    let f := SequenceHashFeature.create
    let c1 := c.AddValue layout f label 1
    (ExecuteContextProgramByIdInAll FingerprintCat m fuel exec self.program_ depth
        (SlicedTreeTraversal.create sample.storage_ sample.position_ (some slice))
        program_id).bind fun r =>
      (trainLoop FingerprintCat layout label r.1 f c1).map fun x =>
        counts.set program_id.toNat x.2

/-- Mirror of `TGenModel::GenerativeEndTraining`. -/
def TGenModel.GenerativeEndTraining (smoothing_type : Int) :
    List PerFeatureValueCounter → Option (List PerFeatureValueCounter)
  | [] => some []
  | c :: rest =>
    (c.EndAdding smoothing_type).bind fun c1 =>
      (TGenModel.GenerativeEndTraining smoothing_type rest).map fun rest1 => c1 :: rest1

/-- Mirror of `enum SmoothingTypes`, value `WittenBell`. -/
def WittenBell : Int := 0

/-- Mirror of `enum SmoothingTypes`, value `Laplace`. -/
def Laplace : Int := 2

/-- Mirror of `class Smoothing`; a `double` is a rational number, and a quotient of two `double`
values is the exact quotient (0 for the divisor 0). -/
structure Smoothing where
  prob_ : ℚ
  prob_tmp_ : ℚ
deriving DecidableEq, Repr

/-- Mirror of the constructor `Smoothing()`. -/
def Smoothing.create : Smoothing := { prob_ := 0, prob_tmp_ := 0 }

/-- Mirror of `Smoothing::SetUnconditionedProb` with the flag `FLAGS_smoothing_type`; `none` is
the failed `CHECK`. -/
def Smoothing.SetUnconditionedProb (smoothing_type : Int) (w : Smoothing)
    (count unique_count total_count prefix_count total_prefix_count : Int) : Option Smoothing :=
  let prob : ℚ := ((count : ℚ) + 1) / ((total_count : ℚ) + (unique_count : ℚ) + 1)
  if smoothing_type = KneserNey then
    if prefix_count ≤ 1 then
      some
        { prob_ := prob,
          prob_tmp_ :=
            ((prefix_count : ℚ) + 1) / ((prefix_count : ℚ) + (total_prefix_count : ℚ) + 1) }
    else none
  else some { w with prob_ := prob }

/-- The sum `delta->GetDelta(1) * counts->at(1) + delta->GetDelta(2) * counts->at(2) +
delta->GetDelta(3) * counts->at(3)` of `Smoothing::AddForwardBackoff`; `none` is a failed `CHECK`
or the exception of `at`. -/
def deltaMass (delta : KneserNeyDelta) (counts : List Int) : Option ℚ :=
  (delta.GetDelta 1).bind fun d1 =>
  (counts[1]?).bind fun (c1 : Int) =>
  (delta.GetDelta 2).bind fun d2 =>
  (counts[2]?).bind fun (c2 : Int) =>
  (delta.GetDelta 3).bind fun d3 =>
  (counts[3]?).map fun (c3 : Int) =>
    d1 * (c1 : ℚ) + d2 * (c2 : ℚ) + d3 * (c3 : ℚ)

/-- Mirror of `Smoothing::AddForwardBackoff` with the flags `FLAGS_smoothing_type` and
`FLAGS_kneser_ney_d`; `none` is a failed `CHECK`, the exception of `at` or `LOG(FATAL)`. The
quotient `p_ml` with the divisor 0 is an infinity or no number, for which the `CHECK` fails. The
sums of two `int` values are below `2^31`. -/
def Smoothing.AddForwardBackoff (smoothing_type : Int) (kneser_ney_d : ℚ) (w : Smoothing)
    (count unique_count total_count : Int) (counts : List Int)
    (prefix_count total_prefix_count : Int) (delta : Option KneserNeyDelta) :
    Option Smoothing :=
  if smoothing_type = WittenBell then
    let p_ml : ℚ := (count : ℚ) / (total_count : ℚ)
    let lambda : ℚ := 1 - (unique_count : ℚ) / ((unique_count + total_count : Int) : ℚ)
    if total_count ≠ 0 ∧ p_ml ≥ 0 ∧ p_ml ≤ 1 then
      some { w with prob_ := lambda * p_ml + (1 - lambda) * w.prob_ }
    else none
  else if smoothing_type = KneserNey then
    if kneser_ney_d ≠ -1 then
      let lambda : ℚ := ((unique_count : ℚ) * kneser_ney_d) / (total_count : ℚ)
      let p_ml : ℚ := max ((count : ℚ) - kneser_ney_d) 0 / (total_count : ℚ)
      if total_count ≠ 0 ∧ p_ml ≥ 0 ∧ p_ml ≤ 1 then
        let lambda2 : ℚ := ((prefix_count : ℚ) * kneser_ney_d) / (total_prefix_count : ℚ)
        some
          { prob_ := p_ml + lambda * w.prob_tmp_,
            prob_tmp_ :=
              max ((prefix_count : ℚ) - kneser_ney_d) 0 / (total_prefix_count : ℚ)
                + lambda2 * w.prob_tmp_ }
      else none
    else
      match delta with
      | none => none
      | some delta =>
        (deltaMass delta counts).bind fun mass =>
        (delta.GetDelta count).bind fun dc =>
          let lambda : ℚ := mass / (total_count : ℚ)
          let p_ml : ℚ := max ((count : ℚ) - dc) 0 / (total_count : ℚ)
          if total_count ≠ 0 ∧ p_ml ≥ 0 ∧ p_ml ≤ 1 then
            let prob : ℚ := p_ml + lambda * w.prob_tmp_
            let prob : ℚ :=
              if prob = 0 then
                (1 + (count : ℚ)) / (1 + (unique_count : ℚ) + (total_count : ℚ))
              else prob
            (deltaMass delta counts).bind fun mass2 =>
            (delta.GetDelta prefix_count).map fun dp =>
              let lambda2 : ℚ := mass2 / (total_prefix_count : ℚ)
              { prob_ := prob,
                prob_tmp_ :=
                  max ((prefix_count : ℚ) - dp) 0 / (total_prefix_count : ℚ)
                    + lambda2 * w.prob_tmp_ }
          else none
  else if smoothing_type = Laplace then
    some
      { w with
        prob_ := ((count + 1 : Int) : ℚ) / ((total_count + unique_count + 1 : Int) : ℚ) }
  else none

/-- Mirror of `Smoothing::GetLogProb`; the function `log2` of the C library is the parameter
`log2`. -/
def Smoothing.GetLogProb (log2 : ℚ → ℚ) (w : Smoothing) : ℚ := log2 w.prob_

/-- The calls of the callback of `GetLabelLogProbInner` for the values `op_added` of a list, on
the variables `f` and `wb`. -/
def backoffLoop (FingerprintCat : Int → Int → Int) (smoothing_type : Int) (kneser_ney_d : ℚ)
    (c : PerFeatureValueCounter) (label : Int) :
    List Int → SequenceHashFeature → Smoothing → Option (SequenceHashFeature × Smoothing)
  | [], f, wb => some (f, wb)
  | op_added :: rest, f, wb =>
    (f.pushBack FingerprintCat op_added).bind fun f1 =>
      (match c.GetFeatureStatsOrNull f1 with
        | none => some wb
        | some stats =>
          (c.GetKneserNeyDelta smoothing_type f1).bind fun delta =>
            wb.AddForwardBackoff smoothing_type kneser_ney_d (c.GetCount f1 label)
              stats.UniqueLabels stats.TotalCount stats.GetCounts
              (c.GetValuePrefixCount smoothing_type f1 label)
              (c.GetTotalPrefixCount smoothing_type f1) delta).bind fun wb1 =>
        backoffLoop FingerprintCat smoothing_type kneser_ney_d c label rest f1 wb1

/-- Mirror of `TGenModel::GetLabelLogProbInner` on the member `counts_`, which is the argument
`counts`. -/
def TGenModel.GetLabelLogProbInner (FingerprintCat : Int → Int → Int) (m : Memory) (fuel : Nat)
    (depth : Nat) (log2 : ℚ → ℚ) (smoothing_type : Int) (kneser_ney_d : ℚ)
    (self : TGenModel) (counts : List PerFeatureValueCounter) (program_id : Int)
    (exec : ExecutionForTree) (sample : SlicedTreeTraversal) (label : Int) : Option ℚ :=
  if program_id < 0 then none
  else
    (counts[program_id.toNat]?).bind fun c =>
      let f := SequenceHashFeature.create
      (match c.GetFeatureStatsOrNull f with
        | none => some Smoothing.create
        | some uncond_stats =>
          Smoothing.create.SetUnconditionedProb smoothing_type (c.GetCount f label)
            uncond_stats.UniqueLabels uncond_stats.TotalCount
            (c.GetValuePrefixCount smoothing_type f label)
            (c.GetTotalPrefixCount smoothing_type f)).bind fun wb =>
        (ExecuteContextProgramByIdInAll FingerprintCat m fuel exec self.program_ depth sample
            program_id).bind fun r =>
          (backoffLoop FingerprintCat smoothing_type kneser_ney_d c label r.1 f wb).map
            fun (x : SequenceHashFeature × Smoothing) => x.2.GetLogProb log2

/-- Mirror of `TGenModel::GetLabelLogProb`. -/
def TGenModel.GetLabelLogProb (FingerprintCat : Int → Int → Int) (m : Memory) (fuel : Nat)
    (depth : Nat) (log2 : ℚ → ℚ) (smoothing_type : Int) (kneser_ney_d : ℚ) (enable_teq : Bool)
    (self : TGenModel) (counts : List PerFeatureValueCounter) (program_id : Int)
    (exec : ExecutionForTree) (sample : FullTreeTraversal) (slice : Option TreeSlice) :
    Option ℚ :=
  (self.resolve FingerprintCat m fuel program_id exec sample slice).program.bind
    fun program_id =>
  (self.GetLabelAtPosition FingerprintCat m fuel depth enable_teq program_id exec sample slice
      true).bind fun best_label =>
    self.GetLabelLogProbInner FingerprintCat m fuel depth log2 smoothing_type kneser_ney_d
      counts program_id exec
      (SlicedTreeTraversal.create sample.storage_ sample.position_ slice) best_label

/-- The body of the two loops over labels of `GetBestLabelLogProb` for one label, on the
variables `best_score` and `best_label`; `score` is the call of `GetLabelLogProbInner`. -/
def bestStep (score : Int → Option ℚ) (best : ℚ × Int) (label : Int) : Option (ℚ × Int) :=
  if label ≠ best.2 then
    (score label).map fun s => if s > best.1 then (s, label) else best
  else some best

/-- The body of the two loops over labels of `GetBestLabelLogProb` for the labels of a list. -/
def bestLoop (score : Int → Option ℚ) : List Int → ℚ × Int → Option (ℚ × Int)
  | [], best => some best
  | label :: rest, best => (bestStep score best label).bind fun b => bestLoop score rest b

/-- The calls of the callback of `GetBestLabelLogProb` for the values `op_added` of a list, on
the variables `f`, `best_score` and `best_label`. The loop
`for (i = 0; static_cast<int>(i) < FLAGS_beam_size && i < items.size(); i++)` visits the first
`beam_size` elements of `items`. -/
def beamLoop (FingerprintCat : Int → Int → Int) (beam_size : Int) (c : PerFeatureValueCounter)
    (score : Int → Option ℚ) :
    List Int → SequenceHashFeature → ℚ × Int → Option (SequenceHashFeature × (ℚ × Int))
  | [], f, best => some (f, best)
  | op_added :: rest, f, best =>
    (f.pushBack FingerprintCat op_added).bind fun f1 =>
      (c.labelsAt ((c.LabelsSortedByProbability f1).take beam_size.toNat)).bind fun items =>
        (bestLoop score (items.map Prod.snd) best).bind fun b =>
          beamLoop FingerprintCat beam_size c score rest f1 b

/-- Mirror of `TGenModel::GetBestLabelLogProb` with the flag `FLAGS_beam_size`, on the member
`counts_`, which is the argument `counts`. The first loop starts at `i = 1`, after the label of
`uncond_items[0]`. -/
def TGenModel.GetBestLabelLogProb (FingerprintCat : Int → Int → Int) (m : Memory) (fuel : Nat)
    (depth : Nat) (log2 : ℚ → ℚ) (smoothing_type : Int) (kneser_ney_d : ℚ) (beam_size : Int)
    (self : TGenModel) (counts : List PerFeatureValueCounter) (program_id : Int)
    (exec : ExecutionForTree) (sample : FullTreeTraversal) (slice : Option TreeSlice) :
    Option (ℚ × Int) :=
  (self.resolve FingerprintCat m fuel program_id exec sample slice).program.bind
    fun program_id =>
  (counts[program_id.toNat]?).bind fun c =>
    let score : Int → Option ℚ := fun label =>
      self.GetLabelLogProbInner FingerprintCat m fuel depth log2 smoothing_type kneser_ney_d
        counts program_id exec
        (SlicedTreeTraversal.create sample.storage_ sample.position_ slice) label
    let f := SequenceHashFeature.create
    match c.LabelsSortedByProbability f with
    | [] => some (0, -1)
    | item0 :: items =>
      (c.labelAt item0).bind fun l0 =>
      (score l0.2).bind fun best_score =>
      (c.labelsAt (((item0 :: items).take beam_size.toNat).drop 1)).bind fun ls =>
      (bestLoop score (ls.map Prod.snd) (best_score, l0.2)).bind fun best =>
      (ExecuteContextProgramByIdInAll FingerprintCat m fuel exec self.program_ depth
          (SlicedTreeTraversal.create sample.storage_ sample.position_ slice)
          program_id).bind fun r =>
        (beamLoop FingerprintCat beam_size c score r.1 f best).map fun x => x.2

/-- Mirror of `TGenModel::IsLabelBestPrediction`. -/
def TGenModel.IsLabelBestPrediction (FingerprintCat : Int → Int → Int) (m : Memory)
    (fuel : Nat) (depth : Nat) (log2 : ℚ → ℚ) (smoothing_type : Int) (kneser_ney_d : ℚ)
    (beam_size : Int) (enable_teq : Bool) (self : TGenModel)
    (counts : List PerFeatureValueCounter) (program_id : Int) (exec : ExecutionForTree)
    (sample : FullTreeTraversal) (slice : Option TreeSlice) : Option Bool :=
  (self.resolve FingerprintCat m fuel program_id exec sample slice).program.bind
    fun program_id =>
  (self.GetBestLabelLogProb FingerprintCat m fuel depth log2 smoothing_type kneser_ney_d
      beam_size counts program_id exec sample slice).bind fun best =>
    (self.GetLabelAtPosition FingerprintCat m fuel depth enable_teq program_id exec sample slice
        true).map fun label => best.2 == label

/-- Every target of a branched program of the table, the default and the target of every case,
is a smaller id of the table. -/
def TGenProgram.TargetsDecrease (t : TGenProgram) : Prop :=
  ∀ (id : Nat) (prog : BranchCondProgram), t.branched_prog id = some prog →
    (0 ≤ prog.p_default ∧ prog.p_default < (id : Int)) ∧
    ∀ e ∈ prog.per_case_p, 0 ≤ e.2 ∧ e.2 < (id : Int)

/-- A model whose table is the one branched program `switch: else goto 0`, which calls
itself. -/
def loop_model : TGenModel :=
  { program_ := tableOf [.branched { cond := ⟨[]⟩, per_case_p := [], p_default := 0 }],
    is_for_node_type_ := false }

/-- A model whose program 2 is the branched program
`switch UP WRITE_TYPE: case 4 goto 0; else goto 1`, program 0 is the simple program `WRITE_TYPE`
and program 1 is the simple program `WRITE_VALUE`: every target is a smaller id. -/
def decreasing_model : TGenModel :=
  { program_ :=
      tableOf
        [.simple { eq_program := [], context_program := [⟨.WRITE_TYPE, -1⟩] },
         .simple { eq_program := [], context_program := [⟨.WRITE_VALUE, -1⟩] },
         .branched
          { cond := BranchCond.ofPredefined .PARENT_TYPE_COND, per_case_p := [([4], 0)],
            p_default := 1 }],
    is_for_node_type_ := false }

/-- A model for values whose one program has the TEq program `UP LEFT DOWN_FIRST WRITE_VALUE`
and the context program `WRITE_TYPE`. -/
def teq_model : TGenModel :=
  { program_ :=
      tableOf
        [.simple
          { eq_program := [⟨.UP, -1⟩, ⟨.LEFT, -1⟩, ⟨.DOWN_FIRST, -1⟩, ⟨.WRITE_VALUE, -1⟩],
            context_program := [⟨.WRITE_TYPE, -1⟩] }],
    is_for_node_type_ := false }

/-- The slice `TreeSlice slice(&tree, 4, true)` on `test_tcond_tree` at address `0`. -/
def teq_slice : TreeSlice :=
  { storage_ := some 0, begin_ := 4, end_ := 6, allow_reading_type_for_begin_node_ := true }

/-- The program of `teq_model`. -/
def teq_program : SimpleCondProgram :=
  { eq_program := [⟨.UP, -1⟩, ⟨.LEFT, -1⟩, ⟨.DOWN_FIRST, -1⟩, ⟨.WRITE_VALUE, -1⟩],
    context_program := [⟨.WRITE_TYPE, -1⟩] }

/-- The node 4 of `test_tcond_tree`. -/
def teq_node : TreeNode :=
  { type := 2, value := 3, parent := 3, left_sib := -1, right_sib := 5,
    first_child := -1, last_child := -1, child_index := 0 }

/-- The sample at node 4 of `test_tcond_tree` at address `0`. -/
def teq_sample : FullTreeTraversal := { storage_ := some 0, position_ := 4 }

/-- The traversal at node 2 of `test_tcond_tree` with the slice `teq_slice`. -/
def teq_traversal_end : SlicedTreeTraversal :=
  { storage_ := some 0, position_ := 2, slice_ := some teq_slice,
    last_subtree_position_ := -1, last_subtree_ := none }

/-- The values of the variable `f` of a callback after each `f.PushBack(op_added)`, for the
values `op_added` of a list; `none` when a `PushBack` is undefined. -/
def prefixFeatures (FingerprintCat : Int → Int → Int) :
    List Int → SequenceHashFeature → Option (List SequenceHashFeature)
  | [], _ => some []
  | op_added :: rest, f =>
    (f.pushBack FingerprintCat op_added).bind fun f1 =>
      (prefixFeatures FingerprintCat rest f1).map fun fs => f1 :: fs

/-- The counters of `teq_model` after `GenerativeTrainOneSample` on new counters for the sample
`teq_sample`: the label `-10` is counted once for the feature without values and once for the
feature of the type 2, whose hash with `test_FingerprintCat` is 9. -/
def teq_counts : List PerFeatureValueCounter :=
  [{ feature_value_counts_ :=
       [((SequenceHashFeature.create, -10), 1), (({ hash_ := 9, size_ := 1 }, -10), 1)],
     feature_stats_ := [], value_stats_ := [], deltas_ := [] }]

/-- The pointers to the labels that `GetBestLabelLogProb` scores, for the features `fs` that the
variable `f` of the callback takes: the first element of the list of the feature without values,
and the first `beam_size` elements of the list of the feature without values and of each feature
of `fs`. -/
def candidatePointers (beam_size : Int) (c : PerFeatureValueCounter)
    (fs : List SequenceHashFeature) : List (ℚ × Nat) :=
  (c.LabelsSortedByProbability SequenceHashFeature.create).take 1 ++
    (SequenceHashFeature.create :: fs).flatMap fun f =>
      (c.LabelsSortedByProbability f).take beam_size.toNat

/-- The pointers to the first `beam_size` labels of the feature without values and of each
feature of `fs`. -/
def beamPointers (beam_size : Int) (c : PerFeatureValueCounter)
    (fs : List SequenceHashFeature) : List (ℚ × Nat) :=
  (SequenceHashFeature.create :: fs).flatMap fun f =>
    (c.LabelsSortedByProbability f).take beam_size.toNat

/-- A function that stands for `log2` where a concrete one is needed. -/
def test_log2 (x : ℚ) : ℚ := x - 1

/-- A model for values whose one program has no TEq program and no context program. -/
def plain_model : TGenModel :=
  { program_ := tableOf [.simple { eq_program := [], context_program := [] }],
    is_for_node_type_ := false }

/-! ## The subtree for a completion (`tree.cpp`) -/

/-- The label that `TreeNode::Type` and `TreeNode::Value` read for a stored label: an unknown
label reads as `EMPTY_NODE_LABEL`. -/
def knownLabel (x : Int) : Int := if x ≠ UNKNOWN_LABEL then x else EMPTY_NODE_LABEL

/-- The tree with the labels that `Type()` and `Value()` read. -/
def FT.read : FT → FT
  | .eps => .eps
  | .node ty v c sb => .node (knownLabel ty) (knownLabel v) c.read sb.read

/-- No node of the tree has the type `EMPTY_NODE_LABEL` or `UNKNOWN_LABEL`. -/
def FT.TypesKnown : FT → Prop
  | .eps => True
  | .node ty _ c sb =>
    ty ≠ EMPTY_NODE_LABEL ∧ ty ≠ UNKNOWN_LABEL ∧ c.TypesKnown ∧ sb.TypesKnown

/-- The chain of siblings `t`, whose nodes in pre-order are `L`, cut off after the sibling `k`:
the siblings before `k` with the trees below them, with the labels that `Type()` and `Value()`
read, and then a node with the type `ty` and the value `UNKNOWN_LABEL`, without children and
without a right sibling; none when `k` is not a sibling of the chain. -/
def FT.cutAt : FT → List Nat → Nat → Int → Option FT
  | .eps, _, _, _ => none
  | .node _ _ _ _, [], _, _ => none
  | .node ty v c sb, x :: rest, k, ty1 =>
    if x = k then some (.node ty1 UNKNOWN_LABEL .eps .eps)
    else
      (sb.cutAt (rest.drop c.size) k ty1).map fun sb1 =>
        .node (knownLabel ty) (knownLabel v) c.read sb1

/-- The types of the siblings before the sibling `k` of the chain `t`, and of the nodes below
them, are known. -/
def FT.KnownBefore : FT → List Nat → Nat → Prop
  | .eps, _, _ => True
  | .node _ _ _ _, [], _ => True
  | .node ty _ c sb, x :: rest, k =>
    x = k ∨ (ty ≠ EMPTY_NODE_LABEL ∧ ty ≠ UNKNOWN_LABEL ∧ c.TypesKnown ∧
      sb.KnownBefore (rest.drop c.size) k)

/-- The number of rounds of the loop of `GetSubtreeForCompletion` on the chain of siblings `t`
up to the sibling `k`, the round at `k` included. -/
def FT.cutRounds : FT → List Nat → Nat → Nat
  | .eps, _, _ => 0
  | .node _ _ _ _, [], _ => 0
  | .node _ _ c sb, x :: rest, k =>
    if x = k then 1 else 1 + c.epsLabels.length + sb.cutRounds (rest.drop c.size) k

/-- A store that holds the tree `[10 [11 [14]] [12] [13]]`: the children of the root 0 are the
nodes 1, 2 and 3, and the node 4 is the child of the node 1. The value of the node 1 is
`UNKNOWN_LABEL`. -/
def completion_store : TreeStorage :=
  { nodes_ :=
      [{ type := 10, value := 20, parent := -1, left_sib := -1, right_sib := -1,
         first_child := 1, last_child := 3, child_index := 0 },
       { type := 11, value := -2, parent := 0, left_sib := -1, right_sib := 2,
         first_child := 4, last_child := 4, child_index := 0 },
       { type := 12, value := 22, parent := 0, left_sib := 1, right_sib := 3,
         first_child := -1, last_child := -1, child_index := 1 },
       { type := 13, value := 23, parent := 0, left_sib := 2, right_sib := -1,
         first_child := -1, last_child := -1, child_index := 2 },
       { type := 14, value := 24, parent := 1, left_sib := -1, right_sib := -1,
         first_child := -1, last_child := -1, child_index := 0 }],
    parent_ := none, position_in_parent_ := -1, first_free_node_ := -1 }

/-- The tree below the root of `completion_store`. -/
def completion_tree : FT :=
  .node 11 (-2) (.node 14 24 .eps .eps) (.node 12 22 .eps (.node 13 23 .eps .eps))

/-- The store that `GetSubtreeForCompletion(2, false)` returns for `completion_store`: the
nodes 0, 1, 4 and 2 in this order, the node 1 with the value `EMPTY_NODE_LABEL`. -/
def completion_overlay : TreeStorage :=
  { nodes_ :=
      [{ type := 10, value := 20, parent := -2, left_sib := -1, right_sib := -1,
         first_child := 1, last_child := 3, child_index := 0 },
       { type := 11, value := -1, parent := 0, left_sib := -1, right_sib := 3,
         first_child := 2, last_child := 2, child_index := 0 },
       { type := 14, value := 24, parent := 1, left_sib := -1, right_sib := -1,
         first_child := -1, last_child := -1, child_index := 0 },
       { type := 12, value := -2, parent := 0, left_sib := 1, right_sib := -1,
         first_child := -1, last_child := -1, child_index := 1 }],
    parent_ := some 0, position_in_parent_ := 0, first_free_node_ := -1 }

/-! ## Stores that pass the consistency check -/

/-- The store `s` is well formed, with some tree and some free list. -/
def Consistent (m : Memory) (s : TreeStorage) : Prop :=
  ∃ (ty v : Int) (T : FT) (L F : List Nat), WF m s ty v T L F

/-- The slot `k` of the store holds a node that is not marked deallocated. -/
def Alive (s : TreeStorage) (k : Int) : Prop :=
  ∃ n, s.nodeAt k = some n ∧ n.parent ≠ TREEPOINTER_DEALLOCATED

/-- Every node of the store `s` that is not deallocated is a node of the store `s1`. -/
def Keeps (s s1 : TreeStorage) : Prop := ∀ j, Alive s j → Alive s1 j

/-- A call that changes a store: `SubstituteNode`, `SubstituteSingleNode`,
`SubstituteNodeType`, `RemoveNode` or `RemoveNodeChildren`, with its arguments. -/
inductive Mutation where
  | substituteNode (node_id : Int) (subst : TreeSubstitution)
  | substituteSingleNode (node_id : Int) (node : TreeSubstitution.Node)
  | substituteNodeType (node_id : Int) (type : Int)
  | removeNode (node_id : Int)
  | removeNodeChildren (node_id : Int)
deriving DecidableEq, Repr

/-- The node at which the call changes the store. -/
def Mutation.node_id : Mutation → Int
  | .substituteNode node_id _ => node_id
  | .substituteSingleNode node_id _ => node_id
  | .substituteNodeType node_id _ => node_id
  | .removeNode node_id => node_id
  | .removeNodeChildren node_id => node_id

/-- The store after the call; `fuel` bounds the rounds of each loop. -/
def Mutation.run (fuel : Nat) (s : TreeStorage) : Mutation → Option TreeStorage
  | .substituteNode node_id subst => s.SubstituteNode fuel node_id subst
  | .substituteSingleNode node_id node => s.SubstituteSingleNode fuel node_id node
  | .substituteNodeType node_id type => s.SubstituteNodeType fuel node_id type
  | .removeNode node_id => s.RemoveNode fuel node_id
  | .removeNodeChildren node_id => s.RemoveNodeChildren fuel node_id

/-- The stores that a sequence of calls makes from the store of the constructor
`TreeStorage()`, or from the store of the constructor `TreeStorage(parent, position_in_parent)`
for a node of a store at the address `a`: each call is at a node that is not deallocated, it
returns, and `fuel` is at least the number of slots of the store before it. -/
inductive Reachable (m : Memory) (fuel : Nat) : TreeStorage → Prop where
  | fresh : Reachable m fuel TreeStorage.create
  | attached (a : Nat) (position_in_parent : Int) (s : TreeStorage) :
      TreeStorage.createAttached m a position_in_parent = some s → Reachable m fuel s
  | step (s s1 : TreeStorage) (call : Mutation) : Reachable m fuel s →
      Alive s call.node_id → s.nodes_.length ≤ fuel → call.run fuel s = some s1 →
      Reachable m fuel s1

/-- The test of `Alive`. -/
def TreeStorage.isAlive (s : TreeStorage) (k : Int) : Bool :=
  match s.nodeAt k with
  | some n => decide (n.parent ≠ TREEPOINTER_DEALLOCATED)
  | none => false

/-- The store after a sequence of calls, each at a node that is not deallocated and with `fuel`
at least the number of slots of the store before it; `none` when a call is not so or does not
return. -/
def reachCheck (fuel : Nat) : TreeStorage → List Mutation → Option TreeStorage
  | s, [] => some s
  | s, call :: rest =>
    if s.isAlive call.node_id = true ∧ s.nodes_.length ≤ fuel then
      (call.run fuel s).bind fun s1 => reachCheck fuel s1 rest
    else none

/-- A sequence of calls on the store of `TreeStorage()`: the root gets the type 5 and an
unknown child, the node 1; a substitution with three entries is written at the node 1; the node
2 gets the type 3 and an unknown child; the children of the node 1 are removed; and the node 3
is removed. -/
def mutation_calls : List Mutation :=
  [.substituteNodeType 0 5,
   .substituteNode 1 ⟨[⟨7, 70, 1, 2⟩, ⟨8, 80, -1, -2⟩, ⟨9, 90, -2, -1⟩]⟩,
   .substituteSingleNode 2 ⟨3, 30, -2, -1⟩,
   .removeNodeChildren 1,
   .removeNode 3]

/-- The store after the calls `mutation_calls`: the root 0 with the child 1, and the free slots
3, 4 and 2. -/
def mutated_store : TreeStorage :=
  { nodes_ :=
      [⟨5, -2, -1, -1, -1, 1, 1, 0⟩, ⟨7, 70, 0, -1, -1, -1, -1, 0⟩,
       ⟨-1, 30, -3, -1, 4, 6, 6, 0⟩, ⟨4, 90, -3, 1, -1, -1, -1, 1⟩,
       ⟨2, -2, -3, 2, -1, -1, -1, 1⟩],
    parent_ := none, position_in_parent_ := -1, first_free_node_ := 3 }

/-! ## The tree of a substitution -/

/-- The tree that the entries of a substitution describe from the entry `idx` on, with the
entry at `first_child` as the first child and the entry at `right_sib` as the right sibling:
-1 is no node, -2 is a node with the type and the value `UNKNOWN_LABEL` and nothing below or
after it; `none` for another negative index, for an index that is no entry, and when `fuel`
entries in a row did not end the walk. -/
def TreeSubstitution.unfold (subst : TreeSubstitution) : Nat → Int → Option FT
  | 0, _ => none
  | fuel + 1, idx =>
    if idx = -1 then some .eps
    else if idx = -2 then some (.node UNKNOWN_LABEL UNKNOWN_LABEL .eps .eps)
    else if 0 ≤ idx then
      subst.data[idx.toNat]?.bind fun d =>
        (subst.unfold fuel d.first_child).bind fun c =>
          (subst.unfold fuel d.right_sib).map fun sb => .node d.type d.value c sb
    else none

/-- The substitution describes the tree `t` from the entry `idx` on. -/
def Unfolds (subst : TreeSubstitution) (idx : Int) (t : FT) : Prop :=
  ∃ fuel, subst.unfold fuel idx = some t

/-- The tree `t` is read in the store `s` from the node `id` on, along the links `first_child`
and `right_sib`; a negative link is no node. -/
def Reads (s : TreeStorage) : FT → Int → Prop
  | .eps, id => id < 0
  | .node ty v c sb, id =>
    ∃ n, s.nodeAt id = some n ∧ n.type = ty ∧ n.value = v ∧ Reads s c n.first_child ∧
      Reads s sb n.right_sib

/-- Every node of the store `s` other than `x` has in the store `s1` its type, value, first
child, right sibling and parent. -/
def Frame (s s1 : TreeStorage) (x : Int) : Prop :=
  ∀ j n, s.nodeAt j = some n → n.parent ≠ TREEPOINTER_DEALLOCATED → j ≠ x →
    ∃ n1, s1.nodeAt j = some n1 ∧ n1.type = n.type ∧ n1.value = n.value ∧
      n1.first_child = n.first_child ∧ n1.right_sib = n.right_sib ∧ n1.parent = n.parent

/-- The node `x` was made for an entry of a substitution and waits in the queue: it is not the
root, and it has no child and no right sibling. -/
def PendingNode (s : TreeStorage) (x : Int) : Prop :=
  ∃ n, s.nodeAt x = some n ∧ n.parent ≠ TREEPOINTER_DEALLOCATED ∧ x ≠ 0 ∧ n.first_child < 0 ∧
    n.right_sib < 0

/-- The tree `t` is read in the store `s` from the node `id` on when every node that waits in
the queue `rqueue` for an entry is read as the tree of this entry. -/
def Partial (subst : TreeSubstitution) (s : TreeStorage) (rqueue : List (Int × Int)) :
    FT → Int → Prop
  | .eps, id => id < 0
  | .node ty v c sb, id =>
    (∃ e, (e, id) ∈ rqueue ∧ Unfolds subst e (.node ty v c sb)) ∨
    (∃ n, s.nodeAt id = some n ∧ n.parent ≠ TREEPOINTER_DEALLOCATED ∧
      (∀ e, (e, id) ∉ rqueue) ∧ n.type = ty ∧ n.value = v ∧
      Partial subst s rqueue c n.first_child ∧ Partial subst s rqueue sb n.right_sib)

/-- The queue of the loop of `SubstituteNode` holds nodes that wait for entries with the trees
`ts`, each node once, in a well-formed store. -/
def QueueInv (m : Memory) (subst : TreeSubstitution) (s : TreeStorage)
    (rqueue : List (Int × Int)) (ts : List FT) : Prop :=
  Consistent m s ∧ (rqueue.map Prod.snd).Nodup ∧
    List.Forall₂ (fun (el : Int × Int) (t : FT) =>
      0 ≤ el.1 ∧ Unfolds subst el.1 t ∧ t.NoEmpty ∧ PendingNode s el.2) rqueue ts

/-! ## A store and two substitutions for `SubstituteNode` -/

/-- A store whose root has the children 1 and 2, with the child 3 below 1 and the child 4
below 2. -/
def substitute_store : TreeStorage :=
  { nodes_ :=
      [⟨10, 20, -1, -1, -1, 1, 2, 0⟩, ⟨11, 21, 0, -1, 2, 3, 3, 0⟩, ⟨12, 22, 0, 1, -1, 4, 4, 1⟩,
       ⟨13, 23, 1, -1, -1, -1, -1, 0⟩, ⟨14, 24, 2, -1, -1, -1, -1, 0⟩],
    parent_ := none, position_in_parent_ := -1, first_free_node_ := -1 }

/-- The tree below the root of `substitute_store`. -/
def substitute_store_tree : FT :=
  .node 11 21 (.node 13 23 .eps .eps) (.node 12 22 (.node 14 24 .eps .eps) .eps)

/-- A substitution of one entry without a child and with the marker -2 for the right
sibling. -/
def substitute_marker : TreeSubstitution := ⟨[⟨7, 70, -1, -2⟩]⟩

/-- A substitution of three entries: the first with the second as its child and the third as
its right sibling, the second with the marker -2 for the right sibling, the third with the
marker -2 for the child. -/
def substitute_template : TreeSubstitution :=
  ⟨[⟨7, 70, 1, 2⟩, ⟨8, 80, -1, -2⟩, ⟨9, 90, -2, -1⟩]⟩

/-! ## Sequences of moves of a sliced traversal -/

/-- The five moves of a `SlicedTreeTraversal`. -/
inductive SliceMove where
  | up | left | right | down_first_child | down_last_child
deriving DecidableEq, Repr

/-- The call of a move on a traversal; `none` when a `CHECK` of the move fails or a node is read
outside the vector. -/
def SliceMove.call (m : Memory) (t : SlicedTreeTraversal) :
    SliceMove → Option (Bool × SlicedTreeTraversal)
  | .up => t.up m
  | .left => t.left m
  | .right => t.right m
  | .down_first_child => t.down_first_child m
  | .down_last_child => t.down_last_child m

/-- The calls of the moves of a list, one after the other, whatever each move returns. -/
def callMoves (m : Memory) : List SliceMove → SlicedTreeTraversal → Option SlicedTreeTraversal
  | [], t => some t
  | mv :: rest, t => (mv.call m t).bind fun r => callMoves m rest r.2

/-! ## The clause `else goto N` of a program line -/

/-- The id of the last clause `else goto N` among the clauses of a line, and `d` when no clause
is one: the value of `p_default` after the loop over `cases` of `ParseAsProgramLineOrDie` that
started with `p_default == d`. -/
def elseTarget : List Str → Int → Int
  | [], d => d
  | c :: cases, d =>
    elseTarget cases
      (match sscanf_else_goto (TrimLeadingAndTrailingSpaces c) with
        | some label => label
        | none => d)

/-! ## The writes into `cmd_ids` -/

/-- The writes `cmd_ids[i] = ...` of the loop over `cmds` in `ParseAsProgramLineOrDie`, each as
the pair of the index `i` and of `cmd_ids.size()` at the time of the write: the size is
`cmds.size()` from the constructor `cmd_ids(cmds.size(), -1)` until an empty token calls
`cmd_ids.clear()`, and 0 from then on. Every token that is not empty writes
(`ParseInt32(cmds[i], &cmd_ids[i])` or the assignment of `addString`). -/
def cmdWrites : List Str → Nat → Nat → List (Nat × Nat)
  | [], _, _ => []
  | cmd :: cmds, i, size =>
    match cmd with
    | [] => cmdWrites cmds (i + 1) 0
    | _ :: _ => (i, size) :: cmdWrites cmds (i + 1) size

/-! ## The recursive size of a program of the table (`tgen_program.cpp`) -/

/-- The loop `for (int prog : programs_set) size += GetProgramRecursiveSize(prog)` on the `int`
variable `size`; `call` is the recursive call. The sum of the `int` and of the `size_t` is taken
as a `size_t`, and its conversion to `int` keeps the low 32 bits. -/
def recursiveSizeLoop ( call : Int → Option Nat) : List Int → Int → Option Int
  | [], size => some size
  | prog :: programs, size =>
    (call prog).bind fun r =>
      recursiveSizeLoop call programs (toSigned (toUnsigned size + r))

/-- Mirror of `TGenProgram::GetProgramRecursiveSize`. The code does not bound the depth of the
recursion: `fuel` is the depth that is followed, and `none` is a failed `CHECK`, an index out of
a vector, or a recursion deeper than `fuel`. The returned `int` is converted to `size_t`. -/
def TGenProgram.GetProgramRecursiveSize (self : TGenProgram) : Nat → Int → Option Nat
  | 0, _ => none
  | fuel + 1, pos =>
    if pos < 0 then none
    else
      match self.program_type pos.toNat with
      | none => none
      | some .BRANCHED_PROGRAM =>
        (self.branched_prog pos.toNat).bind fun program =>
          (recursiveSizeLoop (self.GetProgramRecursiveSize fuel) program.GetReferencedPrograms
            (toSigned program.cond.program.length)).map fun size =>
            (size % 18446744073709551616).toNat
      | some .SIMPLE_PROGRAM =>
        (self.simple_prog pos.toNat).map fun p =>
          p.eq_program.length + p.context_program.length

/-- A table whose program 0 is the simple program `WRITE_TYPE` and whose program 1 is the
branched program `switch WRITE_TYPE: on "A" goto 0; else goto 0`, with one case. -/
def one_case_table : TGenProgram :=
  tableOf
    [.simple { eq_program := [], context_program := [⟨.WRITE_TYPE, -1⟩] },
     .branched { cond := ⟨[⟨.WRITE_TYPE, -1⟩]⟩, per_case_p := [([0], 0)], p_default := 0 }]

/-! ## Stores with many children below the root -/

/-- A store whose root has `k` children without children of their own, the nodes `1, ..., k`. -/
def wideStore (k : Nat) : TreeStorage :=
  { nodes_ :=
      ⟨7, 70, -1, -1, -1, if k = 0 then -1 else 1, if k = 0 then -1 else (k : Int), 0⟩ ::
        (List.range k).map fun i =>
          ⟨1, 2, 0, if i = 0 then -1 else (i : Int), if i + 1 = k then -1 else (i : Int) + 2,
            -1, -1, (i : Int)⟩,
    parent_ := none, position_in_parent_ := -1, first_free_node_ := -1 }

/-- The tree below the root of `wideStore k`: `k` siblings. -/
def wideTree (k : Nat) : FT := (List.range k).foldr (fun _ sb => FT.node 1 2 .eps sb) .eps

/-! ## Branched programs without the cases of the default program -/

/-- The branched program `p` without the cases that go to its default program: the program
whose line `ToStringAsProgramLine` writes for `p`. -/
def dropDefaultCases (p : BranchCondProgram) : BranchCondProgram :=
  { p with per_case_p := p.per_case_p.filter (fun it => it.2 ≠ p.p_default) }

/-- A branched program whose line is read back with the same meaning: the condition is made of
valid ops; the case map is a `std::map`; the default program is a 32-bit id; and every case that
does not go to the default program has a 32-bit target and a key that prints and reads back
(32-bit values, the non-negative ones ids of strings whose escaped form is not empty, does not
start with a minus sign and holds no separator). -/
def BranchProgReadable (ss : StringSet) (p : BranchCondProgram) : Prop :=
  (∀ op ∈ p.cond.program, ValidOp op) ∧ SortedMap p.per_case_p ∧
  (∀ it ∈ p.per_case_p, it.2 ≠ p.p_default → KeyOK ss it.1 ∧ inInt32 it.2 = true) ∧
  inInt32 p.p_default = true

instance (ss : StringSet) (p : BranchCondProgram) : Decidable (BranchProgReadable ss p) := by
  unfold BranchProgReadable; infer_instance

/-! ## The step back in pre-order -/

/-- The traversal `SlicedTreeTraversal(storage, pos)`, without a slice, for the store at
address `0`. -/
def plainAt (pos : Int) : SlicedTreeTraversal := SlicedTreeTraversal.create (some 0) pos none

/-- The node ids of the store are in pre-order: the root, the node 0, has no parent and no left
sibling, and the nodes of the tree `T` below the root are, in pre-order, the nodes
`1, 2, ..., T.size`. -/
def PreOrderIds (s : TreeStorage) (T : FT) : Prop :=
  ∃ r, s.nodeAt 0 = some r ∧ r.parent = -1 ∧ r.left_sib = -1 ∧
    Chain s T r.first_child 0 (-1) 0 (List.range' 1 T.size) r.last_child

/-- The tree below the root of `test_tcond_tree`. -/
def test_tcond_ft : FT :=
  .node 1 (-1) (.node 2 3 .eps .eps)
    (.node 4 (-1) (.node 2 3 .eps (.node 2 5 .eps .eps)) .eps)

/-! ## The evaluation metric (`model.h`, `model.cpp`) -/

/-- Mirror of `enum class Metric`. -/
inductive Metric where
  | DEFAULT | ENTROPY | ERROR_RATE | CONFIDENCE50
deriving DecidableEq, Repr

/-- Mirror of `ResolveDefaultTGenEvalMetric` with the flag `FLAGS_default_tgen_eval_metric`;
`none` is `LOG(FATAL)`. -/
def ResolveDefaultTGenEvalMetric (default_tgen_eval_metric : Str) (metric : Metric) :
    Option Metric :=
  if metric ≠ .DEFAULT then some metric
  else if default_tgen_eval_metric = "entropy".toList then some .ENTROPY
  else if default_tgen_eval_metric = "errorrate".toList then some .ERROR_RATE
  else if default_tgen_eval_metric = "confidence50".toList then some .CONFIDENCE50
  else none

/-- Mirror of `TGenModel::start_program_id`: the conversion of `program_.size() - 1` to `int`. -/
def TGenModel.start_program_id (self : TGenModel) : Int :=
  toSigned (toUnsigned ((self.program_.size : Int) - 1))

/-- Mirror of `class TGenModelEvaluationMetricComputation`; a `double` is a rational number. -/
structure TGenModelEvaluationMetricComputation where
  metric_ : Metric
  value_ : ℚ
  num_samples_ : Int
deriving DecidableEq, Repr

/-- Mirror of the constructor of `TGenModelEvaluationMetricComputation`. -/
def TGenModelEvaluationMetricComputation.create (default_tgen_eval_metric : Str)
    (metric : Metric) : Option TGenModelEvaluationMetricComputation :=
  (ResolveDefaultTGenEvalMetric default_tgen_eval_metric metric).map fun r =>
    { metric_ := r, value_ := 0, num_samples_ := 0 }

/-- Mirror of `TGenModelEvaluationMetricComputation::AddSample`; `none` is `LOG(FATAL)` or a call
without a result. The sum `++num_samples_` is the machine sum. -/
def TGenModelEvaluationMetricComputation.AddSample (FingerprintCat : Int → Int → Int)
    (m : Memory) (fuel : Nat) (depth : Nat) (log2 : ℚ → ℚ) (smoothing_type : Int)
    (kneser_ney_d : ℚ) (beam_size : Int) (enable_teq : Bool)
    (self : TGenModelEvaluationMetricComputation) (model : TGenModel)
    (counts : List PerFeatureValueCounter) (exec : ExecutionForTree) (position_in_tree : Int) :
    Option TGenModelEvaluationMetricComputation :=
  let sample : FullTreeTraversal := { storage_ := exec.tree_, position_ := position_in_tree }
  (model.evaluationSlice m exec position_in_tree).bind fun slice =>
    let num_samples := addInt32 self.num_samples_ 1
    match self.metric_ with
    | .ENTROPY =>
      (model.GetLabelLogProb FingerprintCat m fuel depth log2 smoothing_type kneser_ney_d
          enable_teq counts model.start_program_id exec sample (some slice)).map fun (lp : ℚ) =>
        { self with value_ := self.value_ - lp, num_samples_ := num_samples }
    | .ERROR_RATE =>
      (model.IsLabelBestPrediction FingerprintCat m fuel depth log2 smoothing_type kneser_ney_d
          beam_size enable_teq counts model.start_program_id exec sample (some slice)).map
        fun best =>
          { self with
            value_ := if !best then self.value_ + 1 else self.value_,
            num_samples_ := num_samples }
    | .CONFIDENCE50 =>
      (model.GetLabelLogProb FingerprintCat m fuel depth log2 smoothing_type kneser_ney_d
          enable_teq counts model.start_program_id exec sample (some slice)).map fun (lp : ℚ) =>
        { self with
          value_ := if lp ≤ -1 then self.value_ + 1 else self.value_,
          num_samples_ := num_samples }
    | .DEFAULT => none

/-- Mirror of `TGenModelEvaluationMetricComputation::GetComputedValue`; `none` is `LOG(FATAL)`.
The quotient of the two `double` values is the exact quotient (0 for the divisor 0, where the
machine gives no number). -/
def TGenModelEvaluationMetricComputation.GetComputedValue
    (self : TGenModelEvaluationMetricComputation) : Option ℚ :=
  match self.metric_ with
  | .ENTROPY | .ERROR_RATE | .CONFIDENCE50 => some (self.value_ / (self.num_samples_ : ℚ))
  | .DEFAULT => none

/-- The calls `AddSample(model, exec, position)` for the positions of a list, in order. -/
def TGenModelEvaluationMetricComputation.addSamples (FingerprintCat : Int → Int → Int)
    (m : Memory) (fuel : Nat) (depth : Nat) (log2 : ℚ → ℚ) (smoothing_type : Int)
    (kneser_ney_d : ℚ) (beam_size : Int) (enable_teq : Bool) (model : TGenModel)
    (counts : List PerFeatureValueCounter) (exec : ExecutionForTree) :
    List Int → TGenModelEvaluationMetricComputation →
    Option TGenModelEvaluationMetricComputation
  | [], self => some self
  | position :: rest, self =>
    (self.AddSample FingerprintCat m fuel depth log2 smoothing_type kneser_ney_d beam_size
        enable_teq model counts exec position).bind fun self1 =>
      TGenModelEvaluationMetricComputation.addSamples FingerprintCat m fuel depth log2
        smoothing_type kneser_ney_d beam_size enable_teq model counts exec rest self1

/-- The log-probabilities that `GetLabelLogProb` gives for the samples at the positions of a
list, as `AddSample` calls it; `none` when a call has no result. -/
def sampleLogProbs (FingerprintCat : Int → Int → Int) (m : Memory) (fuel : Nat) (depth : Nat)
    (log2 : ℚ → ℚ) (smoothing_type : Int) (kneser_ney_d : ℚ) (enable_teq : Bool)
    (model : TGenModel) (counts : List PerFeatureValueCounter) (exec : ExecutionForTree) :
    List Int → Option (List ℚ)
  | [] => some []
  | position :: rest =>
    (model.evaluationSlice m exec position).bind fun slice =>
    (model.GetLabelLogProb FingerprintCat m fuel depth log2 smoothing_type kneser_ney_d
        enable_teq counts model.start_program_id exec
        { storage_ := exec.tree_, position_ := position } (some slice)).bind fun (lp : ℚ) =>
      (sampleLogProbs FingerprintCat m fuel depth log2 smoothing_type kneser_ney_d enable_teq
        model counts exec rest).map fun lps => lp :: lps

/-- The counts of a counter are those of a training: every key is held once, and the sum of the
counts of a feature is below `2^31`. -/
def PerFeatureValueCounter.Counted (c : PerFeatureValueCounter) : Prop :=
  c.WellFormed ∧
  ∀ f : SequenceHashFeature,
    ((tableEntries f c.feature_value_counts_).map Prod.snd).sum < 2147483648

/-- The statistics of a counter that the smoothing reads: every feature with statistics has a
label, and the count of a label is at least 0 and at most the total count of the feature. -/
def PerFeatureValueCounter.StatsBound (c : PerFeatureValueCounter) : Prop :=
  ∀ (f : SequenceHashFeature) (fs : FeatureStats), c.GetFeatureStatsOrNull f = some fs →
    1 ≤ fs.UniqueLabels ∧
    ∀ label : Int, 0 ≤ c.GetCount f label ∧ c.GetCount f label ≤ fs.TotalCount

/-- A model for values whose one program has the context program `UP WRITE_TYPE WRITE_TYPE`. -/
def context_model : TGenModel :=
  { program_ :=
      tableOf
        [.simple
          { eq_program := [],
            context_program := [⟨.UP, -1⟩, ⟨.WRITE_TYPE, -1⟩, ⟨.WRITE_TYPE, -1⟩] }],
    is_for_node_type_ := false }

/-- The counter of `context_model` after the training samples at the nodes 2 and 4 of
`test_tcond_tree`, which have the label 3: the feature without values, and the features of the
values `[1, 1]` and `[4, 4]` with `test_FingerprintCat`. -/
def context_counter : PerFeatureValueCounter :=
  { feature_value_counts_ :=
      [((test_feature, 3), 2),
       (({ hash_ := 8, size_ := 1 }, 3), 1), (({ hash_ := 256, size_ := 2 }, 3), 1),
       (({ hash_ := 11, size_ := 1 }, 3), 1), (({ hash_ := 352, size_ := 2 }, 3), 1)],
    feature_stats_ := [], value_stats_ := [], deltas_ := [] }

/-- The counter `context_counter` after `EndAdding` with the Kneser-Ney smoothing. -/
def context_counter_ended : PerFeatureValueCounter :=
  { feature_value_counts_ := context_counter.feature_value_counts_,
    feature_stats_ :=
      [(test_feature,
        { total_count_ := 2, unique_count_ := 1, sorted_by_prob_ := [(1, 0)],
          counts_ := [0, 0, 1, 0] }),
       ({ hash_ := 8, size_ := 1 },
        { total_count_ := 1, unique_count_ := 1, sorted_by_prob_ := [(1, 1)],
          counts_ := [0, 1, 0, 0] }),
       ({ hash_ := 256, size_ := 2 },
        { total_count_ := 1, unique_count_ := 1, sorted_by_prob_ := [(1, 2)],
          counts_ := [0, 1, 0, 0] }),
       ({ hash_ := 11, size_ := 1 },
        { total_count_ := 1, unique_count_ := 1, sorted_by_prob_ := [(1, 3)],
          counts_ := [0, 1, 0, 0] }),
       ({ hash_ := 352, size_ := 2 },
        { total_count_ := 1, unique_count_ := 1, sorted_by_prob_ := [(1, 4)],
          counts_ := [0, 1, 0, 0] })],
    value_stats_ :=
      [(0, { per_value_continuations_ := [(3, 1)], total_count_ := 1 }),
       (1, { per_value_continuations_ := [(3, 2)], total_count_ := 2 }),
       (2, { per_value_continuations_ := [(3, 2)], total_count_ := 2 })],
    deltas_ :=
      [(0, { deltas_estimated_ := true, counts_ := [0, 1, 0, 0, 0], deltas_ := [0, 1, 0, 0] }),
       (1, { deltas_estimated_ := true, counts_ := [0, 0, 1, 0, 0], deltas_ := [0, 0, 1, 0] }),
       (2, { deltas_estimated_ := true, counts_ := [0, 2, 0, 0, 0], deltas_ := [0, 1, 0, 0] })] }

/-! ## A counter with two labels for the beam of `GetBestLabelLogProb` -/

/-- A counter of `context_model`: the label 3 is counted 3 times, for the feature without values
and for the features of the values `[1, 1]`, and the label 5 is counted 2 times, for the feature
without values and for the features of the values `[4, 4]` (the hashes are those of
`test_FingerprintCat`). -/
def beam_counter : PerFeatureValueCounter :=
  { feature_value_counts_ :=
      [((test_feature, 3), 3), ((test_feature, 5), 2),
       (({ hash_ := 8, size_ := 1 }, 3), 3), (({ hash_ := 256, size_ := 2 }, 3), 3),
       (({ hash_ := 11, size_ := 1 }, 5), 2), (({ hash_ := 352, size_ := 2 }, 5), 2)],
    feature_stats_ := [], value_stats_ := [], deltas_ := [] }

/-- The counter `beam_counter` after `EndAdding` with the Witten-Bell smoothing. -/
def beam_counter_ended : PerFeatureValueCounter :=
  { feature_value_counts_ := beam_counter.feature_value_counts_,
    feature_stats_ :=
      [(test_feature,
        { total_count_ := 5, unique_count_ := 2, sorted_by_prob_ := [(3 / 5, 0), (2 / 5, 1)],
          counts_ := [0, 0, 1, 1] }),
       ({ hash_ := 8, size_ := 1 },
        { total_count_ := 3, unique_count_ := 1, sorted_by_prob_ := [(1, 2)],
          counts_ := [0, 0, 0, 1] }),
       ({ hash_ := 256, size_ := 2 },
        { total_count_ := 3, unique_count_ := 1, sorted_by_prob_ := [(1, 3)],
          counts_ := [0, 0, 0, 1] }),
       ({ hash_ := 11, size_ := 1 },
        { total_count_ := 2, unique_count_ := 1, sorted_by_prob_ := [(1, 4)],
          counts_ := [0, 0, 1, 0] }),
       ({ hash_ := 352, size_ := 2 },
        { total_count_ := 2, unique_count_ := 1, sorted_by_prob_ := [(1, 5)],
          counts_ := [0, 0, 1, 0] })],
    value_stats_ := [], deltas_ := [] }

/-- The traversal after the context program of `context_model` for the sample `teq_sample`: at
the node 3, the parent of the sample. -/
def beam_traversal_end : SlicedTreeTraversal :=
  { storage_ := some 0, position_ := 3, slice_ := some teq_slice,
    last_subtree_position_ := -1, last_subtree_ := none }

/-! # Part II: theorems -/

/-! ## Type labels: bitwise facts -/

theorem and_two_pow_eq (u k : Nat) : u &&& 2 ^ k = 2 ^ k * (u / 2 ^ k % 2) := by
  apply Nat.eq_of_testBit_eq
  intro i
  rw [Nat.testBit_and, Nat.testBit_two_pow]
  rcases Nat.mod_two_eq_zero_or_one (u / 2 ^ k) with h | h
  · rw [h]
    by_cases hik : k = i
    · subst hik
      simp [Nat.testBit_to_div_mod, h]
    · simp [hik]
  · rw [h, Nat.mul_one, Nat.testBit_two_pow]
    by_cases hik : k = i
    · subst hik
      simp [Nat.testBit_to_div_mod, h]
    · simp [hik]

theorem or_two_pow_eq (y k : Nat) (h : y < 2 ^ k) : y ||| 2 ^ k = y + 2 ^ k := by
  have := Nat.mul_add_lt_is_or h 1
  rw [Nat.mul_one] at this
  rw [Nat.or_comm, ← this, Nat.add_comm]

theorem and_mask30 (u : Nat) : u &&& 0x3fffffff = u % 1073741824 := by
  have := Nat.and_pow_two_sub_one_eq_mod u 30
  norm_num at this
  exact this

theorem and_bit29 (u : Nat) : u &&& 0x20000000 = 536870912 * (u / 536870912 % 2) := by
  have := and_two_pow_eq u 29
  norm_num at this
  exact this

theorem and_bit30 (u : Nat) : u &&& 0x40000000 = 1073741824 * (u / 1073741824 % 2) := by
  have := and_two_pow_eq u 30
  norm_num at this
  exact this

theorem and_bit31 (u : Nat) : u &&& 0x80000000 = 2147483648 * (u / 2147483648 % 2) := by
  have := and_two_pow_eq u 31
  norm_num at this
  exact this

theorem or_bit30 (y : Nat) (h : y < 1073741824) : y ||| 0x40000000 = y + 1073741824 := by
  have := or_two_pow_eq y 30 (by norm_num; exact h)
  norm_num at this
  exact this

theorem or_bit31 (y : Nat) (h : y < 2147483648) : y ||| 0x80000000 = y + 2147483648 := by
  have := or_two_pow_eq y 31 (by norm_num; exact h)
  norm_num at this
  exact this

theorem or_sign_ext (y : Nat) (h : y < 536870912) :
    (y + 536870912) ||| 0xe0000000 = y + 3758096384 := by
  have h1 : y < 2 ^ 29 := by norm_num; exact h
  have e1 := Nat.mul_add_lt_is_or h1 1
  have e7 := Nat.mul_add_lt_is_or h1 7
  norm_num at e1 e7
  have : y + 536870912 = 536870912 ||| y := by omega
  rw [this, Nat.or_comm 536870912 y, Nat.or_assoc]
  have c : (536870912 ||| 3758096384 : Nat) = 3758096384 := by decide
  rw [c, Nat.or_comm, ← e7]
  omega

theorem toUnsigned_lt (i : Int) : toUnsigned i < 4294967296 := by
  unfold toUnsigned; omega

theorem toSigned_toUnsigned (i : Int) (h1 : -2147483648 ≤ i) (h2 : i < 2147483648) :
    toSigned (toUnsigned i) = i := by
  unfold toSigned toUnsigned; split <;> omega

/-- The unsigned value of the encoder before the final conversion to int. -/
theorem encode_unsigned (t : Int) (f r : Bool) :
    (let x := toUnsigned t &&& 0x3fffffff
     let x := if f then x ||| 0x40000000 else x
     if r then x ||| 0x80000000 else x)
      = toUnsigned t % 1073741824 + (if f then 1073741824 else 0) + (if r then 2147483648 else 0) := by
  have hm : toUnsigned t % 1073741824 < 1073741824 := Nat.mod_lt _ (by norm_num)
  simp only [and_mask30]
  cases f <;> cases r <;> simp
  · rw [or_bit31 _ (by omega)]
  · rw [or_bit30 _ hm]
  · rw [or_bit30 _ hm, or_bit31 _ (by omega)]

theorem decode_of_unsigned (e : Int) :
    DecodeTypeLabel e =
      { type := if toUnsigned e % 1073741824 < 536870912 then ((toUnsigned e % 1073741824 : Nat) : Int)
                else ((toUnsigned e % 1073741824 : Nat) : Int) - 1073741824,
        has_first_child := decide (toUnsigned e / 1073741824 % 2 = 1),
        has_right_sib := decide (toUnsigned e / 2147483648 % 2 = 1) } := by
  have hu := toUnsigned_lt e
  unfold DecodeTypeLabel
  simp only [and_mask30, and_bit29, and_bit30, and_bit31]
  generalize toUnsigned e = u at hu ⊢
  have hm : u % 1073741824 < 1073741824 := Nat.mod_lt _ (by norm_num)
  congr 1
  · by_cases hb : u % 1073741824 < 536870912
    · have : u % 1073741824 / 536870912 % 2 = 0 := by omega
      simp [this, hb, toSigned]
      omega
    · have h29 : u % 1073741824 / 536870912 % 2 = 1 := by omega
      have hy : u % 1073741824 = (u % 1073741824 - 536870912) + 536870912 := by omega
      simp only [h29, hb, if_false]
      have hor := or_sign_ext (u % 1073741824 - 536870912) (by omega)
      rw [← hy] at hor
      simp [hor, toSigned]
      omega
  · rcases Nat.mod_two_eq_zero_or_one (u / 1073741824) with h | h <;> simp [h]
  · rcases Nat.mod_two_eq_zero_or_one (u / 2147483648) with h | h <;> simp [h]

theorem toUnsigned_toSigned (n : Nat) : toUnsigned (toSigned n) = n % 4294967296 := by
  unfold toSigned toUnsigned; split <;> omega

theorem decode_encode (l : TreeSubstitutionOnlyLabel)
    (h1 : -536870912 ≤ l.type) (h2 : l.type < 536870912) :
    (EncodeTypeLabel l).map DecodeTypeLabel = some l := by
  obtain ⟨t, f, r⟩ := l
  simp only at h1 h2
  have hle : t ≤ 0x1fffffff := by omega
  unfold EncodeTypeLabel
  simp only [hle, if_true, Option.map_some']
  have hx := encode_unsigned t f r
  simp only at hx
  rw [hx, decode_of_unsigned, toUnsigned_toSigned]
  have ht : ((toUnsigned t : Nat) : Int) = t % 4294967296 := by
    unfold toUnsigned; omega
  generalize toUnsigned t = u at ht ⊢
  congr 1
  cases f <;> cases r <;> simp <;> refine ⟨?_, ?_, ?_⟩ <;> (try split) <;> omega

theorem encode_decode (x : Int) (h1 : -2147483648 ≤ x) (h2 : x < 2147483648) :
    EncodeTypeLabel (DecodeTypeLabel x) = some x := by
  rw [decode_of_unsigned]
  have hx : ((toUnsigned x : Nat) : Int) = x % 4294967296 := by
    unfold toUnsigned; omega
  have hu := toUnsigned_lt x
  generalize toUnsigned x = u at hx hu ⊢
  unfold EncodeTypeLabel
  have hle : (if u % 1073741824 < 536870912 then ((u % 1073741824 : Nat) : Int)
                else ((u % 1073741824 : Nat) : Int) - 1073741824) ≤ 0x1fffffff := by
    split <;> omega
  simp only [hle, if_true]
  have he := encode_unsigned (if u % 1073741824 < 536870912 then ((u % 1073741824 : Nat) : Int)
                else ((u % 1073741824 : Nat) : Int) - 1073741824)
                (decide (u / 1073741824 % 2 = 1)) (decide (u / 2147483648 % 2 = 1))
  simp only at he
  rw [he]
  have ht : toUnsigned (if u % 1073741824 < 536870912 then ((u % 1073741824 : Nat) : Int)
                else ((u % 1073741824 : Nat) : Int) - 1073741824) % 1073741824 = u % 1073741824 := by
    unfold toUnsigned; split <;> omega
  rw [ht]
  congr 1
  unfold toSigned
  rcases Nat.mod_two_eq_zero_or_one (u / 1073741824) with h30 | h30 <;>
  rcases Nat.mod_two_eq_zero_or_one (u / 2147483648) with h31 | h31 <;>
  simp [h30, h31] <;> (try split) <;> omega

/-- C1: `EncodeTypeLabel` and `DecodeTypeLabel` are mutual inverses. For a label whose type lies
in `[-2^29, 2^29)` encoding succeeds and decoding the result gives the label back; for every
32-bit integer `x` the decoded type passes the encoder's `type <= 0x1fffffff` check and encoding
the decoded label gives `x` back. -/
theorem EncodeTypeLabel_DecodeTypeLabel_inverse (l : TreeSubstitutionOnlyLabel) (x : Int)
    (hl1 : -536870912 ≤ l.type) (hl2 : l.type < 536870912)
    (hx1 : -2147483648 ≤ x) (hx2 : x < 2147483648) :
    (EncodeTypeLabel l).map DecodeTypeLabel = some l ∧
    (DecodeTypeLabel x).type ≤ 0x1fffffff ∧
    EncodeTypeLabel (DecodeTypeLabel x) = some x := by
  refine ⟨decode_encode l hl1 hl2, ?_, encode_decode x hx1 hx2⟩
  have h := encode_decode x hx1 hx2
  unfold EncodeTypeLabel at h
  by_contra hc
  simp [hc] at h

/-- Witness for C1 at the label `(-2, true, false)` and the encoded integer `-5`. -/
theorem EncodeTypeLabel_DecodeTypeLabel_inverse_witness :
    (EncodeTypeLabel ⟨-2, true, false⟩).map DecodeTypeLabel = some ⟨-2, true, false⟩ ∧
    (DecodeTypeLabel (-5)).type ≤ 0x1fffffff ∧
    EncodeTypeLabel (DecodeTypeLabel (-5)) = some (-5) :=
  EncodeTypeLabel_DecodeTypeLabel_inverse ⟨-2, true, false⟩ (-5)
    (by decide) (by decide) (by decide) (by decide)

/-! ## Decimal numbers -/

theorem digitVal_digitChar (d : Nat) (h : d < 10) : digitVal (digitChar d) = some d := by
  interval_cases d <;> rfl

theorem digitChar_isSome (d : Nat) : (digitVal (digitChar d)).isSome = true := by
  by_cases h : d < 10
  · rw [digitVal_digitChar d h]; rfl
  · have : digitChar d = '9' := by
      unfold digitChar
      split <;> first | omega | rfl
    rw [this]; rfl

theorem natToDecAux_digits (fuel n : Nat) : ∀ c ∈ natToDecAux fuel n, (digitVal c).isSome = true := by
  induction fuel generalizing n with
  | zero => intro c hc; simp [natToDecAux] at hc
  | succ f ih =>
    intro c hc
    unfold natToDecAux at hc
    split at hc
    · simp at hc; subst hc; exact digitChar_isSome n
    · simp at hc
      rcases hc with hc | hc
      · exact ih _ c hc
      · subst hc; exact digitChar_isSome _

theorem natToDecAux_ne_nil (fuel n : Nat) : natToDecAux (fuel + 1) n ≠ [] := by
  unfold natToDecAux
  split <;> simp

theorem natToDecAux_value (fuel n : Nat) (h : n < fuel) : digitsValue (natToDecAux fuel n) 0 = n := by
  induction fuel generalizing n with
  | zero => omega
  | succ f ih =>
    unfold natToDecAux
    split
    · rename_i h10
      simp [digitsValue, digitVal_digitChar n h10]
    · rename_i h10
      have hlt : n / 10 < f := by omega
      have := ih (n / 10) hlt
      unfold digitsValue at this ⊢
      rw [List.foldl_append, this]
      simp [digitVal_digitChar (n % 10) (Nat.mod_lt _ (by norm_num))]
      omega

theorem parseDigitsAux_append (xs ys : Str) (acc : Nat)
    (h : ∀ c ∈ xs, (digitVal c).isSome = true) :
    parseDigitsAux (xs ++ ys) acc = parseDigitsAux ys (digitsValue xs acc) := by
  induction xs generalizing acc with
  | nil => rfl
  | cons c cs ih =>
    have hc := h c (by simp)
    obtain ⟨d, hd⟩ := Option.isSome_iff_exists.mp hc
    have e : parseDigitsAux ((c :: cs) ++ ys) acc = parseDigitsAux (cs ++ ys) (acc * 10 + d) := by
      simp only [List.cons_append, parseDigitsAux, hd]
      rfl
    rw [e, ih _ (fun c hc => h c (by simp [hc]))]
    simp [digitsValue, hd]

theorem parseDigitsAux_noDigitHead (s : Str) (acc : Nat) (h : noDigitHead s) :
    parseDigitsAux s acc = (acc, s) := by
  cases s with
  | nil => rfl
  | cons c cs =>
    have := h c (by simp)
    simp [parseDigitsAux, this]

theorem parseNatPrefix_natToDec (n : Nat) (rest : Str) (h : noDigitHead rest) :
    parseNatPrefix (natToDec n ++ rest) = some (n, rest) := by
  unfold natToDec
  have hne := natToDecAux_ne_nil n n
  have hd := natToDecAux_digits (n + 1) n
  cases hx : natToDecAux (n + 1) n with
  | nil => exact absurd hx hne
  | cons c cs =>
    have hc : (digitVal c).isSome = true := hd c (by simp [hx])
    simp only [List.cons_append, parseNatPrefix, hc, if_true]
    rw [← List.cons_append, ← hx, parseDigitsAux_append _ _ _ hd, natToDecAux_value _ _ (by omega),
      parseDigitsAux_noDigitHead _ _ h]

theorem natToDec_head (n : Nat) : ∃ c cs, natToDec n = c :: cs ∧ (digitVal c).isSome = true := by
  unfold natToDec
  have hne := natToDecAux_ne_nil n n
  have hd := natToDecAux_digits (n + 1) n
  cases hx : natToDecAux (n + 1) n with
  | nil => exact absurd hx hne
  | cons c cs => exact ⟨c, cs, rfl, hd c (by simp [hx])⟩

theorem parseSignedPrefix_intToDec (i : Int) (rest : Str) (h : noDigitHead rest) :
    parseSignedPrefix (intToDec i ++ rest) = some (i, rest) := by
  unfold intToDec
  split
  · rename_i hneg
    simp only [List.cons_append, parseSignedPrefix, if_true]
    rw [parseNatPrefix_natToDec _ _ h]
    simp
    omega
  · rename_i hpos
    obtain ⟨c, cs, hcs, hc⟩ := natToDec_head i.toNat
    have hm : c ≠ '-' := by rintro rfl; revert hc; decide
    have hp : c ≠ '+' := by rintro rfl; revert hc; decide
    have := parseNatPrefix_natToDec i.toNat rest h
    rw [hcs] at this ⊢
    simp only [List.cons_append, parseSignedPrefix, hm, hp, if_false] at this ⊢
    rw [this]
    simp
    omega

theorem intToDec_chars (i : Int) : ∀ c ∈ intToDec i, isDecChar c = true := by
  intro c hc
  unfold intToDec at hc
  unfold isDecChar
  split at hc
  · simp at hc
    rcases hc with hc | hc
    · simp [hc]
    · simp [natToDecAux_digits _ _ c hc]
  · simp [natToDecAux_digits _ _ c hc]

theorem intToDec_head (i : Int) : ∃ c cs, intToDec i = c :: cs ∧ isDecChar c = true := by
  unfold intToDec
  split
  · exact ⟨'-', _, rfl, rfl⟩
  · obtain ⟨c, cs, hcs, hc⟩ := natToDec_head i.toNat
    exact ⟨c, cs, hcs, by simp [isDecChar, hc]⟩

theorem isDecChar_not_space (c : Char) (h : isDecChar c = true) : isCSpace c = false := by
  cases hs : isCSpace c with
  | false => rfl
  | true =>
    simp only [isCSpace, Bool.or_eq_true, beq_iff_eq] at hs
    rcases hs with ((((rfl | rfl) | rfl) | rfl) | rfl) | rfl <;> revert h <;> decide

theorem scanInt_intToDec (i : Int) (rest : Str) (h : noDigitHead rest) (hr : inInt32 i = true) :
    scanInt (intToDec i ++ rest) = some (i, rest) := by
  obtain ⟨c, cs, hcs, hc⟩ := intToDec_head i
  have hsp := isDecChar_not_space c hc
  unfold scanInt
  have : (intToDec i ++ rest).dropWhile isCSpace = intToDec i ++ rest := by
    rw [hcs]; simp [List.dropWhile, hsp]
  rw [this, parseSignedPrefix_intToDec i rest h]
  simp [hr]

theorem stoi_intToDec (i : Int) (hr : inInt32 i = true) : stoi (intToDec i) = some i := by
  have := scanInt_intToDec i [] (by intro c hc; simp at hc) hr
  simp at this
  simp [stoi, this]

theorem ParseInt32_intToDec (i : Int) (hr : inInt32 i = true) : ParseInt32 (intToDec i) = some i := by
  have := parseSignedPrefix_intToDec i [] (by intro c hc; simp at hc)
  simp at this
  simp [ParseInt32, this, hr]

theorem OpCmdStr_chars (cmd : OpCmd) : ∀ c ∈ OpCmdStr cmd, isNameChar c = true := by
  cases cmd <;> decide

theorem OpCmdStr_ne_nil (cmd : OpCmd) : OpCmdStr cmd ≠ [] := by
  cases cmd <;> decide

theorem find_OpCmdStr (cmd : OpCmd) (h : cmd ≠ .LAST_OP_CMD) :
    opCmdsInOrder.find? (fun i => OpCmdStr i == OpCmdStr cmd) = some cmd := by
  cases cmd <;> first | rfl | exact absurd rfl h

theorem intercalate_cons_map (sep : List α) (a : List α) (l : List (List α)) :
    sep.intercalate (a :: l) = a ++ (l.map (fun x => sep ++ x)).flatten := by
  induction l generalizing a with
  | nil => simp [List.intercalate]
  | cons b l ih =>
    have := ih b
    simp only [List.intercalate, List.intersperse_cons₂, List.flatten_cons, List.map_cons] at this ⊢
    rw [this]
    simp

theorem ProgramToStringLoop_false (p : Program) (result : Str) :
    ProgramToStringLoop p result false = result ++ (p.map (fun op => [' '] ++ tokText op)).flatten := by
  induction p generalizing result with
  | nil => simp [ProgramToStringLoop]
  | cons op p ih =>
    simp only [ProgramToStringLoop, ih, opToString, tokText, List.map_cons, List.flatten_cons]
    simp

theorem ProgramToString_eq (p : Program) :
    ProgramToString p = [' '].intercalate (p.map tokText) := by
  cases p with
  | nil => rfl
  | cons op p =>
    rw [List.map_cons, intercalate_cons_map, List.map_map]
    simp only [ProgramToString, ProgramToStringLoop, ProgramToStringLoop_false, opToString, tokText]
    simp [Function.comp_def, tokText]

theorem tokText_chars (op : Op) : ∀ c ∈ tokText op, isProgChar c = true := by
  intro c hc
  unfold tokText at hc
  rw [List.mem_append] at hc
  rcases hc with hc | hc
  · simp [isProgChar, OpCmdStr_chars _ c hc]
  · split at hc
    · simp at hc
      rcases hc with hc | hc
      · simp [isProgChar, hc]
      · simp [isProgChar, intToDec_chars _ c hc]
    · simp at hc

theorem tokText_ne_nil (op : Op) : tokText op ≠ [] := by
  unfold tokText
  simp [OpCmdStr_ne_nil]

theorem isProgChar_ne_space (c : Char) (h : isProgChar c = true) : c ≠ ' ' := by
  rintro rfl; revert h; decide

theorem isNameChar_ne_at (c : Char) (h : isNameChar c = true) : c ≠ '@' := by
  rintro rfl; revert h; decide

theorem isDecChar_ne_at (c : Char) (h : isDecChar c = true) : c ≠ '@' := by
  rintro rfl; revert h; decide

theorem parseOp_tokText (op : Op) (hc : op.cmd ≠ .LAST_OP_CMD) (hr : inInt32 op.extra_data = true) :
    parseOp (tokText op) = some op := by
  obtain ⟨cmd, e⟩ := op
  simp only at hc hr
  unfold parseOp tokText SplitStringUsing
  by_cases he : e = -1
  · subst he
    have hs : (OpCmdStr cmd).splitOn '@' = [OpCmdStr cmd] := by
      have := List.splitOn_intercalate [OpCmdStr cmd] '@'
        (by
          intro l hl
          simp at hl
          subst hl
          intro hm
          exact isNameChar_ne_at _ (OpCmdStr_chars cmd _ hm) rfl)
        (by simp)
      simpa [List.intercalate] using this
    simp [hs, find_OpCmdStr cmd hc]
  · have hs : (OpCmdStr cmd ++ '@' :: intToDec e).splitOn '@' = [OpCmdStr cmd, intToDec e] := by
      have := List.splitOn_intercalate [OpCmdStr cmd, intToDec e] '@'
        (by
          intro l hl
          simp at hl
          rcases hl with hl | hl
          · subst hl
            intro hm
            exact isNameChar_ne_at _ (OpCmdStr_chars cmd _ hm) rfl
          · subst hl
            intro hm
            exact isDecChar_ne_at _ (intToDec_chars e _ hm) rfl)
        (by simp)
      simpa [List.intercalate] using this
    simp [he, hs, find_OpCmdStr cmd hc, stoi_intToDec e hr]

theorem mapM_parseOp (p : Program) (h : ∀ op ∈ p, ValidOp op) :
    (p.map tokText).mapM parseOp = some p := by
  induction p with
  | nil => rfl
  | cons op p ih =>
    have h1 := h op (by simp)
    rw [List.map_cons, List.mapM_cons, parseOp_tokText op h1.1 h1.2, ih (fun o ho => h o (by simp [ho]))]
    rfl

theorem ParseStringToProgramOrDie_ProgramToString (p : Program) (h : ∀ op ∈ p, ValidOp op) :
    ParseStringToProgramOrDie (ProgramToString p) = some p := by
  unfold ParseStringToProgramOrDie SplitStringUsing
  cases p with
  | nil => rfl
  | cons op p =>
    have hne : ProgramToString (op :: p) ≠ [] := by
      rw [ProgramToString_eq, List.map_cons, intercalate_cons_map]
      simp [tokText_ne_nil]
    simp only [hne, ne_eq, not_false_eq_true, if_true]
    have hx : ∀ l ∈ (op :: p).map tokText, ' ' ∉ l := by
      intro l hl hm
      simp only [List.mem_map] at hl
      obtain ⟨o, _, rfl⟩ := hl
      exact isProgChar_ne_space _ (tokText_chars o _ hm) rfl
    rw [ProgramToString_eq, List.splitOn_intercalate _ ' ' hx (by simp)]
    exact mapM_parseOp _ h

/-! ## `find` and trimming -/

theorem isPrefixOf_cons_ne (c x : Char) (pat s : Str) (h : c ≠ x) :
    (c :: pat).isPrefixOf (x :: s) = false := by
  simp [List.isPrefixOf, h]

theorem findFrom_none (c : Char) (pat s : Str) (i : Nat) (h : c ∉ s) :
    findFrom (c :: pat) s i = none := by
  induction s generalizing i with
  | nil => simp [findFrom]
  | cons x s ih =>
    have hx : c ≠ x := fun e => h (by simp [e])
    have hs : c ∉ s := fun e => h (by simp [e])
    simp [findFrom, isPrefixOf_cons_ne c x pat s hx, ih _ hs]

theorem isPrefixOf_append_self (pat b : Str) : pat.isPrefixOf (pat ++ b) = true := by
  induction pat with
  | nil => simp [List.isPrefixOf]
  | cons c pat ih => simp [List.isPrefixOf, ih]

theorem findFrom_append (c : Char) (pat a b : Str) (i : Nat) (h : c ∉ a) :
    findFrom (c :: pat) (a ++ (c :: pat) ++ b) i = some (i + a.length) := by
  induction a generalizing i with
  | nil =>
    have := isPrefixOf_append_self (c :: pat) b
    simp only [List.nil_append, List.cons_append] at this ⊢
    simp [findFrom, this]
  | cons x a ih =>
    have hx : c ≠ x := fun e => h (by simp [e])
    have hs : c ∉ a := fun e => h (by simp [e])
    have := ih (i + 1) hs
    simp only [List.cons_append, List.append_assoc] at this ⊢
    simp only [findFrom, isPrefixOf_cons_ne c x pat _ hx]
    simp [this]
    omega

theorem dropWhile_space_of_head (s : Str) (h : ∀ c ∈ s.head?, c ≠ ' ') :
    s.dropWhile (· == ' ') = s := by
  cases s with
  | nil => rfl
  | cons c s =>
    have := h c (by simp)
    have e : (c == ' ') = false := by simpa using this
    simp [List.dropWhile, e]

theorem Trim_of_noEdgeSpace (s : Str) (h : noEdgeSpace s) : TrimLeadingAndTrailingSpaces s = s := by
  unfold TrimLeadingAndTrailingSpaces
  rw [dropWhile_space_of_head s h.1, dropWhile_space_of_head s.reverse]
  · simp
  · intro c hc
    rw [List.head?_reverse] at hc
    exact h.2 c hc

theorem Trim_cons_space (s : Str) :
    TrimLeadingAndTrailingSpaces (' ' :: s) = TrimLeadingAndTrailingSpaces s := by
  simp [TrimLeadingAndTrailingSpaces, List.dropWhile]

theorem Trim_append_space (s : Str) (hne : s ≠ []) (h : noEdgeSpace s) :
    TrimLeadingAndTrailingSpaces (s ++ [' ']) = s := by
  unfold TrimLeadingAndTrailingSpaces
  have h1 : (s ++ [' ']).dropWhile (· == ' ') = s ++ [' '] := by
    apply dropWhile_space_of_head
    intro c hc
    cases s with
    | nil => exact absurd rfl hne
    | cons x s => exact h.1 c (by simpa using hc)
  rw [h1, List.reverse_append]
  simp only [List.reverse_cons, List.reverse_nil, List.nil_append, List.singleton_append]
  have h2 : (' ' :: s.reverse).dropWhile (· == ' ') = s.reverse.dropWhile (· == ' ') := by
    simp [List.dropWhile]
  rw [h2, dropWhile_space_of_head s.reverse]
  · simp
  · intro c hc
    rw [List.head?_reverse] at hc
    exact h.2 c hc

theorem noEdgeSpace_nil : noEdgeSpace [] := by
  constructor <;> intro c hc <;> simp at hc

theorem getLast_words (l : List Str) (a : Str) (ha : a ≠ [] ∧ ' ' ∉ a)
    (h : ∀ w ∈ l, w ≠ [] ∧ ' ' ∉ w) :
    ∀ c ∈ (a ++ (l.map (fun x => [' '] ++ x)).flatten).getLast?, c ≠ ' ' := by
  induction l generalizing a with
  | nil =>
    intro c hc e
    subst e
    simp only [List.map_nil, List.flatten_nil, List.append_nil] at hc
    exact ha.2 (List.mem_of_mem_getLast? hc)
  | cons b l ih =>
    have hb := h b (by simp)
    have hne : b ++ (l.map (fun x => [' '] ++ x)).flatten ≠ [] := by simp [hb.1]
    have e : a ++ ((b :: l).map (fun x => [' '] ++ x)).flatten
        = (a ++ [' ']) ++ (b ++ (l.map (fun x => [' '] ++ x)).flatten) := by simp
    rw [e, List.getLast?_append_of_ne_nil _ hne]
    exact ih b hb (fun w hw => h w (by simp [hw]))

/-- A space-separated sequence of non-empty space-free words. -/
theorem noEdgeSpace_intercalate (l : List Str) (h : ∀ w ∈ l, w ≠ [] ∧ ' ' ∉ w) :
    noEdgeSpace ([' '].intercalate l) := by
  cases l with
  | nil => constructor <;> intro c hc <;> simp [List.intercalate] at hc
  | cons a l =>
    have ha := h a (by simp)
    rw [intercalate_cons_map]
    constructor
    · cases a with
      | nil => exact absurd rfl ha.1
      | cons x a =>
        intro c hc
        simp at hc
        subst hc
        intro e
        exact ha.2 (by simp [e])
    · exact getLast_words l a ha (fun w hw => h w (by simp [hw]))

theorem tokText_word (op : Op) : tokText op ≠ [] ∧ ' ' ∉ tokText op :=
  ⟨tokText_ne_nil op, fun hm => isProgChar_ne_space _ (tokText_chars op _ hm) rfl⟩

theorem noEdgeSpace_ProgramToString (p : Program) : noEdgeSpace (ProgramToString p) := by
  rw [ProgramToString_eq]
  apply noEdgeSpace_intercalate
  intro w hw
  simp only [List.mem_map] at hw
  obtain ⟨o, _, rfl⟩ := hw
  exact tokText_word o

/-- Every character of a serialized program is a program character or a space. -/
theorem ProgramToString_chars (p : Program) :
    ∀ c ∈ ProgramToString p, isProgChar c = true ∨ c = ' ' := by
  rw [ProgramToString_eq]
  cases p with
  | nil => intro c hc; simp [List.intercalate] at hc
  | cons op p =>
    rw [List.map_cons, intercalate_cons_map]
    intro c hc
    simp only [List.mem_append, List.mem_flatten, List.mem_map] at hc
    rcases hc with hc | ⟨l, ⟨t, ht, rfl⟩, hc⟩
    · exact Or.inl (tokText_chars op c hc)
    · obtain ⟨o, _, rfl⟩ := ht
      simp at hc
      rcases hc with hc | hc
      · exact Or.inr hc
      · exact Or.inl (tokText_chars o c hc)

theorem ProgramToString_ne_nil (op : Op) (p : Program) : ProgramToString (op :: p) ≠ [] := by
  rw [ProgramToString_eq, List.map_cons, intercalate_cons_map]
  simp [tokText_ne_nil]

theorem ProgramToString_head (op : Op) (p : Program) :
    ∃ c cs, ProgramToString (op :: p) = c :: cs ∧ isNameChar c = true := by
  rw [ProgramToString_eq, List.map_cons, intercalate_cons_map]
  unfold tokText
  cases hx : OpCmdStr op.cmd with
  | nil => exact absurd hx (OpCmdStr_ne_nil _)
  | cons c cs =>
    refine ⟨c, _, by simp; rfl, OpCmdStr_chars op.cmd c (by simp [hx])⟩

/-! ## Simple condition programs -/

theorem isProgChar_ne_eqsign (c : Char) (h : isProgChar c = true ∨ c = ' ') : c ≠ '=' := by
  rintro rfl
  rcases h with h | h
  · revert h; decide
  · revert h; decide

theorem ProgramToString_no_eqsign (p : Program) : '=' ∉ ProgramToString p :=
  fun hm => isProgChar_ne_eqsign _ (ProgramToString_chars p _ hm) rfl

theorem ProgramToString_ne_empty_word (op : Op) (p : Program) (rest : Str) :
    ProgramToString (op :: p) ++ rest ≠ "empty".toList := by
  obtain ⟨c, cs, hcs, hc⟩ := ProgramToString_head op p
  rw [hcs]
  intro e
  have : c = 'e' := by
    have := congrArg List.head? e
    simpa using this
  subst this
  revert hc
  decide

theorem SimpleCondProgram_parse_toString (p prev : SimpleCondProgram)
    (he : ∀ op ∈ p.eq_program, ValidOp op) (hc : ∀ op ∈ p.context_program, ValidOp op) :
    prev.ParseFromStringOrDie p.ToString = some p := by
  obtain ⟨eq, ctx⟩ := p
  simp only at he hc
  cases eq with
  | nil =>
    cases ctx with
    | nil => rfl
    | cons o ctx =>
      have hne := ProgramToString_ne_empty_word o ctx []
      rw [List.append_nil] at hne
      have hf : strFind (ProgramToString (o :: ctx)) "=eq=".toList = none :=
        findFrom_none '=' _ _ 0 (ProgramToString_no_eqsign _)
      simp only [SimpleCondProgram.ToString, List.isEmpty_nil, List.isEmpty_cons, if_true,
        Bool.false_eq_true, if_false, SimpleCondProgram.ParseFromStringOrDie, hne, hf]
      rw [ParseStringToProgramOrDie_ProgramToString _ hc]
      rfl
  | cons o eq =>
    have hne := ProgramToString_ne_empty_word o eq (" =eq= ".toList ++ ProgramToString ctx)
    rw [← List.append_assoc] at hne
    have htxt : ProgramToString (o :: eq) ++ " =eq= ".toList ++ ProgramToString ctx
        = (ProgramToString (o :: eq) ++ [' ']) ++ "=eq=".toList ++ (' ' :: ProgramToString ctx) := by
      simp
    have hno : '=' ∉ ProgramToString (o :: eq) ++ [' '] := by
      intro hm
      rw [List.mem_append] at hm
      rcases hm with hm | hm
      · exact ProgramToString_no_eqsign _ hm
      · revert hm; decide
    have hf : strFind (ProgramToString (o :: eq) ++ " =eq= ".toList ++ ProgramToString ctx)
        "=eq=".toList = some ((ProgramToString (o :: eq)).length + 1) := by
      rw [htxt]
      have := findFrom_append '=' "eq=".toList (ProgramToString (o :: eq) ++ [' '])
        (' ' :: ProgramToString ctx) 0 hno
      simpa [strFind] using this
    have htake : (ProgramToString (o :: eq) ++ " =eq= ".toList ++ ProgramToString ctx).take
        ((ProgramToString (o :: eq)).length + 1) = ProgramToString (o :: eq) ++ [' '] := by
      rw [htxt, List.append_assoc, List.take_append_eq_append_take]
      simp
    have hdrop : (ProgramToString (o :: eq) ++ " =eq= ".toList ++ ProgramToString ctx).drop
        ((ProgramToString (o :: eq)).length + 1 + 4) = ' ' :: ProgramToString ctx := by
      have e : ProgramToString (o :: eq) ++ " =eq= ".toList ++ ProgramToString ctx
          = (ProgramToString (o :: eq) ++ " =eq=".toList) ++ (' ' :: ProgramToString ctx) := by
        simp
      rw [e, List.drop_append_eq_append_drop]
      simp
    have hT : (SimpleCondProgram.mk (o :: eq) ctx).ToString
        = ProgramToString (o :: eq) ++ " =eq= ".toList ++ ProgramToString ctx := rfl
    rw [hT]
    unfold SimpleCondProgram.ParseFromStringOrDie
    rw [if_neg hne]
    simp only [hf]
    rw [htake, hdrop, Trim_append_space _ (ProgramToString_ne_nil o eq) (noEdgeSpace_ProgramToString _),
      Trim_cons_space, Trim_of_noEdgeSpace _ (noEdgeSpace_ProgramToString _),
      ParseStringToProgramOrDie_ProgramToString _ he,
      ParseStringToProgramOrDie_ProgramToString _ hc]
    rfl

theorem tokenText_eq_tokText (t : OpCmd × Option Int) (h : CanonicalToken t) :
    tokenText t = tokText (tokenOp t) := by
  obtain ⟨c, o⟩ := t
  cases o with
  | none => simp [tokenText, tokText, tokenOp]
  | some n =>
    have := (h.2 n rfl).2
    simp [tokenText, tokText, tokenOp, this]

theorem tokenOp_valid (t : OpCmd × Option Int) (h : CanonicalToken t) : ValidOp (tokenOp t) := by
  obtain ⟨c, o⟩ := t
  refine ⟨h.1, ?_⟩
  cases o with
  | none => rfl
  | some n => exact (h.2 n rfl).1

/-- C2, as stated, fails: the text `UP@-1` is well formed, it parses, and the parsed program is
serialized as `UP`, which differs from `UP@-1` by more than white space. -/
theorem ParseStringToProgramOrDie_roundtrip_counterexample :
    WellFormedTCondText "UP@-1".toList = true ∧
    ParseStringToProgramOrDie "UP@-1".toList = some [⟨.UP, -1⟩] ∧
    ProgramToString [⟨.UP, -1⟩] = "UP".toList ∧
    wsWords (ProgramToString [⟨.UP, -1⟩]) ≠ wsWords "UP@-1".toList := by
  decide

/-- C2, amended: for a text made of tokens in canonical form (`OPCODE`, or `OPCODE@INT` with
`INT` the decimal form of a 32-bit integer other than `-1`) separated by single spaces, parsing
succeeds, gives the ops that the tokens denote, and serializing them gives the text back. -/
theorem ParseStringToProgramOrDie_roundtrip (toks : List (OpCmd × Option Int))
    (h : ∀ t ∈ toks, CanonicalToken t) :
    ParseStringToProgramOrDie ([' '].intercalate (toks.map tokenText)) = some (toks.map tokenOp) ∧
    ProgramToString (toks.map tokenOp) = [' '].intercalate (toks.map tokenText) := by
  have e : toks.map tokenText = (toks.map tokenOp).map tokText := by
    rw [List.map_map]
    apply List.map_congr_left
    intro t ht
    exact tokenText_eq_tokText t (h t ht)
  have hv : ∀ op ∈ toks.map tokenOp, ValidOp op := by
    intro op hop
    simp only [List.mem_map] at hop
    obtain ⟨t, ht, rfl⟩ := hop
    exact tokenOp_valid t (h t ht)
  rw [e, ← ProgramToString_eq]
  exact ⟨ParseStringToProgramOrDie_ProgramToString _ hv, rfl⟩

/-- Witness for the amended C2 at the text `WRITE_TYPE UP@3 LEFT@-7`. -/
theorem ParseStringToProgramOrDie_roundtrip_witness :
    (∀ t ∈ [(OpCmd.WRITE_TYPE, none), (OpCmd.UP, some 3), (OpCmd.LEFT, some (-7))],
      CanonicalToken t) ∧
    [' '].intercalate
        ([(OpCmd.WRITE_TYPE, none), (OpCmd.UP, some 3), (OpCmd.LEFT, some (-7))].map tokenText)
      = "WRITE_TYPE UP@3 LEFT@-7".toList ∧
    (ParseStringToProgramOrDie ([' '].intercalate
        ([(OpCmd.WRITE_TYPE, none), (OpCmd.UP, some 3), (OpCmd.LEFT, some (-7))].map tokenText))
      = some ([(OpCmd.WRITE_TYPE, none), (OpCmd.UP, some 3), (OpCmd.LEFT, some (-7))].map tokenOp) ∧
    ProgramToString
        ([(OpCmd.WRITE_TYPE, none), (OpCmd.UP, some 3), (OpCmd.LEFT, some (-7))].map tokenOp)
      = [' '].intercalate
        ([(OpCmd.WRITE_TYPE, none), (OpCmd.UP, some 3), (OpCmd.LEFT, some (-7))].map tokenText)) :=
  ⟨by decide, by decide,
   ParseStringToProgramOrDie_roundtrip
     [(OpCmd.WRITE_TYPE, none), (OpCmd.UP, some 3), (OpCmd.LEFT, some (-7))] (by decide)⟩

/-! ## Claims on simple condition programs -/

/-- C5: for every `SimpleCondProgram` built from valid ops, parsing its serialization gives the
program back, whatever the object held before; the empty program serializes to `empty`; a
program with a non-empty eq program and an empty context serializes to `<EQ> =eq= `; and both
`empty` and the empty text parse to the empty program, overwriting the previous content. -/
theorem SimpleCondProgram_roundtrip (p prev : SimpleCondProgram)
    (he : ∀ op ∈ p.eq_program, ValidOp op) (hc : ∀ op ∈ p.context_program, ValidOp op) :
    prev.ParseFromStringOrDie p.ToString = some p ∧
    (SimpleCondProgram.mk [] []).ToString = "empty".toList ∧
    (p.eq_program ≠ [] → p.context_program = [] →
      p.ToString = ProgramToString p.eq_program ++ " =eq= ".toList) ∧
    prev.ParseFromStringOrDie "empty".toList = some ⟨[], []⟩ ∧
    prev.ParseFromStringOrDie [] = some ⟨[], []⟩ := by
  refine ⟨SimpleCondProgram_parse_toString p prev he hc, rfl, ?_, rfl, rfl⟩
  intro h1 h2
  obtain ⟨eq, ctx⟩ := p
  simp only at h1 h2
  subst h2
  cases eq with
  | nil => exact absurd rfl h1
  | cons o eq => simp [SimpleCondProgram.ToString, ProgramToString, ProgramToStringLoop]

/-- Witness for C5 at the program of the test `SaveLoadEmptyCond` (eq program
`LEFT WRITE_VALUE`, empty context), parsed into an object that held `UP` in both programs. -/
theorem SimpleCondProgram_roundtrip_witness :
    (∀ op ∈ (SimpleCondProgram.mk [⟨.LEFT, -1⟩, ⟨.WRITE_VALUE, -1⟩] []).eq_program, ValidOp op) ∧
    (SimpleCondProgram.mk [⟨.LEFT, -1⟩, ⟨.WRITE_VALUE, -1⟩] []).ToString
      = "LEFT WRITE_VALUE =eq= ".toList ∧
    (SimpleCondProgram.mk [⟨.UP, -1⟩] [⟨.UP, -1⟩]).ParseFromStringOrDie
        (SimpleCondProgram.mk [⟨.LEFT, -1⟩, ⟨.WRITE_VALUE, -1⟩] []).ToString
      = some ⟨[⟨.LEFT, -1⟩, ⟨.WRITE_VALUE, -1⟩], []⟩ :=
  ⟨by decide, by decide,
   (SimpleCondProgram_roundtrip ⟨[⟨.LEFT, -1⟩, ⟨.WRITE_VALUE, -1⟩], []⟩ ⟨[⟨.UP, -1⟩], [⟨.UP, -1⟩]⟩
     (by decide) (by decide)).1⟩

/-! ## `std::map` and `std::set` as ordered lists -/

theorem vecLt_irrefl (a : List Int) : vecLt a a = false := by
  induction a with
  | nil => rfl
  | cons x a ih => simp [vecLt, ih]

theorem vecLt_trans (a b c : List Int) (h1 : vecLt a b = true) (h2 : vecLt b c = true) :
    vecLt a c = true := by
  induction a generalizing b c with
  | nil =>
    cases b with
    | nil => simp [vecLt] at h1
    | cons y b =>
      cases c with
      | nil => simp [vecLt] at h2
      | cons z c => rfl
  | cons x a ih =>
    cases b with
    | nil => simp [vecLt] at h1
    | cons y b =>
      cases c with
      | nil => simp [vecLt] at h2
      | cons z c =>
        simp only [vecLt] at h1 h2 ⊢
        by_cases hxy : x < y
        · by_cases hyz : y < z
          · simp [show x < z by omega]
          · by_cases hzy : z < y
            · simp [hyz, hzy] at h2
            · have : y = z := by omega
              subst this
              simp [hxy]
        · by_cases hyx : y < x
          · simp [hxy, hyx] at h1
          · have : x = y := by omega
            subst this
            simp only [hxy, if_false] at h1
            by_cases hyz : x < z
            · simp [hyz]
            · by_cases hzy : z < x
              · simp [hyz, hzy] at h2
              · simp only [hyz, hzy, if_false] at h2 ⊢
                exact ih b c h1 h2

theorem vecLt_total (a b : List Int) (h1 : vecLt a b = false) (h2 : vecLt b a = false) : a = b := by
  induction a generalizing b with
  | nil =>
    cases b with
    | nil => rfl
    | cons y b => simp [vecLt] at h1
  | cons x a ih =>
    cases b with
    | nil => simp [vecLt] at h2
    | cons y b =>
      simp only [vecLt] at h1 h2
      by_cases hxy : x < y
      · simp [hxy] at h1
      · by_cases hyx : y < x
        · simp [hyx] at h2
        · have : x = y := by omega
          subst this
          simp only [hxy, if_false] at h1 h2
          rw [ih b h1 h2]

theorem vecLt_asymm (a b : List Int) (h : vecLt a b = true) : vecLt b a = false := by
  cases hb : vecLt b a with
  | false => rfl
  | true =>
    have := vecLt_trans a b a h hb
    rw [vecLt_irrefl] at this
    exact absurd this (by simp)

theorem mem_mapAssign (m : CaseMap) (k : List Int) (v : Int) (hm : SortedMap m) (e : List Int × Int) :
    e ∈ mapAssign m k v ↔ e = (k, v) ∨ (e ∈ m ∧ e.1 ≠ k) := by
  induction m with
  | nil => simp [mapAssign]
  | cons a m ih =>
    obtain ⟨k', v'⟩ := a
    have hm' : SortedMap m := (List.pairwise_cons.mp hm).2
    have hall := (List.pairwise_cons.mp hm).1
    simp only [mapAssign]
    cases h1 : vecLt k k' with
    | true =>
      simp only [↓reduceIte, List.mem_cons]
      constructor
      · rintro (h | h | h)
        · exact Or.inl h
        · refine Or.inr ⟨Or.inl h, ?_⟩
          intro e1
          rw [h] at e1
          simp only at e1
          rw [e1, vecLt_irrefl] at h1
          exact absurd h1 (by simp)
        · refine Or.inr ⟨Or.inr h, ?_⟩
          intro e1
          have := hall _ h
          simp only at this
          rw [e1] at this
          have := vecLt_trans _ _ _ h1 this
          rw [vecLt_irrefl] at this
          exact absurd this (by simp)
      · rintro (h | ⟨h | h, _⟩)
        · exact Or.inl h
        · exact Or.inr (Or.inl h)
        · exact Or.inr (Or.inr h)
    | false =>
      cases h2 : vecLt k' k with
      | true =>
        simp only [↓reduceIte, Bool.false_eq_true, List.mem_cons, ih hm']
        constructor
        · rintro (h | h | ⟨h, hne⟩)
          · refine Or.inr ⟨Or.inl h, ?_⟩
            intro e1
            rw [h] at e1
            simp only at e1
            rw [e1, vecLt_irrefl] at h2
            exact absurd h2 (by simp)
          · exact Or.inl h
          · exact Or.inr ⟨Or.inr h, hne⟩
        · rintro (h | ⟨h | h, hne⟩)
          · exact Or.inr (Or.inl h)
          · exact Or.inl h
          · exact Or.inr (Or.inr ⟨h, hne⟩)
      | false =>
        have hk : k = k' := vecLt_total k k' h1 h2
        subst hk
        simp only [↓reduceIte, Bool.false_eq_true, List.mem_cons]
        constructor
        · rintro (h | h)
          · exact Or.inl h
          · refine Or.inr ⟨Or.inr h, ?_⟩
            intro e1
            have := hall _ h
            simp only at this
            rw [e1, vecLt_irrefl] at this
            exact absurd this (by simp)
        · rintro (h | ⟨h | h, hne⟩)
          · exact Or.inl h
          · rw [h] at hne
            exact absurd rfl hne
          · exact Or.inr h

theorem sorted_mapAssign (m : CaseMap) (k : List Int) (v : Int) (hm : SortedMap m) :
    SortedMap (mapAssign m k v) := by
  induction m with
  | nil => simp [mapAssign, SortedMap]
  | cons a m ih =>
    obtain ⟨k', v'⟩ := a
    have hm' : SortedMap m := (List.pairwise_cons.mp hm).2
    have hall := (List.pairwise_cons.mp hm).1
    simp only [mapAssign]
    cases h1 : vecLt k k' with
    | true =>
      simp only [↓reduceIte]
      refine List.pairwise_cons.mpr ⟨?_, hm⟩
      intro e he
      rcases List.mem_cons.mp he with h | h
      · rw [h]; exact h1
      · exact vecLt_trans _ _ _ h1 (hall e h)
    | false =>
      cases h2 : vecLt k' k with
      | true =>
        simp only [↓reduceIte, Bool.false_eq_true]
        refine List.pairwise_cons.mpr ⟨?_, ih hm'⟩
        intro e he
        rcases (mem_mapAssign m k v hm' e).mp he with h | ⟨h, _⟩
        · rw [h]; exact h2
        · exact hall e h
      | false =>
        have hk : k = k' := vecLt_total k k' h1 h2
        subst hk
        simp only [↓reduceIte, Bool.false_eq_true]
        exact List.pairwise_cons.mpr ⟨hall, hm'⟩

theorem SortedMap_keys_nodup (m : CaseMap) (hm : SortedMap m) : (m.map Prod.fst).Nodup := by
  unfold SortedMap at hm
  rw [List.Nodup, List.pairwise_map]
  refine hm.imp ?_
  intro a b h e
  rw [e, vecLt_irrefl] at h
  exact absurd h (by simp)

theorem SortedMap_ext (a b : CaseMap) (ha : SortedMap a) (hb : SortedMap b)
    (h : ∀ e, e ∈ a ↔ e ∈ b) : a = b := by
  have na : a.Nodup := List.Nodup.of_map _ (SortedMap_keys_nodup a ha)
  have nb : b.Nodup := List.Nodup.of_map _ (SortedMap_keys_nodup b hb)
  have hp : a.Perm b := (List.perm_ext_iff_of_nodup na nb).mpr h
  haveI : IsAntisymm (List Int × Int) (fun e1 e2 => vecLt e1.1 e2.1 = true) :=
    ⟨fun x y h1 h2 => by
      have := vecLt_asymm _ _ h1
      rw [h2] at this
      exact absurd this (by simp)⟩
  exact List.eq_of_perm_of_sorted hp ha hb

theorem assignAll_spec (l m : CaseMap) (hm : SortedMap m)
    (hl : (l.map Prod.fst).Nodup) (hd : ∀ e ∈ m, ∀ e' ∈ l, e.1 ≠ e'.1) :
    SortedMap (assignAll m l) ∧ ∀ e, e ∈ assignAll m l ↔ e ∈ m ∨ e ∈ l := by
  induction l generalizing m with
  | nil => simp [assignAll, hm]
  | cons a l ih =>
    have hl' : (l.map Prod.fst).Nodup := (List.nodup_cons.mp hl).2
    have ha : a.1 ∉ l.map Prod.fst := (List.nodup_cons.mp hl).1
    have hm1 := sorted_mapAssign m a.1 a.2 hm
    have hd1 : ∀ e ∈ mapAssign m a.1 a.2, ∀ e' ∈ l, e.1 ≠ e'.1 := by
      intro e he e' he'
      rcases (mem_mapAssign m a.1 a.2 hm e).mp he with h | ⟨h, _⟩
      · subst h
        intro e1
        exact ha (List.mem_map.mpr ⟨e', he', e1.symm⟩)
      · exact hd e h e' (by simp [he'])
    obtain ⟨s, hmem⟩ := ih (mapAssign m a.1 a.2) hm1 hl' hd1
    refine ⟨s, ?_⟩
    intro e
    have := hmem e
    simp only [assignAll, List.foldl_cons] at this ⊢
    rw [this, mem_mapAssign m a.1 a.2 hm e]
    constructor
    · rintro ((h | ⟨h, _⟩) | h)
      · exact Or.inr (by simp [h])
      · exact Or.inl h
      · exact Or.inr (by simp [h])
    · rintro (h | h)
      · exact Or.inl (Or.inr ⟨h, hd e h a (by simp)⟩)
      · rcases List.mem_cons.mp h with h | h
        · exact Or.inl (Or.inl (by rw [h]))
        · exact Or.inr h

theorem mem_setInsert (s : List Int) (x y : Int) : y ∈ setInsert s x ↔ y = x ∨ y ∈ s := by
  induction s with
  | nil => simp [setInsert]
  | cons a s ih =>
    simp only [setInsert]
    split
    · simp
    · split
      · simp only [List.mem_cons, ih]
        constructor
        · rintro (h | h | h)
          · exact Or.inr (Or.inl h)
          · exact Or.inl h
          · exact Or.inr (Or.inr h)
        · rintro (h | h | h)
          · exact Or.inr (Or.inl h)
          · exact Or.inl h
          · exact Or.inr (Or.inr h)
      · have : x = a := by omega
        subst this
        simp

theorem sorted_setInsert (s : List Int) (x : Int) (hs : SortedSet s) : SortedSet (setInsert s x) := by
  induction s with
  | nil => simp [setInsert, SortedSet]
  | cons a s ih =>
    have hs' : SortedSet s := (List.pairwise_cons.mp hs).2
    have hall := (List.pairwise_cons.mp hs).1
    simp only [setInsert]
    split
    · rename_i h
      refine List.pairwise_cons.mpr ⟨?_, hs⟩
      intro b hb
      rcases List.mem_cons.mp hb with e | e
      · rw [e]; exact h
      · have := hall b e
        omega
    · split
      · rename_i h1 h2
        refine List.pairwise_cons.mpr ⟨?_, ih hs'⟩
        intro b hb
        rcases (mem_setInsert s x b).mp hb with e | e
        · rw [e]; exact h2
        · exact hall b e
      · exact hs

theorem insertAll_spec (l : CaseMap) (s : List Int) (hs : SortedSet s) :
    SortedSet (l.foldl (fun s it => setInsert s it.2) s) ∧
    ∀ y, y ∈ l.foldl (fun s it => setInsert s it.2) s ↔ y ∈ s ∨ ∃ it ∈ l, it.2 = y := by
  induction l generalizing s with
  | nil => simp [hs]
  | cons a l ih =>
    obtain ⟨h1, h2⟩ := ih (setInsert s a.2) (sorted_setInsert s a.2 hs)
    refine ⟨h1, ?_⟩
    intro y
    simp only [List.foldl_cons]
    rw [h2 y, mem_setInsert]
    constructor
    · rintro ((h | h) | ⟨it, hit, e⟩)
      · exact Or.inr ⟨a, by simp, h.symm⟩
      · exact Or.inl h
      · exact Or.inr ⟨it, by simp [hit], e⟩
    · rintro (h | ⟨it, hit, e⟩)
      · exact Or.inl (Or.inr h)
      · rcases List.mem_cons.mp hit with h | h
        · subst h
          exact Or.inl (Or.inl e.symm)
        · exact Or.inr ⟨it, h, e⟩

theorem caseTargets_spec (p : BranchCondProgram) :
    (caseTargets p).Nodup ∧
    ∀ y, y ∈ caseTargets p ↔ (∃ it ∈ p.per_case_p, it.2 = y) ∧ y ≠ p.p_default := by
  obtain ⟨h1, h2⟩ := insertAll_spec p.per_case_p [] (by simp [SortedSet])
  have h3 := sorted_setInsert _ p.p_default h1
  constructor
  · unfold caseTargets setErase BranchCondProgram.GetReferencedPrograms
    apply List.Nodup.filter
    unfold SortedSet at h3
    rw [List.Nodup]
    exact h3.imp (fun h => by omega)
  · intro y
    unfold caseTargets setErase BranchCondProgram.GetReferencedPrograms
    simp only [List.mem_filter, mem_setInsert, h2 y, List.not_mem_nil, false_or, bne_iff_ne, ne_eq]
    constructor
    · rintro ⟨h | h, hne⟩
      · exact absurd h hne
      · exact ⟨h, hne⟩
    · rintro ⟨h, hne⟩
      exact ⟨Or.inr h, hne⟩

theorem CaseToStringLoop_false (ss : StringSet) (k : List Int) (result : Str)
    (h : KeyInSet ss k) :
    CaseToStringLoop ss k false result
      = some (result ++ (k.map (fun x => [' '] ++ caseTokText ss x)).flatten) := by
  induction k generalizing result with
  | nil => simp [CaseToStringLoop]
  | cons x k ih =>
    have hk : KeyInSet ss k := fun y hy => h y (by simp [hy])
    simp only [CaseToStringLoop, Bool.false_eq_true, if_false]
    by_cases hx : x < 0
    · simp [hx, ih _ hk, caseTokText]
    · obtain ⟨s, hs⟩ := Option.isSome_iff_exists.mp (h x (by simp) (by omega))
      simp [hx, hs, ih _ hk, caseTokText]

theorem CaseToString_eq (ss : StringSet) (k : List Int) (h : KeyInSet ss k) :
    CaseToString k ss = some (caseText ss k) := by
  unfold CaseToString caseText
  cases k with
  | nil => rfl
  | cons x k =>
    have hk : KeyInSet ss k := fun y hy => h y (by simp [hy])
    rw [List.map_cons, intercalate_cons_map, List.map_map]
    simp only [CaseToStringLoop, if_true]
    by_cases hx : x < 0
    · simp [hx, CaseToStringLoop_false ss k _ hk, caseTokText, Function.comp_def]
    · obtain ⟨s, hs⟩ := Option.isSome_iff_exists.mp (h x (by simp) (by omega))
      simp [hx, hs, CaseToStringLoop_false ss k _ hk, caseTokText, Function.comp_def]

theorem casesToStringLoop_false (ss : StringSet) (n : Int) (l : CaseMap) (result : Str)
    (h : ∀ it ∈ l, KeyInSet ss it.1) :
    casesToStringLoop ss n l false result
      = some (result ++ ((keysFor n l).map (fun k => ['|'] ++ caseText ss k)).flatten) := by
  induction l generalizing result with
  | nil => simp [casesToStringLoop, keysFor]
  | cons it l ih =>
    have hl : ∀ it ∈ l, KeyInSet ss it.1 := fun y hy => h y (by simp [hy])
    simp only [casesToStringLoop]
    by_cases hn : it.2 = n
    · simp [hn, CaseToString_eq ss it.1 (h it (by simp)), ih _ hl, keysFor]
    · simp [hn, ih _ hl, keysFor]

theorem casesToStringLoop_true (ss : StringSet) (n : Int) (l : CaseMap) (result : Str)
    (h : ∀ it ∈ l, KeyInSet ss it.1) :
    casesToStringLoop ss n l true result
      = some (result ++ ['|'].intercalate ((keysFor n l).map (caseText ss))) := by
  induction l generalizing result with
  | nil => simp [casesToStringLoop, keysFor, List.intercalate]
  | cons it l ih =>
    have hl : ∀ it ∈ l, KeyInSet ss it.1 := fun y hy => h y (by simp [hy])
    simp only [casesToStringLoop]
    by_cases hn : it.2 = n
    · have e : keysFor n (it :: l) = it.1 :: keysFor n l := by simp [keysFor, hn]
      rw [e, List.map_cons, intercalate_cons_map, List.map_map]
      simp [hn, CaseToString_eq ss it.1 (h it (by simp)), casesToStringLoop_false ss n l _ hl,
        Function.comp_def]
    · have e : keysFor n (it :: l) = keysFor n l := by simp [keysFor, hn]
      rw [e]
      simp [hn, ih _ hl]

theorem programsToStringLoop_eq (ss : StringSet) (p : BranchCondProgram) (ts : List Int) (result : Str)
    (h : ∀ it ∈ p.per_case_p, KeyInSet ss it.1) (hts : ∀ n ∈ ts, n ≠ p.p_default) :
    programsToStringLoop ss p (ts ++ [p.p_default]) result
      = some (result ++ (ts.map (fun n => caseLine ss p.per_case_p n ++ [';'])).flatten ++
          elseLine p.p_default) := by
  induction ts generalizing result with
  | nil => simp [programsToStringLoop, elseLine]
  | cons n ts ih =>
    have hn := hts n (by simp)
    have hts' : ∀ n ∈ ts, n ≠ p.p_default := fun y hy => hts y (by simp [hy])
    simp only [List.cons_append, programsToStringLoop, hn, if_false,
      casesToStringLoop_true ss n p.per_case_p _ h]
    change programsToStringLoop ss p (ts ++ [p.p_default]) _ = _
    rw [ih _ hts']
    simp [caseLine]

theorem ToStringAsProgramLine_eq (ss : StringSet) (p : BranchCondProgram)
    (h : ∀ it ∈ p.per_case_p, KeyInSet ss it.1) :
    p.ToStringAsProgramLine ss = some (programLine ss p) := by
  unfold BranchCondProgram.ToStringAsProgramLine programLine
  have := programsToStringLoop_eq ss p (caseTargets p)
    ("switch ".toList ++ p.cond.ToString ++ [':']) h
    (fun n hn => ((caseTargets_spec p).2 n).mp hn |>.2)
  simpa [caseTargets, BranchCond.ToString] using this

theorem KeyOK_inSet {ss : StringSet} {k : List Int} (h : KeyOK ss k) : KeyInSet ss k := by
  intro x hx h0
  obtain ⟨s, hs, _⟩ := (h x hx).2 h0
  simp [Option.mem_def.mp hs]

theorem isDecChar_not_sep (c : Char) (h : isDecChar c = true) : isCaseSep c = false := by
  cases hs : isCaseSep c with
  | false => rfl
  | true =>
    simp only [isCaseSep, Bool.or_eq_true, beq_iff_eq] at hs
    rcases hs with ((rfl | rfl) | rfl) | rfl <;> revert h <;> decide

theorem caseTokText_ok (ss : StringSet) (x : Int)
    (h : inInt32 x = true ∧ (0 ≤ x → ∃ s ∈ ss.getString x, GoodName s)) :
    caseTokText ss x ≠ [] ∧ ∀ c ∈ caseTokText ss x, isCaseSep c = false := by
  unfold caseTokText
  by_cases hx : x < 0
  · simp only [hx, if_true]
    obtain ⟨c, cs, hcs, _⟩ := intToDec_head x
    refine ⟨by rw [hcs]; simp, ?_⟩
    intro c hc
    exact isDecChar_not_sep c (intToDec_chars x c hc)
  · obtain ⟨s, hs, hg⟩ := h.2 (by omega)
    simp only [hx, if_false, Option.mem_def.mp hs, Option.getD_some]
    exact ⟨hg.1, hg.2.2.1⟩

theorem isCaseSep_space (c : Char) (h : isCaseSep c = false) : c ≠ ' ' := by
  rintro rfl; revert h; decide

theorem caseTokText_word (ss : StringSet) (k : List Int) (h : KeyOK ss k) :
    ∀ w ∈ k.map (caseTokText ss), w ≠ [] ∧ ' ' ∉ w := by
  intro w hw
  simp only [List.mem_map] at hw
  obtain ⟨x, hx, rfl⟩ := hw
  have := caseTokText_ok ss x (h x hx)
  exact ⟨this.1, fun hm => isCaseSep_space _ (this.2 _ hm) rfl⟩

theorem noEdgeSpace_caseText (ss : StringSet) (k : List Int) (h : KeyOK ss k) :
    noEdgeSpace (caseText ss k) :=
  noEdgeSpace_intercalate _ (caseTokText_word ss k h)

/-- The characters of the text of a key are spaces or no separators at all. -/
theorem caseText_chars (ss : StringSet) (k : List Int) (h : KeyOK ss k) :
    ∀ c ∈ caseText ss k, c = ' ' ∨ isCaseSep c = false := by
  unfold caseText
  cases k with
  | nil => intro c hc; simp [List.intercalate] at hc
  | cons x k =>
    rw [List.map_cons, intercalate_cons_map]
    intro c hc
    simp only [List.mem_append, List.mem_flatten, List.mem_map] at hc
    rcases hc with hc | ⟨l, ⟨t, ht, rfl⟩, hc⟩
    · exact Or.inr ((caseTokText_ok ss x (h x (by simp))).2 c hc)
    · obtain ⟨y, hy, rfl⟩ := ht
      simp at hc
      rcases hc with hc | hc
      · exact Or.inl hc
      · exact Or.inr ((caseTokText_ok ss y (h y (by simp [hy]))).2 c hc)

theorem indexOfStr_of_get (l : List Str) (n : Nat) (s : Str) (hn : l.Nodup)
    (h : l[n]? = some s) : indexOfStr s l = n := by
  induction l generalizing n with
  | nil => simp at h
  | cons t l ih =>
    cases n with
    | zero =>
      simp at h
      simp [indexOfStr, h]
    | succ n =>
      simp at h
      have hne : t ≠ s := by
        rintro rfl
        exact (List.nodup_cons.mp hn).1 (List.getElem?_mem h)
      simp [indexOfStr, hne, ih n (List.nodup_cons.mp hn).2 (by simpa using h)]

theorem addString_of_getString (ss : StringSet) (x : Int) (s : Str) (hn : ss.strings.Nodup)
    (h0 : 0 ≤ x) (hs : ss.getString x = some s) : ss.addString s = (x, ss) := by
  unfold StringSet.getString at hs
  simp only [h0, if_true] at hs
  have hmem : s ∈ ss.strings := List.getElem?_mem hs
  unfold StringSet.addString
  simp only [hmem, if_true]
  rw [indexOfStr_of_get _ _ _ hn hs]
  congr 1
  omega

theorem parseCmdsLoop_tokens (ss : StringSet) (hn : ss.strings.Nodup) (k : List Int)
    (h : KeyOK ss k) (pre junk : List Int) (hj : junk.length = k.length) :
    parseCmdsLoop (k.map (caseTokText ss)) pre.length (pre ++ junk) ss = some (pre ++ k, ss) := by
  induction k generalizing pre junk with
  | nil =>
    cases junk with
    | nil => simp [parseCmdsLoop]
    | cons j junk => simp at hj
  | cons x k ih =>
    cases junk with
    | nil => simp at hj
    | cons j junk =>
      have hk : KeyOK ss k := fun y hy => h y (by simp [hy])
      have hx := h x (by simp)
      have hset : (pre ++ j :: junk).set pre.length x = (pre ++ [x]) ++ junk := by
        simp [List.set_append]
      have hlen : pre.length + 1 = (pre ++ [x]).length := by simp
      simp only [List.map_cons]
      by_cases hneg : x < 0
      · have htok : caseTokText ss x = '-' :: natToDec (-x).toNat := by
          simp [caseTokText, hneg, intToDec]
        have hp : ParseInt32 ('-' :: natToDec (-x).toNat) = some x := by
          have := ParseInt32_intToDec x hx.1
          simpa [intToDec, hneg] using this
        rw [htok]
        simp only [parseCmdsLoop, if_true, hp, hset]
        rw [hlen, ih hk (pre ++ [x]) junk (by simpa using hj)]
        simp
      · obtain ⟨s, hs, hg⟩ := hx.2 (by omega)
        have hs' := Option.mem_def.mp hs
        have htok : caseTokText ss x = EscapeStrSeparators s := by
          simp [caseTokText, hneg, hs']
        rw [htok]
        cases he : EscapeStrSeparators s with
        | nil => exact absurd he hg.1
        | cons c cs =>
          have hc : c ≠ '-' := hg.2.1 c (by simp [he])
          have hadd : ss.addString (cstr (UnEscapeStrSeparators (c :: cs))) = (x, ss) := by
            rw [← he, hg.2.2.2]
            exact addString_of_getString ss x s hn (by omega) hs'
          simp only [parseCmdsLoop, hc, if_false, hadd, hset]
          rw [hlen, ih hk (pre ++ [x]) junk (by simpa using hj)]
          simp

theorem parseValue_caseText (ss : StringSet) (hn : ss.strings.Nodup) (k : List Int)
    (h : KeyOK ss k) :
    parseCmdsLoop (SplitStringUsing (TrimLeadingAndTrailingSpaces (caseText ss k)) ' ') 0
      (List.replicate (SplitStringUsing (TrimLeadingAndTrailingSpaces (caseText ss k)) ' ').length
        (-1)) ss = some (k, ss) := by
  rw [Trim_of_noEdgeSpace _ (noEdgeSpace_caseText ss k h)]
  cases k with
  | nil => simp [caseText, SplitStringUsing, List.intercalate, parseCmdsLoop]
  | cons x k =>
    have hsplit : SplitStringUsing (caseText ss (x :: k)) ' ' = (x :: k).map (caseTokText ss) := by
      unfold SplitStringUsing caseText
      exact List.splitOn_intercalate _ ' ' (fun l hl => (caseTokText_word ss (x :: k) h l hl).2)
        (by simp)
    rw [hsplit]
    have := parseCmdsLoop_tokens ss hn (x :: k) h [] (List.replicate (x :: k).length (-1))
      (by simp)
    simpa using this

theorem parseValuesLoop_caseTexts (ss : StringSet) (hn : ss.strings.Nodup) (label : Int)
    (keys : List (List Int)) (h : ∀ k ∈ keys, KeyOK ss k) (m : CaseMap) :
    parseValuesLoop label (keys.map (caseText ss)) m ss
      = some (keys.foldl (fun m k => mapAssign m k label) m, ss) := by
  induction keys generalizing m with
  | nil => simp [parseValuesLoop]
  | cons k keys ih =>
    simp only [List.map_cons, parseValuesLoop, parseValue_caseText ss hn k (h k (by simp)),
      List.foldl_cons]
    exact ih (fun k hk => h k (by simp [hk])) _

theorem intercalate_cons_cons (sep a b : List α) (l : List (List α)) :
    sep.intercalate (a :: b :: l) = a ++ sep ++ sep.intercalate (b :: l) := by
  rw [intercalate_cons_map, intercalate_cons_map]
  simp

theorem flatten_map_append_sep (sep last : List α) (l : List (List α)) :
    (l.map (fun x => x ++ sep)).flatten ++ last = sep.intercalate (l ++ [last]) := by
  induction l with
  | nil => simp [List.intercalate]
  | cons a l ih =>
    cases l with
    | nil => simp [List.intercalate]
    | cons b l =>
      have e : a :: b :: l ++ [last] = a :: b :: (l ++ [last]) := rfl
      rw [e, intercalate_cons_cons, List.map_cons, List.flatten_cons, List.append_assoc, ih]
      simp

theorem noEdgeSpace_append (a b : Str) (ha : a ≠ []) (hb : b ≠ [])
    (h1 : ∀ c ∈ a.head?, c ≠ ' ') (h2 : ∀ c ∈ b, c ≠ ' ') : noEdgeSpace (a ++ b) := by
  constructor
  · cases a with
    | nil => exact absurd rfl ha
    | cons x a => simpa using h1
  · rw [List.getLast?_append_of_ne_nil _ hb]
    intro c hc
    exact h2 c (List.mem_of_mem_getLast? hc)

theorem intToDec_ne_nil (i : Int) : intToDec i ≠ [] := by
  obtain ⟨c, cs, hcs, _⟩ := intToDec_head i
  rw [hcs]; simp

theorem intToDec_no_space (i : Int) : ∀ c ∈ intToDec i, c ≠ ' ' := by
  intro c hc
  exact isCaseSep_space c (isDecChar_not_sep c (intToDec_chars i c hc))

theorem dropWhile_isCSpace_intToDec (i : Int) : (intToDec i).dropWhile isCSpace = intToDec i := by
  obtain ⟨c, cs, hcs, hc⟩ := intToDec_head i
  rw [hcs]
  simp [List.dropWhile, isDecChar_not_space c hc]

theorem sscanf_goto_intToDec (i : Int) (hr : inInt32 i = true) :
    sscanf_goto (" goto ".toList ++ intToDec i) = some i := by
  have h := scanInt_intToDec i [] (by intro c hc; simp at hc) hr
  rw [List.append_nil] at h
  have e : (" goto ".toList ++ intToDec i) = ' ' :: 'g' :: 'o' :: 't' :: 'o' :: ' ' :: intToDec i := rfl
  rw [e]
  have e1 : isCSpace ' ' = true := rfl
  have e2 : isCSpace 'g' = false := rfl
  simp only [sscanf_goto, List.dropWhile, e1, e2, scanLit]
  simp [List.isPrefixOf, dropWhile_isCSpace_intToDec, h, e1, List.dropWhile]

theorem sscanf_else_goto_intToDec (i : Int) (hr : inInt32 i = true) :
    sscanf_else_goto ("else goto ".toList ++ intToDec i) = some i := by
  have h := scanInt_intToDec i [] (by intro c hc; simp at hc) hr
  rw [List.append_nil] at h
  have e : ("else goto ".toList ++ intToDec i)
      = 'e' :: 'l' :: 's' :: 'e' :: ' ' :: 'g' :: 'o' :: 't' :: 'o' :: ' ' :: intToDec i := rfl
  rw [e]
  have e1 : isCSpace ' ' = true := rfl
  have e2 : isCSpace 'g' = false := rfl
  simp only [sscanf_else_goto, scanLit]
  simp [List.isPrefixOf, dropWhile_isCSpace_intToDec, h, e1, e2, List.dropWhile]

theorem parseCase_elseLine (d : Int) (hr : inInt32 d = true) (st : CaseMap × Int × StringSet) :
    parseCase (elseLine d) st = some (st.1, d, st.2.2) := by
  have e : elseLine d = ' ' :: ("else goto ".toList ++ intToDec d) := rfl
  have hne : noEdgeSpace ("else goto ".toList ++ intToDec d) :=
    noEdgeSpace_append _ _ (by decide) (intToDec_ne_nil d) (by decide) (intToDec_no_space d)
  unfold parseCase
  rw [e, Trim_cons_space, Trim_of_noEdgeSpace _ hne]
  simp only [sscanf_else_goto_intToDec d hr]

theorem caseText_no_quote (ss : StringSet) (k : List Int) (h : KeyOK ss k) (c : Char)
    (hc : c ∈ caseText ss k) : c ≠ '"' ∧ c ≠ '|' ∧ c ≠ ';' := by
  rcases caseText_chars ss k h c hc with e | e
  · subst e; decide
  · refine ⟨?_, ?_, ?_⟩ <;> rintro rfl <;> revert e <;> decide

/-- The characters of the values of a clause: those of the keys and the bar between them. -/
theorem valuesText_chars (ss : StringSet) (keys : List (List Int)) (h : ∀ k ∈ keys, KeyOK ss k)
    (c : Char) (hc : c ∈ ['|'].intercalate (keys.map (caseText ss))) : c ≠ '"' ∧ c ≠ ';' := by
  cases keys with
  | nil => simp [List.intercalate] at hc
  | cons k keys =>
    rw [List.map_cons, intercalate_cons_map] at hc
    simp only [List.mem_append, List.mem_flatten, List.mem_map] at hc
    rcases hc with hc | ⟨l, ⟨t, ht, rfl⟩, hc⟩
    · have := caseText_no_quote ss k (h k (by simp)) c hc
      exact ⟨this.1, this.2.2⟩
    · obtain ⟨k', hk', rfl⟩ := ht
      simp at hc
      rcases hc with hc | hc
      · subst hc; decide
      · have := caseText_no_quote ss k' (h k' (by simp [hk'])) c hc
        exact ⟨this.1, this.2.2⟩

theorem parseCase_caseLine (ss : StringSet) (hn : ss.strings.Nodup) (l : CaseMap) (n : Int)
    (hr : inInt32 n = true) (hk : ∀ k ∈ keysFor n l, KeyOK ss k) (hne : keysFor n l ≠ [])
    (m : CaseMap) (d : Int) :
    parseCase (caseLine ss l n) (m, d, ss)
      = some ((keysFor n l).foldl (fun m k => mapAssign m k n) m, d, ss) := by
  have h7 : SplitStringUsing (['|'].intercalate ((keysFor n l).map (caseText ss))) '|'
      = (keysFor n l).map (caseText ss) := by
    unfold SplitStringUsing
    apply List.splitOn_intercalate
    · intro t ht hm
      simp only [List.mem_map] at ht
      obtain ⟨k, hk', rfl⟩ := ht
      exact (caseText_no_quote ss k (hk k hk') _ hm).2.1 rfl
    · simpa using hne
  have hVc : ∀ c ∈ ['|'].intercalate ((keysFor n l).map (caseText ss)), c ≠ '"' ∧ c ≠ ';' :=
    fun c hc => valuesText_chars ss _ hk c hc
  have e : caseLine ss l n = ' ' :: ("on \"".toList ++
      ['|'].intercalate ((keysFor n l).map (caseText ss)) ++ ['"'] ++
      (" goto ".toList ++ intToDec n)) := by
    simp [caseLine]
  have hX : noEdgeSpace ("on \"".toList ++
      ['|'].intercalate ((keysFor n l).map (caseText ss)) ++ ['"'] ++
      (" goto ".toList ++ intToDec n)) := by
    rw [← List.append_assoc]
    exact noEdgeSpace_append _ _ (by simp) (intToDec_ne_nil n) (by simp) (intToDec_no_space n)
  have hR := sscanf_goto_intToDec n hr
  generalize ['|'].intercalate ((keysFor n l).map (caseText ss)) = V at h7 hVc e hX
  generalize " goto ".toList ++ intToDec n = R at hR e hX
  have hq : '"' ∉ V := fun hm => (hVc _ hm).1 rfl
  have eX : "on \"".toList ++ V ++ ['"'] ++ R = 'o' :: 'n' :: ' ' :: '"' :: (V ++ '"' :: R) := by
    simp
  have h1 : sscanf_else_goto ('o' :: 'n' :: ' ' :: '"' :: (V ++ '"' :: R)) = none := by
    simp [sscanf_else_goto, scanLit, List.isPrefixOf]
  have h2 : "on ".toList.isPrefixOf ('o' :: 'n' :: ' ' :: '"' :: (V ++ '"' :: R)) = true := by
    simp [List.isPrefixOf]
  have h3 : strFind ('o' :: 'n' :: ' ' :: '"' :: (V ++ '"' :: R)) ['"'] = some 3 := by
    simp [strFind, findFrom, List.isPrefixOf]
  have h4 : strFindAt ('o' :: 'n' :: ' ' :: '"' :: (V ++ '"' :: R)) ['"'] (3 + 1)
      = some (4 + V.length) := by
    have := findFrom_append '"' [] V R 4 hq
    simp only [List.append_assoc, List.singleton_append] at this
    simp [strFindAt, this]
  have h5 : List.drop (4 + V.length + 1) ('o' :: 'n' :: ' ' :: '"' :: (V ++ '"' :: R)) = R := by
    have : 4 + V.length + 1 = (V.length + 1) + 4 := by omega
    rw [this]
    simp only [List.drop_succ_cons]
    have e2 : V ++ '"' :: R = (V ++ ['"']) ++ R := by simp
    rw [e2, List.drop_append_eq_append_drop]
    simp
  have h6 : List.take (4 + V.length - 3 - 1)
      (List.drop (3 + 1) ('o' :: 'n' :: ' ' :: '"' :: (V ++ '"' :: R))) = V := by
    have : 4 + V.length - 3 - 1 = V.length := by omega
    rw [this]
    simp only [List.drop_succ_cons, List.drop_zero]
    rw [List.take_append_eq_append_take]
    simp
  unfold parseCase
  rw [e, Trim_cons_space, Trim_of_noEdgeSpace _ hX, eX]
  simp only [h1, h2, h3, h4, h5, h6, h7, hR, not_true_eq_false, if_false,
    parseValuesLoop_caseTexts ss hn n _ hk]

theorem caseLine_no_semicolon (ss : StringSet) (l : CaseMap) (n : Int)
    (hk : ∀ k ∈ keysFor n l, KeyOK ss k) : ';' ∉ caseLine ss l n := by
  intro hm
  unfold caseLine at hm
  simp only [List.mem_append] at hm
  rcases hm with ((hm | hm) | hm) | hm
  · revert hm; decide
  · exact (valuesText_chars ss _ hk _ hm).2 rfl
  · revert hm; decide
  · have := isDecChar_not_sep _ (intToDec_chars n _ hm)
    revert this; decide

theorem elseLine_no_semicolon (d : Int) : ';' ∉ elseLine d := by
  intro hm
  unfold elseLine at hm
  simp only [List.mem_append] at hm
  rcases hm with hm | hm
  · revert hm; decide
  · have := isDecChar_not_sep _ (intToDec_chars d _ hm)
    revert this; decide

theorem foldl_keysFor (l m : CaseMap) (n : Int) :
    (keysFor n l).foldl (fun m k => mapAssign m k n) m
      = assignAll m (l.filter (fun it => it.2 = n)) := by
  unfold keysFor assignAll
  induction l generalizing m with
  | nil => rfl
  | cons a l ih =>
    by_cases h : a.2 = n
    · simp only [List.filter_cons, h, decide_True, if_true, List.map_cons, List.foldl_cons]
      rw [ih]
    · simp only [List.filter_cons, h, decide_False, Bool.false_eq_true, if_false]
      exact ih m

theorem parseCasesLoop_lines (ss : StringSet) (hn : ss.strings.Nodup) (l : CaseMap)
    (ts : List Int) (d : Int) (hd : inInt32 d = true)
    (hts : ∀ n ∈ ts, inInt32 n = true ∧ keysFor n l ≠ [] ∧ ∀ k ∈ keysFor n l, KeyOK ss k)
    (m : CaseMap) (d0 : Int) :
    parseCasesLoop (ts.map (caseLine ss l) ++ [elseLine d]) (m, d0, ss)
      = some (assignAll m (ts.flatMap (fun n => l.filter (fun it => it.2 = n))), d, ss) := by
  induction ts generalizing m with
  | nil =>
    simp [parseCasesLoop, parseCase_elseLine d hd, assignAll]
  | cons n ts ih =>
    obtain ⟨h1, h2, h3⟩ := hts n (by simp)
    simp only [List.map_cons, List.cons_append, parseCasesLoop,
      parseCase_caseLine ss hn l n h1 h3 h2 m d0]
    change parseCasesLoop (ts.map (caseLine ss l) ++ [elseLine d]) _ = _
    rw [ih (fun y hy => hts y (by simp [hy]))]
    simp [assignAll, foldl_keysFor, List.flatMap_cons, List.foldl_append]

theorem regroup_keys_nodup (l : CaseMap) (ts : List Int) (hl : SortedMap l) (hts : ts.Nodup) :
    ((ts.flatMap (fun n => l.filter (fun it => it.2 = n))).map Prod.fst).Nodup := by
  rw [List.map_flatMap, List.nodup_flatMap]
  constructor
  · intro n _
    exact (SortedMap_keys_nodup l hl).sublist ((List.filter_sublist _).map _)
  · refine hts.imp ?_
    intro a b hab
    intro k hka hkb
    simp only [List.mem_map, List.mem_filter, decide_eq_true_eq] at hka hkb
    obtain ⟨⟨k1, v1⟩, ⟨hm1, hv1⟩, rfl⟩ := hka
    obtain ⟨⟨k2, v2⟩, ⟨hm2, hv2⟩, hk2⟩ := hkb
    simp only at hv1 hv2 hk2
    subst hk2
    have hnd := SortedMap_keys_nodup l hl
    have : (k2, v1) = (k2, v2) := by
      have hinj := List.inj_on_of_nodup_map hnd hm1 hm2 rfl
      exact hinj
    simp only [Prod.mk.injEq, true_and] at this
    exact hab (by rw [← hv1, ← hv2, this])

theorem regroup_mem (l : CaseMap) (ts : List Int) (h : ∀ it ∈ l, it.2 ∈ ts) (e : List Int × Int) :
    e ∈ ts.flatMap (fun n => l.filter (fun it => it.2 = n)) ↔ e ∈ l := by
  simp only [List.mem_flatMap, List.mem_filter, decide_eq_true_eq]
  constructor
  · rintro ⟨n, _, he, _⟩
    exact he
  · intro he
    exact ⟨e.2, h e he, he, rfl⟩

theorem assignAll_regroup (l : CaseMap) (ts : List Int) (hl : SortedMap l) (hts : ts.Nodup)
    (h : ∀ it ∈ l, it.2 ∈ ts) :
    assignAll [] (ts.flatMap (fun n => l.filter (fun it => it.2 = n))) = l := by
  obtain ⟨h1, h2⟩ := assignAll_spec (ts.flatMap (fun n => l.filter (fun it => it.2 = n))) []
    (by simp [SortedMap]) (regroup_keys_nodup l ts hl hts) (by simp)
  apply SortedMap_ext _ _ h1 hl
  intro e
  rw [h2 e, regroup_mem l ts h e]
  simp

theorem BranchCond_parse_ProgramToString (self : BranchCond) (prog : Program)
    (h : ∀ op ∈ prog, ValidOp op) :
    self.ParseFromStringOrDie (ProgramToString prog) = some ⟨prog⟩ := by
  have hne : ∀ w : Str, (∀ c ∈ w.head?, isNameChar c = false) → w ≠ [] →
      ProgramToString prog ≠ w := by
    intro w hw hw0 e
    cases prog with
    | nil => exact hw0 e.symm
    | cons o prog =>
      obtain ⟨c, cs, hcs, hc⟩ := ProgramToString_head o prog
      rw [hcs] at e
      have := hw c (by rw [← e]; simp)
      rw [hc] at this
      exact absurd this (by simp)
  unfold BranchCond.ParseFromStringOrDie
  rw [if_neg (hne _ (by decide) (by decide)), if_neg (hne _ (by decide) (by decide)),
    if_neg (hne _ (by decide) (by decide)), ParseStringToProgramOrDie_ProgramToString _ h]
  rfl

theorem ProgramToString_no_colon (p : Program) : ':' ∉ ProgramToString p := by
  intro hm
  rcases ProgramToString_chars p _ hm with h | h
  · revert h; decide
  · revert h; decide

theorem programLine_body_split (ss : StringSet) (p : BranchCondProgram)
    (hk : ∀ it ∈ p.per_case_p, KeyOK ss it.1) :
    SplitStringUsing (((caseTargets p).map (fun n => caseLine ss p.per_case_p n ++ [';'])).flatten
      ++ elseLine p.p_default) ';'
      = (caseTargets p).map (caseLine ss p.per_case_p) ++ [elseLine p.p_default] := by
  have e : ((caseTargets p).map (fun n => caseLine ss p.per_case_p n ++ [';'])).flatten
      = (((caseTargets p).map (caseLine ss p.per_case_p)).map (fun x => x ++ [';'])).flatten := by
    rw [List.map_map]; rfl
  rw [e, flatten_map_append_sep]
  unfold SplitStringUsing
  apply List.splitOn_intercalate
  · intro t ht
    simp only [List.mem_append, List.mem_map, List.mem_singleton] at ht
    rcases ht with ⟨n, _, rfl⟩ | rfl
    · apply caseLine_no_semicolon
      intro k hk'
      simp only [keysFor, List.mem_map, List.mem_filter] at hk'
      obtain ⟨it, ⟨hit, _⟩, rfl⟩ := hk'
      exact hk it hit
    · exact elseLine_no_semicolon _
  · simp

theorem BranchCondProgram_parse_programLine (ss : StringSet) (hn : ss.strings.Nodup)
    (p prev : BranchCondProgram) (h : BranchProgOK ss p) :
    prev.ParseAsProgramLineOrDie ss (programLine ss p) = some (p, ss) := by
  obtain ⟨hc, hs, hits, hd⟩ := h
  have hk : ∀ it ∈ p.per_case_p, KeyOK ss it.1 := fun it hit => (hits it hit).1
  have hsplit := programLine_body_split ss p hk
  have hts : ∀ n ∈ caseTargets p, inInt32 n = true ∧ keysFor n p.per_case_p ≠ [] ∧
      ∀ k ∈ keysFor n p.per_case_p, KeyOK ss k := by
    intro n hn'
    obtain ⟨⟨it, hit, hitn⟩, _⟩ := ((caseTargets_spec p).2 n).mp hn'
    refine ⟨by rw [← hitn]; exact (hits it hit).2.1, ?_, ?_⟩
    · intro e
      have : it.1 ∈ keysFor n p.per_case_p := by
        simp only [keysFor, List.mem_map, List.mem_filter, decide_eq_true_eq]
        exact ⟨it, ⟨hit, hitn⟩, rfl⟩
      rw [e] at this
      simp at this
    · intro k hk'
      simp only [keysFor, List.mem_map, List.mem_filter] at hk'
      obtain ⟨it', ⟨hit', _⟩, rfl⟩ := hk'
      exact hk it' hit'
  have hloop := parseCasesLoop_lines ss hn p.per_case_p (caseTargets p) p.p_default hd hts []
    prev.p_default
  have hre := assignAll_regroup p.per_case_p (caseTargets p) hs (caseTargets_spec p).1
    (fun it hit => ((caseTargets_spec p).2 it.2).mpr ⟨⟨it, hit, rfl⟩, (hits it hit).2.2⟩)
  rw [hre] at hloop
  have hcond := BranchCond_parse_ProgramToString prev.cond p.cond.program hc
  have hcolon := ProgramToString_no_colon p.cond.program
  unfold programLine
  generalize ((caseTargets p).map (fun n => caseLine ss p.per_case_p n ++ [';'])).flatten
      ++ elseLine p.p_default = body at hsplit ⊢
  rw [← hsplit] at hloop
  have hT := noEdgeSpace_ProgramToString p.cond.program
  generalize ProgramToString p.cond.program = T at hcond hcolon hT ⊢
  have h1 : "switch ".toList.isPrefixOf ("switch ".toList ++ T ++ [':'] ++ body) = true := by
    rw [List.append_assoc, List.append_assoc]
    exact isPrefixOf_append_self _ _
  have h2 : strFind ("switch ".toList ++ T ++ [':'] ++ body) [':'] = some (7 + T.length) := by
    have hno : ':' ∉ "switch ".toList ++ T := by
      intro hm
      rw [List.mem_append] at hm
      rcases hm with hm | hm
      · revert hm; decide
      · exact hcolon hm
    have := findFrom_append ':' [] ("switch ".toList ++ T) body 0 hno
    simp only [List.length_append, Nat.zero_add] at this
    exact this
  have h3 : (("switch ".toList ++ T ++ [':'] ++ body).drop 7).take (7 + T.length - 7) = T := by
    have e : "switch ".toList ++ T ++ [':'] ++ body = "switch ".toList ++ (T ++ ([':'] ++ body)) := by
      simp
    rw [e, List.drop_append_eq_append_drop]
    have : 7 + T.length - 7 = T.length := by omega
    rw [this]
    simp [List.take_append_eq_append_take]
  have h4 : ("switch ".toList ++ T ++ [':'] ++ body).drop (7 + T.length + 1) = body := by
    have hlen : ("switch ".toList ++ T ++ [':']).length = 7 + T.length + 1 := by
      simp only [List.length_append, List.length_singleton]
      rfl
    rw [← hlen]
    exact List.drop_left _ _
  unfold BranchCondProgram.ParseAsProgramLineOrDie
  simp only [h1, h2, h3, h4, not_true_eq_false, if_false, Trim_of_noEdgeSpace _ hT, hcond, hloop]

/-! ## Claims on branched condition programs -/

/-- C4, as stated, fails: with the string set `{Property}`, the program with condition
`WRITE_TYPE`, the single case `[Property] -> 0` and default program `0` is serialized as
`switch WRITE_TYPE: else goto 0`, and parsing that line gives a program with no case, which
differs from the original under `operator==`. -/
theorem BranchCondProgram_roundtrip_counterexample :
    (BranchCondProgram.mk ⟨[⟨.WRITE_TYPE, -1⟩]⟩ [([0], 0)] 0).ToStringAsProgramLine
        ⟨["Property".toList]⟩ = some "switch WRITE_TYPE: else goto 0".toList ∧
    (BranchCondProgram.mk ⟨[]⟩ [] 0).ParseAsProgramLineOrDie ⟨["Property".toList]⟩
        "switch WRITE_TYPE: else goto 0".toList
      = some (BranchCondProgram.mk ⟨[⟨.WRITE_TYPE, -1⟩]⟩ [] 0, ⟨["Property".toList]⟩) ∧
    BranchCondProgram.mk ⟨[⟨.WRITE_TYPE, -1⟩]⟩ [] 0
      ≠ BranchCondProgram.mk ⟨[⟨.WRITE_TYPE, -1⟩]⟩ [([0], 0)] 0 := by
  decide

/-- C4, amended: for a string set without repeated strings and a branched program `p` that
satisfies `BranchProgOK` (valid ops in the condition, a case map in key order, 32-bit values,
non-negative key values that are ids of good names, and no case that goes to the default
program), serializing `p` succeeds and parsing the line, into any object, gives `p` back and
leaves the string set as it was. -/
theorem BranchCondProgram_roundtrip (ss : StringSet) (p prev : BranchCondProgram)
    (hn : ss.strings.Nodup) (h : BranchProgOK ss p) :
    (p.ToStringAsProgramLine ss).bind (prev.ParseAsProgramLineOrDie ss) = some (p, ss) := by
  rw [ToStringAsProgramLine_eq ss p (fun it hit => KeyOK_inSet (h.2.2.1 it hit).1)]
  exact BranchCondProgram_parse_programLine ss hn p prev h

/-- Witness for the amended C4: the string set `{Expression, If Expr, If, Loop}` and the program
with cases `[] -> 1`, `[Expression, Expression] -> 2`, `[If Expr, If] -> 2`, `[Loop, -1] -> 3`
and default program `0`. -/
theorem BranchCondProgram_roundtrip_witness :
    (StringSet.mk ["Expression".toList, "If Expr".toList, "If".toList, "Loop".toList]).strings.Nodup ∧
    BranchProgOK ⟨["Expression".toList, "If Expr".toList, "If".toList, "Loop".toList]⟩
      ⟨⟨[⟨.WRITE_TYPE, -1⟩, ⟨.UP, -1⟩, ⟨.WRITE_TYPE, -1⟩]⟩,
        [([], 1), ([0, 0], 2), ([1, 2], 2), ([3, -1], 3)], 0⟩ ∧
    ((BranchCondProgram.mk ⟨[⟨.WRITE_TYPE, -1⟩, ⟨.UP, -1⟩, ⟨.WRITE_TYPE, -1⟩]⟩
        [([], 1), ([0, 0], 2), ([1, 2], 2), ([3, -1], 3)] 0).ToStringAsProgramLine
        ⟨["Expression".toList, "If Expr".toList, "If".toList, "Loop".toList]⟩).bind
      ((BranchCondProgram.mk ⟨[]⟩ [([7], 7)] 7).ParseAsProgramLineOrDie
        ⟨["Expression".toList, "If Expr".toList, "If".toList, "Loop".toList]⟩)
      = some (⟨⟨[⟨.WRITE_TYPE, -1⟩, ⟨.UP, -1⟩, ⟨.WRITE_TYPE, -1⟩]⟩,
        [([], 1), ([0, 0], 2), ([1, 2], 2), ([3, -1], 3)], 0⟩,
        ⟨["Expression".toList, "If Expr".toList, "If".toList, "Loop".toList]⟩) :=
  ⟨by decide, by decide,
   BranchCondProgram_roundtrip
     ⟨["Expression".toList, "If Expr".toList, "If".toList, "Loop".toList]⟩
     ⟨⟨[⟨.WRITE_TYPE, -1⟩, ⟨.UP, -1⟩, ⟨.WRITE_TYPE, -1⟩]⟩,
        [([], 1), ([0, 0], 2), ([1, 2], 2), ([3, -1], 3)], 0⟩
     ⟨⟨[]⟩, [([7], 7)], 7⟩ (by decide) (by decide)⟩

theorem addEntry_spec (t : TGenProgram) (e : Entry) (hinv : TableInv t) :
    TableInv (addEntry t e) ∧ (addEntry t e).entries_.length = t.entries_.length + 1 ∧
    (∀ i, i < t.entries_.length → entryAt (addEntry t e) i = entryAt t i) ∧
    entryAt (addEntry t e) t.entries_.length = some e := by
  cases e with
  | simple s =>
    refine ⟨?_, by simp [addEntry, TGenProgram.AddProgramSimple], ?_, ?_⟩
    · intro x hx
      simp only [addEntry, TGenProgram.AddProgramSimple, List.mem_append, List.mem_singleton] at hx
      simp only [addEntry, TGenProgram.AddProgramSimple, List.length_append, List.length_singleton]
      rcases hx with hx | hx
      · have := hinv x hx
        exact ⟨fun h => by have := this.1 h; omega, this.2⟩
      · subst hx
        simp
    · intro i hi
      simp only [entryAt, addEntry, TGenProgram.AddProgramSimple]
      rw [List.getElem?_append_left hi]
      cases hx : t.entries_[i]? with
      | none => rfl
      | some x =>
        have hmem := List.getElem?_mem hx
        have := hinv x hmem
        cases hty : x.type with
        | SIMPLE_PROGRAM => simp only [hty]; rw [List.getElem?_append_left (this.1 hty)]
        | BRANCHED_PROGRAM => simp only [hty]
    · simp [entryAt, addEntry, TGenProgram.AddProgramSimple]
  | branched b =>
    refine ⟨?_, by simp [addEntry, TGenProgram.AddProgramBranched], ?_, ?_⟩
    · intro x hx
      simp only [addEntry, TGenProgram.AddProgramBranched, List.mem_append, List.mem_singleton] at hx
      simp only [addEntry, TGenProgram.AddProgramBranched, List.length_append, List.length_singleton]
      rcases hx with hx | hx
      · have := hinv x hx
        exact ⟨this.1, fun h => by have := this.2 h; omega⟩
      · subst hx
        simp
    · intro i hi
      simp only [entryAt, addEntry, TGenProgram.AddProgramBranched]
      rw [List.getElem?_append_left hi]
      cases hx : t.entries_[i]? with
      | none => rfl
      | some x =>
        have hmem := List.getElem?_mem hx
        have := hinv x hmem
        cases hty : x.type with
        | SIMPLE_PROGRAM => simp only [hty]
        | BRANCHED_PROGRAM => simp only [hty]; rw [List.getElem?_append_left (this.2 hty)]
    · simp [entryAt, addEntry, TGenProgram.AddProgramBranched]

theorem foldl_addEntry_spec (es : List Entry) (t : TGenProgram) (hinv : TableInv t) :
    TableInv (es.foldl addEntry t) ∧
    (es.foldl addEntry t).entries_.length = t.entries_.length + es.length ∧
    (∀ i, i < t.entries_.length → entryAt (es.foldl addEntry t) i = entryAt t i) ∧
    (∀ i, i < es.length → entryAt (es.foldl addEntry t) (t.entries_.length + i) = es[i]?) := by
  induction es generalizing t with
  | nil => simp [hinv]
  | cons e es ih =>
    obtain ⟨a1, a2, a3, a4⟩ := addEntry_spec t e hinv
    obtain ⟨b1, b2, b3, b4⟩ := ih (addEntry t e) a1
    refine ⟨b1, by simp only [List.foldl_cons, b2, a2, List.length_cons]; omega, ?_, ?_⟩
    · intro i hi
      simp only [List.foldl_cons]
      rw [b3 i (by omega), a3 i hi]
    · intro i hi
      simp only [List.foldl_cons]
      cases i with
      | zero =>
        rw [Nat.add_zero, b3 _ (by omega), a4]
        simp
      | succ j =>
        have := b4 j (by simpa using hi)
        rw [a2] at this
        rw [show t.entries_.length + (j + 1) = t.entries_.length + 1 + j by omega, this]
        simp

theorem tableOf_spec (es : List Entry) :
    (tableOf es).entries_.length = es.length ∧ ∀ i, entryAt (tableOf es) i = es[i]? := by
  obtain ⟨_, h2, _, h4⟩ := foldl_addEntry_spec es ⟨[], [], []⟩ (by intro e he; simp at he)
  refine ⟨by simpa using h2, ?_⟩
  intro i
  by_cases hi : i < es.length
  · simpa using h4 i hi
  · have hlen : (tableOf es).entries_.length = es.length := by simpa using h2
    have h1 : (tableOf es).entries_[i]? = none := List.getElem?_eq_none (by omega)
    have h3 : es[i]? = none := List.getElem?_eq_none (by omega)
    unfold entryAt
    rw [h1, h3]

theorem SaveProgramAtPosToString_of_entryAt (t : TGenProgram) (ss : StringSet) (i : Nat)
    (e : Entry) (h : entryAt t i = some e) (hs : EntryInSet ss e) :
    t.SaveProgramAtPosToString i ss = some (entryLine ss e) ∧
    t.program_type i = some (entryType e) := by
  unfold entryAt at h
  unfold TGenProgram.SaveProgramAtPosToString TGenProgram.program_type TGenProgram.branched_prog
    TGenProgram.simple_prog
  cases hx : t.entries_[i]? with
  | none => rw [hx] at h; simp at h
  | some x =>
    rw [hx] at h
    simp only at h
    cases hty : x.type with
    | SIMPLE_PROGRAM =>
      rw [hty] at h
      simp only [Option.map_eq_some'] at h
      obtain ⟨s, hs1, rfl⟩ := h
      simp [hty, hs1, entryLine, entryType]
    | BRANCHED_PROGRAM =>
      rw [hty] at h
      simp only [Option.map_eq_some'] at h
      obtain ⟨b, hb1, rfl⟩ := h
      simp [hty, hb1, entryLine, entryType, ToStringAsProgramLine_eq ss b hs]

theorem SaveToStringLoop_tableOf (ss : StringSet) (es : List Entry)
    (hs : ∀ e ∈ es, EntryInSet ss e) (n i : Nat) (result : Str) (hi : i + n = es.length) :
    (tableOf es).SaveToStringLoop ss n i result = some (result ++ tgenText ss (es.drop i)) := by
  induction n generalizing i result with
  | zero =>
    have : es.drop i = [] := List.drop_eq_nil_of_le (by omega)
    simp [TGenProgram.SaveToStringLoop, this, tgenText]
  | succ n ih =>
    have hlt : i < es.length := by omega
    have hget : es[i]? = some es[i] := by simp [hlt]
    have hat : entryAt (tableOf es) i = some es[i] := by rw [(tableOf_spec es).2 i, hget]
    have hsave := (SaveProgramAtPosToString_of_entryAt (tableOf es) ss i es[i] hat
      (hs _ (List.getElem_mem _))).1
    have hdrop : es.drop i = es[i] :: es.drop (i + 1) := List.drop_eq_getElem_cons hlt
    simp only [TGenProgram.SaveToStringLoop, hsave]
    rw [ih (i + 1) _ (by omega), hdrop]
    simp only [tgenText, List.map_cons, List.flatten_cons, List.append_assoc]

theorem SaveToString_tableOf (ss : StringSet) (es : List Entry) (hs : ∀ e ∈ es, EntryInSet ss e) :
    (tableOf es).SaveToString ss = some (tgenText ss es) := by
  unfold TGenProgram.SaveToString TGenProgram.size
  rw [(tableOf_spec es).1]
  have := SaveToStringLoop_tableOf ss es hs es.length 0 [] (by omega)
  simpa using this

theorem noEdgeSpace_append_last (a b : Str) (ha : a ≠ []) (hb : b ≠ [])
    (h1 : ∀ c ∈ a.head?, c ≠ ' ') (h2 : ∀ c ∈ b.getLast?, c ≠ ' ') : noEdgeSpace (a ++ b) := by
  constructor
  · cases a with
    | nil => exact absurd rfl ha
    | cons x a => simpa using h1
  · rw [List.getLast?_append_of_ne_nil _ hb]
    exact h2

theorem not_switch_of_head (s : Str) (h : ∀ c ∈ s.head?, c ≠ 's') :
    "switch".toList.isPrefixOf s = false := by
  cases s with
  | nil => rfl
  | cons c cs =>
    have := h c (by simp)
    simp [List.isPrefixOf, this.symm]

theorem isNameChar_ne_s (c : Char) (h : isNameChar c = true) : c ≠ 's' := by
  rintro rfl; revert h; decide

/-- What the loop of `LoadFromStringOrDie` sees of the line of a simple program: the trimmed line
is not empty, does not start with `switch`, and parses to the program. -/
theorem SimpleCondProgram_line (p prev : SimpleCondProgram)
    (he : ∀ op ∈ p.eq_program, ValidOp op) (hc : ∀ op ∈ p.context_program, ValidOp op) :
    (TrimLeadingAndTrailingSpaces p.ToString).isEmpty = false ∧
    "switch".toList.isPrefixOf (TrimLeadingAndTrailingSpaces p.ToString) = false ∧
    prev.ParseFromStringOrDie (TrimLeadingAndTrailingSpaces p.ToString) = some p := by
  obtain ⟨eq, ctx⟩ := p
  simp only at he hc
  cases eq with
  | nil =>
    cases ctx with
    | nil => exact ⟨by decide, by decide, rfl⟩
    | cons o ctx =>
      have hT : (SimpleCondProgram.mk [] (o :: ctx)).ToString = ProgramToString (o :: ctx) := rfl
      have hparse := SimpleCondProgram_parse_toString ⟨[], o :: ctx⟩ prev he hc
      rw [hT] at hparse ⊢
      rw [Trim_of_noEdgeSpace _ (noEdgeSpace_ProgramToString _)]
      obtain ⟨c, cs, hcs, hcn⟩ := ProgramToString_head o ctx
      refine ⟨by rw [hcs]; rfl, ?_, hparse⟩
      apply not_switch_of_head
      rw [hcs]
      intro c' hc'
      simp at hc'
      subst hc'
      exact isNameChar_ne_s _ hcn
  | cons o eq =>
    obtain ⟨c, cs, hcs, hcn⟩ := ProgramToString_head o eq
    cases ctx with
    | cons o2 ctx =>
      have hT : (SimpleCondProgram.mk (o :: eq) (o2 :: ctx)).ToString
          = ProgramToString (o :: eq) ++ (" =eq= ".toList ++ ProgramToString (o2 :: ctx)) := by
        simp [SimpleCondProgram.ToString]
      have hparse := SimpleCondProgram_parse_toString ⟨o :: eq, o2 :: ctx⟩ prev he hc
      have hne : noEdgeSpace (ProgramToString (o :: eq) ++
          (" =eq= ".toList ++ ProgramToString (o2 :: ctx))) := by
        apply noEdgeSpace_append_last _ _ (ProgramToString_ne_nil o eq) (by simp)
          (noEdgeSpace_ProgramToString _).1
        rw [List.getLast?_append_of_ne_nil _ (ProgramToString_ne_nil o2 ctx)]
        exact (noEdgeSpace_ProgramToString _).2
      rw [hT] at hparse ⊢
      rw [Trim_of_noEdgeSpace _ hne]
      refine ⟨by rw [hcs]; rfl, ?_, hparse⟩
      apply not_switch_of_head
      rw [hcs]
      intro c' hc'
      simp at hc'
      subst hc'
      exact isNameChar_ne_s _ hcn
    | nil =>
      have hT : (SimpleCondProgram.mk (o :: eq) []).ToString
          = (ProgramToString (o :: eq) ++ " =eq=".toList) ++ [' '] := by
        simp [SimpleCondProgram.ToString, ProgramToString, ProgramToStringLoop]
      have hne : noEdgeSpace (ProgramToString (o :: eq) ++ " =eq=".toList) :=
        noEdgeSpace_append_last _ _ (ProgramToString_ne_nil o eq) (by decide)
          (noEdgeSpace_ProgramToString _).1 (by decide)
      rw [hT, Trim_append_space _ (by simp) hne]
      refine ⟨by rw [hcs]; rfl, ?_, ?_⟩
      · apply not_switch_of_head
        rw [hcs]
        intro c' hc'
        simp at hc'
        subst hc'
        exact isNameChar_ne_s _ hcn
      · have hne2 : ProgramToString (o :: eq) ++ " =eq=".toList ≠ "empty".toList := by
          have := ProgramToString_ne_empty_word o eq " =eq=".toList
          exact this
        have hno : '=' ∉ ProgramToString (o :: eq) ++ [' '] := by
          intro hm
          rw [List.mem_append] at hm
          rcases hm with hm | hm
          · exact ProgramToString_no_eqsign _ hm
          · revert hm; decide
        have hf : strFind (ProgramToString (o :: eq) ++ " =eq=".toList) "=eq=".toList
            = some ((ProgramToString (o :: eq)).length + 1) := by
          have := findFrom_append '=' "eq=".toList (ProgramToString (o :: eq) ++ [' ']) [] 0 hno
          simpa [strFind] using this
        have htake : (ProgramToString (o :: eq) ++ " =eq=".toList).take
            ((ProgramToString (o :: eq)).length + 1) = ProgramToString (o :: eq) ++ [' '] := by
          have e : ProgramToString (o :: eq) ++ " =eq=".toList
              = ProgramToString (o :: eq) ++ ([' '] ++ "=eq=".toList) := rfl
          rw [e, List.take_append_eq_append_take]
          simp
        have hdrop : (ProgramToString (o :: eq) ++ " =eq=".toList).drop
            ((ProgramToString (o :: eq)).length + 1 + 4) = [] := by
          apply List.drop_eq_nil_of_le
          simp
        unfold SimpleCondProgram.ParseFromStringOrDie
        rw [if_neg hne2]
        simp only [hf]
        rw [htake, hdrop,
          Trim_append_space _ (ProgramToString_ne_nil o eq) (noEdgeSpace_ProgramToString _),
          Trim_of_noEdgeSpace _ noEdgeSpace_nil, ParseStringToProgramOrDie_ProgramToString _ he]
        rfl

theorem SimpleCondProgram_ToString_no_newline (p : SimpleCondProgram) : '\n' ∉ p.ToString := by
  have hp : ∀ q : Program, '\n' ∉ ProgramToString q := by
    intro q hm
    rcases ProgramToString_chars q _ hm with h | h
    · revert h; decide
    · revert h; decide
  unfold SimpleCondProgram.ToString
  split
  · split
    · decide
    · exact hp _
  · intro hm
    simp only [List.mem_append] at hm
    rcases hm with (hm | hm) | hm
    · exact hp _ hm
    · revert hm; decide
    · exact hp _ hm

theorem programLine_line (ss : StringSet) (p : BranchCondProgram) :
    TrimLeadingAndTrailingSpaces (programLine ss p) = programLine ss p ∧
    (programLine ss p).isEmpty = false ∧
    "switch".toList.isPrefixOf (programLine ss p) = true := by
  have e : programLine ss p = "switch ".toList ++ (ProgramToString p.cond.program ++ [':'] ++
      ((caseTargets p).map (fun n => caseLine ss p.per_case_p n ++ [';'])).flatten ++
      " else goto ".toList) ++ intToDec p.p_default := by
    simp [programLine, elseLine]
  refine ⟨?_, by rw [e]; rfl, ?_⟩
  · apply Trim_of_noEdgeSpace
    rw [e]
    exact noEdgeSpace_append _ _ (by simp) (intToDec_ne_nil _) (by simp) (intToDec_no_space _)
  · rw [e]
    simp [List.isPrefixOf]

theorem EntryOK_inSet {ss : StringSet} {e : Entry} (h : EntryOK ss e) : EntryInSet ss e := by
  cases e with
  | simple s => trivial
  | branched b => exact fun it hit => KeyOK_inSet (h.1.2.2.1 it hit).1

theorem entryLine_no_newline (ss : StringSet) (e : Entry) (h : EntryOK ss e) :
    '\n' ∉ entryLine ss e := by
  cases e with
  | simple s => exact SimpleCondProgram_ToString_no_newline s
  | branched b => exact h.2

theorem tgenText_split (ss : StringSet) (es : List Entry) (h : ∀ e ∈ es, EntryOK ss e) :
    SplitStringUsing (tgenText ss es) '\n' = es.map (entryLine ss) ++ [[]] := by
  have e : tgenText ss es = ((es.map (entryLine ss)).map (fun x => x ++ ['\n'])).flatten ++ [] := by
    rw [List.map_map, List.append_nil]; rfl
  rw [e, flatten_map_append_sep]
  unfold SplitStringUsing
  apply List.splitOn_intercalate
  · intro t ht
    simp only [List.mem_append, List.mem_map, List.mem_singleton] at ht
    rcases ht with ⟨x, hx, rfl⟩ | rfl
    · exact entryLine_no_newline ss x (h x hx)
    · simp
  · simp

theorem LoadLoop_entries (ss : StringSet) (hn : ss.strings.Nodup) (uninit : Int)
    (es : List Entry) (h : ∀ e ∈ es, EntryOK ss e) (t : TGenProgram) :
    LoadLoop uninit (es.map (entryLine ss) ++ [[]]) t ss = some (es.foldl addEntry t, ss) := by
  induction es generalizing t with
  | nil => rfl
  | cons e es ih =>
    have he := h e (by simp)
    have ih' := ih (fun x hx => h x (by simp [hx]))
    cases e with
    | simple s =>
      obtain ⟨h1, h2, h3⟩ := SimpleCondProgram_line s ⟨[], []⟩ he.1 he.2
      simp only [List.map_cons, List.cons_append, LoadLoop, entryLine, h1, h2, h3,
        Bool.false_eq_true, if_false, List.foldl_cons]
      exact ih' _
    | branched b =>
      obtain ⟨h1, h2, h3⟩ := programLine_line ss b
      have h4 := BranchCondProgram_parse_programLine ss hn b ⟨⟨[]⟩, [], uninit⟩ he.1
      simp only [List.map_cons, List.cons_append, LoadLoop, entryLine, h1, h2, h3, h4,
        Bool.false_eq_true, if_false, if_true, List.foldl_cons]
      exact ih' _

/-- C3, as stated, fails: the text with the single line `switch type: else goto 0` is loaded
(the shorthand `type` stands for `WRITE_TYPE`) and saved as `switch WRITE_TYPE: else goto 0`,
which differs from the text by more than white space. -/
theorem TGenProgram_roundtrip_counterexample :
    (TGenProgram.mk [] [] []).LoadFromStringOrDie ⟨[]⟩ 0 "switch type: else goto 0\n".toList
      = some (⟨[⟨.BRANCHED_PROGRAM, 0⟩], [⟨⟨[⟨.WRITE_TYPE, -1⟩]⟩, [], 0⟩], []⟩, ⟨[]⟩) ∧
    (TGenProgram.mk [⟨.BRANCHED_PROGRAM, 0⟩] [⟨⟨[⟨.WRITE_TYPE, -1⟩]⟩, [], 0⟩] []).SaveToString ⟨[]⟩
      = some "switch WRITE_TYPE: else goto 0\n".toList ∧
    wsWords "switch WRITE_TYPE: else goto 0\n".toList ≠ wsWords "switch type: else goto 0\n".toList := by
  decide

/-- C3, amended: for a string set without repeated strings and entries that satisfy `EntryOK`,
let `T` be the text with one line per entry. The lines of `T` are the lines of the entries
(followed by the empty piece after the last newline); loading `T` into any table gives the table
of the entries and leaves the string set as it was; saving that table gives `T` back; and entry
`i` of the table is serialized as the `i`-th line and is branched exactly when that line starts
with `switch`. -/
theorem TGenProgram_roundtrip (ss : StringSet) (es : List Entry) (prev : TGenProgram)
    (uninit : Int) (hn : ss.strings.Nodup) (h : ∀ e ∈ es, EntryOK ss e) :
    SplitStringUsing (tgenText ss es) '\n' = es.map (entryLine ss) ++ [[]] ∧
    prev.LoadFromStringOrDie ss uninit (tgenText ss es) = some (tableOf es, ss) ∧
    (tableOf es).SaveToString ss = some (tgenText ss es) ∧
    ∀ i (hi : i < es.length),
      (tableOf es).SaveProgramAtPosToString i ss = some (entryLine ss es[i]) ∧
      ((tableOf es).program_type i = some .BRANCHED_PROGRAM ↔
        "switch".toList.isPrefixOf (entryLine ss es[i]) = true) := by
  have hsplit := tgenText_split ss es h
  refine ⟨hsplit, ?_, SaveToString_tableOf ss es (fun e he => EntryOK_inSet (h e he)), ?_⟩
  · unfold TGenProgram.LoadFromStringOrDie
    rw [hsplit]
    exact LoadLoop_entries ss hn uninit es h _
  · intro i hi
    have hat : entryAt (tableOf es) i = some es[i] := by
      rw [(tableOf_spec es).2 i]; simp [hi]
    have hok := h es[i] (List.getElem_mem _)
    obtain ⟨h1, h2⟩ := SaveProgramAtPosToString_of_entryAt (tableOf es) ss i es[i] hat (EntryOK_inSet hok)
    refine ⟨h1, ?_⟩
    rw [h2]
    generalize es[i] = x at hok
    cases x with
    | simple s =>
      have hsw : "switch".toList.isPrefixOf s.ToString = false := by
        obtain ⟨eq, ctx⟩ := s
        cases eq with
        | nil =>
          cases ctx with
          | nil => decide
          | cons o ctx =>
            obtain ⟨c, cs, hcs, hcn⟩ := ProgramToString_head o ctx
            apply not_switch_of_head
            show ∀ c ∈ (ProgramToString (o :: ctx)).head?, c ≠ 's'
            rw [hcs]
            intro c' hc'
            simp at hc'
            subst hc'
            exact isNameChar_ne_s _ hcn
        | cons o eq =>
          obtain ⟨c, cs, hcs, hcn⟩ := ProgramToString_head o eq
          apply not_switch_of_head
          show ∀ c ∈ (ProgramToString (o :: eq) ++ " =eq= ".toList ++ ProgramToString ctx).head?,
            c ≠ 's'
          rw [hcs]
          intro c' hc'
          simp at hc'
          subst hc'
          exact isNameChar_ne_s _ hcn
      rw [show entryLine ss (Entry.simple s) = s.ToString from rfl, hsw]
      simp [entryType]
    | branched b =>
      rw [show entryLine ss (Entry.branched b) = programLine ss b from rfl,
        (programLine_line ss b).2.2]
      simp [entryType]

/-- Witness for the amended C3: the table of the test `LoadSave` cut to three entries, over the
string set `{Property}`. -/
theorem TGenProgram_roundtrip_witness :
    (StringSet.mk ["Property".toList]).strings.Nodup ∧
    (∀ e ∈ ([Entry.simple ⟨[], [⟨.WRITE_TYPE, -1⟩, ⟨.LEFT, -1⟩, ⟨.WRITE_TYPE, -1⟩]⟩,
        Entry.simple ⟨[⟨.LEFT, -1⟩], []⟩,
        Entry.branched ⟨⟨[⟨.WRITE_TYPE, -1⟩]⟩, [([0], 1)], 0⟩] : List Entry), EntryOK ⟨["Property".toList]⟩ e) ∧
    tgenText ⟨["Property".toList]⟩
        [Entry.simple ⟨[], [⟨.WRITE_TYPE, -1⟩, ⟨.LEFT, -1⟩, ⟨.WRITE_TYPE, -1⟩]⟩,
         Entry.simple ⟨[⟨.LEFT, -1⟩], []⟩,
         Entry.branched ⟨⟨[⟨.WRITE_TYPE, -1⟩]⟩, [([0], 1)], 0⟩]
      = ("WRITE_TYPE LEFT WRITE_TYPE\nLEFT =eq= \n" ++
          "switch WRITE_TYPE: on \"Property\" goto 1; else goto 0\n").toList ∧
    (TGenProgram.mk [] [] []).LoadFromStringOrDie ⟨["Property".toList]⟩ 0
        (tgenText ⟨["Property".toList]⟩
          [Entry.simple ⟨[], [⟨.WRITE_TYPE, -1⟩, ⟨.LEFT, -1⟩, ⟨.WRITE_TYPE, -1⟩]⟩,
           Entry.simple ⟨[⟨.LEFT, -1⟩], []⟩,
           Entry.branched ⟨⟨[⟨.WRITE_TYPE, -1⟩]⟩, [([0], 1)], 0⟩])
      = some (tableOf
          [Entry.simple ⟨[], [⟨.WRITE_TYPE, -1⟩, ⟨.LEFT, -1⟩, ⟨.WRITE_TYPE, -1⟩]⟩,
           Entry.simple ⟨[⟨.LEFT, -1⟩], []⟩,
           Entry.branched ⟨⟨[⟨.WRITE_TYPE, -1⟩]⟩, [([0], 1)], 0⟩], ⟨["Property".toList]⟩) :=
  ⟨by decide, by decide, by decide,
   (TGenProgram_roundtrip ⟨["Property".toList]⟩
      [Entry.simple ⟨[], [⟨.WRITE_TYPE, -1⟩, ⟨.LEFT, -1⟩, ⟨.WRITE_TYPE, -1⟩]⟩,
       Entry.simple ⟨[⟨.LEFT, -1⟩], []⟩,
       Entry.branched ⟨⟨[⟨.WRITE_TYPE, -1⟩]⟩, [([0], 1)], 0⟩]
      ⟨[], [], []⟩ 0 (by decide) (by decide)).2.1⟩

/-- C9: `SlicedTreeTraversal::node` at a sliced position other than the begin node returns the
empty node, whose eight fields are all `-1`; at the begin node of the slice it returns value `-1`,
type `-1` or, when reading the type of the begin node is allowed, the `Type()` of the stored node,
the stored `child_index`, `left_sib` and `parent`, and `-1` for `first_child`, `last_child` and
`right_sib`; at a position that is not sliced, or without a slice, it returns the stored node. -/
theorem SlicedTreeTraversal_node_cases (m : Memory) (t : SlicedTreeTraversal) :
    (∀ sl, t.slice_ = some sl → sl.IsNodeSliced t.storage_ t.position_ = true →
        t.position_ ≠ sl.begin_ →
        t.node m = some { type := -1, value := -1, parent := -1, left_sib := -1, right_sib := -1,
                          first_child := -1, last_child := -1, child_index := -1 }) ∧
    (∀ sl, t.slice_ = some sl → sl.IsNodeSliced t.storage_ t.position_ = true →
        t.position_ = sl.begin_ →
        t.node m = (m.nodeAt t.storage_ t.position_).map
          (beginNodeView sl.allow_reading_type_for_begin_node_)) ∧
    (t.sliced t.storage_ t.position_ = false → t.node m = m.nodeAt t.storage_ t.position_) := by
  refine ⟨?_, ?_, ?_⟩
  · intro sl hsl hs hb
    simp [SlicedTreeTraversal.node, hsl, hs, hb, TreeNode.EMPTY_NODE, EMPTY_NODE_LABEL]
  · intro sl hsl hs hb
    rw [hb] at hs
    simp only [SlicedTreeTraversal.node, hsl, hs, hb, if_true]
    cases m.nodeAt t.storage_ sl.begin_ with
    | none => rfl
    | some n =>
      cases ha : sl.allow_reading_type_for_begin_node_ <;>
        simp [beginNodeView, ha, TreeNode.SetType, TreeNode.EMPTY_NODE, EMPTY_NODE_LABEL]
  · intro hs
    unfold SlicedTreeTraversal.sliced at hs
    unfold SlicedTreeTraversal.node
    cases hsl : t.slice_ with
    | none => rfl
    | some sl =>
      rw [hsl] at hs
      have hs2 : sl.IsNodeSliced t.storage_ t.position_ = false := hs
      simp [hs2]

/-- Instance of the three cases of `node` on the test tree `[7 [3] [4]]` with the slice that
begins at node 1 and allows reading the type of the begin node. -/
theorem SlicedTreeTraversal_node_cases_witness :
    (SlicedTreeTraversal.create (some 0) 2
        (TreeSlice.ofBegin [test_root_tree] 0 1 true)).node [test_root_tree]
      = some { type := -1, value := -1, parent := -1, left_sib := -1, right_sib := -1,
               first_child := -1, last_child := -1, child_index := -1 } ∧
    (SlicedTreeTraversal.create (some 0) 1
        (TreeSlice.ofBegin [test_root_tree] 0 1 true)).node [test_root_tree]
      = (Memory.nodeAt [test_root_tree] (some 0) 1).map (beginNodeView true) ∧
    (SlicedTreeTraversal.create (some 0) 0
        (TreeSlice.ofBegin [test_root_tree] 0 1 true)).node [test_root_tree]
      = Memory.nodeAt [test_root_tree] (some 0) 0 :=
  ⟨(SlicedTreeTraversal_node_cases [test_root_tree]
      (SlicedTreeTraversal.create (some 0) 2 (TreeSlice.ofBegin [test_root_tree] 0 1 true))).1
      _ rfl (by decide) (by decide),
   (SlicedTreeTraversal_node_cases [test_root_tree]
      (SlicedTreeTraversal.create (some 0) 1 (TreeSlice.ofBegin [test_root_tree] 0 1 true))).2.1
      _ rfl (by decide) (by decide),
   (SlicedTreeTraversal_node_cases [test_root_tree]
      (SlicedTreeTraversal.create (some 0) 0 (TreeSlice.ofBegin [test_root_tree] 0 1 true))).2.2
      (by decide)⟩

/-- C8 (failing input): in the state of the test `FullTraversalSlice2` (the overlay `second_tree`
is attached at node 2, the last child of the root, and the slice begins at that node), after the
sliced traversal moved up out of the overlay, the last child of its node is the sliced begin
node, and `down_last_child` returns true and moves into the overlay. -/
theorem down_last_child_enters_overlay_at_sliced_last_child :
    ∃ sl t1,
      TreeSlice.ofBegin (test_memory 2) 0 2 false = some sl ∧
      (SlicedTreeTraversal.create (some 1) 0 (some sl)).up (test_memory 2) = some (true, t1) ∧
      (t1.storage_, t1.position_) = (some 0, 0) ∧
      ((test_memory 2).nodeAt t1.storage_ t1.position_).map TreeNode.last_child = some 2 ∧
      sl.IsNodeSliced t1.storage_ 2 = true ∧
      ∃ t2, t1.down_last_child (test_memory 2) = some (true, t2) ∧
        (t2.storage_, t2.position_) = (some 1, 0) :=
  ⟨_, _, rfl, rfl, rfl, rfl, rfl, _, rfl, rfl⟩

/-- The moves `down_first_child` and `down_last_child` of every traversal, and every move of the
local traversals, leave the traversal unchanged when they return false. -/
theorem local_and_down_moves_unmoved_on_false (m : Memory) :
    (∀ (t t1 : LocalTreeTraversal),
      (t.up m = some (false, t1) ∨ t.left m = some (false, t1) ∨ t.right m = some (false, t1) ∨
        t.down_first_child m = some (false, t1) ∨ t.down_last_child m = some (false, t1)) →
      t1 = t) ∧
    (∀ (t t1 : FullTreeTraversal),
      (t.down_first_child m = some (false, t1) ∨ t.down_last_child m = some (false, t1)) →
      t1 = t) ∧
    (∀ (t t1 : SlicedTreeTraversal),
      (t.down_first_child m = some (false, t1) ∨ t.down_last_child m = some (false, t1)) →
      t1 = t) := by
  refine ⟨?_, ?_, ?_⟩
  · intro t t1 h
    simp only [LocalTreeTraversal.up, LocalTreeTraversal.left, LocalTreeTraversal.right,
      LocalTreeTraversal.down_first_child, LocalTreeTraversal.down_last_child] at h
    cases hn : t.node m with
    | none => simp [hn] at h
    | some n =>
      simp only [hn, Option.map_some', Option.some.injEq] at h
      rcases h with h | h | h | h | h <;> split at h <;> simp_all
  · intro t t1 h
    simp only [FullTreeTraversal.down_first_child, FullTreeTraversal.down_last_child] at h
    cases hn : t.node m with
    | none => simp [hn] at h
    | some n =>
      simp only [hn, Option.map_some', Option.some.injEq] at h
      rcases h with h | h <;> split at h <;> simp_all
  · intro t t1 h
    simp only [SlicedTreeTraversal.down_first_child, SlicedTreeTraversal.down_last_child] at h
    cases hn : m.nodeAt t.storage_ t.position_ with
    | none => simp [hn] at h
    | some n =>
      simp only [hn, Option.some_bind] at h
      rcases h with h | h
      · split at h
        · simp_all
        · split at h
          · cases hsub : t.move_to_subtree_storage <;> simp [hsub] at h
          · split at h <;> simp_all
      · split at h
        · simp_all
        · split at h
          · cases hsub : t.move_to_subtree_storage <;> simp [hsub] at h
          · split at h
            · simp_all
            · cases hc : m.nodeAt t.storage_ n.last_child with
              | none => simp [hc] at h
              | some c =>
                simp only [hc, Option.map_some', Option.some.injEq] at h
                split at h <;> simp_all

/-- C10 (failing inputs): a move that returns false can leave the traversal elsewhere. A full
traversal at the root of an overlay store attached at the root of its parent store (its `parent`
pointer is `TREEPOINTER_VALUE_IN_PARENT`) returns false from `up` and ends in the parent store.
In the state of the test `FullTraversalSlice` the sliced traversal at the root of `second_tree`
returns false from `right` and ends at node 1 of `root_tree`. -/
theorem failed_move_leaves_overlay :
    (∃ overlay,
      TreeStorage.createAttached [TreeStorage.create] 0 0 = some overlay ∧
      (Memory.nodeAt [TreeStorage.create, overlay] (some 1) 0).map TreeNode.parent
        = some TREEPOINTER_VALUE_IN_PARENT ∧
      FullTreeTraversal.up [TreeStorage.create, overlay] { storage_ := some 1, position_ := 0 }
        = some (false, { storage_ := some 0, position_ := 0 })) ∧
    (∃ sl t1,
      TreeSlice.ofBegin (test_memory 1) 0 1 false = some sl ∧
      (SlicedTreeTraversal.create (some 1) 0 (some sl)).right (test_memory 1) = some (false, t1) ∧
      (t1.storage_, t1.position_) = (some 0, 1)) :=
  ⟨⟨_, rfl, rfl, rfl⟩, ⟨_, _, rfl, rfl, rfl⟩⟩

/-- On a map in key order `find` returns the value stored under the key. -/
theorem mapFind_eq_some_iff (cm : CaseMap) (hm : SortedMap cm) (k : List Int) (v : Int) :
    mapFind cm k = some v ↔ (k, v) ∈ cm := by
  induction cm with
  | nil => simp [mapFind]
  | cons a cm ih =>
    obtain ⟨k', v'⟩ := a
    have hp := List.pairwise_cons.mp hm
    have hm' : SortedMap cm := hp.2
    have hlt : ∀ e ∈ cm, vecLt k' e.1 = true := hp.1
    simp only [mapFind, List.mem_cons, Prod.mk.injEq]
    cases h1 : vecLt k k' with
    | true =>
      simp only [↓reduceIte]
      constructor
      · intro h; cases h
      · rintro (⟨hk, _⟩ | hmem)
        · rw [hk, vecLt_irrefl] at h1; cases h1
        · have h2 := hlt _ hmem
          have h3 := vecLt_trans k k' k h1 h2
          rw [vecLt_irrefl] at h3; cases h3
    | false =>
      simp only [Bool.false_eq_true, ↓reduceIte]
      cases h2 : vecLt k' k with
      | true =>
        simp only [↓reduceIte]
        rw [ih hm']
        constructor
        · intro h; exact Or.inr h
        · rintro (⟨hk, _⟩ | hmem)
          · rw [hk, vecLt_irrefl] at h2; cases h2
          · exact hmem
      | false =>
        simp only [Bool.false_eq_true, ↓reduceIte, Option.some.injEq]
        have hk : k = k' := vecLt_total k k' h1 h2
        constructor
        · intro h; exact Or.inl ⟨hk, h.symm⟩
        · rintro (⟨_, hv⟩ | hmem)
          · exact hv.symm
          · have h3 := hlt _ hmem
            simp only at h3
            rw [← hk, vecLt_irrefl] at h3; cases h3

/-- The program that a branched program calls for the context `v`: the value stored under `v`
when `v` is a key, and the default program otherwise. -/
theorem called_p_spec (curr : BranchCondProgram) (hm : SortedMap curr.per_case_p) (v : List Int) :
    (∀ id, (v, id) ∈ curr.per_case_p → curr.called_p v = id) ∧
    ((∀ id, (v, id) ∉ curr.per_case_p) → curr.called_p v = curr.p_default) := by
  unfold BranchCondProgram.called_p
  constructor
  · intro id hmem
    rw [(mapFind_eq_some_iff _ hm v id).mpr hmem]
  · intro hno
    cases hf : mapFind curr.per_case_p v with
    | none => rfl
    | some id => exact absurd ((mapFind_eq_some_iff _ hm v id).mp hf) (hno id)

/-- C6: `TGenModel::GetSubmodelBranch` runs the condition program of the branched program on a
new sliced traversal at the position of the sample, which it receives by value; when the run
emits the vector `v` it returns the program stored under `v` if `v` is a key of `per_case_p` and
`p_default` otherwise. `ExecuteContextProgram` for a branched program selects the callee in the
same way, running the condition on a copy, and calls it on the traversal it was given. -/
theorem GetSubmodelBranch_selects_case (FingerprintCat : Int → Int → Int) (m : Memory)
    (fuel : Nat) (self : TGenModel) (program_id : Nat) (exec : ExecutionForTree)
    (sample : FullTreeTraversal) (slice : Option TreeSlice) (program : BranchCondProgram)
    (v : List Int) (moved : SlicedTreeTraversal)
    (hprog : self.program_.branched_prog program_id = some program)
    (hsorted : SortedMap program.per_case_p)
    (hrun : exec.GetConditionedFeaturesForPosition FingerprintCat m fuel program.cond.program
        (SlicedTreeTraversal.create sample.storage_ sample.position_ slice) = some (v, moved)) :
    (∀ id, (v, id) ∈ program.per_case_p →
      self.GetSubmodelBranch FingerprintCat m fuel program_id exec sample slice = some id ∧
      ∀ depth, ExecuteContextProgram FingerprintCat m fuel exec self.program_ depth
          (SlicedTreeTraversal.create sample.storage_ sample.position_ slice) program
        = ExecuteContextProgramByIdInAll FingerprintCat m fuel exec self.program_ depth
          (SlicedTreeTraversal.create sample.storage_ sample.position_ slice) id) ∧
    ((∀ id, (v, id) ∉ program.per_case_p) →
      self.GetSubmodelBranch FingerprintCat m fuel program_id exec sample slice
        = some program.p_default ∧
      ∀ depth, ExecuteContextProgram FingerprintCat m fuel exec self.program_ depth
          (SlicedTreeTraversal.create sample.storage_ sample.position_ slice) program
        = ExecuteContextProgramByIdInAll FingerprintCat m fuel exec self.program_ depth
          (SlicedTreeTraversal.create sample.storage_ sample.position_ slice)
          program.p_default) := by
  have hsel := called_p_spec program hsorted v
  have hG : self.GetSubmodelBranch FingerprintCat m fuel program_id exec sample slice
      = some (program.called_p v) := by
    simp [TGenModel.GetSubmodelBranch, hprog, hrun]
  have hE : ∀ depth, ExecuteContextProgram FingerprintCat m fuel exec self.program_ depth
      (SlicedTreeTraversal.create sample.storage_ sample.position_ slice) program
      = ExecuteContextProgramByIdInAll FingerprintCat m fuel exec self.program_ depth
        (SlicedTreeTraversal.create sample.storage_ sample.position_ slice)
        (program.called_p v) := by
    intro depth
    simp [ExecuteContextProgram, hrun]
  constructor
  · intro id hid
    rw [hG, hsel.1 id hid]
    exact ⟨rfl, fun depth => by rw [hE depth, hsel.1 id hid]⟩
  · intro hno
    rw [hG, hsel.2 hno]
    exact ⟨rfl, fun depth => by rw [hE depth, hsel.2 hno]⟩

/-- Instance on the tree of the test `SimpleProgramExecution`: at node 5 with the slice that
begins there, the condition `UP WRITE_TYPE` emits `[4]` and moves its traversal to node 3, and
the program stored under `[4]` is returned and is called at node 5. -/
theorem GetSubmodelBranch_selects_case_witness :
    ExecutionForTree.create test_FingerprintCat [test_tcond_tree] (some 0) = some test_exec ∧
    TreeSlice.ofBegin [test_tcond_tree] 0 5 true = some (test_slice true) ∧
    test_exec.GetConditionedFeaturesForPosition test_FingerprintCat [test_tcond_tree] 7
        [⟨.UP, -1⟩, ⟨.WRITE_TYPE, -1⟩] (SlicedTreeTraversal.create (some 0) 5 (some (test_slice true)))
      = some ([4], SlicedTreeTraversal.create (some 0) 3 (some (test_slice true))) ∧
    test_model.GetSubmodelBranch test_FingerprintCat [test_tcond_tree] 7 0 test_exec
        { storage_ := some 0, position_ := 5 } (some (test_slice true)) = some 1 ∧
    ExecuteContextProgram test_FingerprintCat [test_tcond_tree] 7 test_exec test_model.program_ 1
        (SlicedTreeTraversal.create (some 0) 5 (some (test_slice true)))
        { cond := BranchCond.ofPredefined .PARENT_TYPE_COND, per_case_p := [([4], 1)],
          p_default := 2 }
      = ExecuteContextProgramByIdInAll test_FingerprintCat [test_tcond_tree] 7 test_exec
          test_model.program_ 1 (SlicedTreeTraversal.create (some 0) 5 (some (test_slice true))) 1 ∧
    ExecuteContextProgramByIdInAll test_FingerprintCat [test_tcond_tree] 7 test_exec
        test_model.program_ 1 (SlicedTreeTraversal.create (some 0) 5 (some (test_slice true))) 1
      = some ([2], SlicedTreeTraversal.create (some 0) 5 (some (test_slice true))) :=
  ⟨rfl, rfl, rfl,
    ((GetSubmodelBranch_selects_case test_FingerprintCat [test_tcond_tree] 7 test_model 0
        test_exec { storage_ := some 0, position_ := 5 } (some (test_slice true))
        { cond := BranchCond.ofPredefined .PARENT_TYPE_COND, per_case_p := [([4], 1)],
          p_default := 2 }
        [4] (SlicedTreeTraversal.create (some 0) 3 (some (test_slice true)))
        rfl (by decide) rfl).1 1 (by decide)).1,
    ((GetSubmodelBranch_selects_case test_FingerprintCat [test_tcond_tree] 7 test_model 0
        test_exec { storage_ := some 0, position_ := 5 } (some (test_slice true))
        { cond := BranchCond.ofPredefined .PARENT_TYPE_COND, per_case_p := [([4], 1)],
          p_default := 2 }
        [4] (SlicedTreeTraversal.create (some 0) 3 (some (test_slice true)))
        rfl (by decide) rfl).1 1 (by decide)).2 1,
    rfl⟩

theorem nodeAt_single (s : TreeStorage) (i : Int) :
    Memory.nodeAt [s] (some 0) i = s.nodeAt i := by
  simp [Memory.nodeAt]

theorem canonical_node (s : TreeStorage) (hcan : Canonical s) (i : Int) (h0 : 0 ≤ i)
    (hN : i < s.nodes_.length) :
    ∃ n, Memory.nodeAt [s] (some 0) i = some n ∧ n.PreOrderAt i.toNat s.nodes_.length := by
  have hlt : i.toNat < s.nodes_.length := by omega
  refine ⟨s.nodes_[i.toNat], ?_, ?_⟩
  · simp [nodeAt_single, TreeStorage.nodeAt, h0, List.getElem?_eq_getElem hlt]
  · exact hcan.2.2 (i.toNat, s.nodes_[i.toNat])
      (List.mk_mem_enum_iff_getElem?.mpr (List.getElem?_eq_getElem hlt))

theorem sliced_sliceFrom (begin : Int) (N : Nat) (allow : Bool) (pos x : Int) :
    (atPos (sliceFrom begin N allow) pos).sliced (atPos (sliceFrom begin N allow) pos).storage_ x
      = (decide (begin ≤ x) && decide (x < N)) := by
  simp [atPos, sliceFrom, SlicedTreeTraversal.create, SlicedTreeTraversal.sliced,
    TreeSlice.IsNodeSliced]

theorem isBegin_sliceFrom (begin : Int) (N : Nat) (allow : Bool) (pos x : Int) :
    (atPos (sliceFrom begin N allow) pos).isBegin x = decide (x = begin) := by
  simp [atPos, sliceFrom, SlicedTreeTraversal.create, SlicedTreeTraversal.isBegin]

theorem resolve_atPos (s : TreeStorage) (sl : TreeSlice) (pos ptr : Int)
    (field : TreeNode → Int) (h : -1 ≤ ptr) :
    (atPos sl pos).resolve [s] ptr field = some (atPos sl pos, ptr) := by
  have : ptr ≠ TREEPOINTER_VALUE_IN_PARENT := by
    unfold TREEPOINTER_VALUE_IN_PARENT; omega
  simp [SlicedTreeTraversal.resolve, this]

theorem atPos_storage (sl : TreeSlice) (pos : Int) : (atPos sl pos).storage_ = some 0 := rfl
theorem atPos_position (sl : TreeSlice) (pos : Int) : (atPos sl pos).position_ = pos := rfl
theorem atPos_with_position (sl : TreeSlice) (pos x : Int) :
    { atPos sl pos with position_ := x } = atPos sl x := rfl

theorem left_atPos (s : TreeStorage) (begin : Int) (allow : Bool) (pos : Int) (n : TreeNode)
    (hpos : 0 ≤ pos ∧ pos ≤ begin)
    (hn : Memory.nodeAt [s] (some 0) pos = some n)
    (hpre : n.PreOrderAt pos.toNat s.nodes_.length) :
    (atPos (sliceFrom begin s.nodes_.length allow) pos).left [s]
      = some (if n.left_sib < 0 then (false, atPos (sliceFrom begin s.nodes_.length allow) pos)
              else (true, atPos (sliceFrom begin s.nodes_.length allow) n.left_sib)) := by
  obtain ⟨_, ⟨hl1, hl2⟩, _⟩ := hpre
  unfold SlicedTreeTraversal.left
  rw [atPos_storage, atPos_position, hn]
  simp only [Option.some_bind, resolve_atPos s _ pos n.left_sib _ hl1]
  by_cases hneg : n.left_sib < 0
  · simp [hneg]
  · have h1 : ¬ (begin ≤ n.left_sib) := by omega
    simp [hneg, sliced_sliceFrom, h1, atPos_with_position]

theorem up_atPos (s : TreeStorage) (begin : Int) (allow : Bool) (pos : Int) (n : TreeNode)
    (hpos : 0 ≤ pos ∧ pos ≤ begin)
    (hn : Memory.nodeAt [s] (some 0) pos = some n)
    (hpre : n.PreOrderAt pos.toNat s.nodes_.length) :
    (atPos (sliceFrom begin s.nodes_.length allow) pos).up [s]
      = some (if n.parent < 0 then (false, atPos (sliceFrom begin s.nodes_.length allow) pos)
              else (true, atPos (sliceFrom begin s.nodes_.length allow) n.parent)) := by
  obtain ⟨⟨hl1, hl2⟩, _⟩ := hpre
  unfold SlicedTreeTraversal.up
  rw [atPos_storage, atPos_position, hn]
  simp only [Option.some_bind, resolve_atPos s _ pos n.parent _ hl1]
  by_cases hneg : n.parent < 0
  · simp [hneg]
  · have h1 : ¬ (begin ≤ n.parent) := by omega
    simp [hneg, sliced_sliceFrom, h1, atPos_with_position]

theorem node_atPos (s : TreeStorage) (begin : Int) (allow : Bool) (pos : Int) (n : TreeNode)
    (hpos : 0 ≤ pos ∧ pos ≤ begin) (hb : begin < s.nodes_.length)
    (hn : Memory.nodeAt [s] (some 0) pos = some n) :
    (atPos (sliceFrom begin s.nodes_.length allow) pos).node [s]
      = some (if pos = begin then beginNodeView allow n else n) := by
  unfold SlicedTreeTraversal.node
  by_cases hpb : pos = begin
  · subst hpb
    cases allow <;>
      simp [atPos, sliceFrom, SlicedTreeTraversal.create, TreeSlice.IsNodeSliced, hn, hb,
        beginNodeView, TreeNode.SetType, TreeNode.EMPTY_NODE, EMPTY_NODE_LABEL] at hn ⊢
  · have : ¬ (begin ≤ pos) := by omega
    simp [atPos, sliceFrom, SlicedTreeTraversal.create, TreeSlice.IsNodeSliced, this, hpb] at hn ⊢
    exact hn

theorem can_move_to_subtree_atPos (sl : TreeSlice) (pos x : Int) :
    (atPos sl pos).can_move_to_subtree_storage x = false := by
  simp [atPos, SlicedTreeTraversal.create, SlicedTreeTraversal.can_move_to_subtree_storage]

theorem right_atPos (s : TreeStorage) (begin : Int) (allow : Bool) (pos : Int) (n : TreeNode)
    (hpos : 0 ≤ pos ∧ pos ≤ begin) (hb : begin < s.nodes_.length)
    (hn : Memory.nodeAt [s] (some 0) pos = some n)
    (hpre : n.PreOrderAt pos.toNat s.nodes_.length) :
    (atPos (sliceFrom begin s.nodes_.length allow) pos).right [s]
      = some (if pos = begin ∨ n.right_sib < 0 ∨ begin < n.right_sib
              then (false, atPos (sliceFrom begin s.nodes_.length allow) pos)
              else (true, atPos (sliceFrom begin s.nodes_.length allow) n.right_sib)) := by
  obtain ⟨_, _, hr, _⟩ := hpre
  unfold SlicedTreeTraversal.right
  rw [node_atPos s begin allow pos n hpos hb hn]
  by_cases hpb : pos = begin
  · have h1 : (beginNodeView allow n).right_sib = -1 := rfl
    simp only [hpb, if_true, Option.some_bind, h1]
    rw [← hpb, resolve_atPos s _ pos (-1) _ (by omega)]
    simp
  · have h1 : -1 ≤ n.right_sib := by omega
    simp only [hpb, if_false, Option.some_bind, resolve_atPos s _ pos n.right_sib _ h1]
    by_cases hneg : n.right_sib < 0
    · simp [hneg]
    · by_cases hgt : begin < n.right_sib
      · have h2 : begin ≤ n.right_sib := by omega
        have h3 : n.right_sib < s.nodes_.length := by omega
        have h4 : ¬ (n.right_sib = begin) := by omega
        simp [hneg, hgt, sliced_sliceFrom, isBegin_sliceFrom, h2, h3, h4]
      · by_cases h5 : n.right_sib = begin
        · have hb0 : ¬ (begin < 0) := by omega
          simp [hneg, hgt, sliced_sliceFrom, isBegin_sliceFrom, h5, atPos_with_position, hb0]
        · have h2 : ¬ (begin ≤ n.right_sib) := by omega
          simp [hneg, hgt, sliced_sliceFrom, isBegin_sliceFrom, h2, atPos_with_position]

theorem down_first_child_atPos (s : TreeStorage) (begin : Int) (allow : Bool) (pos : Int)
    (n : TreeNode)
    (hn : Memory.nodeAt [s] (some 0) pos = some n)
    (hpre : n.PreOrderAt pos.toNat s.nodes_.length) :
    (atPos (sliceFrom begin s.nodes_.length allow) pos).down_first_child [s]
      = some (if n.first_child < 0 ∨ begin < n.first_child
              then (false, atPos (sliceFrom begin s.nodes_.length allow) pos)
              else (true, atPos (sliceFrom begin s.nodes_.length allow) n.first_child)) := by
  obtain ⟨_, _, _, hc, _⟩ := hpre
  unfold SlicedTreeTraversal.down_first_child
  rw [atPos_storage, atPos_position, hn]
  simp only [Option.some_bind, can_move_to_subtree_atPos]
  by_cases hneg : n.first_child < 0
  · simp [hneg]
  · by_cases hgt : begin < n.first_child
    · have h2 : begin ≤ n.first_child := by omega
      have h3 : n.first_child < s.nodes_.length := by omega
      have h4 : ¬ (n.first_child = begin) := by omega
      have := sliced_sliceFrom begin s.nodes_.length allow pos n.first_child
      rw [atPos_storage] at this
      simp [hneg, hgt, this, isBegin_sliceFrom, h2, h3, h4]
    · have := sliced_sliceFrom begin s.nodes_.length allow pos n.first_child
      rw [atPos_storage] at this
      by_cases h5 : n.first_child = begin
      · have hb0 : ¬ (begin < 0) := by omega
        simp [hneg, hgt, this, isBegin_sliceFrom, h5, hb0]
        rfl
      · have h2 : ¬ (begin ≤ n.first_child) := by omega
        simp [hneg, hgt, this, isBegin_sliceFrom, h2]
        rfl

theorem down_last_child_atPos (s : TreeStorage) (begin : Int) (allow : Bool) (pos : Int)
    (n : TreeNode)
    (hn : Memory.nodeAt [s] (some 0) pos = some n)
    (hpre : n.PreOrderAt pos.toNat s.nodes_.length) :
    (atPos (sliceFrom begin s.nodes_.length allow) pos).down_last_child [s]
      = if n.last_child < 0 ∨ begin ≤ n.last_child
        then some (false, atPos (sliceFrom begin s.nodes_.length allow) pos)
        else (Memory.nodeAt [s] (some 0) n.last_child).map fun c =>
          if c.HasNonTerminal then (false, atPos (sliceFrom begin s.nodes_.length allow) pos)
          else (true, atPos (sliceFrom begin s.nodes_.length allow) n.last_child) := by
  obtain ⟨_, _, _, _, hc, _⟩ := hpre
  unfold SlicedTreeTraversal.down_last_child
  rw [atPos_storage, atPos_position, hn]
  simp only [Option.some_bind, can_move_to_subtree_atPos]
  have := sliced_sliceFrom begin s.nodes_.length allow pos n.last_child
  rw [atPos_storage] at this
  by_cases hneg : n.last_child < 0
  · simp [hneg]
  · by_cases hge : begin ≤ n.last_child
    · have h3 : n.last_child < s.nodes_.length := by omega
      simp [hneg, hge, this, h3]
    · simp [hneg, hge, this]
      rfl
theorem equiv_node (begin : Int) (allow : Bool) (sA sB : TreeStorage)
    (heq : SliceEquivalent begin allow sA sB) (i : Int) (a : TreeNode)
    (ha : Memory.nodeAt [sA] (some 0) i = some a) :
    ∃ b, Memory.nodeAt [sB] (some 0) i = some b ∧ NodeEquiv begin allow i.toNat a b := by
  rw [nodeAt_single] at ha
  unfold TreeStorage.nodeAt at ha
  by_cases h0 : 0 ≤ i
  · simp only [h0, if_true] at ha
    have hlt : i.toNat < sA.nodes_.length := by
      by_contra hc
      rw [List.getElem?_eq_none (by omega)] at ha
      cases ha
    have hltB : i.toNat < sB.nodes_.length := by rw [← heq.1]; exact hlt
    refine ⟨sB.nodes_[i.toNat], ?_, ?_⟩
    · simp [nodeAt_single, TreeStorage.nodeAt, h0, List.getElem?_eq_getElem hltB]
    · have hz : (sA.nodes_.zip sB.nodes_)[i.toNat]? = some (a, sB.nodes_[i.toNat]) :=
        List.getElem?_zip_eq_some.mpr ⟨ha, List.getElem?_eq_getElem hltB⟩
      exact heq.2 (i.toNat, (a, sB.nodes_[i.toNat])) (List.mk_mem_enum_iff_getElem?.mpr hz)
  · simp [h0] at ha

/-- The nodes of two equivalent stores in pre-order at a position of the store. -/
theorem both_nodes (begin : Int) (allow : Bool) (sA sB : TreeStorage)
    (hcanA : Canonical sA) (hcanB : Canonical sB)
    (heq : SliceEquivalent begin allow sA sB) (i : Int) (h0 : 0 ≤ i)
    (hN : i < sA.nodes_.length) :
    ∃ a b, Memory.nodeAt [sA] (some 0) i = some a ∧ Memory.nodeAt [sB] (some 0) i = some b ∧
      a.PreOrderAt i.toNat sA.nodes_.length ∧ b.PreOrderAt i.toNat sA.nodes_.length ∧
      NodeEquiv begin allow i.toNat a b := by
  obtain ⟨a, ha, hpa⟩ := canonical_node sA hcanA i h0 hN
  obtain ⟨b, hb, hab⟩ := equiv_node begin allow sA sB heq i a ha
  obtain ⟨b', hb', hpb⟩ := canonical_node sB hcanB i h0 (by rw [← heq.1]; exact hN)
  rw [hb] at hb'
  cases hb'
  rw [← heq.1] at hpb
  exact ⟨a, b, ha, hb, hpa, hpb, hab⟩

theorem left_agree (begin : Int) (allow : Bool) (sA sB : TreeStorage)
    (hcanA : Canonical sA) (hcanB : Canonical sB)
    (heq : SliceEquivalent begin allow sA sB) (hb : begin < sA.nodes_.length)
    (pos : Int) (hpos : 0 ≤ pos ∧ pos ≤ begin) :
    MoveAgree SlicedTreeTraversal.left sA sB (sliceFrom begin sA.nodes_.length allow) begin pos
      false := by
  obtain ⟨a, b, ha, hbn, hpa, hpb, hab⟩ :=
    both_nodes begin allow sA sB hcanA hcanB heq pos hpos.1 (by omega)
  have hA := left_atPos sA begin allow pos a hpos ha hpa
  have hB := left_atPos sB begin allow pos b hpos hbn (heq.1 ▸ hpb)
  rw [← heq.1, ← hab.2.1] at hB
  obtain ⟨_, ⟨hl1, hl2⟩, _⟩ := hpa
  unfold MoveAgree
  by_cases hneg : a.left_sib < 0
  · refine ⟨false, pos, ?_, ?_, hpos.1, hpos.2, fun _ => rfl, by simp⟩
    · rw [hA]; simp [hneg]
    · rw [hB]; simp [hneg]
  · refine ⟨true, a.left_sib, ?_, ?_, by omega, by omega, by simp, ?_⟩
    · rw [hA]; simp [hneg]
    · rw [hB]; simp [hneg]
    · intro _; simp; omega

theorem up_agree (begin : Int) (allow : Bool) (sA sB : TreeStorage)
    (hcanA : Canonical sA) (hcanB : Canonical sB)
    (heq : SliceEquivalent begin allow sA sB) (hb : begin < sA.nodes_.length)
    (pos : Int) (hpos : 0 ≤ pos ∧ pos ≤ begin) :
    MoveAgree SlicedTreeTraversal.up sA sB (sliceFrom begin sA.nodes_.length allow) begin pos
      false := by
  obtain ⟨a, b, ha, hbn, hpa, hpb, hab⟩ :=
    both_nodes begin allow sA sB hcanA hcanB heq pos hpos.1 (by omega)
  have hA := up_atPos sA begin allow pos a hpos ha hpa
  have hB := up_atPos sB begin allow pos b hpos hbn (heq.1 ▸ hpb)
  rw [← heq.1, ← hab.1] at hB
  obtain ⟨⟨hl1, hl2⟩, _⟩ := hpa
  unfold MoveAgree
  by_cases hneg : a.parent < 0
  · refine ⟨false, pos, ?_, ?_, hpos.1, hpos.2, fun _ => rfl, by simp⟩
    · rw [hA]; simp [hneg]
    · rw [hB]; simp [hneg]
  · refine ⟨true, a.parent, ?_, ?_, by omega, by omega, by simp, ?_⟩
    · rw [hA]; simp [hneg]
    · rw [hB]; simp [hneg]
    · intro _; simp; omega

theorem right_agree (begin : Int) (allow : Bool) (sA sB : TreeStorage)
    (hcanA : Canonical sA) (hcanB : Canonical sB)
    (heq : SliceEquivalent begin allow sA sB) (hb : begin < sA.nodes_.length)
    (pos : Int) (hpos : 0 ≤ pos ∧ pos ≤ begin) :
    MoveAgree SlicedTreeTraversal.right sA sB (sliceFrom begin sA.nodes_.length allow) begin pos
      true := by
  obtain ⟨a, b, ha, hbn, hpa, hpb, hab⟩ :=
    both_nodes begin allow sA sB hcanA hcanB heq pos hpos.1 (by omega)
  have hA := right_atPos sA begin allow pos a hpos hb ha hpa
  have hB := right_atPos sB begin allow pos b hpos (heq.1 ▸ hb) hbn (heq.1 ▸ hpb)
  rw [← heq.1, ← hab.2.2.1] at hB
  obtain ⟨_, _, hr, _⟩ := hpa
  unfold MoveAgree
  by_cases hc : pos = begin ∨ a.right_sib < 0 ∨ begin < a.right_sib
  · refine ⟨false, pos, ?_, ?_, hpos.1, hpos.2, fun _ => rfl, by simp⟩
    · rw [hA]; simp [hc]
    · rw [hB]; simp [hc]
  · refine ⟨true, a.right_sib, ?_, ?_, by omega, by omega, by simp, ?_⟩
    · rw [hA]; simp [hc]
    · rw [hB]; simp [hc]
    · intro _; simp; omega

theorem down_first_child_agree (begin : Int) (allow : Bool) (sA sB : TreeStorage)
    (hcanA : Canonical sA) (hcanB : Canonical sB)
    (heq : SliceEquivalent begin allow sA sB) (hb : begin < sA.nodes_.length)
    (pos : Int) (hpos : 0 ≤ pos ∧ pos ≤ begin) :
    MoveAgree SlicedTreeTraversal.down_first_child sA sB
      (sliceFrom begin sA.nodes_.length allow) begin pos true := by
  obtain ⟨a, b, ha, hbn, hpa, hpb, hab⟩ :=
    both_nodes begin allow sA sB hcanA hcanB heq pos hpos.1 (by omega)
  have hA := down_first_child_atPos sA begin allow pos a ha hpa
  have hB := down_first_child_atPos sB begin allow pos b hbn (heq.1 ▸ hpb)
  rw [← heq.1, ← hab.2.2.2.1] at hB
  obtain ⟨_, _, _, hr, _⟩ := hpa
  unfold MoveAgree
  by_cases hc : a.first_child < 0 ∨ begin < a.first_child
  · refine ⟨false, pos, ?_, ?_, hpos.1, hpos.2, fun _ => rfl, by simp⟩
    · rw [hA]; simp [hc]
    · rw [hB]; simp [hc]
  · refine ⟨true, a.first_child, ?_, ?_, by omega, by omega, by simp, ?_⟩
    · rw [hA]; simp [hc]
    · rw [hB]; simp [hc]
    · intro _; simp; omega

theorem hasNonTerminal_equiv (begin : Int) (allow : Bool) (i : Nat) (a b : TreeNode)
    (h : NodeEquiv begin allow i a b) (hi : (i : Int) < begin) :
    a.HasNonTerminal = b.HasNonTerminal := by
  obtain ⟨ht, hv⟩ := h.2.2.2.2.2.2.1 hi
  simp [TreeNode.HasNonTerminal, TreeNode.IsUnknownType, TreeNode.IsUnknownValue, ht, hv]

theorem down_last_child_agree (begin : Int) (allow : Bool) (sA sB : TreeStorage)
    (hcanA : Canonical sA) (hcanB : Canonical sB)
    (heq : SliceEquivalent begin allow sA sB) (hb : begin < sA.nodes_.length)
    (pos : Int) (hpos : 0 ≤ pos ∧ pos ≤ begin) :
    MoveAgree SlicedTreeTraversal.down_last_child sA sB
      (sliceFrom begin sA.nodes_.length allow) begin pos true := by
  obtain ⟨a, b, ha, hbn, hpa, hpb, hab⟩ :=
    both_nodes begin allow sA sB hcanA hcanB heq pos hpos.1 (by omega)
  have hA := down_last_child_atPos sA begin allow pos a ha hpa
  have hB := down_last_child_atPos sB begin allow pos b hbn (heq.1 ▸ hpb)
  rw [← heq.1, ← hab.2.2.2.2.1] at hB
  obtain ⟨_, _, _, _, hr, _⟩ := hpa
  unfold MoveAgree
  by_cases hc : a.last_child < 0 ∨ begin ≤ a.last_child
  · refine ⟨false, pos, ?_, ?_, hpos.1, hpos.2, fun _ => rfl, by simp⟩
    · rw [hA]; simp [hc]
    · rw [hB]; simp [hc]
  · obtain ⟨ca, cb, hca, hcb, _, _, hcab⟩ :=
      both_nodes begin allow sA sB hcanA hcanB heq a.last_child (by omega) (by omega)
    have hnt := hasNonTerminal_equiv begin allow _ ca cb hcab (by omega)
    rw [if_neg hc, hca, Option.map_some'] at hA
    rw [if_neg hc, hcb, Option.map_some', ← hnt] at hB
    cases hh : ca.HasNonTerminal with
    | true =>
      refine ⟨false, pos, ?_, ?_, hpos.1, hpos.2, fun _ => rfl, by simp⟩
      · rw [hA]; simp [hh]
      · rw [hB]; simp [hh]
    | false =>
      refine ⟨true, a.last_child, ?_, ?_, by omega, by omega, by simp, ?_⟩
      · rw [hA]; simp [hh]
      · rw [hB]; simp [hh]
      · intro _; simp; omega

theorem nodeEquiv_eq (begin : Int) (allow : Bool) (i : Nat) (a b : TreeNode)
    (h : NodeEquiv begin allow i a b) (hi : (i : Int) < begin) : a = b := by
  obtain ⟨h1, h2, h3, h4, h5, h6, h7, _⟩ := h
  obtain ⟨ht, hv⟩ := h7 hi
  cases a; cases b
  simp_all

theorem beginNodeView_equiv (begin : Int) (allow : Bool) (i : Nat) (a b : TreeNode)
    (h : NodeEquiv begin allow i a b) (hi : (i : Int) = begin) :
    beginNodeView allow a = beginNodeView allow b := by
  obtain ⟨h1, h2, h3, h4, h5, h6, _, h8⟩ := h
  cases allow with
  | false => simp [beginNodeView, h1, h2, h6]
  | true => simp [beginNodeView, h1, h2, h6, h8 hi rfl]

/-- The node that the sliced traversal reads at a position up to `begin` is the same in both
stores. -/
theorem node_agree (begin : Int) (allow : Bool) (sA sB : TreeStorage)
    (hcanA : Canonical sA) (hcanB : Canonical sB)
    (heq : SliceEquivalent begin allow sA sB) (hb : begin < sA.nodes_.length)
    (pos : Int) (hpos : 0 ≤ pos ∧ pos ≤ begin) :
    ∃ v, (atPos (sliceFrom begin sA.nodes_.length allow) pos).node [sA] = some v ∧
      (atPos (sliceFrom begin sA.nodes_.length allow) pos).node [sB] = some v ∧
      inInt32 (-1000 - v.child_index) = true := by
  obtain ⟨a, b, ha, hbn, hpa, hpb, hab⟩ :=
    both_nodes begin allow sA sB hcanA hcanB heq pos hpos.1 (by omega)
  have hA := node_atPos sA begin allow pos a hpos hb ha
  have hB := node_atPos sB begin allow pos b hpos (heq.1 ▸ hb) hbn
  rw [← heq.1] at hB
  by_cases hpb : pos = begin
  · refine ⟨beginNodeView allow a, ?_, ?_, ?_⟩
    · rw [hA]; simp [hpb]
    · rw [hB, beginNodeView_equiv begin allow _ a b hab (by omega)]; simp [hpb]
    · exact hpa.2.2.2.2.2
  · refine ⟨a, ?_, ?_, ?_⟩
    · rw [hA]; simp [hpb]
    · rw [hB, nodeEquiv_eq begin allow _ a b hab (by omega)]; simp [hpb]
    · exact hpa.2.2.2.2.2

theorem whileDownLast_agree (begin : Int) (allow : Bool) (sA sB : TreeStorage)
    (hcanA : Canonical sA) (hcanB : Canonical sB)
    (heq : SliceEquivalent begin allow sA sB) (hb : begin < sA.nodes_.length)
    (fuel : Nat) (pos : Int) (hpos : 0 ≤ pos ∧ pos ≤ begin)
    (hfuel : (begin - pos).toNat < fuel) :
    LoopAgree (fun m => SlicedTreeTraversal.whileDownLast m fuel) sA sB
      (sliceFrom begin sA.nodes_.length allow) begin pos := by
  induction fuel generalizing pos with
  | zero => omega
  | succ fuel ih =>
    obtain ⟨b, pos', hA, hB, h0, h1, hf, ht⟩ :=
      down_last_child_agree begin allow sA sB hcanA hcanB heq hb pos hpos
    unfold LoopAgree
    simp only [SlicedTreeTraversal.whileDownLast, hA, hB, Option.some_bind]
    cases b with
    | false => exact ⟨pos', by simp, by simp, h0, h1⟩
    | true =>
      have hlt : pos < pos' := by simpa using ht rfl
      obtain ⟨p2, h2A, h2B, h20, h21⟩ := ih pos' ⟨h0, h1⟩ (by omega)
      exact ⟨p2, by simpa using h2A, by simpa using h2B, h20, h21⟩

theorem whileDownFirst_agree (begin : Int) (allow : Bool) (sA sB : TreeStorage)
    (hcanA : Canonical sA) (hcanB : Canonical sB)
    (heq : SliceEquivalent begin allow sA sB) (hb : begin < sA.nodes_.length)
    (fuel : Nat) (pos : Int) (hpos : 0 ≤ pos ∧ pos ≤ begin)
    (hfuel : (begin - pos).toNat < fuel) :
    LoopAgree (fun m => SlicedTreeTraversal.whileDownFirst m fuel) sA sB
      (sliceFrom begin sA.nodes_.length allow) begin pos := by
  induction fuel generalizing pos with
  | zero => omega
  | succ fuel ih =>
    obtain ⟨b, pos', hA, hB, h0, h1, hf, ht⟩ :=
      down_first_child_agree begin allow sA sB hcanA hcanB heq hb pos hpos
    unfold LoopAgree
    simp only [SlicedTreeTraversal.whileDownFirst, hA, hB, Option.some_bind]
    cases b with
    | false => exact ⟨pos', by simp, by simp, h0, h1⟩
    | true =>
      have hlt : pos < pos' := by simpa using ht rfl
      obtain ⟨p2, h2A, h2B, h20, h21⟩ := ih pos' ⟨h0, h1⟩ (by omega)
      exact ⟨p2, by simpa using h2A, by simpa using h2B, h20, h21⟩

theorem prevLeafLoop_agree (begin : Int) (allow : Bool) (sA sB : TreeStorage)
    (hcanA : Canonical sA) (hcanB : Canonical sB)
    (heq : SliceEquivalent begin allow sA sB) (hb : begin < sA.nodes_.length)
    (fuel0 : Nat) (hfuel0 : begin.toNat < fuel0)
    (fuel : Nat) (pos : Int) (hpos : 0 ≤ pos ∧ pos ≤ begin)
    (hfuel : pos.toNat < fuel) :
    LoopAgree (fun m => prevLeafLoop m fuel0 fuel) sA sB
      (sliceFrom begin sA.nodes_.length allow) begin pos := by
  induction fuel generalizing pos with
  | zero => omega
  | succ fuel ih =>
    obtain ⟨b, pos', hA, hB, h0, h1, hf, ht⟩ :=
      left_agree begin allow sA sB hcanA hcanB heq hb pos hpos
    unfold LoopAgree
    simp only [prevLeafLoop, hA, hB, Option.some_bind]
    cases b with
    | true =>
      obtain ⟨p2, h2A, h2B, h20, h21⟩ :=
        whileDownLast_agree begin allow sA sB hcanA hcanB heq hb fuel0 pos' ⟨h0, h1⟩ (by omega)
      exact ⟨p2, by simpa using h2A, by simpa using h2B, h20, h21⟩
    | false =>
      have hpp : pos' = pos := hf rfl
      subst hpp
      obtain ⟨u, p3, hA3, hB3, h30, h31, hf3, ht3⟩ :=
        up_agree begin allow sA sB hcanA hcanB heq hb pos' hpos
      simp only [Bool.false_eq_true, if_false, hA3, hB3, Option.some_bind]
      cases u with
      | false => exact ⟨p3, by simp, by simp, h30, h31⟩
      | true =>
        have hlt : p3 < pos' := by simpa using ht3 rfl
        obtain ⟨p4, h4A, h4B, h40, h41⟩ := ih p3 ⟨h30, h31⟩ (by omega)
        exact ⟨p4, by simpa using h4A, by simpa using h4B, h40, h41⟩

theorem nextLeafLoop_agree (begin : Int) (allow : Bool) (sA sB : TreeStorage)
    (hcanA : Canonical sA) (hcanB : Canonical sB)
    (heq : SliceEquivalent begin allow sA sB) (hb : begin < sA.nodes_.length)
    (fuel0 : Nat) (hfuel0 : begin.toNat < fuel0)
    (fuel : Nat) (pos : Int) (hpos : 0 ≤ pos ∧ pos ≤ begin)
    (hfuel : pos.toNat < fuel) :
    LoopAgree (fun m => nextLeafLoop m fuel0 fuel) sA sB
      (sliceFrom begin sA.nodes_.length allow) begin pos := by
  induction fuel generalizing pos with
  | zero => omega
  | succ fuel ih =>
    obtain ⟨b, pos', hA, hB, h0, h1, hf, ht⟩ :=
      right_agree begin allow sA sB hcanA hcanB heq hb pos hpos
    unfold LoopAgree
    simp only [nextLeafLoop, hA, hB, Option.some_bind]
    cases b with
    | true =>
      obtain ⟨p2, h2A, h2B, h20, h21⟩ :=
        whileDownFirst_agree begin allow sA sB hcanA hcanB heq hb fuel0 pos' ⟨h0, h1⟩ (by omega)
      exact ⟨p2, by simpa using h2A, by simpa using h2B, h20, h21⟩
    | false =>
      have hpp : pos' = pos := hf rfl
      subst hpp
      obtain ⟨u, p3, hA3, hB3, h30, h31, hf3, ht3⟩ :=
        up_agree begin allow sA sB hcanA hcanB heq hb pos' hpos
      simp only [Bool.false_eq_true, if_false, hA3, hB3, Option.some_bind]
      cases u with
      | false => exact ⟨p3, by simp, by simp, h30, h31⟩
      | true =>
        have hlt : p3 < pos' := by simpa using ht3 rfl
        obtain ⟨p4, h4A, h4B, h40, h41⟩ := ih p3 ⟨h30, h31⟩ (by omega)
        exact ⟨p4, by simpa using h4A, by simpa using h4B, h40, h41⟩

theorem PushBack_total (fp : Int → Int → Int) (hfp : ∀ a b, fp a b ≠ -2147483648)
    (h v : Int) :
    SequenceHashFeature.PushBack fp h v = some ((Int.natAbs (fp h v) : Nat) : Int) := by
  simp [SequenceHashFeature.PushBack, hfp h v]

/-- The context symbol read by the sliced traversal at a position up to `begin` is the same in
both stores. -/
theorem contextSymbolLoop_agree (fp : Int → Int → Int) (hfp : ∀ a b, fp a b ≠ -2147483648)
    (begin : Int) (allow : Bool) (sA sB : TreeStorage)
    (hcanA : Canonical sA) (hcanB : Canonical sB)
    (heq : SliceEquivalent begin allow sA sB) (hb : begin < sA.nodes_.length)
    (k : Nat) (h : Int) (pos : Int) (hpos : 0 ≤ pos ∧ pos ≤ begin) :
    ∃ σ, contextSymbolLoop fp [sA] k h (atPos (sliceFrom begin sA.nodes_.length allow) pos)
        = some σ ∧
      contextSymbolLoop fp [sB] k h (atPos (sliceFrom begin sA.nodes_.length allow) pos)
        = some σ := by
  induction k generalizing h pos with
  | zero => exact ⟨h, rfl, rfl⟩
  | succ k ih =>
    obtain ⟨v, hvA, hvB, _⟩ := node_agree begin allow sA sB hcanA hcanB heq hb pos hpos
    obtain ⟨u, p3, hA3, hB3, h30, h31, _, _⟩ :=
      up_agree begin allow sA sB hcanA hcanB heq hb pos hpos
    simp only [contextSymbolLoop, hvA, hvB, Option.some_bind, PushBack_total fp hfp, hA3, hB3]
    by_cases hc : (u && decide (0 < k)) = true
    · simp only [hc, if_true]
      exact ih _ p3 ⟨h30, h31⟩
    · simp only [hc]
      exact ⟨_, rfl, rfl⟩

/-- The symbol that an actor finder reads with the sliced traversal at a position up to `begin`
is the same in both stores. -/
theorem GetNodeActorSymbol_agree (fp : Int → Int → Int) (hfp : ∀ a b, fp a b ≠ -2147483648)
    (begin : Int) (allow : Bool) (sA sB : TreeStorage)
    (hcanA : Canonical sA) (hcanB : Canonical sB)
    (heq : SliceEquivalent begin allow sA sB) (hb : begin < sA.nodes_.length)
    (af : ActorFinder) (pos : Int) (hpos : 0 ≤ pos ∧ pos ≤ begin) :
    ∃ σ, af.GetNodeActorSymbol fp [sA] (atPos (sliceFrom begin sA.nodes_.length allow) pos)
        = some σ ∧
      af.GetNodeActorSymbol fp [sB] (atPos (sliceFrom begin sA.nodes_.length allow) pos)
        = some σ := by
  obtain ⟨v, hvA, hvB, _⟩ := node_agree begin allow sA sB hcanA hcanB heq hb pos hpos
  cases af with
  | ActorFinderByNodeType => exact ⟨v.Type, by simp [ActorFinder.GetNodeActorSymbol, hvA],
      by simp [ActorFinder.GetNodeActorSymbol, hvB]⟩
  | ActorFinderByNodeValue => exact ⟨v.Value, by simp [ActorFinder.GetNodeActorSymbol, hvA],
      by simp [ActorFinder.GetNodeActorSymbol, hvB]⟩
  | ActorFinderByNodeContext =>
    exact contextSymbolLoop_agree fp hfp begin allow sA sB hcanA hcanB heq hb 3 0 pos hpos

theorem node_unslicedAt (s : TreeStorage) (j : Int) :
    (unslicedAt j).node [s] = Memory.nodeAt [s] (some 0) j := by
  simp [unslicedAt, SlicedTreeTraversal.node, SlicedTreeTraversal.create, TreeSlice.ofStorage,
    TreeSlice.IsNodeSliced]

theorem up_unslicedAt (s : TreeStorage) (j : Int) (n : TreeNode)
    (hn : Memory.nodeAt [s] (some 0) j = some n) (hp : -1 ≤ n.parent) :
    (unslicedAt j).up [s]
      = some (if n.parent < 0 then (false, unslicedAt j) else (true, unslicedAt n.parent)) := by
  have h2 : n.parent ≠ TREEPOINTER_VALUE_IN_PARENT := by
    unfold TREEPOINTER_VALUE_IN_PARENT; omega
  unfold SlicedTreeTraversal.up
  have hs : (unslicedAt j).storage_ = some 0 := rfl
  have hq : (unslicedAt j).position_ = j := rfl
  rw [hs, hq, hn]
  simp only [Option.some_bind, SlicedTreeTraversal.resolve, h2, if_false]
  by_cases hneg : n.parent < 0
  · simp [hneg]
  · simp [hneg, unslicedAt, SlicedTreeTraversal.create, SlicedTreeTraversal.sliced,
      TreeSlice.ofStorage, TreeSlice.IsNodeSliced]

/-- At build time the context symbol of a node of a store in pre-order is defined. -/
theorem contextSymbolLoop_total (fp : Int → Int → Int) (hfp : ∀ a b, fp a b ≠ -2147483648)
    (s : TreeStorage) (hcan : Canonical s) (k : Nat) (h : Int) (j : Int)
    (hj : 0 ≤ j ∧ j < s.nodes_.length) :
    ∃ σ, contextSymbolLoop fp [s] k h (unslicedAt j) = some σ := by
  induction k generalizing h j with
  | zero => exact ⟨h, rfl⟩
  | succ k ih =>
    obtain ⟨n, hn, hpre⟩ := canonical_node s hcan j hj.1 hj.2
    obtain ⟨⟨hp1, hp2⟩, _⟩ := hpre
    simp only [contextSymbolLoop, node_unslicedAt, hn, Option.some_bind, PushBack_total fp hfp,
      up_unslicedAt s j n hn hp1]
    by_cases hneg : n.parent < 0
    · simp only [hneg, if_true, Bool.false_and, Bool.false_eq_true, if_false]
      exact ⟨_, rfl⟩
    · simp only [hneg, if_false, Bool.true_and]
      by_cases hk : 0 < k
      · simp only [hk, decide_True, if_true]
        exact ih _ n.parent ⟨by omega, by omega⟩
      · simp only [hk, decide_False, Bool.false_eq_true, if_false]
        exact ⟨_, rfl⟩

/-- At build time the context symbol of a node before `begin` is the same in both stores. -/
theorem contextSymbolLoop_unsliced_agree (fp : Int → Int → Int)
    (hfp : ∀ a b, fp a b ≠ -2147483648)
    (begin : Int) (allow : Bool) (sA sB : TreeStorage)
    (hcanA : Canonical sA) (hcanB : Canonical sB)
    (heq : SliceEquivalent begin allow sA sB) (hb : begin < sA.nodes_.length)
    (k : Nat) (h : Int) (j : Int) (hj : 0 ≤ j ∧ j < begin) :
    contextSymbolLoop fp [sA] k h (unslicedAt j) = contextSymbolLoop fp [sB] k h (unslicedAt j) := by
  induction k generalizing h j with
  | zero => rfl
  | succ k ih =>
    obtain ⟨a, b, ha, hbn, hpa, hpb, hab⟩ :=
      both_nodes begin allow sA sB hcanA hcanB heq j hj.1 (by omega)
    have hab2 := nodeEquiv_eq begin allow _ a b hab (by omega)
    subst hab2
    obtain ⟨⟨hp1, hp2⟩, _⟩ := hpa
    simp only [contextSymbolLoop, node_unslicedAt, ha, hbn, Option.some_bind,
      PushBack_total fp hfp, up_unslicedAt sA j a ha hp1, up_unslicedAt sB j a hbn hp1]
    by_cases hneg : a.parent < 0
    · simp only [hneg, if_true, Bool.false_and, Bool.false_eq_true, if_false]
    · simp only [hneg, if_false, Bool.true_and]
      by_cases hk : 0 < k
      · simp only [hk, decide_True, if_true]
        exact ih _ a.parent ⟨by omega, by omega⟩
      · simp only [hk, decide_False, Bool.false_eq_true, if_false]

/-- The symbol that `Build` computes for a node of a store in pre-order is defined. -/
theorem symOf_spec (fp : Int → Int → Int) (hfp : ∀ a b, fp a b ≠ -2147483648)
    (s : TreeStorage) (hcan : Canonical s) (af : ActorFinder) (j : Nat)
    (hj : j < s.nodes_.length) :
    af.GetNodeActorSymbol fp [s] (unslicedAt j) = some (symOf fp s af j) := by
  have hex : ∃ σ, af.GetNodeActorSymbol fp [s] (unslicedAt j) = some σ := by
    obtain ⟨n, hn, _⟩ := canonical_node s hcan j (by omega) (by omega)
    cases af with
    | ActorFinderByNodeType => simp [ActorFinder.GetNodeActorSymbol, node_unslicedAt, hn]
    | ActorFinderByNodeValue => simp [ActorFinder.GetNodeActorSymbol, node_unslicedAt, hn]
    | ActorFinderByNodeContext =>
      exact contextSymbolLoop_total fp hfp s hcan 3 0 j ⟨by omega, by omega⟩
  obtain ⟨σ, hσ⟩ := hex
  simp [symOf, hσ]

/-- The symbols that `Build` computes for the nodes before `begin` are the same in both
stores. -/
theorem symOf_agree (fp : Int → Int → Int) (hfp : ∀ a b, fp a b ≠ -2147483648)
    (begin : Int) (allow : Bool) (sA sB : TreeStorage)
    (hcanA : Canonical sA) (hcanB : Canonical sB)
    (heq : SliceEquivalent begin allow sA sB) (hb : begin < sA.nodes_.length)
    (af : ActorFinder) (j : Nat) (hj : (j : Int) < begin) :
    symOf fp sA af j = symOf fp sB af j := by
  unfold symOf
  congr 1
  obtain ⟨a, b, ha, hbn, _, _, hab⟩ :=
    both_nodes begin allow sA sB hcanA hcanB heq j (by omega) (by omega)
  have hab2 := nodeEquiv_eq begin allow _ a b hab (by omega)
  subst hab2
  cases af with
  | ActorFinderByNodeType => simp [ActorFinder.GetNodeActorSymbol, node_unslicedAt, ha, hbn]
  | ActorFinderByNodeValue => simp [ActorFinder.GetNodeActorSymbol, node_unslicedAt, ha, hbn]
  | ActorFinderByNodeContext =>
    exact contextSymbolLoop_unsliced_agree fp hfp begin allow sA sB hcanA hcanB heq hb 3 0 j
      ⟨by omega, hj⟩

theorem lookup_sequencesAssign (l : List (Int × List Int)) (key : Int) (nodes : List Int)
    (symbol : Int) :
    (sequencesAssign l key nodes).lookup symbol
      = if symbol = key then some nodes else l.lookup symbol := by
  induction l with
  | nil =>
    by_cases h : symbol = key
    · have hb : (symbol == key) = true := by simpa using h
      simp [sequencesAssign, List.lookup, h]
    · have hb : (symbol == key) = false := by simpa using h
      simp [sequencesAssign, List.lookup, h, hb]
  | cons e l ih =>
    obtain ⟨k, ns⟩ := e
    by_cases hk : key = k
    · subst hk
      by_cases h : symbol = key
      · simp [sequencesAssign, List.lookup, h]
      · have hb : (symbol == key) = false := by simpa using h
        simp [sequencesAssign, List.lookup, h, hb]
    · by_cases h : symbol = key
      · subst h
        have hb : (symbol == k) = false := by simpa using hk
        simp [sequencesAssign, List.lookup, hk, ih, hb]
      · by_cases h2 : symbol = k
        · subst h2
          simp [sequencesAssign, List.lookup, hk, h]
        · have hb : (symbol == k) = false := by simpa using h2
          simp [sequencesAssign, List.lookup, hk, h, hb, ih]

theorem nodesWith_succ (sym : Nat → Int) (symbol : Int) (k : Nat) :
    nodesWith sym symbol (k + 1)
      = nodesWith sym symbol k ++ (if sym k = symbol then [(k : Int)] else []) := by
  unfold nodesWith
  rw [List.range_succ, List.filter_append, List.map_append]
  by_cases h : sym k = symbol
  · simp [h]
  · simp [h]

theorem nodesWith_zero (sym : Nat → Int) (symbol : Int) : nodesWith sym symbol 0 = [] := rfl

/-- One call of the callback of `Build` keeps the description of the index. -/
theorem BuildVisit_inv (fp : Int → Int → Int) (m : Memory) (sym : Nat → Int)
    (af : ActorFinder) (N k : Nat) (idx : ActorIndex) (hk : k < N)
    (hinv : IndexInv sym af N k idx)
    (hsym : af.GetNodeActorSymbol fp m (unslicedAt k) = some (sym k)) :
    ∃ idx', idx.BuildVisit fp m k = some idx' ∧ IndexInv sym af N (k + 1) idx' := by
  obtain ⟨htree, haf, hpred, hlen, hseq⟩ := hinv
  have hsym2 : idx.actor_finder_.GetNodeActorSymbol fp m
      (SlicedTreeTraversal.create idx.tree_ (k : Int) (some (TreeSlice.ofStorage none)))
      = some (sym k) := by
    rw [haf, htree]; exact hsym
  unfold ActorIndex.BuildVisit
  rw [hsym2]
  simp only [Option.some_bind]
  by_cases hneg : 0 ≤ sym k
  · have hold := hpred k hk
    simp only [Nat.lt_irrefl, false_and, if_false] at hold
    have hk0 : (0 : Int) ≤ (k : Int) := by omega
    simp only [ge_iff_le, hneg, if_true, hk0, Int.toNat_ofNat, hold, Option.map_some']
    refine ⟨_, rfl, htree, haf, ?_, ?_, ?_⟩
    · intro i hi
      simp only [List.getElem?_set]
      by_cases hik : k = i
      · subst hik
        have hkl : k < idx.symbol_predecessors_.length := by omega
        have hfs : (idx.find_sequence (sym k)).getD [] = nodesWith sym (sym k) k := by
          rw [hseq]
          by_cases hne : nodesWith sym (sym k) k = []
          · simp [hne]
          · simp [hneg, hne]
        simp [hkl, hneg, hfs]
      · have h1 : (i < k + 1) ↔ (i < k) := by omega
        simp only [hik, if_false, hpred i hi, h1]
    · simp [hlen]
    · intro symbol
      unfold ActorIndex.find_sequence
      simp only [lookup_sequencesAssign]
      have hfs : (idx.find_sequence (sym k)).getD [] = nodesWith sym (sym k) k := by
        rw [hseq]
        by_cases hne : nodesWith sym (sym k) k = []
        · simp [hne]
        · simp [hneg, hne]
      rw [nodesWith_succ]
      by_cases hs : symbol = sym k
      · subst hs
        simp [hneg]
        exact hfs
      · have hs2 : ¬ (sym k = symbol) := fun h => hs h.symm
        have := hseq symbol
        unfold ActorIndex.find_sequence at this
        simp [hs, hs2, this]
  · simp only [ge_iff_le, hneg, if_false]
    refine ⟨idx, rfl, htree, haf, ?_, hlen, ?_⟩
    · intro i hi
      rw [hpred i hi]
      by_cases hik : i = k
      · subst hik
        simp [hneg]
      · have h1 : (i < k + 1) ↔ (i < k) := by omega
        simp only [h1]
    · intro symbol
      rw [hseq, nodesWith_succ]
      by_cases hs : sym k = symbol
      · subst hs
        simp [hneg]
      · simp [hs]

/-- The calls of the callback of `Build` on the nodes `k, ..., k + n - 1` keep the description of
the index. -/
theorem BuildLoop_inv (fp : Int → Int → Int) (m : Memory) (sym : Nat → Int)
    (af : ActorFinder) (N : Nat)
    (hsym : ∀ j, j < N → af.GetNodeActorSymbol fp m (unslicedAt j) = some (sym j))
    (n k : Nat) (idx : ActorIndex) (hkn : k + n = N)
    (hinv : IndexInv sym af N k idx) :
    ∃ idx', ActorIndex.BuildLoop fp m ((List.range' k n).map Int.ofNat) idx = some idx' ∧
      IndexInv sym af N N idx' := by
  induction n generalizing k idx with
  | zero =>
    have : k = N := by omega
    subst this
    exact ⟨idx, rfl, hinv⟩
  | succ n ih =>
    obtain ⟨idx1, h1, hinv1⟩ := BuildVisit_inv fp m sym af N k idx (by omega) hinv (hsym k (by omega))
    obtain ⟨idx2, h2, hinv2⟩ := ih (k + 1) idx1 (by omega) hinv1
    refine ⟨idx2, ?_, hinv2⟩
    rw [List.range'_succ, List.map_cons]
    simp only [ActorIndex.BuildLoop]
    have : (Int.ofNat k) = (k : Int) := rfl
    rw [this, h1]
    exact h2

/-- On a store in pre-order `ActorIndex::Build` returns and gives the described index. -/
theorem Build_inv (fp : Int → Int → Int) (hfp : ∀ a b, fp a b ≠ -2147483648)
    (s : TreeStorage) (hcan : Canonical s) (af : ActorFinder) :
    ∃ idx, (ActorIndex.create af (some 0)).Build fp [s] = some idx ∧
      IndexInv (symOf fp s af) af s.nodes_.length s.nodes_.length idx := by
  have hinit : IndexInv (symOf fp s af) af s.nodes_.length 0
      { ActorIndex.create af (some 0) with
        symbol_predecessors_ :=
          List.replicate s.nodes_.length { symbol := -1, pred_position := -1 } } := by
    refine ⟨rfl, rfl, ?_, by simp, ?_⟩
    · intro i hi
      simp [List.getElem?_replicate, hi]
    · intro symbol
      simp [ActorIndex.find_sequence, ActorIndex.create, nodesWith_zero]
  obtain ⟨idx, hloop, hinv⟩ := BuildLoop_inv fp [s] (symOf fp s af) af s.nodes_.length
    (fun j hj => symOf_spec fp hfp s hcan af j hj) s.nodes_.length 0 _ (by omega) hinit
  refine ⟨idx, ?_, hinv⟩
  unfold ActorIndex.Build
  have ht : (ActorIndex.create af (some 0)).tree_ = some 0 := rfl
  simp only [ht, List.getElem?_cons_zero, Option.some_bind, hcan.2.1]
  rw [List.range_eq_range']
  exact hloop

theorem takeWhile_none (p : Int → Bool) (rest : List Int) (h : ∀ x ∈ rest, p x = false) :
    rest.takeWhile p = [] := by
  cases rest with
  | nil => rfl
  | cons x rest => simp [List.takeWhile, h x (List.mem_cons_self _ _)]

theorem dropWhile_none (p : Int → Bool) (rest : List Int) (h : ∀ x ∈ rest, p x = false) :
    rest.dropWhile p = rest := by
  cases rest with
  | nil => rfl
  | cons x rest => simp [List.dropWhile, h x (List.mem_cons_self _ _)]

/-- The search `lower_bound` in a range whose first part is below the value and whose second part
is not. -/
theorem lower_bound_append (l rest : List Int) (v : Int) (hl : ∀ x ∈ l, x < v)
    (hr : ∀ x ∈ rest, ¬ x < v) : lower_bound (l ++ rest) v = some l.length := by
  have h1 : ∀ a ∈ l, (fun x => decide (x < v)) a = true := by
    intro a ha; simpa using hl a ha
  have h2 : ∀ a ∈ rest, (fun x => decide (x < v)) a = false := by
    intro a ha; simpa using hr a ha
  unfold lower_bound
  rw [List.dropWhile_append_of_pos h1, List.takeWhile_append_of_pos h1, dropWhile_none _ _ h2,
    takeWhile_none _ _ h2]
  have h3 : (rest.all fun x => !decide (x < v)) = true := by
    rw [List.all_eq_true]
    intro x hx
    simpa using hr x hx
  simp [h3]

theorem mem_nodesWith (sym : Nat → Int) (symbol : Int) (k : Nat) (x : Int)
    (h : x ∈ nodesWith sym symbol k) : 0 ≤ x ∧ x < k := by
  unfold nodesWith at h
  simp only [List.mem_map, List.mem_filter, List.mem_range] at h
  obtain ⟨j, ⟨hj, _⟩, hx⟩ := h
  have : (Int.ofNat j) = (j : Int) := rfl
  omega

/-- The nodes with a symbol before `N` are the nodes with the symbol before `p` followed by
nodes from `p` on. -/
theorem nodesWith_split (sym : Nat → Int) (symbol : Int) (p N : Nat) (hp : p ≤ N) :
    ∃ rest, nodesWith sym symbol N = nodesWith sym symbol p ++ rest ∧
      ∀ x ∈ rest, (p : Int) ≤ x := by
  refine ⟨((List.range' p (N - p)).filter fun j => decide (sym j = symbol)).map Int.ofNat,
    ?_, ?_⟩
  · unfold nodesWith
    rw [← List.map_append, ← List.filter_append, List.range_eq_range', List.range_eq_range']
    have := List.range'_append 0 p (N - p) 1
    simp only [Nat.zero_add, Nat.one_mul] at this
    rw [this]
    congr 3
    omega
  · intro x hx
    simp only [List.mem_map, List.mem_filter, List.mem_range'_1] at hx
    obtain ⟨j, ⟨⟨hj, _⟩, _⟩, hx⟩ := hx
    have : (Int.ofNat j) = (j : Int) := rfl
    omega

theorem getLast_getD_mem (l : List Int) (h : l ≠ []) : (l.getLast?).getD (-1) ∈ l := by
  cases hl : l.getLast? with
  | none => rw [List.getLast?_eq_none_iff] at hl; exact absurd hl h
  | some x => simpa using List.mem_of_getLast?_eq_some hl

/-- The end of `MoveLeft` on a built index, at a position of the store. -/
theorem lookupIndex_spec (sym : Nat → Int) (af : ActorFinder) (N : Nat) (idx : ActorIndex)
    (hinv : IndexInv sym af N N idx) (sl : TreeSlice) (symbol : Int) (pos : Int)
    (hpos : 0 ≤ pos ∧ pos < N) :
    ActorSymbolIterator.lookupIndex symbol (atPos sl pos) idx
      = some (if symbol < 0 ∨ nodesWith sym symbol pos.toNat = [] then (false, atPos sl pos)
              else (true, atPos sl ((nodesWith sym symbol pos.toNat).getLast?.getD (-1)))) := by
  obtain ⟨_, _, _, _, hseq⟩ := hinv
  obtain ⟨rest, hsplit, hrest⟩ := nodesWith_split sym symbol pos.toNat N (by omega)
  unfold ActorSymbolIterator.lookupIndex
  rw [hseq symbol]
  by_cases hc : 0 ≤ symbol ∧ nodesWith sym symbol N ≠ []
  · simp only [hc, ne_eq, not_false_eq_true, and_self, if_true]
    have hlb : lower_bound (nodesWith sym symbol N) (atPos sl pos).position_
        = some (nodesWith sym symbol pos.toNat).length := by
      rw [hsplit]
      apply lower_bound_append
      · intro x hx
        have := mem_nodesWith sym symbol _ x hx
        show x < pos
        omega
      · intro x hx
        have := hrest x hx
        show ¬ x < pos
        omega
    rw [hlb]
    simp only [Option.some_bind]
    have hs0 : ¬ symbol < 0 := by omega
    by_cases hnil : nodesWith sym symbol pos.toNat = []
    · simp [hnil, hs0]
    · have hlen : (nodesWith sym symbol pos.toNat).length ≠ 0 := by
        simpa [List.length_eq_zero] using hnil
      have hget : (nodesWith sym symbol N)[(nodesWith sym symbol pos.toNat).length - 1]?
          = (nodesWith sym symbol pos.toNat).getLast? := by
        rw [hsplit, List.getElem?_append_left (by omega), List.getLast?_eq_getElem?]
      simp only [hlen, if_false, hget, hs0, hnil, false_or]
      cases hl : (nodesWith sym symbol pos.toNat).getLast? with
      | none => rw [List.getLast?_eq_none_iff] at hl; exact absurd hl hnil
      | some x => rfl
  · simp only [hc, if_false]
    have : symbol < 0 ∨ nodesWith sym symbol pos.toNat = [] := by
      by_cases hs : symbol < 0
      · exact Or.inl hs
      · right
        have hN : nodesWith sym symbol N = [] := by
          by_contra hne
          exact hc ⟨by omega, hne⟩
        rw [hsplit] at hN
        exact (List.append_eq_nil.mp hN).1
    simp [this]

/-- The iterator `MoveLeft` on the built index of a store in pre-order: it moves to the last node
before the position whose symbol at build time is the symbol looked for, when the symbol is not
negative and there is such a node. -/
theorem MoveLeft_spec (fp : Int → Int → Int) (s : TreeStorage) (hpar : s.parent_ = none)
    (sym : Nat → Int) (af : ActorFinder) (idx : ActorIndex)
    (hinv : IndexInv sym af s.nodes_.length s.nodes_.length idx) (sl : TreeSlice) (fuel : Nat)
    (symbol : Int) (pos : Int) (hpos : 0 ≤ pos ∧ pos < s.nodes_.length) :
    ActorSymbolIterator.MoveLeft fp [s] fuel symbol (atPos sl pos) idx
      = some (if symbol < 0 ∨ nodesWith sym symbol pos.toNat = [] then (false, atPos sl pos)
              else (true, atPos sl ((nodesWith sym symbol pos.toNat).getLast?.getD (-1)))) := by
  have hlook := lookupIndex_spec sym af _ idx hinv sl symbol pos hpos
  obtain ⟨htree, _, hpred, hlen, _⟩ := hinv
  have hp := hpred pos.toNat (by omega)
  unfold ActorSymbolIterator.MoveLeft ActorIndex.get_symbol_pedecessor
  have hs : (atPos sl pos).storage_ = some 0 := rfl
  have hq : (atPos sl pos).position_ = pos := rfl
  have hsl : (atPos sl pos).slice_ = some sl := rfl
  have h1 : pos < ((idx.symbol_predecessors_.length : Nat) : Int) := by rw [hlen]; exact hpos.2
  simp only [hs, hq, hsl, htree, if_true, h1, hpos.1, hp, Option.map_some', Option.some_bind,
    List.getElem?_cons_zero, hpar, Option.isSome_none, Bool.false_eq_true, if_false]
  by_cases hsp : pos.toNat < s.nodes_.length ∧ 0 ≤ sym pos.toNat
  · simp only [hsp, and_self, if_true]
    by_cases he : sym pos.toNat = symbol
    · subst he
      have hs0 : ¬ sym pos.toNat < 0 := by omega
      simp only [if_true, hs0, false_or]
      by_cases hnil : nodesWith sym (sym pos.toNat) pos.toNat = []
      · simp [hnil]
      · have hm := mem_nodesWith sym _ _ _ (getLast_getD_mem _ hnil)
        have : ¬ ((nodesWith sym (sym pos.toNat) pos.toNat).getLast?.getD (-1) < 0) := by omega
        simp only [this, if_false, hnil]
        rfl
    · simp only [he, if_false]
      exact hlook
  · simp only [hsp, if_false]
    by_cases he : (-1 : Int) = symbol
    · subst he
      simp
    · simp only [he, if_false]
      exact hlook

theorem nodesWith_congr (symA symB : Nat → Int) (symbol : Int) (k : Nat)
    (h : ∀ j, j < k → symA j = symB j) : nodesWith symA symbol k = nodesWith symB symbol k := by
  unfold nodesWith
  congr 1
  apply List.filter_congr
  intro j hj
  rw [h j (List.mem_range.mp hj)]

/-- The cases `PREV_NODE_TYPE`, `PREV_NODE_VALUE` and `PREV_NODE_CONTEXT` end at the same
position in both stores. -/
theorem prevNodeStep_agree (fp : Int → Int → Int) (hfp : ∀ a b, fp a b ≠ -2147483648)
    (begin : Int) (allow : Bool) (sA sB : TreeStorage)
    (hcanA : Canonical sA) (hcanB : Canonical sB)
    (heq : SliceEquivalent begin allow sA sB) (hb : begin < sA.nodes_.length)
    (af : ActorFinder) (idxA idxB : ActorIndex)
    (hA : IndexInv (symOf fp sA af) af sA.nodes_.length sA.nodes_.length idxA)
    (hB : IndexInv (symOf fp sB af) af sB.nodes_.length sB.nodes_.length idxB)
    (fuel : Nat) (pos : Int) (hpos : 0 ≤ pos ∧ pos ≤ begin) :
    ∃ pos', prevNodeStep fp [sA] fuel idxA (atPos (sliceFrom begin sA.nodes_.length allow) pos)
        = some (atPos (sliceFrom begin sA.nodes_.length allow) pos') ∧
      prevNodeStep fp [sB] fuel idxB (atPos (sliceFrom begin sA.nodes_.length allow) pos)
        = some (atPos (sliceFrom begin sA.nodes_.length allow) pos') ∧
      0 ≤ pos' ∧ pos' ≤ begin := by
  obtain ⟨σ, hσA, hσB⟩ :=
    GetNodeActorSymbol_agree fp hfp begin allow sA sB hcanA hcanB heq hb af pos hpos
  have hmA := MoveLeft_spec fp sA hcanA.1 _ af idxA hA
    (sliceFrom begin sA.nodes_.length allow) fuel σ pos ⟨hpos.1, by omega⟩
  have hmB := MoveLeft_spec fp sB hcanB.1 _ af idxB hB
    (sliceFrom begin sA.nodes_.length allow) fuel σ pos ⟨hpos.1, by rw [← heq.1]; omega⟩
  have hcongr : nodesWith (symOf fp sB af) σ pos.toNat = nodesWith (symOf fp sA af) σ pos.toNat := by
    apply nodesWith_congr
    intro j hj
    exact (symOf_agree fp hfp begin allow sA sB hcanA hcanB heq hb af j (by omega)).symm
  rw [hcongr] at hmB
  unfold prevNodeStep
  rw [hA.2.1, hB.2.1, hσA, hσB]
  simp only [Option.some_bind, hmA, hmB, Option.map_some']
  by_cases hc : σ < 0 ∨ nodesWith (symOf fp sA af) σ pos.toNat = []
  · refine ⟨pos, ?_, ?_, hpos.1, hpos.2⟩
    · simp [hc]
    · simp [hc]
  · have hnil : nodesWith (symOf fp sA af) σ pos.toNat ≠ [] := fun h => hc (Or.inr h)
    have hm := mem_nodesWith _ _ _ _ (getLast_getD_mem _ hnil)
    refine ⟨_, ?_, ?_, hm.1, by omega⟩
    · simp [hc]
    · simp [hc]

/-- One operation of a program, run from a position up to `begin`, passes the same values to the
callback and ends at the same position in both stores. -/
theorem executeOp_agree (fp : Int → Int → Int) (hfp : ∀ a b, fp a b ≠ -2147483648)
    (begin : Int) (allow : Bool) (sA sB : TreeStorage)
    (hcanA : Canonical sA) (hcanB : Canonical sB)
    (heq : SliceEquivalent begin allow sA sB) (hb : begin < sA.nodes_.length)
    (eA eB : ExecutionForTree) (hA : ExecInv fp sA eA) (hB : ExecInv fp sB eB)
    (fuel : Nat) (hfuel : sA.nodes_.length < fuel) (op : Op)
    (pos : Int) (hpos : 0 ≤ pos ∧ pos ≤ begin) :
    ∃ out pos',
      eA.executeOp fp [sA] fuel op (atPos (sliceFrom begin sA.nodes_.length allow) pos)
        = some (out, atPos (sliceFrom begin sA.nodes_.length allow) pos') ∧
      eB.executeOp fp [sB] fuel op (atPos (sliceFrom begin sA.nodes_.length allow) pos)
        = some (out, atPos (sliceFrom begin sA.nodes_.length allow) pos') ∧
      0 ≤ pos' ∧ pos' ≤ begin := by
  obtain ⟨v, hvA, hvB, hci⟩ := node_agree begin allow sA sB hcanA hcanB heq hb pos hpos
  have hf0 : begin.toNat < fuel := by omega
  have hf1 : pos.toNat < fuel := by omega
  obtain ⟨cmd, extra⟩ := op
  cases cmd with
  | WRITE_TYPE =>
    exact ⟨[v.Type], pos, by simp [ExecutionForTree.executeOp, hvA],
      by simp [ExecutionForTree.executeOp, hvB], hpos.1, hpos.2⟩
  | WRITE_VALUE =>
    exact ⟨[v.Value], pos, by simp [ExecutionForTree.executeOp, hvA],
      by simp [ExecutionForTree.executeOp, hvB], hpos.1, hpos.2⟩
  | WRITE_POS =>
    exact ⟨[-1000 - v.child_index], pos, by simp [ExecutionForTree.executeOp, hvA, hci],
      by simp [ExecutionForTree.executeOp, hvB, hci], hpos.1, hpos.2⟩
  | UP =>
    obtain ⟨b, p', h1, h2, h3, h4, _, _⟩ := up_agree begin allow sA sB hcanA hcanB heq hb pos hpos
    exact ⟨[], p', by simp [ExecutionForTree.executeOp, h1],
      by simp [ExecutionForTree.executeOp, h2], h3, h4⟩
  | LEFT =>
    obtain ⟨b, p', h1, h2, h3, h4, _, _⟩ :=
      left_agree begin allow sA sB hcanA hcanB heq hb pos hpos
    exact ⟨[], p', by simp [ExecutionForTree.executeOp, h1],
      by simp [ExecutionForTree.executeOp, h2], h3, h4⟩
  | RIGHT =>
    obtain ⟨b, p', h1, h2, h3, h4, _, _⟩ :=
      right_agree begin allow sA sB hcanA hcanB heq hb pos hpos
    exact ⟨[], p', by simp [ExecutionForTree.executeOp, h1],
      by simp [ExecutionForTree.executeOp, h2], h3, h4⟩
  | DOWN_FIRST =>
    obtain ⟨b, p', h1, h2, h3, h4, _, _⟩ :=
      down_first_child_agree begin allow sA sB hcanA hcanB heq hb pos hpos
    exact ⟨[], p', by simp [ExecutionForTree.executeOp, h1],
      by simp [ExecutionForTree.executeOp, h2], h3, h4⟩
  | DOWN_LAST =>
    obtain ⟨b, p', h1, h2, h3, h4, _, _⟩ :=
      down_last_child_agree begin allow sA sB hcanA hcanB heq hb pos hpos
    exact ⟨[], p', by simp [ExecutionForTree.executeOp, h1],
      by simp [ExecutionForTree.executeOp, h2], h3, h4⟩
  | PREV_DFS =>
    obtain ⟨b, p', h1, h2, h3, h4, hf, _⟩ :=
      left_agree begin allow sA sB hcanA hcanB heq hb pos hpos
    cases b with
    | true =>
      obtain ⟨p2, g1, g2, g3, g4⟩ :=
        whileDownLast_agree begin allow sA sB hcanA hcanB heq hb fuel p' ⟨h3, h4⟩ (by omega)
      simp only at g1 g2
      exact ⟨[], p2, by simp [ExecutionForTree.executeOp, h1, g1],
        by simp [ExecutionForTree.executeOp, h2, g2], g3, g4⟩
    | false =>
      have hpp : p' = pos := hf rfl
      subst hpp
      obtain ⟨u, p3, k1, k2, k3, k4, _, _⟩ :=
        up_agree begin allow sA sB hcanA hcanB heq hb p' hpos
      exact ⟨[], p3, by simp [ExecutionForTree.executeOp, h1, k1],
        by simp [ExecutionForTree.executeOp, h2, k2], k3, k4⟩
  | PREV_LEAF =>
    obtain ⟨p2, g1, g2, g3, g4⟩ :=
      prevLeafLoop_agree begin allow sA sB hcanA hcanB heq hb fuel hf0 fuel pos hpos hf1
    simp only at g1 g2
    exact ⟨[], p2, by simp [ExecutionForTree.executeOp, g1],
      by simp [ExecutionForTree.executeOp, g2], g3, g4⟩
  | NEXT_LEAF =>
    obtain ⟨p2, g1, g2, g3, g4⟩ :=
      nextLeafLoop_agree begin allow sA sB hcanA hcanB heq hb fuel hf0 fuel pos hpos hf1
    simp only at g1 g2
    exact ⟨[], p2, by simp [ExecutionForTree.executeOp, g1],
      by simp [ExecutionForTree.executeOp, g2], g3, g4⟩
  | PREV_NODE_VALUE =>
    obtain ⟨σ, hσA, hσB⟩ := GetNodeActorSymbol_agree fp hfp begin allow sA sB hcanA hcanB heq hb
      .ActorFinderByNodeValue pos hpos
    obtain ⟨p2, g1, g2, g3, g4⟩ := prevNodeStep_agree fp hfp begin allow sA sB hcanA hcanB heq hb
      .ActorFinderByNodeValue _ _ hA.2.1 hB.2.1 fuel pos hpos
    by_cases hs : σ = -1
    · exact ⟨[], pos, by simp [ExecutionForTree.executeOp, hσA, hs],
        by simp [ExecutionForTree.executeOp, hσB, hs], hpos.1, hpos.2⟩
    · exact ⟨[], p2, by simp [ExecutionForTree.executeOp, hσA, hs, g1],
        by simp [ExecutionForTree.executeOp, hσB, hs, g2], g3, g4⟩
  | PREV_NODE_TYPE =>
    obtain ⟨p2, g1, g2, g3, g4⟩ := prevNodeStep_agree fp hfp begin allow sA sB hcanA hcanB heq hb
      .ActorFinderByNodeType _ _ hA.1 hB.1 fuel pos hpos
    exact ⟨[], p2, by simp [ExecutionForTree.executeOp, g1],
      by simp [ExecutionForTree.executeOp, g2], g3, g4⟩
  | PREV_NODE_CONTEXT =>
    obtain ⟨p2, g1, g2, g3, g4⟩ := prevNodeStep_agree fp hfp begin allow sA sB hcanA hcanB heq hb
      .ActorFinderByNodeContext _ _ hA.2.2 hB.2.2 fuel pos hpos
    exact ⟨[], p2, by simp [ExecutionForTree.executeOp, g1],
      by simp [ExecutionForTree.executeOp, g2], g3, g4⟩
  | LAST_OP_CMD =>
    exact ⟨[], pos, by simp [ExecutionForTree.executeOp],
      by simp [ExecutionForTree.executeOp], hpos.1, hpos.2⟩

/-- A program, run from a position up to `begin`, passes the same values to the callback and
ends at the same position in both stores. -/
theorem GetConditionedFeaturesForPosition_agree (fp : Int → Int → Int)
    (hfp : ∀ a b, fp a b ≠ -2147483648)
    (begin : Int) (allow : Bool) (sA sB : TreeStorage)
    (hcanA : Canonical sA) (hcanB : Canonical sB)
    (heq : SliceEquivalent begin allow sA sB) (hb : begin < sA.nodes_.length)
    (eA eB : ExecutionForTree) (hA : ExecInv fp sA eA) (hB : ExecInv fp sB eB)
    (fuel : Nat) (hfuel : sA.nodes_.length < fuel) (p : Program)
    (pos : Int) (hpos : 0 ≤ pos ∧ pos ≤ begin) :
    ∃ out pos',
      eA.GetConditionedFeaturesForPosition fp [sA] fuel p
          (atPos (sliceFrom begin sA.nodes_.length allow) pos)
        = some (out, atPos (sliceFrom begin sA.nodes_.length allow) pos') ∧
      eB.GetConditionedFeaturesForPosition fp [sB] fuel p
          (atPos (sliceFrom begin sA.nodes_.length allow) pos)
        = some (out, atPos (sliceFrom begin sA.nodes_.length allow) pos') ∧
      0 ≤ pos' ∧ pos' ≤ begin := by
  induction p generalizing pos with
  | nil => exact ⟨[], pos, rfl, rfl, hpos.1, hpos.2⟩
  | cons op p ih =>
    obtain ⟨o1, p1, h1, h2, h3, h4⟩ := executeOp_agree fp hfp begin allow sA sB hcanA hcanB heq hb
      eA eB hA hB fuel hfuel op pos hpos
    obtain ⟨o2, p2, g1, g2, g3, g4⟩ := ih p1 ⟨h3, h4⟩
    exact ⟨o1 ++ o2, p2,
      by simp [ExecutionForTree.GetConditionedFeaturesForPosition, h1, g1],
      by simp [ExecutionForTree.GetConditionedFeaturesForPosition, h2, g2], g3, g4⟩

/-- On a store in pre-order the constructor of `ExecutionForTree` returns, with the built
indices. -/
theorem ExecutionForTree_create_inv (fp : Int → Int → Int) (hfp : ∀ a b, fp a b ≠ -2147483648)
    (s : TreeStorage) (hcan : Canonical s) :
    ∃ e, ExecutionForTree.create fp [s] (some 0) = some e ∧ ExecInv fp s e := by
  obtain ⟨nt, h1, i1⟩ := Build_inv fp hfp s hcan .ActorFinderByNodeType
  obtain ⟨nv, h2, i2⟩ := Build_inv fp hfp s hcan .ActorFinderByNodeValue
  obtain ⟨nc, h3, i3⟩ := Build_inv fp hfp s hcan .ActorFinderByNodeContext
  exact ⟨{ tree_ := some 0, index_by_node_type_ := nt, index_by_node_value_ := nv,
           index_by_node_context_ := nc },
    by simp [ExecutionForTree.create, h1, h2, h3], i1, i2, i3⟩

/-- C7: slice non-interference. For two stores in pre-order with the same structure that differ
at most in the type and value of the nodes from `begin` on (the type of the node `begin` excepted
when reading it is allowed), every TCond program run with the sliced traversal that starts at
`begin`, with the slice that `TreeSlice(storage, begin, allow)` builds and the execution built for
the store, returns in both stores, passes the same values to the callback and ends at the same
position. -/
theorem slice_noninterference (FingerprintCat : Int → Int → Int) (sA sB : TreeStorage)
    (begin : Int) (allow_reading_type_for_begin_node : Bool) (p : Program) (fuel : Nat)
    (hcanA : Canonical sA) (hcanB : Canonical sB)
    (heq : SliceEquivalent begin allow_reading_type_for_begin_node sA sB)
    (hbegin : 0 ≤ begin ∧ begin < sA.nodes_.length)
    (hfp : ∀ a b, FingerprintCat a b ≠ -2147483648)
    (hfuel : sA.nodes_.length < fuel) :
    ∃ eA eB sl out t,
      ExecutionForTree.create FingerprintCat [sA] (some 0) = some eA ∧
      ExecutionForTree.create FingerprintCat [sB] (some 0) = some eB ∧
      TreeSlice.ofBegin [sA] 0 begin allow_reading_type_for_begin_node = some sl ∧
      TreeSlice.ofBegin [sB] 0 begin allow_reading_type_for_begin_node = some sl ∧
      eA.GetConditionedFeaturesForPosition FingerprintCat [sA] fuel p
          (SlicedTreeTraversal.create (some 0) begin (some sl)) = some (out, t) ∧
      eB.GetConditionedFeaturesForPosition FingerprintCat [sB] fuel p
          (SlicedTreeTraversal.create (some 0) begin (some sl)) = some (out, t) := by
  obtain ⟨eA, hcA, hiA⟩ := ExecutionForTree_create_inv FingerprintCat hfp sA hcanA
  obtain ⟨eB, hcB, hiB⟩ := ExecutionForTree_create_inv FingerprintCat hfp sB hcanB
  obtain ⟨out, pos', h1, h2, _, _⟩ := GetConditionedFeaturesForPosition_agree FingerprintCat hfp
    begin allow_reading_type_for_begin_node sA sB hcanA hcanB heq hbegin.2 eA eB hiA hiB fuel
    hfuel p begin ⟨hbegin.1, le_refl _⟩
  refine ⟨eA, eB, sliceFrom begin sA.nodes_.length allow_reading_type_for_begin_node, out,
    atPos (sliceFrom begin sA.nodes_.length allow_reading_type_for_begin_node) pos',
    hcA, hcB, ?_, ?_, h1, h2⟩
  · simp [TreeSlice.ofBegin, sliceFrom, TreeStorage.NumAllocatedNodes]
  · simp [TreeSlice.ofBegin, sliceFrom, TreeStorage.NumAllocatedNodes, heq.1]

theorem test_FingerprintCat_ne (a b : Int) : test_FingerprintCat a b ≠ -2147483648 := by
  unfold test_FingerprintCat
  have := Int.emod_nonneg (a * 31 + b + 7) (by decide : (1000003 : Int) ≠ 0)
  omega

/-- Instance on the tree of the test `SimpleProgramExecution` and the tree that has another type
and value at node 5, with the slice that begins at node 5: the program
`PREV_LEAF PREV_NODE_CONTEXT WRITE_VALUE WRITE_POS NEXT_LEAF WRITE_TYPE PREV_NODE_TYPE` emits
`[3, -1000, -1]` and ends at node 5 in both. -/
theorem slice_noninterference_witness :
    (∃ eA eB sl out t,
      ExecutionForTree.create test_FingerprintCat [test_tcond_tree] (some 0) = some eA ∧
      ExecutionForTree.create test_FingerprintCat [test_tcond_tree_variant] (some 0) = some eB ∧
      TreeSlice.ofBegin [test_tcond_tree] 0 5 false = some sl ∧
      TreeSlice.ofBegin [test_tcond_tree_variant] 0 5 false = some sl ∧
      eA.GetConditionedFeaturesForPosition test_FingerprintCat [test_tcond_tree] 7
          [⟨.PREV_LEAF, -1⟩, ⟨.PREV_NODE_CONTEXT, -1⟩, ⟨.WRITE_VALUE, -1⟩, ⟨.WRITE_POS, -1⟩,
           ⟨.NEXT_LEAF, -1⟩, ⟨.WRITE_TYPE, -1⟩, ⟨.PREV_NODE_TYPE, -1⟩]
          (SlicedTreeTraversal.create (some 0) 5 (some sl)) = some (out, t) ∧
      eB.GetConditionedFeaturesForPosition test_FingerprintCat [test_tcond_tree_variant] 7
          [⟨.PREV_LEAF, -1⟩, ⟨.PREV_NODE_CONTEXT, -1⟩, ⟨.WRITE_VALUE, -1⟩, ⟨.WRITE_POS, -1⟩,
           ⟨.NEXT_LEAF, -1⟩, ⟨.WRITE_TYPE, -1⟩, ⟨.PREV_NODE_TYPE, -1⟩]
          (SlicedTreeTraversal.create (some 0) 5 (some sl)) = some (out, t)) ∧
    (ExecutionForTree.create test_FingerprintCat [test_tcond_tree_variant] (some 0)).bind
        (fun eB => eB.GetConditionedFeaturesForPosition test_FingerprintCat
          [test_tcond_tree_variant] 7
          [⟨.PREV_LEAF, -1⟩, ⟨.PREV_NODE_CONTEXT, -1⟩, ⟨.WRITE_VALUE, -1⟩, ⟨.WRITE_POS, -1⟩,
           ⟨.NEXT_LEAF, -1⟩, ⟨.WRITE_TYPE, -1⟩, ⟨.PREV_NODE_TYPE, -1⟩]
          (SlicedTreeTraversal.create (some 0) 5 (some (test_slice false))))
      = some ([3, -1000, -1], SlicedTreeTraversal.create (some 0) 5 (some (test_slice false))) :=
  ⟨slice_noninterference test_FingerprintCat test_tcond_tree test_tcond_tree_variant 5 false
      [⟨.PREV_LEAF, -1⟩, ⟨.PREV_NODE_CONTEXT, -1⟩, ⟨.WRITE_VALUE, -1⟩, ⟨.WRITE_POS, -1⟩,
       ⟨.NEXT_LEAF, -1⟩, ⟨.WRITE_TYPE, -1⟩, ⟨.PREV_NODE_TYPE, -1⟩] 7
      (by decide) (by decide) (by decide) (by decide) test_FingerprintCat_ne (by decide),
    rfl⟩

/-! ## Parsing (`TreeStorage::Parse`) -/

/-- The text `[{"type":"a","children":[1]},{"type":"b"},0]` is parsed into the tree `[a [b]]`;
the trailing `0` is not a node. -/
theorem Parse_parent_and_child :
    TreeStorage.Parse json_parent_and_child ⟨[]⟩ =
      some
        ({ nodes_ :=
             [{ type := 0, value := -1, parent := -1, left_sib := -1, right_sib := -1,
                first_child := 1, last_child := 1, child_index := 0 },
              { type := 1, value := -1, parent := 0, left_sib := -1, right_sib := -1,
                first_child := -1, last_child := -1, child_index := 0 }],
           parent_ := none, position_in_parent_ := -1, first_free_node_ := -1 },
         ⟨["a".toList, "b".toList]⟩) := by
  decide

/-- C13: `TreeStorage::Parse` does not fail on a node object that lists its own id as a child:
the text `[{"type":"a","children":[0]}]` is accepted, and the node of the store it makes is its
own parent, first child and last child. The check made is `child_node_id >= node_id`, while the
comment above it asks for a child id higher than the id of the parent. -/
theorem Parse_accepts_child_id_equal_to_node_id :
    TreeStorage.Parse json_self_child ⟨[]⟩ =
      some
        ({ nodes_ :=
             [{ type := 0, value := -1, parent := 0, left_sib := -1, right_sib := -1,
                first_child := 0, last_child := 0, child_index := 0 }],
           parent_ := none, position_in_parent_ := -1, first_free_node_ := -1 },
         ⟨["a".toList]⟩) := by
  decide

/-! ## Comparing trees (`TreeSize`, `CompareTrees`) -/

/-- The store `compare_small_tree` is the one made by `SubstituteNode` on a new store. -/
theorem compare_small_tree_built :
    TreeStorage.create.SubstituteNode 4 0 ⟨[⟨0, 0, 1, -1⟩, ⟨1, 0, -1, -1⟩]⟩ =
      some compare_small_tree := by
  decide

/-- The store `compare_large_tree` is the one made by `SubstituteNode` on a new store. -/
theorem compare_large_tree_built :
    TreeStorage.create.SubstituteNode 8 0
        ⟨[⟨0, 0, 1, -1⟩, ⟨1, 0, -1, 2⟩, ⟨2, 0, 3, -1⟩, ⟨3, 0, -1, -1⟩]⟩ =
      some compare_large_tree := by
  decide

/-- C17: where `t2` has a right sibling that `t1` lacks, `CompareTrees` adds twice the size of
the subtree at the node of `t1`, not of the excess subtree of `t2`. For `t1 = [0 [1]]` and
`t2 = [0 [1] [2 [3]]]` the excess subtree `[2 [3]]` has 2 nodes: `CompareTrees(t1, t2)` reports
`num_size_smaller_diffs = 2` and 2 differences in total, `CompareTrees(t2, t1)` reports
`num_size_greater_diffs = 4` and 4 differences in total. -/
theorem CompareTrees_missing_right_sibling_counts_size_of_t1 :
    CompareTrees [compare_small_tree, compare_large_tree] 8 ⟨some 0, 0⟩ ⟨some 1, 0⟩
        TreeCompareInfo.create false CompareTrees.default_max_depth =
      some { num_type_equalities := 2, num_type_diffs := 0, num_value_equalities := 2,
             num_value_diffs := 0, num_size_greater_diffs := 0, num_size_smaller_diffs := 2,
             num_aggregated_trees := 1 } ∧
    CompareTrees [compare_small_tree, compare_large_tree] 8 ⟨some 1, 0⟩ ⟨some 0, 0⟩
        TreeCompareInfo.create false CompareTrees.default_max_depth =
      some { num_type_equalities := 2, num_type_diffs := 0, num_value_equalities := 2,
             num_value_diffs := 0, num_size_greater_diffs := 4, num_size_smaller_diffs := 0,
             num_aggregated_trees := 1 } ∧
    TreeSize [compare_small_tree, compare_large_tree] 8 ⟨some 1, 2⟩ = some 2 ∧
    CompareTrees.totals [compare_small_tree, compare_large_tree] 8 ⟨some 0, 0⟩ ⟨some 1, 0⟩ =
      some (4, 2) ∧
    CompareTrees.totals [compare_small_tree, compare_large_tree] 8 ⟨some 1, 0⟩ ⟨some 0, 0⟩ =
      some (4, 4) := by
  decide

/-! ## `MoveLeft` against the linear scan -/

/-- The store `index_test_tree` is the one that the test makes with `SubstituteNode`. -/
theorem index_test_tree_built :
    TreeStorage.create.SubstituteNode 12 0
        ⟨[⟨100, -1, 1, -1⟩, ⟨101, -1, -1, 2⟩, ⟨105, -1, -1, 3⟩, ⟨106, -1, -1, 4⟩,
          ⟨101, -1, -1, 5⟩, ⟨105, -1, -1, -1⟩]⟩ = some index_test_tree := by
  decide

/-- The end of `MoveLeft` on a built index, for a traversal with any slice pointer. -/
theorem lookupIndex_at (sym : Nat → Int) (af : ActorFinder) (N : Nat) (idx : ActorIndex)
    (hinv : IndexInv sym af N N idx) (slice : Option TreeSlice) (symbol : Int) (pos : Int)
    (hpos : 0 ≤ pos ∧ pos < N) :
    ActorSymbolIterator.lookupIndex symbol (SlicedTreeTraversal.create (some 0) pos slice) idx
      = some (if symbol < 0 ∨ nodesWith sym symbol pos.toNat = [] then
                (false, SlicedTreeTraversal.create (some 0) pos slice)
              else (true, SlicedTreeTraversal.create (some 0)
                      ((nodesWith sym symbol pos.toNat).getLast?.getD (-1)) slice)) := by
  obtain ⟨_, _, _, _, hseq⟩ := hinv
  obtain ⟨rest, hsplit, hrest⟩ := nodesWith_split sym symbol pos.toNat N (by omega)
  unfold ActorSymbolIterator.lookupIndex
  rw [hseq symbol]
  by_cases hc : 0 ≤ symbol ∧ nodesWith sym symbol N ≠ []
  · simp only [hc, ne_eq, not_false_eq_true, and_self, if_true]
    have hlb : lower_bound (nodesWith sym symbol N)
        (SlicedTreeTraversal.create (some 0) pos slice).position_
        = some (nodesWith sym symbol pos.toNat).length := by
      rw [hsplit]
      apply lower_bound_append
      · intro x hx
        have := mem_nodesWith sym symbol _ x hx
        show x < pos
        omega
      · intro x hx
        have := hrest x hx
        show ¬ x < pos
        omega
    rw [hlb]
    simp only [Option.some_bind]
    have hs0 : ¬ symbol < 0 := by omega
    by_cases hnil : nodesWith sym symbol pos.toNat = []
    · simp [hnil, hs0]
    · have hlen : (nodesWith sym symbol pos.toNat).length ≠ 0 := by
        simpa [List.length_eq_zero] using hnil
      have hget : (nodesWith sym symbol N)[(nodesWith sym symbol pos.toNat).length - 1]?
          = (nodesWith sym symbol pos.toNat).getLast? := by
        rw [hsplit, List.getElem?_append_left (by omega), List.getLast?_eq_getElem?]
      simp only [hlen, if_false, hget, hs0, hnil, false_or]
      cases hl : (nodesWith sym symbol pos.toNat).getLast? with
      | none => rw [List.getLast?_eq_none_iff] at hl; exact absurd hl hnil
      | some x => rfl
  · simp only [hc, if_false]
    have : symbol < 0 ∨ nodesWith sym symbol pos.toNat = [] := by
      by_cases hs : symbol < 0
      · exact Or.inl hs
      · right
        have hN : nodesWith sym symbol N = [] := by
          by_contra hne
          exact hc ⟨by omega, hne⟩
        rw [hsplit] at hN
        exact (List.append_eq_nil.mp hN).1
    simp [this]

/-- The iterator `MoveLeft` on the built index of a store without a parent store, for a
traversal with any slice pointer. -/
theorem MoveLeft_at (fp : Int → Int → Int) (s : TreeStorage) (hpar : s.parent_ = none)
    (sym : Nat → Int) (af : ActorFinder) (idx : ActorIndex)
    (hinv : IndexInv sym af s.nodes_.length s.nodes_.length idx) (slice : Option TreeSlice)
    (fuel : Nat) (symbol : Int) (pos : Int) (hpos : 0 ≤ pos ∧ pos < s.nodes_.length) :
    ActorSymbolIterator.MoveLeft fp [s] fuel symbol
        (SlicedTreeTraversal.create (some 0) pos slice) idx
      = some (if symbol < 0 ∨ nodesWith sym symbol pos.toNat = [] then
                (false, SlicedTreeTraversal.create (some 0) pos slice)
              else (true, SlicedTreeTraversal.create (some 0)
                      ((nodesWith sym symbol pos.toNat).getLast?.getD (-1)) slice)) := by
  have hlook := lookupIndex_at sym af _ idx hinv slice symbol pos hpos
  obtain ⟨htree, _, hpred, hlen, _⟩ := hinv
  have hp := hpred pos.toNat (by omega)
  unfold ActorSymbolIterator.MoveLeft ActorIndex.get_symbol_pedecessor
  have hs : (SlicedTreeTraversal.create (some 0) pos slice).storage_ = some 0 := rfl
  have hq : (SlicedTreeTraversal.create (some 0) pos slice).position_ = pos := rfl
  have hsl : (SlicedTreeTraversal.create (some 0) pos slice).slice_ = slice := rfl
  have h1 : pos < ((idx.symbol_predecessors_.length : Nat) : Int) := by rw [hlen]; exact hpos.2
  simp only [hs, hq, hsl, htree, if_true, h1, hpos.1, hp, Option.map_some', Option.some_bind,
    List.getElem?_cons_zero, hpar, Option.isSome_none, Bool.false_eq_true, if_false]
  by_cases hsp : pos.toNat < s.nodes_.length ∧ 0 ≤ sym pos.toNat
  · simp only [hsp, and_self, if_true]
    by_cases he : sym pos.toNat = symbol
    · subst he
      have hs0 : ¬ sym pos.toNat < 0 := by omega
      simp only [if_true, hs0, false_or]
      by_cases hnil : nodesWith sym (sym pos.toNat) pos.toNat = []
      · simp [hnil]
      · have hm := mem_nodesWith sym _ _ _ (getLast_getD_mem _ hnil)
        have : ¬ ((nodesWith sym (sym pos.toNat) pos.toNat).getLast?.getD (-1) < 0) := by omega
        simp only [this, if_false, hnil]
    · simp only [he, if_false]
      exact hlook
  · simp only [hsp, if_false]
    by_cases he : (-1 : Int) = symbol
    · subst he
      simp
    · simp only [he, if_false]
      exact hlook

/-- The nodes with a symbol are listed in increasing order. -/
theorem nodesWith_pairwise (sym : Nat → Int) (symbol : Int) (k : Nat) :
    (nodesWith sym symbol k).Pairwise (· < ·) := by
  unfold nodesWith
  rw [List.pairwise_map]
  apply List.Pairwise.filter
  apply List.Pairwise.imp _ (List.pairwise_lt_range k)
  intro a b hab
  show (a : Int) < (b : Int)
  omega

/-- The part of the list of the nodes with a symbol that comes before one of its elements `p`
is the list of the nodes with the symbol before `p`. -/
theorem nodesWith_prefix (sym : Nat → Int) (symbol : Int) (N : Nat) (pre post : List Int)
    (p : Int) (h : nodesWith sym symbol N = pre ++ p :: post) :
    0 ≤ p ∧ p < N ∧ nodesWith sym symbol p.toNat = pre := by
  have hmem : p ∈ nodesWith sym symbol N := by rw [h]; simp
  have hp := mem_nodesWith sym symbol N p hmem
  refine ⟨hp.1, hp.2, ?_⟩
  obtain ⟨rest, hsplit, hrest⟩ := nodesWith_split sym symbol p.toNat N (by omega)
  have hpw := nodesWith_pairwise sym symbol N
  rw [h, List.pairwise_append] at hpw
  have hpre : ∀ a ∈ pre, (fun x => decide (x < p)) a = true := by
    intro a ha
    simpa using hpw.2.2 a ha p (List.mem_cons_self _ _)
  have hpost : ∀ a ∈ p :: post, (fun x => decide (x < p)) a = false := by
    intro a ha
    rcases List.mem_cons.mp ha with rfl | ha
    · simp
    · have := (List.pairwise_cons.mp hpw.2.1).1 a ha
      simp only [decide_eq_false_iff_not]
      omega
  have hl : ∀ a ∈ nodesWith sym symbol p.toNat, (fun x => decide (x < p)) a = true := by
    intro a ha
    have := mem_nodesWith sym symbol _ a ha
    simp only [decide_eq_true_eq]
    omega
  have hr : ∀ a ∈ rest, (fun x => decide (x < p)) a = false := by
    intro a ha
    have := hrest a ha
    simp only [decide_eq_false_iff_not]
    omega
  have e1 : (nodesWith sym symbol N).takeWhile (fun x => decide (x < p)) = pre := by
    rw [h, List.takeWhile_append_of_pos hpre, takeWhile_none _ _ hpost, List.append_nil]
  have e2 : (nodesWith sym symbol N).takeWhile (fun x => decide (x < p))
      = nodesWith sym symbol p.toNat := by
    rw [hsplit, List.takeWhile_append_of_pos hl, takeWhile_none _ _ hr, List.append_nil]
  rw [← e2, e1]

/-- The linear scan of a store in pre-order finds the nodes with the symbol in increasing
order. -/
theorem linearScanForSymbol_eq (fp : Int → Int → Int) (hfp : ∀ a b, fp a b ≠ -2147483648)
    (s : TreeStorage) (hcan : Canonical s) (af : ActorFinder) (symbol : Int) :
    linearScanForSymbol fp s af symbol
      = some (nodesWith (symOf fp s af) symbol s.nodes_.length) := by
  unfold linearScanForSymbol nodesWith
  rw [hcan.2.1]
  simp only [Option.map_some', List.filter_map, Option.some.injEq]
  congr 1
  apply List.filter_congr
  intro j hj
  have hj2 : j < s.nodes_.length := List.mem_range.mp hj
  have := symOf_spec fp hfp s hcan af j hj2
  simp only [Function.comp]
  have e : (Int.ofNat j) = (j : Int) := rfl
  rw [e, this]
  simp

/-- The iteration of `MoveLeft` from an element of the list of the nodes with a symbol visits the
elements before it, last first. -/
theorem moveLeftUntilFalse_at (fp : Int → Int → Int) (s : TreeStorage) (hpar : s.parent_ = none)
    (sym : Nat → Int) (af : ActorFinder) (idx : ActorIndex)
    (hinv : IndexInv sym af s.nodes_.length s.nodes_.length idx) (slice : Option TreeSlice)
    (fuel : Nat) (symbol : Int) (hsym : 0 ≤ symbol) (rounds : Nat) :
    ∀ (pre post : List Int) (p : Int),
      nodesWith sym symbol s.nodes_.length = pre ++ p :: post → pre.length < rounds →
      ActorSymbolIterator.moveLeftUntilFalse fp [s] fuel symbol idx rounds
          (SlicedTreeTraversal.create (some 0) p slice) = some pre.reverse := by
  induction rounds with
  | zero => intro pre post p _ hlt; omega
  | succ n ih =>
    intro pre post p h hlt
    obtain ⟨hp0, hpN, hpre⟩ := nodesWith_prefix sym symbol _ pre post p h
    unfold ActorSymbolIterator.moveLeftUntilFalse
    rw [MoveLeft_at fp s hpar sym af idx hinv slice fuel symbol p ⟨hp0, hpN⟩, hpre]
    have hs0 : ¬ symbol < 0 := by omega
    rcases List.eq_nil_or_concat pre with hnil | ⟨pre1, q, hq⟩
    · simp [hnil, hs0]
    · rw [List.concat_eq_append] at hq
      subst hq
      have hne : ¬ (pre1 ++ [q] = []) := by simp
      have hlast : (pre1 ++ [q]).getLast?.getD (-1) = q := by simp
      have h2 : nodesWith sym symbol s.nodes_.length = pre1 ++ q :: (p :: post) := by
        rw [h]; simp
      have hlen : pre1.length < n := by
        simp only [List.length_append, List.length_singleton] at hlt
        omega
      simp only [hs0, hne, or_self, if_false, Option.some_bind, if_true, hlast]
      rw [ih pre1 (p :: post) q h2 hlen]
      simp [SlicedTreeTraversal.create]

/-- C18: for a store in pre-order with its built index and a symbol that is not negative, the
linear scan over the store finds a list `scan` of nodes with the symbol, in increasing order of
their ids; `MoveLeft` from an element `p` of `scan` moves to the element just before `p` in
`scan` (the greatest id below `p` with the symbol) and returns false at the first element; and
calling `MoveLeft` until it returns false, from any element and so from the last one, visits
the elements of `scan` before the start, in reverse order. -/
theorem MoveLeft_iteration_is_reversed_linear_scan (fp : Int → Int → Int)
    (hfp : ∀ a b, fp a b ≠ -2147483648) (s : TreeStorage) (hcan : Canonical s)
    (af : ActorFinder) (idx : ActorIndex)
    (hbuild : (ActorIndex.create af (some 0)).Build fp [s] = some idx)
    (slice : Option TreeSlice) (symbol : Int) (hsym : 0 ≤ symbol) :
    ∃ scan, linearScanForSymbol fp s af symbol = some scan ∧ scan.Pairwise (· < ·) ∧
      ∀ (pre post : List Int) (p : Int), scan = pre ++ p :: post →
        (∀ fuel, ActorSymbolIterator.MoveLeft fp [s] fuel symbol
            (SlicedTreeTraversal.create (some 0) p slice) idx
          = some (match pre.getLast? with
                  | none => (false, SlicedTreeTraversal.create (some 0) p slice)
                  | some q => (true, SlicedTreeTraversal.create (some 0) q slice))) ∧
        (∀ fuel rounds, pre.length < rounds →
          ActorSymbolIterator.moveLeftUntilFalse fp [s] fuel symbol idx rounds
              (SlicedTreeTraversal.create (some 0) p slice) = some pre.reverse) := by
  obtain ⟨idx1, hb1, hinv⟩ := Build_inv fp hfp s hcan af
  rw [hbuild] at hb1
  cases hb1
  refine ⟨_, linearScanForSymbol_eq fp hfp s hcan af symbol, nodesWith_pairwise _ _ _, ?_⟩
  intro pre post p h
  obtain ⟨hp0, hpN, hpre⟩ := nodesWith_prefix _ symbol _ pre post p h
  refine ⟨?_, ?_⟩
  · intro fuel
    rw [MoveLeft_at fp s hcan.1 _ af idx hinv slice fuel symbol p ⟨hp0, hpN⟩, hpre]
    have hs0 : ¬ symbol < 0 := by omega
    cases hl : pre.getLast? with
    | none =>
      rw [List.getLast?_eq_none_iff] at hl
      simp [hl]
    | some q =>
      have hne : pre ≠ [] := by
        intro h0; rw [h0] at hl; simp at hl
      simp [hs0, hne]
  · intro fuel rounds hlt
    exact moveLeftUntilFalse_at fp s hcan.1 _ af idx hinv slice fuel symbol hsym rounds
      pre post p h hlt

/-- The theorem `MoveLeft_iteration_is_reversed_linear_scan` on the store of
`TEST(TreeIndex, TestIterator)` for the symbol 105: the scan finds the nodes 2 and 5, and the
iteration from node 5 visits node 2. -/
theorem MoveLeft_iteration_is_reversed_linear_scan_witness :
    Canonical index_test_tree ∧
    (ActorIndex.create .ActorFinderByNodeType (some 0)).Build test_FingerprintCat
        [index_test_tree] = some index_test_index ∧
    linearScanForSymbol test_FingerprintCat index_test_tree .ActorFinderByNodeType 105
      = some [2, 5] ∧
    ∃ scan, linearScanForSymbol test_FingerprintCat index_test_tree .ActorFinderByNodeType 105
        = some scan ∧ scan.Pairwise (· < ·) ∧
      ∀ (pre post : List Int) (p : Int), scan = pre ++ p :: post →
        (∀ fuel, ActorSymbolIterator.MoveLeft test_FingerprintCat [index_test_tree] fuel 105
            (SlicedTreeTraversal.create (some 0) p none) index_test_index
          = some (match pre.getLast? with
                  | none => (false, SlicedTreeTraversal.create (some 0) p none)
                  | some q => (true, SlicedTreeTraversal.create (some 0) q none))) ∧
        (∀ fuel rounds, pre.length < rounds →
          ActorSymbolIterator.moveLeftUntilFalse test_FingerprintCat [index_test_tree] fuel 105
              index_test_index rounds (SlicedTreeTraversal.create (some 0) p none)
            = some pre.reverse) :=
  ⟨by decide, by decide, by decide,
    MoveLeft_iteration_is_reversed_linear_scan test_FingerprintCat
      (by intro a b; unfold test_FingerprintCat; omega) index_test_tree (by decide)
      .ActorFinderByNodeType index_test_index (by decide) none 105 (by decide)⟩

/-! ## Hash maps as lists of entries -/

theorem keyEquals_iff (a b : SequenceHashFeature × Int) :
    keyEquals a b = true ↔ a.1.hash_ = b.1.hash_ ∧ a.2 = b.2 := by
  simp [keyEquals, SequenceHashFeature.equals]

theorem keyEquals_equivalence : KeyEquivalence keyEquals := by
  refine ⟨?_, ?_, ?_⟩
  · intro a; simp [keyEquals_iff]
  · intro a b
    apply Bool.eq_iff_iff.mpr
    rw [keyEquals_iff, keyEquals_iff]
    constructor <;> rintro ⟨h1, h2⟩ <;> exact ⟨h1.symm, h2.symm⟩
  · intro a b c h
    rw [keyEquals_iff] at h
    apply Bool.eq_iff_iff.mpr
    rw [keyEquals_iff, keyEquals_iff, h.1, h.2]

theorem featureEquals_equivalence : KeyEquivalence SequenceHashFeature.equals := by
  refine ⟨?_, ?_, ?_⟩
  · intro a; simp [SequenceHashFeature.equals]
  · intro a b
    apply Bool.eq_iff_iff.mpr
    simp only [SequenceHashFeature.equals, beq_iff_eq]
    exact eq_comm
  · intro a b c h
    simp only [SequenceHashFeature.equals, beq_iff_eq] at h
    apply Bool.eq_iff_iff.mpr
    simp only [SequenceHashFeature.equals, beq_iff_eq, h]

theorem intEquals_equivalence : KeyEquivalence (fun a b : Int => a == b) := by
  refine ⟨?_, ?_, ?_⟩
  · intro a; simp
  · intro a b
    apply Bool.eq_iff_iff.mpr
    simp only [beq_iff_eq]
    exact eq_comm
  · intro a b c h
    simp only [beq_iff_eq] at h
    simp [h]

/-- Equivalent keys are found alike. -/
theorem hashMapFind_congr {K V : Type} (eq : K → K → Bool) (he : KeyEquivalence eq)
    (table : List (K × V)) (a b : K) (h : eq a b = true) :
    hashMapFind eq table a = hashMapFind eq table b := by
  induction table with
  | nil => rfl
  | cons e rest ih =>
    obtain ⟨k, v⟩ := e
    have : eq k a = eq k b := by
      rw [he.2.1 k a, he.2.1 k b]
      exact (he.2.2 a b k h).symm ▸ rfl
    simp only [hashMapFind, this, ih]

theorem hashMapFind_eq_none_iff {K V : Type} (eq : K → K → Bool) (table : List (K × V))
    (key : K) : hashMapFind eq table key = none ↔ ∀ e ∈ table, eq e.1 key = false := by
  induction table with
  | nil => simp [hashMapFind]
  | cons e rest ih =>
    obtain ⟨k, v⟩ := e
    by_cases h : eq k key = true
    · simp [hashMapFind, h]
    · simp only [Bool.not_eq_true] at h
      simp [hashMapFind, h, ih]

theorem hashMapFind_eq_some_iff {K V : Type} (eq : K → K → Bool) (he : KeyEquivalence eq)
    (table : List (K × V)) (hd : DistinctKeys eq table) (key : K) (v : V) :
    hashMapFind eq table key = some v ↔ ∃ e ∈ table, eq e.1 key = true ∧ e.2 = v := by
  induction table with
  | nil => simp [hashMapFind]
  | cons e rest ih =>
    obtain ⟨k, w⟩ := e
    have hd2 : DistinctKeys eq rest := by
      unfold DistinctKeys at hd ⊢
      simp only [List.map_cons, List.pairwise_cons] at hd
      exact hd.2
    have hk : ∀ e ∈ rest, eq k e.1 = false := by
      unfold DistinctKeys at hd
      simp only [List.map_cons, List.pairwise_cons, List.mem_map, forall_exists_index,
        and_imp] at hd
      intro e he2
      exact hd.1 e.1 e he2 rfl
    by_cases h : eq k key = true
    · simp only [hashMapFind, h, if_true, Option.some.injEq, List.mem_cons]
      constructor
      · intro hv
        exact ⟨(k, w), Or.inl rfl, h, hv⟩
      · rintro ⟨e, he1 | he1, he2, he3⟩
        · subst he1; exact he3
        · exfalso
          have h1 := hk e he1
          have h2 := he.2.2 k key e.1 h
          rw [he.2.1 key e.1, he2] at h2
          rw [h1] at h2
          exact Bool.noConfusion h2
    · simp only [Bool.not_eq_true] at h
      simp only [hashMapFind, h, Bool.false_eq_true, if_false, ih hd2, List.mem_cons]
      constructor
      · rintro ⟨e, he1, he2⟩
        exact ⟨e, Or.inr he1, he2⟩
      · rintro ⟨e, he1 | he1, he2, he3⟩
        · subst he1
          rw [h] at he2
          exact Bool.noConfusion he2
        · exact ⟨e, he1, he2, he3⟩

theorem DistinctKeys_perm {K V : Type} (eq : K → K → Bool) (he : KeyEquivalence eq)
    (l1 l2 : List (K × V)) (hp : l1.Perm l2) (hd : DistinctKeys eq l1) :
    DistinctKeys eq l2 := by
  unfold DistinctKeys at hd ⊢
  refine ((hp.map Prod.fst).pairwise_iff ?_).mp hd
  intro a b hab
  rw [he.2.1]
  exact hab

/-- In a map with distinct keys the result of `find` does not depend on the order of the
entries. -/
theorem hashMapFind_perm {K V : Type} (eq : K → K → Bool) (he : KeyEquivalence eq)
    (l1 l2 : List (K × V)) (hp : l1.Perm l2) (hd : DistinctKeys eq l1) (key : K) :
    hashMapFind eq l1 key = hashMapFind eq l2 key := by
  have hd2 := DistinctKeys_perm eq he l1 l2 hp hd
  cases h : hashMapFind eq l1 key with
  | none =>
    rw [hashMapFind_eq_none_iff] at h
    symm
    rw [hashMapFind_eq_none_iff]
    intro e hmem
    exact h e (hp.mem_iff.mpr hmem)
  | some v =>
    rw [hashMapFind_eq_some_iff eq he l1 hd] at h
    symm
    rw [hashMapFind_eq_some_iff eq he l2 hd2]
    obtain ⟨e, hmem, h1, h2⟩ := h
    exact ⟨e, hp.mem_iff.mp hmem, h1, h2⟩

/-- The element found after `m[key0]` was updated. -/
theorem hashMapFind_modify {K V : Type} (eq : K → K → Bool) (he : KeyEquivalence eq)
    (init : V) (f : V → V) (table : List (K × V)) (key0 key : K) :
    hashMapFind eq (hashMapModify eq init f table key0) key
      = if eq key0 key then some (f ((hashMapFind eq table key0).getD init))
        else hashMapFind eq table key := by
  induction table with
  | nil => simp [hashMapModify, hashMapFind]
  | cons e rest ih =>
    obtain ⟨k, v⟩ := e
    by_cases h0 : eq k key0 = true
    · have h1 : eq key0 key = eq k key := he.2.2 k key0 key h0
      simp only [hashMapModify, h0, if_true, hashMapFind, Option.getD_some, h1]
      by_cases h2 : eq k key = true
      · simp [h2]
      · simp [h2]
    · simp only [Bool.not_eq_true] at h0
      simp only [hashMapModify, h0, Bool.false_eq_true, if_false, hashMapFind, ih]
      by_cases h1 : eq k key = true
      · have h2 : eq key0 key = false := by
          have := he.2.2 k key key0 h1
          rw [he.2.1 key0 key, this, h0]
        simp [h1, h2]
      · simp only [Bool.not_eq_true] at h1
        simp [h1]

/-- The update of an element that is present keeps the keys. -/
theorem hashMapModify_keys {K V : Type} (eq : K → K → Bool) (init : V) (f : V → V)
    (table : List (K × V)) (key0 : K) (h : (hashMapFind eq table key0).isSome = true) :
    (hashMapModify eq init f table key0).map Prod.fst = table.map Prod.fst := by
  induction table with
  | nil => simp [hashMapFind] at h
  | cons e rest ih =>
    obtain ⟨k, v⟩ := e
    by_cases h0 : eq k key0 = true
    · simp [hashMapModify, h0]
    · simp only [Bool.not_eq_true] at h0
      simp only [hashMapFind, h0, Bool.false_eq_true, if_false] at h
      simp [hashMapModify, h0, ih h]

/-- The update of an element that is absent puts the new element last. -/
theorem hashMapModify_absent {K V : Type} (eq : K → K → Bool) (init : V) (f : V → V)
    (table : List (K × V)) (key0 : K) (h : hashMapFind eq table key0 = none) :
    hashMapModify eq init f table key0 = table ++ [(key0, f init)] := by
  induction table with
  | nil => rfl
  | cons e rest ih =>
    obtain ⟨k, v⟩ := e
    by_cases h0 : eq k key0 = true
    · simp [hashMapFind, h0] at h
    · simp only [Bool.not_eq_true] at h0
      simp only [hashMapFind, h0, Bool.false_eq_true, if_false] at h
      simp [hashMapModify, h0, ih h]

theorem DistinctKeys_modify {K V : Type} (eq : K → K → Bool)
    (init : V) (f : V → V) (table : List (K × V)) (key0 : K) (hd : DistinctKeys eq table) :
    DistinctKeys eq (hashMapModify eq init f table key0) := by
  cases h : hashMapFind eq table key0 with
  | some v =>
    unfold DistinctKeys
    rw [hashMapModify_keys eq init f table key0 (by simp [h])]
    exact hd
  | none =>
    rw [hashMapModify_absent eq init f table key0 h]
    unfold DistinctKeys at hd ⊢
    rw [List.map_append, List.pairwise_append]
    refine ⟨hd, by simp, ?_⟩
    intro a ha b hb
    simp only [List.map_cons, List.map_nil, List.mem_singleton] at hb
    subst hb
    rw [hashMapFind_eq_none_iff] at h
    obtain ⟨e, he1, he2⟩ := List.mem_map.mp ha
    rw [← he2]
    exact h e he1

/-! ## `AddValue` and `GetCount` -/

theorem addInt32_exact (a b : Int) (h : inInt32 (a + b) = true) : addInt32 a b = a + b := by
  simp only [inInt32, Bool.and_eq_true, decide_eq_true_eq] at h
  unfold addInt32
  omega

theorem addInt32_right_comm (a b c : Int) :
    addInt32 (addInt32 a b) c = addInt32 (addInt32 a c) b := by
  unfold addInt32
  omega

/-- The statement `feature_value_counts_[key] += count`: what `find` gives after it, and the keys
stay different from each other. -/
theorem countsAdd_spec (layout : List ((SequenceHashFeature × Int) × Int) →
      List ((SequenceHashFeature × Int) × Int)) (hlayout : ∀ l, (layout l).Perm l)
    (table : List ((SequenceHashFeature × Int) × Int)) (hd : DistinctKeys keyEquals table)
    (x : SequenceHashFeature × Int × Int) :
    DistinctKeys keyEquals (countsAdd layout table (x.1, x.2.1) x.2.2) ∧
    ∀ key, hashMapFind keyEquals (countsAdd layout table (x.1, x.2.1) x.2.2) key
      = findAfterAdd (hashMapFind keyEquals table) x key := by
  have he := keyEquals_equivalence
  unfold countsAdd findAfterAdd
  cases h : hashMapFind keyEquals table (x.1, x.2.1) with
  | some v =>
    refine ⟨DistinctKeys_modify keyEquals _ _ table _ hd, ?_⟩
    intro key
    rw [hashMapFind_modify keyEquals he]
    by_cases hk : keyEquals (x.1, x.2.1) key = true
    · rw [← hashMapFind_congr keyEquals he table _ _ hk]
    · simp [hk]
  | none =>
    have hmod := hashMapModify_absent keyEquals 0 (fun n => addInt32 n x.2.2) table
      (x.1, x.2.1) h
    have hd1 : DistinctKeys keyEquals (table ++ [((x.1, x.2.1), addInt32 0 x.2.2)]) := by
      rw [← hmod]
      exact DistinctKeys_modify keyEquals _ _ table _ hd
    have hp := hlayout (table ++ [((x.1, x.2.1), addInt32 0 x.2.2)])
    refine ⟨DistinctKeys_perm keyEquals he _ _ hp.symm hd1, ?_⟩
    intro key
    simp only []
    rw [← hashMapFind_perm keyEquals he _ _ hp.symm hd1 key, ← hmod,
      hashMapFind_modify keyEquals he]
    by_cases hk : keyEquals (x.1, x.2.1) key = true
    · rw [← hashMapFind_congr keyEquals he table _ _ hk]
    · simp [hk]

/-- The effects of two calls of `AddValue` on `find` commute. -/
theorem findAfterAdd_comm (g : SequenceHashFeature × Int → Option Int)
    (x y : SequenceHashFeature × Int × Int) :
    findAfterAdd (findAfterAdd g x) y = findAfterAdd (findAfterAdd g y) x := by
  funext key
  unfold findAfterAdd
  by_cases hx : keyEquals (x.1, x.2.1) key = true <;>
    by_cases hy : keyEquals (y.1, y.2.1) key = true <;>
    simp [hx, hy, addInt32_right_comm]
/-- The calls of `AddValue` for a list of triples: what `find` gives after them. -/
theorem addValues_spec (layout : List ((SequenceHashFeature × Int) × Int) →
      List ((SequenceHashFeature × Int) × Int)) (hlayout : ∀ l, (layout l).Perm l)
    (xs : List (SequenceHashFeature × Int × Int)) :
    ∀ c : PerFeatureValueCounter, c.WellFormed →
      (c.addValues layout xs).WellFormed ∧
      hashMapFind keyEquals (c.addValues layout xs).feature_value_counts_
        = xs.foldl findAfterAdd (hashMapFind keyEquals c.feature_value_counts_) := by
  induction xs with
  | nil => intro c h; exact ⟨h, rfl⟩
  | cons x rest ih =>
    intro c h
    obtain ⟨h1, h2⟩ := countsAdd_spec layout hlayout c.feature_value_counts_ h x
    have h3 := ih (c.AddValue layout x.1 x.2.1 x.2.2) h1
    refine ⟨h3.1, ?_⟩
    have hg : hashMapFind keyEquals (c.AddValue layout x.1 x.2.1 x.2.2).feature_value_counts_
        = findAfterAdd (hashMapFind keyEquals c.feature_value_counts_) x := funext h2
    show hashMapFind keyEquals
        ((c.AddValue layout x.1 x.2.1 x.2.2).addValues layout rest).feature_value_counts_ = _
    rw [h3.2, hg]
    rfl

/-- Lists of calls of `AddValue` that are permutations of each other give the same table, as far
as `find` tells. -/
theorem addValues_find_perm (layout : List ((SequenceHashFeature × Int) × Int) →
      List ((SequenceHashFeature × Int) × Int)) (hlayout : ∀ l, (layout l).Perm l)
    (c : PerFeatureValueCounter) (hwf : c.WellFormed)
    (xs ys : List (SequenceHashFeature × Int × Int)) (hp : xs.Perm ys) :
    hashMapFind keyEquals (c.addValues layout xs).feature_value_counts_
      = hashMapFind keyEquals (c.addValues layout ys).feature_value_counts_ := by
  rw [(addValues_spec layout hlayout xs c hwf).2, (addValues_spec layout hlayout ys c hwf).2]
  exact List.Perm.foldl_eq' hp (fun x _ y _ z => findAfterAdd_comm z x y) _

/-- A member of a hash map after an update. -/
theorem mem_hashMapModify {K V : Type} (eq : K → K → Bool) (init : V) (f : V → V)
    (table : List (K × V)) (key0 : K) (e : K × V)
    (h : e ∈ hashMapModify eq init f table key0) :
    e ∈ table ∨ (e.1 = key0 ∧ e.2 = f init) ∨ ∃ w, (e.1, w) ∈ table ∧ e.2 = f w := by
  induction table with
  | nil =>
    simp only [hashMapModify, List.mem_singleton] at h
    subst h
    exact Or.inr (Or.inl ⟨rfl, rfl⟩)
  | cons e0 rest ih =>
    obtain ⟨k, v⟩ := e0
    by_cases h0 : eq k key0 = true
    · simp only [hashMapModify, h0, if_true, List.mem_cons] at h
      rcases h with h | h
      · subst h
        exact Or.inr (Or.inr ⟨v, List.mem_cons_self _ _, rfl⟩)
      · exact Or.inl (List.mem_cons_of_mem _ h)
    · simp only [Bool.not_eq_true] at h0
      simp only [hashMapModify, h0, Bool.false_eq_true, if_false, List.mem_cons] at h
      rcases h with h | h
      · subst h
        exact Or.inl (List.mem_cons_self _ _)
      · rcases ih h with h1 | h1 | ⟨w, h1, h2⟩
        · exact Or.inl (List.mem_cons_of_mem _ h1)
        · exact Or.inr (Or.inl h1)
        · exact Or.inr (Or.inr ⟨w, List.mem_cons_of_mem _ h1, h2⟩)

/-- The result of `find` after every element of the map was changed by `g`. -/
theorem hashMapFind_map {K V W : Type} (eq : K → K → Bool) (g : V → W)
    (table : List (K × V)) (key : K) :
    hashMapFind eq (table.map fun e => (e.1, g e.2)) key
      = (hashMapFind eq table key).map g := by
  induction table with
  | nil => rfl
  | cons e rest ih =>
    obtain ⟨k, v⟩ := e
    by_cases h : eq k key = true
    · simp [hashMapFind, h]
    · simp only [Bool.not_eq_true] at h
      simp [hashMapFind, h, ih]

/-! ## The first loop of `EndAdding` -/

theorem statsOf_nil : statsOf [] = FeatureStats.create := rfl

/-- The statistics of a feature after one more entry. -/
theorem statsOf_AddValue (entries : List (Nat × Int)) (count : Int) (ptr : Nat) :
    (statsOf entries).AddValue count ptr
      = if 0 ≤ count then some (statsOf (entries ++ [(ptr, count)])) else none := by
  unfold FeatureStats.AddValue
  by_cases hc : 0 ≤ count
  · have hm : 0 ≤ min count 3 := by omega
    simp only [hm, hc, if_true]
    have h4 : min count 3 = 0 ∨ min count 3 = 1 ∨ min count 3 = 2 ∨ min count 3 = 3 := by
      omega
    rcases h4 with h | h | h | h <;>
      simp [statsOf, h, List.countP_append, List.countP_cons, List.foldl_append] <;> omega
  · have hm : ¬ 0 ≤ min count 3 := by omega
    simp [hm, hc]
theorem statsFor_getD (entries : List (Nat × Int)) :
    (statsFor entries).getD FeatureStats.create = statsOf entries := by
  unfold statsFor
  by_cases h : entries = []
  · subst h; rfl
  · simp [h]

theorem entriesFor_append_single (f : SequenceHashFeature)
    (done : List (Nat × (SequenceHashFeature × Int) × Int)) (ptr : Nat)
    (e : (SequenceHashFeature × Int) × Int) :
    entriesFor f (done ++ [(ptr, e)])
      = entriesFor f done ++ (if e.1.1.equals f then [(ptr, e.2)] else []) := by
  unfold entriesFor
  by_cases h : e.1.1.equals f = true
  · simp [List.filter_append, List.filter_cons, h]
  · simp [List.filter_append, List.filter_cons, h]

theorem entriesFor_congr (f g : SequenceHashFeature) (h : f.equals g = true)
    (done : List (Nat × (SequenceHashFeature × Int) × Int)) :
    entriesFor f done = entriesFor g done := by
  unfold entriesFor
  congr 1
  apply List.filter_congr
  intro x _
  have he := featureEquals_equivalence
  rw [he.2.1 x.2.1.1 f, he.2.1 x.2.1.1 g]
  exact (he.2.2 f g x.2.1.1 h).symm

theorem hashMapFind_mem {K V : Type} (eq : K → K → Bool) (table : List (K × V)) (key : K)
    (v : V) (h : hashMapFind eq table key = some v) : ∃ k, (k, v) ∈ table := by
  induction table with
  | nil => simp [hashMapFind] at h
  | cons e rest ih =>
    obtain ⟨k, w⟩ := e
    by_cases h0 : eq k key = true
    · simp only [hashMapFind, h0, if_true, Option.some.injEq] at h
      subst h
      exact ⟨k, List.mem_cons_self _ _⟩
    · simp only [Bool.not_eq_true] at h0
      simp only [hashMapFind, h0, Bool.false_eq_true, if_false] at h
      obtain ⟨k', hk⟩ := ih h
      exact ⟨k', List.mem_cons_of_mem _ hk⟩

theorem AddCount_spec (d : KneserNeyDelta) (count : Int) (hl : d.counts_.length = 5) :
    (0 < count → ∃ d1, d.AddCount count = some d1 ∧ d1.counts_.length = 5 ∧
      d1.deltas_ = d.deltas_) ∧
    (¬ 0 < count → d.AddCount count = none) := by
  unfold KneserNeyDelta.AddCount
  refine ⟨?_, ?_⟩
  · intro hc
    have hi : (min count 4).toNat < d.counts_.length := by omega
    simp only [gt_iff_lt, hc, if_true, List.getElem?_eq_getElem hi, Option.map_some']
    exact ⟨_, rfl, by simp [hl], rfl⟩
  · intro hc
    simp [hc]

/-- The default delta or a delta of the map has arrays of 5 and 4 elements. -/
theorem find_delta_lengths (deltas : List (Int × KneserNeyDelta))
    (h : ∀ e ∈ deltas, e.2.counts_.length = 5 ∧ e.2.deltas_.length = 4) (key : Int) :
    ((hashMapFind (· == ·) deltas key).getD KneserNeyDelta.create).counts_.length = 5 ∧
    ((hashMapFind (· == ·) deltas key).getD KneserNeyDelta.create).deltas_.length = 4 := by
  cases hf : hashMapFind (· == ·) deltas key with
  | none => exact ⟨rfl, rfl⟩
  | some d =>
    obtain ⟨k, hk⟩ := hashMapFind_mem _ _ _ _ hf
    exact h (k, d) hk

/-- The body of the first loop of `EndAdding`: it fails for a count that is not admitted, and
keeps the invariants of the maps otherwise. -/
theorem visit_spec (st : Int) (S : EndAddingState)
    (done : List (Nat × (SequenceHashFeature × Int) × Int)) (ptr : Nat)
    (e : (SequenceHashFeature × Int) × Int)
    (hinv : StatsInv S.feature_stats_ done) (hd : DeltasReady S.value_stats_ S.deltas_) :
    (countOK st e.2 → ∃ S1, S.visit st ptr e = some S1 ∧
      StatsInv S1.feature_stats_ (done ++ [(ptr, e)]) ∧
      DeltasReady S1.value_stats_ S1.deltas_) ∧
    (¬ countOK st e.2 → S.visit st ptr e = none) := by
  have hfe := featureEquals_equivalence
  have hie := intEquals_equivalence
  have hold : (hashMapFind SequenceHashFeature.equals S.feature_stats_ e.1.1).getD
      FeatureStats.create = statsOf (entriesFor e.1.1 done) := by
    rw [hinv e.1.1, statsFor_getD]
  have hstats : StatsInv
      (hashMapModify SequenceHashFeature.equals FeatureStats.create
        (fun _ => statsOf (entriesFor e.1.1 done ++ [(ptr, e.2)])) S.feature_stats_ e.1.1)
      (done ++ [(ptr, e)]) := by
    intro f
    rw [hashMapFind_modify _ hfe, entriesFor_append_single]
    by_cases hf : e.1.1.equals f = true
    · simp only [hf, if_true]
      rw [entriesFor_congr _ _ hf]
      simp [statsFor]
    · simp only [Bool.not_eq_true] at hf
      simp only [hf, Bool.false_eq_true, if_false, List.append_nil]
      exact hinv f
  unfold EndAddingState.visit
  simp only [hold, statsOf_AddValue]
  refine ⟨?_, ?_⟩
  · rintro ⟨h0, hk⟩
    simp only [h0, if_true, Option.some_bind]
    by_cases hst : st = KneserNey
    · have hpos := hk hst
      obtain ⟨hl5, hl4⟩ := find_delta_lengths S.deltas_ hd.2.1 e.1.1.size
      obtain ⟨d1, hd1, hd15, hd14⟩ := (AddCount_spec _ e.2 hl5).1 hpos
      simp only [hst, if_true, hd1, Option.map_some']
      refine ⟨_, rfl, hstats, ?_, ?_, ?_⟩
      · intro x hx
        simp only [] at hx ⊢
        rw [hashMapFind_modify _ hie]
        by_cases hxe : (e.1.1.size == x.1) = true
        · simp [hxe]
        · simp only [hxe, Bool.false_eq_true, if_false]
          rcases mem_hashMapModify _ _ _ _ _ _ hx with h1 | h1 | ⟨w, h1, _⟩
          · exact hd.1 x h1
          · exfalso
            apply hxe
            simp [h1.1]
          · exact hd.1 (x.1, w) h1
      · intro x hx
        rcases mem_hashMapModify _ _ _ _ _ _ hx with h1 | h1 | ⟨w, _, h2⟩
        · exact hd.2.1 x h1
        · rw [h1.2, hd15, hd14]; exact ⟨rfl, hl4⟩
        · rw [h2, hd15, hd14]; exact ⟨rfl, hl4⟩
      · intro x hx p hp
        have hvs : ∀ vs : ValueStats, (∀ q ∈ vs.per_value_continuations_, 0 < q.2) →
            ∀ q ∈ (vs.AddFeatureForValue e.1.2).per_value_continuations_, 0 < q.2 := by
          intro vs hvs q hq
          rcases mem_hashMapModify _ _ _ _ _ _ hq with h1 | h1 | ⟨w, h1, h2⟩
          · exact hvs q h1
          · rw [h1.2]; decide
          · have := hvs (q.1, w) h1
            rw [h2]
            simp only [] at this
            omega
        rcases mem_hashMapModify _ _ _ _ _ _ hx with h1 | h1 | ⟨w, h1, h2⟩
        · exact hd.2.2 x h1 p hp
        · rw [h1.2] at hp
          exact hvs ValueStats.create (by simp [ValueStats.create]) p hp
        · rw [h2] at hp
          exact hvs w (hd.2.2 (x.1, w) h1) p hp
    · simp only [hst, if_false]
      exact ⟨_, rfl, hstats, hd⟩
  · intro hn
    by_cases h0 : 0 ≤ e.2
    · simp only [h0, if_true, Option.some_bind]
      have hst : st = KneserNey := by
        by_contra hne
        exact hn ⟨h0, fun h => absurd h hne⟩
      have hpos : ¬ 0 < e.2 := fun h => hn ⟨h0, fun _ => h⟩
      obtain ⟨hl5, _⟩ := find_delta_lengths S.deltas_ hd.2.1 e.1.1.size
      simp only [hst, if_true, (AddCount_spec _ e.2 hl5).2 hpos, Option.map_none']
    · simp [h0]
/-- The first loop of `EndAdding`: it fails when some count is not admitted, and gives the
statistics of every feature otherwise. -/
theorem visitAll_spec (st : Int) (rest : List ((SequenceHashFeature × Int) × Int)) :
    ∀ (ptr : Nat) (S : EndAddingState)
      (done : List (Nat × (SequenceHashFeature × Int) × Int)),
      StatsInv S.feature_stats_ done → DeltasReady S.value_stats_ S.deltas_ →
      ((∀ e ∈ rest, countOK st e.2) → ∃ S1,
        EndAddingState.visitAll st rest ptr S = some S1 ∧
        StatsInv S1.feature_stats_ (done ++ rest.enumFrom ptr) ∧
        DeltasReady S1.value_stats_ S1.deltas_) ∧
      (¬ (∀ e ∈ rest, countOK st e.2) → EndAddingState.visitAll st rest ptr S = none) := by
  induction rest with
  | nil =>
    intro ptr S done hinv hd
    refine ⟨fun _ => ⟨S, rfl, by simpa using hinv, hd⟩, fun h => absurd (by simp) h⟩
  | cons e rest ih =>
    intro ptr S done hinv hd
    obtain ⟨hv1, hv2⟩ := visit_spec st S done ptr e hinv hd
    refine ⟨?_, ?_⟩
    · intro hall
      obtain ⟨S1, hS1, hi1, hd1⟩ := hv1 (hall e (List.mem_cons_self _ _))
      obtain ⟨S2, hS2, hi2, hd2⟩ := (ih (ptr + 1) S1 (done ++ [(ptr, e)]) hi1 hd1).1
        (fun x hx => hall x (List.mem_cons_of_mem _ hx))
      refine ⟨S2, ?_, ?_, hd2⟩
      · simp only [EndAddingState.visitAll, hS1, Option.some_bind, hS2]
      · simpa [List.enumFrom_cons] using hi2
    · intro hn
      by_cases he : countOK st e.2
      · obtain ⟨S1, hS1, hi1, hd1⟩ := hv1 he
        have hn2 : ¬ ∀ x ∈ rest, countOK st x.2 := by
          intro h
          apply hn
          intro x hx
          rcases List.mem_cons.mp hx with rfl | hx
          · exact he
          · exact h x hx
        simp only [EndAddingState.visitAll, hS1, Option.some_bind,
          (ih (ptr + 1) S1 (done ++ [(ptr, e)]) hi1 hd1).2 hn2]
      · simp only [EndAddingState.visitAll, hv2 he, Option.none_bind]

theorem KneserNeyDelta_EndAdding_spec (d : KneserNeyDelta) (h5 : d.counts_.length = 5)
    (h4 : d.deltas_.length = 4) :
    ∃ d1, d.EndAdding = some d1 ∧ d1.counts_.length = 5 ∧ d1.deltas_.length = 4 := by
  obtain ⟨est, cs, ds⟩ := d
  simp only [] at h5 h4
  rcases cs with _ | ⟨a0, _ | ⟨a1, _ | ⟨a2, _ | ⟨a3, _ | ⟨a4, _ | ⟨a5, t⟩⟩⟩⟩⟩⟩ <;>
    simp at h5
  rcases ds with _ | ⟨b0, _ | ⟨b1, _ | ⟨b2, _ | ⟨b3, _ | ⟨b4, t⟩⟩⟩⟩⟩ <;> simp at h4
  refine ⟨_, rfl, rfl, ?_⟩
  simp only [List.length_map]
  split <;> rfl

theorem addCounts_spec (l : List (Int × Int)) (hpos : ∀ p ∈ l, 0 < p.2) :
    ∀ d : KneserNeyDelta, d.counts_.length = 5 →
      ∃ d1, KneserNeyDelta.addCounts l d = some d1 ∧ d1.counts_.length = 5 ∧
        d1.deltas_ = d.deltas_ := by
  induction l with
  | nil => intro d h; exact ⟨d, rfl, h, rfl⟩
  | cons p rest ih =>
    intro d h
    obtain ⟨d1, h1, h2, h3⟩ := (AddCount_spec d p.2 h).1 (hpos p (List.mem_cons_self _ _))
    obtain ⟨d2, h4, h5, h6⟩ := ih (fun q hq => hpos q (List.mem_cons_of_mem _ hq)) d1 h2
    exact ⟨d2, by simp only [KneserNeyDelta.addCounts, h1, Option.some_bind, h4], h5,
      by rw [h6, h3]⟩

/-- The loop of `EndAdding` that estimates the deltas does not fail. -/
theorem estimateDeltas_total (m : Int) (vsl : List (Int × ValueStats)) :
    ∀ deltas : List (Int × KneserNeyDelta),
      (∀ e ∈ vsl, (hashMapFind (· == ·) deltas e.1).isSome = true) →
      (∀ e ∈ deltas, e.2.counts_.length = 5 ∧ e.2.deltas_.length = 4) →
      (∀ e ∈ vsl, ∀ p ∈ e.2.per_value_continuations_, 0 < p.2) →
      ∃ r, estimateDeltas m vsl deltas = some r := by
  have hie := intEquals_equivalence
  induction vsl with
  | nil => intro deltas _ _ _; exact ⟨deltas, rfl⟩
  | cons it rest ih =>
    intro deltas h1 h2 h3
    have hf := h1 it (List.mem_cons_self _ _)
    cases hfd : hashMapFind (· == ·) deltas it.1 with
    | none => rw [hfd] at hf; exact absurd hf (by simp)
    | some delta =>
      obtain ⟨k, hk⟩ := hashMapFind_mem _ _ _ _ hfd
      obtain ⟨hl5, hl4⟩ := h2 (k, delta) hk
      have hstep : ∃ d, (if it.1 = m then delta.EndAdding
          else (KneserNeyDelta.addCounts it.2.per_value_continuations_ delta.clear).bind
            fun d => d.EndAdding) = some d ∧ d.counts_.length = 5 ∧ d.deltas_.length = 4 := by
        by_cases hm : it.1 = m
        · simp only [hm, if_true]
          exact KneserNeyDelta_EndAdding_spec delta hl5 hl4
        · simp only [hm, if_false]
          obtain ⟨d1, hd1, hd15, hd14⟩ := addCounts_spec it.2.per_value_continuations_
            (h3 it (List.mem_cons_self _ _)) delta.clear rfl
          rw [hd1, Option.some_bind]
          exact KneserNeyDelta_EndAdding_spec d1 hd15 (by rw [hd14]; rfl)
      obtain ⟨d, hd, hd5, hd4⟩ := hstep
      have := ih (hashMapModify (· == ·) KneserNeyDelta.create (fun _ => d) deltas it.1)
        (by
          intro e he
          rw [hashMapFind_modify _ hie]
          by_cases hx : (it.1 == e.1) = true
          · simp [hx]
          · simp only [hx, Bool.false_eq_true, if_false]
            exact h1 e (List.mem_cons_of_mem _ he))
        (by
          intro e he
          rcases mem_hashMapModify _ _ _ _ _ _ he with h | h | ⟨w, _, h⟩
          · exact h2 e h
          · rw [h.2]; exact ⟨hd5, hd4⟩
          · rw [h]; exact ⟨hd5, hd4⟩)
        (fun e he => h3 e (List.mem_cons_of_mem _ he))
      obtain ⟨r, hr⟩ := this
      exact ⟨r, by simp only [estimateDeltas, hfd, hd, Option.some_bind, hr]⟩

/-- The call `EndAdding` fails when some count of the table is not admitted; otherwise it keeps
the table and every feature gets the statistics of its entries, with the probabilities computed
and the list sorted. -/
theorem EndAdding_spec (st : Int) (c : PerFeatureValueCounter) :
    ((∀ e ∈ c.feature_value_counts_, countOK st e.2) → ∃ e1,
      c.EndAdding st = some e1 ∧ e1.feature_value_counts_ = c.feature_value_counts_ ∧
      ∀ f, e1.GetFeatureStatsOrNull f
        = (statsFor (entriesFor f (c.feature_value_counts_.enumFrom 0))).map
            fun s => s.CalculateProb.SortValues) ∧
    (¬ (∀ e ∈ c.feature_value_counts_, countOK st e.2) → c.EndAdding st = none) := by
  have h0 : StatsInv ([] : List (SequenceHashFeature × FeatureStats)) [] := by
    intro f; rfl
  have hd0 : DeltasReady [] [] := ⟨by simp, by simp, by simp⟩
  obtain ⟨hv1, hv2⟩ := visitAll_spec st c.feature_value_counts_ 0
    { feature_stats_ := [], value_stats_ := [], deltas_ := [], max_feature_size := -1 } []
    h0 hd0
  refine ⟨?_, ?_⟩
  · intro hall
    obtain ⟨S1, hS1, hi1, hd1⟩ := hv1 hall
    have hdel : ∃ deltas, (if st = KneserNey then
        estimateDeltas S1.max_feature_size S1.value_stats_ S1.deltas_
        else some S1.deltas_) = some deltas := by
      by_cases hst : st = KneserNey
      · simp only [hst, if_true]
        exact estimateDeltas_total _ _ _ hd1.1 hd1.2.1 hd1.2.2
      · simp only [hst, if_false]
        exact ⟨_, rfl⟩
    obtain ⟨deltas, hdeltas⟩ := hdel
    refine ⟨{ c with
        feature_stats_ := S1.feature_stats_.map fun e => (e.1, e.2.CalculateProb.SortValues),
        value_stats_ := S1.value_stats_,
        deltas_ := deltas }, ?_, rfl, ?_⟩
    · simp only [PerFeatureValueCounter.EndAdding, hS1, Option.some_bind, hdeltas,
        Option.map_some']
    · intro f
      simp only [PerFeatureValueCounter.GetFeatureStatsOrNull]
      have hm := hashMapFind_map SequenceHashFeature.equals
        (fun s : FeatureStats => s.CalculateProb.SortValues) S1.feature_stats_ f
      rw [hi1 f] at hm
      exact hm
  · intro hn
    simp only [PerFeatureValueCounter.EndAdding, hv2 hn, Option.none_bind]
/-! ## The statistics do not depend on the order of the table -/

theorem truncToInt_intCast (c : Int) : truncToInt (c : ℚ) = c := by
  unfold truncToInt
  split
  · exact Int.floor_intCast c
  · exact Int.ceil_intCast c

theorem enumFrom_filter_map_snd {α : Type} (p : α → Bool) (l : List α) :
    ∀ k, ((l.enumFrom k).filter fun e => p e.2).map Prod.snd = l.filter p := by
  induction l with
  | nil => intro k; rfl
  | cons a rest ih =>
    intro k
    by_cases h : p a = true
    · simp [List.enumFrom_cons, List.filter_cons, h, ih]
    · simp [List.enumFrom_cons, List.filter_cons, h, ih]

theorem mem_tableEntries (f : SequenceHashFeature)
    (table : List ((SequenceHashFeature × Int) × Int)) (hd : DistinctKeys keyEquals table)
    (x : Int × Int) :
    x ∈ tableEntries f table ↔ hashMapFind keyEquals table (f, x.1) = some x.2 := by
  rw [hashMapFind_eq_some_iff keyEquals keyEquals_equivalence table hd]
  unfold tableEntries
  simp only [List.mem_map, List.mem_filter]
  constructor
  · rintro ⟨e, ⟨he1, he2⟩, he3⟩
    refine ⟨e, he1, ?_, ?_⟩
    · rw [← he3]
      simp [keyEquals, he2]
    · rw [← he3]
  · rintro ⟨e, he1, he2, he3⟩
    simp only [keyEquals, Bool.and_eq_true, beq_iff_eq] at he2
    exact ⟨e, ⟨he1, he2.1⟩, Prod.ext he2.2 he3⟩

theorem tableEntries_nodup (f : SequenceHashFeature)
    (table : List ((SequenceHashFeature × Int) × Int)) (hd : DistinctKeys keyEquals table) :
    (tableEntries f table).Nodup := by
  have he := featureEquals_equivalence
  unfold tableEntries
  unfold DistinctKeys at hd
  rw [List.pairwise_map] at hd
  unfold List.Nodup
  rw [List.pairwise_map]
  have hf := List.Pairwise.filter (fun e : (SequenceHashFeature × Int) × Int => e.1.1.equals f) hd
  refine List.Pairwise.imp_of_mem ?_ hf
  intro a b ha hb hab
  have ha2 := (List.mem_filter.mp ha).2
  have hb2 := (List.mem_filter.mp hb).2
  intro heq
  simp only [Prod.mk.injEq] at heq
  have : keyEquals a.1 b.1 = true := by
    simp only [keyEquals, Bool.and_eq_true, beq_iff_eq]
    refine ⟨?_, heq.1⟩
    rw [he.2.1 b.1.1 f] at hb2
    rw [he.2.2 a.1.1 f b.1.1 ha2] at hb2
    exact hb2
  rw [this] at hab
  exact Bool.noConfusion hab

/-- Tables with different keys in which `find` gives the same hold, for every feature, the same
labels with the same counts. -/
theorem tableEntries_perm (f : SequenceHashFeature)
    (t1 t2 : List ((SequenceHashFeature × Int) × Int)) (hd1 : DistinctKeys keyEquals t1)
    (hd2 : DistinctKeys keyEquals t2)
    (hfind : hashMapFind keyEquals t1 = hashMapFind keyEquals t2) :
    (tableEntries f t1).Perm (tableEntries f t2) := by
  rw [List.perm_ext_iff_of_nodup (tableEntries_nodup f t1 hd1) (tableEntries_nodup f t2 hd2)]
  intro x
  rw [mem_tableEntries f t1 hd1, mem_tableEntries f t2 hd2, hfind]

/-- The entries of a feature with their places, seen as labels and counts. -/
theorem entriesFor_enum (f : SequenceHashFeature)
    (table : List ((SequenceHashFeature × Int) × Int)) :
    (entriesFor f (table.enumFrom 0)).map Prod.snd = (tableEntries f table).map Prod.snd := by
  unfold entriesFor tableEntries
  rw [← enumFrom_filter_map_snd (fun e : (SequenceHashFeature × Int) × Int => e.1.1.equals f)
    table 0]
  simp [List.map_map, Function.comp]

theorem statsOf_total (entries : List (Nat × Int)) :
    (statsOf entries).total_count_ = (entries.map Prod.snd).foldl addInt32 0 := by
  simp [statsOf, List.foldl_map]

theorem statsOf_unique (entries : List (Nat × Int)) :
    (statsOf entries).unique_count_ = ((entries.map Prod.snd).length : Nat) := by
  simp [statsOf]

theorem statsOf_counts (entries : List (Nat × Int)) :
    (statsOf entries).counts_ =
      [(((entries.map Prod.snd).countP fun c => decide (min c 3 = 0) : Nat) : Int),
       (((entries.map Prod.snd).countP fun c => decide (min c 3 = 1) : Nat) : Int),
       (((entries.map Prod.snd).countP fun c => decide (min c 3 = 2) : Nat) : Int),
       (((entries.map Prod.snd).countP fun c => decide (min c 3 = 3) : Nat) : Int)] := by
  unfold statsOf
  simp only [List.countP_map]
  rfl

theorem foldl_addInt32_perm (l1 l2 : List Int) (hp : l1.Perm l2) (a : Int) :
    l1.foldl addInt32 a = l2.foldl addInt32 a :=
  List.Perm.foldl_eq' hp (fun x _ y _ z => addInt32_right_comm z x y) a

/-- The labels that pointers point to, when every pointer is the place of an entry. -/
theorem labelsAt_eq_map (c : PerFeatureValueCounter) (g : ℚ × Nat → ℚ × Int)
    (l : List (ℚ × Nat)) (h : ∀ p ∈ l, c.labelAt p = some (g p)) :
    c.labelsAt l = some (l.map g) := by
  induction l with
  | nil => rfl
  | cons p ps ih =>
    simp only [PerFeatureValueCounter.labelsAt, h p (List.mem_cons_self _ _), Option.some_bind,
      ih (fun q hq => h q (List.mem_cons_of_mem _ hq)), Option.map_some', List.map_cons]

/-- The list `LabelsSortedByProbability` of a feature after `EndAdding`, with the labels read
through the pointers: the labels of the feature, each with its count divided by the total count,
in an order of falling probability. -/
theorem sorted_labels_spec (e1 : PerFeatureValueCounter) (f : SequenceHashFeature) :
    ∃ l, e1.labelsAt
        ((statsOf (entriesFor f (e1.feature_value_counts_.enumFrom 0))).CalculateProb.SortValues
          ).sorted_by_prob_ = some l ∧
      l.Perm ((tableEntries f e1.feature_value_counts_).map fun x =>
        ((x.2 : ℚ) / ((statsOf (entriesFor f (e1.feature_value_counts_.enumFrom 0))
          ).total_count_ : ℚ), x.1)) ∧
      l.Sorted (fun a b => b.1 ≤ a.1) := by
  set T := e1.feature_value_counts_ with hT
  set E := (T.enumFrom 0).filter (fun x => x.2.1.1.equals f) with hE
  set total := (statsOf (entriesFor f (T.enumFrom 0))).total_count_ with htotal
  let g : ℚ × Nat → ℚ × Int := fun p => (p.1, ((T[p.2]?).map fun x => x.1.2).getD 0)
  have hsorted : ((statsOf (entriesFor f (T.enumFrom 0))).CalculateProb.SortValues
      ).sorted_by_prob_
      = (E.map fun x => ((x.2.2 : ℚ) / (total : ℚ), x.1)).insertionSort probGreaterEq := by
    simp only [FeatureStats.SortValues, FeatureStats.CalculateProb, FeatureStats.GetMLProb]
    congr 1
    have h1 : (statsOf (entriesFor f (T.enumFrom 0))).sorted_by_prob_
        = E.map fun x => ((x.2.2 : ℚ), x.1) := by
      simp only [statsOf, entriesFor, List.map_map, hE]
      rfl
    rw [h1, List.map_map]
    apply List.map_congr_left
    intro x _
    simp only [Function.comp, truncToInt_intCast]
  rw [hsorted]
  have hperm := List.perm_insertionSort probGreaterEq
    (E.map fun x => ((x.2.2 : ℚ) / (total : ℚ), x.1))
  have hmemE : ∀ x ∈ E, T[x.1]? = some x.2 := by
    intro x hx
    have hx1 := (List.mem_filter.mp hx).1
    have := List.mk_mem_enum_iff_getElem?.mp (show (x.1, x.2) ∈ T.enum from hx1)
    exact this
  refine ⟨_, labelsAt_eq_map e1 g _ ?_, ?_, ?_⟩
  · intro p hp
    have hp2 := hperm.mem_iff.mp hp
    obtain ⟨x, hx, hxp⟩ := List.mem_map.mp hp2
    have := hmemE x hx
    subst hxp
    simp only [PerFeatureValueCounter.labelAt, ← hT, this, Option.map_some', g, Option.getD_some]
  · refine (hperm.map g).trans ?_
    have : tableEntries f T = (E.map Prod.snd).map fun x => (x.1.2, x.2) := by
      rw [hE, enumFrom_filter_map_snd (fun x : (SequenceHashFeature × Int) × Int =>
        x.1.1.equals f) T 0]
      rfl
    rw [this, List.map_map, List.map_map, List.map_map]
    apply List.Perm.of_eq
    apply List.map_congr_left
    intro x hx
    simp only [Function.comp, g, hmemE x hx, Option.map_some', Option.getD_some]
  · have hs := List.sorted_insertionSort probGreaterEq
      (E.map fun x => ((x.2.2 : ℚ) / (total : ℚ), x.1))
    unfold List.Sorted at hs ⊢
    rw [List.pairwise_map]
    refine List.Pairwise.imp ?_ hs
    intro a b hab
    unfold probGreaterEq at hab
    rcases hab with h | ⟨h, _⟩
    · exact le_of_lt h
    · exact le_of_eq h

/-- Two counters whose tables hold each key once and in which `find` gives the same have,
after `EndAdding`, the same statistics for every feature, and `EndAdding` fails for both or for
none. -/
theorem EndAdding_same_stats (st : Int) (c1 c2 : PerFeatureValueCounter)
    (hd1 : c1.WellFormed) (hd2 : c2.WellFormed)
    (hfind : hashMapFind keyEquals c1.feature_value_counts_
      = hashMapFind keyEquals c2.feature_value_counts_) :
    (c1.EndAdding st).isSome = (c2.EndAdding st).isSome ∧
    ∀ e1 e2, c1.EndAdding st = some e1 → c2.EndAdding st = some e2 →
      ∀ f, SameFeatureStats e1 e2 f := by
  have he := keyEquals_equivalence
  have hall : (∀ e ∈ c1.feature_value_counts_, countOK st e.2) ↔
      (∀ e ∈ c2.feature_value_counts_, countOK st e.2) := by
    have key : ∀ (t1 t2 : List ((SequenceHashFeature × Int) × Int)),
        DistinctKeys keyEquals t1 → hashMapFind keyEquals t1 = hashMapFind keyEquals t2 →
        (∀ e ∈ t2, countOK st e.2) → ∀ e ∈ t1, countOK st e.2 := by
      intro t1 t2 h1 hf h e hmem
      have hf1 : hashMapFind keyEquals t1 e.1 = some e.2 :=
        (hashMapFind_eq_some_iff keyEquals he t1 h1 e.1 e.2).mpr ⟨e, hmem, he.1 _, rfl⟩
      rw [hf] at hf1
      obtain ⟨k, hk⟩ := hashMapFind_mem _ _ _ _ hf1
      exact h (k, e.2) hk
    exact ⟨key _ _ hd2 hfind.symm, key _ _ hd1 hfind⟩
  obtain ⟨ha1, hb1⟩ := EndAdding_spec st c1
  obtain ⟨ha2, hb2⟩ := EndAdding_spec st c2
  by_cases hok : ∀ e ∈ c1.feature_value_counts_, countOK st e.2
  · obtain ⟨r1, hr1, ht1, hs1⟩ := ha1 hok
    obtain ⟨r2, hr2, ht2, hs2⟩ := ha2 (hall.mp hok)
    refine ⟨by rw [hr1, hr2]; rfl, ?_⟩
    intro e1 e2 h1 h2 f
    rw [hr1] at h1
    rw [hr2] at h2
    have h1e : r1 = e1 := Option.some.inj h1
    have h2e : r2 = e2 := Option.some.inj h2
    subst h1e
    subst h2e
    have hperm := tableEntries_perm f _ _ hd1 hd2 hfind
    have hcs : ((entriesFor f (c1.feature_value_counts_.enumFrom 0)).map Prod.snd).Perm
        ((entriesFor f (c2.feature_value_counts_.enumFrom 0)).map Prod.snd) := by
      rw [entriesFor_enum, entriesFor_enum]
      exact hperm.map Prod.snd
    have htot : (statsOf (entriesFor f (c1.feature_value_counts_.enumFrom 0))).total_count_
        = (statsOf (entriesFor f (c2.feature_value_counts_.enumFrom 0))).total_count_ := by
      rw [statsOf_total, statsOf_total]
      exact foldl_addInt32_perm _ _ hcs 0
    have hnil : entriesFor f (c1.feature_value_counts_.enumFrom 0) = [] ↔
        entriesFor f (c2.feature_value_counts_.enumFrom 0) = [] := by
      have := hcs.length_eq
      simp only [List.length_map] at this
      rw [← List.length_eq_zero, ← List.length_eq_zero, this]
    unfold SameFeatureStats
    have hL1 : r1.LabelsSortedByProbability f
        = match r1.GetFeatureStatsOrNull f with
          | none => []
          | some fs => fs.sorted_by_prob_ := rfl
    have hL2 : r2.LabelsSortedByProbability f
        = match r2.GetFeatureStatsOrNull f with
          | none => []
          | some fs => fs.sorted_by_prob_ := rfl
    rw [hL1, hL2, hs1 f, hs2 f]
    by_cases hn : entriesFor f (c1.feature_value_counts_.enumFrom 0) = []
    · simp [statsFor, hn, hnil.mp hn]
    · have hn2 : ¬ entriesFor f (c2.feature_value_counts_.enumFrom 0) = [] :=
        fun h => hn (hnil.mpr h)
      simp only [statsFor, hn, hn2, if_false, Option.map_some']
      refine ⟨htot, ?_, ?_, ?_⟩
      · show (statsOf _).unique_count_ = (statsOf _).unique_count_
        rw [statsOf_unique, statsOf_unique, hcs.length_eq]
      · show (statsOf _).counts_ = (statsOf _).counts_
        rw [statsOf_counts, statsOf_counts, hcs.countP_eq, hcs.countP_eq, hcs.countP_eq,
          hcs.countP_eq]
      · obtain ⟨l1, hl1, hp1, hso1⟩ := sorted_labels_spec r1 f
        obtain ⟨l2, hl2, hp2, hso2⟩ := sorted_labels_spec r2 f
        rw [ht1] at hl1 hp1
        rw [ht2] at hl2 hp2
        refine ⟨l1, l2, hl1, hl2, ?_, hso1, hso2⟩
        refine hp1.trans (List.Perm.trans ?_ hp2.symm)
        rw [htot]
        exact hperm.map _
  · have hok2 : ¬ ∀ e ∈ c2.feature_value_counts_, countOK st e.2 := fun h => hok (hall.mpr h)
    refine ⟨by rw [hb1 hok, hb2 hok2], ?_⟩
    intro e1 e2 h1
    rw [hb1 hok] at h1
    exact Option.noConfusion h1

/-! ## The claims on the per-feature counter -/

theorem GetCount_AddValue (layout : List ((SequenceHashFeature × Int) × Int) →
      List ((SequenceHashFeature × Int) × Int)) (hlayout : ∀ l, (layout l).Perm l)
    (c : PerFeatureValueCounter) (hwf : c.WellFormed) (f : SequenceHashFeature) (l k : Int)
    (f1 : SequenceHashFeature) (l1 : Int) :
    (c.AddValue layout f l k).GetCount f1 l1
      = if keyEquals (f, l) (f1, l1) then addInt32 (c.GetCount f1 l1) k
        else c.GetCount f1 l1 := by
  have h := (countsAdd_spec layout hlayout c.feature_value_counts_ hwf (f, l, k)).2 (f1, l1)
  unfold PerFeatureValueCounter.GetCount PerFeatureValueCounter.AddValue
  simp only [] at h ⊢
  rw [h]
  unfold findAfterAdd
  by_cases hk : keyEquals (f, l) (f1, l1) = true
  · simp [hk]
  · simp [hk]

/-- C19: `AddValue(f, l, k)` adds `k` to `GetCount(f, l)`, as the machine adds two `int` values
(exactly `k` when the sum fits an `int`), and changes the count of no other key; and two lists
of calls of `AddValue` that are permutations of each other leave the same counts and, for every
smoothing type, `EndAdding` then fails for both or gives for every feature the same statistics:
the same total count, number of labels and bucket counts, and the same labels with the same
probabilities in an order of falling probability. The order in which the hash table lists its
entries is any `layout`; the table of the counter holds each key once. -/
theorem AddValue_adds_count_and_order_is_irrelevant
    (layout : List ((SequenceHashFeature × Int) × Int) →
      List ((SequenceHashFeature × Int) × Int)) (hlayout : ∀ l, (layout l).Perm l)
    (c : PerFeatureValueCounter) (hwf : c.WellFormed) :
    (∀ (f : SequenceHashFeature) (l k : Int),
      (c.AddValue layout f l k).GetCount f l = addInt32 (c.GetCount f l) k ∧
      (inInt32 (c.GetCount f l + k) = true →
        (c.AddValue layout f l k).GetCount f l = c.GetCount f l + k) ∧
      ∀ (f1 : SequenceHashFeature) (l1 : Int), keyEquals (f, l) (f1, l1) = false →
        (c.AddValue layout f l k).GetCount f1 l1 = c.GetCount f1 l1) ∧
    ∀ xs ys : List (SequenceHashFeature × Int × Int), xs.Perm ys →
      (∀ (f : SequenceHashFeature) (l : Int),
        (c.addValues layout xs).GetCount f l = (c.addValues layout ys).GetCount f l) ∧
      ∀ st : Int,
        ((c.addValues layout xs).EndAdding st).isSome
          = ((c.addValues layout ys).EndAdding st).isSome ∧
        ∀ e1 e2, (c.addValues layout xs).EndAdding st = some e1 →
          (c.addValues layout ys).EndAdding st = some e2 →
          ∀ f, SameFeatureStats e1 e2 f := by
  refine ⟨?_, ?_⟩
  · intro f l k
    have hself : keyEquals (f, l) (f, l) = true := keyEquals_equivalence.1 _
    refine ⟨?_, ?_, ?_⟩
    · rw [GetCount_AddValue layout hlayout c hwf, hself]
      rfl
    · intro hfit
      rw [GetCount_AddValue layout hlayout c hwf, hself]
      exact addInt32_exact _ _ hfit
    · intro f1 l1 hne
      rw [GetCount_AddValue layout hlayout c hwf, hne]
      rfl
  · intro xs ys hp
    have hfind := addValues_find_perm layout hlayout c hwf xs ys hp
    refine ⟨?_, ?_⟩
    · intro f l
      unfold PerFeatureValueCounter.GetCount
      rw [hfind]
    · intro st
      exact EndAdding_same_stats st _ _ (addValues_spec layout hlayout xs c hwf).1
        (addValues_spec layout hlayout ys c hwf).1 hfind

/-- The theorem `AddValue_adds_count_and_order_is_irrelevant` for a new counter and the hash
table that keeps the order in which the entries were added. -/
theorem AddValue_adds_count_and_order_is_irrelevant_witness :
    (∀ l, (test_layout l).Perm l) ∧ PerFeatureValueCounter.create.WellFormed ∧
    ((∀ (f : SequenceHashFeature) (l k : Int),
      (PerFeatureValueCounter.create.AddValue test_layout f l k).GetCount f l
        = addInt32 (PerFeatureValueCounter.create.GetCount f l) k ∧
      (inInt32 (PerFeatureValueCounter.create.GetCount f l + k) = true →
        (PerFeatureValueCounter.create.AddValue test_layout f l k).GetCount f l
          = PerFeatureValueCounter.create.GetCount f l + k) ∧
      ∀ (f1 : SequenceHashFeature) (l1 : Int), keyEquals (f, l) (f1, l1) = false →
        (PerFeatureValueCounter.create.AddValue test_layout f l k).GetCount f1 l1
          = PerFeatureValueCounter.create.GetCount f1 l1) ∧
    ∀ xs ys : List (SequenceHashFeature × Int × Int), xs.Perm ys →
      (∀ (f : SequenceHashFeature) (l : Int),
        (PerFeatureValueCounter.create.addValues test_layout xs).GetCount f l
          = (PerFeatureValueCounter.create.addValues test_layout ys).GetCount f l) ∧
      ∀ st : Int,
        ((PerFeatureValueCounter.create.addValues test_layout xs).EndAdding st).isSome
          = ((PerFeatureValueCounter.create.addValues test_layout ys).EndAdding st).isSome ∧
        ∀ e1 e2, (PerFeatureValueCounter.create.addValues test_layout xs).EndAdding st = some e1 →
          (PerFeatureValueCounter.create.addValues test_layout ys).EndAdding st = some e2 →
          ∀ f, SameFeatureStats e1 e2 f) :=
  ⟨fun l => List.Perm.refl l, List.Pairwise.nil,
    AddValue_adds_count_and_order_is_irrelevant test_layout (fun l => List.Perm.refl l)
      PerFeatureValueCounter.create List.Pairwise.nil⟩

/-- C20, counterexample: on a new per-feature counter, after `AddValue(f, 10, 1)` and
`EndAdding` (smoothing type 0), the call `AddValue(f, 10, 1)` is not rejected: `GetCount(f, 10)`
goes from 1 to 2, while the total count of the statistics of `f` stays 1. -/
theorem AddValue_after_EndAdding_changes_count :
    ((PerFeatureValueCounter.create.AddValue test_layout test_feature 10 1).EndAdding 0).map
        (fun e =>
          (e.GetCount test_feature 10,
           (e.AddValue test_layout test_feature 10 1).GetCount test_feature 10,
           ((e.AddValue test_layout test_feature 10 1).GetFeatureStatsOrNull test_feature).map
             FeatureStats.TotalCount))
      = some (1, 2, some 1) := by
  decide

/-- C20, amended: `PerFeatureValueCounter::AddValue` makes no check. After `EndAdding` a call
`AddValue(f, l, k)` adds `k` to `GetCount(f, l)` as before (as the machine adds two `int`
values), changes no other count, and leaves the three maps of statistics that `EndAdding` has
made as they were. The counter `ValueCounter` is the one that rejects `AddValue` after
`EndAdding`, when `EndAdding` has seen a value. -/
theorem AddValue_after_EndAdding_is_accepted
    (layout : List ((SequenceHashFeature × Int) × Int) →
      List ((SequenceHashFeature × Int) × Int)) (hlayout : ∀ l, (layout l).Perm l)
    (st : Int) (c e : PerFeatureValueCounter) (hwf : c.WellFormed)
    (hend : c.EndAdding st = some e) (f : SequenceHashFeature) (l k : Int) :
    (e.AddValue layout f l k).GetCount f l = addInt32 (e.GetCount f l) k ∧
    (∀ (f1 : SequenceHashFeature) (l1 : Int), keyEquals (f, l) (f1, l1) = false →
      (e.AddValue layout f l k).GetCount f1 l1 = e.GetCount f1 l1) ∧
    (e.AddValue layout f l k).feature_stats_ = e.feature_stats_ ∧
    (e.AddValue layout f l k).value_stats_ = e.value_stats_ ∧
    (e.AddValue layout f l k).deltas_ = e.deltas_ ∧
    ∀ (vlayout : List (Int × ℚ × Int) → List (Int × ℚ × Int)) (log2 : ℚ → ℚ)
      (vc ve : ValueCounter) (value count : Int), vc.values_ ≠ [] →
      vc.EndAdding log2 = some ve → ve.AddValue vlayout value count = none := by
  have hwfe : e.WellFormed := by
    by_cases hok : ∀ x ∈ c.feature_value_counts_, countOK st x.2
    · obtain ⟨e1, h1, h2, _⟩ := (EndAdding_spec st c).1 hok
      rw [hend] at h1
      have : e = e1 := Option.some.inj h1
      subst this
      unfold PerFeatureValueCounter.WellFormed
      rw [h2]
      exact hwf
    · rw [(EndAdding_spec st c).2 hok] at hend
      exact Option.noConfusion hend
  refine ⟨?_, ?_, rfl, rfl, rfl, ?_⟩
  · rw [GetCount_AddValue layout hlayout e hwfe, keyEquals_equivalence.1]
    rfl
  · intro f1 l1 hne
    rw [GetCount_AddValue layout hlayout e hwfe, hne]
    rfl
  · intro vlayout log2 vc ve value count hne hve
    unfold ValueCounter.EndAdding at hve
    by_cases hempty : vc.sorted_by_prob_.isEmpty = true
    · simp only [hempty, if_true, Option.some.injEq] at hve
      subst hve
      unfold ValueCounter.AddValue
      have hlen : ((List.map (fun e => (e.2.2.1, e.1))
          (List.map (fun e => (e.1, log2 (((e.2.2 : ℚ) + 1) /
            ((vc.total_count_ : ℚ) + 1 * ((vc.values_.length : ℚ) + 1))), e.2.2))
            vc.values_).enum).insertionSort probGreaterEq).length ≠ 0 := by
        rw [List.length_insertionSort]
        simp only [List.length_map, List.enum_length, List.length_map]
        intro h0
        exact hne (List.length_eq_zero.mp h0)
      have : ¬ ((List.map (fun e => (e.2.2.1, e.1))
          (List.map (fun e => (e.1, log2 (((e.2.2 : ℚ) + 1) /
            ((vc.total_count_ : ℚ) + 1 * ((vc.values_.length : ℚ) + 1))), e.2.2))
            vc.values_).enum).insertionSort probGreaterEq).isEmpty = true := by
        rw [List.isEmpty_iff]
        intro h0
        rw [h0] at hlen
        exact hlen rfl
      simp only [this, Bool.false_eq_true, if_false]
    · simp only [hempty, if_false] at hve
      exact Option.noConfusion hve

/-- The counter `test_counter` is made by `AddValue` on a new counter, and `EndAdding` makes
`test_counter_ended` of it. -/
theorem test_counter_built :
    PerFeatureValueCounter.create.AddValue test_layout test_feature 10 1 = test_counter ∧
    test_counter.EndAdding 0 = some test_counter_ended := by
  refine ⟨by decide, ?_⟩
  simp [PerFeatureValueCounter.EndAdding, EndAddingState.visitAll, EndAddingState.visit,
    test_counter, test_counter_ended, hashMapFind, hashMapModify, FeatureStats.AddValue,
    FeatureStats.create, FeatureStats.CalculateProb, FeatureStats.SortValues,
    FeatureStats.GetMLProb, truncToInt, KneserNey, test_feature, SequenceHashFeature.size,
    addInt32]

/-- The theorem `AddValue_after_EndAdding_is_accepted` for the counter with the one count
`(f, 10) -> 1`, after `EndAdding` with smoothing type 0, and the call `AddValue(f, 11, 1)`. -/
theorem AddValue_after_EndAdding_is_accepted_witness :
    (∀ l, (test_layout l).Perm l) ∧ test_counter.WellFormed ∧
    test_counter.EndAdding 0 = some test_counter_ended ∧
    ((test_counter_ended.AddValue test_layout test_feature 11 1).GetCount test_feature 11
        = addInt32 (test_counter_ended.GetCount test_feature 11) 1 ∧
      (∀ (f1 : SequenceHashFeature) (l1 : Int),
        keyEquals (test_feature, 11) (f1, l1) = false →
        (test_counter_ended.AddValue test_layout test_feature 11 1).GetCount f1 l1
          = test_counter_ended.GetCount f1 l1) ∧
      (test_counter_ended.AddValue test_layout test_feature 11 1).feature_stats_
        = test_counter_ended.feature_stats_ ∧
      (test_counter_ended.AddValue test_layout test_feature 11 1).value_stats_
        = test_counter_ended.value_stats_ ∧
      (test_counter_ended.AddValue test_layout test_feature 11 1).deltas_
        = test_counter_ended.deltas_ ∧
      ∀ (vlayout : List (Int × ℚ × Int) → List (Int × ℚ × Int)) (log2 : ℚ → ℚ)
        (vc ve : ValueCounter) (value count : Int), vc.values_ ≠ [] →
        vc.EndAdding log2 = some ve → ve.AddValue vlayout value count = none) :=
  ⟨fun l => List.Perm.refl l, by decide, test_counter_built.2,
    AddValue_after_EndAdding_is_accepted test_layout (fun l => List.Perm.refl l) 0
      test_counter test_counter_ended (by decide) test_counter_built.2 test_feature 11 1⟩

/-! ## Elements of a store -/

theorem nodeAt_natCast (s : TreeStorage) (i : Nat) : s.nodeAt (i : Int) = s.nodes_[i]? := by
  simp [TreeStorage.nodeAt]

theorem nodeAt_some_bounds (s : TreeStorage) (i : Int) (n : TreeNode)
    (h : s.nodeAt i = some n) : 0 ≤ i ∧ i.toNat < s.nodes_.length := by
  unfold TreeStorage.nodeAt at h
  split at h
  · rename_i h0
    exact ⟨h0, (List.getElem?_eq_some.mp h).1⟩
  · exact Option.noConfusion h

theorem nodeAt_neg (s : TreeStorage) (i : Int) (h : i < 0) : s.nodeAt i = none := by
  unfold TreeStorage.nodeAt
  rw [if_neg (by omega)]

theorem nodeAt_length (s : TreeStorage) : s.nodeAt (s.nodes_.length : Nat) = none := by
  rw [nodeAt_natCast]
  simp

/-- The elements of the store after `nodes_[k] = x`. -/
theorem nodeAt_set (s : TreeStorage) (k : Nat) (x : TreeNode) (hk : k < s.nodes_.length)
    (j : Int) :
    TreeStorage.nodeAt { s with nodes_ := s.nodes_.set k x } j
      = if j = (k : Int) then some x else s.nodeAt j := by
  unfold TreeStorage.nodeAt
  by_cases h0 : 0 ≤ j
  · simp only [h0, if_true]
    by_cases hj : j = (k : Int)
    · subst hj
      simp [hk]
    · have : k ≠ j.toNat := by omega
      simp [hj, List.getElem?_set_ne this]
  · have : j ≠ (k : Int) := by omega
    simp [h0, this]

/-- The store after `modifyNode`. -/
theorem modifyNode_spec (s : TreeStorage) (i : Int) (f : TreeNode → TreeNode) (n : TreeNode)
    (h : s.nodeAt i = some n) :
    ∃ s1, s.modifyNode i f = some s1 ∧
      (∀ j, s1.nodeAt j = if j = i then some (f n) else s.nodeAt j) ∧
      s1.nodes_.length = s.nodes_.length ∧ s1.first_free_node_ = s.first_free_node_ ∧
      s1.parent_ = s.parent_ ∧ s1.position_in_parent_ = s.position_in_parent_ := by
  obtain ⟨h0, hlt⟩ := nodeAt_some_bounds s i n h
  refine ⟨{ s with nodes_ := s.nodes_.set i.toNat (f n) }, ?_, ?_, by simp, rfl, rfl, rfl⟩
  · simp [TreeStorage.modifyNode, h]
  · intro j
    rw [nodeAt_set s i.toNat (f n) hlt j]
    have : (i.toNat : Int) = i := Int.toNat_of_nonneg h0
    rw [this]

/-- The store after `nodes_.push_back(x)`. -/
theorem nodeAt_append (s : TreeStorage) (x : TreeNode) (j : Int) :
    TreeStorage.nodeAt { s with nodes_ := s.nodes_ ++ [x] } j
      = if j = (s.nodes_.length : Nat) then some x else s.nodeAt j := by
  unfold TreeStorage.nodeAt
  by_cases h0 : 0 ≤ j
  · simp only [h0, if_true]
    by_cases hj : j = (s.nodes_.length : Nat)
    · subst hj
      simp
    · simp only [hj, if_false]
      by_cases hlt : j.toNat < s.nodes_.length
      · rw [List.getElem?_append_left hlt]
      · have h1 : s.nodes_.length < j.toNat := by omega
        rw [List.getElem?_eq_none (by simp; omega), List.getElem?_eq_none (by omega)]
  · have : j ≠ (s.nodes_.length : Nat) := by omega
    simp [h0, this]

/-- Two stores with the same elements and members are the same store. -/
theorem store_ext (s s1 : TreeStorage) (h : ∀ j : Nat, s.nodeAt j = s1.nodeAt j)
    (hf : s.first_free_node_ = s1.first_free_node_) (hp : s.parent_ = s1.parent_)
    (hq : s.position_in_parent_ = s1.position_in_parent_) : s = s1 := by
  obtain ⟨n, p, q, f⟩ := s
  obtain ⟨n1, p1, q1, f1⟩ := s1
  simp only [] at hf hp hq
  subst hf hp hq
  have : n = n1 := by
    apply List.ext_getElem?
    intro i
    have := h i
    rw [nodeAt_natCast, nodeAt_natCast] at this
    exact this
  rw [this]

/-! ## Chains of nodes -/

/-- A chain stays when the elements at its nodes stay. -/
theorem Chain_frame (s s1 : TreeStorage) (t : FT) :
    ∀ (id p ls ci : Int) (L : List Nat) (last : Int),
      Chain s t id p ls ci L last → (∀ i ∈ L, s1.nodeAt (i : Int) = s.nodeAt (i : Int)) →
      Chain s1 t id p ls ci L last := by
  induction t with
  | eps => intro id p ls ci L last h _; exact h
  | node ty v c sb ihc ihs =>
    intro id p ls ci L last h hfr
    obtain ⟨h0, n, Lc, Ls, hn, h1, h2, h3, h4, h5, hc, hs, hL⟩ := h
    subst hL
    have hid : s1.nodeAt id = some n := by
      have := hfr id.toNat (List.mem_cons_self _ _)
      rw [Int.toNat_of_nonneg (le_of_lt h0)] at this
      rw [this, hn]
    refine ⟨h0, n, Lc, Ls, hid, h1, h2, h3, h4, h5, ?_, ?_, rfl⟩
    · exact ihc _ _ _ _ _ _ hc (fun i hi => hfr i (by simp [hi]))
    · exact ihs _ _ _ _ _ _ hs (fun i hi => hfr i (by simp [hi]))

/-- The nodes of a chain are elements of the store, they are not the root, and their parents are
not negative when the parent of the chain is not. -/
theorem Chain_mem (s : TreeStorage) (t : FT) :
    ∀ (id p ls ci : Int) (L : List Nat) (last : Int),
      Chain s t id p ls ci L last → 0 ≤ p →
      ∀ i ∈ L, 0 < i ∧ ∃ n, s.nodeAt (i : Int) = some n ∧ 0 ≤ n.parent := by
  induction t with
  | eps =>
    intro id p ls ci L last h _ i hi
    rw [h.2.1] at hi
    simp at hi
  | node ty v c sb ihc ihs =>
    intro id p ls ci L last h hp i hi
    obtain ⟨h0, n, Lc, Ls, hn, h1, h2, h3, h4, h5, hc, hs, hL⟩ := h
    subst hL
    simp only [List.mem_cons, List.mem_append] at hi
    rcases hi with hi | hi | hi
    · subst hi
      refine ⟨by omega, n, ?_, by omega⟩
      rw [Int.toNat_of_nonneg (le_of_lt h0)]
      exact hn
    · exact ihc _ _ _ _ _ _ hc (le_of_lt h0) i hi
    · exact ihs _ _ _ _ _ _ hs hp i hi

theorem Chain_length (s : TreeStorage) (t : FT) :
    ∀ (id p ls ci : Int) (L : List Nat) (last : Int),
      Chain s t id p ls ci L last → L.length = t.size := by
  induction t with
  | eps => intro id p ls ci L last h; rw [h.2.1]; rfl
  | node ty v c sb ihc ihs =>
    intro id p ls ci L last h
    obtain ⟨h0, n, Lc, Ls, hn, h1, h2, h3, h4, h5, hc, hs, hL⟩ := h
    subst hL
    simp only [List.length_cons, List.length_append, FT.size, ihc _ _ _ _ _ _ hc,
      ihs _ _ _ _ _ _ hs]
    omega

/-- The first node of a chain and its last node are determined by the list of its nodes. -/
theorem Chain_head (s : TreeStorage) (t : FT) (id p ls ci : Int) (L : List Nat) (last : Int)
    (h : Chain s t id p ls ci L last) : id = (L.head?.map fun i => (i : Int)).getD (-1) := by
  cases t with
  | eps => rw [h.1, h.2.1]; rfl
  | node ty v c sb =>
    obtain ⟨h0, n, Lc, Ls, hn, h1, h2, h3, h4, h5, hc, hs, hL⟩ := h
    subst hL
    show id = ((id.toNat : Nat) : Int)
    omega

/-- Two stores that hold the same tree at the same nodes have the same elements there. -/
theorem Chain_unique (s s1 : TreeStorage) (t : FT) :
    ∀ (id p ls ci : Int) (L : List Nat) (last last1 : Int),
      Chain s t id p ls ci L last → Chain s1 t id p ls ci L last1 →
      last = last1 ∧ ∀ i ∈ L, s1.nodeAt (i : Int) = s.nodeAt (i : Int) := by
  induction t with
  | eps =>
    intro id p ls ci L last last1 h h1
    refine ⟨by rw [h.2.2, h1.2.2], ?_⟩
    intro i hi
    rw [h.2.1] at hi
    simp at hi
  | node ty v c sb ihc ihs =>
    intro id p ls ci L last last1 h h'
    obtain ⟨h0, n, Lc, Ls, hn, h1, h2, h3, h4, h5, hc, hs, hL⟩ := h
    obtain ⟨_, n', Lc', Ls', hn', h1', h2', h3', h4', h5', hc', hs', hL'⟩ := h'
    subst hL
    have hlen : Lc.length = Lc'.length := by
      rw [Chain_length _ _ _ _ _ _ _ _ hc, Chain_length _ _ _ _ _ _ _ _ hc']
    have hLL : Lc ++ Ls = Lc' ++ Ls' := List.tail_eq_of_cons_eq hL'
    have hLc : Lc = Lc' := (List.append_inj hLL hlen).1
    have hLs : Ls = Ls' := (List.append_inj hLL hlen).2
    subst hLc hLs
    have hfc : n.first_child = n'.first_child := by
      rw [Chain_head _ _ _ _ _ _ _ _ hc, Chain_head _ _ _ _ _ _ _ _ hc']
    have hrs : n.right_sib = n'.right_sib := by
      rw [Chain_head _ _ _ _ _ _ _ _ hs, Chain_head _ _ _ _ _ _ _ _ hs']
    rw [← hfc] at hc'
    rw [← hrs] at hs'
    obtain ⟨hlc, hci⟩ := ihc _ _ _ _ _ _ _ hc hc'
    obtain ⟨hls, hsi⟩ := ihs _ _ _ _ _ _ _ hs hs'
    refine ⟨hls, ?_⟩
    intro i hi
    simp only [List.mem_cons, List.mem_append] at hi
    rcases hi with hi | hi | hi
    · subst hi
      rw [Int.toNat_of_nonneg (le_of_lt h0), hn, hn']
      congr 1
      obtain ⟨a1, a2, a3, a4, a5, a6, a7, a8⟩ := n
      obtain ⟨b1, b2, b3, b4, b5, b6, b7, b8⟩ := n'
      simp only [] at *
      subst h1 h2 h3 h4 h5
      simp only [TreeNode.mk.injEq]
      exact ⟨h1'.symm ▸ rfl, h2'.symm ▸ rfl, h3'.symm ▸ rfl, h4'.symm ▸ rfl, hrs.symm,
        hfc.symm, hlc.symm, h5'.symm ▸ rfl⟩
    · exact hci i hi
    · exact hsi i hi
/-! ## Allocation -/

theorem allocIds_nil (len m : Nat) : allocIds [] len m = List.range' len m := by
  simp [allocIds]

theorem allocIds_zero (F : List Nat) (len : Nat) : allocIds F len 0 = [] := by
  simp [allocIds]

theorem allocIds_add (F : List Nat) (len a b : Nat) :
    allocIds F len (a + b)
      = allocIds F len a ++ allocIds (F.drop a) (len + (a - F.length)) b := by
  unfold allocIds
  by_cases h : a ≤ F.length
  · have h1 : a - F.length = 0 := by omega
    have h2 : (F.drop a).length = F.length - a := by simp
    rw [h1, List.range'_zero, List.append_nil, Nat.add_zero, h2, List.take_add,
      List.append_assoc]
    congr 2
    congr 1
    omega
  · have h1 : F.length ≤ a := by omega
    have h2 : F.drop a = [] := List.drop_eq_nil_of_le h1
    rw [h2, List.take_of_length_le (by omega), List.take_of_length_le h1]
    simp only [List.take_nil, List.nil_append, List.length_nil, Nat.sub_zero, List.append_assoc]
    congr 1
    have h3 : a + b - F.length = b + (a - F.length) := by omega
    rw [h3, List.range'_append_1]

theorem mem_allocIds (F : List Nat) (len m i : Nat) (h : i ∈ allocIds F len m) :
    i ∈ F ∨ len ≤ i := by
  unfold allocIds at h
  rcases List.mem_append.mp h with h | h
  · exact Or.inl (List.mem_of_mem_take h)
  · exact Or.inr (List.mem_range'_1.mp h).1

theorem allocIds_length (F : List Nat) (len m : Nat) : (allocIds F len m).length = m := by
  unfold allocIds
  simp only [List.length_append, List.length_take, List.length_range']
  omega

theorem nodup_allocIds (F : List Nat) (len m : Nat) (hF : F.Nodup) (hlt : ∀ f ∈ F, f < len) :
    (allocIds F len m).Nodup := by
  unfold allocIds
  rw [List.nodup_append]
  refine ⟨hF.sublist (List.take_sublist _ _), List.nodup_range' _ _, ?_⟩
  intro a ha hb
  have := hlt a (List.mem_of_mem_take ha)
  have := (List.mem_range'_1.mp hb).1
  omega

theorem FreeChain_frame (s s1 : TreeStorage) (F : List Nat) :
    ∀ h : Int, FreeChain s F h → (∀ f ∈ F, s1.nodeAt (f : Int) = s.nodeAt (f : Int)) →
      FreeChain s1 F h := by
  induction F with
  | nil => intro h hc _; exact hc
  | cons f fs ih =>
    intro h hc hfr
    obtain ⟨h1, n, hn, hp, hrest⟩ := hc
    refine ⟨h1, n, ?_, hp, ih _ hrest (fun g hg => hfr g (List.mem_cons_of_mem _ hg))⟩
    rw [hfr f (List.mem_cons_self _ _), hn]

theorem FreeChain_mem (s : TreeStorage) (F : List Nat) :
    ∀ h : Int, FreeChain s F h →
      ∀ f ∈ F, ∃ n, s.nodeAt (f : Int) = some n ∧ n.parent = TREEPOINTER_DEALLOCATED := by
  induction F with
  | nil => intro h _ f hf; simp at hf
  | cons g gs ih =>
    intro h hc f hf
    obtain ⟨_, n, hn, hp, hrest⟩ := hc
    rcases List.mem_cons.mp hf with rfl | hf
    · exact ⟨n, hn, hp⟩
    · exact ih _ hrest f hf

theorem FreeList_lt (s : TreeStorage) (F : List Nat) (h : FreeList s F) :
    ∀ f ∈ F, f < s.nodes_.length := by
  intro f hf
  obtain ⟨n, hn, _⟩ := FreeChain_mem s F _ h.1 f hf
  have := (nodeAt_some_bounds s f n hn).2
  simpa using this

/-- The call `AllocateNode(data)`: it takes the first slot of the free list, or a new slot. -/
theorem AllocateNode_spec (s : TreeStorage) (F : List Nat) (hF : FreeList s F)
    (data : TreeNode) :
    ∃ (id : Nat) (s1 : TreeStorage), s.AllocateNode data = some (id, s1) ∧
      allocIds F s.nodes_.length 1 = [id] ∧ FreeList s1 (F.drop 1) ∧
      (∀ j, s1.nodeAt j = if j = (id : Int) then some data else s.nodeAt j) ∧
      s1.nodes_.length = s.nodes_.length + (1 - F.length) ∧
      s1.parent_ = s.parent_ ∧ s1.position_in_parent_ = s.position_in_parent_ := by
  unfold TreeStorage.AllocateNode
  cases F with
  | nil =>
    have h1 : s.first_free_node_ = -1 := hF.1
    simp only [h1, ne_eq, not_true_eq_false, if_false]
    refine ⟨_, _, rfl, by simp [allocIds], ⟨by simp [FreeChain], List.nodup_nil⟩, ?_,
      by simp, rfl, rfl⟩
    intro j
    exact nodeAt_append s data j
  | cons f fs =>
    obtain ⟨⟨h1, n, hn, hp, hrest⟩, hnd⟩ := hF
    have hne : s.first_free_node_ ≠ -1 := by omega
    have hlt := (nodeAt_some_bounds s f n hn).2
    simp only [Int.toNat_ofNat] at hlt
    have hfr : ∀ j, TreeStorage.nodeAt
        { s with first_free_node_ := n.type, nodes_ := s.nodes_.set f data } j
        = if j = (f : Int) then some data else s.nodeAt j := by
      intro j
      exact nodeAt_set { s with first_free_node_ := n.type } f data hlt j
    simp only [hne, ne_eq, not_false_eq_true, if_true, h1, hn, Option.map_some',
      Int.toNat_ofNat]
    refine ⟨f, _, rfl, by simp [allocIds], ⟨?_, (List.nodup_cons.mp hnd).2⟩, hfr,
      by simp, rfl, rfl⟩
    simp only [List.drop_succ_cons, List.drop_zero]
    apply FreeChain_frame s _ fs _ hrest
    intro g hg
    rw [hfr]
    have : g ≠ f := by
      intro hgf
      subst hgf
      exact (List.nodup_cons.mp hnd).1 hg
    have : (g : Int) ≠ (f : Int) := by omega
    simp [this]
theorem FreeList_frame (s s1 : TreeStorage) (F : List Nat) (h : FreeList s F)
    (hff : s1.first_free_node_ = s.first_free_node_)
    (hfr : ∀ f ∈ F, s1.nodeAt (f : Int) = s.nodeAt (f : Int)) : FreeList s1 F := by
  refine ⟨?_, h.2⟩
  rw [hff]
  exact FreeChain_frame s s1 F _ h.1 hfr

/-- The call `AddLastNode(x)` for a node `x` that is not empty: the new node is the first slot of
the free list or a new slot, it is linked as the last child of its parent and as the right
sibling of its left sibling, and no other element changes. -/
theorem AddLastNode_spec (s : TreeStorage) (F : List Nat) (hF : FreeList s F) (x : TreeNode)
    (hx : x.type ≠ EMPTY_NODE_LABEL) (pn : TreeNode) (hp : s.nodeAt x.parent = some pn)
    (hpF : x.parent.toNat ∉ F)
    (hl : 0 ≤ x.left_sib → ∃ ln, s.nodeAt x.left_sib = some ln ∧ x.left_sib.toNat ∉ F ∧
      x.left_sib ≠ x.parent) :
    ∃ (id : Nat) (s3 : TreeStorage), s.AddLastNode x = some ((id : Int), s3) ∧
      allocIds F s.nodes_.length 1 = [id] ∧ FreeList s3 (F.drop 1) ∧
      s3.nodes_.length = s.nodes_.length + (1 - F.length) ∧
      s3.parent_ = s.parent_ ∧ s3.position_in_parent_ = s.position_in_parent_ ∧
      (id : Int) ≠ x.parent ∧ (id : Int) ≠ x.left_sib ∧
      s3.nodeAt (id : Int) = some x ∧
      s3.nodeAt x.parent = some { pn with
        first_child := if pn.first_child < 0 then (id : Int) else pn.first_child,
        last_child := (id : Int) } ∧
      (∀ ln, 0 ≤ x.left_sib → s.nodeAt x.left_sib = some ln →
        s3.nodeAt x.left_sib = some { ln with right_sib := (id : Int) }) ∧
      (∀ j, j ≠ (id : Int) → j ≠ x.parent → j ≠ x.left_sib → s3.nodeAt j = s.nodeAt j) := by
  obtain ⟨id, s0, ha, hids, hF0, hn0, hlen0, hpar0, hpip0⟩ := AllocateNode_spec s F hF x
  have hidmem : id ∈ F ∨ s.nodes_.length ≤ id := by
    apply mem_allocIds F s.nodes_.length 1
    rw [hids]; simp
  obtain ⟨hp0, hplt⟩ := nodeAt_some_bounds s _ _ hp
  have hidp : (id : Int) ≠ x.parent := by
    intro h
    rcases hidmem with h1 | h1
    · apply hpF
      rw [← h]
      simpa using h1
    · omega
  have hidl : (id : Int) ≠ x.left_sib := by
    intro h
    have h0 : 0 ≤ x.left_sib := by omega
    obtain ⟨ln, hln, hlF, _⟩ := hl h0
    have := (nodeAt_some_bounds s _ _ hln).2
    rcases hidmem with h1 | h1
    · apply hlF
      rw [← h]
      simpa using h1
    · omega
  -- the left sibling
  have hstep1 : ∃ s1, (if x.left_sib ≥ 0 then
        s0.modifyNode x.left_sib fun n => { n with right_sib := (id : Int) }
      else some s0) = some s1 ∧
      (∀ j, s1.nodeAt j = if 0 ≤ x.left_sib ∧ j = x.left_sib then
          (s.nodeAt x.left_sib).map fun n => { n with right_sib := (id : Int) }
        else if j = (id : Int) then some x else s.nodeAt j) ∧
      s1.nodes_.length = s0.nodes_.length ∧ s1.first_free_node_ = s0.first_free_node_ ∧
      s1.parent_ = s0.parent_ ∧ s1.position_in_parent_ = s0.position_in_parent_ := by
    by_cases h0 : 0 ≤ x.left_sib
    · obtain ⟨ln, hln, _, _⟩ := hl h0
      have hln0 : s0.nodeAt x.left_sib = some ln := by
        rw [hn0, if_neg (Ne.symm hidl), hln]
      obtain ⟨s1, hm, hn1, r1, r2, r3, r4⟩ := modifyNode_spec s0 x.left_sib
        (fun n => { n with right_sib := (id : Int) }) ln hln0
      refine ⟨s1, by simp only [ge_iff_le, h0, if_true, hm], ?_, r1, r2, r3, r4⟩
      intro j
      rw [hn1, hn0]
      by_cases hj : j = x.left_sib
      · simp [hj, h0, hln]
      · simp [hj]
    · refine ⟨s0, by simp only [ge_iff_le, h0, if_false], ?_, rfl, rfl, rfl, rfl⟩
      intro j
      rw [hn0]
      simp [h0]
  obtain ⟨s1, hs1, hn1, l1, f1, p1, q1⟩ := hstep1
  have hpne : ¬ (0 ≤ x.left_sib ∧ x.parent = x.left_sib) := by
    rintro ⟨h0, h⟩
    obtain ⟨_, _, _, hne⟩ := hl h0
    exact hne h.symm
  have hp1 : s1.nodeAt x.parent = some pn := by
    rw [hn1, if_neg hpne, if_neg (Ne.symm hidp), hp]
  -- the first child of the parent
  have hstep2 : ∃ s2, (if pn.first_child < 0 then
        s1.modifyNode x.parent fun n => { n with first_child := (id : Int) }
      else some s1) = some s2 ∧
      (∀ j, s2.nodeAt j = if j = x.parent then
          some { pn with first_child := if pn.first_child < 0 then (id : Int)
                                         else pn.first_child }
        else s1.nodeAt j) ∧
      s2.nodes_.length = s1.nodes_.length ∧ s2.first_free_node_ = s1.first_free_node_ ∧
      s2.parent_ = s1.parent_ ∧ s2.position_in_parent_ = s1.position_in_parent_ := by
    by_cases h0 : pn.first_child < 0
    · obtain ⟨s2, hm, hn2, r1, r2, r3, r4⟩ := modifyNode_spec s1 x.parent
        (fun n => { n with first_child := (id : Int) }) pn hp1
      refine ⟨s2, by simp only [h0, if_true, hm], ?_, r1, r2, r3, r4⟩
      intro j
      rw [hn2]
      simp only [h0, if_true]
    · refine ⟨s1, by simp only [h0, if_false], ?_, rfl, rfl, rfl, rfl⟩
      intro j
      by_cases hj : j = x.parent
      · simp only [hj, if_true, h0, if_false]
        exact hp1
      · simp [hj]
  obtain ⟨s2, hs2, hn2, l2, f2, p2, q2⟩ := hstep2
  have hp2 := hn2 x.parent
  simp only [if_true] at hp2
  obtain ⟨s3, hm3, hn3, l3, f3, p3, q3⟩ := modifyNode_spec s2 x.parent
    (fun n => { n with last_child := (id : Int) }) _ hp2
  have hfinal : ∀ j, s3.nodeAt j = if j = x.parent then
        some { pn with first_child := if pn.first_child < 0 then (id : Int)
                                       else pn.first_child,
                       last_child := (id : Int) }
      else if 0 ≤ x.left_sib ∧ j = x.left_sib then
        (s.nodeAt x.left_sib).map fun n => { n with right_sib := (id : Int) }
      else if j = (id : Int) then some x else s.nodeAt j := by
    intro j
    rw [hn3]
    by_cases hj : j = x.parent
    · simp [hj]
    · simp only [hj, if_false]
      rw [hn2, if_neg hj, hn1]
  refine ⟨id, s3, ?_, hids, ?_, by rw [l3, l2, l1, hlen0], by rw [p3, p2, p1, hpar0],
    by rw [q3, q2, q1, hpip0], hidp, hidl, ?_, ?_, ?_, ?_⟩
  · unfold TreeStorage.AddLastNode
    simp only [hx, if_false, ha, Option.some_bind, hs1, hp1, hs2, hm3, Option.map_some']
  · apply FreeList_frame s0 s3 _ hF0 (by rw [f3, f2, f1])
    intro f hf
    have hfF : f ∈ F := List.mem_of_mem_drop hf
    have hflt := FreeList_lt s F hF f hfF
    have h1 : (f : Int) ≠ x.parent := by
      intro h; apply hpF; rw [← h]; simpa using hfF
    have h2 : ¬ (0 ≤ x.left_sib ∧ (f : Int) = x.left_sib) := by
      rintro ⟨h0, h⟩
      obtain ⟨_, _, hlF, _⟩ := hl h0
      apply hlF; rw [← h]; simpa using hfF
    rw [hfinal, if_neg h1, if_neg h2, hn0]
  · rw [hfinal, if_neg hidp]
    have : ¬ (0 ≤ x.left_sib ∧ (id : Int) = x.left_sib) := fun h => hidl h.2
    rw [if_neg this, if_pos rfl]
  · rw [hfinal, if_pos rfl]
  · intro ln h0 hln
    have : x.left_sib ≠ x.parent := by
      obtain ⟨_, _, _, hne⟩ := hl h0
      exact hne
    rw [hfinal, if_neg this, if_pos ⟨h0, rfl⟩, hln]
    rfl
  · intro j h1 h2 h3
    have : ¬ (0 ≤ x.left_sib ∧ j = x.left_sib) := fun h => h3 h.2
    rw [hfinal, if_neg h2, if_neg this, if_neg h1]
/-! ## Steps of the iterators -/

/-- The reading iterator goes from a node to the place of its first child. -/
theorem reader_down (fuel0 : Nat) (rs : TreeStorage) (it : ConstLocalEpsTreeTraversal)
    (n : TreeNode) (h0 : 0 ≤ it.position_) (hn : rs.nodeAt it.position_ = some n)
    (hty : n.type ≠ EMPTY_NODE_LABEL) :
    ∃ it1, it.pre_order_forward fuel0 rs = some (it1, false) ∧
      ReaderAt it1 n.first_child it.position_ := by
  have hnode : it.node rs = some n := by
    unfold ConstLocalEpsTreeTraversal.node
    rw [if_neg (by omega), hn]
  unfold ConstLocalEpsTreeTraversal.pre_order_forward
    ConstLocalEpsTreeTraversal.down_first_child
  simp only [hnode, Option.map_some', Option.some_bind, hty, if_false]
  by_cases hc : n.first_child < 0
  · simp only [hc, if_true]
    exact ⟨_, rfl, rfl, fun _ => ⟨rfl, rfl⟩⟩
  · simp only [hc, if_false, if_true]
    exact ⟨_, rfl, rfl, fun h => absurd h hc⟩

/-- The reading iterator leaves the missing node after the children of `rp`. -/
theorem reader_leave (fuel0 : Nat) (hf : 2 ≤ fuel0) (rs : TreeStorage)
    (it : ConstLocalEpsTreeTraversal) (rid rp : Int) (hrid : rid < 0)
    (hat : ReaderAt it rid rp) (hrp : 0 ≤ rp) (hl : Leavable rs rp) :
    ∃ it1 er, it.pre_order_forward fuel0 rs = some (it1, er) ∧ ReaderAfter rs rp it1 er := by
  obtain ⟨hpos, heps⟩ := hat
  obtain ⟨hety, hepar⟩ := heps hrid
  obtain ⟨n, hn, hnty, hroot⟩ := hl
  have hnode : it.node rs = some it.eps_node_ := by
    unfold ConstLocalEpsTreeTraversal.node
    rw [if_pos (by omega)]
  obtain ⟨k, rfl⟩ : ∃ k, fuel0 = k + 2 := ⟨fuel0 - 2, by omega⟩
  have hnode2 : ConstLocalEpsTreeTraversal.node rs
      { position_ := rp, eps_node_ := it.eps_node_ } = some n := by
    unfold ConstLocalEpsTreeTraversal.node
    simp only []
    rw [if_neg (by omega), hn]
  have hup : it.up rs = some (true, { it with position_ := rp }) := by
    unfold ConstLocalEpsTreeTraversal.up
    simp only [hnode, Option.map_some', hepar]
    rw [if_neg (by omega)]
  unfold ConstLocalEpsTreeTraversal.pre_order_forward
    ConstLocalEpsTreeTraversal.down_first_child
  simp only [hnode, Option.map_some', Option.some_bind, hety, if_true, Bool.false_eq_true,
    if_false]
  unfold ConstLocalEpsTreeTraversal.preOrderClimb
  have hright : it.right rs = some (false, it) := by
    unfold ConstLocalEpsTreeTraversal.right
    simp only [hnode, Option.map_some', hety, if_true]
  simp only [hright, Option.some_bind, Bool.false_eq_true, if_false, hup, if_true]
  unfold ConstLocalEpsTreeTraversal.preOrderClimb
  unfold ConstLocalEpsTreeTraversal.right
  simp only [hnode2, Option.map_some', Option.some_bind, hnty, if_false]
  have hrp' : ¬ rp < 0 := by omega
  simp only [hrp', if_false]
  by_cases h0 : rp = 0
  · obtain ⟨hr, hpar⟩ := hroot h0
    simp only [hr, if_true, h0, Bool.false_eq_true, if_false]
    unfold ConstLocalEpsTreeTraversal.up
    have hnode3 : ConstLocalEpsTreeTraversal.node rs
        { position_ := 0, eps_node_ := it.eps_node_ } = some n := by
      rw [← h0]; exact hnode2
    simp only [hnode3, Option.map_some', Option.some_bind, hpar, if_true, Bool.false_eq_true,
      if_false]
    exact ⟨_, _, rfl, n, by rw [← h0]; exact hn, by simp⟩
  · by_cases hr : n.right_sib < 0
    · simp only [hr, if_true, h0, if_false]
      refine ⟨_, _, rfl, n, hn, ?_⟩
      rw [if_neg h0]
      exact ⟨rfl, rfl, fun _ => ⟨rfl, rfl⟩⟩
    · simp only [hr, if_false, if_true]
      refine ⟨_, _, rfl, n, hn, ?_⟩
      rw [if_neg h0]
      exact ⟨rfl, rfl, fun h => absurd h hr⟩
/-- The writing iterator makes the node that it has written and goes to the place of its first
child. -/
theorem writer_down (fuel0 : Nat) (ws ws1 : TreeStorage) (wit : LocalEpsTreeTraversal)
    (id : Nat) (hpos : wit.position_ < 0) (hty : wit.eps_node_.type ≠ EMPTY_NODE_LABEL)
    (hfc : wit.eps_node_.first_child = -1)
    (hadd : ws.AddLastNode wit.eps_node_ = some ((id : Int), ws1))
    (hnode : ws1.nodeAt (id : Int) = some wit.eps_node_) :
    ∃ wit1, wit.pre_order_forward fuel0 ws = some (ws1, wit1, false) ∧
      WriterAt wit1 (id : Int) (-1) 0 := by
  have hn0 : wit.node ws = some wit.eps_node_ := by
    unfold LocalEpsTreeTraversal.node
    rw [if_pos hpos]
  have hw : wit.write_node ws = some (ws1, { wit with position_ := (id : Int) }) := by
    unfold LocalEpsTreeTraversal.write_node
    rw [if_pos hpos, hadd]
    rfl
  have hn1 : LocalEpsTreeTraversal.node ws1 { wit with position_ := (id : Int) }
      = some wit.eps_node_ := by
    unfold LocalEpsTreeTraversal.node
    simp only []
    rw [if_neg (by omega), hnode]
  unfold LocalEpsTreeTraversal.pre_order_forward LocalEpsTreeTraversal.down_first_child
  simp only [hn0, Option.some_bind, hty, if_false, hw, hn1, Option.map_some', hfc]
  refine ⟨_, rfl, ?_, ?_⟩
  · show (-1 : Int) < 0
    decide
  · rfl

/-- The writing iterator leaves the missing node after the children of `wp`, without a change of
the store. -/
theorem writer_leave (fuel0 : Nat) (hf : 2 ≤ fuel0) (ws : TreeStorage)
    (wit : LocalEpsTreeTraversal) (wp : Int) (hpos : wit.position_ < 0)
    (hety : wit.eps_node_.type = EMPTY_NODE_LABEL) (hepar : wit.eps_node_.parent = wp)
    (hwp : 0 ≤ wp) (hl : Leavable ws wp) :
    ∃ wit1 ew, wit.pre_order_forward fuel0 ws = some (ws, wit1, ew) ∧
      WriterAfter ws wp wit1 ew := by
  obtain ⟨n, hn, hnty, hroot⟩ := hl
  obtain ⟨k, rfl⟩ : ∃ k, fuel0 = k + 2 := ⟨fuel0 - 2, by omega⟩
  have hn0 : wit.node ws = some wit.eps_node_ := by
    unfold LocalEpsTreeTraversal.node
    rw [if_pos hpos]
  have hright : wit.right ws = some (false, ws, wit) := by
    unfold LocalEpsTreeTraversal.right
    simp only [hn0, Option.some_bind, hety, if_true]
  have hw : wit.write_node ws = some (ws, { wit with position_ := -1 }) := by
    unfold LocalEpsTreeTraversal.write_node TreeStorage.AddLastNode
    rw [if_pos hpos, if_pos hety]
    rfl
  have hn1 : LocalEpsTreeTraversal.node ws { wit with position_ := -1 }
      = some wit.eps_node_ := by
    unfold LocalEpsTreeTraversal.node
    simp only []
    rw [if_pos (by decide)]
  have hup : wit.up ws = some (true, ws, { wit with position_ := wp }) := by
    unfold LocalEpsTreeTraversal.up
    simp only [hw, Option.some_bind, hn1, Option.map_some', hepar]
    rw [if_neg (by omega)]
  have hn2 : LocalEpsTreeTraversal.node ws { wit with position_ := wp } = some n := by
    unfold LocalEpsTreeTraversal.node
    simp only []
    rw [if_neg (by omega), hn]
  have hw2 : LocalEpsTreeTraversal.write_node ws { wit with position_ := wp }
      = some (ws, { wit with position_ := wp }) := by
    unfold LocalEpsTreeTraversal.write_node
    simp only []
    rw [if_neg (by omega)]
  unfold LocalEpsTreeTraversal.pre_order_forward LocalEpsTreeTraversal.down_first_child
  simp only [hn0, Option.some_bind, hety, if_true, Bool.false_eq_true, if_false]
  unfold LocalEpsTreeTraversal.preOrderClimb
  simp only [hright, Option.some_bind, Bool.false_eq_true, if_false, hup, if_true]
  unfold LocalEpsTreeTraversal.preOrderClimb
  unfold LocalEpsTreeTraversal.right
  simp only [hn2, Option.some_bind, hnty, if_false, hw2, Option.map_some']
  have hwp' : ¬ wp < 0 := by omega
  simp only [hwp', if_false, hn2, Option.map_some', Option.some_bind]
  by_cases h0 : wp = 0
  · obtain ⟨hr, hpar⟩ := hroot h0
    simp only [hr, if_true, h0, Bool.false_eq_true, if_false]
    unfold LocalEpsTreeTraversal.up
    have hw3 : LocalEpsTreeTraversal.write_node ws { wit with position_ := 0 }
        = some (ws, { wit with position_ := 0 }) := by
      rw [← h0]; exact hw2
    have hn3 : LocalEpsTreeTraversal.node ws { wit with position_ := 0 } = some n := by
      rw [← h0]; exact hn2
    simp only [hw3, Option.some_bind, hn3, Option.map_some', hpar, if_true,
      Bool.false_eq_true, if_false]
    exact ⟨_, _, rfl, n, by rw [← h0]; exact hn, by simp⟩
  · by_cases hr : n.right_sib < 0
    · simp only [hr, if_true, h0, if_false]
      refine ⟨_, _, rfl, n, hn, ?_⟩
      rw [if_neg h0]
      exact ⟨rfl, rfl, fun _ => rfl⟩
    · simp only [hr, if_false, if_true]
      refine ⟨_, _, rfl, n, hn, ?_⟩
      rw [if_neg h0]
      exact ⟨rfl, rfl, fun h => absurd h hr⟩

/-! ## The copy loop on a chain -/

theorem FT.epsLabels_length (t : FT) : t.epsLabels.length = 2 * t.size + 1 := by
  induction t with
  | eps => rfl
  | node ty v c sb ihc ihs =>
    simp only [FT.epsLabels, FT.size, List.length_cons, List.length_append, ihc, ihs]
    omega

/-- One round of the copy loop at a missing node: both iterators leave the children of their
nodes. -/
theorem copyLoop_eps (fuel0 : Nat) (hf : 2 ≤ fuel0) (rs ws : TreeStorage)
    (it : ConstLocalEpsTreeTraversal) (wit : LocalEpsTreeTraversal) (rid rp wp wls wci : Int)
    (hrid : rid < 0) (hat : ReaderAt it rid rp) (hrp : 0 ≤ rp) (hlr : Leavable rs rp)
    (hw : WriterAt wit wp wls wci) (hwp : 0 ≤ wp) (hlw : Leavable ws wp) :
    ∃ it1 er wit1 ew,
      (∀ n, copyLoop fuel0 rs (n + 1) (it, false) ws (wit, false)
        = copyLoop fuel0 rs n (it1, er) ws (wit1, ew)) ∧
      ReaderAfter rs rp it1 er ∧ WriterAfter ws wp wit1 ew := by
  obtain ⟨it1, er, hr1, hr2⟩ := reader_leave fuel0 hf rs it rid rp hrid hat hrp hlr
  have hnode : it.node rs = some it.eps_node_ := by
    unfold ConstLocalEpsTreeTraversal.node
    rw [if_pos (by rw [hat.1]; exact hrid)]
  have hset : wit.setLabels ws it.eps_node_.type it.eps_node_.value
      = some (ws, { wit with eps_node_ :=
          { wit.eps_node_ with type := it.eps_node_.type, value := it.eps_node_.value } }) := by
    unfold LocalEpsTreeTraversal.setLabels
    rw [if_pos hw.1]
  obtain ⟨wit1, ew, hw1, hw2⟩ := writer_leave fuel0 hf ws
    { wit with eps_node_ :=
        { wit.eps_node_ with type := it.eps_node_.type, value := it.eps_node_.value } }
    wp hw.1 (hat.2 hrid).1 (by simp only []; rw [hw.2]; rfl) hwp hlw
  refine ⟨it1, er, wit1, ew, ?_, hr2, hw2⟩
  intro n
  show copyLoop fuel0 rs (n + 1) (it, false) ws (wit, false) = _
  rw [copyLoop]
  simp only [Bool.false_eq_true, if_false, hnode, Option.some_bind, hset, hw1, hr1]

/-- One round of the copy loop at a node: the writing iterator makes the node as the last child
of `wp`, and both iterators go to the place of the first child. -/
theorem copyLoop_node (fuel0 : Nat) (rs ws : TreeStorage) (F : List Nat)
    (it : ConstLocalEpsTreeTraversal) (wit : LocalEpsTreeTraversal) (rid wp wls wci : Int)
    (n : TreeNode) (hpos : it.position_ = rid) (h0 : 0 ≤ rid) (hn : rs.nodeAt rid = some n)
    (hty : n.type ≠ EMPTY_NODE_LABEL) (hw : WriterAt wit wp wls wci)
    (hslot : WriterSlot ws F wp wls) (hF : FreeList ws F) :
    ∃ (id : Nat) (ws1 : TreeStorage) (it1 : ConstLocalEpsTreeTraversal)
      (wit1 : LocalEpsTreeTraversal),
      (∀ k, copyLoop fuel0 rs (k + 1) (it, false) ws (wit, false)
        = copyLoop fuel0 rs k (it1, false) ws1 (wit1, false)) ∧
      ReaderAt it1 n.first_child rid ∧ WriterAt wit1 (id : Int) (-1) 0 ∧
      allocIds F ws.nodes_.length 1 = [id] ∧ FreeList ws1 (F.drop 1) ∧
      ws1.nodes_.length = ws.nodes_.length + (1 - F.length) ∧ 0 < id ∧
      ws1.nodeAt (id : Int) = some { epsNode wp wls wci with type := n.type, value := n.value } ∧
      CopyRel ws ws1 wp wls (id : Int) (id : Int) [id] := by
  obtain ⟨hwp, h0F, hwpF, pn, hpn, hlast, hneg, hnn⟩ := hslot
  let x : TreeNode := { epsNode wp wls wci with type := n.type, value := n.value }
  have hxp : x.parent = wp := rfl
  have hxl : x.left_sib = wls := rfl
  obtain ⟨id, ws1, hadd, hids, hF1, hlen1, hpar1, hpip1, hidp, hidl, hnid, hnp, hnl, hfr⟩ :=
    AddLastNode_spec ws F hF x hty pn (by rw [hxp]; exact hpn) (by rw [hxp]; exact hwpF)
      (by
        rw [hxl, hxp]
        intro h
        obtain ⟨_, h2, h3, ln, hln, _⟩ := hnn h
        exact ⟨ln, hln, h3, h2⟩)
  rw [hxp] at hidp hnp
  rw [hxl] at hidl hnl
  have hidpos : 0 < id := by
    have hm : id ∈ F ∨ ws.nodes_.length ≤ id := by
      apply mem_allocIds F ws.nodes_.length 1
      rw [hids]; simp
    have := (nodeAt_some_bounds ws wp pn hpn).2
    rcases hm with hm | hm
    · rcases Nat.eq_zero_or_pos id with h | h
      · subst h; exact absurd hm h0F
      · exact h
    · omega
  have hnode : it.node rs = some n := by
    unfold ConstLocalEpsTreeTraversal.node
    rw [if_neg (by omega), hpos, hn]
  have hset : wit.setLabels ws n.type n.value
      = some (ws, { wit with eps_node_ := x }) := by
    unfold LocalEpsTreeTraversal.setLabels
    rw [if_pos hw.1, hw.2]
  obtain ⟨wit1, hw1, hwat1⟩ := writer_down fuel0 ws ws1 { wit with eps_node_ := x } id hw.1 hty
    rfl hadd hnid
  obtain ⟨it1, hr1, hrat1⟩ := reader_down fuel0 rs it n (by omega) (by rw [hpos]; exact hn) hty
  rw [hpos] at hrat1
  refine ⟨id, ws1, it1, wit1, ?_, hrat1, hwat1, hids, hF1, hlen1, hidpos, hnid, ?_⟩
  · intro k
    rw [copyLoop]
    simp only [Bool.false_eq_true, if_false, hnode, Option.some_bind, hset, hw1, hr1]
  · refine ⟨?_, ?_, ?_, hpar1, hpip1⟩
    · intro j hj h1 h2
      exact hfr j (hj id (List.mem_singleton_self _)) (by rw [hxp]; exact h1)
        (by rw [hxl]; exact h2)
    · intro pn' hpn'
      rw [hpn] at hpn'
      cases hpn'
      rw [hnp]
      congr 2
      by_cases hl : wls < 0
      · have := (hneg hl).2
        simp [hl, this]
      · have := (hnn (by omega)).1
        have h3 : ¬ pn.first_child < 0 := by omega
        simp [hl, h3]
    · intro ln h h2
      exact hnl ln h h2
/-- The copy loop on a chain: the reading iterator walks over the chain `t` below the node `rp`
of the store `rs`, the writing iterator makes the same chain after the last child `wls` of the
node `wp`, with nodes from the free list and then new ones, and both iterators leave the
children of their nodes. -/
theorem copy_chain (fuel0 : Nat) (hf : 2 ≤ fuel0) (rs : TreeStorage) (t : FT) :
    ∀ (rid rp rls rci : Int) (Lr : List Nat) (lastr : Int) (it : ConstLocalEpsTreeTraversal)
      (ws : TreeStorage) (wit : LocalEpsTreeTraversal) (wp wls wci : Int) (F : List Nat),
      t.NoEmpty → Chain rs t rid rp rls rci Lr lastr → ReaderAt it rid rp → 0 ≤ rp →
      Leavable rs rp → WriterAt wit wp wls wci → WriterSlot ws F wp wls → Leavable ws wp →
      FreeList ws F →
      ∃ (it1 : ConstLocalEpsTreeTraversal) (er : Bool) (ws1 : TreeStorage)
        (wit1 : LocalEpsTreeTraversal) (ew : Bool) (wid lastw : Int),
        (∀ k, copyLoop fuel0 rs (k + t.epsLabels.length) (it, false) ws (wit, false)
          = copyLoop fuel0 rs k (it1, er) ws1 (wit1, ew)) ∧
        ReaderAfter rs rp it1 er ∧ WriterAfter ws1 wp wit1 ew ∧
        Chain ws1 t wid wp wls wci (allocIds F ws.nodes_.length t.size) lastw ∧
        FreeList ws1 (F.drop t.size) ∧
        ws1.nodes_.length = ws.nodes_.length + (t.size - F.length) ∧
        CopyRel ws ws1 wp wls wid lastw (allocIds F ws.nodes_.length t.size) := by
  induction t with
  | eps =>
    intro rid rp rls rci Lr lastr it ws wit wp wls wci F _ hch hat hrp hlr hw hslot hlw hF
    obtain ⟨hrid, _, _⟩ := hch
    obtain ⟨it1, er, wit1, ew, hloop, hra, hwa⟩ := copyLoop_eps fuel0 hf rs ws it wit rid rp
      wp wls wci (by omega) hat hrp hlr hw hslot.1 hlw
    obtain ⟨hwp, h0F, hwpF, pn, hpn, hlast, hneg, hnn⟩ := hslot
    refine ⟨it1, er, ws, wit1, ew, -1, wls, hloop, hra, hwa, ?_, ?_, ?_, ?_⟩
    · exact ⟨rfl, by simp [allocIds, FT.size], rfl⟩
    · simpa [FT.size] using hF
    · simp [FT.size]
    · refine ⟨fun _ _ _ _ => rfl, ?_, ?_, rfl, rfl⟩
      · intro pn' hpn'
        rw [hpn'] 
        rw [hpn] at hpn'
        cases hpn'
        congr 1
        by_cases hl : wls < 0
        · have := (hneg hl).2
          obtain ⟨a1, a2, a3, a4, a5, a6, a7, a8⟩ := pn
          simp only [] at this hlast
          subst this hlast
          simp [hl]
        · obtain ⟨a1, a2, a3, a4, a5, a6, a7, a8⟩ := pn
          simp only [] at hlast
          subst hlast
          simp [hl]
      · intro ln h0 hln
        obtain ⟨_, _, _, ln', hln', hr⟩ := hnn h0
        rw [hln] at hln'
        cases hln'
        rw [hln]
        congr 1
        obtain ⟨a1, a2, a3, a4, a5, a6, a7, a8⟩ := ln
        simp only [] at hr
        subst hr
        rfl
  | node ty v c sb ihc ihs =>
    intro rid rp rls rci Lr lastr it ws wit wp wls wci F hne hch hat hrp hlr hw hslot hlw hF
    obtain ⟨hty, hnec, hnes⟩ := hne
    obtain ⟨hrid, n, Lc, Ls, hn, hnt, hnv, hnp, hnl, hnc, hcc, hcs, hL⟩ := hch
    have hslot0 := hslot
    obtain ⟨hwp, h0F, hwpF, pn, hpn, hlast, hneg, hnn⟩ := hslot
    have hnty : n.type ≠ EMPTY_NODE_LABEL := by rw [hnt]; exact hty
    -- the round at the node
    obtain ⟨id, ws1, it1, wit1, hloop1, hrat1, hwat1, hids, hF1, hlen1, hidpos, hnid, hrel1⟩ :=
      copyLoop_node fuel0 rs ws F it wit rid wp wls wci n hat.1 (le_of_lt hrid) hn hnty hw
        hslot0 hF
    have hplt := (nodeAt_some_bounds ws wp pn hpn).2
    have hFlt := FreeList_lt ws F hF
    have hidmem : id ∈ F ∨ ws.nodes_.length ≤ id := by
      apply mem_allocIds F ws.nodes_.length 1
      rw [hids]; simp
    have hidwp : (id : Int) ≠ wp := by
      intro h
      rcases hidmem with h1 | h1
      · apply hwpF; rw [← h]; simpa using h1
      · omega
    have hidwls : (id : Int) ≠ wls := by
      intro h
      have h0 : 0 ≤ wls := by omega
      obtain ⟨_, _, h3, ln, hln, _⟩ := hnn h0
      have := (nodeAt_some_bounds ws wls ln hln).2
      rcases hidmem with h1 | h1
      · apply h3; rw [← h]; simpa using h1
      · omega
    have hF1sub : ∀ f ∈ F.drop 1, f ∈ F := fun f hf => List.mem_of_mem_drop hf
    have hidF1 : id ∉ F.drop 1 := by
      intro h
      have hnd := nodup_allocIds F ws.nodes_.length 2 hF.2 hFlt
      rw [show (2 : Nat) = 1 + 1 from rfl, allocIds_add, hids] at hnd
      have hx := (List.nodup_append.mp hnd).2.2
      cases hF' : F with
      | nil => rw [hF'] at h; simp at h
      | cons f fs =>
        rw [hF'] at h hids hF
        simp only [allocIds, List.take_succ_cons, List.take_zero, List.length_cons,
          List.drop_succ_cons, List.drop_zero] at h hids
        have hfid : f = id := by simpa using hids
        subst hfid
        exact (List.nodup_cons.mp hF.2).1 h
    -- the chain of the children
    have hslot1 : WriterSlot ws1 (F.drop 1) (id : Int) (-1) := by
      refine ⟨by omega, fun h => h0F (hF1sub 0 h), by simpa using hidF1, _, hnid, rfl, ?_, ?_⟩
      · intro _; exact ⟨rfl, rfl⟩
      · intro h; omega
    have hlw1 : Leavable ws1 (id : Int) :=
      ⟨_, hnid, hnty, fun h => by omega⟩
    have hlr1 : Leavable rs rid := ⟨n, hn, hnty, fun h => by omega⟩
    obtain ⟨it2, er2, ws2, wit2, ew2, cid, lastc, hloop2, hra2, hwa2, hch2, hF2, hlen2, hrel2⟩ :=
      ihc n.first_child rid (-1) 0 Lc n.last_child it1 ws1 wit1 (id : Int) (-1) 0 (F.drop 1)
        hnec hcc hrat1 (le_of_lt hrid) hlr1 hwat1 hslot1 hlw1 hF1
    -- the two iterators after the children
    obtain ⟨n', hn', hra2'⟩ := hra2
    rw [hn] at hn'
    cases hn'
    rw [if_neg (by omega)] at hra2'
    obtain ⟨her2, hrat2⟩ := hra2'
    rw [hnp] at hrat2
    have hnid2 := hrel2.2.1 _ hnid
    simp only [show ((-1 : Int) < 0) from by decide, if_true] at hnid2
    obtain ⟨n2, hn2, hwa2'⟩ := hwa2
    rw [hnid2] at hn2
    cases hn2
    rw [if_neg (by omega)] at hwa2'
    obtain ⟨hew2, hwpos2, hweps2⟩ := hwa2'
    have hwat2 : WriterAt wit2 wp (id : Int) (wci + 1) := by
      refine ⟨?_, ?_⟩
      · rw [hwpos2]; show (-1 : Int) < 0; decide
      · exact hweps2 (by show (-1 : Int) < 0; decide)
    subst her2 hew2
    -- facts on the nodes of the children
    set Lcw := allocIds (F.drop 1) ws1.nodes_.length c.size with hLcw
    have hF1lt := FreeList_lt ws1 (F.drop 1) hF1
    have hLcmem : ∀ i ∈ Lcw, i ∈ F ∨ ws.nodes_.length ≤ i := by
      intro i hi
      rcases mem_allocIds _ _ _ _ hi with h | h
      · exact Or.inl (hF1sub i h)
      · right; omega
    have hLc_wp : ∀ i ∈ Lcw, wp ≠ (i : Int) := by
      intro i hi h
      rcases hLcmem i hi with h1 | h1
      · apply hwpF; rw [h]; simpa using h1
      · omega
    have hLc_wls : ∀ i ∈ Lcw, wls ≠ (i : Int) := by
      intro i hi h
      have h0 : 0 ≤ wls := by omega
      obtain ⟨_, _, h3, ln, hln, _⟩ := hnn h0
      have := (nodeAt_some_bounds ws wls ln hln).2
      rcases hLcmem i hi with h1 | h1
      · apply h3; rw [h]; simpa using h1
      · omega
    have hnd1 : (id :: Lcw).Nodup := by
      have hnd := nodup_allocIds F ws.nodes_.length (1 + c.size) hF.2 hFlt
      rw [allocIds_add, hids] at hnd
      have : ws.nodes_.length + (1 - F.length) = ws1.nodes_.length := hlen1.symm
      rw [this] at hnd
      exact hnd
    have hLc_id : ∀ i ∈ Lcw, (id : Int) ≠ (i : Int) := by
      intro i hi h
      have : id = i := by omega
      subst this
      exact (List.nodup_cons.mp hnd1).1 hi
    -- the chain of the right siblings
    have hpn1 : ws1.nodeAt wp = some { pn with
        first_child := if wls < 0 then (id : Int) else pn.first_child,
        last_child := (id : Int) } := hrel1.2.1 pn hpn
    have hpn2 : ws2.nodeAt wp = ws1.nodeAt wp :=
      hrel2.1 wp hLc_wp (Ne.symm hidwp) (by omega)
    have hF2sub : ∀ f ∈ (F.drop 1).drop c.size, f ∈ F :=
      fun f hf => hF1sub f (List.mem_of_mem_drop hf)
    have hidF2 : id ∉ (F.drop 1).drop c.size := fun h => hidF1 (List.mem_of_mem_drop h)
    have hslot2 : WriterSlot ws2 ((F.drop 1).drop c.size) wp (id : Int) := by
      refine ⟨hwp, fun h => h0F (hF2sub 0 h), fun h => hwpF (hF2sub _ h), _,
        by rw [hpn2, hpn1], rfl, fun h => by omega, ?_⟩
      intro _
      refine ⟨?_, hidwp, by simpa using hidF2, _, hnid2, rfl⟩
      simp only []
      by_cases hl : wls < 0
      · simp [hl]
      · simp only [hl, if_false]
        exact (hnn (by omega)).1
    have hlw2 : Leavable ws2 wp := by
      obtain ⟨pn0, hpn0, hpty, hproot⟩ := hlw
      rw [hpn] at hpn0
      cases hpn0
      exact ⟨{ pn with
        first_child := if wls < 0 then (id : Int) else pn.first_child,
        last_child := (id : Int) }, by rw [hpn2]; exact hpn1, hpty, hproot⟩
    obtain ⟨it3, er3, ws3, wit3, ew3, sid, lastw, hloop3, hra3, hwa3, hch3, hF3, hlen3, hrel3⟩ :=
      ihs n.right_sib rp rid (rci + 1) Ls lastr it2 ws2 wit2 wp (id : Int) (wci + 1)
        ((F.drop 1).drop c.size) hnes hcs hrat2 hrp hlr hwat2 hslot2 hlw2 hF2
    set Lsw := allocIds ((F.drop 1).drop c.size) ws2.nodes_.length sb.size with hLsw
    -- the nodes of the whole chain
    have hlenF1 : (F.drop 1).length = F.length - 1 := by simp
    have hlenF2 : ((F.drop 1).drop c.size).length = F.length - 1 - c.size := by
      simp only [List.length_drop]
    have hall : allocIds F ws.nodes_.length (FT.node ty v c sb).size = id :: (Lcw ++ Lsw) := by
      have e1 : (FT.node ty v c sb).size = 1 + (c.size + sb.size) := by
        simp only [FT.size]; omega
      rw [e1, allocIds_add, hids, allocIds_add]
      have e2 : ws.nodes_.length + (1 - F.length) = ws1.nodes_.length := hlen1.symm
      have e3 : ws1.nodes_.length + (c.size - (F.drop 1).length) = ws2.nodes_.length :=
        hlen2.symm
      rw [e2, e3]
      rfl
    have hnd2 : (Lcw ++ Lsw).Nodup := by
      have hnd := nodup_allocIds (F.drop 1) ws1.nodes_.length (c.size + sb.size) hF1.2 hF1lt
      rw [allocIds_add] at hnd
      have e3 : ws1.nodes_.length + (c.size - (F.drop 1).length) = ws2.nodes_.length :=
        hlen2.symm
      rw [e3] at hnd
      exact hnd
    have hLs_Lc : ∀ i ∈ Lcw, ∀ k ∈ Lsw, (i : Int) ≠ (k : Int) := by
      intro i hi k hk h
      have : i = k := by omega
      subst this
      exact (List.nodup_append.mp hnd2).2.2 hi hk
    have hnid3 := hrel3.2.2.1 _ (by omega) hnid2
    refine ⟨it3, er3, ws3, wit3, ew3, (id : Int), lastw, ?_, hra3, hwa3, ?_, ?_, ?_, ?_⟩
    · intro k
      have e : k + (FT.node ty v c sb).epsLabels.length
          = (k + sb.epsLabels.length + c.epsLabels.length) + 1 := by
        simp only [FT.epsLabels, List.length_cons, List.length_append]
        omega
      rw [e, hloop1, hloop2, hloop3]
    · rw [hall]
      refine ⟨by omega, _, Lcw, Lsw, hnid3, hnt, hnv, rfl, rfl, rfl, ?_, ?_, by simp⟩
      · apply Chain_frame ws2 ws3 c _ _ _ _ _ _ hch2
        intro i hi
        exact hrel3.1 (i : Int) (fun k hk => hLs_Lc i hi k hk) (Ne.symm (hLc_wp i hi))
          (Ne.symm (hLc_id i hi))
      · exact hch3
    · have : List.drop (FT.node ty v c sb).size F
          = List.drop sb.size (List.drop c.size (List.drop 1 F)) := by
        rw [List.drop_drop, List.drop_drop]
        congr 1
        simp only [FT.size]; omega
      rw [this]
      exact hF3
    · rw [hlen3, hlen2, hlen1, hlenF1, hlenF2]
      simp only [FT.size]
      omega
    · rw [hall]
      refine ⟨?_, ?_, ?_, by rw [hrel3.2.2.2.1, hrel2.2.2.2.1, hrel1.2.2.2.1],
        by rw [hrel3.2.2.2.2, hrel2.2.2.2.2, hrel1.2.2.2.2]⟩
      · intro j hj h1 h2
        by_cases hjneg : j < 0
        · rw [nodeAt_neg _ _ hjneg, nodeAt_neg _ _ hjneg]
        have hjid : j ≠ (id : Int) := hj id (List.mem_cons_self _ _)
        have hjc : ∀ i ∈ Lcw, j ≠ (i : Int) :=
          fun i hi => hj i (List.mem_cons_of_mem _ (List.mem_append_left _ hi))
        have hjs : ∀ i ∈ Lsw, j ≠ (i : Int) :=
          fun i hi => hj i (List.mem_cons_of_mem _ (List.mem_append_right _ hi))
        rw [hrel3.1 j hjs h1 hjid, hrel2.1 j hjc hjid (by omega)]
        exact hrel1.1 j (fun i hi => by rw [List.mem_singleton.mp hi]; exact hjid) h1 h2
      · intro pn' hpn'
        rw [hpn] at hpn'
        cases hpn'
        rw [hrel3.2.1 _ (by rw [hpn2, hpn1])]
        congr 1
      · intro ln h0 hln
        have e1 : ws1.nodeAt wls = some { ln with right_sib := (id : Int) } :=
          hrel1.2.2.1 ln h0 hln
        have hwlswp : wls ≠ wp := (hnn h0).2.1
        have e2 : ws2.nodeAt wls = ws1.nodeAt wls :=
          hrel2.1 wls hLc_wls (Ne.symm hidwls) (by omega)
        have hLs_wls : ∀ i ∈ Lsw, wls ≠ (i : Int) := by
          intro i hi h
          obtain ⟨_, _, h3, ln', hln', _⟩ := hnn h0
          have hb := (nodeAt_some_bounds ws wls ln' hln').2
          rcases mem_allocIds _ _ _ _ hi with h4 | h4
          · apply h3; rw [h]; simpa using hF2sub i h4
          · omega
        rw [hrel3.1 wls hLs_wls hwlswp (Ne.symm hidwls), e2, e1]

/-! ## Copying a tree onto a node -/

/-- The store that the constructor makes has one node, which has no child, no parent and no
right sibling in the store. -/
theorem createAt_spec (m : Memory) (parent : Option Nat) (q : Int) (tmp : TreeStorage)
    (h : TreeStorage.createAt m parent q = some tmp) :
    ∃ r0, tmp.nodes_ = [r0] ∧ r0.first_child = -1 ∧ r0.last_child = -1 ∧ r0.right_sib < 0 ∧
      r0.parent < 0 ∧ tmp.first_free_node_ = -1 ∧ tmp.parent_ = parent ∧
      tmp.position_in_parent_ = q := by
  cases parent with
  | none =>
    simp only [TreeStorage.createAt, Option.some.injEq] at h
    subst h
    exact ⟨_, rfl, rfl, rfl, by decide, by decide, rfl, rfl, rfl⟩
  | some a =>
    simp only [TreeStorage.createAt, TreeStorage.createAttached, Option.map_eq_some'] at h
    obtain ⟨pn, _, h⟩ := h
    subst h
    refine ⟨_, rfl, ?_, ?_, ?_, ?_, rfl, rfl, rfl⟩
    · by_cases h1 : pn.left_sib ≥ 0 <;> by_cases h2 : pn.right_sib ≥ 0 <;> simp [h1, h2]
    · by_cases h1 : pn.left_sib ≥ 0 <;> by_cases h2 : pn.right_sib ≥ 0 <;> simp [h1, h2]
    · by_cases h1 : pn.left_sib ≥ 0 <;> by_cases h2 : pn.right_sib ≥ 0 <;>
        simp [h1, h2, TREEPOINTER_VALUE_IN_PARENT]
    · simp [TREEPOINTER_VALUE_IN_PARENT]

/-- One round of the copy loop at a node that the written store has, and that has no child: the
writing iterator sets its type and value, and both iterators go to the place of the first
child. -/
theorem copyLoop_at (fuel0 : Nat) (rs ws : TreeStorage) (it : ConstLocalEpsTreeTraversal)
    (wit : LocalEpsTreeTraversal) (rid wid : Int) (n wn : TreeNode)
    (hpos : it.position_ = rid) (h0 : 0 ≤ rid) (hn : rs.nodeAt rid = some n)
    (hty : n.type ≠ EMPTY_NODE_LABEL) (hwpos : wit.position_ = wid) (hw0 : 0 ≤ wid)
    (hwn : ws.nodeAt wid = some wn) (hfc : wn.first_child = -1) :
    ∃ (ws1 : TreeStorage) (it1 : ConstLocalEpsTreeTraversal) (wit1 : LocalEpsTreeTraversal),
      (∀ k, copyLoop fuel0 rs (k + 1) (it, false) ws (wit, false)
        = copyLoop fuel0 rs k (it1, false) ws1 (wit1, false)) ∧
      ReaderAt it1 n.first_child rid ∧ WriterAt wit1 wid (-1) 0 ∧
      ws.modifyNode wid (fun x => { x with type := n.type, value := n.value }) = some ws1 := by
  obtain ⟨ws1, hmod, hat1, _, _, _, _⟩ :=
    modifyNode_spec ws wid (fun x => { x with type := n.type, value := n.value }) wn hwn
  have hnode : it.node rs = some n := by
    unfold ConstLocalEpsTreeTraversal.node
    rw [if_neg (by omega), hpos, hn]
  have hset : wit.setLabels ws n.type n.value = some (ws1, wit) := by
    unfold LocalEpsTreeTraversal.setLabels
    rw [if_neg (by omega), hwpos, hmod]
    rfl
  have hwnode : wit.node ws1 = some { wn with type := n.type, value := n.value } := by
    unfold LocalEpsTreeTraversal.node
    rw [if_neg (by omega), hwpos, hat1 wid, if_pos rfl]
  have hww : wit.write_node ws1 = some (ws1, wit) := by
    unfold LocalEpsTreeTraversal.write_node
    rw [if_neg (by omega)]
  have hwd : wit.pre_order_forward fuel0 ws1
      = some (ws1, { wit.allocate_eps_child with position_ := -1 }, false) := by
    unfold LocalEpsTreeTraversal.pre_order_forward LocalEpsTreeTraversal.down_first_child
    simp only [hwnode, Option.some_bind, hty, if_false, hww, Option.map_some', hfc]
    rfl
  obtain ⟨it1, hr1, hrat1⟩ := reader_down fuel0 rs it n (by omega) (by rw [hpos]; exact hn) hty
  rw [hpos] at hrat1
  refine ⟨ws1, it1, { wit.allocate_eps_child with position_ := -1 }, ?_, hrat1, ?_, hmod⟩
  · intro k
    rw [copyLoop]
    simp only [Bool.false_eq_true, if_false, hnode, Option.some_bind, hset, hwd, hr1]
  · refine ⟨by show (-1 : Int) < 0; decide, ?_⟩
    show (LocalEpsTreeTraversal.allocate_eps_child wit).eps_node_ = epsNode wid (-1) 0
    unfold LocalEpsTreeTraversal.allocate_eps_child epsNode
    simp only [hwpos]

/-- The copy loop from the root of the store `rs`, which holds the tree `t` below its root, onto
the node `wid` of the store `ws`, which has no child: the node gets the type and the value of
the root and the tree `t` below it, made of the slots of the free list and then of new slots,
and the loop ends. -/
theorem copy_tree (fuel0 : Nat) (hf : 2 ≤ fuel0) (rs ws : TreeStorage) (t : FT) (r wn : TreeNode)
    (Lr F : List Nat) (it : ConstLocalEpsTreeTraversal) (wit : LocalEpsTreeTraversal)
    (wid : Int)
    (hr : rs.nodeAt 0 = some r) (hrty : r.type ≠ EMPTY_NODE_LABEL) (hrs : r.right_sib < 0)
    (hrp : r.parent < 0) (hch : Chain rs t r.first_child 0 (-1) 0 Lr r.last_child)
    (hne : t.NoEmpty) (hit : it.position_ = 0) (hwit : wit.position_ = wid) (hw0 : 0 ≤ wid)
    (hwn : ws.nodeAt wid = some wn) (hfc : wn.first_child = -1) (hlc : wn.last_child = -1)
    (hroot : wid = 0 → wn.right_sib < 0 ∧ wn.parent < 0)
    (hF : FreeList ws F) (h0F : 0 ∉ F) (hwF : wid.toNat ∉ F) :
    ∃ (ws1 : TreeStorage) (wit1 : LocalEpsTreeTraversal) (ew : Bool) (cid lastc : Int),
      (∀ k, copyLoop fuel0 rs (k + (2 * t.size + 3)) (it, false) ws (wit, false)
        = some (ws1, wit1, ew)) ∧
      (wid = 0 → ew = true) ∧
      ws1.nodeAt wid = some { wn with type := r.type, value := r.value, first_child := cid,
                                      last_child := lastc } ∧
      Chain ws1 t cid wid (-1) 0 (allocIds F ws.nodes_.length t.size) lastc ∧
      FreeList ws1 (F.drop t.size) ∧
      ws1.nodes_.length = ws.nodes_.length + (t.size - F.length) ∧
      (∀ j : Int, (∀ i ∈ allocIds F ws.nodes_.length t.size, j ≠ (i : Int)) → j ≠ wid →
        ws1.nodeAt j = ws.nodeAt j) ∧
      ws1.parent_ = ws.parent_ ∧ ws1.position_in_parent_ = ws.position_in_parent_ := by
  obtain ⟨ws0, it0, wit0, hloop0, hrat0, hwat0, hmod⟩ :=
    copyLoop_at fuel0 rs ws it wit 0 wid r wn hit (le_refl _) hr hrty hwit hw0 hwn hfc
  obtain ⟨ws0', hmod', hat0, hlen0, hff0, hpar0, hpip0⟩ :=
    modifyNode_spec ws wid (fun x => { x with type := r.type, value := r.value }) wn hwn
  rw [hmod] at hmod'
  cases hmod'
  have hwn0 : ws0.nodeAt wid = some { wn with type := r.type, value := r.value } := by
    rw [hat0 wid, if_pos rfl]
  have hF0 : FreeList ws0 F := by
    apply FreeList_frame ws ws0 F hF hff0
    intro f hf
    rw [hat0 f, if_neg]
    intro h
    apply hwF
    rw [← h]
    simpa using hf
  have hslot : WriterSlot ws0 F wid (-1) :=
    ⟨hw0, h0F, hwF, _, hwn0, hlc, fun _ => ⟨rfl, hfc⟩, fun h => absurd h (by decide)⟩
  have hlw : Leavable ws0 wid := ⟨_, hwn0, hrty, hroot⟩
  have hlr : Leavable rs 0 := ⟨r, hr, hrty, fun _ => ⟨hrs, hrp⟩⟩
  obtain ⟨it1, er, ws1, wit1, ew, cid, lastc, hloop1, hra1, hwa1, hch1, hF1, hlen1, hrel1⟩ :=
    copy_chain fuel0 hf rs t r.first_child 0 (-1) 0 Lr r.last_child it0 ws0 wit0 wid (-1) 0 F
      hne hch hrat0 (le_refl _) hlr hwat0 hslot hlw hF0
  obtain ⟨r', hr', her⟩ := hra1
  rw [if_pos rfl] at her
  subst her
  rw [hlen0] at hch1 hlen1 hrel1
  refine ⟨ws1, wit1, ew, cid, lastc, ?_, ?_, ?_, hch1, hF1, hlen1, ?_,
    by rw [hrel1.2.2.2.1, hpar0], by rw [hrel1.2.2.2.2, hpip0]⟩
  · intro k
    have e : k + (2 * t.size + 3) = ((k + 1) + t.epsLabels.length) + 1 := by
      rw [FT.epsLabels_length]; omega
    rw [e, hloop0, hloop1, copyLoop]
    simp
  · intro h
    obtain ⟨n, _, hn⟩ := hwa1
    rw [if_pos h] at hn
    exact hn
  · have := hrel1.2.1 _ hwn0
    simp only [show ((-1 : Int) < 0) from by decide, if_true] at this
    exact this
  · intro j hj hjw
    by_cases hjneg : j < 0
    · rw [nodeAt_neg _ _ hjneg, nodeAt_neg _ _ hjneg]
    rw [hrel1.1 j hj hjw (by omega), hat0 j, if_neg hjw]

/-- The test `chainCheck` is right. -/
theorem chainCheck_sound (s : TreeStorage) (t : FT) :
    ∀ (id p ls ci : Int) (L : List Nat) (last : Int),
      chainCheck s t id p ls ci = some (L, last) → Chain s t id p ls ci L last := by
  induction t with
  | eps =>
    intro id p ls ci L last h
    simp only [chainCheck] at h
    split at h
    · rename_i hid
      simp only [Option.some.injEq, Prod.mk.injEq] at h
      exact ⟨hid, h.1.symm, h.2.symm⟩
    · exact absurd h (by simp)
  | node ty v c sb ihc ihs =>
    intro id p ls ci L last h
    simp only [chainCheck] at h
    split at h
    · rename_i hid
      cases hn : s.nodeAt id with
      | none => rw [hn] at h; exact absurd h (by simp)
      | some n =>
        rw [hn] at h
        simp only [Option.some_bind] at h
        split at h
        · rename_i hf
          cases hc : chainCheck s c n.first_child id (-1) 0 with
          | none => rw [hc] at h; exact absurd h (by simp)
          | some a =>
            rw [hc] at h
            simp only [Option.some_bind] at h
            split at h
            · rename_i hl
              cases hs : chainCheck s sb n.right_sib p id (ci + 1) with
              | none => rw [hs] at h; exact absurd h (by simp)
              | some b =>
                rw [hs] at h
                simp only [Option.map_some', Option.some.injEq, Prod.mk.injEq] at h
                obtain ⟨a1, a2⟩ := a
                obtain ⟨b1, b2⟩ := b
                simp only [] at h hl
                subst hl
                refine ⟨hid, n, a1, b1, hn, hf.1, hf.2.1, hf.2.2.1, hf.2.2.2.1, hf.2.2.2.2,
                  ihc _ _ _ _ _ _ hc, ?_, h.1.symm⟩
                rw [← h.2]
                exact ihs _ _ _ _ _ _ hs
            · exact absurd h (by simp)
        · exact absurd h (by simp)
    · exact absurd h (by simp)

/-- The test `holdsCheck` is right. -/
theorem holdsCheck_sound (s : TreeStorage) (ty v : Int) (t : FT) (L : List Nat)
    (h : holdsCheck s ty v t = some L) : Holds s ty v t L := by
  unfold holdsCheck at h
  cases hr : s.nodeAt 0 with
  | none => rw [hr] at h; exact absurd h (by simp)
  | some r =>
    rw [hr] at h
    simp only [Option.some_bind] at h
    split at h
    · rename_i hf
      cases hc : chainCheck s t r.first_child 0 (-1) 0 with
      | none => rw [hc] at h; exact absurd h (by simp)
      | some a =>
        rw [hc] at h
        simp only [Option.some_bind] at h
        split at h
        · rename_i hl
          obtain ⟨a1, a2⟩ := a
          simp only [Option.some.injEq] at h hl
          subst h hl
          exact ⟨r, hr, hf.1, hf.2.1, hf.2.2.1, hf.2.2.2, chainCheck_sound _ _ _ _ _ _ _ _ hc⟩
        · exact absurd h (by simp)
    · exact absurd h (by simp)

/-- The store that `Canonicalize` makes from a store that holds a tree: it holds the same tree
at the nodes 1, 2, ... in pre-order, has no other slot, and its root is the root `r0` of a new
store with the type and the value of the old root. -/
theorem Canonicalize_spec (m : Memory) (fuel : Nat) (s tmp : TreeStorage) (ty v : Int) (t : FT)
    (L : List Nat) (h : Holds s ty v t L) (hty : ty ≠ EMPTY_NODE_LABEL) (hne : t.NoEmpty)
    (htmp : TreeStorage.createAt m s.parent_ s.position_in_parent_ = some tmp)
    (hfuel : 2 * t.size + 3 ≤ fuel) :
    ∃ (s1 : TreeStorage) (r0 : TreeNode) (cid lastc : Int),
      s.Canonicalize m fuel = some s1 ∧ tmp.nodes_ = [r0] ∧ r0.right_sib < 0 ∧ r0.parent < 0 ∧
      s1.nodeAt 0 = some { r0 with type := ty, value := v, first_child := cid,
                                   last_child := lastc } ∧
      Chain s1 t cid 0 (-1) 0 (List.range' 1 t.size) lastc ∧
      s1.nodes_.length = t.size + 1 ∧ s1.first_free_node_ = -1 ∧ s1.parent_ = s.parent_ ∧
      s1.position_in_parent_ = s.position_in_parent_ := by
  obtain ⟨r, hr, hrty, hrv, hrs, hrp, hch⟩ := h
  obtain ⟨r0, hnodes, hfc, hlc, hrs0, hrp0, hff, hpar, hpip⟩ := createAt_spec m _ _ tmp htmp
  have hr0 : tmp.nodeAt 0 = some r0 := by
    simp [TreeStorage.nodeAt, hnodes]
  have hF : FreeList tmp [] := ⟨by simp [FreeChain, hff], List.nodup_nil⟩
  obtain ⟨ws1, wit1, ew, cid, lastc, hloop, hew, hroot, hch1, hF1, hlen1, _, hpar1, hpip1⟩ :=
    copy_tree fuel (by omega) s tmp t r r0 L [] (ConstLocalEpsTreeTraversal.create 0)
      (LocalEpsTreeTraversal.create 0) 0 hr (by rw [hrty]; exact hty) hrs hrp hch hne rfl rfl
      (le_refl _) hr0 hfc hlc (fun _ => ⟨hrs0, hrp0⟩) hF (by simp) (by simp)
  have hew := hew rfl
  subst hew
  have hlen : tmp.nodes_.length = 1 := by rw [hnodes]; rfl
  rw [hlen, allocIds_nil] at hch1
  refine ⟨ws1, r0, cid, lastc, ?_, hnodes, hrs0, hrp0, ?_, hch1, ?_, ?_,
    by rw [hpar1, hpar], by rw [hpip1, hpip]⟩
  · unfold TreeStorage.Canonicalize
    rw [htmp]
    simp only [Option.some_bind]
    obtain ⟨k, hk⟩ : ∃ k, fuel = k + (2 * t.size + 3) := ⟨fuel - (2 * t.size + 3), by omega⟩
    have := hloop k
    rw [← hk] at this
    rw [this]
    simp
  · rw [hroot, hrty, hrv]
  · rw [hlen1, hlen]
    simp only [List.length_nil]
    omega
  · simpa [FreeChain] using hF1.1

/-- Two stores that hold the same tree at the nodes 1, 2, ... and have the same root, no other
slot and the same parent are equal. -/
theorem dense_store_unique (s1 s2 : TreeStorage) (t : FT) (r0 : TreeNode) (ty v : Int)
    (cid lastc cid2 lastc2 : Int)
    (h1 : s1.nodeAt 0 = some { r0 with type := ty, value := v, first_child := cid,
                                       last_child := lastc })
    (h2 : s2.nodeAt 0 = some { r0 with type := ty, value := v, first_child := cid2,
                                       last_child := lastc2 })
    (hc1 : Chain s1 t cid 0 (-1) 0 (List.range' 1 t.size) lastc)
    (hc2 : Chain s2 t cid2 0 (-1) 0 (List.range' 1 t.size) lastc2)
    (hl1 : s1.nodes_.length = t.size + 1) (hl2 : s2.nodes_.length = t.size + 1)
    (hf : s1.first_free_node_ = s2.first_free_node_) (hp : s1.parent_ = s2.parent_)
    (hq : s1.position_in_parent_ = s2.position_in_parent_) : s1 = s2 := by
  have hcid : cid = cid2 := by
    rw [Chain_head _ _ _ _ _ _ _ _ hc1, Chain_head _ _ _ _ _ _ _ _ hc2]
  subst hcid
  obtain ⟨hlast, hnodes⟩ := Chain_unique s1 s2 t _ _ _ _ _ _ _ hc1 hc2
  subst hlast
  apply store_ext s1 s2 _ hf hp hq
  intro j
  rcases Nat.eq_zero_or_pos j with h0 | h0
  · subst h0
    exact h1.trans h2.symm
  · by_cases hj : j < t.size + 1
    · exact (hnodes j (by rw [List.mem_range'_1]; omega)).symm
    · rw [nodeAt_natCast, nodeAt_natCast, List.getElem?_eq_none (by omega),
        List.getElem?_eq_none (by omega)]

/-! ## Replacing a part of a tree -/

/-- The part of a chain that starts at one of its nodes `k` is a chain under the parent `pk` of
`k` after the left sibling `lsk`; and when a store links another chain at this place and keeps
the other nodes, it holds the tree with the part replaced. -/
theorem Chain_graft (s : TreeStorage) (k : Nat) (T : FT) :
    ∀ (id p ls ci : Int) (L : List Nat) (last : Int),
      Chain s T id p ls ci L last → L.Nodup → k ∈ L → p.toNat ∉ L → 0 ≤ p →
      (ls < 0 ∨ ls.toNat ∉ L) →
      ∃ (sub : FT) (pk lsk cik lastk : Int) (pre Lold post : List Nat),
        T.subAt L k = some sub ∧ L = pre ++ Lold ++ post ∧
        Chain s sub (k : Int) pk lsk cik Lold lastk ∧
        ((pk = p ∧ lsk = ls) ∨ (pk = p ∧ 0 < lsk ∧ lsk.toNat ∈ pre) ∨
          (0 < pk ∧ pk.toNat ∈ pre ∧ (lsk = -1 ∨ (0 < lsk ∧ lsk.toNat ∈ pre)))) ∧
        (pk = p → lastk = last ∧ (lsk = ls → (k : Int) = id) ∧ (lsk ≠ ls → (k : Int) ≠ id)) ∧
        (pk ≠ p → ∃ pn, s.nodeAt pk = some pn ∧ pn.last_child = lastk ∧
          (lsk < 0 → pn.first_child = (k : Int)) ∧ (0 ≤ lsk → 0 ≤ pn.first_child) ∧
          (0 ≤ lsk → pn.first_child ≠ (k : Int))) ∧
        (¬ (pk = p ∧ lsk = ls) → 0 < lsk →
          ∃ ln, s.nodeAt lsk = some ln ∧ ln.right_sib = (k : Int)) ∧
        ∀ (s1 : TreeStorage) (sub1 : FT) (k1 lastk1 : Int) (L1 : List Nat),
          Chain s1 sub1 k1 pk lsk cik L1 lastk1 → Glue s s1 (pre ++ post) pk lsk k1 lastk1 →
          Chain s1 (T.graft L k sub1) (if pk = p ∧ lsk = ls then k1 else id) p ls ci
            (pre ++ L1 ++ post) (if pk = p then lastk1 else last) := by
  induction T with
  | eps =>
    intro id p ls ci L last h _ hk
    rw [h.2.1] at hk
    simp at hk
  | node ty v c sb ihc ihs =>
    intro id p ls ci L last h hnd hk hpL hp hls
    have hT := h
    obtain ⟨hid, n, Lc, Ls, hn, hnt, hnv, hnp, hnl, hnc, hcc, hcs, hL⟩ := h
    subst hL
    have hidn : ((id.toNat : Nat) : Int) = id := Int.toNat_of_nonneg (le_of_lt hid)
    have hlenc : Lc.length = c.size := Chain_length _ _ _ _ _ _ _ _ hcc
    have htake : (Lc ++ Ls).take c.size = Lc := by
      rw [← hlenc]; simp
    have hdrop : (Lc ++ Ls).drop c.size = Ls := by
      rw [← hlenc]; simp
    have hnd' := List.nodup_cons.mp hnd
    have hndcs := List.nodup_append.mp hnd'.2
    have hidLc : id.toNat ∉ Lc := fun h => hnd'.1 (List.mem_append_left _ h)
    have hidLs : id.toNat ∉ Ls := fun h => hnd'.1 (List.mem_append_right _ h)
    by_cases hkid : id.toNat = k
    · -- the part is the whole chain
      refine ⟨.node ty v c sb, p, ls, ci, last, [], id.toNat :: (Lc ++ Ls), [], ?_, by simp, ?_,
        Or.inl ⟨rfl, rfl⟩, fun _ => ⟨rfl, fun _ => by rw [← hkid, hidn], fun h => absurd rfl h⟩,
        fun h => absurd rfl h, fun h => absurd ⟨rfl, rfl⟩ h, ?_⟩
      · simp [FT.subAt, hkid]
      · rw [← hkid, hidn]; exact hT
      · intro s1 sub1 k1 lastk1 L1 h1 _
        simp only [FT.graft, hkid, if_true, and_self, List.nil_append, List.append_nil]
        exact h1
    · have hk' : k ∈ Lc ∨ k ∈ Ls := by
        simp only [List.mem_cons, List.mem_append] at hk
        rcases hk with hk | hk
        · exact absurd hk.symm hkid
        · exact hk
      by_cases hkc : k ∈ Lc
      · -- the part is below the first node
        obtain ⟨sub, pk, lsk, cik, lastk, pre, Lold, post, hsub, hLc, hch, hcase, hg1, hg2, hg3,
            hclose⟩ :=
          ihc n.first_child id (-1) 0 Lc n.last_child hcc hndcs.1 hkc hidLc (le_of_lt hid)
            (Or.inl (by decide))
        have hpkpre : 0 < pk ∧ (pk.toNat = id.toNat ∨ pk.toNat ∈ pre) := by
          rcases hcase with ⟨h1, _⟩ | ⟨h1, _⟩ | ⟨h1, h2, _⟩
          · exact ⟨by omega, Or.inl (by rw [h1])⟩
          · exact ⟨by omega, Or.inl (by rw [h1])⟩
          · exact ⟨h1, Or.inr h2⟩
        have hlsk : lsk = -1 ∨ (0 < lsk ∧ lsk.toNat ∈ pre) := by
          rcases hcase with ⟨_, h2⟩ | ⟨_, h2, h3⟩ | ⟨_, _, h3⟩
          · exact Or.inl h2
          · exact Or.inr ⟨h2, h3⟩
          · exact h3
        have hpreLc : ∀ i ∈ pre, i ∈ Lc := fun i hi => by
          rw [hLc]; simp [hi]
        have hpostLc : ∀ i ∈ post, i ∈ Lc := fun i hi => by
          rw [hLc]; simp [hi]
        have hpkp : pk ≠ p := by
          intro h
          apply hpL
          rw [← h]
          rcases hpkpre.2 with h1 | h1
          · rw [h1]; exact List.mem_cons_self _ _
          · exact List.mem_cons_of_mem _ (List.mem_append_left _ (hpreLc _ h1))
        have hlsid0 : lsk ≠ id := by
          intro h
          rcases hlsk with h2 | h2
          · omega
          · apply hidLc
            rw [← h]
            exact hpreLc _ h2.2
        have hG2 : pk ≠ p → ∃ pn, s.nodeAt pk = some pn ∧ pn.last_child = lastk ∧
            (lsk < 0 → pn.first_child = (k : Int)) ∧ (0 ≤ lsk → 0 ≤ pn.first_child) ∧
            (0 ≤ lsk → pn.first_child ≠ (k : Int)) := by
          intro _
          by_cases hpk : pk = id
          · obtain ⟨h1, h2, h2'⟩ := hg1 hpk
            refine ⟨n, by rw [hpk]; exact hn, h1.symm, ?_, ?_, ?_⟩
            rotate_left 2
            · intro h3 h4
              exact h2' (by omega) h4.symm
            · intro h3
              rcases hlsk with h4 | h4
              · exact (h2 h4).symm
              · omega
            · intro h3
              rcases hlsk with h4 | h4
              · omega
              · have := hcc
                cases c with
                | eps => rw [hcc.2.1] at hkc; simp at hkc
                | node _ _ _ _ => exact le_of_lt hcc.1
          · exact hg2 hpk
        have hG3 : ¬ (pk = p ∧ lsk = ls) → 0 < lsk →
            ∃ ln, s.nodeAt lsk = some ln ∧ ln.right_sib = (k : Int) := by
          intro _ h0
          apply hg3 _ h0
          intro h
          omega
        refine ⟨sub, pk, lsk, cik, lastk, id.toNat :: pre, Lold, post ++ Ls, ?_, ?_, hch, ?_,
          fun h => absurd h hpkp, hG2, hG3, ?_⟩
        · simp only [FT.subAt, hkid, if_false, htake, hkc, if_true]
          exact hsub
        · rw [hLc]; simp
        · right; right
          refine ⟨hpkpre.1, ?_, ?_⟩
          · rcases hpkpre.2 with h1 | h1
            · rw [h1]; exact List.mem_cons_self _ _
            · exact List.mem_cons_of_mem _ h1
          · rcases hlsk with h1 | h1
            · exact Or.inl h1
            · exact Or.inr ⟨h1.1, List.mem_cons_of_mem _ h1.2⟩
        · intro s1 sub1 k1 lastk1 L1 h1 hglue
          have hglue_c : Glue s s1 (pre ++ post) pk lsk k1 lastk1 := by
            refine ⟨fun j hj h2 h3 => hglue.1 j ?_ h2 h3, hglue.2.1, hglue.2.2⟩
            simp only [List.mem_append, List.mem_cons] at hj ⊢
            rcases hj with hj | hj
            · exact Or.inl (Or.inr hj)
            · exact Or.inr (Or.inl hj)
          have hc1 := hclose s1 sub1 k1 lastk1 L1 h1 hglue_c
          have hlsid : lsk ≠ id := by
            intro h
            rcases hlsk with h2 | h2
            · omega
            · apply hidLc
              rw [← h]
              exact hpreLc _ h2.2
          -- the first node in the new store
          have hnode : ∃ n1, s1.nodeAt id = some n1 ∧ n1.type = ty ∧ n1.value = v ∧
              n1.parent = p ∧ n1.left_sib = ls ∧ n1.child_index = ci ∧
              n1.right_sib = n.right_sib ∧
              n1.first_child = (if pk = id ∧ lsk = -1 then k1 else n.first_child) ∧
              n1.last_child = (if pk = id then lastk1 else n.last_child) := by
            by_cases hpk : pk = id
            · have := hglue.2.1 n (by rw [hpk]; exact hn)
              rw [hpk] at this
              refine ⟨_, this, hnt, hnv, hnp, hnl, hnc, rfl, ?_, ?_⟩
              · simp only [hpk, true_and]
                rcases hlsk with h2 | h2
                · simp [h2]
                · have h3 : ¬ lsk < 0 := by omega
                  have h4 : lsk ≠ -1 := by omega
                  simp [h3, h4]
              · simp [hpk]
            · have := hglue.1 id.toNat (by simp) (by rw [hidn]; exact fun h => hpk h.symm)
                (by rw [hidn]; exact fun h => hlsid h.symm)
              rw [hidn] at this
              refine ⟨n, by rw [this, hn], hnt, hnv, hnp, hnl, hnc, rfl, ?_, ?_⟩
              · simp [hpk]
              · simp [hpk]
          obtain ⟨n1, hn1, e1, e2, e3, e4, e5, e6, e7, e8⟩ := hnode
          have hsb : Chain s1 sb n.right_sib p id (ci + 1) Ls last := by
            apply Chain_frame s s1 sb _ _ _ _ _ _ hcs
            intro i hi
            apply hglue.1 i (by simp [hi])
            · intro h
              have : pk.toNat = i := by omega
              rcases hpkpre.2 with h2 | h2
              · rw [h2] at this; rw [this] at hidLs; exact hidLs hi
              · rw [this] at h2
                exact hndcs.2.2 (hpreLc _ h2) hi
            · intro h
              rcases hlsk with h2 | h2
              · omega
              · have : lsk.toNat = i := by omega
                rw [this] at h2
                exact hndcs.2.2 (hpreLc _ h2.2) hi
          have hcond : ¬ (pk = p ∧ lsk = ls) := fun h => hpkp h.1
          simp only [FT.graft, hkid, if_false, htake, hkc, if_true, hcond, hpkp]
          refine ⟨hid, n1, pre ++ L1 ++ post, Ls, hn1, e1, e2, e3, e4, e5, ?_, ?_, by simp⟩
          · rw [e7, e8]
            exact hc1
          · rw [e6]
            exact hsb
      · -- the part is to the right of the first node
        have hks : k ∈ Ls := hk'.resolve_left hkc
        obtain ⟨sub, pk, lsk, cik, lastk, pre, Lold, post, hsub, hLs, hch, hcase, hg1, hg2, hg3,
            hclose⟩ :=
          ihs n.right_sib p id (ci + 1) Ls last hcs hndcs.2.1 hks
            (fun h => hpL (List.mem_cons_of_mem _ (List.mem_append_right _ h))) hp
            (Or.inr hidLs)
        have hpreLs : ∀ i ∈ pre, i ∈ Ls := fun i hi => by
          rw [hLs]; simp [hi]
        have hpostLs : ∀ i ∈ post, i ∈ Ls := fun i hi => by
          rw [hLs]; simp [hi]
        have hpk : pk = p ∨ (0 < pk ∧ pk.toNat ∈ pre) := by
          rcases hcase with ⟨h1, _⟩ | ⟨h1, _⟩ | ⟨h1, h2, _⟩
          · exact Or.inl h1
          · exact Or.inl h1
          · exact Or.inr ⟨h1, h2⟩
        have hpkid : pk ≠ id := by
          intro h
          rcases hpk with h1 | h1
          · apply hpL
            rw [← h1, h]
            exact List.mem_cons_self _ _
          · apply hidLs
            rw [← h]
            exact hpreLs _ h1.2
        have hlsk : (lsk = id ∧ pk = p) ∨ lsk = -1 ∨ (0 < lsk ∧ lsk.toNat ∈ pre) := by
          rcases hcase with ⟨h1, h2⟩ | ⟨_, h2, h3⟩ | ⟨_, _, h3⟩
          · exact Or.inl ⟨h2, h1⟩
          · exact Or.inr (Or.inr ⟨h2, h3⟩)
          · exact Or.inr h3
        have hlsls : lsk = ls → ¬ pk = p := by
          intro h hpkp
          rcases hcase with ⟨_, h2⟩ | ⟨_, h2, h3⟩ | ⟨h1, h2, _⟩
          · rcases hls with h4 | h4
            · omega
            · apply h4
              rw [← h, h2]
              exact List.mem_cons_self _ _
          · rcases hls with h4 | h4
            · omega
            · apply h4
              rw [← h]
              exact List.mem_cons_of_mem _ (List.mem_append_right _ (hpreLs _ h3))
          · apply hpL
            rw [← hpkp]
            exact List.mem_cons_of_mem _ (List.mem_append_right _ (hpreLs _ h2))
        have hG1 : pk = p → lastk = last ∧ (lsk = ls → (k : Int) = id) ∧
            (lsk ≠ ls → (k : Int) ≠ id) := by
          intro hpkp
          refine ⟨(hg1 hpkp).1, fun h => absurd hpkp (hlsls h), fun _ h => hidLs ?_⟩
          have : id.toNat = k := by omega
          rw [this]; exact hks
        have hG3 : ¬ (pk = p ∧ lsk = ls) → 0 < lsk →
            ∃ ln, s.nodeAt lsk = some ln ∧ ln.right_sib = (k : Int) := by
          intro _ h0
          by_cases hl : lsk = id
          · have hpkp : pk = p := by
              rcases hlsk with h2 | h2 | h2
              · exact h2.2
              · omega
              · exfalso
                apply hidLs
                rw [← hl]
                exact hpreLs _ h2.2
            exact ⟨n, by rw [hl]; exact hn, ((hg1 hpkp).2.1 hl).symm⟩
          · exact hg3 (fun h => hl h.2) h0
        refine ⟨sub, pk, lsk, cik, lastk, id.toNat :: (Lc ++ pre), Lold, post, ?_, ?_, hch, ?_,
          hG1, hg2, hG3, ?_⟩
        · simp only [FT.subAt, hkid, if_false, htake, hkc, hdrop]
          exact hsub
        · rw [hLs]; simp
        · rcases hcase with ⟨h1, h2⟩ | ⟨h1, h2, h3⟩ | ⟨h1, h2, h3⟩
          · right; left
            exact ⟨h1, by omega, by rw [h2]; exact List.mem_cons_self _ _⟩
          · right; left
            exact ⟨h1, h2, List.mem_cons_of_mem _ (List.mem_append_right _ h3)⟩
          · right; right
            refine ⟨h1, List.mem_cons_of_mem _ (List.mem_append_right _ h2), ?_⟩
            rcases h3 with h3 | h3
            · exact Or.inl h3
            · exact Or.inr ⟨h3.1, List.mem_cons_of_mem _ (List.mem_append_right _ h3.2)⟩
        · intro s1 sub1 k1 lastk1 L1 h1 hglue
          have hglue_s : Glue s s1 (pre ++ post) pk lsk k1 lastk1 := by
            refine ⟨fun j hj h2 h3 => hglue.1 j ?_ h2 h3, hglue.2.1, hglue.2.2⟩
            simp only [List.mem_append, List.mem_cons] at hj ⊢
            rcases hj with hj | hj
            · exact Or.inl (Or.inr (Or.inr hj))
            · exact Or.inr hj
          have hs1 := hclose s1 sub1 k1 lastk1 L1 h1 hglue_s
          have hnode : ∃ n1, s1.nodeAt id = some n1 ∧ n1.type = ty ∧ n1.value = v ∧
              n1.parent = p ∧ n1.left_sib = ls ∧ n1.child_index = ci ∧
              n1.first_child = n.first_child ∧ n1.last_child = n.last_child ∧
              n1.right_sib = (if pk = p ∧ lsk = id then k1 else n.right_sib) := by
            by_cases hl : lsk = id
            · have hpkp : pk = p := by
                rcases hlsk with h2 | h2 | h2
                · exact h2.2
                · omega
                · exfalso
                  apply hidLs
                  rw [← hl]
                  exact hpreLs _ h2.2
              have := hglue.2.2 n (by omega) (by rw [hl]; exact hn)
              rw [hl] at this
              exact ⟨_, this, hnt, hnv, hnp, hnl, hnc, rfl, rfl, by simp [hl, hpkp]⟩
            · have := hglue.1 id.toNat (by simp) (by rw [hidn]; exact fun h => hpkid h.symm)
                (by rw [hidn]; exact fun h => hl h.symm)
              rw [hidn] at this
              exact ⟨n, by rw [this, hn], hnt, hnv, hnp, hnl, hnc, rfl, rfl, by simp [hl]⟩
          obtain ⟨n1, hn1, e1, e2, e3, e4, e5, e6, e7, e8⟩ := hnode
          have hc : Chain s1 c n.first_child id (-1) 0 Lc n.last_child := by
            apply Chain_frame s s1 c _ _ _ _ _ _ hcc
            intro i hi
            apply hglue.1 i (by simp [hi])
            · intro h
              rcases hpk with h2 | h2
              · apply hpL
                rw [← h2, ← h]
                simp [hi]
              · have : pk.toNat = i := by omega
                rw [this] at h2
                exact hndcs.2.2 hi (hpreLs _ h2.2)
            · intro h
              rcases hlsk with h2 | h2 | h2
              · apply hidLc
                rw [← h2.1, ← h]
                simpa using hi
              · omega
              · have : lsk.toNat = i := by omega
                rw [this] at h2
                exact hndcs.2.2 hi (hpreLs _ h2.2)
          have hcond : ¬ (pk = p ∧ lsk = ls) := fun h => hlsls h.2 h.1
          simp only [FT.graft, hkid, if_false, htake, hkc, hdrop, hcond]
          refine ⟨hid, n1, Lc, pre ++ L1 ++ post, hn1, e1, e2, e3, e4, e5, ?_, ?_, by simp⟩
          · rw [e6, e7]
            exact hc
          · rw [e8]
            exact hs1

/-! ## Removing the children of a node -/

/-- The store after `DeallocateNode(x)` for a node `x` that is not free: the slot is the new
head of the free list, or it was the last slot and is gone; no other element changes. -/
theorem DeallocateNode_spec (s : TreeStorage) (F : List Nat) (hF : FreeList s F) (x : Nat)
    (hx : x < s.nodes_.length) (hxF : x ∉ F) :
    ∃ (s1 : TreeStorage) (F1 : List Nat), s.DeallocateNode x = some s1 ∧ FreeList s1 F1 ∧
      (∀ f ∈ F1, f = x ∨ f ∈ F) ∧ (∀ f ∈ F, f ∈ F1) ∧
      F1.length + s.nodes_.length = F.length + 1 + s1.nodes_.length ∧
      s1.nodes_.length ≤ s.nodes_.length ∧
      (∀ j : Int, j ≠ (x : Int) → s1.nodeAt j = s.nodeAt j) ∧
      (x ∈ F1 ∨ s1.nodes_.length ≤ x) ∧
      s1.parent_ = s.parent_ ∧ s1.position_in_parent_ = s.position_in_parent_ := by
  have hFlt := FreeList_lt s F hF
  by_cases hlast : x + 1 = s.nodes_.length
  · refine ⟨{ s with nodes_ := s.nodes_.dropLast }, F, ?_, ?_, fun f hf => Or.inr hf,
      fun f hf => hf, ?_, ?_, ?_, Or.inr ?_, rfl, rfl⟩
    · simp [TreeStorage.DeallocateNode, hlast]
    · refine FreeList_frame s { s with nodes_ := s.nodes_.dropLast } F hF rfl ?_
      intro f hf
      have h1 := hFlt f hf
      have h2 : f ≠ x := fun h => hxF (h ▸ hf)
      rw [nodeAt_natCast, nodeAt_natCast]
      simp only [List.dropLast_eq_take]
      rw [List.getElem?_take_of_lt (by omega)]
    · simp only [List.length_dropLast]; omega
    · simp only [List.length_dropLast]; omega
    · intro j hj
      by_cases hjneg : j < 0
      · rw [nodeAt_neg _ _ hjneg, nodeAt_neg _ _ hjneg]
      obtain ⟨i, rfl⟩ : ∃ i : Nat, j = (i : Int) := ⟨j.toNat, by omega⟩
      have hi : i ≠ x := fun h => hj (by rw [h])
      rw [nodeAt_natCast, nodeAt_natCast]
      simp only [List.dropLast_eq_take]
      by_cases hlt : i < s.nodes_.length - 1
      · rw [List.getElem?_take_of_lt hlt]
      · rw [List.getElem?_eq_none (by simp; omega), List.getElem?_eq_none (by omega)]
    · simp only [List.length_dropLast]; omega
  · have hnx : ∃ nx, s.nodeAt (x : Int) = some nx := by
      rw [nodeAt_natCast]
      exact ⟨s.nodes_[x], List.getElem?_eq_getElem hx⟩
    obtain ⟨nx, hnx⟩ := hnx
    obtain ⟨s1, hmod, hat, hlen, hff, hpar, hpip⟩ := modifyNode_spec s (x : Int)
      (fun n => { n with parent := TREEPOINTER_DEALLOCATED, type := s.first_free_node_ }) nx hnx
    refine ⟨{ s1 with first_free_node_ := (x : Int) }, x :: F, ?_, ?_, ?_, ?_, ?_, ?_, ?_,
      Or.inl (List.mem_cons_self _ _), hpar, hpip⟩
    · simp [TreeStorage.DeallocateNode, hlast, hmod]
    · refine ⟨⟨rfl, { nx with parent := TREEPOINTER_DEALLOCATED, type := s.first_free_node_ },
        ?_, rfl, ?_⟩, List.nodup_cons.mpr ⟨hxF, hF.2⟩⟩
      · show s1.nodeAt (x : Int) = _
        rw [hat, if_pos rfl]
      · simp only []
        apply FreeChain_frame s _ F _ hF.1
        intro f hf
        show s1.nodeAt (f : Int) = _
        rw [hat, if_neg]
        intro h
        apply hxF
        have : f = x := by omega
        rw [← this]; exact hf
    · intro f hf
      simpa using hf
    · intro f hf
      exact List.mem_cons_of_mem _ hf
    · show (x :: F).length + _ = F.length + 1 + s1.nodes_.length
      rw [hlen]; simp only [List.length_cons]
    · show s1.nodes_.length ≤ _
      omega
    · intro j hj
      show s1.nodeAt j = _
      rw [hat, if_neg hj]

/-- The walk along the first children goes on below the first node of a chain. -/
theorem FT.postFirst_append (s : TreeStorage) (t : FT) :
    ∀ (id p ls ci : Int) (L : List Nat) (last : Int) (rest : List Nat),
      Chain s t id p ls ci L last → t.postFirst (L ++ rest) = t.postFirst L := by
  induction t with
  | eps => intro id p ls ci L last rest _; rfl
  | node ty v c sb ihc _ =>
    intro id p ls ci L last rest h
    obtain ⟨hid, n, Lc, Ls, hn, hnt, hnv, hnp, hnl, hnc, hcc, hcs, hL⟩ := h
    subst hL
    cases c with
    | eps => rfl
    | node ty1 v1 c1 sb1 =>
      show (FT.node ty1 v1 c1 sb1).postFirst (Lc ++ Ls ++ rest) = (FT.node ty1 v1 c1 sb1).postFirst (Lc ++ Ls)
      rw [List.append_assoc, ihc _ _ _ _ _ _ (Ls ++ rest) hcc, ihc _ _ _ _ _ _ Ls hcc]

/-- The loop `while (t_.down_first_child()) { }` from the first node of a chain ends at the node
at which the post-order walk starts. -/
theorem descendFirst_spec (s : TreeStorage) (t : FT) :
    ∀ (id p ls ci : Int) (L : List Nat) (last : Int) (fuel : Nat),
      Chain s t id p ls ci L last → t ≠ .eps → t.size < fuel →
      s.descendFirst fuel id = some (t.postFirst L) := by
  induction t with
  | eps => intro id p ls ci L last fuel _ h; exact absurd rfl h
  | node ty v c sb ihc _ =>
    intro id p ls ci L last fuel h _ hfuel
    obtain ⟨hid, n, Lc, Ls, hn, hnt, hnv, hnp, hnl, hnc, hcc, hcs, hL⟩ := h
    subst hL
    obtain ⟨f, rfl⟩ : ∃ f, fuel = f + 1 := ⟨fuel - 1, by omega⟩
    have hnode : LocalTreeTraversal.node [s] { storage_ := some 0, position_ := id } = some n := by
      simp [LocalTreeTraversal.node, Memory.nodeAt, hn]
    cases c with
    | eps =>
      have hfc : n.first_child = -1 := hcc.1
      simp only [TreeStorage.descendFirst, LocalTreeTraversal.down_first_child, hnode,
        Option.map_some', Option.some_bind, hfc]
      simp only [FT.postFirst]
      have : ((id.toNat : Nat) : Int) = id := Int.toNat_of_nonneg (le_of_lt hid)
      simp [this]
    | node ty1 v1 c1 sb1 =>
      have hfc : 0 < n.first_child := hcc.1
      have hfc' : ¬ n.first_child < 0 := by omega
      simp only [TreeStorage.descendFirst, LocalTreeTraversal.down_first_child, hnode,
        Option.map_some', Option.some_bind, hfc', if_false, if_true]
      rw [ihc _ _ _ _ _ _ f hcc (by simp) (by simp only [FT.size] at hfuel ⊢; omega)]
      show _ = some ((FT.node ty1 v1 c1 sb1).postFirst (Lc ++ Ls))
      rw [FT.postFirst_append s _ _ _ _ _ _ _ Ls hcc]
/-- One round of the loop of `RemoveNodeChildren` at a node `id` that is an element of the
store, is not free and is not the start node: the node is deallocated, and the walk goes to the
node `next`. -/
theorem removeLoop_step (start : Int) (fuel0 : Nat) (s : TreeStorage) (F : List Nat)
    (id next : Int) (n : TreeNode) (hid : 0 < id) (hn : s.nodeAt id = some n)
    (hstart : id ≠ start) (hF : FreeList s F) (hidF : id.toNat ∉ F)
    (hnext : s.post_order_forward fuel0 id = some next) :
    ∃ (s1 : TreeStorage) (F1 : List Nat),
      (∀ k, TreeStorage.removeLoop start fuel0 (k + 1) s id
        = TreeStorage.removeLoop start fuel0 k s1 next) ∧
      FreeList s1 F1 ∧ (∀ f ∈ F1, f = id.toNat ∨ f ∈ F) ∧ (∀ f ∈ F, f ∈ F1) ∧
      F1.length + s.nodes_.length = F.length + 1 + s1.nodes_.length ∧
      s1.nodes_.length ≤ s.nodes_.length ∧
      (∀ j : Int, j ≠ id → s1.nodeAt j = s.nodeAt j) ∧
      (id.toNat ∈ F1 ∨ s1.nodes_.length ≤ id.toNat) ∧
      s1.parent_ = s.parent_ ∧ s1.position_in_parent_ = s.position_in_parent_ := by
  have hidn : ((id.toNat : Nat) : Int) = id := Int.toNat_of_nonneg (le_of_lt hid)
  have hlt := (nodeAt_some_bounds s id n hn).2
  obtain ⟨s1, F1, hde, hF1, h1, h2, h3, h4, h5, h6, h7, h8⟩ :=
    DeallocateNode_spec s F hF id.toNat hlt hidF
  rw [hidn] at h5
  refine ⟨s1, F1, ?_, hF1, h1, h2, h3, h4, h5, h6, h7, h8⟩
  intro k
  rw [TreeStorage.removeLoop]
  simp only [hstart, if_false, hnext, Option.some_bind, show ¬ id < 0 from by omega, hde]

/-- The loop of `RemoveNodeChildren` on a chain: from the node at which the post-order walk of
the chain starts, it deallocates every node of the chain and goes to the parent of the chain. -/
theorem remove_chain (start : Int) (fuel0 : Nat) (t : FT) :
    ∀ (id p ls ci : Int) (L : List Nat) (last : Int) (s : TreeStorage) (F : List Nat),
      Chain s t id p ls ci L last → t ≠ .eps → 0 ≤ p → t.size < fuel0 → FreeList s F →
      L.Nodup → (∀ i ∈ L, i ∉ F) → (∀ i ∈ L, (i : Int) ≠ start) →
      ∃ (s1 : TreeStorage) (F1 : List Nat),
        (∀ k, TreeStorage.removeLoop start fuel0 (k + t.size) s (t.postFirst L)
          = TreeStorage.removeLoop start fuel0 k s1 p) ∧
        FreeList s1 F1 ∧ (∀ f ∈ F1, f ∈ F ∨ f ∈ L) ∧ (∀ f ∈ F, f ∈ F1) ∧
        F1.length + s.nodes_.length = F.length + t.size + s1.nodes_.length ∧
        s1.nodes_.length ≤ s.nodes_.length ∧
        (∀ j : Int, (∀ i ∈ L, j ≠ (i : Int)) → s1.nodeAt j = s.nodeAt j) ∧
        (∀ i ∈ L, i ∈ F1 ∨ s1.nodes_.length ≤ i) ∧
        s1.parent_ = s.parent_ ∧ s1.position_in_parent_ = s.position_in_parent_ := by
  induction t with
  | eps => intro id p ls ci L last s F _ h; exact absurd rfl h
  | node ty v c sb ihc ihs =>
    intro id p ls ci L last s F h _ hp hfuel hF hnd hLF hLstart
    obtain ⟨hid, n, Lc, Ls, hn, hnt, hnv, hnp, hnl, hnc, hcc, hcs, hL⟩ := h
    subst hL
    have hidn : ((id.toNat : Nat) : Int) = id := Int.toNat_of_nonneg (le_of_lt hid)
    have hnd' := List.nodup_cons.mp hnd
    have hndcs := List.nodup_append.mp hnd'.2
    have hidLc : id.toNat ∉ Lc := fun h => hnd'.1 (List.mem_append_left _ h)
    have hidLs : id.toNat ∉ Ls := fun h => hnd'.1 (List.mem_append_right _ h)
    have hidne : ∀ i ∈ Lc ++ Ls, id ≠ (i : Int) := by
      intro i hi h
      apply hnd'.1
      have : id.toNat = i := by omega
      rw [this]; exact hi
    simp only [FT.size] at hfuel
    -- the children
    have hA : ∃ (sa : TreeStorage) (Fa : List Nat),
        (∀ k, TreeStorage.removeLoop start fuel0 (k + c.size) s
            ((FT.node ty v c sb).postFirst (id.toNat :: (Lc ++ Ls)))
          = TreeStorage.removeLoop start fuel0 k sa id) ∧
        FreeList sa Fa ∧ (∀ f ∈ Fa, f ∈ F ∨ f ∈ Lc) ∧ (∀ f ∈ F, f ∈ Fa) ∧
        Fa.length + s.nodes_.length = F.length + c.size + sa.nodes_.length ∧
        sa.nodes_.length ≤ s.nodes_.length ∧
        (∀ j : Int, (∀ i ∈ Lc, j ≠ (i : Int)) → sa.nodeAt j = s.nodeAt j) ∧
        (∀ i ∈ Lc, i ∈ Fa ∨ sa.nodes_.length ≤ i) ∧
        sa.parent_ = s.parent_ ∧ sa.position_in_parent_ = s.position_in_parent_ := by
      cases c with
      | eps =>
        refine ⟨s, F, ?_, hF, fun f hf => Or.inl hf, fun f hf => hf, by simp [FT.size],
          le_refl _, fun _ _ => rfl, ?_, rfl, rfl⟩
        · intro k
          simp only [FT.postFirst, FT.size, Nat.add_zero, hidn]
        · intro i hi
          rw [hcc.2.1] at hi
          simp at hi
      | node ty1 v1 c1 sb1 =>
        obtain ⟨sa, Fa, h1, h2, h3, h4, h5, h6, h7, h8, h9, h10⟩ :=
          ihc n.first_child id (-1) 0 Lc n.last_child s F hcc (by simp) (le_of_lt hid)
            (by omega) hF hndcs.1 (fun i hi => hLF i (by simp [hi]))
            (fun i hi => hLstart i (by simp [hi]))
        refine ⟨sa, Fa, ?_, h2, h3, h4, h5, h6, h7, h8, h9, h10⟩
        intro k
        have : (FT.node ty v (FT.node ty1 v1 c1 sb1) sb).postFirst (id.toNat :: (Lc ++ Ls))
            = (FT.node ty1 v1 c1 sb1).postFirst Lc := by
          show (FT.node ty1 v1 c1 sb1).postFirst (Lc ++ Ls) = _
          exact FT.postFirst_append s _ _ _ _ _ _ _ Ls hcc
        rw [this]
        exact h1 k
    obtain ⟨sa, Fa, hloopA, hFa, hFaS, hFaF, hlenA, hleA, hfrA, hgoneA, hparA, hpipA⟩ := hA
    -- the node itself
    have hna : sa.nodeAt id = some n := by
      rw [hfrA id (fun i hi => hidne i (List.mem_append_left _ hi)), hn]
    have hidFa : id.toNat ∉ Fa := by
      intro h
      rcases hFaS _ h with h1 | h1
      · exact hLF _ (List.mem_cons_self _ _) h1
      · exact hidLc h1
    have hsbA : Chain sa sb n.right_sib p id (ci + 1) Ls last := by
      apply Chain_frame s sa sb _ _ _ _ _ _ hcs
      intro i hi
      apply hfrA
      intro i' hi' h
      have : i = i' := by omega
      subst this
      exact hndcs.2.2 hi' hi
    have hnodeA : LocalTreeTraversal.node [sa] { storage_ := some 0, position_ := id }
        = some n := by
      simp [LocalTreeTraversal.node, Memory.nodeAt, hna]
    have hnext : sa.post_order_forward fuel0 id = some (if sb = .eps then p else sb.postFirst Ls) := by
      unfold TreeStorage.post_order_forward LocalTreeTraversal.right
      simp only [hnodeA, Option.map_some', Option.some_bind]
      cases sb with
      | eps =>
        have hrs : n.right_sib = -1 := hcs.1
        simp only [hrs, show ((-1 : Int) < 0) from by decide, if_true, Bool.false_eq_true,
          if_false, LocalTreeTraversal.up, hnodeA, Option.map_some', hnp,
          show ¬ p < 0 from by omega]
      | node ty1 v1 c1 sb1 =>
        have hrs : 0 < n.right_sib := hcs.1
        simp only [show ¬ n.right_sib < 0 from by omega, if_false, if_true]
        rw [descendFirst_spec sa _ _ _ _ _ _ _ fuel0 hsbA (by simp) (by omega)]
        simp
    obtain ⟨sb1, Fb, hloopB, hFb, hFbS, hFbF, hlenB, hleB, hfrB, hgoneB, hparB, hpipB⟩ :=
      removeLoop_step start fuel0 sa Fa id _ n hid hna
        (by have := hLstart id.toNat (List.mem_cons_self _ _); rw [hidn] at this; exact this)
        hFa hidFa hnext
    -- the right siblings
    cases hsb : sb with
    | eps =>
      subst hsb
      have hLs : Ls = [] := hcs.2.1
      subst hLs
      refine ⟨sb1, Fb, ?_, hFb, ?_, fun f hf => hFbF f (hFaF f hf), ?_, by omega, ?_, ?_,
        by rw [hparB, hparA], by rw [hpipB, hpipA]⟩
      · intro k
        have e : k + (FT.node ty v c FT.eps).size = (k + 1) + c.size := by
          simp only [FT.size]; omega
        rw [e, hloopA, hloopB]
        simp
      · intro f hf
        rcases hFbS f hf with h1 | h1
        · right; rw [h1]; exact List.mem_cons_self _ _
        · rcases hFaS f h1 with h2 | h2
          · exact Or.inl h2
          · right; simp [h2]
      · simp only [FT.size]; omega
      · intro j hj
        have hjid : j ≠ id := by
          have := hj id.toNat (List.mem_cons_self _ _)
          rw [hidn] at this; exact this
        rw [hfrB j hjid]
        exact hfrA j (fun i hi => hj i (by simp [hi]))
      · intro i hi
        simp only [List.append_nil, List.mem_cons] at hi
        rcases hi with hi | hi
        · rw [hi]; exact hgoneB
        · rcases hgoneA i hi with h1 | h1
          · exact Or.inl (hFbF i h1)
          · right; omega
    | node ty1 v1 c1 sb2 =>
      rw [hsb] at hcs hsbA hnext hloopA hloopB ihs hfuel
      have hsbB : Chain sb1 (FT.node ty1 v1 c1 sb2) n.right_sib p id (ci + 1) Ls last := by
        apply Chain_frame sa sb1 _ _ _ _ _ _ _ hsbA
        intro i hi
        apply hfrB
        intro h
        exact hidne i (List.mem_append_right _ hi) h.symm
      have hLsFb : ∀ i ∈ Ls, i ∉ Fb := by
        intro i hi h
        rcases hFbS i h with h1 | h1
        · rw [h1] at hi; exact hidLs hi
        · rcases hFaS i h1 with h2 | h2
          · exact hLF i (by simp [hi]) h2
          · exact hndcs.2.2 h2 hi
      obtain ⟨sc, Fc, hloopC, hFc, hFcS, hFcF, hlenC, hleC, hfrC, hgoneC, hparC, hpipC⟩ :=
        ihs n.right_sib p id (ci + 1) Ls last sb1 Fb hsbB (by simp) hp
          (by simp only [FT.size] at hfuel ⊢; omega) hFb hndcs.2.1 hLsFb
          (fun i hi => hLstart i (by simp [hi]))
      refine ⟨sc, Fc, ?_, hFc, ?_, fun f hf => hFcF f (hFbF f (hFaF f hf)), ?_, by omega,
        ?_, ?_, by rw [hparC, hparB, hparA], by rw [hpipC, hpipB, hpipA]⟩
      · intro k
        have e : k + (FT.node ty v c (FT.node ty1 v1 c1 sb2)).size
            = ((k + (FT.node ty1 v1 c1 sb2).size) + 1) + c.size := by
          simp only [FT.size]; omega
        rw [e, hloopA, hloopB]
        simp only [if_false, reduceCtorEq]
        exact hloopC k
      · intro f hf
        rcases hFcS f hf with h0 | h0
        · rcases hFbS f h0 with h1 | h1
          · right; rw [h1]; exact List.mem_cons_self _ _
          · rcases hFaS f h1 with h2 | h2
            · exact Or.inl h2
            · right; simp [h2]
        · right; simp [h0]
      · simp only [FT.size] at hlenC ⊢; omega
      · intro j hj
        have hjid : j ≠ id := by
          have := hj id.toNat (List.mem_cons_self _ _)
          rw [hidn] at this; exact this
        rw [hfrC j (fun i hi => hj i (by simp [hi])), hfrB j hjid]
        exact hfrA j (fun i hi => hj i (by simp [hi]))
      · intro i hi
        simp only [List.mem_cons, List.mem_append] at hi
        rcases hi with hi | hi | hi
        · rw [hi]
          rcases hgoneB with h1 | h1
          · exact Or.inl (hFcF _ h1)
          · right; omega
        · rcases hgoneA i hi with h1 | h1
          · exact Or.inl (hFcF i (hFbF i h1))
          · right; omega
        · exact hgoneC i hi
/-- The call `RemoveNodeChildren(k)` on a node whose children form the tree `c`: the node has
no child after it, the nodes of `c` are free slots or are gone from the end of the vector, and
no other element changes. -/
theorem RemoveNodeChildren_local (fuel : Nat) (s : TreeStorage) (k : Int) (n : TreeNode)
    (c : FT) (Lc F : List Nat) (hk : 0 ≤ k) (hn : s.nodeAt k = some n)
    (hch : Chain s c n.first_child k (-1) 0 Lc n.last_child) (hnd : Lc.Nodup)
    (hkL : ∀ i ∈ Lc, (i : Int) ≠ k) (hF : FreeList s F) (hLF : ∀ i ∈ Lc, i ∉ F)
    (hkF : k.toNat ∉ F) (hfuel : c.size < fuel) :
    ∃ (s1 : TreeStorage) (F1 : List Nat), s.RemoveNodeChildren fuel k = some s1 ∧
      s1.nodeAt k = some { n with first_child := -1, last_child := -1 } ∧
      FreeList s1 F1 ∧ (∀ f ∈ F1, f ∈ F ∨ f ∈ Lc) ∧ (∀ f ∈ F, f ∈ F1) ∧
      F1.length + s.nodes_.length = F.length + c.size + s1.nodes_.length ∧
      s1.nodes_.length ≤ s.nodes_.length ∧
      (∀ j : Int, (∀ i ∈ Lc, j ≠ (i : Int)) → j ≠ k → s1.nodeAt j = s.nodeAt j) ∧
      (∀ i ∈ Lc, i ∈ F1 ∨ s1.nodes_.length ≤ i) ∧
      s1.parent_ = s.parent_ ∧ s1.position_in_parent_ = s.position_in_parent_ := by
  cases hc : c with
  | eps =>
    subst hc
    obtain ⟨hfc, hLc, hlc⟩ := hch
    subst hLc
    refine ⟨s, F, ?_, ?_, hF, fun f hf => Or.inl hf, fun f hf => hf, by simp [FT.size],
      le_refl _, fun _ _ _ => rfl, by simp, rfl, rfl⟩
    · simp [TreeStorage.RemoveNodeChildren, hn, hfc]
    · rw [hn]
      congr 1
      obtain ⟨a1, a2, a3, a4, a5, a6, a7, a8⟩ := n
      simp only [] at hfc hlc
      subst hfc hlc
      rfl
  | node ty v c1 sb1 =>
    rw [hc] at hch hfuel
    have hfc : 0 < n.first_child := hch.1
    obtain ⟨s0, hmod, hat0, hlen0, hff0, hpar0, hpip0⟩ := modifyNode_spec s k
      (fun x => { x with first_child := -1, last_child := -1 }) n hn
    have hF0 : FreeList s0 F := by
      apply FreeList_frame s s0 F hF hff0
      intro f hf
      rw [hat0, if_neg]
      intro h
      apply hkF
      rw [← h]
      simpa using hf
    have hch0 : Chain s0 (FT.node ty v c1 sb1) n.first_child k (-1) 0 Lc n.last_child := by
      apply Chain_frame s s0 _ _ _ _ _ _ _ hch
      intro i hi
      rw [hat0, if_neg (hkL i hi)]
    obtain ⟨s1, F1, hloop, hF1, h1, h2, h3, h4, h5, h6, h7, h8⟩ :=
      remove_chain k fuel _ n.first_child k (-1) 0 Lc n.last_child s0 F hch0 (by simp) hk hfuel
        hF0 hnd hLF hkL
    refine ⟨s1, F1, ?_, ?_, hF1, h1, h2, by omega, by omega, ?_, h6, by rw [h7, hpar0],
      by rw [h8, hpip0]⟩
    · unfold TreeStorage.RemoveNodeChildren
      simp only [hn, Option.some_bind, show ¬ n.first_child < 0 from by omega, if_false]
      rw [descendFirst_spec s _ _ _ _ _ _ _ fuel hch (by simp) hfuel]
      simp only [Option.some_bind, hmod]
      obtain ⟨k', hk'⟩ : ∃ k', fuel = (k' + 1) + (FT.node ty v c1 sb1).size :=
        ⟨fuel - (FT.node ty v c1 sb1).size - 1, by omega⟩
      have h9 := hloop (k' + 1)
      rw [← hk'] at h9
      rw [h9, TreeStorage.removeLoop]
      simp
    · rw [h5 k (fun i hi h => hkL i hi h.symm), hat0, if_pos rfl]
    · intro j hj hjk
      rw [h5 j hj, hat0, if_neg hjk]

/-! ## Well-formed stores -/

theorem CheckConsistency_eq (m : Memory) (s : TreeStorage) :
    s.CheckConsistency m = s.checkConsistencyAt m 33 := rfl

/-- The last node of a chain is a node of the chain, a child of the parent of the chain, without
a right sibling. -/
theorem Chain_last (s : TreeStorage) (t : FT) :
    ∀ (id p ls ci : Int) (L : List Nat) (last : Int),
      Chain s t id p ls ci L last → t ≠ .eps →
      0 < last ∧ last.toNat ∈ L ∧ ∃ nl, s.nodeAt last = some nl ∧ nl.parent = p ∧
        nl.right_sib = -1 := by
  induction t with
  | eps => intro id p ls ci L last _ h; exact absurd rfl h
  | node ty v c sb _ ihs =>
    intro id p ls ci L last h _
    obtain ⟨hid, n, Lc, Ls, hn, hnt, hnv, hnp, hnl, hnc, hcc, hcs, hL⟩ := h
    subst hL
    cases sb with
    | eps =>
      obtain ⟨h1, _, h3⟩ := hcs
      subst h3
      exact ⟨hid, List.mem_cons_self _ _, n, hn, hnp, h1⟩
    | node ty1 v1 c1 sb1 =>
      obtain ⟨h1, h2, nl, h3⟩ := ihs _ _ _ _ _ _ hcs (by simp)
      exact ⟨h1, List.mem_cons_of_mem _ (List.mem_append_right _ h2), nl, h3⟩

/-- A root with other types, values and children passes the same test. -/
theorem rootIndexOK_frame (m : Memory) (s s1 : TreeStorage) (r r1 : TreeNode)
    (h : rootIndexOK m s r) (hp : s1.parent_ = s.parent_)
    (hq : s1.position_in_parent_ = s.position_in_parent_)
    (hc : r1.child_index = r.child_index) : rootIndexOK m s1 r1 := by
  unfold rootIndexOK at h ⊢
  rw [hp, hq, hc]
  exact h

/-- A store with a new root and a new tree below it is well formed. -/
theorem WF_root (m : Memory) (s s1 : TreeStorage) (ty v : Int) (T : FT) (L F : List Nat)
    (h : WF m s ty v T L F) (r : TreeNode) (hr : s.nodeAt 0 = some r) (ty1 v1 fc lc : Int)
    (T1 : FT) (L1 F1 : List Nat)
    (hr1 : s1.nodeAt 0 = some { r with type := ty1, value := v1, first_child := fc,
                                       last_child := lc })
    (hch : Chain s1 T1 fc 0 (-1) 0 L1 lc) (hF : FreeList s1 F1) (hnd : (L1 ++ F1).Nodup)
    (h0 : 0 ∉ F1) (hlen : L1.length + F1.length + 1 = s1.nodes_.length)
    (hp : s1.parent_ = s.parent_) (hq : s1.position_in_parent_ = s.position_in_parent_) :
    WF m s1 ty1 v1 T1 L1 F1 := by
  obtain ⟨r', hr', _, _, h3, h4, h5, h6, h7, _⟩ := h
  rw [hr] at hr'
  cases hr'
  exact ⟨_, hr1, rfl, rfl, h3, h4, h5, h6, rootIndexOK_frame m s s1 _ _ h7 hp hq rfl, hch, hF,
    hnd, h0, hlen⟩

/-- The part of the tree of a well-formed store that starts at a node `k` other than the root:
it is a chain under the parent of `k`; and a store that links another chain at this place, keeps
the other nodes and has every slot in the tree or in its free list is well formed and holds the
tree with the part replaced. -/
theorem WF_sub (m : Memory) (s : TreeStorage) (ty v : Int) (T : FT) (L F : List Nat)
    (h : WF m s ty v T L F) (k : Nat) (hk : k ∈ L) :
    ∃ (sub : FT) (pk lsk cik lastk : Int) (pre Lold post : List Nat) (pn : TreeNode),
      T.subAt L k = some sub ∧ L = pre ++ Lold ++ post ∧
      Chain s sub (k : Int) pk lsk cik Lold lastk ∧
      (pk = 0 ∨ (0 < pk ∧ pk.toNat ∈ pre)) ∧ (lsk = -1 ∨ (0 < lsk ∧ lsk.toNat ∈ pre)) ∧
      s.nodeAt pk = some pn ∧ pn.last_child = lastk ∧ (lsk < 0 → pn.first_child = (k : Int)) ∧
      (0 ≤ lsk → 0 ≤ pn.first_child) ∧ (0 ≤ lsk → pn.first_child ≠ (k : Int)) ∧
      (0 < lsk → ∃ ln, s.nodeAt lsk = some ln ∧ ln.right_sib = (k : Int)) ∧
      ∀ (s1 : TreeStorage) (sub1 : FT) (k1 lastk1 : Int) (L1 F1 : List Nat),
        Chain s1 sub1 k1 pk lsk cik L1 lastk1 →
        Glue s s1 (0 :: (pre ++ post)) pk lsk k1 lastk1 → FreeList s1 F1 →
        (pre ++ L1 ++ post ++ F1).Nodup → 0 ∉ F1 →
        (pre ++ L1 ++ post).length + F1.length + 1 = s1.nodes_.length →
        s1.parent_ = s.parent_ → s1.position_in_parent_ = s.position_in_parent_ →
        WF m s1 ty v (T.graft L k sub1) (pre ++ L1 ++ post) F1 := by
  obtain ⟨r, hr, hrt, hrv, h3, h4, h5, h6, h7, hch, hF, hnd, h0F, hlen⟩ := h
  have hmem := Chain_mem s T _ _ _ _ _ _ hch (le_refl _)
  have h0L : (0 : Int).toNat ∉ L := by
    intro h
    have := (hmem 0 h).1
    omega
  obtain ⟨sub, pk, lsk, cik, lastk, pre, Lold, post, hsub, hL, hsubc, hcase, hg1, hg2, hg3,
      hclose⟩ :=
    Chain_graft s k T r.first_child 0 (-1) 0 L r.last_child hch (List.nodup_append.mp hnd).1 hk
      h0L (le_refl _) (Or.inl (by decide))
  have hpk : pk = 0 ∨ (0 < pk ∧ pk.toNat ∈ pre) := by
    rcases hcase with ⟨h1, _⟩ | ⟨h1, _⟩ | ⟨h1, h2, _⟩
    · exact Or.inl h1
    · exact Or.inl h1
    · exact Or.inr ⟨h1, h2⟩
  have hlsk : lsk = -1 ∨ (0 < lsk ∧ lsk.toNat ∈ pre) := by
    rcases hcase with ⟨_, h2⟩ | ⟨_, h2, h3⟩ | ⟨_, _, h3⟩
    · exact Or.inl h2
    · exact Or.inr ⟨h2, h3⟩
    · exact h3
  have hpn : ∃ pn, s.nodeAt pk = some pn ∧ pn.last_child = lastk ∧
      (lsk < 0 → pn.first_child = (k : Int)) ∧ (0 ≤ lsk → 0 ≤ pn.first_child) ∧
      (0 ≤ lsk → pn.first_child ≠ (k : Int)) := by
    by_cases hp0 : pk = 0
    · obtain ⟨h1, h2, h2'⟩ := hg1 hp0
      refine ⟨r, by rw [hp0]; exact hr, h1.symm, ?_, ?_, ?_⟩
      rotate_left 2
      · intro h8 h9
        exact h2' (by omega) h9.symm
      · intro hl
        rcases hlsk with h8 | h8
        · exact (h2 h8).symm
        · omega
      · intro hl
        cases T with
        | eps => rw [hch.2.1] at hk; simp at hk
        | node _ _ _ _ => exact le_of_lt hch.1
    · exact hg2 hp0
  obtain ⟨pn, hpn1, hpn2, hpn3, hpn4, hpn5⟩ := hpn
  refine ⟨sub, pk, lsk, cik, lastk, pre, Lold, post, pn, hsub, hL, hsubc, hpk, hlsk, hpn1, hpn2,
    hpn3, hpn4, hpn5, ?_, ?_⟩
  · intro hl
    exact hg3 (fun h => by omega) hl
  · intro s1 sub1 k1 lastk1 L1 F1 hc1 hglue hF1 hnd1 h0F1 hlen1 hp hq
    have hglue' : Glue s s1 (pre ++ post) pk lsk k1 lastk1 :=
      ⟨fun j hj => hglue.1 j (List.mem_cons_of_mem _ hj), hglue.2.1, hglue.2.2⟩
    have hc := hclose s1 sub1 k1 lastk1 L1 hc1 hglue'
    by_cases hp0 : pk = 0
    · have hr1 := hglue.2.1 r (by rw [hp0]; exact hr)
      rw [hp0] at hr1
      refine ⟨_, hr1, hrt, hrv, h3, h4, h5, h6, rootIndexOK_frame m s s1 _ _ h7 hp hq rfl, ?_,
        hF1, hnd1, h0F1, hlen1⟩
      simp only [hp0, true_and, if_true] at hc
      rcases hlsk with h8 | h8
      · simp only [h8, if_true, show ((-1 : Int) < 0) from by decide] at hc ⊢
        exact hc
      · have h9 : lsk ≠ -1 := by omega
        have h10 : ¬ lsk < 0 := by omega
        simp only [h9, if_false, h10] at hc ⊢
        exact hc
    · have hr1 : s1.nodeAt 0 = some r := by
        have := hglue.1 0 (List.mem_cons_self _ _) (fun h => hp0 h.symm)
          (fun h => by rcases hlsk with h8 | h8 <;> omega)
        rw [← hr]
        exact this
      refine ⟨r, hr1, hrt, hrv, h3, h4, h5, h6, rootIndexOK_frame m s s1 _ _ h7 hp hq rfl, ?_,
        hF1, hnd1, h0F1, hlen1⟩
      have hcond : ¬ (pk = 0 ∧ lsk = -1) := fun h => hp0 h.1
      simp only [hcond, if_false, hp0] at hc
      exact hc
/-! ## The consistency check on a well-formed store -/

/-- One call of `CheckNodeConsistencyRecursive` at a node whose links agree: every `CHECK`
passes, and the call returns one plus the numbers of its two recursive calls. -/
theorem check_step (s : TreeStorage) (pnode : Option TreeNode) (depth : Nat) (id : Int)
    (node : TreeNode) (hn : s.nodeAt id = some node)
    (h1 : node.parent ≠ TREEPOINTER_DEALLOCATED)
    (h2 : node.parent ≥ 0 → node.left_sib < 0 →
      ∃ p, s.nodeAt node.parent = some p ∧ p.first_child = id)
    (h3 : node.left_sib < 0 →
      if id = 0 ∧ s.parent_.isSome then
        ∃ pn, pnode = some pn ∧ node.child_index = pn.child_index
      else node.child_index = 0)
    (h4 : node.left_sib ≥ 0 → ∃ l, s.nodeAt node.left_sib = some l ∧ l.right_sib = id ∧
      l.parent = node.parent ∧ l.child_index + 1 = node.child_index)
    (h5 : node.right_sib ≥ 0 → ∃ r, s.nodeAt node.right_sib = some r ∧ r.left_sib = id)
    (h6 : node.parent ≥ 0 → node.right_sib < 0 →
      ∃ p, s.nodeAt node.parent = some p ∧ p.last_child = id)
    (h7 : node.first_child ≥ 0 → ∃ c, s.nodeAt node.first_child = some c ∧ c.parent = id)
    (h8 : node.last_child ≥ 0 → ∃ c, s.nodeAt node.last_child = some c ∧ c.parent = id) :
    s.CheckNodeConsistencyRecursive pnode (depth + 1) id
      = (if node.first_child ≥ 0 then
          s.CheckNodeConsistencyRecursive pnode depth node.first_child
        else some 0).bind fun a =>
        (if node.right_sib ≥ 0 then
          s.CheckNodeConsistencyRecursive pnode depth node.right_sib
        else some 0).map fun b => 1 + a + b := by
  rw [TreeStorage.CheckNodeConsistencyRecursive]
  simp only [hn, Option.some_bind]
  rw [if_neg h1, if_neg, if_neg, if_neg, if_neg, if_neg, if_neg, if_neg]
  · rintro ⟨h, hc⟩
    obtain ⟨c, hc1, hc2⟩ := h8 h
    simp [hc1, hc2] at hc
  · rintro ⟨h, hc⟩
    obtain ⟨c, hc1, hc2⟩ := h7 h
    simp [hc1, hc2] at hc
  · rintro ⟨h, h', hc⟩
    obtain ⟨c, hc1, hc2⟩ := h6 h h'
    simp [hc1, hc2] at hc
  · rintro ⟨h, hc⟩
    obtain ⟨c, hc1, hc2⟩ := h5 h
    simp [hc1, hc2] at hc
  · rintro ⟨h, hc⟩
    obtain ⟨c, hc1, hc2, hc3, hc4⟩ := h4 h
    simp [hc1, hc2, hc3, hc4] at hc
  · rintro ⟨h, hc⟩
    have := h3 h
    by_cases hcond : id = 0 ∧ s.parent_.isSome = true
    · rw [if_pos hcond] at this hc
      obtain ⟨pn, hp1, hp2⟩ := this
      simp [hp1, hp2] at hc
    · rw [if_neg hcond] at this hc
      simp [this] at hc
  · rintro ⟨h, h', hc⟩
    obtain ⟨c, hc1, hc2⟩ := h2 h h'
    simp [hc1, hc2] at hc

/-- The consistency check on a chain passes and returns the number of its nodes. -/
theorem check_chain (s : TreeStorage) (pnode : Option TreeNode) (t : FT) :
    ∀ (id p ls ci : Int) (L : List Nat) (last : Int) (depth : Nat),
      Chain s t id p ls ci L last → t ≠ .eps → 0 ≤ p → t.height ≤ depth →
      (∃ pn, s.nodeAt p = some pn ∧ pn.last_child = last ∧ (ls < 0 → pn.first_child = id)) →
      (ls < 0 → ci = 0) →
      (0 ≤ ls → ∃ l, s.nodeAt ls = some l ∧ l.right_sib = id ∧ l.parent = p ∧
        l.child_index + 1 = ci) →
      s.CheckNodeConsistencyRecursive pnode depth id = some (t.size : Int) := by
  induction t with
  | eps => intro id p ls ci L last depth _ h; exact absurd rfl h
  | node ty v c sb ihc ihs =>
    intro id p ls ci L last depth h _ hp hdepth hpn hci hl
    have hT := h
    obtain ⟨hid, n, Lc, Ls, hn, hnt, hnv, hnp, hnl, hnc, hcc, hcs, hL⟩ := h
    obtain ⟨d, rfl⟩ : ∃ d, depth = d + 1 := ⟨depth - 1, by simp only [FT.height] at hdepth; omega⟩
    simp only [FT.height] at hdepth
    obtain ⟨pn, hpn1, hpn2, hpn3⟩ := hpn
    rw [check_step s pnode d id n hn]
    · -- the two recursive calls
      have hA : (if n.first_child ≥ 0 then
            s.CheckNodeConsistencyRecursive pnode d n.first_child else some 0)
          = some (c.size : Int) := by
        cases c with
        | eps =>
          have : n.first_child = -1 := hcc.1
          simp [this, FT.size]
        | node ty1 v1 c1 sb1 =>
          have h0 : 0 < n.first_child := hcc.1
          rw [if_pos (by omega)]
          apply ihc _ _ _ _ _ _ d hcc (by simp) (le_of_lt hid) (by omega)
          · exact ⟨n, hn, rfl, fun _ => rfl⟩
          · intro _; rfl
          · intro h; exact absurd h (by decide)
      have hB : (if n.right_sib ≥ 0 then
            s.CheckNodeConsistencyRecursive pnode d n.right_sib else some 0)
          = some (sb.size : Int) := by
        cases sb with
        | eps =>
          have : n.right_sib = -1 := hcs.1
          simp [this, FT.size]
        | node ty1 v1 c1 sb1 =>
          have h0 : 0 < n.right_sib := hcs.1
          rw [if_pos (by omega)]
          apply ihs _ _ _ _ _ _ d hcs (by simp) hp (by omega)
          · exact ⟨pn, hpn1, hpn2, fun h => by omega⟩
          · intro h; omega
          · intro _
            exact ⟨n, hn, rfl, hnp, by rw [hnc]⟩
      rw [hA, hB]
      simp only [Option.some_bind, Option.map_some', FT.size]
      exact congrArg some (by omega)
    · rw [hnp]; unfold TREEPOINTER_DEALLOCATED; omega
    · intro _ h
      rw [hnp]
      rw [hnl] at h
      exact ⟨pn, hpn1, hpn3 h⟩
    · intro h
      rw [hnl] at h
      rw [if_neg (by omega), hnc]
      exact hci h
    · intro h
      rw [hnl] at h ⊢
      obtain ⟨l, h1, h2, h3, h4⟩ := hl h
      exact ⟨l, h1, h2, by rw [h3, hnp], by rw [h4, hnc]⟩
    · intro h
      cases sb with
      | eps =>
        have : n.right_sib = -1 := hcs.1
        omega
      | node ty1 v1 c1 sb1 =>
        obtain ⟨_, n1, _, _, hn1, _, _, _, hl1, _⟩ := hcs
        exact ⟨n1, hn1, hl1⟩
    · intro _ h
      rw [hnp]
      cases sb with
      | eps =>
        have : last = id := hcs.2.2
        exact ⟨pn, hpn1, by rw [hpn2, this]⟩
      | node ty1 v1 c1 sb1 =>
        have : 0 < n.right_sib := hcs.1
        omega
    · intro h
      cases c with
      | eps =>
        have : n.first_child = -1 := hcc.1
        omega
      | node ty1 v1 c1 sb1 =>
        obtain ⟨_, n1, _, _, hn1, _, _, hp1, _⟩ := hcc
        exact ⟨n1, hn1, hp1⟩
    · intro h
      cases c with
      | eps =>
        have : n.last_child = -1 := hcc.2.2
        omega
      | node ty1 v1 c1 sb1 =>
        obtain ⟨_, _, nl, h1, h2, _⟩ := Chain_last s _ _ _ _ _ _ _ hcc (by simp)
        exact ⟨nl, h1, h2⟩

/-- The loop of `CheckConsistency` over the free list counts its slots. -/
theorem countFreed_spec (s : TreeStorage) (F : List Nat) :
    ∀ (h : Int) (left acc : Nat), FreeChain s F h → F.length ≤ left →
      s.countFreed left h acc = some (acc + F.length) := by
  induction F with
  | nil =>
    intro h left acc hF _
    have : h = -1 := hF
    rw [TreeStorage.countFreed.eq_def]
    simp [this]
  | cons f fs ih =>
    intro h left acc hF hlen
    obtain ⟨hh, n, hn, _, hrest⟩ := hF
    obtain ⟨l, rfl⟩ : ∃ l, left = l + 1 := ⟨left - 1, by simp at hlen; omega⟩
    rw [TreeStorage.countFreed.eq_def]
    have : h ≠ -1 := by omega
    simp only [this, if_false]
    rw [hh, hn]
    simp only [Option.some_bind]
    rw [ih _ l (acc + 1) hrest (by simp at hlen; omega)]
    simp only [List.length_cons]
    exact congrArg some (by omega)

/-- The consistency check passes on a well-formed store when its depth is enough for the
tree. -/
theorem WF_check (m : Memory) (s : TreeStorage) (ty v : Int) (T : FT) (L F : List Nat)
    (h : WF m s ty v T L F) (depth : Nat) (hd : T.height < depth) :
    s.checkConsistencyAt m depth = some () := by
  obtain ⟨r, hr, hrt, hrv, h3, h4, h5, h6, h7, hch, hF, hnd, h0F, hlen⟩ := h
  obtain ⟨d, rfl⟩ : ∃ d, depth = d + 1 := ⟨depth - 1, by omega⟩
  have hroot : s.CheckNodeConsistencyRecursive (m.nodeAt s.parent_ s.position_in_parent_)
      (d + 1) 0 = some ((1 + T.size : Nat) : Int) := by
    rw [check_step s _ d 0 r hr h4]
    · have hA : (if r.first_child ≥ 0 then
            s.CheckNodeConsistencyRecursive (m.nodeAt s.parent_ s.position_in_parent_) d
              r.first_child else some 0)
          = some (T.size : Int) := by
        cases T with
        | eps =>
          have : r.first_child = -1 := hch.1
          simp [this, FT.size]
        | node ty1 v1 c1 sb1 =>
          have h0 : 0 < r.first_child := hch.1
          rw [if_pos (by omega)]
          apply check_chain s _ _ _ _ _ _ _ _ d hch (by simp) (le_refl _) (by omega)
          · exact ⟨r, hr, rfl, fun _ => rfl⟩
          · intro _; rfl
          · intro h; exact absurd h (by decide)
      rw [hA, if_neg (by omega)]
      simp only [Option.some_bind, Option.map_some']
      exact congrArg some (by omega)
    · intro h; omega
    · intro _
      unfold rootIndexOK at h7
      by_cases hp : s.parent_.isSome = true
      · rw [if_pos hp] at h7
        rw [if_pos ⟨rfl, hp⟩]
        exact h7
      · rw [if_neg hp] at h7
        rw [if_neg (fun h => hp h.2)]
        exact h7
    · intro h; omega
    · intro h; omega
    · intro h; omega
    · intro h
      cases T with
      | eps =>
        have : r.first_child = -1 := hch.1
        omega
      | node ty1 v1 c1 sb1 =>
        obtain ⟨_, n1, _, _, hn1, _, _, hp1, _⟩ := hch
        exact ⟨n1, hn1, hp1⟩
    · intro h
      cases T with
      | eps =>
        have : r.last_child = -1 := hch.2.2
        omega
      | node ty1 v1 c1 sb1 =>
        obtain ⟨_, _, nl, h1, h2, _⟩ := Chain_last s _ _ _ _ _ _ _ hch (by simp)
        exact ⟨nl, h1, h2⟩
  have hfreed := countFreed_spec s F _ s.nodes_.length 0 hF.1 (by omega)
  unfold TreeStorage.checkConsistencyAt
  rw [hroot, hfreed]
  simp only [Option.some_bind, Nat.zero_add]
  rw [if_pos]
  rw [← hlen, ← Chain_length s T _ _ _ _ _ _ hch]
  omega

/-! ## Replacing the children of a node of a well-formed store -/

/-- Lists without repetition stay so when a part is replaced by new elements. -/
theorem nodup_replace (pre old post new F F1 : List Nat)
    (h : (pre ++ old ++ post ++ F).Nodup) (hnew : new.Nodup) (hF1 : F1.Nodup)
    (h1 : ∀ i ∈ new, i ∉ pre ∧ i ∉ post ∧ i ∉ F1)
    (h2 : ∀ f ∈ F1, f ∉ pre ∧ f ∉ post) :
    (pre ++ new ++ post ++ F1).Nodup := by
  rw [List.nodup_append] at h ⊢
  obtain ⟨h, hF, d3⟩ := h
  rw [List.nodup_append] at h ⊢
  obtain ⟨h, hpost, d2⟩ := h
  rw [List.nodup_append] at h ⊢
  obtain ⟨hpre, hold, d1⟩ := h
  refine ⟨⟨⟨hpre, hnew, ?_⟩, hpost, ?_⟩, hF1, ?_⟩
  · intro a ha hb
    exact (h1 a hb).1 ha
  · intro a ha hb
    rcases List.mem_append.mp ha with ha | ha
    · exact d2 (List.mem_append_left _ ha) hb
    · exact (h1 a ha).2.1 hb
  · intro a ha hb
    rcases List.mem_append.mp ha with ha | ha
    · rcases List.mem_append.mp ha with ha | ha
      · exact (h2 a hb).1 ha
      · exact (h1 a ha).2.2 hb
    · exact (h2 a hb).2 ha

/-- A node `k` of a well-formed store, the root or another node, with the tree `ck` of its
children; and a store in which `k` has another type, value and tree of children, made of the
old children and of new slots, while the other nodes are the same, is well formed and holds the
tree with the part at `k` replaced. -/
theorem WF_children (m : Memory) (s : TreeStorage) (ty v : Int) (T : FT) (L F : List Nat)
    (h : WF m s ty v T L F) (k : Int) (hk : k = 0 ∨ (0 < k ∧ k.toNat ∈ L)) :
    ∃ (n : TreeNode) (ck sbk : FT) (Lc : List Nat),
      s.nodeAt k = some n ∧ Chain s ck n.first_child k (-1) 0 Lc n.last_child ∧ Lc.Nodup ∧
      (∀ i ∈ Lc, i ∈ L ∧ (i : Int) ≠ k) ∧ k.toNat ∉ F ∧ (∀ i ∈ Lc, i ∉ F) ∧
      (k = 0 → ck = T ∧ Lc = L ∧ n.type = ty ∧ n.value = v) ∧
      (0 < k → T.subAt L k.toNat = some (.node n.type n.value ck sbk) ∧ 0 ≤ n.parent ∧
        (n.right_sib = -1 ↔ sbk = .eps)) ∧
      ∀ (s1 : TreeStorage) (ty1 v1 fc1 lc1 : Int) (c1 : FT) (Lc1 F1 : List Nat),
        s1.nodeAt k = some { n with type := ty1, value := v1, first_child := fc1,
                                    last_child := lc1 } →
        Chain s1 c1 fc1 k (-1) 0 Lc1 lc1 →
        (∀ j : Int, (∀ i ∈ Lc, j ≠ (i : Int)) → (∀ i ∈ Lc1, j ≠ (i : Int)) → j ≠ k →
          s1.nodeAt j = s.nodeAt j) →
        FreeList s1 F1 → Lc1.Nodup → (∀ i ∈ Lc1, (i ∉ L ∨ i ∈ Lc) ∧ i ∉ F1) →
        (∀ f ∈ F1, f ∈ F ∨ f ∈ Lc) →
        Lc1.length + F1.length + s.nodes_.length = Lc.length + F.length + s1.nodes_.length →
        s1.parent_ = s.parent_ → s1.position_in_parent_ = s.position_in_parent_ →
        ∃ (T1 : FT) (L1 : List Nat),
          WF m s1 (if k = 0 then ty1 else ty) (if k = 0 then v1 else v) T1 L1 F1 ∧
          (∀ i, i ∈ L1 ↔ (i ∈ Lc1 ∨ (i ∈ L ∧ i ∉ Lc))) ∧
          (k = 0 → T1 = c1 ∧ L1 = Lc1) ∧
          (0 < k → T1 = T.graft L k.toNat (.node ty1 v1 c1 sbk)) := by
  have hwf := h
  obtain ⟨r, hr, hrt, hrv, h3, h4, h5, h6, h7, hch, hF, hnd, h0F, hlen⟩ := h
  have hndL := (List.nodup_append.mp hnd).1
  have hdisj := (List.nodup_append.mp hnd).2.2
  have hmem := Chain_mem s T _ _ _ _ _ _ hch (le_refl _)
  rcases hk with hk | ⟨hk0, hkL⟩
  · -- the root
    subst hk
    refine ⟨r, T, .eps, L, hr, hch, hndL, ?_, h0F, fun i hi hf => hdisj hi hf,
      fun _ => ⟨rfl, rfl, hrt, hrv⟩, fun h => absurd h (by decide), ?_⟩
    · intro i hi
      refine ⟨hi, ?_⟩
      have := (hmem i hi).1
      omega
    · intro s1 ty1 v1 fc1 lc1 c1 Lc1 F1 hn1 hc1 _ hF1 hnd1 hnew hfree hcount hp hq
      refine ⟨c1, Lc1, ?_, ?_, fun _ => ⟨rfl, rfl⟩, fun h => absurd h (by decide)⟩
      · simp only [if_true]
        apply WF_root m s s1 ty v T L F hwf r hr ty1 v1 fc1 lc1 c1 Lc1 F1 hn1 hc1 hF1 _ _ _ hp hq
        · rw [List.nodup_append]
          exact ⟨hnd1, hF1.2, fun a ha hb => (hnew a ha).2 hb⟩
        · intro h0
          rcases hfree 0 h0 with h | h
          · exact h0F h
          · have := (hmem 0 h).1
            omega
        · omega
      · intro i
        constructor
        · intro hi; exact Or.inl hi
        · intro hi
          rcases hi with hi | ⟨hi, hni⟩
          · exact hi
          · exact absurd hi hni
  · -- another node
    have hkn : ((k.toNat : Nat) : Int) = k := Int.toNat_of_nonneg (le_of_lt hk0)
    obtain ⟨sub, pk, lsk, cik, lastk, pre, Lold, post, pn, hsub, hL, hsubc, hpk, hlsk, hpn1, hpn2,
        hpn3, hpn4, _, hln, hclose⟩ := WF_sub m s ty v T L F hwf k.toNat hkL
    rw [hkn] at hsubc hpn3 hln
    cases sub with
    | eps =>
      have : k = -1 := hsubc.1
      omega
    | node tyk vk ck sbk =>
      obtain ⟨_, n, Lc, Ls, hn, hnt, hnv, hnp, hnl, hnc, hcc, hcs, hLold⟩ := hsubc
      subst hLold
      have hLeq : L = (pre ++ [k.toNat]) ++ Lc ++ (Ls ++ post) := by
        rw [hL]; simp
      have hndL' : ((pre ++ [k.toNat]) ++ Lc ++ (Ls ++ post) ++ F).Nodup := by
        rw [← hLeq]; exact hnd
      have hLcL : ∀ i ∈ Lc, i ∈ L := fun i hi => by rw [hLeq]; simp [hi]
      have hLsL : ∀ i ∈ Ls, i ∈ L := fun i hi => by rw [hLeq]; simp [hi]
      have hpreL : ∀ i ∈ pre, i ∈ L := fun i hi => by rw [hLeq]; simp [hi]
      have hpostL : ∀ i ∈ post, i ∈ L := fun i hi => by rw [hLeq]; simp [hi]
      have hsplit := List.nodup_append.mp (List.nodup_append.mp (List.nodup_append.mp hndL').1).1
      have hsplit2 := List.nodup_append.mp (List.nodup_append.mp hndL').1
      have hkLc : k.toNat ∉ Lc := fun h => hsplit.2.2 (by simp) h
      have hLc_pre : ∀ i ∈ Lc, i ∉ pre := fun i hi h => hsplit.2.2 (by simp [h]) hi
      have hLc_rest : ∀ i ∈ Lc, i ∉ Ls ++ post := fun i hi h =>
        hsplit2.2.2 (List.mem_append_right _ hi) h
      have hk_rest : k.toNat ∉ Ls ++ post := fun h =>
        hsplit2.2.2 (by simp) h
      have hk_pre : k.toNat ∉ pre := by
        have := (List.nodup_append.mp hsplit.1).2.2
        intro h
        exact this h (by simp)
      have hpre_rest : ∀ i ∈ pre, i ∉ Ls ++ post := fun i hi h =>
        hsplit2.2.2 (by simp [hi]) h
      have hpkk : pk ≠ k := by
        intro h
        rcases hpk with h1 | h1
        · omega
        · rw [h] at h1; exact hk_pre h1.2
      have hlskk : lsk ≠ k := by
        intro h
        rcases hlsk with h1 | h1
        · omega
        · rw [h] at h1; exact hk_pre h1.2
      have hnp0 : 0 ≤ n.parent := by
        rw [hnp]
        rcases hpk with h1 | h1 <;> omega
      have hk0' : k ≠ 0 := by omega
      refine ⟨n, ck, sbk, Lc, hn, hcc, hsplit.2.1, ?_, ?_, ?_,
        fun h => absurd h hk0', fun _ => ⟨?_, hnp0, ?_⟩, ?_⟩
      · intro i hi
        refine ⟨hLcL i hi, ?_⟩
        intro h
        apply hkLc
        have : k.toNat = i := by omega
        rw [this]; exact hi
      · intro h
        exact hdisj hkL h
      · intro i hi hf
        exact hdisj (hLcL i hi) hf
      · rw [hsub, hnt, hnv]
      · constructor
        · intro h
          cases sbk with
          | eps => rfl
          | node _ _ _ _ =>
            have : 0 < n.right_sib := hcs.1
            omega
        · intro h
          subst h
          exact hcs.1
      · intro s1 ty1 v1 fc1 lc1 c1 Lc1 F1 hn1 hc1 hfr hF1 hnd1 hnew hfree hcount hp hq
        have hLc1_pre : ∀ i ∈ Lc1, i ∉ pre ++ [k.toNat] := by
          intro i hi h
          rcases List.mem_append.mp h with h | h
          · rcases (hnew i hi).1 with h1 | h1
            · exact h1 (hpreL i h)
            · exact hLc_pre i h1 h
          · have hik : i = k.toNat := by simpa using h
            rcases (hnew i hi).1 with h1 | h1
            · exact h1 (hik ▸ hkL)
            · exact hkLc (hik ▸ h1)
        have hLc1_rest : ∀ i ∈ Lc1, i ∉ Ls ++ post := by
          intro i hi h
          rcases (hnew i hi).1 with h1 | h1
          · apply h1
            rcases List.mem_append.mp h with h | h
            · exact hLsL i h
            · exact hpostL i h
          · exact hLc_rest i h1 h
        -- the chain at `k` in the new store
        have hsb1 : Chain s1 sbk n.right_sib pk k (cik + 1) Ls lastk := by
          apply Chain_frame s s1 sbk _ _ _ _ _ _ hcs
          intro i hi
          apply hfr
          · intro i' hi' h
            have : i = i' := by omega
            subst this
            exact hLc_rest i hi' (List.mem_append_left _ hi)
          · intro i' hi' h
            have : i = i' := by omega
            subst this
            exact hLc1_rest i hi' (List.mem_append_left _ hi)
          · intro h
            apply hk_rest
            have : k.toNat = i := by omega
            rw [this]; exact List.mem_append_left _ hi
        have hsub1 : Chain s1 (.node ty1 v1 c1 sbk) k pk lsk cik (k.toNat :: (Lc1 ++ Ls))
            lastk :=
          ⟨hk0, _, Lc1, Ls, hn1, rfl, rfl, hnp, hnl, hnc, hc1, hsb1, rfl⟩
        have hframe : ∀ j ∈ (0 : Nat) :: (pre ++ post), s1.nodeAt (j : Int) = s.nodeAt (j : Int) := by
          intro j hj
          have hjL : j = 0 ∨ j ∈ pre ∨ j ∈ post := by simpa using hj
          apply hfr
          · intro i hi h
            have : j = i := by omega
            subst this
            rcases hjL with h1 | h1 | h1
            · have := (hmem j (hLcL j hi)).1
              omega
            · exact hLc_pre j hi h1
            · exact hLc_rest j hi (List.mem_append_right _ h1)
          · intro i hi h
            have : j = i := by omega
            subst this
            rcases hjL with h1 | h1 | h1
            · subst h1
              rcases (hnew 0 hi).1 with h2 | h2
              · -- a new slot is not the root: the root is an element of both stores
                have hF1lt := FreeList_lt s1 F1 hF1
                have h0L : (0 : Nat) ∉ L := fun h => by have := (hmem 0 h).1; omega
                have hc0 := Chain_mem s1 c1 _ _ _ _ _ _ hc1 (le_of_lt hk0) 0 hi
                omega
              · have := (hmem 0 (hLcL 0 h2)).1
                omega
            · exact hLc1_pre j hi (List.mem_append_left _ h1)
            · exact hLc1_rest j hi (List.mem_append_right _ h1)
          · intro h
            rcases hjL with h1 | h1 | h1
            · omega
            · apply hk_pre
              have : k.toNat = j := by omega
              rw [this]; exact h1
            · apply hk_rest
              have : k.toNat = j := by omega
              rw [this]; exact List.mem_append_right _ h1
        have hpk_keep : (pk.toNat : Nat) ∈ (0 : Nat) :: (pre ++ post) := by
          rcases hpk with h1 | h1
          · rw [h1]; simp
          · simp [h1.2]
        have hpk0 : 0 ≤ pk := by rcases hpk with h1 | h1 <;> omega
        have hglue : Glue s s1 (0 :: (pre ++ post)) pk lsk k lastk := by
          refine ⟨fun j hj _ _ => hframe j hj, ?_, ?_⟩
          · intro pn' hpn'
            rw [hpn1] at hpn'
            cases hpn'
            have := hframe pk.toNat hpk_keep
            rw [Int.toNat_of_nonneg hpk0] at this
            rw [this, hpn1]
            congr 1
            by_cases hl : lsk < 0
            · have e := hpn3 hl
              obtain ⟨a1, a2, a3, a4, a5, a6, a7, a8⟩ := pn
              simp only [] at e hpn2
              subst e hpn2
              simp [hl]
            · obtain ⟨a1, a2, a3, a4, a5, a6, a7, a8⟩ := pn
              simp only [] at hpn2
              subst hpn2
              simp [hl]
          · intro ln hl0 hln'
            have hl1 : 0 < lsk ∧ lsk.toNat ∈ pre := by
              rcases hlsk with h1 | h1
              · omega
              · exact h1
            obtain ⟨ln2, hln2, hrs⟩ := hln hl1.1
            rw [hln'] at hln2
            cases hln2
            have := hframe lsk.toNat (by simp [hl1.2])
            rw [Int.toNat_of_nonneg hl0] at this
            rw [this, hln']
            congr 1
            obtain ⟨a1, a2, a3, a4, a5, a6, a7, a8⟩ := ln
            simp only [] at hrs
            subst hrs
            rfl
        have hndnew : (pre ++ (k.toNat :: (Lc1 ++ Ls)) ++ post ++ F1).Nodup := by
          have := nodup_replace (pre ++ [k.toNat]) Lc (Ls ++ post) Lc1 F F1 hndL' hnd1 hF1.2
            (fun i hi => ⟨hLc1_pre i hi, hLc1_rest i hi, (hnew i hi).2⟩)
            (fun f hf => by
              rcases hfree f hf with h1 | h1
              · constructor
                · intro h
                  apply hdisj _ h1
                  rw [hLeq]
                  exact List.mem_append_left _ (List.mem_append_left _ h)
                · intro h
                  apply hdisj _ h1
                  rw [hLeq]
                  exact List.mem_append_right _ h
              · constructor
                · intro h
                  rcases List.mem_append.mp h with h | h
                  · exact hLc_pre f h1 h
                  · have : f = k.toNat := by simpa using h
                    exact hkLc (this ▸ h1)
                · exact hLc_rest f h1)
          have e : pre ++ (k.toNat :: (Lc1 ++ Ls)) ++ post ++ F1
              = (pre ++ [k.toNat]) ++ Lc1 ++ (Ls ++ post) ++ F1 := by simp
          rw [e]; exact this
        have h0F1 : 0 ∉ F1 := by
          intro h0
          rcases hfree 0 h0 with h | h
          · exact h0F h
          · have := (hmem 0 (hLcL 0 h)).1
            omega
        have hcount1 : (pre ++ (k.toNat :: (Lc1 ++ Ls)) ++ post).length + F1.length + 1
            = s1.nodes_.length := by
          have e1 : L.length = pre.length + (1 + Lc.length + Ls.length) + post.length := by
            rw [hL]; simp; omega
          simp only [List.length_append, List.length_cons]
          omega
        have hwf1 := hclose s1 (.node ty1 v1 c1 sbk) k lastk (k.toNat :: (Lc1 ++ Ls)) F1 hsub1
          hglue hF1 hndnew h0F1 hcount1 hp hq
        refine ⟨T.graft L k.toNat (.node ty1 v1 c1 sbk),
          pre ++ (k.toNat :: (Lc1 ++ Ls)) ++ post, ?_, ?_, fun h => absurd h hk0', fun _ => rfl⟩
        · rw [if_neg hk0', if_neg hk0']
          exact hwf1
        · intro i
          rw [hLeq]
          simp only [List.mem_append, List.mem_cons, List.mem_singleton, List.not_mem_nil,
            or_false]
          constructor
          · intro hi
            rcases hi with (hi | hi | hi | hi) | hi
            · exact Or.inr ⟨Or.inl (Or.inl (Or.inl hi)), fun h => hLc_pre i h hi⟩
            · exact Or.inr ⟨Or.inl (Or.inl (Or.inr hi)), fun h => hkLc (hi ▸ h)⟩
            · exact Or.inl hi
            · exact Or.inr ⟨Or.inr (Or.inl hi),
                fun h => hLc_rest i h (List.mem_append_left _ hi)⟩
            · exact Or.inr ⟨Or.inr (Or.inr hi),
                fun h => hLc_rest i h (List.mem_append_right _ hi)⟩
          · intro hi
            rcases hi with hi | ⟨hi, hni⟩
            · exact Or.inl (Or.inr (Or.inr (Or.inl hi)))
            · rcases hi with ((hi | hi) | hi) | hi | hi
              · exact Or.inl (Or.inl hi)
              · exact Or.inl (Or.inr (Or.inl hi))
              · exact absurd hi hni
              · exact Or.inl (Or.inr (Or.inr (Or.inr hi)))
              · exact Or.inr hi

/-! ## `InlineIntoParent` -/

theorem freeCheck_sound (s : TreeStorage) :
    ∀ (fuel : Nat) (h : Int) (F : List Nat), freeCheck s fuel h = some F → FreeChain s F h := by
  intro fuel
  induction fuel with
  | zero =>
    intro h F hc
    rw [freeCheck] at hc
    split at hc
    · rename_i h1
      simp only [Option.some.injEq] at hc
      subst hc
      exact h1
    · exact absurd hc (by simp)
  | succ fuel ih =>
    intro h F hc
    rw [freeCheck] at hc
    split at hc
    · rename_i h1
      simp only [Option.some.injEq] at hc
      subst hc
      exact h1
    · split at hc
      · rename_i h0
        cases hn : s.nodeAt h with
        | none => rw [hn] at hc; exact absurd hc (by simp)
        | some n =>
          rw [hn] at hc
          simp only [Option.some_bind] at hc
          split at hc
          · rename_i hp
            cases hr : freeCheck s fuel n.type with
            | none => rw [hr] at hc; exact absurd hc (by simp)
            | some fs =>
              rw [hr] at hc
              simp only [Option.map_some', Option.some.injEq] at hc
              subst hc
              have e : ((h.toNat : Nat) : Int) = h := Int.toNat_of_nonneg h0
              exact ⟨e.symm, n, by rw [e]; exact hn, hp, ih _ _ hr⟩
          · exact absurd hc (by simp)
      · exact absurd hc (by simp)

theorem rootIndexCheck_sound (m : Memory) (s : TreeStorage) (r : TreeNode)
    (h : rootIndexCheck m s r = true) : rootIndexOK m s r := by
  unfold rootIndexCheck at h
  unfold rootIndexOK
  by_cases hp : s.parent_.isSome = true
  · rw [if_pos hp] at h ⊢
    cases hn : m.nodeAt s.parent_ s.position_in_parent_ with
    | none => rw [hn] at h; exact absurd h (by simp)
    | some pn =>
      rw [hn] at h
      exact ⟨pn, rfl, by simpa using h⟩
  · rw [if_neg hp] at h ⊢
    simpa using h

/-- The test `wfCheck` is right. -/
theorem wfCheck_sound (m : Memory) (s : TreeStorage) (ty v : Int) (t : FT) (L F : List Nat)
    (h : wfCheck m s ty v t = some (L, F)) : WF m s ty v t L F := by
  unfold wfCheck at h
  cases hr : s.nodeAt 0 with
  | none => rw [hr] at h; exact absurd h (by simp)
  | some r =>
    rw [hr] at h
    simp only [Option.some_bind] at h
    split at h
    · rename_i hf
      cases hc : chainCheck s t r.first_child 0 (-1) 0 with
      | none => rw [hc] at h; exact absurd h (by simp)
      | some a =>
        rw [hc] at h
        simp only [Option.some_bind] at h
        split at h
        · rename_i hl
          cases hfr : freeCheck s s.nodes_.length s.first_free_node_ with
          | none => rw [hfr] at h; exact absurd h (by simp)
          | some F0 =>
            rw [hfr] at h
            simp only [Option.some_bind] at h
            split at h
            · rename_i hg
              obtain ⟨a1, a2⟩ := a
              simp only [Option.some.injEq, Prod.mk.injEq] at h hl
              obtain ⟨h1, h2⟩ := h
              subst h1 h2 hl
              exact ⟨r, hr, hf.1, hf.2.1, hf.2.2.1, hf.2.2.2.1, hf.2.2.2.2.1, hf.2.2.2.2.2.1,
                rootIndexCheck_sound m s r hf.2.2.2.2.2.2,
                chainCheck_sound _ _ _ _ _ _ _ _ hc,
                ⟨freeCheck_sound s _ _ _ hfr, (List.nodup_append.mp hg.1).2.1⟩, hg.1, hg.2.1,
                hg.2.2⟩
            · exact absurd h (by simp)
        · exact absurd h (by simp)
    · exact absurd h (by simp)

/-- The slots that the next calls of `AllocateNode` return are not in the free list after
them. -/
theorem allocIds_not_mem_drop (F : List Nat) (len m : Nat) (hF : F.Nodup)
    (hlt : ∀ f ∈ F, f < len) : ∀ i ∈ allocIds F len m, i ∉ F.drop m := by
  intro i hi hd
  unfold allocIds at hi
  rcases List.mem_append.mp hi with h | h
  · have := List.take_append_drop m F
    rw [← this] at hF
    exact (List.nodup_append.mp hF).2.2 h hd
  · have := hlt i (List.mem_of_mem_drop hd)
    have := (List.mem_range'_1.mp h).1
    omega

/-- A list without repetition whose elements are in another list is not longer than it. -/
theorem nodup_subset_length (A B : List Nat) (hA : A.Nodup) (h : ∀ i ∈ A, i ∈ B) :
    A.length ≤ B.length :=
  (List.Nodup.subperm hA h).length_le

/-- The call `InlineIntoParent` on an overlay store that holds a tree, for a well-formed parent
store: the node `k` at which the overlay is attached gets the type and the value of the root of
the overlay and its tree as children, in the place of the old children; the rest of the tree of
the parent store is the same, and the parent store is well formed. -/
theorem InlineIntoParent_spec (m : Memory) (fuel : Nat) (o P : TreeStorage) (a : Nat)
    (ty v : Int) (T : FT) (L F : List Nat) (tyu vu : Int) (u : FT) (Lo : List Nat)
    (hpar : o.parent_ = some a) (hP : m[a]? = some P) (hwf : WF m P ty v T L F)
    (hk : o.position_in_parent_ = 0 ∨
      (0 < o.position_in_parent_ ∧ o.position_in_parent_.toNat ∈ L))
    (ho : Holds o tyu vu u Lo) (htyu : tyu ≠ EMPTY_NODE_LABEL) (hne : u.NoEmpty)
    (hfuel : T.size + 2 * u.size + 3 ≤ fuel) :
    ∃ (P1 : TreeStorage) (T1 : FT) (L1 F1 : List Nat),
      o.InlineIntoParent m fuel a = some P1 ∧
      WF m P1 (if o.position_in_parent_ = 0 then tyu else ty)
        (if o.position_in_parent_ = 0 then vu else v) T1 L1 F1 ∧
      (o.position_in_parent_ = 0 → T1 = u) ∧
      (0 < o.position_in_parent_ → ∃ tyk vk ck sbk,
        T.subAt L o.position_in_parent_.toNat = some (.node tyk vk ck sbk) ∧
        T1 = T.graft L o.position_in_parent_.toNat (.node tyu vu u sbk)) := by
  obtain ⟨ro, hro, hroty, hruv, hrors, hrop, hcho⟩ := ho
  have hwf0 := hwf
  obtain ⟨r, hr, hrt, hrv, h3, h4, h5, h6, h7, hch, hF, hnd, h0F, hlen⟩ := hwf
  have hmem := Chain_mem P T _ _ _ _ _ _ hch (le_refl _)
  have hTL := Chain_length P T _ _ _ _ _ _ hch
  set k := o.position_in_parent_ with hkdef
  have hk0 : 0 ≤ k := by rcases hk with h | h <;> omega
  obtain ⟨n, ck, sbk, Lc, hn, hcc, hndc, hLc, hkF, hLcF, hroot, hinner, hclose⟩ :=
    WF_children m P ty v T L F hwf0 k hk
  have hcsize : ck.size ≤ T.size := by
    rw [← hTL, ← Chain_length P ck _ _ _ _ _ _ hcc]
    exact nodup_subset_length Lc L hndc (fun i hi => (hLc i hi).1)
  -- the children of `k` are removed
  obtain ⟨p1, F1, hrem, hn1, hF1, hF1S, hF1F, hlen1, hle1, hfr1, hgone1, hpar1, hpip1⟩ :=
    RemoveNodeChildren_local fuel P k n ck Lc F hk0 hn hcc hndc (fun i hi => (hLc i hi).2) hF
      hLcF hkF (by omega)
  have h0F1 : 0 ∉ F1 := by
    intro h
    rcases hF1S 0 h with h1 | h1
    · exact h0F h1
    · have := (hmem 0 (hLc 0 h1).1).1
      omega
  have hkF1 : k.toNat ∉ F1 := by
    intro h
    rcases hF1S _ h with h1 | h1
    · exact hkF h1
    · apply (hLc _ h1).2
      exact Int.toNat_of_nonneg hk0
  have hnroot : k = 0 → n.right_sib < 0 ∧ n.parent < 0 := by
    intro h
    rw [h] at hn
    rw [hr] at hn
    cases hn
    exact ⟨h6, h3⟩
  -- the tree of the overlay is copied
  obtain ⟨p2, wit1, ew, cid, lastc, hloop, _, hn2, hch2, hF2, hlen2, hfr2, hpar2, hpip2⟩ :=
    copy_tree fuel (by omega) o p1 u ro { n with first_child := -1, last_child := -1 } Lo F1
      (ConstLocalEpsTreeTraversal.create 0) (LocalEpsTreeTraversal.create k) k hro
      (by rw [hroty]; exact htyu) hrors hrop hcho hne rfl rfl hk0 hn1 rfl rfl hnroot hF1 h0F1
      hkF1
  have hF1lt := FreeList_lt p1 F1 hF1
  have hrun : o.InlineIntoParent m fuel a = some p2 := by
    unfold TreeStorage.InlineIntoParent
    rw [if_neg (by rw [hpar]; simp), hP]
    simp only [Option.some_bind]
    rw [← hkdef, hrem]
    simp only [Option.some_bind]
    obtain ⟨j, hj⟩ : ∃ j, fuel = j + (2 * u.size + 3) := ⟨fuel - (2 * u.size + 3), by omega⟩
    have := hloop j
    rw [← hj] at this
    rw [this]
    rfl
  have hlive : ∀ i ∈ L, i ∉ Lc → i < p1.nodes_.length := by
    intro i hi hni
    obtain ⟨_, ni, hni1, _⟩ := hmem i hi
    by_cases hik : (i : Int) = k
    · rw [hik] at hni1
      have := (nodeAt_some_bounds p1 k _ hn1).2
      omega
    · have := hfr1 i (fun i' hi' h => by
        have : i = i' := by omega
        subst this
        exact hni hi') hik
      rw [hni1] at this
      have := (nodeAt_some_bounds p1 i ni this).2
      omega
  obtain ⟨T1, L1, hwf1, _, hT0, hTk⟩ :=
    hclose p2 tyu vu cid lastc u (allocIds F1 p1.nodes_.length u.size) (F1.drop u.size)
      (by
        rw [hn2, hroty, hruv])
      hch2
      (by
        intro j hj1 hj2 hjk
        rw [hfr2 j hj2 hjk, hfr1 j hj1 hjk])
      hF2 (nodup_allocIds F1 _ _ hF1.2 hF1lt)
      (by
        intro i hi
        refine ⟨?_, allocIds_not_mem_drop F1 _ _ hF1.2 hF1lt i hi⟩
        rcases mem_allocIds _ _ _ _ hi with h1 | h1
        · rcases hF1S i h1 with h2 | h2
          · left
            intro h
            exact (List.nodup_append.mp hnd).2.2 h h2
          · exact Or.inr h2
        · by_cases hiL : i ∈ L
          · by_cases hiLc : i ∈ Lc
            · exact Or.inr hiLc
            · have := hlive i hiL hiLc
              omega
          · exact Or.inl hiL)
      (fun f hf => hF1S f (List.mem_of_mem_drop hf))
      (by
        have e1 := allocIds_length F1 p1.nodes_.length u.size
        have e2 : (F1.drop u.size).length = F1.length - u.size := by simp
        have e3 := Chain_length P ck _ _ _ _ _ _ hcc
        omega)
      (by rw [hpar2, hpar1]) (by rw [hpip2, hpip1])
  refine ⟨p2, T1, L1, F1.drop u.size, hrun, hwf1, hT0 |> fun h hk => (h hk).1, ?_⟩
  intro hk'
  exact ⟨n.type, n.value, ck, sbk, (hinner hk').1, hTk hk'⟩

/-- Claim C12, as stated, fails. `CanSubstituteSingleNode` allows `SubstituteSingleNode(1, n)`
on `scattered_store` for an `n` of the type `EMPTY_NODE_LABEL`, and the call gives the store
`empty_sibling_store`, which is well formed, passes `CheckConsistency` and holds the tree
`[1 [EMPTY] [3]]`: the types and values in pre-order are (1, 10), (-1, 7), (3, 30).
`Canonicalize` returns the store `root_only_store` with the one node (1, 10): the walk of the
copy takes a node of the type `EMPTY_NODE_LABEL` for a node that is not there, so that this node
and its right sibling (3, 30) are not copied. -/
theorem Canonicalize_drops_EMPTY_node_and_its_sibling :
    scattered_store.CanSubstituteSingleNode 1 ⟨EMPTY_NODE_LABEL, 7, -1, -1⟩ = some true ∧
    scattered_store.SubstituteSingleNode 10 1 ⟨EMPTY_NODE_LABEL, 7, -1, -1⟩
      = some empty_sibling_store ∧
    WF [] empty_sibling_store 1 10 (.node EMPTY_NODE_LABEL 7 .eps (.node 3 30 .eps .eps))
      [1, 2] [3] ∧
    empty_sibling_store.CheckConsistency [] = some () ∧
    empty_sibling_store.Canonicalize [] 9 = some root_only_store ∧
    Holds root_only_store 1 10 .eps [] ∧
    (empty_sibling_store.nodeAt 2).map (fun n => (n.type, n.value)) = some (3, 30) ∧
    root_only_store.nodes_.length = 1 :=
  ⟨by decide, by decide, wfCheck_sound _ _ _ _ _ _ _ (by decide), by decide, by decide,
    holdsCheck_sound _ _ _ _ _ (by decide), by decide, by decide⟩

/-- Claim C12, amended. `Canonicalize` on a store that holds a tree in which no node, the root
included, has the type `EMPTY_NODE_LABEL` returns a store that holds the same tree, so the types
and values in pre-order are the same; the node that a pre-order walk visits as number i is the
node i, and the store has no other slot and no free slot; `Canonicalize` on the returned store
returns the same store. -/
theorem Canonicalize_is_dense_in_pre_order_and_idempotent (m : Memory) (fuel : Nat)
    (s : TreeStorage) (ty v : Int) (t : FT) (L : List Nat) (h : Holds s ty v t L)
    (hty : ty ≠ EMPTY_NODE_LABEL) (hne : t.NoEmpty)
    (hpar : (TreeStorage.createAt m s.parent_ s.position_in_parent_).isSome = true)
    (hfuel : 2 * t.size + 3 ≤ fuel) :
    ∃ s1, s.Canonicalize m fuel = some s1 ∧ Holds s1 ty v t (List.range' 1 t.size) ∧
      s1.nodes_.length = t.size + 1 ∧ s1.first_free_node_ = -1 ∧
      s1.Canonicalize m fuel = some s1 := by
  obtain ⟨tmp, htmp⟩ := Option.isSome_iff_exists.mp hpar
  obtain ⟨s1, r0, cid, lastc, hcan, hnodes, hrs0, hrp0, hroot, hch, hlen, hff, hp, hq⟩ :=
    Canonicalize_spec m fuel s tmp ty v t L h hty hne htmp hfuel
  have hholds : Holds s1 ty v t (List.range' 1 t.size) :=
    ⟨_, hroot, rfl, rfl, hrs0, hrp0, hch⟩
  have htmp1 : TreeStorage.createAt m s1.parent_ s1.position_in_parent_ = some tmp := by
    rw [hp, hq, htmp]
  obtain ⟨s2, r0', cid2, lastc2, hcan2, hnodes2, _, _, hroot2, hch2, hlen2, hff2, hp2, hq2⟩ :=
    Canonicalize_spec m fuel s1 tmp ty v t _ hholds hty hne htmp1 hfuel
  have hr : r0' = r0 := by
    rw [hnodes] at hnodes2
    exact (List.cons.inj hnodes2).1.symm
  subst hr
  have : s2 = s1 :=
    dense_store_unique s2 s1 t r0' ty v cid2 lastc2 cid lastc hroot2 hroot hch2 hch hlen2 hlen
      (by rw [hff2, hff]) hp2 hq2
  subst this
  exact ⟨s2, hcan, hholds, hlen, hff, hcan2⟩

theorem Canonicalize_is_dense_in_pre_order_and_idempotent_witness :
    Holds scattered_store 1 10 scattered_tree [1, 4, 2] ∧
    ∃ s1, scattered_store.Canonicalize [] 9 = some s1 ∧
      Holds s1 1 10 scattered_tree (List.range' 1 scattered_tree.size) ∧
      s1.nodes_.length = scattered_tree.size + 1 ∧ s1.first_free_node_ = -1 ∧
      s1.Canonicalize [] 9 = some s1 :=
  ⟨holdsCheck_sound _ _ _ _ _ (by decide),
   Canonicalize_is_dense_in_pre_order_and_idempotent [] 9 scattered_store 1 10 scattered_tree
     [1, 4, 2] (holdsCheck_sound _ _ _ _ _ (by decide)) (by decide)
     ⟨by decide, ⟨by decide, trivial, trivial⟩, by decide, trivial, trivial⟩ (by decide)
     (by decide)⟩

/-- Claim C15, as stated, fails. `CanSubstituteSingleNode` allows `SubstituteSingleNode(1, n)`
on the overlay `inline_overlay` for an `n` of the type `EMPTY_NODE_LABEL`, and the call gives
the overlay `empty_sibling_overlay`, which is well formed and holds the tree `[5 [EMPTY] [10]]`.
`InlineIntoParent` into the well-formed store `inline_parent` returns the store
`inlined_without_children`, in which the node 2 has the type 5 of the root of the overlay and no
child: the walk of the copy takes a node of the type `EMPTY_NODE_LABEL` for a node that is not
there, so that the nodes (-1, 7) and (10, -2) of the overlay are not copied, and the part at the
node 2 has not the shape and the labels of the tree of the overlay. -/
theorem InlineIntoParent_drops_EMPTY_node_and_its_sibling :
    inline_overlay.CanSubstituteSingleNode 1 ⟨EMPTY_NODE_LABEL, 7, -1, -1⟩ = some true ∧
    inline_overlay.SubstituteSingleNode 10 1 ⟨EMPTY_NODE_LABEL, 7, -1, -1⟩
      = some empty_sibling_overlay ∧
    WF [inline_parent] empty_sibling_overlay 5 (-2)
      (.node EMPTY_NODE_LABEL 7 .eps (.node 10 (-2) .eps .eps)) [1, 2] [] ∧
    empty_sibling_overlay.CheckConsistency [inline_parent] = some () ∧
    WF [inline_parent] inline_parent 7 (-2) inline_parent_tree [1, 2, 3] [] ∧
    empty_sibling_overlay.InlineIntoParent [inline_parent] 12 0
      = some inlined_without_children ∧
    WF [inline_parent] inlined_without_children 7 (-2)
      (.node 1 (-2) .eps (.node 5 (-2) .eps (.node 4 (-2) .eps .eps))) [1, 2, 3] [] ∧
    (inlined_without_children.nodeAt 2).map (fun n => (n.type, n.first_child))
      = some (5, -1) :=
  ⟨by decide, by decide, wfCheck_sound _ _ _ _ _ _ _ (by decide), by decide,
    wfCheck_sound _ _ _ _ _ _ _ (by decide), by decide,
    wfCheck_sound _ _ _ _ _ _ _ (by decide), by decide⟩

/-- Claim C15, amended. For an overlay store `o` that holds a tree in which no node, the root
included, has the type `EMPTY_NODE_LABEL`, and that is attached to the node `k` of a
well-formed parent store, `InlineIntoParent` returns a parent store in which the node `k` has
the type and the value of the root of `o` and the tree of `o` below it (so the part at `k` has
the shape and the labels in pre-order of the whole tree of `o`), while the rest of the tree,
with the right siblings of `k`, is the same; the returned store is well formed, so that the
consistency check passes at every depth that is enough for its tree, and `CheckConsistency`,
whose depth is 33, passes when the tree is not deeper. The overlay is only read. -/
theorem InlineIntoParent_puts_overlay_tree_at_position (m : Memory) (fuel : Nat)
    (o P : TreeStorage) (a : Nat) (ty v : Int) (T : FT) (L F : List Nat) (tyu vu : Int)
    (u : FT) (Lo : List Nat)
    (hpar : o.parent_ = some a) (hP : m[a]? = some P) (hwf : WF m P ty v T L F)
    (hk : o.position_in_parent_ = 0 ∨
      (0 < o.position_in_parent_ ∧ o.position_in_parent_.toNat ∈ L))
    (ho : Holds o tyu vu u Lo) (htyu : tyu ≠ EMPTY_NODE_LABEL) (hne : u.NoEmpty)
    (hfuel : T.size + 2 * u.size + 3 ≤ fuel) :
    ∃ (P1 : TreeStorage) (T1 : FT) (L1 F1 : List Nat),
      o.InlineIntoParent m fuel a = some P1 ∧
      WF m P1 (if o.position_in_parent_ = 0 then tyu else ty)
        (if o.position_in_parent_ = 0 then vu else v) T1 L1 F1 ∧
      (o.position_in_parent_ = 0 → T1 = u) ∧
      (0 < o.position_in_parent_ → ∃ tyk vk ck sbk,
        T.subAt L o.position_in_parent_.toNat = some (.node tyk vk ck sbk) ∧
        T1 = T.graft L o.position_in_parent_.toNat (.node tyu vu u sbk)) ∧
      (∀ depth, T1.height < depth → P1.checkConsistencyAt m depth = some ()) ∧
      (T1.height < 33 → P1.CheckConsistency m = some ()) := by
  obtain ⟨P1, T1, L1, F1, h1, h2, h3, h4⟩ :=
    InlineIntoParent_spec m fuel o P a ty v T L F tyu vu u Lo hpar hP hwf hk ho htyu hne hfuel
  refine ⟨P1, T1, L1, F1, h1, h2, h3, h4, ?_, ?_⟩
  · intro depth hd
    exact WF_check m P1 _ _ T1 L1 F1 h2 depth hd
  · intro hd
    rw [CheckConsistency_eq]
    exact WF_check m P1 _ _ T1 L1 F1 h2 33 hd

theorem InlineIntoParent_puts_overlay_tree_at_position_witness :
    WF [inline_parent] inline_parent 7 (-2) inline_parent_tree [1, 2, 3] [] ∧
    Holds inline_overlay 5 (-2) inline_overlay_tree [1, 2] ∧
    ∃ (P1 : TreeStorage) (T1 : FT) (L1 F1 : List Nat),
      inline_overlay.InlineIntoParent [inline_parent] 12 0 = some P1 ∧
      WF [inline_parent] P1 (if inline_overlay.position_in_parent_ = 0 then 5 else 7)
        (if inline_overlay.position_in_parent_ = 0 then -2 else -2) T1 L1 F1 ∧
      (inline_overlay.position_in_parent_ = 0 → T1 = inline_overlay_tree) ∧
      (0 < inline_overlay.position_in_parent_ → ∃ tyk vk ck sbk,
        inline_parent_tree.subAt [1, 2, 3] inline_overlay.position_in_parent_.toNat
          = some (.node tyk vk ck sbk) ∧
        T1 = inline_parent_tree.graft [1, 2, 3] inline_overlay.position_in_parent_.toNat
          (.node 5 (-2) inline_overlay_tree sbk)) ∧
      (∀ depth, T1.height < depth → P1.checkConsistencyAt [inline_parent] depth = some ()) ∧
      (T1.height < 33 → P1.CheckConsistency [inline_parent] = some ()) :=
  ⟨wfCheck_sound _ _ _ _ _ _ _ (by decide), holdsCheck_sound _ _ _ _ _ (by decide),
   InlineIntoParent_puts_overlay_tree_at_position [inline_parent] 12 inline_overlay
     inline_parent 0 7 (-2) inline_parent_tree [1, 2, 3] [] 5 (-2) inline_overlay_tree [1, 2]
     rfl rfl (wfCheck_sound _ _ _ _ _ _ _ (by decide)) (Or.inr ⟨by decide, by decide⟩)
     (holdsCheck_sound _ _ _ _ _ (by decide)) (by decide)
     ⟨by decide, trivial, by decide, trivial, trivial⟩ (by decide)⟩

/-! ## The slice of a sample -/

/-- The slice made by the constructor `TreeSlice(storage, begin, allow)` slices the nodes from
`begin` to the end of the store. -/
theorem ofBegin_spec (m : Memory) (a : Nat) (s : TreeStorage) (begin : Int) (allow : Bool)
    (h : m[a]? = some s) :
    ∃ sl, TreeSlice.ofBegin m a begin allow = some sl ∧
      sl.allow_reading_type_for_begin_node_ = allow ∧
      ∀ (st : Option Nat) (q : Int), sl.IsNodeSliced st q = true ↔
        (st = some a ∧ begin ≤ q ∧ q < s.NumAllocatedNodes) := by
  refine ⟨⟨some a, begin, s.NumAllocatedNodes, allow⟩, by simp [TreeSlice.ofBegin, h], rfl, ?_⟩
  intro st q
  simp only [TreeSlice.IsNodeSliced, Bool.and_eq_true, decide_eq_true_eq, ge_iff_le]
  tauto

/-- Claim C25, the amended claim. The slice that `GenerativeTrainOneSample` builds for the
sample at the position `pos` of the store at the address `a`, and the slice that `AddSample`
builds, have `allow_reading_type_for_begin_node = !is_for_node_type` and slice the node ids from
`pos` to the number of allocated nodes of that store, and no node of another store:
`IsNodeSliced(st, q)` holds if and only if `st` is the store and `pos <= q < NumAllocatedNodes`. -/
theorem sample_slice_hides_nodes_from_position_to_end (m : Memory) (a : Nat) (s : TreeStorage)
    (model : TGenModel) (exec : ExecutionForTree) (pos : Int) (h : m[a]? = some s)
    (hexec : exec.tree_ = some a) :
    ∃ sl, model.trainingSlice m { storage_ := some a, position_ := pos } = some sl ∧
      model.evaluationSlice m exec pos = some sl ∧
      sl.allow_reading_type_for_begin_node_ = (!model.is_for_node_type_) ∧
      ∀ (st : Option Nat) (q : Int), sl.IsNodeSliced st q = true ↔
        (st = some a ∧ pos ≤ q ∧ q < s.NumAllocatedNodes) := by
  obtain ⟨sl, h1, h2, h3⟩ := ofBegin_spec m a s pos (!model.is_for_node_type_) h
  refine ⟨sl, ?_, ?_, h2, h3⟩
  · simp only [TGenModel.trainingSlice, Option.some_bind]
    exact h1
  · simp only [TGenModel.evaluationSlice, hexec, Option.some_bind]
    exact h1

theorem sample_slice_hides_nodes_from_position_to_end_witness :
    ∃ sl, test_model.trainingSlice [test_tcond_tree] { storage_ := some 0, position_ := 1 }
        = some sl ∧
      test_model.evaluationSlice [test_tcond_tree] test_exec 1 = some sl ∧
      sl.allow_reading_type_for_begin_node_ = (!test_model.is_for_node_type_) ∧
      ∀ (st : Option Nat) (q : Int), sl.IsNodeSliced st q = true ↔
        (st = some 0 ∧ 1 ≤ q ∧ q < test_tcond_tree.NumAllocatedNodes) :=
  sample_slice_hides_nodes_from_position_to_end [test_tcond_tree] 0 test_tcond_tree test_model
    test_exec 1 rfl rfl

/-- Claim C25 as it is stated fails: the slice built for the position 1 of the store of the
execution tests, which has 6 nodes, slices the node 2 too. -/
theorem sample_slice_hides_later_nodes :
    ∃ sl, test_model.trainingSlice [test_tcond_tree] { storage_ := some 0, position_ := 1 }
        = some sl ∧
      test_model.evaluationSlice [test_tcond_tree] test_exec 1 = some sl ∧
      sl.IsNodeSliced (some 0) 2 = true ∧
      ¬ (∀ q : Int, sl.IsNodeSliced (some 0) q = true ↔ q = 1) := by
  refine ⟨_, rfl, rfl, by decide, ?_⟩
  intro h
  have := (h 2).mp (by decide)
  exact absurd this (by decide)

/-! ## The estimate of the Kneser-Ney deltas -/

theorem clamp01_bounds (x : ℚ) : 0 ≤ clamp01 x ∧ clamp01 x ≤ 1 := by
  unfold clamp01
  constructor
  · exact le_max_right _ _
  · exact max_le (min_le_right _ _) (by norm_num)

theorem clamp01_zero : clamp01 0 = 0 := by
  unfold clamp01
  simp

/-- One call `AddCount(c)` with `c > 0` adds one to the number of its bucket. -/
theorem AddCount_buckets (d : KneserNeyDelta) (c0 a1 a2 a3 a4 c : Int)
    (h : d.counts_ = [c0, a1, a2, a3, a4]) (hc : 0 < c) :
    d.AddCount c = some { d with counts_ :=
      [c0, a1 + countExactly [c] 1, a2 + countExactly [c] 2, a3 + countExactly [c] 3,
        a4 + countAtLeast [c] 4] } := by
  unfold KneserNeyDelta.AddCount
  rw [if_pos hc, h]
  by_cases h1 : c = 1
  · subst h1
    simp [countExactly, countAtLeast]
  by_cases h2 : c = 2
  · subst h2
    simp [countExactly, countAtLeast]
  by_cases h3 : c = 3
  · subst h3
    simp [countExactly, countAtLeast]
  have h4 : 4 ≤ c := by omega
  have hm : min c 4 = 4 := by omega
  simp [countExactly, countAtLeast, hm, h1, h2, h3, h4]

theorem countExactly_cons (c : Int) (cs : List Int) (i : Int) :
    countExactly (c :: cs) i = countExactly [c] i + countExactly cs i := by
  unfold countExactly
  simp only [List.countP_cons, List.countP_nil]
  push_cast
  ring

theorem countAtLeast_cons (c : Int) (cs : List Int) (i : Int) :
    countAtLeast (c :: cs) i = countAtLeast [c] i + countAtLeast cs i := by
  unfold countAtLeast
  simp only [List.countP_cons, List.countP_nil]
  push_cast
  ring

/-- The calls `AddCount` for a list of positive counts add to each bucket the number of the
counts of the bucket. -/
theorem addAll_buckets (cs : List Int) (hpos : ∀ c ∈ cs, 0 < c) :
    ∀ (d : KneserNeyDelta) (c0 a1 a2 a3 a4 : Int), d.counts_ = [c0, a1, a2, a3, a4] →
      KneserNeyDelta.addAll cs d = some { d with counts_ :=
        [c0, a1 + countExactly cs 1, a2 + countExactly cs 2, a3 + countExactly cs 3,
          a4 + countAtLeast cs 4] } := by
  induction cs with
  | nil =>
    intro d c0 a1 a2 a3 a4 h
    simp only [KneserNeyDelta.addAll, countExactly, countAtLeast, List.countP_nil,
      Nat.cast_zero, add_zero]
    rw [← h]
  | cons c rest ih =>
    intro d c0 a1 a2 a3 a4 h
    rw [KneserNeyDelta.addAll, AddCount_buckets d c0 a1 a2 a3 a4 c h
      (hpos c (List.mem_cons_self _ _))]
    simp only [Option.some_bind]
    rw [ih (fun x hx => hpos x (List.mem_cons_of_mem _ hx)) _ c0 _ _ _ _ rfl]
    simp only [countExactly_cons c rest, countAtLeast_cons c rest, add_assoc]

theorem countExactly_nonneg (cs : List Int) (i : Int) : 0 ≤ countExactly cs i := by
  unfold countExactly
  exact Int.natCast_nonneg _

/-- The call `EndAdding` on an object whose deltas are 0 and whose numbers are not negative: no
division has the divisor 0, and the deltas are the estimated ones. -/
theorem EndAdding_estimates (d : KneserNeyDelta) (c0 n1 n2 n3 n4 : Int)
    (hc : d.counts_ = [c0, n1, n2, n3, n4]) (hd : d.deltas_ = [0, 0, 0, 0])
    (h1 : 0 ≤ n1) (h2 : 0 ≤ n2) :
    d.EndAddingChecked = some { d with deltas_estimated_ := true,
                                       deltas_ := estimatedDeltas n1 n2 n3 n4 } ∧
    d.EndAdding = d.EndAddingChecked := by
  have hden : n1 ≠ 0 ∨ n2 ≠ 0 → ((n1 + 2 * n2 : Int) : ℚ) ≠ 0 := by
    intro h
    have : n1 + 2 * n2 ≠ 0 := by omega
    exact_mod_cast this
  unfold KneserNeyDelta.EndAddingChecked KneserNeyDelta.EndAdding
  rw [hc, hd]
  simp only []
  by_cases hg : n1 ≠ 0 ∨ n2 ≠ 0
  · have hy : (n1 : ℚ) + 2 * (n2 : ℚ) ≠ 0 := by
      have := hden hg
      push_cast at this
      exact this
    by_cases e1 : n1 = 0 <;> by_cases e2 : n2 = 0 <;> by_cases e3 : n3 = 0 <;>
      simp [divChecked, estimatedDeltas, clamp01, hy, e1, e2, e3] at hg ⊢
  · have e1 : n1 = 0 := by
      by_contra h
      exact hg (Or.inl h)
    have e2 : n2 = 0 := by
      by_contra h
      exact hg (Or.inr h)
    simp [estimatedDeltas, clamp01, e1, e2]
/-- The object after the calls `AddCount` for a list of positive counts on a new object and
`EndAdding`: no division has the divisor 0, and the deltas are the estimated ones for the numbers
of the counts that are 1, 2, 3 and at least 4. -/
theorem KneserNeyDelta_run (cs : List Int) (hpos : ∀ c ∈ cs, 0 < c) :
    ∃ d1 d2, KneserNeyDelta.addAll cs KneserNeyDelta.create = some d1 ∧
      d1.EndAddingChecked = some d2 ∧ d1.EndAdding = some d2 ∧
      d2.deltas_estimated_ = true ∧
      d2.deltas_ = estimatedDeltas (countExactly cs 1) (countExactly cs 2) (countExactly cs 3)
        (countAtLeast cs 4) := by
  have h := addAll_buckets cs hpos KneserNeyDelta.create 0 0 0 0 0 rfl
  simp only [zero_add] at h
  obtain ⟨h1, h2⟩ := EndAdding_estimates
    { KneserNeyDelta.create with counts_ :=
        [0, countExactly cs 1, countExactly cs 2, countExactly cs 3, countAtLeast cs 4] }
    0 (countExactly cs 1) (countExactly cs 2) (countExactly cs 3) (countAtLeast cs 4) rfl rfl
    (countExactly_nonneg cs 1) (countExactly_nonneg cs 2)
  exact ⟨_, _, h, h1, by rw [h2, h1], rfl, rfl⟩

/-- The estimated deltas are between 0 and 1. -/
theorem estimatedDeltas_bounds (n1 n2 n3 n4 : Int) :
    ∀ x ∈ estimatedDeltas n1 n2 n3 n4, 0 ≤ x ∧ x ≤ 1 := by
  intro x hx
  simp only [estimatedDeltas, List.mem_cons, List.mem_singleton, List.not_mem_nil,
    or_false] at hx
  rcases hx with hx | hx | hx | hx
  · rw [hx]; norm_num
  · rw [hx]; split
    · exact clamp01_bounds _
    · norm_num
  · rw [hx]; split
    · exact clamp01_bounds _
    · norm_num
  · rw [hx]; split
    · exact clamp01_bounds _
    · norm_num

/-- The call `GetDelta(c)` for `c >= 0` on an object with four estimated deltas returns the
delta at `min(c, 3)`. -/
theorem GetDelta_spec (d : KneserNeyDelta) (l : List ℚ) (hl : d.deltas_ = l)
    (hlen : l.length = 4) (he : d.deltas_estimated_ = true) (c : Int) (hc : 0 ≤ c) :
    ∃ x, d.GetDelta c = some x ∧ l[(min c 3).toNat]? = some x ∧ x ∈ l := by
  have hi : (min c 3).toNat < l.length := by omega
  refine ⟨l[(min c 3).toNat], ?_, List.getElem?_eq_getElem hi, List.getElem_mem _⟩
  unfold KneserNeyDelta.GetDelta
  rw [if_pos he, if_pos (by omega), hl]
  exact List.getElem?_eq_getElem hi

/-- Claim C24. For every list of calls `AddCount` with positive counts on a new object, followed
by `EndAdding`: no division of the estimate has the divisor 0 (the estimate with checked
divisions gives the same object), and `GetDelta(c)` returns for every `c >= 0` a delta between 0
and 1. -/
theorem KneserNeyDelta_deltas_lie_in_unit_interval (cs : List Int) (hpos : ∀ c ∈ cs, 0 < c) :
    ∃ d1 d2, KneserNeyDelta.addAll cs KneserNeyDelta.create = some d1 ∧
      d1.EndAddingChecked = some d2 ∧ d1.EndAdding = some d2 ∧
      ∀ c : Int, 0 ≤ c → ∃ x, d2.GetDelta c = some x ∧ 0 ≤ x ∧ x ≤ 1 := by
  obtain ⟨d1, d2, h1, h2, h3, h4, h5⟩ := KneserNeyDelta_run cs hpos
  refine ⟨d1, d2, h1, h2, h3, ?_⟩
  intro c hc
  obtain ⟨x, hx, _, hmem⟩ := GetDelta_spec d2 _ h5 rfl h4 c hc
  exact ⟨x, hx, estimatedDeltas_bounds _ _ _ _ x hmem⟩

theorem KneserNeyDelta_deltas_lie_in_unit_interval_witness :
    (∀ c ∈ [(1 : Int), 1, 2, 3, 5], 0 < c) ∧
    ∃ d1 d2, KneserNeyDelta.addAll [1, 1, 2, 3, 5] KneserNeyDelta.create = some d1 ∧
      d1.EndAddingChecked = some d2 ∧ d1.EndAdding = some d2 ∧
      ∀ c : Int, 0 ≤ c → ∃ x, d2.GetDelta c = some x ∧ 0 ≤ x ∧ x ≤ 1 :=
  ⟨by decide, KneserNeyDelta_deltas_lie_in_unit_interval [1, 1, 2, 3, 5] (by decide)⟩

/-- Claim C23, the amended claim. With `n1`, `n2`, `n3` the numbers of the calls `AddCount`
whose count is exactly 1, 2, 3, with `n4` the number of the calls whose count is at least 4, and
`Y = n1 / (n1 + 2 n2)`, `EndAdding` on a new object sets `delta0 = 0`,
`delta1 = 1 - 2Y(n2/n1)` when `n1` is not 0, `delta2 = 2 - 3Y(n3/n2)` when `n2` is not 0,
`delta3 = 3 - 4Y(n4/n3)` when `n3` is not 0 and one of `n1`, `n2` is not 0, each clamped to the
interval from 0 to 1, and a delta that is not estimated is 0; `GetDelta(c)` is the delta at
`min(c, 3)`. When `n1`, `n2` and `n3` are not 0 these are the deltas of the specification for
these four numbers. -/
theorem KneserNeyDelta_EndAdding_sets_guarded_deltas (cs : List Int)
    (hpos : ∀ c ∈ cs, 0 < c) :
    ∃ d1 d2, KneserNeyDelta.addAll cs KneserNeyDelta.create = some d1 ∧
      d1.EndAdding = some d2 ∧
      d2.deltas_ = estimatedDeltas (countExactly cs 1) (countExactly cs 2) (countExactly cs 3)
        (countAtLeast cs 4) ∧
      (∀ c : Int, 0 ≤ c → ∃ x, d2.GetDelta c = some x ∧
        (estimatedDeltas (countExactly cs 1) (countExactly cs 2) (countExactly cs 3)
          (countAtLeast cs 4))[(min c 3).toNat]? = some x) ∧
      (countExactly cs 1 ≠ 0 → countExactly cs 2 ≠ 0 → countExactly cs 3 ≠ 0 →
        estimatedDeltas (countExactly cs 1) (countExactly cs 2) (countExactly cs 3)
            (countAtLeast cs 4)
          = specDeltas (countExactly cs 1) (countExactly cs 2) (countExactly cs 3)
            (countAtLeast cs 4)) := by
  obtain ⟨d1, d2, h1, h2, h3, h4, h5⟩ := KneserNeyDelta_run cs hpos
  refine ⟨d1, d2, h1, h3, h5, ?_, ?_⟩
  · intro c hc
    obtain ⟨x, hx, hx2, _⟩ := GetDelta_spec d2 _ h5 rfl h4 c hc
    exact ⟨x, hx, hx2⟩
  · intro e1 e2 e3
    simp [estimatedDeltas, specDeltas, e1, e2, e3]

theorem KneserNeyDelta_EndAdding_sets_guarded_deltas_witness :
    (∀ c ∈ [(1 : Int), 3, 5], 0 < c) ∧
    ∃ d1 d2, KneserNeyDelta.addAll [1, 3, 5] KneserNeyDelta.create = some d1 ∧
      d1.EndAdding = some d2 ∧
      d2.deltas_ = estimatedDeltas (countExactly [1, 3, 5] 1) (countExactly [1, 3, 5] 2)
        (countExactly [1, 3, 5] 3) (countAtLeast [1, 3, 5] 4) ∧
      (∀ c : Int, 0 ≤ c → ∃ x, d2.GetDelta c = some x ∧
        (estimatedDeltas (countExactly [1, 3, 5] 1) (countExactly [1, 3, 5] 2)
          (countExactly [1, 3, 5] 3) (countAtLeast [1, 3, 5] 4))[(min c 3).toNat]? = some x) ∧
      (countExactly [1, 3, 5] 1 ≠ 0 → countExactly [1, 3, 5] 2 ≠ 0 →
        countExactly [1, 3, 5] 3 ≠ 0 →
        estimatedDeltas (countExactly [1, 3, 5] 1) (countExactly [1, 3, 5] 2)
            (countExactly [1, 3, 5] 3) (countAtLeast [1, 3, 5] 4)
          = specDeltas (countExactly [1, 3, 5] 1) (countExactly [1, 3, 5] 2)
            (countExactly [1, 3, 5] 3) (countAtLeast [1, 3, 5] 4)) :=
  ⟨by decide, KneserNeyDelta_EndAdding_sets_guarded_deltas [1, 3, 5] (by decide)⟩

/-- Claim C23 as it is stated fails: after `AddCount(1)`, `AddCount(3)`, `AddCount(5)` and
`EndAdding`, `GetDelta(3)` is 0, because the call with the count 5 is counted in `n4`; with `n4`
the number of the calls whose count is exactly 4, which is 0, the stated `delta3` is 1. -/
theorem KneserNeyDelta_counts_larger_counts_in_n4 :
    ∃ d1 d2, KneserNeyDelta.addAll [1, 3, 5] KneserNeyDelta.create = some d1 ∧
      d1.EndAdding = some d2 ∧ d2.GetDelta 3 = some 0 ∧
      (specDeltas (countExactly [1, 3, 5] 1) (countExactly [1, 3, 5] 2)
        (countExactly [1, 3, 5] 3) (countExactly [1, 3, 5] 4))[3]? = some 1 := by
  refine ⟨{ deltas_estimated_ := false, counts_ := [0, 1, 0, 1, 1], deltas_ := [0, 0, 0, 0] },
    { deltas_estimated_ := true, counts_ := [0, 1, 0, 1, 1], deltas_ := [0, 1, 0, 0] },
    by decide, ?_, ?_, ?_⟩
  · simp [KneserNeyDelta.EndAdding]
    norm_num
  · simp [KneserNeyDelta.GetDelta]
  · simp [specDeltas, countExactly, clamp01]

/-- The counter `continuation_counter` after `EndAdding` is `continuation_counter_ended`. -/
theorem continuation_counter_built :
    continuation_counter.EndAdding KneserNey = some continuation_counter_ended := by
  simp [PerFeatureValueCounter.EndAdding, EndAddingState.visitAll, EndAddingState.visit,
    continuation_counter, continuation_counter_ended, hashMapFind, hashMapModify,
    FeatureStats.AddValue, SequenceHashFeature.equals,
    FeatureStats.create, FeatureStats.CalculateProb, FeatureStats.SortValues,
    FeatureStats.GetMLProb, truncToInt, KneserNey, test_feature, SequenceHashFeature.size,
    addInt32, KneserNeyDelta.AddCount, KneserNeyDelta.create, KneserNeyDelta.EndAdding,
    estimateDeltas, KneserNeyDelta.addCounts, KneserNeyDelta.clear,
    ValueStats.AddFeatureForValue, ValueStats.create, probGreaterEq]
  norm_num

/-- The map `value_stats_` after one more entry of the table, with the Kneser-Ney smoothing. -/
theorem visit_value_stats (S S1 : EndAddingState) (ptr : Nat)
    (e : (SequenceHashFeature × Int) × Int) (h : S.visit KneserNey ptr e = some S1) :
    S1.value_stats_ = hashMapModify (· == ·) ValueStats.create
      (fun vs => vs.AddFeatureForValue e.1.2) S.value_stats_ e.1.1.size := by
  unfold EndAddingState.visit at h
  simp only [Option.bind_eq_some, if_true, Option.map_eq_some'] at h
  obtain ⟨fs, _, d, _, h2⟩ := h
  rw [← h2]

/-- The count of a label in value statistics after `AddFeatureForValue`. -/
theorem AddFeatureForValue_spec (vs : ValueStats) (value v : Int) :
    (vs.AddFeatureForValue value).TotalPrefixCount = vs.TotalPrefixCount + 1 ∧
    (vs.AddFeatureForValue value).GetValuePrefixCount v
      = vs.GetValuePrefixCount v + (if value = v then 1 else 0) := by
  refine ⟨rfl, ?_⟩
  unfold ValueStats.GetValuePrefixCount ValueStats.AddFeatureForValue
  simp only []
  rw [hashMapFind_modify _ intEquals_equivalence]
  by_cases hv : value = v
  · subst hv
    simp
  · have : (value == v) = false := by simpa using hv
    simp [this, hv]

/-- The invariant of `value_stats_` after one more entry. -/
theorem ValueStatsInv_step (vs : List (Int × ValueStats))
    (done : List ((SequenceHashFeature × Int) × Int)) (e : (SequenceHashFeature × Int) × Int)
    (hinv : ValueStatsInv vs done) :
    ValueStatsInv (hashMapModify (· == ·) ValueStats.create
      (fun s => s.AddFeatureForValue e.1.2) vs e.1.1.size) (done ++ [e]) := by
  intro n
  obtain ⟨h1, h2⟩ := hinv n
  rw [hashMapFind_modify _ intEquals_equivalence]
  unfold entriesOfSize entriesOfSizeWithLabel at *
  simp only [List.filter_append, List.length_append, List.filter_cons, List.filter_nil]
  by_cases hn : e.1.1.size = n
  · have hb : (e.1.1.size == n) = true := by simpa using hn
    have hfind := hinv e.1.1.size
    unfold entriesOfSize entriesOfSizeWithLabel at hfind
    rw [hn] at hfind
    simp only [hb, if_true, Option.map_some', Option.getD_some, Bool.true_and, List.length_cons,
      List.length_nil]
    refine ⟨?_, ?_⟩
    · rw [(AddFeatureForValue_spec _ _ 0).1]
      rw [hn]
      have := hfind.1
      cases hq : hashMapFind (fun x1 x2 => x1 == x2) vs n with
      | none =>
        rw [hq] at this
        simp only [Option.map_none', Option.getD_none] at this
        simp only [Option.getD_none]
        show (0 : Int) + 1 = _
        rw [this]; push_cast; rfl
      | some s =>
        rw [hq] at this
        simp only [Option.map_some', Option.getD_some] at this
        simp only [Option.getD_some]
        rw [this]; push_cast; rfl
    · intro v
      rw [(AddFeatureForValue_spec _ _ v).2, hn]
      have := hfind.2 v
      have hbase : ((hashMapFind (fun x1 x2 => x1 == x2) vs n).getD
          ValueStats.create).GetValuePrefixCount v
          = ((List.filter (fun e => e.1.1.size == n && e.1.2 == v) done).length : Nat) := by
        cases hq : hashMapFind (fun x1 x2 => x1 == x2) vs n with
        | none =>
          rw [hq] at this
          simp only [Option.map_none', Option.getD_none] at this
          simp only [Option.getD_none]
          rw [← this]
          rfl
        | some s =>
          rw [hq] at this
          simp only [Option.map_some', Option.getD_some] at this
          simp only [Option.getD_some]
          exact this
      rw [hbase]
      by_cases hv : e.1.2 = v
      · have hbv : (e.1.2 == v) = true := by simpa using hv
        simp [hv, hbv]
      · have hbv : (e.1.2 == v) = false := by simpa using hv
        simp [hv, hbv]
  · have hb : (e.1.1.size == n) = false := by simpa using hn
    simp only [hb, Bool.false_eq_true, if_false, Bool.false_and, List.length_nil, add_zero]
    exact ⟨h1, h2⟩

/-- The invariant of `value_stats_` after the first loop of `EndAdding`. -/
theorem visitAll_value_stats (rest : List ((SequenceHashFeature × Int) × Int)) :
    ∀ (ptr : Nat) (S S1 : EndAddingState) (done : List ((SequenceHashFeature × Int) × Int)),
      ValueStatsInv S.value_stats_ done →
      EndAddingState.visitAll KneserNey rest ptr S = some S1 →
      ValueStatsInv S1.value_stats_ (done ++ rest) := by
  induction rest with
  | nil =>
    intro ptr S S1 done hinv h
    unfold EndAddingState.visitAll at h
    rw [← Option.some.inj h, List.append_nil]
    exact hinv
  | cons e rest ih =>
    intro ptr S S1 done hinv h
    unfold EndAddingState.visitAll at h
    simp only [Option.bind_eq_some] at h
    obtain ⟨S2, h1, h2⟩ := h
    have h3 := visit_value_stats S S2 ptr e h1
    have := ih (ptr + 1) S2 S1 (done ++ [e]) (by rw [h3]; exact ValueStatsInv_step _ _ _ hinv) h2
    rw [List.append_assoc] at this
    exact this

/-- The map `value_stats_` of a counter after `EndAdding` with the Kneser-Ney smoothing. -/
theorem EndAdding_value_stats (c e1 : PerFeatureValueCounter)
    (hend : c.EndAdding KneserNey = some e1) :
    ValueStatsInv e1.value_stats_ c.feature_value_counts_ := by
  unfold PerFeatureValueCounter.EndAdding at hend
  simp only [Option.bind_eq_some, if_true, Option.map_eq_some'] at hend
  obtain ⟨S, h1, d, _, h2⟩ := hend
  have := visitAll_value_stats c.feature_value_counts_ 0
    { feature_stats_ := [], value_stats_ := [], deltas_ := [], max_feature_size := -1 } S []
    (by
      intro n
      unfold entriesOfSize entriesOfSizeWithLabel
      simp [hashMapFind]) h1
  rw [List.nil_append] at this
  rw [← h2]
  exact this

/-- Claim C22. With the Kneser-Ney smoothing, after `EndAdding`: the table of the counter holds
each pair of feature and label once, `GetTotalPrefixCount(f)` is the number of the entries of the
table whose feature has the size of `f`, and `GetValuePrefixCount(f, v)` is the number of the
entries whose feature has the size of `f` and whose label is `v` (both 0 when no feature has this
size). With any other smoothing type both return 0 on every counter. -/
theorem prefix_counts_count_pairs_of_same_length (c e1 : PerFeatureValueCounter)
    (hwf : c.WellFormed) (hend : c.EndAdding KneserNey = some e1) :
    e1.feature_value_counts_ = c.feature_value_counts_ ∧
    DistinctKeys keyEquals e1.feature_value_counts_ ∧
    (∀ f : SequenceHashFeature,
      e1.GetTotalPrefixCount KneserNey f
        = ((entriesOfSize f.size c.feature_value_counts_).length : Nat) ∧
      (∀ v : Int, e1.GetValuePrefixCount KneserNey f v
        = ((entriesOfSizeWithLabel f.size v c.feature_value_counts_).length : Nat)) ∧
      (entriesOfSize f.size c.feature_value_counts_ = [] →
        e1.GetTotalPrefixCount KneserNey f = 0 ∧
        ∀ v : Int, e1.GetValuePrefixCount KneserNey f v = 0)) ∧
    ∀ (st : Int) (c2 : PerFeatureValueCounter) (f : SequenceHashFeature) (v : Int),
      st ≠ KneserNey →
      c2.GetTotalPrefixCount st f = 0 ∧ c2.GetValuePrefixCount st f v = 0 := by
  have htab : e1.feature_value_counts_ = c.feature_value_counts_ := by
    by_cases hok : ∀ x ∈ c.feature_value_counts_, countOK KneserNey x.2
    · obtain ⟨e2, h1, h2, _⟩ := (EndAdding_spec KneserNey c).1 hok
      rw [hend] at h1
      rw [Option.some.inj h1]
      exact h2
    · rw [(EndAdding_spec KneserNey c).2 hok] at hend
      exact Option.noConfusion hend
  have hinv := EndAdding_value_stats c e1 hend
  have htot : ∀ f : SequenceHashFeature, e1.GetTotalPrefixCount KneserNey f
      = ((entriesOfSize f.size c.feature_value_counts_).length : Nat) := by
    intro f
    rw [← (hinv f.size).1]
    unfold PerFeatureValueCounter.GetTotalPrefixCount
    simp only [ne_eq, not_true_eq_false, if_false]
    cases hashMapFind (fun x1 x2 => x1 == x2) e1.value_stats_ f.size <;> rfl
  have hval : ∀ (f : SequenceHashFeature) (v : Int), e1.GetValuePrefixCount KneserNey f v
      = ((entriesOfSizeWithLabel f.size v c.feature_value_counts_).length : Nat) := by
    intro f v
    rw [← (hinv f.size).2 v]
    unfold PerFeatureValueCounter.GetValuePrefixCount
    simp only [ne_eq, not_true_eq_false, if_false]
    cases hashMapFind (fun x1 x2 => x1 == x2) e1.value_stats_ f.size <;> rfl
  refine ⟨htab, by rw [htab]; exact hwf, ?_, ?_⟩
  · intro f
    refine ⟨htot f, hval f, ?_⟩
    intro hnil
    refine ⟨by rw [htot f, hnil]; rfl, ?_⟩
    intro v
    rw [hval f v]
    have : entriesOfSizeWithLabel f.size v c.feature_value_counts_ = [] := by
      unfold entriesOfSizeWithLabel
      unfold entriesOfSize at hnil
      rw [List.filter_eq_nil_iff] at hnil ⊢
      intro a ha
      have := hnil a ha
      simp only [Bool.and_eq_true, not_and] at this ⊢
      intro h; exact absurd h this
    rw [this]; rfl
  · intro st c2 f v hst
    unfold PerFeatureValueCounter.GetTotalPrefixCount PerFeatureValueCounter.GetValuePrefixCount
    simp [hst]

theorem prefix_counts_count_pairs_of_same_length_witness :
    continuation_counter.WellFormed ∧
    continuation_counter.EndAdding KneserNey = some continuation_counter_ended ∧
    (continuation_counter_ended.feature_value_counts_
        = continuation_counter.feature_value_counts_ ∧
    DistinctKeys keyEquals continuation_counter_ended.feature_value_counts_ ∧
    (∀ f : SequenceHashFeature,
      continuation_counter_ended.GetTotalPrefixCount KneserNey f
        = ((entriesOfSize f.size continuation_counter.feature_value_counts_).length : Nat) ∧
      (∀ v : Int, continuation_counter_ended.GetValuePrefixCount KneserNey f v
        = ((entriesOfSizeWithLabel f.size v
            continuation_counter.feature_value_counts_).length : Nat)) ∧
      (entriesOfSize f.size continuation_counter.feature_value_counts_ = [] →
        continuation_counter_ended.GetTotalPrefixCount KneserNey f = 0 ∧
        ∀ v : Int, continuation_counter_ended.GetValuePrefixCount KneserNey f v = 0)) ∧
    ∀ (st : Int) (c2 : PerFeatureValueCounter) (f : SequenceHashFeature) (v : Int),
      st ≠ KneserNey →
      c2.GetTotalPrefixCount st f = 0 ∧ c2.GetValuePrefixCount st f v = 0) :=
  ⟨by decide, continuation_counter_built,
    prefix_counts_count_pairs_of_same_length continuation_counter continuation_counter_ended
      (by decide) continuation_counter_built⟩

/-- The counts that the test `ContinuationTest` expects: 5, 2 and 3 for a feature of the size 2,
0 for a feature of the size 1, and 2, 1 and 1 for the feature of the size 0. -/
theorem ContinuationTest_counts :
    continuation_counter_ended.GetTotalPrefixCount KneserNey { hash_ := 14, size_ := 2 } = 5 ∧
    continuation_counter_ended.GetValuePrefixCount KneserNey { hash_ := 14, size_ := 2 } 10 = 2 ∧
    continuation_counter_ended.GetValuePrefixCount KneserNey { hash_ := 14, size_ := 2 } 11 = 3 ∧
    continuation_counter_ended.GetTotalPrefixCount KneserNey { hash_ := 1, size_ := 1 } = 0 ∧
    continuation_counter_ended.GetValuePrefixCount KneserNey { hash_ := 1, size_ := 1 } 10 = 0 ∧
    continuation_counter_ended.GetTotalPrefixCount KneserNey test_feature = 2 ∧
    continuation_counter_ended.GetValuePrefixCount KneserNey test_feature 10 = 1 ∧
    continuation_counter_ended.GetValuePrefixCount KneserNey test_feature 11 = 1 := by
  decide

/-! ## The loop that resolves a program id -/

/-- The value that `find` gives on a map of cases is the value of a case. -/
theorem mapFind_mem (cm : CaseMap) (k : List Int) (v : Int) (h : mapFind cm k = some v) :
    ∃ e ∈ cm, e.2 = v := by
  induction cm with
  | nil => exact Option.noConfusion h
  | cons e rest ih =>
    obtain ⟨k1, v1⟩ := e
    unfold mapFind at h
    by_cases h1 : vecLt k k1 = true
    · rw [if_pos h1] at h
      exact Option.noConfusion h
    · rw [if_neg h1] at h
      by_cases h2 : vecLt k1 k = true
      · rw [if_pos h2] at h
        obtain ⟨e, he, hv⟩ := ih h
        exact ⟨e, List.mem_cons_of_mem _ he, hv⟩
      · rw [if_neg h2] at h
        exact ⟨(k1, v1), List.mem_cons_self _ _, Option.some.inj h⟩

/-- The result of `GetSubmodelBranch` is a target of the branched program. -/
theorem GetSubmodelBranch_target (FingerprintCat : Int → Int → Int) (m : Memory) (fuel : Nat)
    (self : TGenModel) (program_id : Int) (exec : ExecutionForTree)
    (sample : FullTreeTraversal) (slice : Option TreeSlice) (p : Int)
    (h : self.GetSubmodelBranch FingerprintCat m fuel program_id exec sample slice = some p) :
    0 ≤ program_id ∧ ∃ prog, self.program_.branched_prog program_id.toNat = some prog ∧
      (p = prog.p_default ∨ ∃ e ∈ prog.per_case_p, e.2 = p) := by
  unfold TGenModel.GetSubmodelBranch at h
  by_cases h0 : program_id < 0
  · rw [if_pos h0] at h
    exact Option.noConfusion h
  · rw [if_neg h0] at h
    simp only [Option.bind_eq_some, Option.map_eq_some'] at h
    obtain ⟨prog, hp, r, _, hr⟩ := h
    refine ⟨by omega, prog, hp, ?_⟩
    unfold BranchCondProgram.called_p at hr
    cases hf : mapFind prog.per_case_p r.1 with
    | none =>
      rw [hf] at hr
      exact Or.inl hr.symm
    | some v =>
      rw [hf] at hr
      obtain ⟨e, he, hv⟩ := mapFind_mem _ _ _ hf
      exact Or.inr ⟨e, he, by rw [hv]; exact hr⟩

/-- The loop ends within `size() + 2` rounds, after at most `size() + 1` calls of
`GetSubmodelBranch`, and at most `size()` when it does not end at the failed `CHECK_LE`. -/
theorem resolveLoop_bound (FingerprintCat : Int → Int → Int) (m : Memory) (fuel : Nat)
    (self : TGenModel) (exec : ExecutionForTree) (sample : FullTreeTraversal)
    (slice : Option TreeSlice) :
    ∀ (rounds : Nat) (program_id : Int) (call_length : Nat),
      call_length ≤ self.program_.size → self.program_.size + 2 ≤ rounds + call_length →
      self.resolveLoop FingerprintCat m fuel exec sample slice rounds program_id call_length
        ≠ .out_of_rounds ∧
      (∀ p n, self.resolveLoop FingerprintCat m fuel exec sample slice rounds program_id
          call_length = .straight p n →
        call_length ≤ n ∧ n ≤ self.program_.size ∧ 0 ≤ p ∧
        self.program_.program_type p.toNat = some .SIMPLE_PROGRAM) ∧
      (∀ n, self.resolveLoop FingerprintCat m fuel exec sample slice rounds program_id
          call_length = .check_failed n → n = self.program_.size + 1) ∧
      (∀ n, self.resolveLoop FingerprintCat m fuel exec sample slice rounds program_id
          call_length = .aborted n → call_length ≤ n ∧ n ≤ self.program_.size) := by
  intro rounds
  induction rounds with
  | zero => intro program_id call_length h1 h2; omega
  | succ rounds ih =>
    intro program_id call_length h1 h2
    unfold TGenModel.resolveLoop
    by_cases h0 : program_id < 0
    · rw [if_pos h0]
      refine ⟨fun h => Resolved.noConfusion h, fun p n h => Resolved.noConfusion h,
        fun n h => Resolved.noConfusion h, fun n h => ?_⟩
      injection h with h
      omega
    · rw [if_neg h0]
      cases ht : self.program_.program_type program_id.toNat with
      | none =>
        refine ⟨fun h => Resolved.noConfusion h, fun p n h => Resolved.noConfusion h,
          fun n h => Resolved.noConfusion h, fun n h => ?_⟩
        injection h with h
        omega
      | some ty =>
        cases ty with
        | SIMPLE_PROGRAM =>
          refine ⟨fun h => Resolved.noConfusion h, fun p n h => ?_,
            fun n h => Resolved.noConfusion h, fun n h => Resolved.noConfusion h⟩
          injection h with hp hn
          subst hp
          exact ⟨by omega, by omega, by omega, ht⟩
        | BRANCHED_PROGRAM =>
          simp only []
          cases hb : self.GetSubmodelBranch FingerprintCat m fuel program_id exec sample
              slice with
          | none =>
            refine ⟨fun h => Resolved.noConfusion h, fun p n h => Resolved.noConfusion h,
              fun n h => Resolved.noConfusion h, fun n h => ?_⟩
            injection h with h
            omega
          | some q =>
            simp only []
            by_cases hc : call_length + 1 ≤ self.program_.size
            · rw [if_pos hc]
              obtain ⟨i1, i2, i3, i4⟩ := ih q (call_length + 1) hc (by omega)
              refine ⟨i1, fun p n h => ?_, i3, fun n h => ?_⟩
              · obtain ⟨a, b, c⟩ := i2 p n h
                exact ⟨by omega, b, c⟩
              · obtain ⟨a, b⟩ := i4 n h
                exact ⟨by omega, b⟩
            · rw [if_neg hc]
              refine ⟨fun h => Resolved.noConfusion h, fun p n h => Resolved.noConfusion h,
                fun n h => ?_, fun n h => Resolved.noConfusion h⟩
              injection h with h
              omega

/-- More rounds do not change the way in which the loop ends. -/
theorem resolveLoop_more_rounds (FingerprintCat : Int → Int → Int) (m : Memory) (fuel : Nat)
    (self : TGenModel) (exec : ExecutionForTree) (sample : FullTreeTraversal)
    (slice : Option TreeSlice) :
    ∀ (rounds : Nat) (program_id : Int) (call_length : Nat) (extra : Nat),
      self.resolveLoop FingerprintCat m fuel exec sample slice rounds program_id call_length
        ≠ .out_of_rounds →
      self.resolveLoop FingerprintCat m fuel exec sample slice (rounds + extra) program_id
          call_length
        = self.resolveLoop FingerprintCat m fuel exec sample slice rounds program_id
          call_length := by
  intro rounds
  induction rounds with
  | zero =>
    intro program_id call_length extra h
    exact absurd rfl h
  | succ rounds ih =>
    intro program_id call_length extra h
    rw [show rounds + 1 + extra = (rounds + extra) + 1 by omega]
    unfold TGenModel.resolveLoop at h ⊢
    by_cases h0 : program_id < 0
    · simp only [if_pos h0]
    · simp only [if_neg h0] at h ⊢
      cases ht : self.program_.program_type program_id.toNat with
      | none => rfl
      | some ty =>
        rw [ht] at h
        cases ty with
        | SIMPLE_PROGRAM => rfl
        | BRANCHED_PROGRAM =>
          simp only [] at h ⊢
          cases hb : self.GetSubmodelBranch FingerprintCat m fuel program_id exec sample
              slice with
          | none => rfl
          | some q =>
            rw [hb] at h
            simp only [] at h ⊢
            by_cases hc : call_length + 1 ≤ self.program_.size
            · simp only [if_pos hc] at h ⊢
              exact ih q (call_length + 1) extra h
            · simp only [if_neg hc]

/-- The loop on programs that stay branched: the `CHECK_LE` fails in the round
`size() + 1`. -/
theorem resolveLoop_cycle (FingerprintCat : Int → Int → Int) (m : Memory) (fuel : Nat)
    (self : TGenModel) (exec : ExecutionForTree) (sample : FullTreeTraversal)
    (slice : Option TreeSlice) (P : Int → Prop)
    (hP : ∀ id, P id → 0 ≤ id ∧
      self.program_.program_type id.toNat = some .BRANCHED_PROGRAM ∧
      ∃ p, self.GetSubmodelBranch FingerprintCat m fuel id exec sample slice = some p ∧ P p) :
    ∀ (rounds : Nat) (program_id : Int) (call_length : Nat), P program_id →
      call_length ≤ self.program_.size → self.program_.size + 2 ≤ rounds + call_length →
      self.resolveLoop FingerprintCat m fuel exec sample slice rounds program_id call_length
        = .check_failed (self.program_.size + 1) := by
  intro rounds
  induction rounds with
  | zero => intro program_id call_length _ h1 h2; omega
  | succ rounds ih =>
    intro program_id call_length hp h1 h2
    obtain ⟨h0, ht, q, hq, hPq⟩ := hP program_id hp
    unfold TGenModel.resolveLoop
    rw [if_neg (by omega), ht]
    simp only []
    rw [hq]
    simp only []
    by_cases hc : call_length + 1 ≤ self.program_.size
    · rw [if_pos hc]
      exact ih q (call_length + 1) hPq hc (by omega)
    · rw [if_neg hc]
      congr 1
      omega

/-- The loop on a table whose targets are smaller ids: the `CHECK_LE` does not fail, and the
loop ends at a program that is not branched when every call of `GetSubmodelBranch` has a
result. -/
theorem resolveLoop_decreasing (FingerprintCat : Int → Int → Int) (m : Memory) (fuel : Nat)
    (self : TGenModel) (exec : ExecutionForTree) (sample : FullTreeTraversal)
    (slice : Option TreeSlice) (hdec : self.program_.TargetsDecrease) :
    ∀ (rounds : Nat) (program_id : Int) (call_length : Nat), 0 ≤ program_id →
      program_id.toNat + call_length < self.program_.size → program_id.toNat < rounds →
      (∀ n, self.resolveLoop FingerprintCat m fuel exec sample slice rounds program_id
          call_length ≠ .check_failed n) ∧
      ((∀ id : Int, 0 ≤ id →
          self.program_.program_type id.toNat = some .BRANCHED_PROGRAM →
          (self.GetSubmodelBranch FingerprintCat m fuel id exec sample slice).isSome = true) →
        ∃ p n, self.resolveLoop FingerprintCat m fuel exec sample slice rounds program_id
            call_length = .straight p n ∧ n ≤ call_length + program_id.toNat) := by
  intro rounds
  induction rounds with
  | zero => intro program_id call_length _ _ h; omega
  | succ rounds ih =>
    intro program_id call_length h0 h1 h2
    unfold TGenModel.resolveLoop
    rw [if_neg (by omega)]
    have hlt : program_id.toNat < self.program_.entries_.length := by
      unfold TGenProgram.size at h1
      omega
    cases ht : self.program_.program_type program_id.toNat with
    | none =>
      unfold TGenProgram.program_type at ht
      rw [List.getElem?_eq_getElem hlt] at ht
      exact Option.noConfusion ht
    | some ty =>
      cases ty with
      | SIMPLE_PROGRAM =>
        exact ⟨fun n h => Resolved.noConfusion h, fun _ => ⟨program_id, call_length, rfl,
          by omega⟩⟩
      | BRANCHED_PROGRAM =>
        simp only []
        cases hb : self.GetSubmodelBranch FingerprintCat m fuel program_id exec sample
            slice with
        | none =>
          refine ⟨fun n h => Resolved.noConfusion h, fun hdef => ?_⟩
          have := hdef program_id h0 ht
          rw [hb] at this
          exact Bool.noConfusion this
        | some q =>
          simp only []
          obtain ⟨_, prog, hprog, hq⟩ := GetSubmodelBranch_target _ _ _ _ _ _ _ _ _ hb
          obtain ⟨hd1, hd2⟩ := hdec program_id.toNat prog hprog
          have hq2 : 0 ≤ q ∧ q < program_id := by
            rcases hq with hq | ⟨e, he, hq⟩
            · rw [hq]; omega
            · have := hd2 e he
              rw [← hq]; omega
          rw [if_pos (by omega)]
          obtain ⟨i1, i2⟩ := ih q (call_length + 1) hq2.1 (by omega) (by omega)
          refine ⟨i1, fun hdef => ?_⟩
          obtain ⟨p, n, hpn, hn⟩ := i2 hdef
          exact ⟨p, n, hpn, by omega⟩
/-- Claim C29, the amended claim. For every program table, start id and sample, the loop that
resolves a program id ends within `size() + 2` rounds (more rounds do not change its result), in
one of three ways: at a program of the table that is not branched, after at most `size()` calls
of `GetSubmodelBranch`; at the failed `CHECK_LE(call_length, program_.size())`, in the call
`size() + 1`; or at a failed `CHECK` of `program_type` or of `GetSubmodelBranch`, after at most
`size()` calls. When the programs reached from the start id stay branched, as on a cycle, the
`CHECK_LE` fails after `size() + 1` calls. On a table in which every target is a smaller id, from
a start id of the table, the `CHECK_LE` does not fail, and the loop ends at a program that is not
branched when every call of `GetSubmodelBranch` has a result. -/
theorem resolution_ends_after_at_most_size_plus_one_calls (FingerprintCat : Int → Int → Int)
    (m : Memory) (fuel : Nat) (self : TGenModel) (program_id : Int) (exec : ExecutionForTree)
    (sample : FullTreeTraversal) (slice : Option TreeSlice) :
    self.resolve FingerprintCat m fuel program_id exec sample slice ≠ .out_of_rounds ∧
    (∀ extra : Nat,
      self.resolveLoop FingerprintCat m fuel exec sample slice
          (self.program_.size + 2 + extra) program_id 0
        = self.resolve FingerprintCat m fuel program_id exec sample slice) ∧
    (∀ p n, self.resolve FingerprintCat m fuel program_id exec sample slice = .straight p n →
      n ≤ self.program_.size ∧ 0 ≤ p ∧
      self.program_.program_type p.toNat = some .SIMPLE_PROGRAM) ∧
    (∀ n, self.resolve FingerprintCat m fuel program_id exec sample slice = .check_failed n →
      n = self.program_.size + 1) ∧
    (∀ n, self.resolve FingerprintCat m fuel program_id exec sample slice = .aborted n →
      n ≤ self.program_.size) ∧
    (∀ P : Int → Prop,
      (∀ id, P id → 0 ≤ id ∧
        self.program_.program_type id.toNat = some .BRANCHED_PROGRAM ∧
        ∃ p, self.GetSubmodelBranch FingerprintCat m fuel id exec sample slice = some p ∧
          P p) →
      P program_id →
      self.resolve FingerprintCat m fuel program_id exec sample slice
        = .check_failed (self.program_.size + 1)) ∧
    (self.program_.TargetsDecrease → 0 ≤ program_id →
      program_id < (self.program_.size : Int) →
      (∀ n, self.resolve FingerprintCat m fuel program_id exec sample slice
        ≠ .check_failed n) ∧
      ((∀ id : Int, 0 ≤ id →
          self.program_.program_type id.toNat = some .BRANCHED_PROGRAM →
          (self.GetSubmodelBranch FingerprintCat m fuel id exec sample slice).isSome = true) →
        ∃ p n, self.resolve FingerprintCat m fuel program_id exec sample slice
          = .straight p n ∧ n ≤ program_id.toNat)) := by
  obtain ⟨b1, b2, b3, b4⟩ := resolveLoop_bound FingerprintCat m fuel self exec sample slice
    (self.program_.size + 2) program_id 0 (Nat.zero_le _) (by omega)
  refine ⟨b1, ?_, ?_, b3, ?_, ?_, ?_⟩
  · intro extra
    exact resolveLoop_more_rounds FingerprintCat m fuel self exec sample slice _ _ _ extra b1
  · intro p n h
    exact (b2 p n h).2
  · intro n h
    exact (b4 n h).2
  · intro P hP hp
    exact resolveLoop_cycle FingerprintCat m fuel self exec sample slice P hP _ _ _ hp
      (Nat.zero_le _) (by omega)
  · intro hdec h0 hlt
    obtain ⟨d1, d2⟩ := resolveLoop_decreasing FingerprintCat m fuel self exec sample slice hdec
      (self.program_.size + 2) program_id 0 h0 (by omega) (by omega)
    refine ⟨d1, fun hdef => ?_⟩
    obtain ⟨p, n, h, hn⟩ := d2 hdef
    exact ⟨p, n, h, by omega⟩

/-- Claim C29 as it is stated fails: on the table of the one branched program
`switch: else goto 0`, of size 1, the loop calls `GetSubmodelBranch` twice before the
`CHECK_LE` fails, which is more than `size()` branched entries. -/
theorem resolution_of_self_loop_evaluates_two_entries :
    loop_model.program_.size = 1 ∧
    loop_model.GetSubmodelBranch test_FingerprintCat [test_tcond_tree] 10 0 test_exec
      { storage_ := some 0, position_ := 5 } none = some 0 ∧
    loop_model.resolve test_FingerprintCat [test_tcond_tree] 10 0 test_exec
      { storage_ := some 0, position_ := 5 } none = .check_failed 2 := by
  decide

/-- The table of `decreasing_model` has targets that are smaller ids, and the loop from its
start id 2, for the sample at node 5 of `test_tcond_tree`, whose parent has the type 4, ends at
program 0 after one call of `GetSubmodelBranch`. -/
theorem decreasing_model_resolves :
    decreasing_model.program_.TargetsDecrease ∧
    decreasing_model.resolve test_FingerprintCat [test_tcond_tree] 10 2 test_exec
      { storage_ := some 0, position_ := 5 } (some (test_slice false)) = .straight 0 1 := by
  refine ⟨?_, by decide⟩
  intro id prog h
  have hl : decreasing_model.program_.entries_.length = 3 := by decide
  match id, h with
  | 0, h =>
    have h2 : decreasing_model.program_.branched_prog 0 = none := by decide
    rw [h2] at h
    exact Option.noConfusion h
  | 1, h =>
    have h2 : decreasing_model.program_.branched_prog 1 = none := by decide
    rw [h2] at h
    exact Option.noConfusion h
  | 2, h =>
    have h2 : decreasing_model.program_.branched_prog 2
        = some { cond := BranchCond.ofPredefined .PARENT_TYPE_COND, per_case_p := [([4], 0)],
                 p_default := 1 } := by decide
    rw [h2] at h
    rw [← Option.some.inj h]
    exact ⟨by decide, by decide⟩
  | n + 3, h =>
    unfold TGenProgram.branched_prog at h
    rw [List.getElem?_eq_none (by omega)] at h
    exact Option.noConfusion h

/-! ## The label of a sample -/

/-- The callback of `GetLabelAtPosition` leaves a negative label as it is. -/
theorem teqCallback_negative (o : List Int) :
    ∀ (label k : Int), label < 0 → (o.foldl teqCallback (label, k)).1 = label := by
  induction o with
  | nil => intro label k _; rfl
  | cons x rest ih =>
    intro label k h
    rw [List.foldl_cons]
    have : teqCallback (label, k) x = (label, k + 1) := by
      unfold teqCallback
      simp only []
      rw [if_neg (by omega)]
    rw [this]
    exact ih label (k + 1) h

/-- The label after the calls of the callback of `GetLabelAtPosition` from `op_count = k`, for a
label that is not negative. -/
theorem teqCallback_first (raw : Int) (hraw : 0 ≤ raw) (o : List Int) :
    ∀ k : Int, 0 ≤ k →
      (∀ i : Nat, o[i]? = some raw → (∀ j, j < i → o[j]? ≠ some raw) → k + (i : Int) < 10 →
        (o.foldl teqCallback (raw, k)).1 = -10 - (k + (i : Int))) ∧
      ((∀ i : Nat, k + (i : Int) < 10 → o[i]? ≠ some raw) →
        (o.foldl teqCallback (raw, k)).1 = raw) := by
  induction o with
  | nil =>
    intro k _
    exact ⟨fun i h => Option.noConfusion h, fun _ => rfl⟩
  | cons x rest ih =>
    intro k hk
    rw [List.foldl_cons]
    by_cases hx : x = raw
    · by_cases hk10 : k < 10
      · have hstep : teqCallback (raw, k) x = (-10 - k, k + 1) := by
          unfold teqCallback TEQ_MAX_LABEL_INDEX TEQ_LABEL_INDEX_START
          simp only []
          rw [if_pos ⟨hraw, hx, hk10⟩]
        rw [hstep, teqCallback_negative rest _ _ (by omega)]
        refine ⟨fun i hi hmin _ => ?_, fun hno => ?_⟩
        · have hi0 : i = 0 := by
            by_contra hne
            exact hmin 0 (Nat.pos_of_ne_zero hne) (by simp [hx])
          subst hi0
          simp
        · exact absurd (by simp [hx]) (hno 0 (by simpa using hk10))
      · have hstep : teqCallback (raw, k) x = (raw, k + 1) := by
          unfold teqCallback TEQ_MAX_LABEL_INDEX
          simp only []
          rw [if_neg (fun h => hk10 h.2.2)]
        rw [hstep]
        obtain ⟨_, i2⟩ := ih (k + 1) (by omega)
        have hraw2 := i2 (fun i hi => by omega)
        refine ⟨fun i hi hmin hlt => ?_, fun _ => hraw2⟩
        have hi0 : i = 0 := by
          by_contra hne
          exact hmin 0 (Nat.pos_of_ne_zero hne) (by simp [hx])
        subst hi0
        simp at hlt
        omega
    · have hstep : teqCallback (raw, k) x = (raw, k + 1) := by
        unfold teqCallback
        simp only []
        rw [if_neg (fun h => hx h.2.1)]
      rw [hstep]
      obtain ⟨i1, i2⟩ := ih (k + 1) (by omega)
      refine ⟨fun i hi hmin hlt => ?_, fun hno => ?_⟩
      · match i, hi, hmin, hlt with
        | 0, hi, _, _ =>
          simp at hi
          exact absurd hi hx
        | i + 1, hi, hmin, hlt =>
          have := i1 i (by simpa using hi)
            (fun j hj => by
              have := hmin (j + 1) (by omega)
              simpa using this)
            (by push_cast at hlt; omega)
          rw [this]
          push_cast
          omega
      · apply i2
        intro i hi
        have := hno (i + 1) (by push_cast; omega)
        simpa using this

/-- The program that `ExecuteEqProgramByIdInAll` runs for a program that is not branched is its
TEq program. -/
theorem ExecuteEqProgramByIdInAll_simple (FingerprintCat : Int → Int → Int) (m : Memory)
    (fuel : Nat) (exec : ExecutionForTree) ( all : TGenProgram) (depth : Nat)
    (traversal : SlicedTreeTraversal) (p : Int) (h0 : 0 ≤ p)
    (ht : all.program_type p.toNat = some .SIMPLE_PROGRAM) :
    ExecuteEqProgramByIdInAll FingerprintCat m fuel exec all (depth + 1) traversal p
      = (all.simple_prog p.toNat).bind fun curr =>
          exec.GetConditionedFeaturesForPosition FingerprintCat m fuel curr.eq_program
            traversal := by
  unfold ExecuteEqProgramByIdInAll
  rw [if_neg (by omega), ht]

/-- The program that `ExecuteContextProgramByIdInAll` runs for a program that is not branched
is its context program. -/
theorem ExecuteContextProgramByIdInAll_simple (FingerprintCat : Int → Int → Int) (m : Memory)
    (fuel : Nat) (exec : ExecutionForTree) ( all : TGenProgram) (depth : Nat)
    (traversal : SlicedTreeTraversal) (p : Int) (h0 : 0 ≤ p)
    (ht : all.program_type p.toNat = some .SIMPLE_PROGRAM) :
    ExecuteContextProgramByIdInAll FingerprintCat m fuel exec all (depth + 1) traversal p
      = (all.simple_prog p.toNat).bind fun curr =>
          exec.GetConditionedFeaturesForPosition FingerprintCat m fuel curr.context_program
            traversal := by
  unfold ExecuteContextProgramByIdInAll
  rw [if_neg (by omega), ht]

/-- The loop that resolves a program id, from a program that is not branched, ends at once. -/
theorem resolve_straight (FingerprintCat : Int → Int → Int) (m : Memory) (fuel : Nat)
    (self : TGenModel) (p : Int) (exec : ExecutionForTree) (sample : FullTreeTraversal)
    (slice : Option TreeSlice) (h0 : 0 ≤ p)
    (ht : self.program_.program_type p.toNat = some .SIMPLE_PROGRAM) :
    self.resolve FingerprintCat m fuel p exec sample slice = .straight p 0 := by
  unfold TGenModel.resolve TGenModel.resolveLoop
  rw [if_neg (by omega), ht]

/-- The label of `GetLabelAtPosition` with TEq, from the values that the TEq program of the
resolved program passes to the callback. -/
theorem GetLabelAtPosition_teq (FingerprintCat : Int → Int → Int) (m : Memory) (fuel : Nat)
    (depth : Nat) (self : TGenModel) (program_id : Int) (exec : ExecutionForTree)
    (sample : FullTreeTraversal) (slice : Option TreeSlice) (p : Int) (n : Nat)
    (curr : SimpleCondProgram) (node : TreeNode) (o : List Int) (t1 : SlicedTreeTraversal)
    (hres : self.resolve FingerprintCat m fuel program_id exec sample slice = .straight p n)
    (hcurr : self.program_.simple_prog p.toNat = some curr)
    (hnode : sample.node m = some node)
    (heq : exec.GetConditionedFeaturesForPosition FingerprintCat m fuel curr.eq_program
      (SlicedTreeTraversal.create sample.storage_ sample.position_ slice) = some (o, t1)) :
    self.GetLabelAtPosition FingerprintCat m fuel (depth + 1) true program_id exec sample slice
        true
      = if self.is_for_node_type_ then
          EncodeTypeLabel
            { type := (o.foldl teqCallback (node.Type, 0)).1,
              has_first_child := node.first_child != -1,
              has_right_sib := node.right_sib != -1 }
        else some (o.foldl teqCallback (node.Value, 0)).1 := by
  obtain ⟨_, hb, _⟩ := resolveLoop_bound FingerprintCat m fuel self exec sample slice
    (self.program_.size + 2) program_id 0 (Nat.zero_le _) (by omega)
  obtain ⟨_, _, hp0, hpt⟩ := hb p n hres
  unfold TGenModel.GetLabelAtPosition
  simp only [Bool.and_self, if_true, hres, Resolved.program, Option.some_bind, hnode]
  rw [ExecuteEqProgramByIdInAll_simple _ _ _ _ _ _ _ _ hp0 hpt, hcurr]
  simp only [Option.some_bind, heq, Option.map_some']
  by_cases hty : self.is_for_node_type_ = true
  · simp [hty]
  · simp [hty]
/-- Claim C28. Label extraction with TEq (the flag `FLAGS_enable_teq` and the argument `use_teq`
are true): when the loop resolves the program id to the program `p`, with `raw` the `Value()` of
the node of the sample (its `Type()` when the model predicts types) and `o` the values that the
TEq program of `p` passes to the callback, the call returns the label `label` (packed by
`EncodeTypeLabel` with the bits `first_child != -1` and `right_sib != -1` of the node when the
model predicts types), where `label = -10 - i` for the least `i` with `o[i] = raw` when
`raw >= 0` and `i < 10`, and `label = raw` when `raw < 0` or no `o[i]` with `i < 10` is `raw`.
The labels `-10 - i` for different `i` are different, and negative for `i` from 0 on. -/
theorem GetLabelAtPosition_remaps_first_equal_emission (FingerprintCat : Int → Int → Int)
    (m : Memory) (fuel : Nat) (depth : Nat) (self : TGenModel) (program_id : Int)
    (exec : ExecutionForTree) (sample : FullTreeTraversal) (slice : Option TreeSlice) (p : Int)
    (n : Nat) (curr : SimpleCondProgram) (node : TreeNode) (o : List Int)
    (t1 : SlicedTreeTraversal)
    (hres : self.resolve FingerprintCat m fuel program_id exec sample slice = .straight p n)
    (hcurr : self.program_.simple_prog p.toNat = some curr)
    (hnode : sample.node m = some node)
    (heq : exec.GetConditionedFeaturesForPosition FingerprintCat m fuel curr.eq_program
      (SlicedTreeTraversal.create sample.storage_ sample.position_ slice) = some (o, t1)) :
    ∃ label : Int,
      (∀ i : Nat, i < 10 → 0 ≤ (if self.is_for_node_type_ then node.Type else node.Value) →
        o[i]? = some (if self.is_for_node_type_ then node.Type else node.Value) →
        (∀ j, j < i → o[j]? ≠ some (if self.is_for_node_type_ then node.Type else node.Value)) →
        label = TEQ_LABEL_INDEX_START - (i : Int)) ∧
      (((if self.is_for_node_type_ then node.Type else node.Value) < 0 ∨
          ∀ i : Nat, i < 10 →
            o[i]? ≠ some (if self.is_for_node_type_ then node.Type else node.Value)) →
        label = (if self.is_for_node_type_ then node.Type else node.Value)) ∧
      self.GetLabelAtPosition FingerprintCat m fuel (depth + 1) true program_id exec sample
          slice true
        = (if self.is_for_node_type_ then
            EncodeTypeLabel
              { type := label, has_first_child := node.first_child != -1,
                has_right_sib := node.right_sib != -1 }
          else some label) ∧
      (∀ i j : Int, TEQ_LABEL_INDEX_START - i = TEQ_LABEL_INDEX_START - j → i = j) ∧
      (∀ i : Int, 0 ≤ i → TEQ_LABEL_INDEX_START - i < 0) := by
  have hmain := GetLabelAtPosition_teq FingerprintCat m fuel depth self program_id exec sample
    slice p n curr node o t1 hres hcurr hnode heq
  refine ⟨(o.foldl teqCallback
    ((if self.is_for_node_type_ then node.Type else node.Value), 0)).1, ?_, ?_, ?_, ?_, ?_⟩
  · intro i hi hraw hoi hmin
    have := (teqCallback_first _ hraw o 0 (le_refl 0)).1 i hoi hmin (by omega)
    rw [this]
    unfold TEQ_LABEL_INDEX_START
    omega
  · intro h
    rcases h with h | h
    · exact teqCallback_negative o _ _ h
    · by_cases hraw : 0 ≤ (if self.is_for_node_type_ then node.Type else node.Value)
      · exact (teqCallback_first _ hraw o 0 (le_refl 0)).2 (fun i hi => h i (by omega))
      · exact teqCallback_negative o _ _ (by omega)
  · rw [hmain]
    by_cases hty : self.is_for_node_type_ = true
    · simp [hty]
    · simp [hty]
  · intro i j h
    omega
  · intro i hi
    unfold TEQ_LABEL_INDEX_START
    omega

theorem GetLabelAtPosition_remaps_first_equal_emission_witness :
    teq_model.resolve test_FingerprintCat [test_tcond_tree] 10 0 test_exec teq_sample
        (some teq_slice) = .straight 0 0 ∧
    teq_model.program_.simple_prog (0 : Int).toNat = some teq_program ∧
    teq_sample.node [test_tcond_tree] = some teq_node ∧
    test_exec.GetConditionedFeaturesForPosition test_FingerprintCat [test_tcond_tree] 10
        teq_program.eq_program
        (SlicedTreeTraversal.create teq_sample.storage_ teq_sample.position_ (some teq_slice))
      = some ([3], teq_traversal_end) ∧
    ∃ label : Int,
      (∀ i : Nat, i < 10 →
        0 ≤ (if teq_model.is_for_node_type_ then teq_node.Type else teq_node.Value) →
        [(3 : Int)][i]?
          = some (if teq_model.is_for_node_type_ then teq_node.Type else teq_node.Value) →
        (∀ j, j < i → [(3 : Int)][j]?
          ≠ some (if teq_model.is_for_node_type_ then teq_node.Type else teq_node.Value)) →
        label = TEQ_LABEL_INDEX_START - (i : Int)) ∧
      (((if teq_model.is_for_node_type_ then teq_node.Type else teq_node.Value) < 0 ∨
          ∀ i : Nat, i < 10 →
            [(3 : Int)][i]?
              ≠ some (if teq_model.is_for_node_type_ then teq_node.Type else teq_node.Value)) →
        label = (if teq_model.is_for_node_type_ then teq_node.Type else teq_node.Value)) ∧
      teq_model.GetLabelAtPosition test_FingerprintCat [test_tcond_tree] 10 (0 + 1) true 0
          test_exec teq_sample (some teq_slice) true
        = (if teq_model.is_for_node_type_ then
            EncodeTypeLabel
              { type := label, has_first_child := teq_node.first_child != -1,
                has_right_sib := teq_node.right_sib != -1 }
          else some label) ∧
      (∀ i j : Int, TEQ_LABEL_INDEX_START - i = TEQ_LABEL_INDEX_START - j → i = j) ∧
      (∀ i : Int, 0 ≤ i → TEQ_LABEL_INDEX_START - i < 0) :=
  ⟨by decide, by decide, by decide, by decide,
    GetLabelAtPosition_remaps_first_equal_emission test_FingerprintCat [test_tcond_tree] 10 0
      teq_model 0 test_exec teq_sample (some teq_slice) 0 0 teq_program teq_node [3]
      teq_traversal_end (by decide) (by decide) (by decide) (by decide)⟩

/-- The label of the sample at node 4 of `test_tcond_tree` for `teq_model`: the value of the
node is 3, the TEq program passes the value 3 of node 2 to the callback, and the label is
`-10`. -/
theorem teq_model_label :
    teq_model.GetLabelAtPosition test_FingerprintCat [test_tcond_tree] 10 1 true 0
      test_exec teq_sample (some teq_slice) true = some (-10) ∧
    teq_model.GetLabelAtPosition test_FingerprintCat [test_tcond_tree] 10 1 false 0
      test_exec teq_sample (some teq_slice) true = some 3 := by
  decide

/-! ## Training on one sample -/

/-- The loop of the callback of `GenerativeTrainOneSample` adds the label once for each value of
the variable `f`. -/
theorem trainLoop_spec (FingerprintCat : Int → Int → Int)
    (layout : List ((SequenceHashFeature × Int) × Int) →
      List ((SequenceHashFeature × Int) × Int)) (label : Int) (es : List Int) :
    ∀ (f : SequenceHashFeature) (c : PerFeatureValueCounter),
      (trainLoop FingerprintCat layout label es f c).map Prod.snd
        = (prefixFeatures FingerprintCat es f).map fun fs =>
            c.addValues layout (fs.map fun g => (g, label, 1)) := by
  induction es with
  | nil => intro f c; rfl
  | cons e rest ih =>
    intro f c
    unfold trainLoop prefixFeatures
    cases hpush : f.pushBack FingerprintCat e with
    | none => rfl
    | some f1 =>
      simp only [Option.some_bind]
      rw [ih f1 (c.AddValue layout f1 label 1)]
      cases prefixFeatures FingerprintCat rest f1 with
      | none => rfl
      | some fs => rfl

/-- The count of a key after calls of `AddValue` with the count 1: the machine adds 1 for each
call with the key. -/
theorem foldl_findAfterAdd_ones (xs : List (SequenceHashFeature × Int × Int))
    (hone : ∀ x ∈ xs, x.2.2 = 1) (key : SequenceHashFeature × Int) :
    ∀ g : SequenceHashFeature × Int → Option Int,
      ((xs.foldl findAfterAdd g) key).getD 0
        = (fun v => addInt32 v 1)^[xs.countP fun x => keyEquals (x.1, x.2.1) key]
            ((g key).getD 0) := by
  induction xs with
  | nil => intro g; rfl
  | cons x rest ih =>
    intro g
    rw [List.foldl_cons, ih (fun y hy => hone y (List.mem_cons_of_mem _ hy)),
      List.countP_cons]
    have h1 := hone x (List.mem_cons_self _ _)
    by_cases hk : keyEquals (x.1, x.2.1) key = true
    · rw [if_pos hk, Function.iterate_succ_apply]
      unfold findAfterAdd
      simp only [hk, if_true, Option.getD_some, h1]
    · rw [if_neg hk]
      unfold findAfterAdd
      simp only [hk, Bool.false_eq_true, if_false, add_zero]

/-- Adding 1 a number of times as the machine does is the sum when the sum fits an `int`. -/
theorem iterate_addInt32_one (n : Nat) :
    ∀ v : Int, -2147483648 ≤ v → v + (n : Int) < 2147483648 →
      (fun v => addInt32 v 1)^[n] v = v + (n : Int) := by
  induction n with
  | zero => intro v _ _; simp
  | succ n ih =>
    intro v h1 h2
    rw [Function.iterate_succ_apply]
    have : addInt32 v 1 = v + 1 := by
      unfold addInt32
      push_cast at h2
      omega
    rw [this, ih (v + 1) (by omega) (by push_cast at h2 ⊢; omega)]
    push_cast
    omega

/-- The counters after `GenerativeTrainOneSample`: the counter of the resolved program has the
label added once for the feature without values and once for each value of the variable `f` of
the callback. -/
theorem GenerativeTrainOneSample_spec (FingerprintCat : Int → Int → Int) (m : Memory)
    (fuel : Nat) (depth : Nat) (enable_teq : Bool)
    (layout : List ((SequenceHashFeature × Int) × Int) →
      List ((SequenceHashFeature × Int) × Int))
    (self : TGenModel) (counts counts1 : List PerFeatureValueCounter) (program_id : Int)
    (exec : ExecutionForTree) (sample : FullTreeTraversal)
    (h : self.GenerativeTrainOneSample FingerprintCat m fuel depth enable_teq layout counts
      program_id exec sample = some counts1) :
    ∃ (slice : TreeSlice) (p : Int) (n : Nat) (label : Int) (c : PerFeatureValueCounter)
      (es : List Int) (t1 : SlicedTreeTraversal) (fs : List SequenceHashFeature),
      self.trainingSlice m sample = some slice ∧
      self.resolve FingerprintCat m fuel program_id exec sample (some slice)
        = .straight p n ∧
      0 ≤ p ∧ self.program_.program_type p.toNat = some .SIMPLE_PROGRAM ∧
      self.GetLabelAtPosition FingerprintCat m fuel depth enable_teq p exec sample
        (some slice) true = some label ∧
      counts[p.toNat]? = some c ∧
      ExecuteContextProgramByIdInAll FingerprintCat m fuel exec self.program_ depth
        (SlicedTreeTraversal.create sample.storage_ sample.position_ (some slice)) p
        = some (es, t1) ∧
      prefixFeatures FingerprintCat es SequenceHashFeature.create = some fs ∧
      counts1 = counts.set p.toNat
        (c.addValues layout ((SequenceHashFeature.create :: fs).map fun g => (g, label, 1))) := by
  unfold TGenModel.GenerativeTrainOneSample at h
  simp only [Option.bind_eq_some, Option.map_eq_some'] at h
  obtain ⟨slice, hslice, p, hp, label, hlabel, c, hc, r, hr, x, hx, hset⟩ := h
  cases hres : self.resolve FingerprintCat m fuel program_id exec sample (some slice) with
  | straight q n =>
    rw [hres] at hp
    have hq : q = p := Option.some.inj hp
    subst hq
    obtain ⟨_, hb, _⟩ := resolveLoop_bound FingerprintCat m fuel self exec sample (some slice)
      (self.program_.size + 2) program_id 0 (Nat.zero_le _) (by omega)
    obtain ⟨_, _, hp0, hpt⟩ := hb q n hres
    have hspec := trainLoop_spec FingerprintCat layout label r.1 SequenceHashFeature.create
      (c.AddValue layout SequenceHashFeature.create label 1)
    rw [hx] at hspec
    cases hfs : prefixFeatures FingerprintCat r.1 SequenceHashFeature.create with
    | none =>
      rw [hfs] at hspec
      exact Option.noConfusion hspec
    | some fs =>
      rw [hfs] at hspec
      refine ⟨slice, q, n, label, c, r.1, r.2, fs, hslice, hres, hp0, hpt, hlabel, hc, hr,
        hfs, ?_⟩
      rw [← hset]
      have : x.2 = (c.AddValue layout SequenceHashFeature.create label 1).addValues layout
          (fs.map fun g => (g, label, 1)) := Option.some.inj hspec
      rw [this]
      rfl
  | check_failed n =>
    rw [hres] at hp
    exact Option.noConfusion hp
  | aborted n =>
    rw [hres] at hp
    exact Option.noConfusion hp
  | out_of_rounds =>
    rw [hres] at hp
    exact Option.noConfusion hp

/-- The counts of a counter after the calls `AddValue(g, label, 1)` for the features `g` of a
list. -/
theorem addValues_label_count (layout : List ((SequenceHashFeature × Int) × Int) →
      List ((SequenceHashFeature × Int) × Int)) (hlayout : ∀ l, (layout l).Perm l)
    (c : PerFeatureValueCounter) (hcw : c.WellFormed) (gs : List SequenceHashFeature)
    (label : Int) (f : SequenceHashFeature) (l : Int) :
    (c.addValues layout (gs.map fun g => (g, label, 1))).GetCount f l
      = (fun v => addInt32 v 1)^[gs.countP fun g => keyEquals (g, label) (f, l)]
          (c.GetCount f l) := by
  obtain ⟨_, hfind⟩ := addValues_spec layout hlayout (gs.map fun g => (g, label, 1)) c hcw
  unfold PerFeatureValueCounter.GetCount
  rw [hfind, foldl_findAfterAdd_ones _ (by
    intro x hx
    rw [List.mem_map] at hx
    obtain ⟨g, _, hg⟩ := hx
    rw [← hg]) (f, l), List.countP_map]
  rfl

/-- The count of a pair with another label is not changed by calls `AddValue(g, label, 1)`. -/
theorem addValues_other_label (layout : List ((SequenceHashFeature × Int) × Int) →
      List ((SequenceHashFeature × Int) × Int)) (hlayout : ∀ l, (layout l).Perm l)
    (c : PerFeatureValueCounter) (hcw : c.WellFormed) (gs : List SequenceHashFeature)
    (label : Int) (f : SequenceHashFeature) (l : Int) (hl : l ≠ label) :
    (c.addValues layout (gs.map fun g => (g, label, 1))).GetCount f l = c.GetCount f l := by
  rw [addValues_label_count layout hlayout c hcw gs label f l]
  have : gs.countP (fun g => keyEquals (g, label) (f, l)) = 0 := by
    rw [List.countP_eq_zero]
    intro g _
    simp only [keyEquals, Bool.and_eq_true, beq_iff_eq, not_and]
    intro _ hll
    exact hl hll.symm
  rw [this]
  rfl

/-- The label of `GetLabelAtPosition` without TEq: the `Value()` of the node, or its `Type()`
packed by `EncodeTypeLabel`. -/
theorem GetLabelAtPosition_without_teq (FingerprintCat : Int → Int → Int) (m : Memory)
    (fuel : Nat) (depth : Nat) (self : TGenModel) (p : Int) (exec : ExecutionForTree)
    (sample : FullTreeTraversal) (slice : Option TreeSlice) (use_teq : Bool) :
    self.GetLabelAtPosition FingerprintCat m fuel depth false p exec sample slice use_teq
      = (sample.node m).bind fun node =>
          if self.is_for_node_type_ then
            EncodeTypeLabel
              { type := node.Type, has_first_child := node.first_child != -1,
                has_right_sib := node.right_sib != -1 }
          else some node.Value := by
  unfold TGenModel.GetLabelAtPosition
  simp only [Bool.false_and, Bool.false_eq_true, if_false, Option.some_bind]
  cases sample.node m with
  | none => rfl
  | some node =>
    simp only [Option.some_bind]
    by_cases hty : self.is_for_node_type_ = true
    · simp [hty]
    · simp [hty]

/-- The label of `GetLabelAtPosition` with TEq for a program that is not branched. -/
theorem GetLabelAtPosition_with_teq (FingerprintCat : Int → Int → Int) (m : Memory)
    (fuel : Nat) (depth : Nat) (self : TGenModel) (p : Int) (exec : ExecutionForTree)
    (sample : FullTreeTraversal) (slice : Option TreeSlice) (label : Int) (h0 : 0 ≤ p)
    (ht : self.program_.program_type p.toNat = some .SIMPLE_PROGRAM)
    (h : self.GetLabelAtPosition FingerprintCat m fuel depth true p exec sample slice true
      = some label) :
    ∃ (node : TreeNode) (curr : SimpleCondProgram) (o : List Int) (t1 : SlicedTreeTraversal),
      sample.node m = some node ∧ self.program_.simple_prog p.toNat = some curr ∧
      exec.GetConditionedFeaturesForPosition FingerprintCat m fuel curr.eq_program
        (SlicedTreeTraversal.create sample.storage_ sample.position_ slice) = some (o, t1) ∧
      (if self.is_for_node_type_ then
          EncodeTypeLabel
            { type := (o.foldl teqCallback (node.Type, 0)).1,
              has_first_child := node.first_child != -1,
              has_right_sib := node.right_sib != -1 }
        else some (o.foldl teqCallback (node.Value, 0)).1) = some label := by
  have hres := resolve_straight FingerprintCat m fuel self p exec sample slice h0 ht
  cases depth with
  | zero =>
    unfold TGenModel.GetLabelAtPosition at h
    simp only [Bool.and_self, if_true, hres, Resolved.program, Option.some_bind,
      ExecuteEqProgramByIdInAll, Option.map_none', Option.none_bind, Option.bind_eq_some] at h
    obtain ⟨_, _, hh⟩ := h
    exact Option.noConfusion hh
  | succ d =>
    cases hnode : sample.node m with
    | none =>
      unfold TGenModel.GetLabelAtPosition at h
      simp only [Bool.and_self, if_true, hres, Resolved.program, Option.some_bind, hnode,
        Option.none_bind] at h
      exact Option.noConfusion h
    | some node =>
      cases hcurr : self.program_.simple_prog p.toNat with
      | none =>
        unfold TGenModel.GetLabelAtPosition at h
        simp only [Bool.and_self, if_true, hres, Resolved.program, Option.some_bind, hnode] at h
        rw [ExecuteEqProgramByIdInAll_simple _ _ _ _ _ _ _ _ h0 ht, hcurr] at h
        exact Option.noConfusion h
      | some curr =>
        cases heq : exec.GetConditionedFeaturesForPosition FingerprintCat m fuel
            curr.eq_program
            (SlicedTreeTraversal.create sample.storage_ sample.position_ slice) with
        | none =>
          unfold TGenModel.GetLabelAtPosition at h
          simp only [Bool.and_self, if_true, hres, Resolved.program, Option.some_bind,
            hnode] at h
          rw [ExecuteEqProgramByIdInAll_simple _ _ _ _ _ _ _ _ h0 ht, hcurr] at h
          simp only [Option.some_bind, heq] at h
          exact Option.noConfusion h
        | some r =>
          obtain ⟨o, t1⟩ := r
          refine ⟨node, curr, o, t1, rfl, rfl, heq, ?_⟩
          rw [← GetLabelAtPosition_teq FingerprintCat m fuel d self p exec sample slice p 0
            curr node o t1 hres hcurr hnode heq]
          exact h
/-- The number of the features of a list with different hashes that are equal to one of
them is 1. -/
theorem countP_keyEquals_nodup (l : List SequenceHashFeature) (label : Int)
    (hnd : (l.map fun g => g.hash_).Nodup) (g : SequenceHashFeature) (hg : g ∈ l) :
    l.countP (fun g1 => keyEquals (g1, label) (g, label)) = 1 := by
  have h1 : l.countP (fun g1 => keyEquals (g1, label) (g, label))
      = (l.map fun g => g.hash_).count g.hash_ := by
    rw [List.count, List.countP_map]
    apply List.countP_congr
    intro x _
    simp [keyEquals, SequenceHashFeature.equals]
  rw [h1]
  exact List.count_eq_one_of_mem hnd (List.mem_map_of_mem _ hg)

/-- Claim C27. When `GenerativeTrainOneSample` returns, the loop has resolved the program id to
a program `p` that is not branched, the label of the sample is `l`, the context program of `p`
has passed the values `e1..en` to the callback, and `f0, f1, ..., fn` are the feature without
values and the values of `f` after each `PushBack`. The counters of the other programs are as
before, and in the counter of `p` the count of every pair of feature and label has 1 added, as
the machine adds, once for each `k` with `(fk, l)` equal to the pair: the count of a pair with
another label or a feature equal to no `fk` is as before, the sum is exact when it fits an
`int`, and when the hashes of `f0, ..., fn` are different from each other the count of each
`(fk, l)` has 1 added once. The order in which the hash table lists its entries is any
`layout`; the table of each counter holds each key once. -/
theorem GenerativeTrainOneSample_adds_one_for_each_prefix
    (FingerprintCat : Int → Int → Int) (m : Memory) (fuel : Nat) (depth : Nat)
    (enable_teq : Bool)
    (layout : List ((SequenceHashFeature × Int) × Int) →
      List ((SequenceHashFeature × Int) × Int)) (hlayout : ∀ l, (layout l).Perm l)
    (self : TGenModel) (counts counts1 : List PerFeatureValueCounter) (program_id : Int)
    (exec : ExecutionForTree) (sample : FullTreeTraversal)
    (hwf : ∀ c ∈ counts, c.WellFormed)
    (h : self.GenerativeTrainOneSample FingerprintCat m fuel depth enable_teq layout counts
      program_id exec sample = some counts1) :
    ∃ (slice : TreeSlice) (p : Int) (n : Nat) (label : Int) (c c1 : PerFeatureValueCounter)
      (es : List Int) (t1 : SlicedTreeTraversal) (fs : List SequenceHashFeature),
      self.trainingSlice m sample = some slice ∧
      self.resolve FingerprintCat m fuel program_id exec sample (some slice)
        = .straight p n ∧
      0 ≤ p ∧ self.program_.program_type p.toNat = some .SIMPLE_PROGRAM ∧
      self.GetLabelAtPosition FingerprintCat m fuel depth enable_teq p exec sample
        (some slice) true = some label ∧
      ExecuteContextProgramByIdInAll FingerprintCat m fuel exec self.program_ depth
        (SlicedTreeTraversal.create sample.storage_ sample.position_ (some slice)) p
        = some (es, t1) ∧
      prefixFeatures FingerprintCat es SequenceHashFeature.create = some fs ∧
      fs.length = es.length ∧
      counts[p.toNat]? = some c ∧ counts1[p.toNat]? = some c1 ∧
      counts1.length = counts.length ∧
      (∀ i : Nat, i ≠ p.toNat → counts1[i]? = counts[i]?) ∧
      c1.WellFormed ∧ c1.feature_stats_ = c.feature_stats_ ∧
      (∀ (f : SequenceHashFeature) (l : Int),
        c1.GetCount f l
          = (fun v => addInt32 v 1)^[(SequenceHashFeature.create :: fs).countP
              fun g => keyEquals (g, label) (f, l)] (c.GetCount f l)) ∧
      (∀ (f : SequenceHashFeature) (l : Int), -2147483648 ≤ c.GetCount f l →
        c.GetCount f l + (((SequenceHashFeature.create :: fs).countP
          fun g => keyEquals (g, label) (f, l) : Nat) : Int) < 2147483648 →
        c1.GetCount f l = c.GetCount f l + (((SequenceHashFeature.create :: fs).countP
          fun g => keyEquals (g, label) (f, l) : Nat) : Int)) ∧
      (∀ (f : SequenceHashFeature) (l : Int), l ≠ label → c1.GetCount f l = c.GetCount f l) ∧
      (∀ (f : SequenceHashFeature) (l : Int),
        (∀ g ∈ SequenceHashFeature.create :: fs, g.equals f = false) →
        c1.GetCount f l = c.GetCount f l) ∧
      (((SequenceHashFeature.create :: fs).map fun g => g.hash_).Nodup →
        ∀ g ∈ SequenceHashFeature.create :: fs,
          c1.GetCount g label = addInt32 (c.GetCount g label) 1) := by
  obtain ⟨slice, p, n, label, c, es, t1, fs, h1, h2, h3, h4, h5, h6, h7, h8, h9⟩ :=
    GenerativeTrainOneSample_spec FingerprintCat m fuel depth enable_teq layout self counts
      counts1 program_id exec sample h
  have hlt : p.toNat < counts.length := by
    by_contra hge
    rw [List.getElem?_eq_none (by omega)] at h6
    exact Option.noConfusion h6
  have hcw : c.WellFormed := hwf c (List.mem_iff_getElem?.mpr ⟨_, h6⟩)
  have hlen : ∀ (es : List Int) (f : SequenceHashFeature) (fs : List SequenceHashFeature),
      prefixFeatures FingerprintCat es f = some fs → fs.length = es.length := by
    intro es
    induction es with
    | nil =>
      intro f fs hfs
      rw [← Option.some.inj hfs]
      rfl
    | cons e rest ih =>
      intro f fs hfs
      unfold prefixFeatures at hfs
      simp only [Option.bind_eq_some, Option.map_eq_some'] at hfs
      obtain ⟨f1, _, fs1, hfs1, hcons⟩ := hfs
      rw [← hcons, List.length_cons, List.length_cons, ih f1 fs1 hfs1]
  obtain ⟨hw1, _⟩ := addValues_spec layout hlayout
    ((SequenceHashFeature.create :: fs).map fun g => (g, label, 1)) c hcw
  have hcount := addValues_label_count layout hlayout c hcw (SequenceHashFeature.create :: fs)
    label
  have hstats : ∀ (xs : List (SequenceHashFeature × Int × Int)) (c : PerFeatureValueCounter),
      (c.addValues layout xs).feature_stats_ = c.feature_stats_ := by
    intro xs
    induction xs with
    | nil => intro c; rfl
    | cons x rest ih =>
      intro c
      unfold PerFeatureValueCounter.addValues
      rw [ih]
      rfl
  refine ⟨slice, p, n, label, c, _, es, t1, fs, h1, h2, h3, h4, h5, h7, h8, hlen _ _ _ h8, h6,
    ?_, ?_, ?_, hw1, hstats _ _, hcount, ?_, ?_, ?_, ?_⟩
  · rw [h9, List.getElem?_set_self hlt]
  · rw [h9, List.length_set]
  · intro i hi
    rw [h9, List.getElem?_set_ne (Ne.symm hi)]
  · intro f l hlo hhi
    rw [hcount f l]
    exact iterate_addInt32_one _ _ hlo hhi
  · intro f l hl
    rw [hcount f l]
    have : (SequenceHashFeature.create :: fs).countP
        (fun g => keyEquals (g, label) (f, l)) = 0 := by
      rw [List.countP_eq_zero]
      intro g _
      simp only [keyEquals, Bool.and_eq_true, beq_iff_eq, not_and]
      intro _ hll
      exact hl hll.symm
    rw [this]
    rfl
  · intro f l hf
    rw [hcount f l]
    have : (SequenceHashFeature.create :: fs).countP
        (fun g => keyEquals (g, label) (f, l)) = 0 := by
      rw [List.countP_eq_zero]
      intro g hg
      simp only [keyEquals, Bool.and_eq_true, beq_iff_eq, not_and]
      intro hgf
      rw [hf g hg] at hgf
      exact Bool.noConfusion hgf
    rw [this]
    rfl
  · intro hnd g hg
    rw [hcount g label, countP_keyEquals_nodup _ label hnd g hg]
    rfl

theorem GenerativeTrainOneSample_adds_one_for_each_prefix_witness :
    (∀ l, (test_layout l).Perm l) ∧
    (∀ c ∈ [PerFeatureValueCounter.create], c.WellFormed) ∧
    teq_model.GenerativeTrainOneSample test_FingerprintCat [test_tcond_tree] 10 1 true
      test_layout [PerFeatureValueCounter.create] 0 test_exec teq_sample = some teq_counts ∧
    ∃ (slice : TreeSlice) (p : Int) (n : Nat) (label : Int) (c c1 : PerFeatureValueCounter)
      (es : List Int) (t1 : SlicedTreeTraversal) (fs : List SequenceHashFeature),
      teq_model.trainingSlice [test_tcond_tree] teq_sample = some slice ∧
      teq_model.resolve test_FingerprintCat [test_tcond_tree] 10 0 test_exec teq_sample
        (some slice) = .straight p n ∧
      0 ≤ p ∧ teq_model.program_.program_type p.toNat = some .SIMPLE_PROGRAM ∧
      teq_model.GetLabelAtPosition test_FingerprintCat [test_tcond_tree] 10 1 true p test_exec
        teq_sample (some slice) true = some label ∧
      ExecuteContextProgramByIdInAll test_FingerprintCat [test_tcond_tree] 10 test_exec
        teq_model.program_ 1
        (SlicedTreeTraversal.create teq_sample.storage_ teq_sample.position_ (some slice)) p
        = some (es, t1) ∧
      prefixFeatures test_FingerprintCat es SequenceHashFeature.create = some fs ∧
      fs.length = es.length ∧
      [PerFeatureValueCounter.create][p.toNat]? = some c ∧ teq_counts[p.toNat]? = some c1 ∧
      teq_counts.length = [PerFeatureValueCounter.create].length ∧
      (∀ i : Nat, i ≠ p.toNat → teq_counts[i]? = [PerFeatureValueCounter.create][i]?) ∧
      c1.WellFormed ∧ c1.feature_stats_ = c.feature_stats_ ∧
      (∀ (f : SequenceHashFeature) (l : Int),
        c1.GetCount f l
          = (fun v => addInt32 v 1)^[(SequenceHashFeature.create :: fs).countP
              fun g => keyEquals (g, label) (f, l)] (c.GetCount f l)) ∧
      (∀ (f : SequenceHashFeature) (l : Int), -2147483648 ≤ c.GetCount f l →
        c.GetCount f l + (((SequenceHashFeature.create :: fs).countP
          fun g => keyEquals (g, label) (f, l) : Nat) : Int) < 2147483648 →
        c1.GetCount f l = c.GetCount f l + (((SequenceHashFeature.create :: fs).countP
          fun g => keyEquals (g, label) (f, l) : Nat) : Int)) ∧
      (∀ (f : SequenceHashFeature) (l : Int), l ≠ label → c1.GetCount f l = c.GetCount f l) ∧
      (∀ (f : SequenceHashFeature) (l : Int),
        (∀ g ∈ SequenceHashFeature.create :: fs, g.equals f = false) →
        c1.GetCount f l = c.GetCount f l) ∧
      (((SequenceHashFeature.create :: fs).map fun g => g.hash_).Nodup →
        ∀ g ∈ SequenceHashFeature.create :: fs,
          c1.GetCount g label = addInt32 (c.GetCount g label) 1) :=
  ⟨fun l => List.Perm.refl l, by decide, by decide,
    GenerativeTrainOneSample_adds_one_for_each_prefix test_FingerprintCat [test_tcond_tree] 10
      1 true test_layout (fun l => List.Perm.refl l) teq_model [PerFeatureValueCounter.create]
      teq_counts 0 test_exec teq_sample (by decide) (by decide)⟩
/-- Claim C26, the amended claim. In `GenerativeTrainOneSample` the label added to the counter
is the result of `GetLabelAtPosition` with the argument `use_teq` at its default, true: the
counts of the pairs with another label are as before. When the flag `FLAGS_enable_teq` is off,
the label is the `Value()` of the node of the sample, or the type label that `EncodeTypeLabel`
makes of its `Type()` when the model predicts types, and no TEq program is run. When the flag is
on, as by default, the label is made from the values that the TEq program of the resolved
program passes to the callback, and is remapped to `-10 - i` when a value is equal to it. -/
theorem training_label_uses_TEq_when_the_flag_is_on
    (FingerprintCat : Int → Int → Int) (m : Memory) (fuel : Nat) (depth : Nat)
    (enable_teq : Bool)
    (layout : List ((SequenceHashFeature × Int) × Int) →
      List ((SequenceHashFeature × Int) × Int)) (hlayout : ∀ l, (layout l).Perm l)
    (self : TGenModel) (counts counts1 : List PerFeatureValueCounter) (program_id : Int)
    (exec : ExecutionForTree) (sample : FullTreeTraversal)
    (hwf : ∀ c ∈ counts, c.WellFormed)
    (h : self.GenerativeTrainOneSample FingerprintCat m fuel depth enable_teq layout counts
      program_id exec sample = some counts1) :
    ∃ (slice : TreeSlice) (p : Int) (n : Nat) (label : Int) (node : TreeNode)
      (c c1 : PerFeatureValueCounter),
      self.trainingSlice m sample = some slice ∧
      self.resolve FingerprintCat m fuel program_id exec sample (some slice)
        = .straight p n ∧
      sample.node m = some node ∧
      self.GetLabelAtPosition FingerprintCat m fuel depth enable_teq p exec sample
        (some slice) true = some label ∧
      counts[p.toNat]? = some c ∧ counts1[p.toNat]? = some c1 ∧
      (∃ k : Nat, c1.GetCount SequenceHashFeature.create label
        = (fun v => addInt32 v 1)^[k + 1] (c.GetCount SequenceHashFeature.create label)) ∧
      (∀ (f : SequenceHashFeature) (l : Int), l ≠ label → c1.GetCount f l = c.GetCount f l) ∧
      (enable_teq = false →
        (if self.is_for_node_type_ then
            EncodeTypeLabel
              { type := node.Type, has_first_child := node.first_child != -1,
                has_right_sib := node.right_sib != -1 }
          else some node.Value) = some label) ∧
      (enable_teq = true →
        ∃ (curr : SimpleCondProgram) (o : List Int) (t1 : SlicedTreeTraversal),
          self.program_.simple_prog p.toNat = some curr ∧
          exec.GetConditionedFeaturesForPosition FingerprintCat m fuel curr.eq_program
            (SlicedTreeTraversal.create sample.storage_ sample.position_ (some slice))
            = some (o, t1) ∧
          (if self.is_for_node_type_ then
              EncodeTypeLabel
                { type := (o.foldl teqCallback (node.Type, 0)).1,
                  has_first_child := node.first_child != -1,
                  has_right_sib := node.right_sib != -1 }
            else some (o.foldl teqCallback (node.Value, 0)).1) = some label) := by
  obtain ⟨slice, p, n, label, c, es, t1, fs, h1, h2, h3, h4, h5, h6, h7, h8, h9⟩ :=
    GenerativeTrainOneSample_spec FingerprintCat m fuel depth enable_teq layout self counts
      counts1 program_id exec sample h
  have hlt : p.toNat < counts.length := by
    by_contra hge
    rw [List.getElem?_eq_none (by omega)] at h6
    exact Option.noConfusion h6
  have hcw : c.WellFormed := hwf c (List.mem_iff_getElem?.mpr ⟨_, h6⟩)
  have hnode : ∃ node, sample.node m = some node := by
    cases hn : sample.node m with
    | none =>
      unfold TGenModel.GetLabelAtPosition at h5
      rw [hn] at h5
      cases hb : (if (enable_teq && true) = true then
          (self.resolve FingerprintCat m fuel p exec sample (some slice)).program
          else some p) with
      | none =>
        rw [hb] at h5
        exact Option.noConfusion h5
      | some q =>
        rw [hb] at h5
        exact Option.noConfusion h5
    | some node => exact ⟨node, rfl⟩
  obtain ⟨node, hnode⟩ := hnode
  refine ⟨slice, p, n, label, node, c, _, h1, h2, hnode, h5, h6,
    by rw [h9, List.getElem?_set_self hlt], ?_, ?_, ?_, ?_⟩
  · refine ⟨fs.countP fun g => keyEquals (g, label) (SequenceHashFeature.create, label), ?_⟩
    rw [addValues_label_count layout hlayout c hcw (SequenceHashFeature.create :: fs) label,
      List.countP_cons_of_pos _ _ (by simp [keyEquals, SequenceHashFeature.equals])]
  · intro f l hl
    exact addValues_other_label layout hlayout c hcw _ label f l hl
  · intro he
    subst he
    rw [GetLabelAtPosition_without_teq, hnode] at h5
    exact h5
  · intro he
    subst he
    obtain ⟨node2, curr, o, t2, g1, g2, g3, g4⟩ := GetLabelAtPosition_with_teq FingerprintCat m
      fuel depth self p exec sample (some slice) label h3 h4 h5
    rw [hnode] at g1
    have : node = node2 := Option.some.inj g1
    subst this
    exact ⟨curr, o, t2, g2, g3, g4⟩

theorem training_label_uses_TEq_when_the_flag_is_on_witness :
    (∀ l, (test_layout l).Perm l) ∧
    (∀ c ∈ [PerFeatureValueCounter.create], c.WellFormed) ∧
    teq_model.GenerativeTrainOneSample test_FingerprintCat [test_tcond_tree] 10 1 true
      test_layout [PerFeatureValueCounter.create] 0 test_exec teq_sample = some teq_counts ∧
    ∃ (slice : TreeSlice) (p : Int) (n : Nat) (label : Int) (node : TreeNode)
      (c c1 : PerFeatureValueCounter),
      teq_model.trainingSlice [test_tcond_tree] teq_sample = some slice ∧
      teq_model.resolve test_FingerprintCat [test_tcond_tree] 10 0 test_exec teq_sample
        (some slice) = .straight p n ∧
      teq_sample.node [test_tcond_tree] = some node ∧
      teq_model.GetLabelAtPosition test_FingerprintCat [test_tcond_tree] 10 1 true p test_exec
        teq_sample (some slice) true = some label ∧
      [PerFeatureValueCounter.create][p.toNat]? = some c ∧ teq_counts[p.toNat]? = some c1 ∧
      (∃ k : Nat, c1.GetCount SequenceHashFeature.create label
        = (fun v => addInt32 v 1)^[k + 1] (c.GetCount SequenceHashFeature.create label)) ∧
      (∀ (f : SequenceHashFeature) (l : Int), l ≠ label → c1.GetCount f l = c.GetCount f l) ∧
      (true = false →
        (if teq_model.is_for_node_type_ then
            EncodeTypeLabel
              { type := node.Type, has_first_child := node.first_child != -1,
                has_right_sib := node.right_sib != -1 }
          else some node.Value) = some label) ∧
      (true = true →
        ∃ (curr : SimpleCondProgram) (o : List Int) (t1 : SlicedTreeTraversal),
          teq_model.program_.simple_prog p.toNat = some curr ∧
          test_exec.GetConditionedFeaturesForPosition test_FingerprintCat [test_tcond_tree] 10
            curr.eq_program
            (SlicedTreeTraversal.create teq_sample.storage_ teq_sample.position_ (some slice))
            = some (o, t1) ∧
          (if teq_model.is_for_node_type_ then
              EncodeTypeLabel
                { type := (o.foldl teqCallback (node.Type, 0)).1,
                  has_first_child := node.first_child != -1,
                  has_right_sib := node.right_sib != -1 }
            else some (o.foldl teqCallback (node.Value, 0)).1) = some label) :=
  ⟨fun l => List.Perm.refl l, by decide, by decide,
    training_label_uses_TEq_when_the_flag_is_on test_FingerprintCat [test_tcond_tree] 10
      1 true test_layout (fun l => List.Perm.refl l) teq_model [PerFeatureValueCounter.create]
      teq_counts 0 test_exec teq_sample (by decide) (by decide)⟩

/-- Claim C26 as it is stated fails: for `teq_model`, whose TEq program passes the value 3 of
node 2 to the callback, the sample at node 4 of `test_tcond_tree` has the value 3, and
`GenerativeTrainOneSample` with the flag `FLAGS_enable_teq` at its default adds the label `-10`
to the counter, not the value 3 of the node. -/
theorem training_label_is_remapped_by_TEq :
    (teq_sample.node [test_tcond_tree]).map TreeNode.Value = some 3 ∧
    (teq_model.GenerativeTrainOneSample test_FingerprintCat [test_tcond_tree] 10 1 true
        test_layout [PerFeatureValueCounter.create] 0 test_exec teq_sample).map
      (fun cs => cs.map fun c =>
        (c.GetCount SequenceHashFeature.create 3, c.GetCount SequenceHashFeature.create (-10)))
      = some [(0, 1)] := by
  decide

/-! ## The best label -/

/-- The labels of a list of pointers exist when each pointer is the place of an entry. -/
theorem labelsAt_isSome (c : PerFeatureValueCounter) (l : List (ℚ × Nat)) :
    (∃ items, c.labelsAt l = some items) ↔ ∀ p ∈ l, ∃ x, c.labelAt p = some x := by
  induction l with
  | nil =>
    exact ⟨fun _ p hp => absurd hp (List.not_mem_nil _), fun _ => ⟨[], rfl⟩⟩
  | cons p rest ih =>
    constructor
    · rintro ⟨items, h⟩
      unfold PerFeatureValueCounter.labelsAt at h
      simp only [Option.bind_eq_some, Option.map_eq_some'] at h
      obtain ⟨x, hx, xs, hxs, _⟩ := h
      intro q hq
      rcases List.mem_cons.mp hq with hq | hq
      · rw [hq]; exact ⟨x, hx⟩
      · exact ih.mp ⟨xs, hxs⟩ q hq
    · intro h
      obtain ⟨x, hx⟩ := h p (List.mem_cons_self _ _)
      obtain ⟨xs, hxs⟩ := ih.mpr fun q hq => h q (List.mem_cons_of_mem _ hq)
      exact ⟨x :: xs, by
        unfold PerFeatureValueCounter.labelsAt
        rw [hx, hxs]
        rfl⟩

/-- The labels of a list of pointers, one for each pointer. -/
theorem labelsAt_mem (c : PerFeatureValueCounter) (l : List (ℚ × Nat)) :
    ∀ items, c.labelsAt l = some items →
      (∀ x ∈ items, ∃ p ∈ l, c.labelAt p = some x) ∧
      (∀ p ∈ l, ∀ x, c.labelAt p = some x → x ∈ items) := by
  induction l with
  | nil =>
    intro items h
    rw [← Option.some.inj h]
    exact ⟨fun x hx => absurd hx (List.not_mem_nil _),
      fun p hp => absurd hp (List.not_mem_nil _)⟩
  | cons p rest ih =>
    intro items h
    unfold PerFeatureValueCounter.labelsAt at h
    simp only [Option.bind_eq_some, Option.map_eq_some'] at h
    obtain ⟨x, hx, xs, hxs, hcons⟩ := h
    obtain ⟨i1, i2⟩ := ih xs hxs
    rw [← hcons]
    refine ⟨fun y hy => ?_, fun q hq y hy => ?_⟩
    · rcases List.mem_cons.mp hy with hy | hy
      · exact ⟨p, List.mem_cons_self _ _, by rw [hy]; exact hx⟩
      · obtain ⟨q, hq, hqy⟩ := i1 y hy
        exact ⟨q, List.mem_cons_of_mem _ hq, hqy⟩
    · rcases List.mem_cons.mp hq with hq | hq
      · rw [hq, hx] at hy
        rw [← Option.some.inj hy]
        exact List.mem_cons_self _ _
      · exact List.mem_cons_of_mem _ (i2 q hq y hy)

/-- After `EndAdding` every pointer of a list of labels by probability is the place of an entry
of the table. -/
theorem EndAdding_pointers_valid (st : Int) (c0 c : PerFeatureValueCounter)
    (hend : c0.EndAdding st = some c) (f : SequenceHashFeature) :
    ∀ p ∈ c.LabelsSortedByProbability f, ∃ x, c.labelAt p = some x := by
  by_cases hok : ∀ x ∈ c0.feature_value_counts_, countOK st x.2
  · obtain ⟨e2, h1, h2, h3⟩ := (EndAdding_spec st c0).1 hok
    rw [hend] at h1
    have : c = e2 := Option.some.inj h1
    subst this
    have hfs := h3 f
    unfold PerFeatureValueCounter.GetFeatureStatsOrNull at hfs
    unfold PerFeatureValueCounter.LabelsSortedByProbability
    rw [hfs]
    unfold statsFor
    by_cases hnil : entriesFor f (c0.feature_value_counts_.enumFrom 0) = []
    · rw [if_pos hnil]
      intro p hp
      exact absurd hp (List.not_mem_nil _)
    · rw [if_neg hnil]
      obtain ⟨l, hl, _⟩ := sorted_labels_spec c f
      rw [h2] at hl
      exact (labelsAt_isSome c _).mp ⟨l, hl⟩
  · rw [(EndAdding_spec st c0).2 hok] at hend
    exact Option.noConfusion hend

/-- The loop over labels of `GetBestLabelLogProb`: the best label after the loop has the best
score among the one before and the labels of the loop. -/
theorem bestLoop_spec (score : Int → Option ℚ) (labels : List Int) :
    ∀ best : ℚ × Int, score best.2 = some best.1 →
      (∀ l ∈ labels, ∃ s, score l = some s) →
      ∃ b, bestLoop score labels best = some b ∧ score b.2 = some b.1 ∧ best.1 ≤ b.1 ∧
        (b.2 = best.2 ∨ b.2 ∈ labels) ∧
        ∀ l ∈ labels, ∀ s, score l = some s → s ≤ b.1 := by
  induction labels with
  | nil =>
    intro best hbest _
    exact ⟨best, rfl, hbest, le_refl _, Or.inl rfl,
      fun l hl => absurd hl (List.not_mem_nil _)⟩
  | cons l rest ih =>
    intro best hbest hdef
    obtain ⟨s, hs⟩ := hdef l (List.mem_cons_self _ _)
    have hrest : ∀ l1 ∈ rest, ∃ s, score l1 = some s :=
      fun l1 h1 => hdef l1 (List.mem_cons_of_mem _ h1)
    unfold bestLoop bestStep
    by_cases hl : l ≠ best.2
    · rw [if_pos hl, hs]
      simp only [Option.map_some', Option.some_bind]
      by_cases hgt : s > best.1
      · rw [if_pos hgt]
        obtain ⟨b, h1, h2, h3, h4, h5⟩ := ih (s, l) hs hrest
        refine ⟨b, h1, h2, le_trans (le_of_lt hgt) h3, ?_, ?_⟩
        · rcases h4 with h4 | h4
          · exact Or.inr (by rw [h4]; exact List.mem_cons_self _ _)
          · exact Or.inr (List.mem_cons_of_mem _ h4)
        · intro l1 hl1 s1 hs1
          rcases List.mem_cons.mp hl1 with hl1 | hl1
          · rw [hl1, hs] at hs1
            rw [← Option.some.inj hs1]
            exact h3
          · exact h5 l1 hl1 s1 hs1
      · rw [if_neg hgt]
        obtain ⟨b, h1, h2, h3, h4, h5⟩ := ih best hbest hrest
        refine ⟨b, h1, h2, h3, ?_, ?_⟩
        · rcases h4 with h4 | h4
          · exact Or.inl h4
          · exact Or.inr (List.mem_cons_of_mem _ h4)
        · intro l1 hl1 s1 hs1
          rcases List.mem_cons.mp hl1 with hl1 | hl1
          · rw [hl1, hs] at hs1
            rw [← Option.some.inj hs1]
            exact le_trans (not_lt.mp hgt) h3
          · exact h5 l1 hl1 s1 hs1
    · rw [if_neg hl]
      simp only [Option.some_bind]
      have hl2 : l = best.2 := not_not.mp hl
      obtain ⟨b, h1, h2, h3, h4, h5⟩ := ih best hbest hrest
      refine ⟨b, h1, h2, h3, ?_, ?_⟩
      · rcases h4 with h4 | h4
        · exact Or.inl h4
        · exact Or.inr (List.mem_cons_of_mem _ h4)
      · intro l1 hl1 s1 hs1
        rcases List.mem_cons.mp hl1 with hl1 | hl1
        · rw [hl1, hl2, hbest] at hs1
          rw [← Option.some.inj hs1]
          exact h3
        · exact h5 l1 hl1 s1 hs1

/-- The callback of `GetBestLabelLogProb` for the values of a list: the best label after the
calls has the best score among the one before and the first `beam_size` labels of each value of
the variable `f`. -/
theorem beamLoop_spec (FingerprintCat : Int → Int → Int) (beam_size : Int)
    (c : PerFeatureValueCounter) (score : Int → Option ℚ) (es : List Int) :
    ∀ (f : SequenceHashFeature) (best : ℚ × Int) (fs : List SequenceHashFeature),
      prefixFeatures FingerprintCat es f = some fs →
      score best.2 = some best.1 →
      (∀ g ∈ fs, ∀ p ∈ (c.LabelsSortedByProbability g).take beam_size.toNat,
        ∃ x, c.labelAt p = some x ∧ ∃ s, score x.2 = some s) →
      ∃ x, beamLoop FingerprintCat beam_size c score es f best = some x ∧
        score x.2.2 = some x.2.1 ∧ best.1 ≤ x.2.1 ∧
        (x.2.2 = best.2 ∨ ∃ g ∈ fs, ∃ p ∈ (c.LabelsSortedByProbability g).take beam_size.toNat,
          ∃ y, c.labelAt p = some y ∧ y.2 = x.2.2) ∧
        ∀ g ∈ fs, ∀ p ∈ (c.LabelsSortedByProbability g).take beam_size.toNat,
          ∀ y, c.labelAt p = some y → ∀ s, score y.2 = some s → s ≤ x.2.1 := by
  induction es with
  | nil =>
    intro f best fs hfs hbest _
    have : fs = [] := (Option.some.inj hfs).symm
    subst this
    exact ⟨(f, best), rfl, hbest, le_refl _, Or.inl rfl,
      fun g hg => absurd hg (List.not_mem_nil _)⟩
  | cons e rest ih =>
    intro f best fs hfs hbest hdef
    unfold prefixFeatures at hfs
    simp only [Option.bind_eq_some, Option.map_eq_some'] at hfs
    obtain ⟨f1, hf1, fs1, hfs1, hcons⟩ := hfs
    subst hcons
    have hdef1 := hdef f1 (List.mem_cons_self _ _)
    obtain ⟨items, hitems⟩ := (labelsAt_isSome c _).mpr fun p hp =>
      (hdef1 p hp).imp fun x hx => hx.1
    obtain ⟨m1, m2⟩ := labelsAt_mem c _ items hitems
    have hsc : ∀ l ∈ items.map Prod.snd, ∃ s, score l = some s := by
      intro l hl
      rw [List.mem_map] at hl
      obtain ⟨y, hy, hyl⟩ := hl
      obtain ⟨p, hp, hpy⟩ := m1 y hy
      obtain ⟨x, hx, s, hs⟩ := hdef1 p hp
      rw [hpy] at hx
      rw [← hyl, Option.some.inj hx]
      exact ⟨s, hs⟩
    obtain ⟨b, hb1, hb2, hb3, hb4, hb5⟩ := bestLoop_spec score (items.map Prod.snd) best hbest
      hsc
    obtain ⟨x, hx1, hx2, hx3, hx4, hx5⟩ := ih f1 b fs1 hfs1 hb2
      fun g hg => hdef g (List.mem_cons_of_mem _ hg)
    refine ⟨x, ?_, hx2, le_trans hb3 hx3, ?_, ?_⟩
    · unfold beamLoop
      rw [hf1]
      simp only [Option.some_bind, hitems, hb1]
      exact hx1
    · rcases hx4 with hx4 | ⟨g, hg, p, hp, y, hy⟩
      · rcases hb4 with hb4 | hb4
        · exact Or.inl (by rw [hx4, hb4])
        · rw [List.mem_map] at hb4
          obtain ⟨y, hy, hyb⟩ := hb4
          obtain ⟨p, hp, hpy⟩ := m1 y hy
          exact Or.inr ⟨f1, List.mem_cons_self _ _, p, hp, y, hpy, by rw [hyb, hx4]⟩
      · exact Or.inr ⟨g, List.mem_cons_of_mem _ hg, p, hp, y, hy⟩
    · intro g hg p hp y hy s hs
      rcases List.mem_cons.mp hg with hg | hg
      · subst hg
        have hmem := m2 p hp y hy
        exact le_trans (hb5 y.2 (List.mem_map_of_mem _ hmem) s hs) hx3
      · exact hx5 g hg p hp y hy s hs
/-- The pointers of `candidatePointers`. -/
theorem mem_candidatePointers (beam_size : Int) (c : PerFeatureValueCounter)
    (fs : List SequenceHashFeature) (p : ℚ × Nat) :
    p ∈ candidatePointers beam_size c fs ↔
      p ∈ (c.LabelsSortedByProbability SequenceHashFeature.create).take 1 ∨
      p ∈ (c.LabelsSortedByProbability SequenceHashFeature.create).take beam_size.toNat ∨
      ∃ g ∈ fs, p ∈ (c.LabelsSortedByProbability g).take beam_size.toNat := by
  unfold candidatePointers
  simp only [List.mem_append, List.mem_flatMap, List.mem_cons, exists_eq_or_imp]

/-- Claim C30, the amended claim. When the loop resolves the program id to the program `p`,
whose counter is the result of `EndAdding`, the context program of `p` runs to its end, and
`GetLabelLogProbInner` has a result for every candidate label: when the counter has no label
for the feature without values, `GetBestLabelLogProb` returns `(0.0, -1)`; otherwise it returns
a pair `(s, l)` in which `l` is a candidate label, `s` is the score that `GetLabelLogProbInner`
gives to `l`, and `s` is greater than or equal to the score of every candidate label. The
candidate labels are the most probable label of the feature without values and the first
`beam_size` labels by probability of the feature without values and of each feature that the
callback makes of the values of the context program; for `beam_size >= 1` the first of them is
among the others. -/
theorem GetBestLabelLogProb_returns_best_of_first_label_and_beams
    (FingerprintCat : Int → Int → Int) (m : Memory) (fuel : Nat) (depth : Nat) (log2 : ℚ → ℚ)
    (smoothing_type : Int) (kneser_ney_d : ℚ) (beam_size : Int) (self : TGenModel)
    (counts : List PerFeatureValueCounter) (program_id : Int) (exec : ExecutionForTree)
    (sample : FullTreeTraversal) (slice : Option TreeSlice) (p : Int) (n : Nat)
    (c0 c : PerFeatureValueCounter) (es : List Int) (t1 : SlicedTreeTraversal)
    (fs : List SequenceHashFeature)
    (hres : self.resolve FingerprintCat m fuel program_id exec sample slice = .straight p n)
    (hc : counts[p.toNat]? = some c) (hend : c0.EndAdding smoothing_type = some c)
    (hexec : ExecuteContextProgramByIdInAll FingerprintCat m fuel exec self.program_ depth
      (SlicedTreeTraversal.create sample.storage_ sample.position_ slice) p = some (es, t1))
    (hfs : prefixFeatures FingerprintCat es SequenceHashFeature.create = some fs)
    (hscore : ∀ ptr ∈ candidatePointers beam_size c fs, ∀ x, c.labelAt ptr = some x →
      ∃ s, self.GetLabelLogProbInner FingerprintCat m fuel depth log2 smoothing_type
        kneser_ney_d counts p exec
        (SlicedTreeTraversal.create sample.storage_ sample.position_ slice) x.2 = some s) :
    (c.LabelsSortedByProbability SequenceHashFeature.create = [] →
      self.GetBestLabelLogProb FingerprintCat m fuel depth log2 smoothing_type kneser_ney_d
        beam_size counts program_id exec sample slice = some (0, -1)) ∧
    (c.LabelsSortedByProbability SequenceHashFeature.create ≠ [] →
      ∃ (s : ℚ) (l : Int),
        self.GetBestLabelLogProb FingerprintCat m fuel depth log2 smoothing_type kneser_ney_d
          beam_size counts program_id exec sample slice = some (s, l) ∧
        self.GetLabelLogProbInner FingerprintCat m fuel depth log2 smoothing_type kneser_ney_d
          counts p exec (SlicedTreeTraversal.create sample.storage_ sample.position_ slice) l
          = some s ∧
        (∃ ptr ∈ candidatePointers beam_size c fs, ∃ x, c.labelAt ptr = some x ∧ x.2 = l) ∧
        ∀ ptr ∈ candidatePointers beam_size c fs, ∀ x, c.labelAt ptr = some x →
          ∀ s1, self.GetLabelLogProbInner FingerprintCat m fuel depth log2 smoothing_type
            kneser_ney_d counts p exec
            (SlicedTreeTraversal.create sample.storage_ sample.position_ slice) x.2 = some s1 →
          s1 ≤ s) ∧
    (1 ≤ beam_size → ∀ ptr ∈ candidatePointers beam_size c fs,
      ptr ∈ beamPointers beam_size c fs) := by
  refine ⟨?_, ?_, ?_⟩
  · intro hnil
    unfold TGenModel.GetBestLabelLogProb
    simp only [hres, Resolved.program, Option.some_bind, hc, hnil]
  · intro hne
    cases hlsp : c.LabelsSortedByProbability SequenceHashFeature.create with
    | nil => exact absurd hlsp hne
    | cons item0 items =>
      have hvalid := EndAdding_pointers_valid smoothing_type c0 c hend
      have hmem0 : item0 ∈ candidatePointers beam_size c fs := by
        rw [mem_candidatePointers, hlsp]
        exact Or.inl (List.mem_cons_self _ _)
      obtain ⟨l0, hl0⟩ := hvalid SequenceHashFeature.create item0 (by
        rw [hlsp]; exact List.mem_cons_self _ _)
      obtain ⟨s0, hs0⟩ := hscore item0 hmem0 l0 hl0
      have hsub : ∀ q ∈ ((item0 :: items).take beam_size.toNat).drop 1,
          q ∈ (c.LabelsSortedByProbability SequenceHashFeature.create).take
            beam_size.toNat := by
        intro q hq
        rw [hlsp]
        exact List.mem_of_mem_drop hq
      obtain ⟨ls, hls⟩ := (labelsAt_isSome c
        (((item0 :: items).take beam_size.toNat).drop 1)).mpr fun q hq =>
          hvalid SequenceHashFeature.create q (List.mem_of_mem_take (hsub q hq))
      obtain ⟨m1, m2⟩ := labelsAt_mem c _ ls hls
      have hsc : ∀ l ∈ ls.map Prod.snd, ∃ s,
          self.GetLabelLogProbInner FingerprintCat m fuel depth log2 smoothing_type
            kneser_ney_d counts p exec
            (SlicedTreeTraversal.create sample.storage_ sample.position_ slice) l
            = some s := by
        intro l hl
        rw [List.mem_map] at hl
        obtain ⟨y, hy, hyl⟩ := hl
        obtain ⟨q, hq, hqy⟩ := m1 y hy
        rw [← hyl]
        exact hscore q ((mem_candidatePointers _ _ _ _).mpr (Or.inr (Or.inl (hsub q hq)))) y hqy
      obtain ⟨b, hb1, hb2, hb3, hb4, hb5⟩ := bestLoop_spec
        (fun label => self.GetLabelLogProbInner FingerprintCat m fuel depth log2 smoothing_type
          kneser_ney_d counts p exec
          (SlicedTreeTraversal.create sample.storage_ sample.position_ slice) label)
        (ls.map Prod.snd) (s0, l0.2) hs0 hsc
      obtain ⟨x, hx1, hx2, hx3, hx4, hx5⟩ := beamLoop_spec FingerprintCat beam_size c
        (fun label => self.GetLabelLogProbInner FingerprintCat m fuel depth log2 smoothing_type
          kneser_ney_d counts p exec
          (SlicedTreeTraversal.create sample.storage_ sample.position_ slice) label)
        es SequenceHashFeature.create b fs hfs hb2 (by
          intro g hg q hq
          obtain ⟨y, hy⟩ := hvalid g q (List.mem_of_mem_take hq)
          exact ⟨y, hy, hscore q ((mem_candidatePointers _ _ _ _).mpr
            (Or.inr (Or.inr ⟨g, hg, hq⟩))) y hy⟩)
      refine ⟨x.2.1, x.2.2, ?_, hx2, ?_, ?_⟩
      · unfold TGenModel.GetBestLabelLogProb
        simp only [hres, Resolved.program, Option.some_bind, hc, hlsp, hl0, hs0, hls, hb1,
          hexec, hx1, Option.map_some']
      · rcases hx4 with hx4 | ⟨g, hg, q, hq, y, hy, hyx⟩
        · rcases hb4 with hb4 | hb4
          · exact ⟨item0, hmem0, l0, hl0, by rw [hx4, hb4]⟩
          · rw [List.mem_map] at hb4
            obtain ⟨y, hy, hyb⟩ := hb4
            obtain ⟨q, hq, hqy⟩ := m1 y hy
            exact ⟨q, (mem_candidatePointers _ _ _ _).mpr (Or.inr (Or.inl (hsub q hq))), y, hqy,
              by rw [hyb, hx4]⟩
        · exact ⟨q, (mem_candidatePointers _ _ _ _).mpr (Or.inr (Or.inr ⟨g, hg, hq⟩)), y, hy,
            hyx⟩
      · intro ptr hptr y hy s1 hs1
        have hfirst : ∀ y0 : ℚ × Int, c.labelAt item0 = some y0 →
            ∀ s2, self.GetLabelLogProbInner FingerprintCat m fuel depth log2 smoothing_type
              kneser_ney_d counts p exec
              (SlicedTreeTraversal.create sample.storage_ sample.position_ slice) y0.2
              = some s2 → s2 ≤ x.2.1 := by
          intro y0 hy0 s2 hs2
          rw [hl0] at hy0
          rw [← Option.some.inj hy0, hs0] at hs2
          rw [← Option.some.inj hs2]
          exact le_trans hb3 hx3
        rcases (mem_candidatePointers _ _ _ _).mp hptr with h1 | h1 | ⟨g, hg, h1⟩
        · rw [hlsp] at h1
          simp only [List.take_succ_cons, List.take_zero, List.mem_singleton] at h1
          rw [h1] at hy
          exact hfirst y hy s1 hs1
        · rw [hlsp] at h1
          cases hbs : beam_size.toNat with
          | zero =>
            rw [hbs] at h1
            exact absurd h1 (List.not_mem_nil _)
          | succ k =>
            rw [hbs, List.take_succ_cons] at h1
            rcases List.mem_cons.mp h1 with h1 | h1
            · rw [h1] at hy
              exact hfirst y hy s1 hs1
            · have hq : ptr ∈ ((item0 :: items).take beam_size.toNat).drop 1 := by
                rw [hbs, List.take_succ_cons]
                exact h1
              have hmem := m2 ptr hq y hy
              exact le_trans (hb5 y.2 (List.mem_map_of_mem _ hmem) s1 hs1) hx3
        · exact hx5 g hg ptr h1 y hy s1 hs1
  · intro hbeam ptr hptr
    unfold beamPointers
    simp only [List.mem_flatMap, List.mem_cons, exists_eq_or_imp]
    rcases (mem_candidatePointers _ _ _ _).mp hptr with h1 | h1 | h1
    · left
      have h1le : 1 ≤ beam_size.toNat := by omega
      obtain ⟨k, hk⟩ : ∃ k, beam_size.toNat = 1 + k := ⟨beam_size.toNat - 1, by omega⟩
      rw [hk, List.take_add]
      exact List.mem_append_left _ h1
    · exact Or.inl h1
    · exact Or.inr h1
/-- The score of the label 10 for `plain_model` with the counter `test_counter_ended` and the
Witten-Bell smoothing: `log2` of `(1 + 1) / (1 + 1 + 1)`. -/
theorem plain_model_score :
    plain_model.GetLabelLogProbInner test_FingerprintCat [test_tcond_tree] 10 1 test_log2 0
      (-1) [test_counter_ended] 0 test_exec
      (SlicedTreeTraversal.create teq_sample.storage_ teq_sample.position_ (some teq_slice)) 10
      = some (test_log2 (2 / 3)) := by
  have hexec : ExecuteContextProgramByIdInAll test_FingerprintCat [test_tcond_tree] 10
      test_exec plain_model.program_ 1
      (SlicedTreeTraversal.create teq_sample.storage_ teq_sample.position_ (some teq_slice)) 0
      = some ([], SlicedTreeTraversal.create teq_sample.storage_ teq_sample.position_
          (some teq_slice)) := by decide
  unfold TGenModel.GetLabelLogProbInner
  rw [hexec]
  simp [test_counter_ended, PerFeatureValueCounter.GetFeatureStatsOrNull, hashMapFind,
    SequenceHashFeature.equals, SequenceHashFeature.create, test_feature,
    Smoothing.SetUnconditionedProb, Smoothing.create, KneserNey,
    PerFeatureValueCounter.GetCount, keyEquals, FeatureStats.UniqueLabels,
    FeatureStats.TotalCount, backoffLoop, Smoothing.GetLogProb]
  norm_num

/-- Claim C30 as it is stated fails: with `--beam_size=0` there is no label among the first
`beam_size` labels of a feature, and `GetBestLabelLogProb` for `plain_model` with the counter
`test_counter_ended` returns the label 10, the most probable label of the feature without
values, with its score. -/
theorem GetBestLabelLogProb_with_beam_size_zero_returns_first_label :
    plain_model.GetBestLabelLogProb test_FingerprintCat [test_tcond_tree] 10 1 test_log2 0
      (-1) 0 [test_counter_ended] 0 test_exec teq_sample (some teq_slice)
      = some (test_log2 (2 / 3), 10) ∧
    beamPointers 0 test_counter_ended [] = [] := by
  have hexec : ExecuteContextProgramByIdInAll test_FingerprintCat [test_tcond_tree] 10
      test_exec plain_model.program_ 1
      (SlicedTreeTraversal.create teq_sample.storage_ teq_sample.position_ (some teq_slice)) 0
      = some ([], SlicedTreeTraversal.create teq_sample.storage_ teq_sample.position_
          (some teq_slice)) := by decide
  have hres : plain_model.resolve test_FingerprintCat [test_tcond_tree] 10 0 test_exec
      teq_sample (some teq_slice) = .straight 0 0 := by decide
  have hlsp : test_counter_ended.LabelsSortedByProbability SequenceHashFeature.create
      = [(1, 0)] := by
    simp [PerFeatureValueCounter.LabelsSortedByProbability, test_counter_ended, hashMapFind,
      SequenceHashFeature.equals, SequenceHashFeature.create, test_feature]
  have hl0 : test_counter_ended.labelAt (1, 0) = some (1, 10) := by
    simp [PerFeatureValueCounter.labelAt, test_counter_ended]
  refine ⟨?_, ?_⟩
  · have hc : [test_counter_ended][(0 : Int).toNat]? = some test_counter_ended := rfl
    unfold TGenModel.GetBestLabelLogProb
    simp only [hres, Resolved.program, Option.some_bind, hc]
    rw [hlsp]
    simp only [hl0, Option.some_bind, plain_model_score, hexec]
    simp [PerFeatureValueCounter.labelsAt, bestLoop, beamLoop]
  · simp [beamPointers]

/-! ## The loop of `GetSubtreeForCompletion` -/

theorem TreeNode_Type_eq (n : TreeNode) : n.Type = knownLabel n.type := rfl

theorem TreeNode_Value_eq (n : TreeNode) : n.Value = knownLabel n.value := rfl

theorem knownLabel_of_known (x : Int) (h : x ≠ UNKNOWN_LABEL) : knownLabel x = x := by
  unfold knownLabel
  rw [if_pos h]

theorem FT.read_size (t : FT) : t.read.size = t.size := by
  induction t with
  | eps => rfl
  | node ty v c sb ihc ihs => simp only [FT.read, FT.size, ihc, ihs]

theorem FT.read_epsLabels_length (t : FT) : t.read.epsLabels.length = t.epsLabels.length := by
  rw [FT.epsLabels_length, FT.epsLabels_length, FT.read_size]

/-- One round of the loop of `GetSubtreeForCompletion` at a missing node: both iterators leave
the children of their nodes. -/
theorem completionLoop_eps (fuel0 : Nat) (hf : 2 ≤ fuel0) (rs ws : TreeStorage)
    (position : Int) ( is_for_node_type : Bool) (node_type : Int)
    (it : ConstLocalEpsTreeTraversal) (wit : LocalEpsTreeTraversal) (rid rp wp wls wci : Int)
    (hposn : 0 ≤ position)
    (hrid : rid < 0) (hat : ReaderAt it rid rp) (hrp : 0 ≤ rp) (hlr : Leavable rs rp)
    (hw : WriterAt wit wp wls wci) (hwp : 0 ≤ wp) (hlw : Leavable ws wp) :
    ∃ it1 er wit1 ew,
      (∀ n, completionLoop fuel0 rs position is_for_node_type node_type (n + 1) (it, false) ws
          wit
        = completionLoop fuel0 rs position is_for_node_type node_type n (it1, er) ws wit1) ∧
      ReaderAfter rs rp it1 er ∧ WriterAfter ws wp wit1 ew := by
  obtain ⟨it1, er, hr1, hr2⟩ := reader_leave fuel0 hf rs it rid rp hrid hat hrp hlr
  have hnode : it.node rs = some it.eps_node_ := by
    unfold ConstLocalEpsTreeTraversal.node
    rw [if_pos (by rw [hat.1]; exact hrid)]
  have hety : it.eps_node_.Type = EMPTY_NODE_LABEL := by
    rw [TreeNode_Type_eq, (hat.2 hrid).1]
    rfl
  have hset : wit.setLabels ws it.eps_node_.Type it.eps_node_.Value
      = some (ws, { wit with eps_node_ :=
          { wit.eps_node_ with type := it.eps_node_.Type, value := it.eps_node_.Value } }) := by
    unfold LocalEpsTreeTraversal.setLabels
    rw [if_pos hw.1]
  obtain ⟨wit1, ew, hw1, hw2⟩ := writer_leave fuel0 hf ws
    { wit with eps_node_ :=
        { wit.eps_node_ with type := it.eps_node_.Type, value := it.eps_node_.Value } }
    wp hw.1 hety (by simp only []; rw [hw.2]; rfl) hwp hlw
  refine ⟨it1, er, wit1, ew, ?_, hr2, hw2⟩
  intro n
  rw [completionLoop]
  have hne : ¬ it.position_ = position := by
    rw [hat.1]; omega
  simp only [Bool.false_eq_true, if_false, hne, hnode, Option.some_bind, hset, hw1, hr1]

/-- One round of the loop of `GetSubtreeForCompletion` at a node before the position, whose type
is known: the writing iterator makes the node as the last child of `wp`, and both iterators go
to the place of the first child. -/
theorem completionLoop_node (fuel0 : Nat) (rs ws : TreeStorage) (position : Int)
    ( is_for_node_type : Bool) (node_type : Int) (F : List Nat)
    (it : ConstLocalEpsTreeTraversal) (wit : LocalEpsTreeTraversal) (rid wp wls wci : Int)
    (n : TreeNode) (hpos : it.position_ = rid) (h0 : 0 ≤ rid) (hne : rid ≠ position)
    (hn : rs.nodeAt rid = some n)
    (hty : n.type ≠ EMPTY_NODE_LABEL) (htu : n.type ≠ UNKNOWN_LABEL)
    (hw : WriterAt wit wp wls wci)
    (hslot : WriterSlot ws F wp wls) (hF : FreeList ws F) :
    ∃ (id : Nat) (ws1 : TreeStorage) (it1 : ConstLocalEpsTreeTraversal)
      (wit1 : LocalEpsTreeTraversal),
      (∀ k, completionLoop fuel0 rs position is_for_node_type node_type (k + 1) (it, false) ws
          wit
        = completionLoop fuel0 rs position is_for_node_type node_type k (it1, false) ws1
          wit1) ∧
      ReaderAt it1 n.first_child rid ∧ WriterAt wit1 (id : Int) (-1) 0 ∧
      allocIds F ws.nodes_.length 1 = [id] ∧ FreeList ws1 (F.drop 1) ∧
      ws1.nodes_.length = ws.nodes_.length + (1 - F.length) ∧ 0 < id ∧
      ws1.nodeAt (id : Int)
        = some { epsNode wp wls wci with type := n.type, value := knownLabel n.value } ∧
      CopyRel ws ws1 wp wls (id : Int) (id : Int) [id] := by
  obtain ⟨hwp, h0F, hwpF, pn, hpn, hlast, hneg, hnn⟩ := hslot
  let x : TreeNode := { epsNode wp wls wci with type := n.type, value := knownLabel n.value }
  have hxp : x.parent = wp := rfl
  have hxl : x.left_sib = wls := rfl
  obtain ⟨id, ws1, hadd, hids, hF1, hlen1, hpar1, hpip1, hidp, hidl, hnid, hnp, hnl, hfr⟩ :=
    AddLastNode_spec ws F hF x hty pn (by rw [hxp]; exact hpn) (by rw [hxp]; exact hwpF)
      (by
        rw [hxl, hxp]
        intro h
        obtain ⟨_, h2, h3, ln, hln, _⟩ := hnn h
        exact ⟨ln, hln, h3, h2⟩)
  rw [hxp] at hidp hnp
  rw [hxl] at hidl hnl
  have hidpos : 0 < id := by
    have hm : id ∈ F ∨ ws.nodes_.length ≤ id := by
      apply mem_allocIds F ws.nodes_.length 1
      rw [hids]; simp
    have := (nodeAt_some_bounds ws wp pn hpn).2
    rcases hm with hm | hm
    · rcases Nat.eq_zero_or_pos id with h | h
      · subst h; exact absurd hm h0F
      · exact h
    · omega
  have hnode : it.node rs = some n := by
    unfold ConstLocalEpsTreeTraversal.node
    rw [if_neg (by omega), hpos, hn]
  have hset : wit.setLabels ws n.Type n.Value
      = some (ws, { wit with eps_node_ := x }) := by
    unfold LocalEpsTreeTraversal.setLabels
    rw [if_pos hw.1, hw.2, TreeNode_Type_eq, TreeNode_Value_eq, knownLabel_of_known _ htu]
  obtain ⟨wit1, hw1, hwat1⟩ := writer_down fuel0 ws ws1 { wit with eps_node_ := x } id hw.1 hty
    rfl hadd hnid
  obtain ⟨it1, hr1, hrat1⟩ := reader_down fuel0 rs it n (by omega) (by rw [hpos]; exact hn) hty
  rw [hpos] at hrat1
  refine ⟨id, ws1, it1, wit1, ?_, hrat1, hwat1, hids, hF1, hlen1, hidpos, hnid, ?_⟩
  · intro k
    rw [completionLoop]
    have hne2 : ¬ it.position_ = position := by rw [hpos]; exact hne
    simp only [Bool.false_eq_true, if_false, hne2, hnode, Option.some_bind, hset, hw1, hr1]
  · refine ⟨?_, ?_, ?_, hpar1, hpip1⟩
    · intro j hj h1 h2
      exact hfr j (hj id (List.mem_singleton_self _)) (by rw [hxp]; exact h1)
        (by rw [hxl]; exact h2)
    · intro pn' hpn'
      rw [hpn] at hpn'
      cases hpn'
      rw [hnp]
      congr 2
      by_cases hl : wls < 0
      · have := (hneg hl).2
        simp [hl, this]
      · have := (hnn (by omega)).1
        have h3 : ¬ pn.first_child < 0 := by omega
        simp [hl, h3]
    · intro ln h h2
      exact hnl ln h h2

/-- The last round of the loop of `GetSubtreeForCompletion`, at the position: the writing
iterator makes a node with the type `ty` and the value `UNKNOWN_LABEL` as the last child of
`wp`, and the loop ends. -/
theorem completionLoop_last (fuel0 : Nat) (rs ws : TreeStorage) (position : Int)
    ( is_for_node_type : Bool) (node_type : Int) (F : List Nat)
    (it : ConstLocalEpsTreeTraversal) (wit : LocalEpsTreeTraversal) (wp wls wci : Int)
    (hpos : it.position_ = position)
    (hty : (if is_for_node_type then UNKNOWN_LABEL else node_type) ≠ EMPTY_NODE_LABEL)
    (hw : WriterAt wit wp wls wci)
    (hslot : WriterSlot ws F wp wls) (hF : FreeList ws F) :
    ∃ (id : Nat) (ws1 : TreeStorage),
      (∀ k, completionLoop fuel0 rs position is_for_node_type node_type (k + 1) (it, false) ws
          wit = some ws1) ∧
      allocIds F ws.nodes_.length 1 = [id] ∧ FreeList ws1 (F.drop 1) ∧
      ws1.nodes_.length = ws.nodes_.length + (1 - F.length) ∧ 0 < id ∧
      ws1.nodeAt (id : Int)
        = some { epsNode wp wls wci with
            type := (if is_for_node_type then UNKNOWN_LABEL else node_type),
            value := UNKNOWN_LABEL } ∧
      CopyRel ws ws1 wp wls (id : Int) (id : Int) [id] := by
  obtain ⟨hwp, h0F, hwpF, pn, hpn, hlast, hneg, hnn⟩ := hslot
  let x : TreeNode := { epsNode wp wls wci with
    type := (if is_for_node_type then UNKNOWN_LABEL else node_type), value := UNKNOWN_LABEL }
  have hxp : x.parent = wp := rfl
  have hxl : x.left_sib = wls := rfl
  obtain ⟨id, ws1, hadd, hids, hF1, hlen1, hpar1, hpip1, hidp, hidl, hnid, hnp, hnl, hfr⟩ :=
    AddLastNode_spec ws F hF x hty pn (by rw [hxp]; exact hpn) (by rw [hxp]; exact hwpF)
      (by
        rw [hxl, hxp]
        intro h
        obtain ⟨_, h2, h3, ln, hln, _⟩ := hnn h
        exact ⟨ln, hln, h3, h2⟩)
  rw [hxp] at hidp hnp
  rw [hxl] at hidl hnl
  have hidpos : 0 < id := by
    have hm : id ∈ F ∨ ws.nodes_.length ≤ id := by
      apply mem_allocIds F ws.nodes_.length 1
      rw [hids]; simp
    have := (nodeAt_some_bounds ws wp pn hpn).2
    rcases hm with hm | hm
    · rcases Nat.eq_zero_or_pos id with h | h
      · subst h; exact absurd hm h0F
      · exact h
    · omega
  have hset : wit.setLabels ws (if is_for_node_type then UNKNOWN_LABEL else node_type)
      UNKNOWN_LABEL = some (ws, { wit with eps_node_ := x }) := by
    unfold LocalEpsTreeTraversal.setLabels
    rw [if_pos hw.1, hw.2]
  obtain ⟨wit1, hw1, hwat1⟩ := writer_down fuel0 ws ws1 { wit with eps_node_ := x } id hw.1 hty
    rfl hadd hnid
  refine ⟨id, ws1, ?_, hids, hF1, hlen1, hidpos, hnid, ?_⟩
  · intro k
    rw [completionLoop]
    simp only [Bool.false_eq_true, if_false, hpos, if_true, Option.some_bind, hset, hw1,
      Option.map_some']
  · refine ⟨?_, ?_, ?_, hpar1, hpip1⟩
    · intro j hj h1 h2
      exact hfr j (hj id (List.mem_singleton_self _)) (by rw [hxp]; exact h1)
        (by rw [hxl]; exact h2)
    · intro pn' hpn'
      rw [hpn] at hpn'
      cases hpn'
      rw [hnp]
      congr 2
      by_cases hl : wls < 0
      · have := (hneg hl).2
        simp [hl, this]
      · have := (hnn (by omega)).1
        have h3 : ¬ pn.first_child < 0 := by omega
        simp [hl, h3]
    · intro ln h h2
      exact hnl ln h h2
/-! ## Writing a node, the chain of its children and the chain of its right siblings -/

/-- The node that `AddLastNode` makes from the free list `F` or as a new slot is not the parent
`wp`, not the left sibling `wls`, and no slot of the rest of the free list. -/
theorem new_node_fresh (ws : TreeStorage) (F : List Nat) (wp wls : Int) (nid : Nat)
    (hF : FreeList ws F) (hslot : WriterSlot ws F wp wls)
    (hids : allocIds F ws.nodes_.length 1 = [nid]) :
    (nid : Int) ≠ wp ∧ (nid : Int) ≠ wls ∧ nid ∉ F.drop 1 := by
  obtain ⟨hwp, h0F, hwpF, pn, hpn, hlast, hneg, hnn⟩ := hslot
  have hplt := (nodeAt_some_bounds ws wp pn hpn).2
  have hidmem : nid ∈ F ∨ ws.nodes_.length ≤ nid := by
    apply mem_allocIds F ws.nodes_.length 1
    rw [hids]; simp
  refine ⟨?_, ?_, ?_⟩
  · intro h
    rcases hidmem with h1 | h1
    · apply hwpF; rw [← h]; simpa using h1
    · omega
  · intro h
    have h0 : 0 ≤ wls := by omega
    obtain ⟨_, _, h3, ln, hln, _⟩ := hnn h0
    have := (nodeAt_some_bounds ws wls ln hln).2
    rcases hidmem with h1 | h1
    · apply h3; rw [← h]; simpa using h1
    · omega
  · intro h
    cases hF' : F with
    | nil => rw [hF'] at h; simp at h
    | cons f fs =>
      rw [hF'] at h hids hF
      simp only [allocIds, List.take_succ_cons, List.take_zero, List.length_cons,
        List.drop_succ_cons, List.drop_zero] at h hids
      have hfid : f = nid := by simpa using hids
      subst hfid
      exact (List.nodup_cons.mp hF.2).1 h

/-- After the writing iterator has made the node `id` as the last child of `wp`, the place of
the first child of `id` can be written. -/
theorem slot_after_node (ws ws1 : TreeStorage) (F : List Nat) (wp wls : Int) (nid : Nat)
    (x : TreeNode) (hF : FreeList ws F) (hslot : WriterSlot ws F wp wls)
    (hids : allocIds F ws.nodes_.length 1 = [nid]) (hidpos : 0 < nid)
    (hnid : ws1.nodeAt (nid : Int) = some x) (hxt : x.type ≠ EMPTY_NODE_LABEL)
    (hxf : x.first_child = -1) (hxl : x.last_child = -1) :
    WriterSlot ws1 (F.drop 1) (nid : Int) (-1) ∧ Leavable ws1 (nid : Int) := by
  obtain ⟨_, _, hidF1⟩ := new_node_fresh ws F wp wls nid hF hslot hids
  obtain ⟨hwp, h0F, hwpF, pn, hpn, hlast, hneg, hnn⟩ := hslot
  have hF1sub : ∀ f ∈ F.drop 1, f ∈ F := fun f hf => List.mem_of_mem_drop hf
  refine ⟨?_, ⟨_, hnid, hxt, fun h => by omega⟩⟩
  refine ⟨by omega, fun h => h0F (hF1sub 0 h), by simpa using hidF1, _, hnid, hxl, ?_, ?_⟩
  · intro _; exact ⟨rfl, hxf⟩
  · intro h; omega

/-- After the writing iterator has made the node `id` as the last child of `wp` and the chain of
the children of `id`, and has left the children of `id`, it stands at the place after `id`,
which can be written. -/
theorem slot_after_children (ws ws1 ws2 : TreeStorage) (F : List Nat) (wp wls wci : Int)
    (nid : Nat) (x : TreeNode) (csize : Nat) (cid lastc : Int) (wit2 : LocalEpsTreeTraversal)
    (ew2 : Bool) (hF : FreeList ws F) (hslot : WriterSlot ws F wp wls) (hlw : Leavable ws wp)
    (hidpos : 0 < nid)
    (hlen1 : ws1.nodes_.length = ws.nodes_.length + (1 - F.length))
    (hnid : ws1.nodeAt (nid : Int) = some x) (hxp : x.parent = wp) (hxr : x.right_sib = -1)
    (hxc : x.child_index = wci)
    (hrel1 : CopyRel ws ws1 wp wls (nid : Int) (nid : Int) [nid])
    (hrel2 : CopyRel ws1 ws2 (nid : Int) (-1) cid lastc
      (allocIds (F.drop 1) ws1.nodes_.length csize))
    (hwa2 : WriterAfter ws2 (nid : Int) wit2 ew2)
    (hidwp : (nid : Int) ≠ wp) (hidF1 : nid ∉ F.drop 1) :
    WriterAt wit2 wp (nid : Int) (wci + 1) ∧ ew2 = false ∧
      WriterSlot ws2 ((F.drop 1).drop csize) wp (nid : Int) ∧ Leavable ws2 wp ∧
      ws2.nodeAt (nid : Int) = some { x with first_child := cid, last_child := lastc } := by
  obtain ⟨hwp, h0F, hwpF, pn, hpn, hlast, hneg, hnn⟩ := hslot
  have hplt := (nodeAt_some_bounds ws wp pn hpn).2
  have hFlt := FreeList_lt ws F hF
  have hF1sub : ∀ f ∈ F.drop 1, f ∈ F := fun f hf => List.mem_of_mem_drop hf
  have hnid2 := hrel2.2.1 _ hnid
  simp only [show ((-1 : Int) < 0) from by decide, if_true] at hnid2
  obtain ⟨n2, hn2, hwa2'⟩ := hwa2
  rw [hnid2] at hn2
  cases hn2
  rw [if_neg (by omega)] at hwa2'
  obtain ⟨hew2, hwpos2, hweps2⟩ := hwa2'
  simp only [hxr, hxp, hxc] at hwpos2 hweps2
  have hwat2 : WriterAt wit2 wp (nid : Int) (wci + 1) := by
    refine ⟨?_, ?_⟩
    · rw [hwpos2]; show (-1 : Int) < 0; decide
    · exact hweps2 (by show (-1 : Int) < 0; decide)
  have hLcmem : ∀ i ∈ allocIds (F.drop 1) ws1.nodes_.length csize,
      i ∈ F ∨ ws.nodes_.length ≤ i := by
    intro i hi
    rcases mem_allocIds _ _ _ _ hi with h | h
    · exact Or.inl (hF1sub i h)
    · right; omega
  have hLc_wp : ∀ i ∈ allocIds (F.drop 1) ws1.nodes_.length csize, wp ≠ (i : Int) := by
    intro i hi h
    rcases hLcmem i hi with h1 | h1
    · apply hwpF; rw [h]; simpa using h1
    · omega
  have hpn1 : ws1.nodeAt wp = some { pn with
      first_child := if wls < 0 then (nid : Int) else pn.first_child,
      last_child := (nid : Int) } := hrel1.2.1 pn hpn
  have hpn2 : ws2.nodeAt wp = ws1.nodeAt wp :=
    hrel2.1 wp hLc_wp (Ne.symm hidwp) (by omega)
  have hF2sub : ∀ f ∈ (F.drop 1).drop csize, f ∈ F :=
    fun f hf => hF1sub f (List.mem_of_mem_drop hf)
  have hidF2 : nid ∉ (F.drop 1).drop csize := fun h => hidF1 (List.mem_of_mem_drop h)
  refine ⟨hwat2, hew2, ?_, ?_, hnid2⟩
  · refine ⟨hwp, fun h => h0F (hF2sub 0 h), fun h => hwpF (hF2sub _ h), _,
      by rw [hpn2, hpn1], rfl, fun h => by omega, ?_⟩
    intro _
    refine ⟨?_, hidwp, by simpa using hidF2, _, hnid2, hxr⟩
    simp only []
    by_cases hl : wls < 0
    · simp [hl]
    · simp only [hl, if_false]
      exact (hnn (by omega)).1
  · obtain ⟨pn0, hpn0, hpty, hproot⟩ := hlw
    rw [hpn] at hpn0
    cases hpn0
    exact ⟨{ pn with
      first_child := if wls < 0 then (nid : Int) else pn.first_child,
      last_child := (nid : Int) }, by rw [hpn2]; exact hpn1, hpty, hproot⟩

/-- The chain that the writing iterator has made of a node `id`, the chain `c` of its children
and the chain `sb` of its right siblings: the store holds the tree of the three, and the
elements other than the new nodes, the parent and the left sibling are the same. -/
theorem Chain_compose (ws ws1 ws2 ws3 : TreeStorage) (F : List Nat) (wp wls wci : Int)
    (nid : Nat) (ty v : Int) (c sb : FT) (cid lastc sid lastw : Int)
    (hF : FreeList ws F) (hslot : WriterSlot ws F wp wls)
    (hids : allocIds F ws.nodes_.length 1 = [nid]) (hidpos : 0 < nid)
    (hlen1 : ws1.nodes_.length = ws.nodes_.length + (1 - F.length))
    (hF1 : FreeList ws1 (F.drop 1))
    (hnid : ws1.nodeAt (nid : Int) = some { epsNode wp wls wci with type := ty, value := v })
    (hrel1 : CopyRel ws ws1 wp wls (nid : Int) (nid : Int) [nid])
    (hch2 : Chain ws2 c cid (nid : Int) (-1) 0 (allocIds (F.drop 1) ws1.nodes_.length c.size)
      lastc)
    (hlen2 : ws2.nodes_.length = ws1.nodes_.length + (c.size - (F.drop 1).length))
    (hrel2 : CopyRel ws1 ws2 (nid : Int) (-1) cid lastc
      (allocIds (F.drop 1) ws1.nodes_.length c.size))
    (hch3 : Chain ws3 sb sid wp (nid : Int) (wci + 1)
      (allocIds ((F.drop 1).drop c.size) ws2.nodes_.length sb.size) lastw)
    (hF3 : FreeList ws3 (((F.drop 1).drop c.size).drop sb.size))
    (hlen3 : ws3.nodes_.length
      = ws2.nodes_.length + (sb.size - ((F.drop 1).drop c.size).length))
    (hrel3 : CopyRel ws2 ws3 wp (nid : Int) sid lastw
      (allocIds ((F.drop 1).drop c.size) ws2.nodes_.length sb.size)) :
    Chain ws3 (.node ty v c sb) (nid : Int) wp wls wci
        (allocIds F ws.nodes_.length (FT.node ty v c sb).size) lastw ∧
      FreeList ws3 (F.drop (FT.node ty v c sb).size) ∧
      ws3.nodes_.length = ws.nodes_.length + ((FT.node ty v c sb).size - F.length) ∧
      CopyRel ws ws3 wp wls (nid : Int) lastw
        (allocIds F ws.nodes_.length (FT.node ty v c sb).size) := by
  obtain ⟨hidwp, hidwls, hidF1⟩ := new_node_fresh ws F wp wls nid hF hslot hids
  have hlenall : ws3.nodes_.length
      = ws.nodes_.length + ((FT.node ty v c sb).size - F.length) := by
    have e1 : (F.drop 1).length = F.length - 1 := by simp
    have e2 : ((F.drop 1).drop c.size).length = F.length - 1 - c.size := by
      simp only [List.length_drop]
    rw [hlen3, hlen2, hlen1, e1, e2]
    simp only [FT.size]
    omega
  obtain ⟨hwp, h0F, hwpF, pn, hpn, hlast, hneg, hnn⟩ := hslot
  have hplt := (nodeAt_some_bounds ws wp pn hpn).2
  have hFlt := FreeList_lt ws F hF
  have hF1sub : ∀ f ∈ F.drop 1, f ∈ F := fun f hf => List.mem_of_mem_drop hf
  have hnid2 := hrel2.2.1 _ hnid
  simp only [show ((-1 : Int) < 0) from by decide, if_true] at hnid2
  set Lcw := allocIds (F.drop 1) ws1.nodes_.length c.size with hLcw
  have hF1lt := FreeList_lt ws1 (F.drop 1) hF1
  have hLcmem : ∀ i ∈ Lcw, i ∈ F ∨ ws.nodes_.length ≤ i := by
    intro i hi
    rcases mem_allocIds _ _ _ _ hi with h | h
    · exact Or.inl (hF1sub i h)
    · right; omega
  have hLc_wp : ∀ i ∈ Lcw, wp ≠ (i : Int) := by
    intro i hi h
    rcases hLcmem i hi with h1 | h1
    · apply hwpF; rw [h]; simpa using h1
    · omega
  have hLc_wls : ∀ i ∈ Lcw, wls ≠ (i : Int) := by
    intro i hi h
    have h0 : 0 ≤ wls := by omega
    obtain ⟨_, _, h3, ln, hln, _⟩ := hnn h0
    have := (nodeAt_some_bounds ws wls ln hln).2
    rcases hLcmem i hi with h1 | h1
    · apply h3; rw [h]; simpa using h1
    · omega
  have hnd1 : (nid :: Lcw).Nodup := by
    have hnd := nodup_allocIds F ws.nodes_.length (1 + c.size) hF.2 hFlt
    rw [allocIds_add, hids] at hnd
    have : ws.nodes_.length + (1 - F.length) = ws1.nodes_.length := hlen1.symm
    rw [this] at hnd
    exact hnd
  have hLc_id : ∀ i ∈ Lcw, (nid : Int) ≠ (i : Int) := by
    intro i hi h
    have : nid = i := by omega
    subst this
    exact (List.nodup_cons.mp hnd1).1 hi
  have hpn1 : ws1.nodeAt wp = some { pn with
      first_child := if wls < 0 then (nid : Int) else pn.first_child,
      last_child := (nid : Int) } := hrel1.2.1 pn hpn
  have hpn2 : ws2.nodeAt wp = ws1.nodeAt wp :=
    hrel2.1 wp hLc_wp (Ne.symm hidwp) (by omega)
  have hF2sub : ∀ f ∈ (F.drop 1).drop c.size, f ∈ F :=
    fun f hf => hF1sub f (List.mem_of_mem_drop hf)
  set Lsw := allocIds ((F.drop 1).drop c.size) ws2.nodes_.length sb.size with hLsw
  have hlenF1 : (F.drop 1).length = F.length - 1 := by simp
  have hlenF2 : ((F.drop 1).drop c.size).length = F.length - 1 - c.size := by
    simp only [List.length_drop]
  have hall : allocIds F ws.nodes_.length (FT.node ty v c sb).size = nid :: (Lcw ++ Lsw) := by
    have e1 : (FT.node ty v c sb).size = 1 + (c.size + sb.size) := by
      simp only [FT.size]; omega
    rw [e1, allocIds_add, hids, allocIds_add]
    have e2 : ws.nodes_.length + (1 - F.length) = ws1.nodes_.length := hlen1.symm
    have e3 : ws1.nodes_.length + (c.size - (F.drop 1).length) = ws2.nodes_.length :=
      hlen2.symm
    rw [e2, e3]
    rfl
  have hnd2 : (Lcw ++ Lsw).Nodup := by
    have hnd := nodup_allocIds (F.drop 1) ws1.nodes_.length (c.size + sb.size) hF1.2 hF1lt
    rw [allocIds_add] at hnd
    have e3 : ws1.nodes_.length + (c.size - (F.drop 1).length) = ws2.nodes_.length :=
      hlen2.symm
    rw [e3] at hnd
    exact hnd
  have hLs_Lc : ∀ i ∈ Lcw, ∀ k ∈ Lsw, (i : Int) ≠ (k : Int) := by
    intro i hi k hk h
    have : i = k := by omega
    subst this
    exact (List.nodup_append.mp hnd2).2.2 hi hk
  have hnid3 := hrel3.2.2.1 _ (by omega) hnid2
  refine ⟨?_, ?_, ?_, ?_⟩
  · rw [hall]
    refine ⟨by omega, _, Lcw, Lsw, hnid3, rfl, rfl, rfl, rfl, rfl, ?_, ?_, by simp⟩
    · apply Chain_frame ws2 ws3 c _ _ _ _ _ _ hch2
      intro i hi
      exact hrel3.1 (i : Int) (fun k hk => hLs_Lc i hi k hk) (Ne.symm (hLc_wp i hi))
        (Ne.symm (hLc_id i hi))
    · exact hch3
  · have : List.drop (FT.node ty v c sb).size F
        = List.drop sb.size (List.drop c.size (List.drop 1 F)) := by
      rw [List.drop_drop, List.drop_drop]
      congr 1
      simp only [FT.size]; omega
    rw [this]
    exact hF3
  · exact hlenall
  · rw [hall]
    refine ⟨?_, ?_, ?_, by rw [hrel3.2.2.2.1, hrel2.2.2.2.1, hrel1.2.2.2.1],
      by rw [hrel3.2.2.2.2, hrel2.2.2.2.2, hrel1.2.2.2.2]⟩
    · intro j hj h1 h2
      by_cases hjneg : j < 0
      · rw [nodeAt_neg _ _ hjneg, nodeAt_neg _ _ hjneg]
      have hjid : j ≠ (nid : Int) := hj nid (List.mem_cons_self _ _)
      have hjc : ∀ i ∈ Lcw, j ≠ (i : Int) :=
        fun i hi => hj i (List.mem_cons_of_mem _ (List.mem_append_left _ hi))
      have hjs : ∀ i ∈ Lsw, j ≠ (i : Int) :=
        fun i hi => hj i (List.mem_cons_of_mem _ (List.mem_append_right _ hi))
      rw [hrel3.1 j hjs h1 hjid, hrel2.1 j hjc hjid (by omega)]
      exact hrel1.1 j (fun i hi => by rw [List.mem_singleton.mp hi]; exact hjid) h1 h2
    · intro pn' hpn'
      rw [hpn] at hpn'
      cases hpn'
      rw [hrel3.2.1 _ (by rw [hpn2, hpn1])]
      congr 1
    · intro ln h0 hln
      have e1 : ws1.nodeAt wls = some { ln with right_sib := (nid : Int) } :=
        hrel1.2.2.1 ln h0 hln
      have hwlswp : wls ≠ wp := (hnn h0).2.1
      have e2 : ws2.nodeAt wls = ws1.nodeAt wls :=
        hrel2.1 wls hLc_wls (Ne.symm hidwls) (by omega)
      have hLs_wls : ∀ i ∈ Lsw, wls ≠ (i : Int) := by
        intro i hi h
        obtain ⟨_, _, h3, ln', hln', _⟩ := hnn h0
        have hb := (nodeAt_some_bounds ws wls ln' hln').2
        rcases mem_allocIds _ _ _ _ hi with h4 | h4
        · apply h3; rw [h]; simpa using hF2sub i h4
        · omega
      rw [hrel3.1 wls hLs_wls hwlswp (Ne.symm hidwls), e2, e1]
/-! ## The loop of `GetSubtreeForCompletion` on a chain -/

/-- The loop of `GetSubtreeForCompletion` on a chain before the position, with known types: the
reading iterator walks over the chain `t` below the node `rp` of the store `rs`, the writing
iterator makes the chain with the labels that `Type()` and `Value()` read after the last child
`wls` of the node `wp`, and both iterators leave the children of their nodes. -/
theorem completion_chain (fuel0 : Nat) (hf : 2 ≤ fuel0) (rs : TreeStorage) (position : Int)
    ( is_for_node_type : Bool) (node_type : Int) (hposn : 0 ≤ position) (t : FT) :
    ∀ (rid rp rls rci : Int) (Lr : List Nat) (lastr : Int) (it : ConstLocalEpsTreeTraversal)
      (ws : TreeStorage) (wit : LocalEpsTreeTraversal) (wp wls wci : Int) (F : List Nat),
      t.TypesKnown → Chain rs t rid rp rls rci Lr lastr → position.toNat ∉ Lr →
      ReaderAt it rid rp → 0 ≤ rp →
      Leavable rs rp → WriterAt wit wp wls wci → WriterSlot ws F wp wls → Leavable ws wp →
      FreeList ws F →
      ∃ (it1 : ConstLocalEpsTreeTraversal) (er : Bool) (ws1 : TreeStorage)
        (wit1 : LocalEpsTreeTraversal) (ew : Bool) (wid lastw : Int),
        (∀ k, completionLoop fuel0 rs position is_for_node_type node_type
            (k + t.epsLabels.length) (it, false) ws wit
          = completionLoop fuel0 rs position is_for_node_type node_type k (it1, er) ws1
            wit1) ∧
        ReaderAfter rs rp it1 er ∧ WriterAfter ws1 wp wit1 ew ∧
        Chain ws1 t.read wid wp wls wci (allocIds F ws.nodes_.length t.size) lastw ∧
        FreeList ws1 (F.drop t.size) ∧
        ws1.nodes_.length = ws.nodes_.length + (t.size - F.length) ∧
        CopyRel ws ws1 wp wls wid lastw (allocIds F ws.nodes_.length t.size) := by
  induction t with
  | eps =>
    intro rid rp rls rci Lr lastr it ws wit wp wls wci F _ hch _ hat hrp hlr hw hslot hlw hF
    obtain ⟨hrid, _, _⟩ := hch
    obtain ⟨it1, er, wit1, ew, hloop, hra, hwa⟩ := completionLoop_eps fuel0 hf rs ws position
      is_for_node_type node_type it wit rid rp wp wls wci hposn (by omega) hat hrp hlr hw
      hslot.1 hlw
    obtain ⟨hwp, h0F, hwpF, pn, hpn, hlast, hneg, hnn⟩ := hslot
    refine ⟨it1, er, ws, wit1, ew, -1, wls, hloop, hra, hwa, ?_, ?_, ?_, ?_⟩
    · exact ⟨rfl, by simp [allocIds, FT.size], rfl⟩
    · simpa [FT.size] using hF
    · simp [FT.size]
    · refine ⟨fun _ _ _ _ => rfl, ?_, ?_, rfl, rfl⟩
      · intro pn' hpn'
        rw [hpn']
        rw [hpn] at hpn'
        cases hpn'
        congr 1
        by_cases hl : wls < 0
        · have := (hneg hl).2
          obtain ⟨a1, a2, a3, a4, a5, a6, a7, a8⟩ := pn
          simp only [] at this hlast
          subst this hlast
          simp [hl]
        · obtain ⟨a1, a2, a3, a4, a5, a6, a7, a8⟩ := pn
          simp only [] at hlast
          subst hlast
          simp [hl]
      · intro ln h0 hln
        obtain ⟨_, _, _, ln', hln', hr⟩ := hnn h0
        rw [hln] at hln'
        cases hln'
        rw [hln]
        congr 1
        obtain ⟨a1, a2, a3, a4, a5, a6, a7, a8⟩ := ln
        simp only [] at hr
        subst hr
        rfl
  | node ty v c sb ihc ihs =>
    intro rid rp rls rci Lr lastr it ws wit wp wls wci F hkn hch hnot hat hrp hlr hw hslot hlw
      hF
    obtain ⟨hty, htu, hknc, hkns⟩ := hkn
    obtain ⟨hrid, n, Lc, Ls, hn, hnt, hnv, hnp, hnl, hnc, hcc, hcs, hL⟩ := hch
    subst hL
    have hnty : n.type ≠ EMPTY_NODE_LABEL := by rw [hnt]; exact hty
    have hntu : n.type ≠ UNKNOWN_LABEL := by rw [hnt]; exact htu
    have hridne : rid ≠ position := by
      intro h
      apply hnot
      rw [h]
      exact List.mem_cons_self _ _
    have hnotc : position.toNat ∉ Lc :=
      fun h => hnot (List.mem_cons_of_mem _ (List.mem_append_left _ h))
    have hnots : position.toNat ∉ Ls :=
      fun h => hnot (List.mem_cons_of_mem _ (List.mem_append_right _ h))
    -- the round at the node
    obtain ⟨id, ws1, it1, wit1, hloop1, hrat1, hwat1, hids, hF1, hlen1, hidpos, hnid, hrel1⟩ :=
      completionLoop_node fuel0 rs ws position is_for_node_type node_type F it wit rid wp wls
        wci n hat.1 (le_of_lt hrid) hridne hn hnty hntu hw hslot hF
    obtain ⟨hidwp, hidwls, hidF1⟩ := new_node_fresh ws F wp wls id hF hslot hids
    obtain ⟨hslot1, hlw1⟩ := slot_after_node ws ws1 F wp wls id _ hF hslot hids hidpos hnid
      hnty rfl rfl
    have hlr1 : Leavable rs rid := ⟨n, hn, hnty, fun h => by omega⟩
    -- the chain of the children
    obtain ⟨it2, er2, ws2, wit2, ew2, cid, lastc, hloop2, hra2, hwa2, hch2, hF2, hlen2, hrel2⟩ :=
      ihc n.first_child rid (-1) 0 Lc n.last_child it1 ws1 wit1 (id : Int) (-1) 0 (F.drop 1)
        hknc hcc hnotc hrat1 (le_of_lt hrid) hlr1 hwat1 hslot1 hlw1 hF1
    obtain ⟨n', hn', hra2'⟩ := hra2
    rw [hn] at hn'
    cases hn'
    rw [if_neg (by omega)] at hra2'
    obtain ⟨her2, hrat2⟩ := hra2'
    rw [hnp] at hrat2
    subst her2
    obtain ⟨hwat2, hew2, hslot2, hlw2, hnid2⟩ := slot_after_children ws ws1 ws2 F wp wls wci id
      _ c.size cid lastc wit2 ew2 hF hslot hlw hidpos hlen1 hnid rfl rfl rfl hrel1 hrel2
      hwa2 hidwp hidF1
    -- the chain of the right siblings
    obtain ⟨it3, er3, ws3, wit3, ew3, sid, lastw, hloop3, hra3, hwa3, hch3, hF3, hlen3, hrel3⟩ :=
      ihs n.right_sib rp rid (rci + 1) Ls lastr it2 ws2 wit2 wp (id : Int) (wci + 1)
        ((F.drop 1).drop c.size) hkns hcs hnots hrat2 hrp hlr hwat2 hslot2 hlw2 hF2
    have hcomp := Chain_compose ws ws1 ws2 ws3 F wp wls wci id n.type (knownLabel n.value)
      c.read sb.read cid lastc sid lastw hF hslot hids hidpos hlen1 hF1 hnid hrel1
      (by rw [FT.read_size]; exact hch2) (by rw [FT.read_size]; exact hlen2)
      (by rw [FT.read_size]; exact hrel2)
      (by rw [FT.read_size, FT.read_size]; exact hch3)
      (by rw [FT.read_size, FT.read_size]; exact hF3)
      (by rw [FT.read_size, FT.read_size]; exact hlen3)
      (by rw [FT.read_size, FT.read_size]; exact hrel3)
    have hsize : (FT.node n.type (knownLabel n.value) c.read sb.read).size
        = (FT.node ty v c sb).size := by
      simp only [FT.size, FT.read_size]
    rw [hsize] at hcomp
    obtain ⟨g1, g2, g3, g4⟩ := hcomp
    refine ⟨it3, er3, ws3, wit3, ew3, (id : Int), lastw, ?_, hra3, hwa3, ?_, g2, g3, g4⟩
    · intro k
      have e : k + (FT.node ty v c sb).epsLabels.length
          = (k + sb.epsLabels.length + c.epsLabels.length) + 1 := by
        simp only [FT.epsLabels, List.length_cons, List.length_append]
        omega
      rw [e, hloop1, hloop2, hloop3]
    · have : (FT.node ty v c sb).read
          = FT.node n.type (knownLabel n.value) c.read sb.read := by
        simp only [FT.read]
        rw [← hnt, ← hnv, knownLabel_of_known _ hntu]
      rw [this]
      exact g1

/-- The sibling at which a chain is cut off is a node of the chain. -/
theorem cutAt_mem (t : FT) :
    ∀ (L : List Nat) (k : Nat) (ty1 : Int) (t1 : FT), t.cutAt L k ty1 = some t1 → k ∈ L := by
  induction t with
  | eps => intro L k ty1 t1 h; exact Option.noConfusion h
  | node ty v c sb _ ihs =>
    intro L k ty1 t1 h
    cases L with
    | nil => exact Option.noConfusion h
    | cons x rest =>
      unfold FT.cutAt at h
      by_cases hx : x = k
      · rw [hx]; exact List.mem_cons_self _ _
      · rw [if_neg hx] at h
        simp only [Option.map_eq_some'] at h
        obtain ⟨sb1, hsb1, _⟩ := h
        exact List.mem_cons_of_mem _ (List.mem_of_mem_drop (ihs _ _ _ _ hsb1))

/-- The loop of `GetSubtreeForCompletion` on the chain of siblings that holds the position: the
reading iterator walks over the chain up to the position, the writing iterator makes the chain
cut off after the position after the last child `wls` of the node `wp`, and the loop ends. -/
theorem completion_cut (fuel0 : Nat) (hf : 2 ≤ fuel0) (rs : TreeStorage) (position : Int)
    ( is_for_node_type : Bool) (node_type : Int) (hposn : 0 ≤ position)
    (hty1 : (if is_for_node_type then UNKNOWN_LABEL else node_type) ≠ EMPTY_NODE_LABEL)
    (t : FT) :
    ∀ (rid rp rls rci : Int) (Lr : List Nat) (lastr : Int) (it : ConstLocalEpsTreeTraversal)
      (ws : TreeStorage) (wit : LocalEpsTreeTraversal) (wp wls wci : Int) (F : List Nat)
      (t1 : FT),
      Chain rs t rid rp rls rci Lr lastr → Lr.Nodup →
      t.cutAt Lr position.toNat (if is_for_node_type then UNKNOWN_LABEL else node_type)
        = some t1 →
      t.KnownBefore Lr position.toNat →
      ReaderAt it rid rp → 0 ≤ rp →
      WriterAt wit wp wls wci → WriterSlot ws F wp wls → Leavable ws wp → FreeList ws F →
      ∃ (ws1 : TreeStorage) (wid lastw : Int),
        (∀ k, completionLoop fuel0 rs position is_for_node_type node_type
            (k + t.cutRounds Lr position.toNat) (it, false) ws wit = some ws1) ∧
        Chain ws1 t1 wid wp wls wci (allocIds F ws.nodes_.length t1.size) lastw ∧
        FreeList ws1 (F.drop t1.size) ∧
        ws1.nodes_.length = ws.nodes_.length + (t1.size - F.length) ∧
        CopyRel ws ws1 wp wls wid lastw (allocIds F ws.nodes_.length t1.size) := by
  induction t with
  | eps =>
    intro rid rp rls rci Lr lastr it ws wit wp wls wci F t1 _ _ hcut
    exact Option.noConfusion hcut
  | node ty v c sb _ ihs =>
    intro rid rp rls rci Lr lastr it ws wit wp wls wci F t1 hch hnd hcut hkb hat hrp hw hslot
      hlw hF
    obtain ⟨hrid, n, Lc, Ls, hn, hnt, hnv, hnp, hnl, hnc, hcc, hcs, hL⟩ := hch
    subst hL
    have hLc := Chain_length rs c _ _ _ _ _ _ hcc
    have hdrop : (Lc ++ Ls).drop c.size = Ls := by
      rw [← hLc, List.drop_left]
    unfold FT.cutAt at hcut
    unfold FT.KnownBefore at hkb
    unfold FT.cutRounds
    by_cases hx : rid.toNat = position.toNat
    · -- the round at the position
      rw [if_pos hx] at hcut
      have ht1 : t1 = .node (if is_for_node_type then UNKNOWN_LABEL else node_type)
          UNKNOWN_LABEL .eps .eps := (Option.some.inj hcut).symm
      subst ht1
      have hpos : it.position_ = position := by
        rw [hat.1]; omega
      obtain ⟨id, ws1, hloop, hids, hF1, hlen1, hidpos, hnid, hrel1⟩ :=
        completionLoop_last fuel0 rs ws position is_for_node_type node_type F it wit wp wls wci
          hpos hty1 hw hslot hF
      refine ⟨ws1, (id : Int), (id : Int), ?_, ?_, ?_, ?_, ?_⟩
      · intro k
        rw [if_pos hx]
        exact hloop k
      · have : allocIds F ws.nodes_.length
            (FT.node (if is_for_node_type then UNKNOWN_LABEL else node_type) UNKNOWN_LABEL
              .eps .eps).size = [id] := by
          simp only [FT.size]
          exact hids
        rw [this]
        exact ⟨by omega, _, [], [], hnid, rfl, rfl, rfl, rfl, rfl, ⟨rfl, rfl, rfl⟩,
          ⟨rfl, rfl, rfl⟩, rfl⟩
      · simpa [FT.size] using hF1
      · simpa [FT.size] using hlen1
      · have : allocIds F ws.nodes_.length
            (FT.node (if is_for_node_type then UNKNOWN_LABEL else node_type) UNKNOWN_LABEL
              .eps .eps).size = [id] := by
          simp only [FT.size]
          exact hids
        rw [this]
        exact hrel1
    · rw [if_neg hx] at hcut
      rw [if_neg hx]
      rw [hdrop] at hcut hkb ⊢
      simp only [Option.map_eq_some'] at hcut
      obtain ⟨sb1, hsb1, ht1⟩ := hcut
      subst ht1
      rcases hkb with hkb | ⟨hty, htu, hknc, hkbs⟩
      · exact absurd hkb hx
      have hnty : n.type ≠ EMPTY_NODE_LABEL := by rw [hnt]; exact hty
      have hntu : n.type ≠ UNKNOWN_LABEL := by rw [hnt]; exact htu
      have hridne : rid ≠ position := by
        intro h
        exact hx (by rw [h])
      have hks : position.toNat ∈ Ls := cutAt_mem sb _ _ _ _ hsb1
      have hndrest := (List.nodup_cons.mp hnd).2
      have hnotc : position.toNat ∉ Lc :=
        fun h => (List.nodup_append.mp hndrest).2.2 h hks
      -- the round at the node
      obtain ⟨id, ws1, it1, wit1, hloop1, hrat1, hwat1, hids, hF1, hlen1, hidpos, hnid,
          hrel1⟩ :=
        completionLoop_node fuel0 rs ws position is_for_node_type node_type F it wit rid wp
          wls wci n hat.1 (le_of_lt hrid) hridne hn hnty hntu hw hslot hF
      obtain ⟨hidwp, hidwls, hidF1⟩ := new_node_fresh ws F wp wls id hF hslot hids
      obtain ⟨hslot1, hlw1⟩ := slot_after_node ws ws1 F wp wls id _ hF hslot hids hidpos hnid
        hnty rfl rfl
      have hlr1 : Leavable rs rid := ⟨n, hn, hnty, fun h => by omega⟩
      -- the chain of the children
      obtain ⟨it2, er2, ws2, wit2, ew2, cid, lastc, hloop2, hra2, hwa2, hch2, hF2, hlen2,
          hrel2⟩ :=
        completion_chain fuel0 hf rs position is_for_node_type node_type hposn c n.first_child
          rid (-1) 0 Lc n.last_child it1 ws1 wit1 (id : Int) (-1) 0 (F.drop 1)
          hknc hcc hnotc hrat1 (le_of_lt hrid) hlr1 hwat1 hslot1 hlw1 hF1
      obtain ⟨n', hn', hra2'⟩ := hra2
      rw [hn] at hn'
      cases hn'
      rw [if_neg (by omega)] at hra2'
      obtain ⟨her2, hrat2⟩ := hra2'
      rw [hnp] at hrat2
      subst her2
      obtain ⟨hwat2, hew2, hslot2, hlw2, hnid2⟩ := slot_after_children ws ws1 ws2 F wp wls wci
        id _ c.size cid lastc wit2 ew2 hF hslot hlw hidpos hlen1 hnid rfl rfl rfl hrel1 hrel2
        hwa2 hidwp hidF1
      -- the chain of the right siblings up to the position
      obtain ⟨ws3, sid, lastw, hloop3, hch3, hF3, hlen3, hrel3⟩ :=
        ihs n.right_sib rp rid (rci + 1) Ls lastr it2 ws2 wit2 wp (id : Int) (wci + 1)
          ((F.drop 1).drop c.size) sb1 hcs (List.nodup_append.mp hndrest).2.1 hsb1 hkbs hrat2
          hrp hwat2 hslot2 hlw2 hF2
      have hcomp := Chain_compose ws ws1 ws2 ws3 F wp wls wci id n.type (knownLabel n.value)
        c.read sb1 cid lastc sid lastw hF hslot hids hidpos hlen1 hF1 hnid hrel1
        (by rw [FT.read_size]; exact hch2) (by rw [FT.read_size]; exact hlen2)
        (by rw [FT.read_size]; exact hrel2)
        (by rw [FT.read_size]; exact hch3)
        (by rw [FT.read_size]; exact hF3)
        (by rw [FT.read_size]; exact hlen3)
        (by rw [FT.read_size]; exact hrel3)
      have htree : FT.node (knownLabel ty) (knownLabel v) c.read sb1
          = FT.node n.type (knownLabel n.value) c.read sb1 := by
        rw [← hnt, ← hnv, knownLabel_of_known _ hntu]
      rw [htree]
      obtain ⟨g1, g2, g3, g4⟩ := hcomp
      refine ⟨ws3, (id : Int), lastw, ?_, g1, g2, g3, g4⟩
      intro k
      have e : k + (1 + c.epsLabels.length + sb.cutRounds Ls position.toNat)
          = (k + sb.cutRounds Ls position.toNat + c.epsLabels.length) + 1 := by omega
      rw [e, hloop1, hloop2, hloop3]

/-! ## The subtree for a completion -/

/-- One round of the loop of `GetSubtreeForCompletion` at a node before the position, at a node
that the written store has, and that has no child: the writing iterator sets its type and value,
and both iterators go to the place of the first child. -/
theorem completionLoop_at (fuel0 : Nat) (rs ws : TreeStorage) (position : Int)
    ( is_for_node_type : Bool) (node_type : Int) (it : ConstLocalEpsTreeTraversal)
    (wit : LocalEpsTreeTraversal) (rid wid : Int) (n wn : TreeNode)
    (hpos : it.position_ = rid) (h0 : 0 ≤ rid) (hne : rid ≠ position)
    (hn : rs.nodeAt rid = some n)
    (hty : n.type ≠ EMPTY_NODE_LABEL) (htu : n.type ≠ UNKNOWN_LABEL)
    (hwpos : wit.position_ = wid) (hw0 : 0 ≤ wid)
    (hwn : ws.nodeAt wid = some wn) (hfc : wn.first_child = -1) :
    ∃ (ws1 : TreeStorage) (it1 : ConstLocalEpsTreeTraversal) (wit1 : LocalEpsTreeTraversal),
      (∀ k, completionLoop fuel0 rs position is_for_node_type node_type (k + 1) (it, false) ws
          wit
        = completionLoop fuel0 rs position is_for_node_type node_type k (it1, false) ws1
          wit1) ∧
      ReaderAt it1 n.first_child rid ∧ WriterAt wit1 wid (-1) 0 ∧
      ws.modifyNode wid (fun x => { x with type := n.type, value := knownLabel n.value })
        = some ws1 := by
  obtain ⟨ws1, hmod, hat1, _, _, _, _⟩ :=
    modifyNode_spec ws wid (fun x => { x with type := n.type, value := knownLabel n.value }) wn
      hwn
  have hnode : it.node rs = some n := by
    unfold ConstLocalEpsTreeTraversal.node
    rw [if_neg (by omega), hpos, hn]
  have hset : wit.setLabels ws n.Type n.Value = some (ws1, wit) := by
    unfold LocalEpsTreeTraversal.setLabels
    rw [if_neg (by omega), hwpos, TreeNode_Type_eq, TreeNode_Value_eq,
      knownLabel_of_known _ htu, hmod]
    rfl
  have hwnode : wit.node ws1
      = some { wn with type := n.type, value := knownLabel n.value } := by
    unfold LocalEpsTreeTraversal.node
    rw [if_neg (by omega), hwpos, hat1 wid, if_pos rfl]
  have hww : wit.write_node ws1 = some (ws1, wit) := by
    unfold LocalEpsTreeTraversal.write_node
    rw [if_neg (by omega)]
  have hwd : wit.pre_order_forward fuel0 ws1
      = some (ws1, { wit.allocate_eps_child with position_ := -1 }, false) := by
    unfold LocalEpsTreeTraversal.pre_order_forward LocalEpsTreeTraversal.down_first_child
    simp only [hwnode, Option.some_bind, hty, if_false, hww, Option.map_some', hfc]
    rfl
  obtain ⟨it1, hr1, hrat1⟩ := reader_down fuel0 rs it n (by omega) (by rw [hpos]; exact hn) hty
  rw [hpos] at hrat1
  refine ⟨ws1, it1, { wit.allocate_eps_child with position_ := -1 }, ?_, hrat1, ?_, hmod⟩
  · intro k
    rw [completionLoop]
    have hne2 : ¬ it.position_ = position := by rw [hpos]; exact hne
    simp only [Bool.false_eq_true, if_false, hne2, hnode, Option.some_bind, hset, hwd, hr1]
  · refine ⟨by show (-1 : Int) < 0; decide, ?_⟩
    show (LocalEpsTreeTraversal.allocate_eps_child wit).eps_node_ = epsNode wid (-1) 0
    unfold LocalEpsTreeTraversal.allocate_eps_child epsNode
    simp only [hwpos]

/-- The round of the loop of `GetSubtreeForCompletion` at the position, at a node that the
written store has, and that has no child: the writing iterator sets its type and value, and the
loop ends. -/
theorem completionLoop_at_last (fuel0 : Nat) (rs ws : TreeStorage) (position : Int)
    ( is_for_node_type : Bool) (node_type : Int) (it : ConstLocalEpsTreeTraversal)
    (wit : LocalEpsTreeTraversal) (wid : Int) (wn : TreeNode)
    (hpos : it.position_ = position)
    (hty : (if is_for_node_type then UNKNOWN_LABEL else node_type) ≠ EMPTY_NODE_LABEL)
    (hwpos : wit.position_ = wid) (hw0 : 0 ≤ wid)
    (hwn : ws.nodeAt wid = some wn) (hfc : wn.first_child = -1) :
    ∃ ws1 : TreeStorage,
      (∀ k, completionLoop fuel0 rs position is_for_node_type node_type (k + 1) (it, false) ws
          wit = some ws1) ∧
      ws.modifyNode wid (fun x => { x with
          type := (if is_for_node_type then UNKNOWN_LABEL else node_type),
          value := UNKNOWN_LABEL }) = some ws1 := by
  obtain ⟨ws1, hmod, hat1, _, _, _, _⟩ :=
    modifyNode_spec ws wid (fun x => { x with
      type := (if is_for_node_type then UNKNOWN_LABEL else node_type),
      value := UNKNOWN_LABEL }) wn hwn
  have hset : wit.setLabels ws (if is_for_node_type then UNKNOWN_LABEL else node_type)
      UNKNOWN_LABEL = some (ws1, wit) := by
    unfold LocalEpsTreeTraversal.setLabels
    rw [if_neg (by omega), hwpos, hmod]
    rfl
  have hwnode : wit.node ws1 = some { wn with
      type := (if is_for_node_type then UNKNOWN_LABEL else node_type),
      value := UNKNOWN_LABEL } := by
    unfold LocalEpsTreeTraversal.node
    rw [if_neg (by omega), hwpos, hat1 wid, if_pos rfl]
  have hww : wit.write_node ws1 = some (ws1, wit) := by
    unfold LocalEpsTreeTraversal.write_node
    rw [if_neg (by omega)]
  have hwd : wit.pre_order_forward fuel0 ws1
      = some (ws1, { wit.allocate_eps_child with position_ := -1 }, false) := by
    unfold LocalEpsTreeTraversal.pre_order_forward LocalEpsTreeTraversal.down_first_child
    simp only [hwnode, Option.some_bind, hty, if_false, hww, Option.map_some', hfc]
    rfl
  refine ⟨ws1, ?_, hmod⟩
  intro k
  rw [completionLoop]
  simp only [Bool.false_eq_true, if_false, hpos, if_true, Option.some_bind, hset, hwd,
    Option.map_some']

/-- The store that the constructor `TreeStorage(parent, position_in_parent)` makes for a node of
the parent store. -/
theorem createAttached_spec (m : Memory) (a : Nat) (self : TreeStorage) (sp : Int)
    (pn : TreeNode) (hm : m[a]? = some self) (hpn : self.nodeAt sp = some pn) :
    ∃ r0 : TreeNode,
      TreeStorage.createAttached m a sp
        = some { nodes_ := [r0], parent_ := some a, position_in_parent_ := sp,
                 first_free_node_ := -1 } ∧
      r0.type = UNKNOWN_LABEL ∧ r0.first_child = -1 ∧ r0.last_child = -1 ∧ r0.right_sib < 0 ∧
      r0.left_sib < 0 ∧ r0.parent = TREEPOINTER_VALUE_IN_PARENT ∧
      r0.child_index = pn.child_index := by
  have hnode : Memory.nodeAt m (some a) sp = some pn := by
    unfold Memory.nodeAt
    simp only [hm, Option.some_bind, hpn]
  unfold TreeStorage.createAttached
  rw [hnode]
  refine ⟨_, rfl, ?_, ?_, ?_, ?_, ?_, rfl, rfl⟩
  · by_cases h1 : pn.left_sib ≥ 0 <;> by_cases h2 : pn.right_sib ≥ 0 <;> simp [h1, h2]
  · by_cases h1 : pn.left_sib ≥ 0 <;> by_cases h2 : pn.right_sib ≥ 0 <;> simp [h1, h2]
  · by_cases h1 : pn.left_sib ≥ 0 <;> by_cases h2 : pn.right_sib ≥ 0 <;> simp [h1, h2]
  · by_cases h1 : pn.left_sib ≥ 0 <;> by_cases h2 : pn.right_sib ≥ 0 <;>
      simp [h1, h2, TREEPOINTER_VALUE_IN_PARENT]
  · by_cases h1 : pn.left_sib ≥ 0 <;> by_cases h2 : pn.right_sib ≥ 0 <;>
      simp [h1, h2, TREEPOINTER_VALUE_IN_PARENT]

/-- A store of one node, attached to a node of its parent store, is well formed. -/
theorem WF_single (m : Memory) (a : Nat) (self : TreeStorage) (sp : Int) (pn r0 : TreeNode)
    (hm : m[a]? = some self) (hpn : self.nodeAt sp = some pn)
    (h1 : r0.first_child = -1) (h2 : r0.last_child = -1) (h3 : r0.right_sib < 0)
    (h4 : r0.left_sib < 0) (h5 : r0.parent = TREEPOINTER_VALUE_IN_PARENT)
    (h6 : r0.child_index = pn.child_index) :
    WF m { nodes_ := [r0], parent_ := some a, position_in_parent_ := sp,
           first_free_node_ := -1 } r0.type r0.value .eps [] [] := by
  refine ⟨r0, rfl, rfl, rfl, by rw [h5]; decide, by rw [h5]; decide, h4, h3, ?_, ?_, ?_,
    List.nodup_nil, List.not_mem_nil _, rfl⟩
  · unfold rootIndexOK
    simp only [Option.isSome_some, if_true]
    refine ⟨pn, ?_, h6⟩
    unfold Memory.nodeAt
    simp only [hm, Option.some_bind, hpn]
  · exact ⟨h1, rfl, h2⟩
  · exact ⟨rfl, List.nodup_nil⟩

/-- The number of rounds up to the position is at most the number of the places of the
chain. -/
theorem cutRounds_le (t : FT) :
    ∀ (L : List Nat) (k : Nat), t.cutRounds L k ≤ t.epsLabels.length := by
  induction t with
  | eps => intro L k; simp [FT.cutRounds]
  | node ty v c sb _ ihs =>
    intro L k
    cases L with
    | nil => simp [FT.cutRounds]
    | cons x rest =>
      unfold FT.cutRounds
      by_cases hx : x = k
      · rw [if_pos hx]
        simp [FT.epsLabels]
      · rw [if_neg hx]
        have := ihs (rest.drop c.size) k
        simp only [FT.epsLabels, List.length_cons, List.length_append]
        omega

/-- The call `GetSubtreeForCompletion(position, is_for_node_type)` for a node without a parent
node: the returned store has one node, with the value `UNKNOWN_LABEL`. -/
theorem GetSubtreeForCompletion_root (m : Memory) (fuel : Nat) (a : Nat) (self : TreeStorage)
    (position : Int) ( is_for_node_type : Bool) (n : TreeNode)
    (hm : m[a]? = some self) (hn : self.nodeAt position = some n) (hp : n.parent = -1)
    (hty : (if is_for_node_type then UNKNOWN_LABEL else n.Type) ≠ EMPTY_NODE_LABEL)
    (hfuel : 1 ≤ fuel) :
    ∃ sub, TreeStorage.GetSubtreeForCompletion m fuel a position is_for_node_type = some sub ∧
      WF m sub (if is_for_node_type then UNKNOWN_LABEL else n.Type) UNKNOWN_LABEL .eps [] [] ∧
      sub.parent_ = some a ∧ sub.position_in_parent_ = position ∧ sub.nodes_.length = 1 := by
  obtain ⟨r0, hcr, g1, g2, g3, g4, g5, g6, g7⟩ := createAttached_spec m a self position n hm hn
  have hwf0 := WF_single m a self position n r0 hm hn g2 g3 g4 g5 g6 g7
  have hcheck := WF_check m _ _ _ _ _ _ hwf0 33 (by simp [FT.height])
  rw [← CheckConsistency_eq] at hcheck
  obtain ⟨k, rfl⟩ : ∃ k, fuel = k + 1 := ⟨fuel - 1, by omega⟩
  obtain ⟨ws1, hloop, hmod⟩ := completionLoop_at_last (k + 1) self
    { nodes_ := [r0], parent_ := some a, position_in_parent_ := position,
      first_free_node_ := -1 } position is_for_node_type n.Type
    (ConstLocalEpsTreeTraversal.create position) (LocalEpsTreeTraversal.create 0) 0 r0 rfl hty
    rfl (le_refl _) rfl g2
  obtain ⟨ws1', hmod', hat1, hlen1, hff1, hpar1, hpip1⟩ :=
    modifyNode_spec ⟨[r0], some a, position, -1⟩ 0
      (fun x => { x with
        type := (if is_for_node_type then UNKNOWN_LABEL else n.Type),
        value := UNKNOWN_LABEL }) r0 rfl
  rw [hmod] at hmod'
  cases hmod'
  have hroot1 := hat1 0
  rw [if_pos rfl] at hroot1
  refine ⟨ws1, ?_, ?_, hpar1, hpip1, hlen1⟩
  · unfold TreeStorage.GetSubtreeForCompletion
    simp only [hm, Option.some_bind, hn, hp, if_true, hcr, hcheck]
    exact hloop k
  · refine ⟨_, hroot1, rfl, rfl, ?_, ?_, g5, g4, ?_, ⟨g2, rfl, g3⟩, ⟨hff1, List.nodup_nil⟩,
      List.nodup_nil, List.not_mem_nil _, ?_⟩
    · show r0.parent < 0
      rw [g6]; decide
    · show r0.parent ≠ TREEPOINTER_DEALLOCATED
      rw [g6]; decide
    · unfold rootIndexOK
      rw [hpar1, hpip1]
      simp only [Option.isSome_some, if_true]
      refine ⟨n, ?_, g7⟩
      unfold Memory.nodeAt
      simp only [hm, Option.some_bind, hn]
    · rw [hlen1]
      rfl

/-- The call `GetSubtreeForCompletion(position, is_for_node_type)` for a child `position` of a
node `p`, in a store that holds the chain `C` of the children of `p`, with known types before
the position: the returned store is attached at `p`, its root has the type of `p` and the value
that `Value()` reads for `p`, and it holds the chain cut off after the position, at the nodes 1,
2, ... in pre-order, with no other slot. -/
theorem GetSubtreeForCompletion_child (m : Memory) (fuel : Nat) (a : Nat) (self : TreeStorage)
    (position : Int) ( is_for_node_type : Bool) (n pn : TreeNode) (C C1 : FT) (Lc : List Nat)
    (hm : m[a]? = some self) (hn : self.nodeAt position = some n) (hp : 0 ≤ n.parent)
    (hne : n.parent ≠ position)
    (hpn : self.nodeAt n.parent = some pn) (hpt : pn.type ≠ EMPTY_NODE_LABEL)
    (hpu : pn.type ≠ UNKNOWN_LABEL)
    (hch : Chain self C pn.first_child n.parent (-1) 0 Lc pn.last_child) (hnd : Lc.Nodup)
    (hcut : C.cutAt Lc position.toNat (if is_for_node_type then UNKNOWN_LABEL else n.Type)
      = some C1)
    (hkb : C.KnownBefore Lc position.toNat)
    (hty : (if is_for_node_type then UNKNOWN_LABEL else n.Type) ≠ EMPTY_NODE_LABEL)
    (hfuel : 2 * C.size + 3 ≤ fuel) :
    ∃ sub, TreeStorage.GetSubtreeForCompletion m fuel a position is_for_node_type = some sub ∧
      WF m sub pn.type (knownLabel pn.value) C1 (List.range' 1 C1.size) [] ∧
      sub.parent_ = some a ∧ sub.position_in_parent_ = n.parent ∧
      sub.nodes_.length = C1.size + 1 := by
  have hposn : 0 ≤ position := (nodeAt_some_bounds self position n hn).1
  obtain ⟨r0, hcr, g1, g2, g3, g4, g5, g6, g7⟩ :=
    createAttached_spec m a self n.parent pn hm hpn
  have hwf0 := WF_single m a self n.parent pn r0 hm hpn g2 g3 g4 g5 g6 g7
  have hcheck := WF_check m _ _ _ _ _ _ hwf0 33 (by simp [FT.height])
  rw [← CheckConsistency_eq] at hcheck
  set ws : TreeStorage := ⟨[r0], some a, n.parent, -1⟩ with hws
  have hr0 : ws.nodeAt 0 = some r0 := rfl
  -- the round at the node `p`
  obtain ⟨ws0, it0, wit0, hloop0, hrat0, hwat0, hmod⟩ := completionLoop_at fuel self ws
    position is_for_node_type n.Type (ConstLocalEpsTreeTraversal.create n.parent)
    (LocalEpsTreeTraversal.create 0) n.parent 0 pn r0 rfl hp hne hpn hpt hpu rfl (le_refl _)
    hr0 g2
  obtain ⟨ws0', hmod', hat0, hlen0, hff0, hpar0, hpip0⟩ :=
    modifyNode_spec ws 0 (fun x => { x with type := pn.type, value := knownLabel pn.value }) r0
      hr0
  rw [hmod] at hmod'
  cases hmod'
  have hwn0 : ws0.nodeAt 0
      = some { r0 with type := pn.type, value := knownLabel pn.value } := by
    rw [hat0 0, if_pos rfl]
  have hF0 : FreeList ws0 [] := ⟨by
    show ws0.first_free_node_ = -1
    rw [hff0], List.nodup_nil⟩
  have hslot : WriterSlot ws0 [] 0 (-1) :=
    ⟨le_refl _, List.not_mem_nil _, List.not_mem_nil _, _, hwn0, g3, fun _ => ⟨rfl, g2⟩,
      fun h => absurd h (by decide)⟩
  have hlw : Leavable ws0 0 := ⟨_, hwn0, hpt, fun _ => ⟨g4, by
    show r0.parent < 0
    rw [g6]; decide⟩⟩
  have hlen0' : ws0.nodes_.length = 1 := hlen0
  have hcr2 := cutRounds_le C Lc position.toNat
  have hel := FT.epsLabels_length C
  obtain ⟨ws1, wid, lastw, hloop1, hch1, hF1, hlen1, hrel1⟩ :=
    completion_cut fuel (by omega) self position is_for_node_type n.Type hposn hty C
      pn.first_child n.parent (-1) 0 Lc pn.last_child it0 ws0 wit0 0 (-1) 0 [] C1 hch hnd hcut
      hkb hrat0 hp hwat0 hslot hlw hF0
  rw [hlen0', allocIds_nil] at hch1 hrel1
  rw [hlen0'] at hlen1
  obtain ⟨_, hrelp, _, hrpar, hrpip⟩ := hrel1
  have hroot1 := hrelp _ hwn0
  refine ⟨ws1, ?_, ?_, ?_, ?_, ?_⟩
  · unfold TreeStorage.GetSubtreeForCompletion
    have hpne : ¬ n.parent = -1 := by omega
    simp only [hm, Option.some_bind, hn, hpne, if_false, hcr, hcheck]
    obtain ⟨k, hk⟩ : ∃ k, fuel = (k + C.cutRounds Lc position.toNat) + 1 :=
      ⟨fuel - 1 - C.cutRounds Lc position.toNat, by omega⟩
    have h1 := hloop0 (k + C.cutRounds Lc position.toNat)
    rw [hloop1 k] at h1
    rw [← hk] at h1
    exact h1
  · refine ⟨_, hroot1, rfl, rfl, ?_, ?_, g5, g4, ?_, hch1, ?_, ?_, List.not_mem_nil _, ?_⟩
    · show r0.parent < 0
      rw [g6]; decide
    · show r0.parent ≠ TREEPOINTER_DEALLOCATED
      rw [g6]; decide
    · unfold rootIndexOK
      rw [hrpar, hrpip, hpar0, hpip0]
      simp only [hws, Option.isSome_some, if_true]
      refine ⟨pn, ?_, g7⟩
      unfold Memory.nodeAt
      simp only [hm, Option.some_bind, hpn]
    · simpa using hF1
    · rw [List.append_nil]
      exact List.nodup_range' _ _
    · rw [hlen1, List.length_range']
      simp only [List.length_nil, Nat.sub_zero]
      omega
  · rw [hrpar, hpar0]
  · rw [hrpip, hpip0]
  · rw [hlen1]
    simp only [List.length_nil, Nat.sub_zero]
    omega

/-- The number of the labels of a tree is the number of its nodes. -/
theorem FT.labels_length (t : FT) : t.labels.length = t.size := by
  induction t with
  | eps => rfl
  | node ty v c sb ihc ihs =>
    simp only [FT.labels, FT.size, List.length_cons, List.length_append, ihc, ihs]
    omega

/-- The labels that `Type()` and `Value()` read in a tree with known types: the types are the
stored ones. -/
theorem FT.read_labels_known (t : FT) (h : t.TypesKnown) :
    t.read.labels = t.labels.map fun x => (x.1, knownLabel x.2) := by
  induction t with
  | eps => rfl
  | node ty v c sb ihc ihs =>
    obtain ⟨_, h2, h3, h4⟩ := h
    simp only [FT.read, FT.labels, List.map_cons, List.map_append, ihc h3, ihs h4,
      knownLabel_of_known _ h2]

/-- The parent of a node of a chain below the node `p` is `p` or a node of the chain. -/
theorem Chain_parent (s : TreeStorage) (t : FT) :
    ∀ (id p ls ci : Int) (L : List Nat) (last : Int),
      Chain s t id p ls ci L last →
      ∀ i ∈ L, ∃ n, s.nodeAt (i : Int) = some n ∧
        (n.parent = p ∨ (0 ≤ n.parent ∧ n.parent.toNat ∈ L)) := by
  induction t with
  | eps =>
    intro id p ls ci L last h i hi
    rw [h.2.1] at hi
    simp at hi
  | node ty v c sb ihc ihs =>
    intro id p ls ci L last h i hi
    obtain ⟨h0, n, Lc, Ls, hn, h1, h2, h3, h4, h5, hc, hs, hL⟩ := h
    subst hL
    simp only [List.mem_cons, List.mem_append] at hi
    rcases hi with hi | hi | hi
    · subst hi
      rw [Int.toNat_of_nonneg (le_of_lt h0)]
      exact ⟨n, hn, Or.inl h3⟩
    · obtain ⟨ni, hni, hpi⟩ := ihc _ _ _ _ _ _ hc i hi
      refine ⟨ni, hni, Or.inr ?_⟩
      rcases hpi with hpi | ⟨hpi, hmem⟩
      · rw [hpi]
        exact ⟨le_of_lt h0, List.mem_cons_self _ _⟩
      · exact ⟨hpi, List.mem_cons_of_mem _ (List.mem_append_left _ hmem)⟩
    · obtain ⟨ni, hni, hpi⟩ := ihs _ _ _ _ _ _ hs i hi
      refine ⟨ni, hni, ?_⟩
      rcases hpi with hpi | ⟨hpi, hmem⟩
      · exact Or.inl hpi
      · exact Or.inr ⟨hpi, List.mem_cons_of_mem _ (List.mem_append_right _ hmem)⟩

/-- A node of a chain below the node `p` whose parent is `p` is a sibling of the chain, when `p`
is not a node of the chain: the chain can be cut off after it. -/
theorem cutAt_some (s : TreeStorage) (ty1 : Int) (k : Nat) (nk : TreeNode)
    (hk : s.nodeAt (k : Int) = some nk) (t : FT) :
    ∀ (id p ls ci : Int) (L : List Nat) (last : Int),
      Chain s t id p ls ci L last → k ∈ L → nk.parent = p → 0 ≤ p → p.toNat ∉ L →
      ∃ t1, t.cutAt L k ty1 = some t1 := by
  induction t with
  | eps =>
    intro id p ls ci L last h hi
    rw [h.2.1] at hi
    simp at hi
  | node ty v c sb _ ihs =>
    intro id p ls ci L last h hi hpar hp0 hpL
    have hcp := Chain_parent s c
    obtain ⟨h0, n, Lc, Ls, hn, h1, h2, h3, h4, h5, hc, hs, hL⟩ := h
    subst hL
    have hLc := Chain_length s c _ _ _ _ _ _ hc
    have hdrop : (Lc ++ Ls).drop c.size = Ls := by
      rw [← hLc, List.drop_left]
    unfold FT.cutAt
    by_cases hx : id.toNat = k
    · rw [if_pos hx]
      exact ⟨_, rfl⟩
    · rw [if_neg hx, hdrop]
      simp only [List.mem_cons, List.mem_append] at hi
      have hpL1 : p.toNat ≠ id.toNat := fun e => hpL (by rw [e]; exact List.mem_cons_self _ _)
      have hpL2 : p.toNat ∉ Lc :=
        fun e => hpL (List.mem_cons_of_mem _ (List.mem_append_left _ e))
      have hpL3 : p.toNat ∉ Ls :=
        fun e => hpL (List.mem_cons_of_mem _ (List.mem_append_right _ e))
      rcases hi with hi | hi | hi
      · exact absurd hi.symm hx
      · obtain ⟨ni, hni, hpi⟩ := hcp _ _ _ _ _ _ hc k hi
        rw [hk] at hni
        cases hni
        rcases hpi with hpi | ⟨_, hmem⟩
        · rw [hpar] at hpi
          exact absurd (by rw [hpi]) hpL1
        · rw [hpar] at hmem
          exact absurd hmem hpL2
      · obtain ⟨sb1, hsb1⟩ := ihs _ _ _ _ _ _ hs hi hpar hp0 hpL3
        rw [hsb1]
        exact ⟨_, rfl⟩

/-- The labels in pre-order of a chain cut off after the sibling `k`: the labels of the nodes
before `k` in pre-order, with the types as stored and the values as `Value()` reads them, and
then the type `ty1` and the value `UNKNOWN_LABEL`. -/
theorem cutAt_labels (ty1 : Int) (k : Nat) (t : FT) :
    ∀ (L : List Nat) (t1 : FT), L.length = t.size → L.Nodup → t.KnownBefore L k →
      t.cutAt L k ty1 = some t1 →
      t1.labels = ((t.labels.take (L.indexOf k)).map fun x => (x.1, knownLabel x.2))
        ++ [(ty1, UNKNOWN_LABEL)] := by
  induction t with
  | eps =>
    intro L t1 _ _ _ hcut
    exact Option.noConfusion hcut
  | node ty v c sb _ ihs =>
    intro L t1 hlen hnd hkb hcut
    cases L with
    | nil => exact Option.noConfusion hcut
    | cons x rest =>
      unfold FT.cutAt at hcut
      unfold FT.KnownBefore at hkb
      by_cases hx : x = k
      · rw [if_pos hx] at hcut
        rw [← Option.some.inj hcut, hx, List.indexOf_cons_self]
        rfl
      · rw [if_neg hx] at hcut
        simp only [Option.map_eq_some'] at hcut
        obtain ⟨sb1, hsb1, ht1⟩ := hcut
        subst ht1
        rcases hkb with hkb | ⟨_, htu, hknc, hkbs⟩
        · exact absurd hkb hx
        have hrl : rest.length = c.size + sb.size := by
          simp only [List.length_cons, FT.size] at hlen
          omega
        have hndrest := (List.nodup_cons.mp hnd).2
        have hsplit : rest = rest.take c.size ++ rest.drop c.size :=
          (List.take_append_drop _ _).symm
        have hks : k ∈ rest.drop c.size := cutAt_mem sb _ _ _ _ hsb1
        have hnotc : k ∉ rest.take c.size := by
          intro h
          rw [hsplit] at hndrest
          exact (List.nodup_append.mp hndrest).2.2 h hks
        have hnds : (rest.drop c.size).Nodup := by
          rw [hsplit] at hndrest
          exact (List.nodup_append.mp hndrest).2.1
        have hls : (rest.drop c.size).length = sb.size := by
          rw [List.length_drop]
          omega
        have hidx : (x :: rest).indexOf k
            = c.labels.length + (rest.drop c.size).indexOf k + 1 := by
          rw [List.indexOf_cons_ne _ hx]
          have e : rest.indexOf k = (rest.take c.size ++ rest.drop c.size).indexOf k := by
            rw [← hsplit]
          rw [e, List.indexOf_append_of_not_mem hnotc, List.length_take, FT.labels_length]
          have : min c.size rest.length = c.size := by omega
          rw [this]
        rw [hidx]
        simp only [FT.labels, List.take_succ_cons, List.take_append, List.map_cons,
          List.map_append, List.cons_append, List.append_assoc]
        rw [ihs _ _ hls hnds hkbs hsb1, FT.read_labels_known c hknc, knownLabel_of_known _ htu]

/-- Claim C16, counterexample. In `completion_store` the node 1 comes before the node 2 in
pre-order and has the value `UNKNOWN_LABEL`; the store that `GetSubtreeForCompletion(2, false)`
returns has the value `EMPTY_NODE_LABEL` at the copy of the node 1, so this node did not keep its
value. -/
theorem GetSubtreeForCompletion_reads_unknown_value_as_empty :
    (completion_store.nodeAt 1).map (fun x => (x.type, x.value)) = some (11, UNKNOWN_LABEL) ∧
    TreeStorage.GetSubtreeForCompletion [completion_store] 20 0 2 false
      = some completion_overlay ∧
    (completion_overlay.nodeAt 1).map (fun x => (x.type, x.value))
      = some (11, EMPTY_NODE_LABEL) := by
  decide

/-- Claim C16, amended. Let `position` be a node of the store at the address `a` whose type is
known when `is_for_node_type` is false. When `position` has no parent node (its parent is -1),
`GetSubtreeForCompletion(position, is_for_node_type)` returns a store attached at `position` that
holds one node, with the value `UNKNOWN_LABEL` and the type `UNKNOWN_LABEL` (the type of
`position` when `is_for_node_type` is false). When `position` is a child of the node `p`, which
has a known type and the chain of children `C` at the nodes `Lc`, and the types of the nodes
before `position` in `C` are known, the call returns a well-formed store attached at `p` whose
root has the type of `p` and the value that `Value()` reads for `p`, and that holds below the
root the chain `C` cut off after `position`, at the nodes 1, 2, ... in pre-order with no free
slot: its labels in pre-order are the labels of the nodes of `C` before `position`, with the
types as stored and the values as `Value()` reads them (`UNKNOWN_LABEL` reads as
`EMPTY_NODE_LABEL`), and then the label of `position`, with the value `UNKNOWN_LABEL`. -/
theorem GetSubtreeForCompletion_copies_tree_up_to_position (m : Memory) (fuel : Nat) (a : Nat)
    (self : TreeStorage) (position : Int) ( is_for_node_type : Bool) (n : TreeNode)
    (hm : m[a]? = some self) (hn : self.nodeAt position = some n)
    (hty : is_for_node_type = false → n.type ≠ EMPTY_NODE_LABEL ∧ n.type ≠ UNKNOWN_LABEL) :
    (n.parent = -1 → 1 ≤ fuel →
      ∃ sub, TreeStorage.GetSubtreeForCompletion m fuel a position is_for_node_type = some sub ∧
        sub.parent_ = some a ∧ sub.position_in_parent_ = position ∧
        WF m sub (if is_for_node_type then UNKNOWN_LABEL else n.type) UNKNOWN_LABEL .eps [] []) ∧
    (∀ (pn : TreeNode) (C : FT) (Lc : List Nat),
      0 ≤ n.parent → self.nodeAt n.parent = some pn →
      pn.type ≠ EMPTY_NODE_LABEL → pn.type ≠ UNKNOWN_LABEL →
      Chain self C pn.first_child n.parent (-1) 0 Lc pn.last_child → Lc.Nodup →
      position.toNat ∈ Lc → n.parent.toNat ∉ Lc → C.KnownBefore Lc position.toNat →
      2 * C.size + 3 ≤ fuel →
      ∃ sub C1,
        TreeStorage.GetSubtreeForCompletion m fuel a position is_for_node_type = some sub ∧
        sub.parent_ = some a ∧ sub.position_in_parent_ = n.parent ∧
        WF m sub pn.type (knownLabel pn.value) C1 (List.range' 1 C1.size) [] ∧
        C.cutAt Lc position.toNat (if is_for_node_type then UNKNOWN_LABEL else n.type)
          = some C1 ∧
        C1.labels
          = ((C.labels.take (Lc.indexOf position.toNat)).map fun x => (x.1, knownLabel x.2))
            ++ [(if is_for_node_type then UNKNOWN_LABEL else n.type, UNKNOWN_LABEL)]) := by
  have hTy : (if is_for_node_type then UNKNOWN_LABEL else n.Type)
      = (if is_for_node_type then UNKNOWN_LABEL else n.type) := by
    cases is_for_node_type with
    | true => rfl
    | false =>
      simp only [Bool.false_eq_true, if_false]
      rw [TreeNode_Type_eq, knownLabel_of_known _ (hty rfl).2]
  have hty1 : (if is_for_node_type then UNKNOWN_LABEL else n.Type) ≠ EMPTY_NODE_LABEL := by
    rw [hTy]
    cases is_for_node_type with
    | true =>
      show UNKNOWN_LABEL ≠ EMPTY_NODE_LABEL
      decide
    | false => exact (hty rfl).1
  have hposn : 0 ≤ position := (nodeAt_some_bounds self position n hn).1
  refine ⟨?_, ?_⟩
  · intro hp hfuel
    obtain ⟨sub, h1, h2, h3, h4, _⟩ :=
      GetSubtreeForCompletion_root m fuel a self position is_for_node_type n hm hn hp hty1 hfuel
    rw [hTy] at h2
    exact ⟨sub, h1, h3, h4, h2⟩
  · intro pn C Lc hp hpn hpt hpu hch hnd hpos hpl hkb hfuel
    have hnk : self.nodeAt ((position.toNat : Nat) : Int) = some n := by
      rw [Int.toNat_of_nonneg hposn]
      exact hn
    obtain ⟨C1, hcut⟩ := cutAt_some self
      (if is_for_node_type then UNKNOWN_LABEL else n.type) position.toNat n hnk C _ _ _ _ _ _
      hch hpos rfl hp hpl
    have hne : n.parent ≠ position := by
      intro h
      rw [h] at hpl
      exact hpl hpos
    have hcut2 := hcut
    rw [← hTy] at hcut2
    obtain ⟨sub, h1, h2, h3, h4, _⟩ :=
      GetSubtreeForCompletion_child m fuel a self position is_for_node_type n pn C C1 Lc hm hn
        hp hne hpn hpt hpu hch hnd hcut2 hkb hty1 hfuel
    exact ⟨sub, C1, h1, h3, h4, h2, hcut,
      cutAt_labels _ _ C Lc C1 (Chain_length self C _ _ _ _ _ _ hch) hnd hkb hcut⟩

theorem GetSubtreeForCompletion_copies_tree_up_to_position_witness :
    (∃ sub, TreeStorage.GetSubtreeForCompletion [completion_store] 20 0 0 true = some sub ∧
      sub.parent_ = some 0 ∧ sub.position_in_parent_ = 0 ∧
      WF [completion_store] sub UNKNOWN_LABEL UNKNOWN_LABEL .eps [] []) ∧
    (∃ sub C1, TreeStorage.GetSubtreeForCompletion [completion_store] 20 0 2 false = some sub ∧
      sub.parent_ = some 0 ∧ sub.position_in_parent_ = 0 ∧
      WF [completion_store] sub 10 (knownLabel 20) C1 (List.range' 1 C1.size) [] ∧
      completion_tree.cutAt [1, 4, 2, 3] 2 12 = some C1 ∧
      C1.labels = ((completion_tree.labels.take 2).map fun x => (x.1, knownLabel x.2))
        ++ [(12, UNKNOWN_LABEL)]) :=
  ⟨(GetSubtreeForCompletion_copies_tree_up_to_position [completion_store] 20 0 completion_store
      0 true ⟨10, 20, -1, -1, -1, 1, 3, 0⟩ rfl rfl (fun h => absurd h (by decide))).1 rfl
      (by decide),
   (GetSubtreeForCompletion_copies_tree_up_to_position [completion_store] 20 0 completion_store
      2 false ⟨12, 22, 0, 1, 3, -1, -1, 1⟩ rfl rfl (fun _ => ⟨by decide, by decide⟩)).2
      ⟨10, 20, -1, -1, -1, 1, 3, 0⟩ completion_tree [1, 4, 2, 3] (by decide) rfl (by decide)
      (by decide) (chainCheck_sound _ _ _ _ _ _ _ _ (by decide)) (by decide) (by decide)
      (by decide)
      (Or.inr ⟨by decide, by decide, ⟨by decide, by decide, trivial, trivial⟩,
        Or.inl rfl⟩)
      (by decide)⟩

/-! ## Stores that pass the consistency check -/

/-- Every slot of a well-formed store is the root, a node of the tree or a free slot. -/
theorem WF_slots (m : Memory) (s : TreeStorage) (ty v : Int) (T : FT) (L F : List Nat)
    (h : WF m s ty v T L F) (i : Nat) (hi : i < s.nodes_.length) : i = 0 ∨ i ∈ L ∨ i ∈ F := by
  obtain ⟨r, hr, _, _, _, _, _, _, _, hch, hF, hnd, h0F, hlen⟩ := h
  have hmem := Chain_mem s T _ _ _ _ _ _ hch (le_refl _)
  have hFlt := FreeList_lt s F hF
  have hA : (0 :: (L ++ F)).Nodup := by
    refine List.nodup_cons.mpr ⟨?_, hnd⟩
    intro h0
    rcases List.mem_append.mp h0 with h1 | h1
    · have := (hmem 0 h1).1
      omega
    · exact h0F h1
  have hsub : ∀ j ∈ 0 :: (L ++ F), j ∈ List.range s.nodes_.length := by
    intro j hj
    rw [List.mem_range]
    rcases List.mem_cons.mp hj with h1 | h1
    · omega
    · rcases List.mem_append.mp h1 with h2 | h2
      · obtain ⟨_, n, hn, _⟩ := hmem j h2
        have := (nodeAt_some_bounds s _ n hn).2
        simpa using this
      · exact hFlt j h2
  have hperm : (0 :: (L ++ F)).Perm (List.range s.nodes_.length) := by
    apply List.Subperm.perm_of_length_le (List.Nodup.subperm hA hsub)
    simp only [List.length_range, List.length_cons, List.length_append]
    omega
  have hin : i ∈ 0 :: (L ++ F) := hperm.mem_iff.mpr (List.mem_range.mpr hi)
  rcases List.mem_cons.mp hin with h1 | h1
  · exact Or.inl h1
  · rcases List.mem_append.mp h1 with h2 | h2
    · exact Or.inr (Or.inl h2)
    · exact Or.inr (Or.inr h2)

/-- The slots of a well-formed store that are not marked deallocated are the root and the nodes
of the tree. -/
theorem WF_alive_iff (m : Memory) (s : TreeStorage) (ty v : Int) (T : FT) (L F : List Nat)
    (h : WF m s ty v T L F) (k : Int) : Alive s k ↔ (k = 0 ∨ (0 < k ∧ k.toNat ∈ L)) := by
  have hslots := WF_slots m s ty v T L F h
  obtain ⟨r, hr, _, _, _, h4, _, _, _, hch, hF, hnd, h0F, hlen⟩ := h
  have hmem := Chain_mem s T _ _ _ _ _ _ hch (le_refl _)
  constructor
  · rintro ⟨n, hn, hp⟩
    obtain ⟨h0, hlt⟩ := nodeAt_some_bounds s k n hn
    rcases hslots k.toNat hlt with h1 | h1 | h1
    · left; omega
    · right
      have := (hmem _ h1).1
      exact ⟨by omega, h1⟩
    · obtain ⟨n', hn', hp'⟩ := FreeChain_mem s F _ hF.1 _ h1
      rw [Int.toNat_of_nonneg h0, hn] at hn'
      cases hn'
      exact absurd hp' hp
  · rintro (h1 | ⟨h1, h2⟩)
    · subst h1
      exact ⟨r, hr, h4⟩
    · obtain ⟨_, n, hn, hp⟩ := hmem _ h2
      rw [Int.toNat_of_nonneg (le_of_lt h1)] at hn
      refine ⟨n, hn, ?_⟩
      intro h
      rw [h] at hp
      exact absurd hp (by decide)

/-- A slot that is not marked deallocated is not in the free list. -/
theorem Alive_not_free (s : TreeStorage) (F : List Nat) (hF : FreeList s F) (k : Int)
    (hk : Alive s k) : k.toNat ∉ F := by
  obtain ⟨n, hn, hp⟩ := hk
  intro h
  obtain ⟨n', hn', hp'⟩ := FreeChain_mem s F _ hF.1 _ h
  rw [Int.toNat_of_nonneg (nodeAt_some_bounds s k n hn).1, hn] at hn'
  cases hn'
  exact hp hp'

/-- A chain in a store in which the node `k` got another type and value. -/
theorem Chain_relabel (s s1 : TreeStorage) (k : Int) (ty1 v1 : Int)
    (hat : ∀ j, s1.nodeAt j
      = (s.nodeAt j).map fun n => if j = k then { n with type := ty1, value := v1 } else n)
    (t : FT) :
    ∀ (id p ls ci : Int) (L : List Nat) (last : Int),
      Chain s t id p ls ci L last →
      ∃ t1, Chain s1 t1 id p ls ci L last ∧ t1.height = t.height := by
  induction t with
  | eps => intro id p ls ci L last h; exact ⟨.eps, h, rfl⟩
  | node ty v c sb ihc ihs =>
    intro id p ls ci L last h
    obtain ⟨h0, n, Lc, Ls, hn, h1, h2, h3, h4, h5, hc, hs, hL⟩ := h
    obtain ⟨c1, hc1, hh1⟩ := ihc _ _ _ _ _ _ hc
    obtain ⟨sb1, hs1, hh2⟩ := ihs _ _ _ _ _ _ hs
    have hid := hat id
    rw [hn, Option.map_some'] at hid
    by_cases hk : id = k
    · rw [if_pos hk] at hid
      exact ⟨.node ty1 v1 c1 sb1, ⟨h0, _, Lc, Ls, hid, rfl, rfl, h3, h4, h5, hc1, hs1, hL⟩,
        by simp only [FT.height, hh1, hh2]⟩
    · rw [if_neg hk] at hid
      exact ⟨.node ty v c1 sb1, ⟨h0, _, Lc, Ls, hid, h1, h2, h3, h4, h5, hc1, hs1, hL⟩,
        by simp only [FT.height, hh1, hh2]⟩

/-- The assignment of a type and a value to a node that is not deallocated keeps the store well
formed. -/
theorem relabel_spec (m : Memory) (s : TreeStorage) (hc : Consistent m s) (k : Int)
    (n : TreeNode) (hn : s.nodeAt k = some n) (hp : n.parent ≠ TREEPOINTER_DEALLOCATED)
    (ty1 v1 : Int) :
    ∃ s1, s.modifyNode k (fun x => { x with type := ty1, value := v1 }) = some s1 ∧
      Consistent m s1 ∧
      (∀ j, s1.nodeAt j
        = if j = k then some { n with type := ty1, value := v1 } else s.nodeAt j) := by
  obtain ⟨ty, v, T, L, F, hwf⟩ := hc
  obtain ⟨s1, hmod, hat, hlen1, hff1, hpar1, hpip1⟩ :=
    modifyNode_spec s k (fun x => { x with type := ty1, value := v1 }) n hn
  refine ⟨s1, hmod, ?_, hat⟩
  have hat2 : ∀ j, s1.nodeAt j
      = (s.nodeAt j).map fun x => if j = k then { x with type := ty1, value := v1 } else x := by
    intro j
    rw [hat j]
    by_cases hj : j = k
    · rw [if_pos hj, hj, hn, Option.map_some', if_pos rfl]
    · rw [if_neg hj]
      cases s.nodeAt j with
      | none => rfl
      | some x => rw [Option.map_some', if_neg hj]
  obtain ⟨r, hr, hrt, hrv, h3, h4, h5, h6, h7, hch, hF, hnd, h0F, hlen⟩ := hwf
  obtain ⟨T1, hch1, _⟩ := Chain_relabel s s1 k ty1 v1 hat2 T _ _ _ _ _ _ hch
  have hkF := Alive_not_free s F hF k ⟨n, hn, hp⟩
  have hF1 : FreeList s1 F := by
    apply FreeList_frame s s1 F hF hff1
    intro f hf
    rw [hat, if_neg]
    intro h
    apply hkF
    rw [← h]
    simpa using hf
  have hr1 := hat2 0
  rw [hr, Option.map_some'] at hr1
  by_cases h0 : (0 : Int) = k
  · rw [if_pos h0] at hr1
    exact ⟨ty1, v1, T1, L, F, _, hr1, rfl, rfl, h3, h4, h5, h6,
      rootIndexOK_frame m s s1 r _ h7 hpar1 hpip1 rfl, hch1, hF1, hnd, h0F, by rw [hlen1]; exact hlen⟩
  · rw [if_neg h0] at hr1
    exact ⟨ty, v, T1, L, F, _, hr1, hrt, hrv, h3, h4, h5, h6,
      rootIndexOK_frame m s s1 r _ h7 hpar1 hpip1 rfl, hch1, hF1, hnd, h0F, by rw [hlen1]; exact hlen⟩

/-- A node without children and without a right sibling is a chain of one node. -/
theorem Chain_leaf (s : TreeStorage) (y : Nat) (x : TreeNode) (hy : 0 < y)
    (hx : s.nodeAt (y : Int) = some x) (h1 : x.first_child = -1) (h2 : x.last_child = -1)
    (h3 : x.right_sib = -1) :
    Chain s (.node x.type x.value .eps .eps) (y : Int) x.parent x.left_sib x.child_index [y]
      (y : Int) :=
  ⟨by omega, x, [], [], hx, rfl, rfl, rfl, rfl, rfl, ⟨h1, rfl, h2⟩, ⟨h3, rfl, rfl⟩, by simp⟩

/-- The slot that `AllocateNode` takes is not a node of a well-formed store, and not its
root. -/
theorem alloc_fresh (m : Memory) (s : TreeStorage) (ty v : Int) (T : FT) (L F : List Nat)
    (h : WF m s ty v T L F) (id : Nat) (hid : allocIds F s.nodes_.length 1 = [id]) :
    0 < id ∧ id ∉ L ∧ id ∉ F.drop 1 ∧ ¬ Alive s (id : Int) := by
  have hal := WF_alive_iff m s ty v T L F h
  obtain ⟨r, hr, _, _, _, _, _, _, _, hch, hF, hnd, h0F, hlen⟩ := h
  have hmem := Chain_mem s T _ _ _ _ _ _ hch (le_refl _)
  have hidmem : id ∈ F ∨ s.nodes_.length ≤ id := by
    apply mem_allocIds F s.nodes_.length 1
    rw [hid]; simp
  have hFlt := FreeList_lt s F hF
  have hdrop : id ∉ F.drop 1 := by
    apply allocIds_not_mem_drop F s.nodes_.length 1 hF.2 hFlt
    rw [hid]; simp
  have hnl : id ∉ L := by
    intro hl
    rcases hidmem with h1 | h1
    · exact (List.nodup_append.mp hnd).2.2 hl h1
    · obtain ⟨_, n, hn, _⟩ := hmem id hl
      have := (nodeAt_some_bounds s _ n hn).2
      simp at this
      omega
  have h0 : 0 < id := by
    rcases hidmem with h1 | h1
    · rcases Nat.eq_zero_or_pos id with h2 | h2
      · rw [h2] at h1; exact absurd h1 h0F
      · exact h2
    · omega
  refine ⟨h0, hnl, hdrop, ?_⟩
  intro ha
  rcases (hal _).mp ha with h1 | ⟨_, h1⟩
  · omega
  · simp at h1
    exact hnl h1

/-- The block that writes an unknown first child, at a node that is not empty and has no
child: a new node with the type and the value `UNKNOWN_LABEL` is the only child of the node, and
no other element changes. -/
theorem writeUnknownChild_new (m : Memory) (s : TreeStorage) (hc : Consistent m s) (k : Int)
    (n : TreeNode) (hn : s.nodeAt k = some n) (hp : n.parent ≠ TREEPOINTER_DEALLOCATED)
    (hty : n.type ≠ EMPTY_NODE_LABEL) (hfc : n.first_child < 0) :
    ∃ (s1 : TreeStorage) (y : Nat), s.writeUnknownChild k = some (s1, (y : Int)) ∧
      Consistent m s1 ∧ 0 < y ∧ ¬ Alive s (y : Int) ∧ (y : Int) ≠ k ∧
      s1.nodeAt (y : Int) = some ⟨UNKNOWN_LABEL, UNKNOWN_LABEL, k, -1, -1, -1, -1, 0⟩ ∧
      s1.nodeAt k = some { n with first_child := (y : Int), last_child := (y : Int) } ∧
      (∀ j, j ≠ (y : Int) → j ≠ k → s1.nodeAt j = s.nodeAt j) := by
  obtain ⟨ty, v, T, L, F, hwf⟩ := hc
  have hk0 : 0 ≤ k := (nodeAt_some_bounds s k n hn).1
  have hlive := (WF_alive_iff m s ty v T L F hwf k).mp ⟨n, hn, hp⟩
  obtain ⟨n', ck, sbk, Lc, hn', hcc, hndc, hLcL, hkF, hLcF, _, _, hclose⟩ :=
    WF_children m s ty v T L F hwf k hlive
  rw [hn] at hn'
  cases hn'
  have hF : FreeList s F := by
    obtain ⟨_, _, _, _, _, _, _, _, _, _, hF, _⟩ := hwf
    exact hF
  have hck : ck = .eps := by
    cases ck with
    | eps => rfl
    | node _ _ _ _ =>
      have : 0 < n.first_child := hcc.1
      omega
  subst hck
  obtain ⟨hfc1, hLc, hlc1⟩ := hcc
  subst hLc
  obtain ⟨id, s3, hadd, hids, hF3, hlen3, hpar3, hpip3, hidp, _, hat_id, hat_p, _, hfr⟩ :=
    AddLastNode_spec s F hF ⟨UNKNOWN_LABEL, UNKNOWN_LABEL, k, -1, -1, -1, -1, 0⟩ 
      (by show UNKNOWN_LABEL ≠ EMPTY_NODE_LABEL; decide) n hn hkF
      (fun h => absurd (show (0 : Int) ≤ -1 from h) (by decide))
  obtain ⟨hid0, hidL, hidF, hidA⟩ := alloc_fresh m s ty v T L F hwf id hids
  have hfr2 : ∀ j, j ≠ (id : Int) → j ≠ k → s3.nodeAt j = s.nodeAt j := by
    intro j h1 h2
    by_cases h3 : j = -1
    · rw [h3, nodeAt_neg _ _ (by decide), nodeAt_neg _ _ (by decide)]
    · exact hfr j h1 h2 h3
  have hnk : s3.nodeAt k = some { n with first_child := (id : Int), last_child := (id : Int) } := by
    show s3.nodeAt k = some { n with first_child := (id : Int), last_child := (id : Int) }
    have := hat_p
    simp only [hfc, if_true] at this
    exact this
  refine ⟨s3, id, ?_, ?_, hid0, hidA, hidp, hat_id, hnk, hfr2⟩
  · unfold TreeStorage.writeUnknownChild LocalEpsTreeTraversal.down_first_child
    simp only [LocalEpsTreeTraversal.node, LocalEpsTreeTraversal.create,
      LocalEpsTreeTraversal.write_node, LocalEpsTreeTraversal.setLabels,
      LocalEpsTreeTraversal.allocate_eps_child, show ¬ k < 0 from by omega, if_false, hn,
      Option.some_bind, hty, Option.map_some', hfc, if_true, Bool.not_true,
      Bool.false_eq_true, hadd, not_true_eq_false]
  · have hleaf := Chain_leaf s3 id _ hid0 hat_id rfl rfl rfl
    obtain ⟨T1, L1, hwf1, _⟩ := hclose s3 n.type n.value (id : Int) (id : Int)
      (.node UNKNOWN_LABEL UNKNOWN_LABEL .eps .eps) [id] (F.drop 1) hnk hleaf
      (fun j _ h2 h3 => hfr2 j (h2 id (List.mem_singleton_self _)) h3) hF3
      (List.nodup_singleton _)
      (fun i hi => by
        rw [List.mem_singleton.mp hi]
        exact ⟨Or.inl hidL, hidF⟩)
      (fun f hf => Or.inl (List.mem_of_mem_drop hf))
      (by
        rw [hlen3]
        simp only [List.length_singleton, List.length_drop, List.length_nil]
        omega)
      hpar3 hpip3
    exact ⟨_, _, T1, L1, _, hwf1⟩

/-- The block that writes an unknown first child, at a node that is not empty and has a child:
the first child gets the type and the value `UNKNOWN_LABEL`, and no other element changes. -/
theorem writeUnknownChild_old (m : Memory) (s : TreeStorage) (hc : Consistent m s) (k : Int)
    (n : TreeNode) (hn : s.nodeAt k = some n) (hp : n.parent ≠ TREEPOINTER_DEALLOCATED)
    (hty : n.type ≠ EMPTY_NODE_LABEL) (hfc : 0 ≤ n.first_child) :
    ∃ (s1 : TreeStorage) (c0 : TreeNode), s.nodeAt n.first_child = some c0 ∧ c0.parent = k ∧
      s.writeUnknownChild k = some (s1, n.first_child) ∧ Consistent m s1 ∧
      (∀ j, s1.nodeAt j
        = if j = n.first_child then
            some { c0 with type := UNKNOWN_LABEL, value := UNKNOWN_LABEL }
          else s.nodeAt j) := by
  have hc' := hc
  obtain ⟨ty, v, T, L, F, hwf⟩ := hc
  have hk0 : 0 ≤ k := (nodeAt_some_bounds s k n hn).1
  have hlive := (WF_alive_iff m s ty v T L F hwf k).mp ⟨n, hn, hp⟩
  obtain ⟨n', ck, sbk, Lc, hn', hcc, _⟩ := WF_children m s ty v T L F hwf k hlive
  rw [hn] at hn'
  cases hn'
  cases ck with
  | eps =>
    have : n.first_child = -1 := hcc.1
    omega
  | node tyc vc cc sbc =>
    obtain ⟨_, c0, _, _, hc0, _, _, hc0p, _⟩ := hcc
    have hc0a : c0.parent ≠ TREEPOINTER_DEALLOCATED := by
      rw [hc0p]
      intro h
      rw [h] at hk0
      exact absurd hk0 (by decide)
    obtain ⟨s1, hmod, hcons, hat⟩ :=
      relabel_spec m s hc' n.first_child c0 hc0 hc0a UNKNOWN_LABEL UNKNOWN_LABEL
    refine ⟨s1, c0, hc0, hc0p, ?_, hcons, hat⟩
    unfold TreeStorage.writeUnknownChild LocalEpsTreeTraversal.down_first_child
    simp only [LocalEpsTreeTraversal.node, LocalEpsTreeTraversal.create,
      LocalEpsTreeTraversal.write_node, LocalEpsTreeTraversal.setLabels,
      show ¬ k < 0 from by omega, show ¬ n.first_child < 0 from by omega, if_false, hn,
      Option.some_bind, hty, Option.map_some', Bool.not_true, Bool.false_eq_true, hmod,
      not_true_eq_false]

/-- The part of the tree of a well-formed store at a node `k` other than the root. -/
theorem WF_node (m : Memory) (s : TreeStorage) (ty v : Int) (T : FT) (L F : List Nat)
    (h : WF m s ty v T L F) (k : Int) (n : TreeNode) (hn : s.nodeAt k = some n)
    (hp : n.parent ≠ TREEPOINTER_DEALLOCATED) (hk : k ≠ 0) :
    0 < k ∧ k.toNat ∈ L ∧ 0 ≤ n.parent ∧ n.parent ≠ k ∧ n.left_sib ≠ k ∧
      (∃ pn, s.nodeAt n.parent = some pn ∧ pn.parent ≠ TREEPOINTER_DEALLOCATED) ∧
      (0 ≤ n.right_sib → ∃ r0, s.nodeAt n.right_sib = some r0 ∧ r0.parent = n.parent ∧
        r0.left_sib = k) := by
  have hal := WF_alive_iff m s ty v T L F h
  rcases (hal k).mp ⟨n, hn, hp⟩ with h1 | ⟨h1, h2⟩
  · exact absurd h1 hk
  obtain ⟨sub, pk, lsk, cik, lastk, pre, Lold, post, pn, hsub, hL, hsubc, hpk, hlsk, hpn1, _⟩ :=
    WF_sub m s ty v T L F h k.toNat h2
  rw [Int.toNat_of_nonneg (le_of_lt h1)] at hsubc
  have hnd : L.Nodup := by
    obtain ⟨_, _, _, _, _, _, _, _, _, _, _, hnd, _⟩ := h
    exact (List.nodup_append.mp hnd).1
  cases sub with
  | eps =>
    have : k = -1 := hsubc.1
    omega
  | node tyk vk ck sbk =>
    obtain ⟨_, n', Lc, Ls, hn', _, _, hnp, hnl, _, _, hcs, hLold⟩ := hsubc
    rw [hn] at hn'
    cases hn'
    subst hLold
    rw [hL] at hnd
    have hk_pre : k.toNat ∉ pre := by
      intro hx
      have := (List.nodup_append.mp (List.nodup_append.mp hnd).1).2.2 hx
        (List.mem_cons_self _ _)
      exact this
    have hpk0 : 0 ≤ pk := by rcases hpk with h3 | h3 <;> omega
    have hpkk : pk ≠ k := by
      intro hx
      rcases hpk with h3 | h3
      · omega
      · rw [hx] at h3; exact hk_pre h3.2
    have hlskk : lsk ≠ k := by
      intro hx
      rcases hlsk with h3 | h3
      · omega
      · rw [hx] at h3; exact hk_pre h3.2
    have hpa : pn.parent ≠ TREEPOINTER_DEALLOCATED := by
      have : Alive s pk := by
        apply (hal pk).mpr
        rcases hpk with h3 | h3
        · exact Or.inl h3
        · right
          refine ⟨h3.1, ?_⟩
          rw [hL]
          simp [h3.2]
      obtain ⟨pn', hpn', hpa'⟩ := this
      rw [hpn1] at hpn'
      cases hpn'
      exact hpa'
    refine ⟨h1, h2, by rw [hnp]; exact hpk0, by rw [hnp]; exact hpkk, by rw [hnl]; exact hlskk,
      ⟨pn, by rw [hnp]; exact hpn1, hpa⟩, ?_⟩
    intro hrs
    cases sbk with
    | eps =>
      have : n.right_sib = -1 := hcs.1
      omega
    | node _ _ _ _ =>
      obtain ⟨_, r0, _, _, hr0, _, _, hr0p, hr0l, _⟩ := hcs
      exact ⟨r0, hr0, by rw [hr0p, hnp], hr0l⟩

/-- The block that writes an unknown right sibling, at a node that is not empty and has a right
sibling: the right sibling gets the type and the value `UNKNOWN_LABEL`, in `SubstituteNode`
only when its type is `EMPTY_NODE_LABEL`, and no other element changes. -/
theorem writeUnknownRight_old (m : Memory) (s : TreeStorage) (hc : Consistent m s) (k : Int)
    ( keep_existing : Bool) (n : TreeNode) (hn : s.nodeAt k = some n)
    (hp : n.parent ≠ TREEPOINTER_DEALLOCATED) (hk : k ≠ 0)
    (hty : n.type ≠ EMPTY_NODE_LABEL) (hrs : 0 ≤ n.right_sib) :
    ∃ (s1 : TreeStorage) (r0 : TreeNode), s.nodeAt n.right_sib = some r0 ∧
      s.writeUnknownRight k keep_existing = some (s1, n.right_sib) ∧ Consistent m s1 ∧
      (∀ j, s1.nodeAt j
        = if j = n.right_sib ∧ ¬ (keep_existing = true ∧ r0.type ≠ EMPTY_NODE_LABEL) then
            some { r0 with type := UNKNOWN_LABEL, value := UNKNOWN_LABEL }
          else s.nodeAt j) := by
  have hc' := hc
  obtain ⟨ty, v, T, L, F, hwf⟩ := hc
  obtain ⟨hk0, _, hnp0, _, _, _, hr⟩ := WF_node m s ty v T L F hwf k n hn hp hk
  obtain ⟨r0, hr0, hr0p, _⟩ := hr hrs
  have hr0a : r0.parent ≠ TREEPOINTER_DEALLOCATED := by
    rw [hr0p]
    intro h
    rw [h] at hnp0
    exact absurd hnp0 (by decide)
  have hright : (LocalEpsTreeTraversal.create k).right s
      = some (true, s, { LocalEpsTreeTraversal.create k with position_ := n.right_sib }) := by
    unfold LocalEpsTreeTraversal.right
    simp only [LocalEpsTreeTraversal.node, LocalEpsTreeTraversal.create,
      LocalEpsTreeTraversal.write_node, show ¬ k < 0 from by omega,
      show ¬ n.right_sib < 0 from by omega, if_false, hn, Option.some_bind, hty,
      Option.map_some']
  by_cases hkeep : keep_existing = true ∧ r0.type ≠ EMPTY_NODE_LABEL
  · refine ⟨s, r0, hr0, ?_, hc', ?_⟩
    · unfold TreeStorage.writeUnknownRight
      rw [hright]
      simp only [Option.some_bind, LocalEpsTreeTraversal.node, LocalEpsTreeTraversal.create,
        LocalEpsTreeTraversal.write_node, show ¬ n.right_sib < 0 from by omega, if_false, hr0,
        Bool.not_true, Bool.false_eq_true, hkeep.1, Bool.true_and, hkeep.2, decide_True,
        if_true, Option.map_some', ne_eq, not_false_eq_true, not_true_eq_false]
    · intro j
      rw [if_neg (fun h => h.2 hkeep)]
  · obtain ⟨s1, hmod, hcons, hat⟩ :=
      relabel_spec m s hc' n.right_sib r0 hr0 hr0a UNKNOWN_LABEL UNKNOWN_LABEL
    refine ⟨s1, r0, hr0, ?_, hcons, ?_⟩
    · unfold TreeStorage.writeUnknownRight
      rw [hright]
      have hcond : (keep_existing && decide (r0.type ≠ EMPTY_NODE_LABEL)) = false := by
        cases hke : keep_existing with
        | false => rfl
        | true =>
          have : ¬ r0.type ≠ EMPTY_NODE_LABEL := fun h => hkeep ⟨hke, h⟩
          simp [this]
      simp only [Option.some_bind, LocalEpsTreeTraversal.node, LocalEpsTreeTraversal.create,
        LocalEpsTreeTraversal.write_node, LocalEpsTreeTraversal.setLabels,
        show ¬ n.right_sib < 0 from by omega, if_false, hr0,
        Bool.not_true, Bool.false_eq_true, hcond, Option.map_some', hmod, not_true_eq_false]
    · intro j
      rw [hat j]
      by_cases hj : j = n.right_sib
      · rw [if_pos hj, if_pos ⟨hj, hkeep⟩]
      · rw [if_neg hj, if_neg (fun h => hj h.1)]

/-- The left sibling of a node of a chain is not its parent. -/
theorem Chain_left_ne_parent (s : TreeStorage) (t : FT) :
    ∀ (id p ls ci : Int) (L : List Nat) (last : Int),
      Chain s t id p ls ci L last → L.Nodup → ls ≠ p → 0 ≤ p → p.toNat ∉ L →
      ∀ i ∈ L, ∃ n, s.nodeAt (i : Int) = some n ∧ n.left_sib ≠ n.parent := by
  induction t with
  | eps =>
    intro id p ls ci L last h _ _ _ _ i hi
    rw [h.2.1] at hi
    simp at hi
  | node ty v c sb ihc ihs =>
    intro id p ls ci L last h hnd hls hp hpL i hi
    obtain ⟨h0, n, Lc, Ls, hn, h1, h2, h3, h4, h5, hc, hs, hL⟩ := h
    subst hL
    have hnd' := List.nodup_cons.mp hnd
    have hidp : id ≠ p := by
      intro h
      apply hpL
      rw [← h]
      exact List.mem_cons_self _ _
    simp only [List.mem_cons, List.mem_append] at hi
    rcases hi with hi | hi | hi
    · subst hi
      rw [Int.toNat_of_nonneg (le_of_lt h0)]
      exact ⟨n, hn, by rw [h3, h4]; exact hls⟩
    · exact ihc _ _ _ _ _ _ hc (List.nodup_append.mp hnd'.2).1 (by omega) (le_of_lt h0)
        (fun h => hnd'.1 (List.mem_append_left _ h)) i hi
    · exact ihs _ _ _ _ _ _ hs (List.nodup_append.mp hnd'.2).2.1 hidp hp
        (fun h => hpL (List.mem_cons_of_mem _ (List.mem_append_right _ h))) i hi

/-- The left sibling of a node of a well-formed store is not its parent. -/
theorem WF_left_ne_parent (m : Memory) (s : TreeStorage) (ty v : Int) (T : FT)
    (L F : List Nat) (h : WF m s ty v T L F) (k : Int) (n : TreeNode)
    (hn : s.nodeAt k = some n) (hk : 0 < k) (hkL : k.toNat ∈ L) : n.left_sib ≠ n.parent := by
  obtain ⟨r, hr, _, _, _, _, _, _, _, hch, hF, hnd, h0F, hlen⟩ := h
  have hmem := Chain_mem s T _ _ _ _ _ _ hch (le_refl _)
  have h0L : (0 : Int).toNat ∉ L := by
    intro h
    have := (hmem 0 h).1
    omega
  obtain ⟨n', hn', hne⟩ := Chain_left_ne_parent s T _ _ _ _ _ _ hch (List.nodup_append.mp hnd).1
    (by decide) (le_refl _) h0L _ hkL
  rw [Int.toNat_of_nonneg (le_of_lt hk), hn] at hn'
  cases hn'
  exact hne

/-- The block that writes an unknown right sibling, at a node that is not empty, is not the
root and has no right sibling: a new node with the type and the value `UNKNOWN_LABEL` is the
right sibling of the node and the last child of its parent, and no other element changes. -/
theorem writeUnknownRight_new (m : Memory) (s : TreeStorage) (hc : Consistent m s) (k : Int)
    ( keep_existing : Bool) (n : TreeNode) (hn : s.nodeAt k = some n)
    (hp : n.parent ≠ TREEPOINTER_DEALLOCATED) (hk : k ≠ 0)
    (hty : n.type ≠ EMPTY_NODE_LABEL) (hrs : n.right_sib < 0) :
    ∃ (s1 : TreeStorage) (y : Nat) (pn : TreeNode), s.nodeAt n.parent = some pn ∧
      s.writeUnknownRight k keep_existing = some (s1, (y : Int)) ∧ Consistent m s1 ∧
      0 < y ∧ ¬ Alive s (y : Int) ∧ (y : Int) ≠ k ∧ (y : Int) ≠ n.parent ∧
      s1.nodeAt (y : Int)
        = some ⟨UNKNOWN_LABEL, UNKNOWN_LABEL, n.parent, k, -1, -1, -1, n.child_index + 1⟩ ∧
      s1.nodeAt k = some { n with right_sib := (y : Int) } ∧
      s1.nodeAt n.parent = some { pn with last_child := (y : Int) } ∧
      (∀ j, j ≠ (y : Int) → j ≠ k → j ≠ n.parent → s1.nodeAt j = s.nodeAt j) := by
  obtain ⟨ty, v, T, L, F, hwf⟩ := hc
  obtain ⟨hk0, hkL, hnp0, hnpk, _, _, _⟩ := WF_node m s ty v T L F hwf k n hn hp hk
  have hlp := WF_left_ne_parent m s ty v T L F hwf k n hn hk0 hkL
  have hal := WF_alive_iff m s ty v T L F hwf
  obtain ⟨sub, pk, lsk, cik, lastk, pre, Lold, post, pn, hsub, hL, hsubc, hpk, hlsk, hpn1, hpn2,
      hpn3, hpn4, _, hln, hclose⟩ := WF_sub m s ty v T L F hwf k.toNat hkL
  have hkn : ((k.toNat : Nat) : Int) = k := Int.toNat_of_nonneg (le_of_lt hk0)
  rw [hkn] at hsubc hpn3 hln
  obtain ⟨r, hr, _, _, _, _, _, _, _, hch, hF, hnd, h0F, hlen⟩ := hwf
  have hmem := Chain_mem s T _ _ _ _ _ _ hch (le_refl _)
  cases sub with
  | eps =>
    have : k = -1 := hsubc.1
    omega
  | node tyk vk ck sbk =>
    obtain ⟨_, n', Lc, Ls, hn', hnt, hnv, hnp, hnl, hnc, hcc, hcs, hLold⟩ := hsubc
    rw [hn] at hn'
    cases hn'
    have hsbk : sbk = .eps := by
      cases sbk with
      | eps => rfl
      | node _ _ _ _ =>
        have : 0 < n.right_sib := hcs.1
        omega
    subst hsbk
    obtain ⟨hrs1, hLs, hlastk⟩ := hcs
    subst hLs
    rw [List.append_nil] at hLold
    subst hLold
    have hndL : (pre ++ (k.toNat :: Lc) ++ post).Nodup := by
      rw [← hL]
      exact (List.nodup_append.mp hnd).1
    have hndall : (pre ++ (k.toNat :: Lc) ++ post ++ F).Nodup := by
      rw [← hL]
      exact hnd
    have hsplit := List.nodup_append.mp (List.nodup_append.mp hndL).1
    have hold := List.nodup_cons.mp hsplit.2.1
    have hkF : k.toNat ∉ F := Alive_not_free s F hF k ⟨n, hn, hp⟩
    have hpn1' : s.nodeAt n.parent = some pn := by rw [hnp]; exact hpn1
    have hpkA : Alive s pk := by
      apply (hal pk).mpr
      rcases hpk with h3 | h3
      · exact Or.inl h3
      · right
        refine ⟨h3.1, ?_⟩
        rw [hL]
        simp [h3.2]
    have hpkF : n.parent.toNat ∉ F := by
      rw [hnp]
      exact Alive_not_free s F hF pk hpkA
    obtain ⟨id, s3, hadd, hids, hF3, hlen3, hpar3, hpip3, hidp0, hidl0, hat_id, hat_p, hat_l,
        hfr0⟩ :=
      AddLastNode_spec s F hF
        ⟨UNKNOWN_LABEL, UNKNOWN_LABEL, n.parent, k, -1, -1, -1, n.child_index + 1⟩
        (by show UNKNOWN_LABEL ≠ EMPTY_NODE_LABEL; decide) pn hpn1' hpkF
        (fun _ => ⟨n, hn, hkF, fun h => hnpk h.symm⟩)
    have hidp : (id : Int) ≠ n.parent := hidp0
    have hidl : (id : Int) ≠ k := hidl0
    have hfr : ∀ j, j ≠ (id : Int) → j ≠ k → j ≠ n.parent → s3.nodeAt j = s.nodeAt j :=
      fun j h1 h2 h3 => hfr0 j h1 h3 h2
    obtain ⟨hid0, hidL, hidF, hidA⟩ := alloc_fresh m s ty v T L F
      ⟨r, hr, ‹_›, ‹_›, ‹_›, ‹_›, ‹_›, ‹_›, ‹_›, hch, hF, hnd, h0F, hlen⟩ id hids
    have hat_k : s3.nodeAt k = some { n with right_sib := (id : Int) } :=
      hat_l n (le_of_lt hk0) hn
    have hpnfc : ¬ pn.first_child < 0 := by
      by_cases hl : lsk < 0
      · rw [hpn3 hl]; omega
      · have := hpn4 (by omega); omega
    have hat_p' : s3.nodeAt n.parent = some { pn with last_child := (id : Int) } := by
      have := hat_p
      simp only [hpnfc, if_false] at this
      exact this
    have hidnL : ∀ i ∈ L, (i : Int) ≠ (id : Int) := by
      intro i hi h
      have : i = id := by omega
      rw [this] at hi
      exact hidL hi
    refine ⟨s3, id, pn, hpn1', ?_, ?_, hid0, hidA, hidl, hidp, hat_id, hat_k, hat_p', hfr⟩
    · have hright : (LocalEpsTreeTraversal.create k).right s
          = some (true, s, { (LocalEpsTreeTraversal.create k).allocate_eps_right_sibling n with
              position_ := n.right_sib }) := by
        unfold LocalEpsTreeTraversal.right
        simp only [LocalEpsTreeTraversal.node, LocalEpsTreeTraversal.create,
          LocalEpsTreeTraversal.write_node, show ¬ k < 0 from by omega, hrs, hk,
          if_false, if_true, hn, Option.some_bind, hty, Option.map_some']
      unfold TreeStorage.writeUnknownRight
      rw [hright]
      simp only [Option.some_bind, LocalEpsTreeTraversal.node, LocalEpsTreeTraversal.create,
        LocalEpsTreeTraversal.write_node, LocalEpsTreeTraversal.setLabels,
        LocalEpsTreeTraversal.allocate_eps_right_sibling, hrs, if_true,
        Bool.not_true, Bool.false_eq_true, if_false, Option.map_some', not_true_eq_false,
        ne_eq, not_true_eq_false, decide_False, Bool.and_false, hadd]
    · -- the new store is well formed
      have hLcL : ∀ i ∈ Lc, i ∈ L := fun i hi => by rw [hL]; simp [hi]
      have hfrLc : ∀ i ∈ Lc, s3.nodeAt (i : Int) = s.nodeAt (i : Int) := by
        intro i hi
        apply hfr _ (hidnL i (hLcL i hi))
        · intro h
          have : i = k.toNat := by omega
          rw [this] at hi
          exact hold.1 hi
        · rw [hnp]
          intro h
          rcases hpk with h3 | h3
          · have := (hmem i (hLcL i hi)).1
            omega
          · have : pk.toNat = i := by omega
            rw [this] at h3
            exact hsplit.2.2 h3.2 (List.mem_cons_of_mem _ hi)
      have hcc3 : Chain s3 ck n.first_child k (-1) 0 Lc n.last_child :=
        Chain_frame s s3 ck _ _ _ _ _ _ hcc hfrLc
      have hleaf := Chain_leaf s3 id _ hid0 hat_id rfl rfl rfl
      have hleaf' : Chain s3 (.node UNKNOWN_LABEL UNKNOWN_LABEL .eps .eps) (id : Int) pk k
          (cik + 1) [id] (id : Int) := by
        rw [← hnp, ← hnc]
        exact hleaf
      have hsub1 : Chain s3 (.node tyk vk ck (.node UNKNOWN_LABEL UNKNOWN_LABEL .eps .eps)) k pk
          lsk cik (k.toNat :: (Lc ++ [id])) (id : Int) :=
        ⟨hk0, _, Lc, [id], hat_k, hnt, hnv, hnp, hnl, hnc, hcc3, hleaf', rfl⟩
      have hkeep : ∀ j ∈ (0 : Nat) :: (pre ++ post), (j : Int) ≠ pk →
          s3.nodeAt (j : Int) = s.nodeAt (j : Int) := by
        intro j hj hjp
        have hjL : j = 0 ∨ j ∈ pre ∨ j ∈ post := by simpa using hj
        apply hfr
        · intro h
          have : j = id := by omega
          rcases hjL with h1 | h1 | h1
          · omega
          · apply hidL
            rw [hL, ← this]
            simp [h1]
          · apply hidL
            rw [hL, ← this]
            simp [h1]
        · intro h
          have : j = k.toNat := by omega
          rcases hjL with h1 | h1 | h1
          · omega
          · rw [this] at h1
            exact hsplit.2.2 h1 (List.mem_cons_self _ _)
          · rw [this] at h1
            exact (List.nodup_append.mp hndL).2.2
              (List.mem_append_right _ (List.mem_cons_self _ _)) h1
        · rw [hnp]; exact hjp
      have hglue : Glue s s3 (0 :: (pre ++ post)) pk lsk k (id : Int) := by
        refine ⟨fun j hj h1 _ => hkeep j hj h1, ?_, ?_⟩
        · intro pn' hpn'
          rw [hpn1] at hpn'
          cases hpn'
          rw [← hnp, hat_p']
          congr 1
          by_cases hl : lsk < 0
          · have e := hpn3 hl
            obtain ⟨a1, a2, a3, a4, a5, a6, a7, a8⟩ := pn
            simp only [] at e
            subst e
            simp [hl]
          · simp [hl]
        · intro ln hl0 hln'
          have hl1 : 0 < lsk ∧ lsk.toNat ∈ pre := by
            rcases hlsk with h1 | h1
            · omega
            · exact h1
          obtain ⟨ln', hln1, hln2⟩ := hln hl1.1
          rw [hln'] at hln1
          cases hln1
          have hlp' : lsk ≠ pk := by
            rw [← hnl, ← hnp]
            exact hlp
          have := hkeep lsk.toNat (by simp [hl1.2])
            (by rw [Int.toNat_of_nonneg hl0]; exact hlp')
          rw [Int.toNat_of_nonneg hl0] at this
          rw [this, hln']
          congr 1
          obtain ⟨a1, a2, a3, a4, a5, a6, a7, a8⟩ := ln
          simp only [] at hln2
          subst hln2
          rfl
      have hFd : (F.drop 1).Nodup := List.Nodup.sublist (List.drop_sublist 1 F) hF.2
      have hnew : (k.toNat :: (Lc ++ [id])).Nodup := by
        refine List.nodup_cons.mpr ⟨?_, ?_⟩
        · intro h
          rcases List.mem_append.mp h with h | h
          · exact hold.1 h
          · have : k.toNat = id := by simpa using h
            rw [← this] at hidL
            exact hidL hkL
        · rw [List.nodup_append]
          refine ⟨hold.2, List.nodup_singleton _, ?_⟩
          intro a ha hb
          have : a = id := by simpa using hb
          rw [this] at ha
          exact hidL (hLcL id ha)
      have hdisj := (List.nodup_append.mp hndall).2.2
      have hnd3 : (pre ++ (k.toNat :: (Lc ++ [id])) ++ post ++ F.drop 1).Nodup := by
        apply nodup_replace pre (k.toNat :: Lc) post _ F _ hndall hnew hFd
        · intro i hi
          have hi' : i = id ∨ i ∈ k.toNat :: Lc := by
            simp only [List.mem_cons, List.mem_append, List.mem_singleton, List.not_mem_nil,
              or_false] at hi ⊢
            rcases hi with h | h | h
            · exact Or.inr (Or.inl h)
            · exact Or.inr (Or.inr h)
            · exact Or.inl h
          rcases hi' with h | h
          · subst h
            refine ⟨fun h => hidL (by rw [hL]; simp [h]), fun h => hidL (by rw [hL]; simp [h]),
              hidF⟩
          · refine ⟨fun h1 => hsplit.2.2 h1 h, fun h1 => (List.nodup_append.mp hndL).2.2
              (List.mem_append_right _ h) h1, fun h1 => ?_⟩
            apply hdisj _ (List.mem_of_mem_drop h1)
            rw [List.mem_append, List.mem_append]
            exact Or.inl (Or.inr h)
        · intro f hf
          have hfF := List.mem_of_mem_drop hf
          exact ⟨fun h => hdisj (by simp [h]) hfF, fun h => hdisj (by simp [h]) hfF⟩
      have h0F3 : 0 ∉ F.drop 1 := fun h => h0F (List.mem_of_mem_drop h)
      have hlen' : (pre ++ (k.toNat :: (Lc ++ [id])) ++ post).length + (F.drop 1).length + 1
          = s3.nodes_.length := by
        rw [hlen3, ← hlen, hL]
        simp only [List.length_append, List.length_cons, List.length_drop,
          List.length_singleton, List.length_nil]
        have : 0 < F.length ∨ F.length = 0 := by omega
        rcases this with h | h <;> omega
      have hwf3 := hclose s3 _ k (id : Int) _ (F.drop 1) hsub1 hglue hF3 hnd3 h0F3 hlen' hpar3
        hpip3
      exact ⟨_, _, _, _, _, hwf3⟩

/-- The tree and the nodes of a chain are determined by its first node. -/
theorem Chain_determined (s : TreeStorage) (t : FT) :
    ∀ (t1 : FT) (id p ls ci p1 ls1 ci1 : Int) (L L1 : List Nat) (last last1 : Int),
      Chain s t id p ls ci L last → Chain s t1 id p1 ls1 ci1 L1 last1 → t = t1 ∧ L = L1 := by
  induction t with
  | eps =>
    intro t1 id p ls ci p1 ls1 ci1 L L1 last last1 h h1
    cases t1 with
    | eps => exact ⟨rfl, by rw [h.2.1, h1.2.1]⟩
    | node _ _ _ _ =>
      have e1 : id = -1 := h.1
      have e2 : 0 < id := h1.1
      omega
  | node ty v c sb ihc ihs =>
    intro t1 id p ls ci p1 ls1 ci1 L L1 last last1 h h1
    cases t1 with
    | eps =>
      have e1 : id = -1 := h1.1
      have e2 : 0 < id := h.1
      omega
    | node ty1 v1 c1 sb1 =>
      obtain ⟨_, n, Lc, Ls, hn, hnt, hnv, _, _, _, hcc, hcs, hL⟩ := h
      obtain ⟨_, n1, Lc1, Ls1, hn1, hnt1, hnv1, _, _, _, hcc1, hcs1, hL1⟩ := h1
      rw [hn] at hn1
      cases hn1
      obtain ⟨e1, e2⟩ := ihc _ _ _ _ _ _ _ _ _ _ _ _ hcc hcc1
      obtain ⟨e3, e4⟩ := ihs _ _ _ _ _ _ _ _ _ _ _ _ hcs hcs1
      rw [hL, hL1, e1, e2, e3, e4, ← hnt, ← hnv, hnt1, hnv1]
      exact ⟨rfl, rfl⟩

/-- The call `RemoveNodeChildren(k)` on a node of a well-formed store whose children form the
tree `c` at the nodes `Lc`: the node has no child after it, the nodes `Lc` are no nodes of the
store after it, no other element changes, and the store is well formed. -/
theorem RemoveNodeChildren_spec (m : Memory) (s : TreeStorage) (hc : Consistent m s) (k : Int)
    (n : TreeNode) (hn : s.nodeAt k = some n) (hp : n.parent ≠ TREEPOINTER_DEALLOCATED)
    (c : FT) (Lc : List Nat) (hch : Chain s c n.first_child k (-1) 0 Lc n.last_child)
    (fuel : Nat) (hfuel : c.size < fuel) :
    ∃ s1, s.RemoveNodeChildren fuel k = some s1 ∧ Consistent m s1 ∧
      s1.nodeAt k = some { n with first_child := -1, last_child := -1 } ∧
      (∀ j : Int, (∀ i ∈ Lc, j ≠ (i : Int)) → j ≠ k → s1.nodeAt j = s.nodeAt j) ∧
      (∀ i ∈ Lc, ¬ Alive s1 (i : Int)) ∧ s1.nodes_.length ≤ s.nodes_.length := by
  obtain ⟨ty, v, T, L, F, hwf⟩ := hc
  have hk0 : 0 ≤ k := (nodeAt_some_bounds s k n hn).1
  have hlive := (WF_alive_iff m s ty v T L F hwf k).mp ⟨n, hn, hp⟩
  obtain ⟨n', ck, sbk, Lc0, hn', hcc, hndc, hLcL, hkF, hLcF, _, _, hclose⟩ :=
    WF_children m s ty v T L F hwf k hlive
  rw [hn] at hn'
  cases hn'
  obtain ⟨e1, e2⟩ := Chain_determined s c ck _ _ _ _ _ _ _ _ _ _ _ hch hcc
  subst e1 e2
  have hF : FreeList s F := by
    obtain ⟨_, _, _, _, _, _, _, _, _, _, hF, _⟩ := hwf
    exact hF
  obtain ⟨s1, F1, hrem, hat_k, hF1, hF1sub, hFsub, hcount, hle, hfr, hgone, hpar1, hpip1⟩ :=
    RemoveNodeChildren_local fuel s k n c Lc F hk0 hn hch hndc (fun i hi => (hLcL i hi).2) hF
      hLcF hkF hfuel
  have hlenc := Chain_length s c _ _ _ _ _ _ hch
  obtain ⟨T1, L1, hwf1, _⟩ := hclose s1 n.type n.value (-1) (-1) .eps [] F1 hat_k
    ⟨rfl, rfl, rfl⟩ (fun j h1 _ h3 => hfr j h1 h3) hF1 List.nodup_nil
    (fun i hi => absurd hi (List.not_mem_nil _)) hF1sub
    (by simp only [List.length_nil]; omega) hpar1 hpip1
  refine ⟨s1, hrem, ⟨_, _, T1, L1, F1, hwf1⟩, hat_k, hfr, ?_, hle⟩
  intro i hi ⟨x, hx, hxp⟩
  rcases hgone i hi with h1 | h1
  · obtain ⟨x', hx', hxp'⟩ := FreeChain_mem s1 F1 _ hF1.1 _ h1
    rw [hx] at hx'
    cases hx'
    exact hxp hxp'
  · have := (nodeAt_some_bounds s1 _ x hx).2
    simp at this
    omega

/-- The children of a node of a well-formed store form a chain with fewer nodes than the store
has slots. -/
theorem children_chain (m : Memory) (s : TreeStorage) (hc : Consistent m s) (k : Int)
    (n : TreeNode) (hn : s.nodeAt k = some n) (hp : n.parent ≠ TREEPOINTER_DEALLOCATED) :
    ∃ (c : FT) (Lc : List Nat), Chain s c n.first_child k (-1) 0 Lc n.last_child ∧
      c.size < s.nodes_.length := by
  obtain ⟨ty, v, T, L, F, hwf⟩ := hc
  have hlive := (WF_alive_iff m s ty v T L F hwf k).mp ⟨n, hn, hp⟩
  obtain ⟨n', ck, sbk, Lc0, hn', hcc, hndc, hLcL, _⟩ := WF_children m s ty v T L F hwf k hlive
  rw [hn] at hn'
  cases hn'
  refine ⟨ck, Lc0, hcc, ?_⟩
  obtain ⟨_, _, _, _, _, _, _, _, _, _, _, hnd, _, hlen⟩ := hwf
  have h1 := Chain_length s ck _ _ _ _ _ _ hcc
  have h2 := nodup_subset_length Lc0 L hndc (fun i hi => (hLcL i hi).1)
  omega

/-- The call `RemoveNode(k)` on a node of a well-formed store, with enough rounds for the loops
of `RemoveNodeChildren`: for the root, or for a node without a right sibling, the store after
it is well formed; for another node the `CHECK` fails. -/
theorem RemoveNode_spec (m : Memory) (s : TreeStorage) (hc : Consistent m s) (k : Int)
    (n : TreeNode) (hn : s.nodeAt k = some n) (hp : n.parent ≠ TREEPOINTER_DEALLOCATED)
    (fuel : Nat) (hfuel : s.nodes_.length ≤ fuel) :
    (k = 0 ∨ n.right_sib < 0 → ∃ s1, s.RemoveNode fuel k = some s1 ∧ Consistent m s1) ∧
    (k ≠ 0 → 0 ≤ n.right_sib → s.RemoveNode fuel k = none) := by
  obtain ⟨c, Lc, hch, hsize⟩ := children_chain m s hc k n hn hp
  obtain ⟨s1, hrem, hc1, hat_k, _, _, _⟩ :=
    RemoveNodeChildren_spec m s hc k n hn hp c Lc hch fuel (by omega)
  refine ⟨?_, ?_⟩
  rotate_left
  · intro hk hrs
    unfold TreeStorage.RemoveNode
    simp only [hrem, Option.some_bind, hk, if_false, hat_k, show ¬ n.right_sib < 0 from by omega,
      not_false_eq_true, if_true]
  intro hcase
  by_cases hk : k = 0
  · refine ⟨s1, ?_, hc1⟩
    unfold TreeStorage.RemoveNode
    rw [hrem]
    simp only [Option.some_bind, hk, if_true]
  have hrs : n.right_sib < 0 := by
    rcases hcase with h | h
    · exact absurd h hk
    · exact h
  obtain ⟨ty, v, T, L, F, hwf⟩ := hc1
  obtain ⟨hk0, hkL, hnp0, hnpk, hnlk, _, _⟩ := WF_node m s1 ty v T L F hwf k _ hat_k hp hk
  have hlp := WF_left_ne_parent m s1 ty v T L F hwf k _ hat_k hk0 hkL
  have hal := WF_alive_iff m s1 ty v T L F hwf
  obtain ⟨sub, pk, lsk, cik, lastk, pre, Lold, post, pn, hsub, hL, hsubc, hpk, hlsk, hpn1, hpn2,
      hpn3, hpn4, hpn5, hln, hclose⟩ := WF_sub m s1 ty v T L F hwf k.toNat hkL
  have hkn : ((k.toNat : Nat) : Int) = k := Int.toNat_of_nonneg (le_of_lt hk0)
  rw [hkn] at hsubc hpn3 hpn5 hln
  obtain ⟨r, hr, _, _, _, _, _, _, _, hchT, hF, hnd, h0F, hlen⟩ := hwf
  cases sub with
  | eps =>
    have : k = -1 := hsubc.1
    omega
  | node tyk vk ck sbk =>
    obtain ⟨_, n', Lc', Ls, hn', hnt, hnv, hnp, hnl, hnc, hcc, hcs, hLold⟩ := hsubc
    rw [hat_k] at hn'
    cases hn'
    have hnp' : n.parent = pk := hnp
    have hnl' : n.left_sib = lsk := hnl
    have hck : ck = .eps := by
      cases ck with
      | eps => rfl
      | node _ _ _ _ =>
        have : (0 : Int) < -1 := hcc.1
        exact absurd this (by decide)
    have hsbk : sbk = .eps := by
      cases sbk with
      | eps => rfl
      | node _ _ _ _ =>
        have : 0 < n.right_sib := hcs.1
        omega
    subst hck hsbk
    obtain ⟨_, hLc', _⟩ := hcc
    obtain ⟨_, hLs, hlastk⟩ := hcs
    subst hLc' hLs
    simp only [List.append_nil] at hLold
    subst hLold
    have hndall : (pre ++ [k.toNat] ++ post ++ F).Nodup := by
      rw [← hL]
      exact hnd
    have hndL := (List.nodup_append.mp hndall).1
    have hdisj := (List.nodup_append.mp hndall).2.2
    have hsplit := List.nodup_append.mp (List.nodup_append.mp hndL).1
    have hk_pre : k.toNat ∉ pre := fun h => hsplit.2.2 h (List.mem_singleton_self _)
    have hk_post : k.toNat ∉ post := fun h =>
      (List.nodup_append.mp hndL).2.2 (List.mem_append_right _ (List.mem_singleton_self _)) h
    have hkF : k.toNat ∉ F := Alive_not_free s1 F hF k ⟨_, hat_k, hp⟩
    have hpk0 : 0 ≤ pk := by rcases hpk with h3 | h3 <;> omega
    have hpkk : pk ≠ k := by rw [← hnp']; exact hnpk
    have hlskk : lsk ≠ k := by rw [← hnl']; exact hnlk
    have hlskpk : lsk ≠ pk := by rw [← hnl', ← hnp']; exact hlp
    have hpkA : Alive s1 pk := by
      apply (hal pk).mpr
      rcases hpk with h3 | h3
      · exact Or.inl h3
      · right
        refine ⟨h3.1, ?_⟩
        rw [hL]
        simp [h3.2]
    have hpkF : pk.toNat ∉ F := Alive_not_free s1 F hF pk hpkA
    -- the parent gets other links
    have hstep1 : ∃ s3,
        ((if pn.first_child = k then
            s1.modifyNode pk fun x => { x with first_child := -1 }
          else some s1).bind fun s2 =>
            s2.modifyNode pk fun x => { x with last_child := lsk }) = some s3 ∧
        (∀ j, s3.nodeAt j = if j = pk then some { pn with
            first_child := if lsk < 0 then -1 else pn.first_child, last_child := lsk }
          else s1.nodeAt j) ∧
        s3.nodes_.length = s1.nodes_.length ∧ s3.first_free_node_ = s1.first_free_node_ ∧
        s3.parent_ = s1.parent_ ∧ s3.position_in_parent_ = s1.position_in_parent_ := by
      by_cases hfk : pn.first_child = k
      · have hl : lsk < 0 := by
          by_contra hl
          exact hpn5 (by omega) hfk
        obtain ⟨s2, hmod2, hat2, hlen2, hff2, hpar2, hpip2⟩ :=
          modifyNode_spec s1 pk (fun x => { x with first_child := -1 }) pn hpn1
        have hpn2' := hat2 pk
        rw [if_pos rfl] at hpn2'
        obtain ⟨s3, hmod3, hat3, hlen3, hff3, hpar3, hpip3⟩ :=
          modifyNode_spec s2 pk (fun x => { x with last_child := lsk }) _ hpn2'
        refine ⟨s3, ?_, ?_, by rw [hlen3, hlen2], by rw [hff3, hff2], by rw [hpar3, hpar2],
          by rw [hpip3, hpip2]⟩
        · rw [if_pos hfk, hmod2]
          exact hmod3
        · intro j
          rw [hat3 j]
          by_cases hj : j = pk
          · rw [if_pos hj, if_pos hj, if_pos hl]
          · rw [if_neg hj, if_neg hj, hat2 j, if_neg hj]
      · have hl : ¬ lsk < 0 := fun hl => hfk (hpn3 hl)
        obtain ⟨s3, hmod3, hat3, hlen3, hff3, hpar3, hpip3⟩ :=
          modifyNode_spec s1 pk (fun x => { x with last_child := lsk }) pn hpn1
        refine ⟨s3, ?_, ?_, hlen3, hff3, hpar3, hpip3⟩
        · rw [if_neg hfk]
          exact hmod3
        · intro j
          rw [hat3 j]
          by_cases hj : j = pk
          · rw [if_pos hj, if_pos hj, if_neg hl]
          · rw [if_neg hj, if_neg hj]
    obtain ⟨s3, hs3, hat3, hlen3, hff3, hpar3, hpip3⟩ := hstep1
    -- the left sibling gets another link
    have hstep2 : ∃ s4,
        (if lsk ≥ 0 then s3.modifyNode lsk fun x => { x with right_sib := -1 }
          else some s3) = some s4 ∧
        (∀ j, j ≠ lsk → s4.nodeAt j = s3.nodeAt j) ∧
        (∀ ln, 0 ≤ lsk → s1.nodeAt lsk = some ln →
          s4.nodeAt lsk = some { ln with right_sib := -1 }) ∧
        s4.nodes_.length = s1.nodes_.length ∧ s4.first_free_node_ = s1.first_free_node_ ∧
        s4.parent_ = s1.parent_ ∧ s4.position_in_parent_ = s1.position_in_parent_ := by
      by_cases hl : lsk ≥ 0
      · have hl1 : 0 < lsk := by
          rcases hlsk with h1 | h1
          · omega
          · exact h1.1
        obtain ⟨ln, hln1, _⟩ := hln hl1
        have hln3 : s3.nodeAt lsk = some ln := by
          rw [hat3 lsk, if_neg hlskpk, hln1]
        obtain ⟨s4, hmod4, hat4, hlen4, hff4, hpar4, hpip4⟩ :=
          modifyNode_spec s3 lsk (fun x => { x with right_sib := -1 }) ln hln3
        refine ⟨s4, ?_, ?_, ?_, by rw [hlen4, hlen3], by rw [hff4, hff3], by rw [hpar4, hpar3],
          by rw [hpip4, hpip3]⟩
        · rw [if_pos hl]
          exact hmod4
        · intro j hj
          rw [hat4 j, if_neg hj]
        · intro ln' _ hln'
          rw [hln1] at hln'
          cases hln'
          rw [hat4 lsk, if_pos rfl]
      · refine ⟨s3, by rw [if_neg hl], fun _ _ => rfl, fun _ h => absurd h hl, hlen3, hff3,
          hpar3, hpip3⟩
    obtain ⟨s4, hs4, hat4, hat4l, hlen4, hff4, hpar4, hpip4⟩ := hstep2
    have hlskF : 0 ≤ lsk → lsk.toNat ∉ F := by
      intro hl
      have hl1 : 0 < lsk ∧ lsk.toNat ∈ pre := by
        rcases hlsk with h1 | h1
        · omega
        · exact h1
      intro h
      exact hdisj (by simp [hl1.2]) h
    have hF4 : FreeList s4 F := by
      apply FreeList_frame s1 s4 F hF hff4
      intro f hf
      have hne1 : (f : Int) ≠ lsk := by
        intro h
        have h0 : 0 ≤ lsk := by omega
        apply hlskF h0
        rw [← h]
        simpa using hf
      have hne2 : (f : Int) ≠ pk := by
        intro h
        apply hpkF
        rw [← h]
        simpa using hf
      rw [hat4 _ hne1, hat3, if_neg hne2]
    have hklt : k.toNat < s4.nodes_.length := by
      rw [hlen4]
      exact (nodeAt_some_bounds s1 k _ hat_k).2
    obtain ⟨s5, F5, hde, hF5, hF5sub, hFsub5, hcount5, hle5, hfr5, hgone5, hpar5, hpip5⟩ :=
      DeallocateNode_spec s4 F hF4 k.toNat hklt hkF
    rw [hkn] at hfr5
    refine ⟨s5, ?_, ?_⟩
    · unfold TreeStorage.RemoveNode
      simp only [hrem, Option.some_bind, hk, if_false, hat_k, hrs, not_true_eq_false,
        show n.parent ≥ 0 from hnp0, if_true, hnp', hpn1, hnl']
      rw [hs3]
      simp only [show pk ≥ 0 from hpk0, if_true, Option.some_bind]
      rw [hs4]
      exact hde
    · have hkeep : ∀ j ∈ (0 : Nat) :: (pre ++ post), (j : Int) ≠ pk → (j : Int) ≠ lsk →
          s5.nodeAt (j : Int) = s1.nodeAt (j : Int) := by
        intro j hj h1 h2
        have hjL : j = 0 ∨ j ∈ pre ∨ j ∈ post := by simpa using hj
        have hjk : (j : Int) ≠ k := by
          intro h
          have : j = k.toNat := by omega
          rcases hjL with h3 | h3 | h3
          · omega
          · rw [this] at h3; exact hk_pre h3
          · rw [this] at h3; exact hk_post h3
        rw [hfr5 _ hjk, hat4 _ h2, hat3, if_neg h1]
      have hglue : Glue s1 s5 (0 :: (pre ++ post)) pk lsk (-1) lsk := by
        refine ⟨hkeep, ?_, ?_⟩
        · intro pn' hpn'
          rw [hpn1] at hpn'
          cases hpn'
          rw [hfr5 _ hpkk, hat4 _ hlskpk.symm, hat3, if_pos rfl]
        · intro ln hl0 hln'
          rw [hfr5 _ hlskk]
          exact hat4l ln hl0 hln'
      have hF5nd : ∀ f ∈ F5, f ∉ pre ∧ f ∉ post := by
        intro f hf
        rcases hF5sub f hf with h | h
        · rw [h]
          exact ⟨hk_pre, hk_post⟩
        · exact ⟨fun h1 => hdisj (by simp [h1]) h, fun h1 => hdisj (by simp [h1]) h⟩
      have hnd5 : (pre ++ [] ++ post ++ F5).Nodup := by
        apply nodup_replace pre [k.toNat] post [] F F5 hndall List.nodup_nil hF5.2
        · intro i hi
          exact absurd hi (List.not_mem_nil _)
        · exact hF5nd
      have h0F5 : 0 ∉ F5 := by
        intro h
        rcases hF5sub 0 h with h1 | h1
        · omega
        · exact h0F h1
      have hlen5 : (pre ++ [] ++ post).length + F5.length + 1 = s5.nodes_.length := by
        rw [hL] at hlen
        simp only [List.length_append, List.length_nil, List.length_singleton] at hlen ⊢
        omega
      have hwf5 := hclose s5 .eps (-1) lsk [] F5 ⟨rfl, rfl, rfl⟩ hglue hF5 hnd5 h0F5 hlen5
        (by rw [hpar5, hpar4]) (by rw [hpip5, hpip4])
      exact ⟨_, _, _, _, _, hwf5⟩

/-! ## The calls that change a store keep it well formed -/

theorem Keeps_refl (s : TreeStorage) : Keeps s s := fun _ h => h

theorem Keeps_trans (s s1 s2 : TreeStorage) (h1 : Keeps s s1) (h2 : Keeps s1 s2) :
    Keeps s s2 := fun j h => h2 j (h1 j h)

/-- A store in which a node got another type and value has the same nodes. -/
theorem Keeps_relabel (s s1 : TreeStorage) (k : Int) (n : TreeNode) (ty1 v1 : Int)
    (hn : s.nodeAt k = some n)
    (hat : ∀ j, s1.nodeAt j
      = if j = k then some { n with type := ty1, value := v1 } else s.nodeAt j) :
    Keeps s s1 := by
  rintro j ⟨x, hx, hxp⟩
  by_cases hj : j = k
  · refine ⟨_, by rw [hat j, if_pos hj], ?_⟩
    rw [hj, hn] at hx
    cases hx
    exact hxp
  · exact ⟨x, by rw [hat j, if_neg hj, hx], hxp⟩

/-- The block that writes an unknown first child fails at a node with the type
`EMPTY_NODE_LABEL`. -/
theorem writeUnknownChild_empty (s : TreeStorage) (k : Int) (n : TreeNode)
    (hn : s.nodeAt k = some n) (hty : n.type = EMPTY_NODE_LABEL) :
    s.writeUnknownChild k = none := by
  have hk0 : 0 ≤ k := (nodeAt_some_bounds s k n hn).1
  unfold TreeStorage.writeUnknownChild LocalEpsTreeTraversal.down_first_child
  simp only [LocalEpsTreeTraversal.node, LocalEpsTreeTraversal.create,
    show ¬ k < 0 from by omega, if_false, hn, Option.some_bind, hty, if_true,
    Bool.false_eq_true, not_false_eq_true]

/-- The block that writes an unknown right sibling fails at a node with the type
`EMPTY_NODE_LABEL`, and at a root. -/
theorem writeUnknownRight_fails (s : TreeStorage) (k : Int) ( keep_existing : Bool)
    (n : TreeNode) (hn : s.nodeAt k = some n)
    (h : n.type = EMPTY_NODE_LABEL ∨ (k = 0 ∧ n.right_sib < 0)) :
    s.writeUnknownRight k keep_existing = none := by
  have hk0 : 0 ≤ k := (nodeAt_some_bounds s k n hn).1
  unfold TreeStorage.writeUnknownRight LocalEpsTreeTraversal.right
  by_cases hty : n.type = EMPTY_NODE_LABEL
  · simp only [LocalEpsTreeTraversal.node, LocalEpsTreeTraversal.create,
      show ¬ k < 0 from by omega, if_false, hn, Option.some_bind, hty, if_true,
      Bool.false_eq_true, not_false_eq_true]
  · rcases h with h | ⟨h1, h2⟩
    · exact absurd h hty
    · subst h1
      simp only [LocalEpsTreeTraversal.node, LocalEpsTreeTraversal.create,
        LocalEpsTreeTraversal.write_node, show ¬ (0 : Int) < 0 from by decide, if_false, hn,
        Option.some_bind, hty, Option.map_some', h2, if_true, Bool.false_eq_true,
        not_false_eq_true]

/-- When the block that writes an unknown first child returns, the store is well formed, it
has the nodes that it had, the returned node is one of its nodes, and the node at which the
block was called has its parent and its type. -/
theorem writeUnknownChild_safe (m : Memory) (s : TreeStorage) (hc : Consistent m s) (k : Int)
    (n : TreeNode) (hn : s.nodeAt k = some n) (hp : n.parent ≠ TREEPOINTER_DEALLOCATED)
    (r : TreeStorage × Int) (h : s.writeUnknownChild k = some r) :
    Consistent m r.1 ∧ Keeps s r.1 ∧ Alive r.1 r.2 ∧
      ∃ n1, r.1.nodeAt k = some n1 ∧ n1.parent = n.parent ∧ n1.type = n.type ∧
        n1.right_sib = n.right_sib := by
  by_cases hty : n.type = EMPTY_NODE_LABEL
  · rw [writeUnknownChild_empty s k n hn hty] at h
    exact Option.noConfusion h
  by_cases hfc : n.first_child < 0
  · obtain ⟨s1, y, hw, hc1, hy0, _, hyk, hat_y, hat_k, hfr⟩ :=
      writeUnknownChild_new m s hc k n hn hp hty hfc
    rw [hw] at h
    cases h
    have hk0 : 0 ≤ k := (nodeAt_some_bounds s k n hn).1
    refine ⟨hc1, ?_, ⟨_, hat_y, ?_⟩, _, hat_k, rfl, rfl, rfl⟩
    · rintro j ⟨x, hx, hxp⟩
      by_cases hj : j = k
      · rw [hj, hn] at hx
        cases hx
        have h1 := hat_k
        rw [← hj] at h1
        exact ⟨_, h1, hxp⟩
      · by_cases hjy : j = (y : Int)
        · have h1 := hat_y
          rw [← hjy] at h1
          refine ⟨_, h1, ?_⟩
          show k ≠ TREEPOINTER_DEALLOCATED
          intro e
          rw [e] at hk0
          exact absurd hk0 (by decide)
        · exact ⟨x, by rw [hfr j hjy hj, hx], hxp⟩
    · show k ≠ TREEPOINTER_DEALLOCATED
      intro e
      rw [e] at hk0
      exact absurd hk0 (by decide)
  · obtain ⟨s1, c0, hc0, hc0p, hw, hc1, hat⟩ :=
      writeUnknownChild_old m s hc k n hn hp hty (by omega)
    rw [hw] at h
    cases h
    have hk0 : 0 ≤ k := (nodeAt_some_bounds s k n hn).1
    have hkeep := Keeps_relabel s s1 _ c0 _ _ hc0 hat
    refine ⟨hc1, hkeep, ⟨_, by rw [hat, if_pos rfl], ?_⟩, ?_⟩
    · show c0.parent ≠ TREEPOINTER_DEALLOCATED
      rw [hc0p]
      intro e
      rw [e] at hk0
      exact absurd hk0 (by decide)
    · have hj : k ≠ n.first_child := by
        intro hj
        have e : s.nodeAt k = some c0 := by rw [hj]; exact hc0
        rw [hn] at e
        have e2 : n = c0 := Option.some.inj e
        rw [← e2] at hc0p
        obtain ⟨ty, v, T, L, F, hwf⟩ := hc
        by_cases hk : k = 0
        · obtain ⟨r0, hr0, _, _, hrp, _⟩ := hwf
          rw [hk] at hn
          rw [hr0] at hn
          have e3 : r0 = n := Option.some.inj hn
          rw [e3] at hrp
          omega
        · obtain ⟨_, _, _, hnpk, _⟩ := WF_node m s ty v T L F hwf k n hn hp hk
          exact hnpk hc0p
      exact ⟨n, by rw [hat, if_neg hj, hn], rfl, rfl, rfl⟩

/-- When the block that writes an unknown right sibling returns, at a node of a well-formed
store, the store is well formed, it has the nodes that it had, the returned node is one of its
nodes, and the node at which the block was called has its parent and its type. -/
theorem writeUnknownRight_safe (m : Memory) (s : TreeStorage) (hc : Consistent m s) (k : Int)
    ( keep_existing : Bool) (n : TreeNode) (hn : s.nodeAt k = some n)
    (hp : n.parent ≠ TREEPOINTER_DEALLOCATED) (r : TreeStorage × Int)
    (h : s.writeUnknownRight k keep_existing = some r) :
    Consistent m r.1 ∧ Keeps s r.1 ∧ Alive r.1 r.2 ∧
      ∃ n1, r.1.nodeAt k = some n1 ∧ n1.parent = n.parent ∧ n1.type = n.type := by
  by_cases hty : n.type = EMPTY_NODE_LABEL
  · rw [writeUnknownRight_fails s k keep_existing n hn (Or.inl hty)] at h
    exact Option.noConfusion h
  by_cases hk : k = 0
  · obtain ⟨ty, v, T, L, F, hwf⟩ := hc
    obtain ⟨r0, hr0, _, _, _, _, _, hrs, _⟩ := hwf
    have hn0 : s.nodeAt 0 = some n := by rw [← hk]; exact hn
    have e : r0 = n := by
      rw [hr0] at hn0
      exact Option.some.inj hn0
    rw [e] at hrs
    rw [hk, writeUnknownRight_fails s 0 keep_existing n hn0 (Or.inr ⟨rfl, hrs⟩)] at h
    exact Option.noConfusion h
  have hc' := hc
  obtain ⟨ty, v, T, L, F, hwf⟩ := hc
  obtain ⟨hk0, _, hnp0, hnpk, _, _, _⟩ := WF_node m s ty v T L F hwf k n hn hp hk
  by_cases hrs : n.right_sib < 0
  · obtain ⟨s1, y, pn, hpn, hw, hc1, hy0, _, hyk, hyp, hat_y, hat_k, hat_p, hfr⟩ :=
      writeUnknownRight_new m s hc' k keep_existing n hn hp hk hty hrs
    rw [hw] at h
    cases h
    have hnpd : n.parent ≠ TREEPOINTER_DEALLOCATED := hp
    refine ⟨hc1, ?_, ⟨_, hat_y, hnpd⟩, _, hat_k, rfl, rfl⟩
    rintro j ⟨x, hx, hxp⟩
    by_cases hj : j = k
    · rw [hj, hn] at hx
      cases hx
      have h1 := hat_k
      rw [← hj] at h1
      exact ⟨_, h1, hxp⟩
    · by_cases hjy : j = (y : Int)
      · have h1 := hat_y
        rw [← hjy] at h1
        exact ⟨_, h1, hnpd⟩
      · by_cases hjp : j = n.parent
        · rw [hjp, hpn] at hx
          cases hx
          have h1 := hat_p
          rw [← hjp] at h1
          exact ⟨_, h1, hxp⟩
        · exact ⟨x, by rw [hfr j hjy hj hjp, hx], hxp⟩
  · obtain ⟨s1, r0, hr0, hw, hc1, hat⟩ :=
      writeUnknownRight_old m s hc' k keep_existing n hn hp hk hty (by omega)
    rw [hw] at h
    cases h
    obtain ⟨_, _, _, _, hnlk, _, hr⟩ := WF_node m s ty v T L F hwf k n hn hp hk
    obtain ⟨r0', hr0', hr0p, hr0l⟩ := hr (by omega)
    rw [hr0] at hr0'
    cases hr0'
    have hr0d : r0.parent ≠ TREEPOINTER_DEALLOCATED := by
      rw [hr0p]
      intro e
      rw [e] at hnp0
      exact absurd hnp0 (by decide)
    have hkeep : Keeps s s1 := by
      rintro j ⟨x, hx, hxp⟩
      by_cases hj : j = n.right_sib ∧ ¬ (keep_existing = true ∧ r0.type ≠ EMPTY_NODE_LABEL)
      · refine ⟨_, by rw [hat j, if_pos hj], ?_⟩
        exact hr0d
      · exact ⟨x, by rw [hat j, if_neg hj, hx], hxp⟩
    refine ⟨hc1, hkeep, hkeep _ ⟨r0, hr0, hr0d⟩, ?_⟩
    have hj : ¬ (k = n.right_sib ∧ ¬ (keep_existing = true ∧ r0.type ≠ EMPTY_NODE_LABEL)) := by
      rintro ⟨hj, _⟩
      have e : s.nodeAt k = some r0 := by rw [hj]; exact hr0
      rw [hn] at e
      have e2 : n = r0 := Option.some.inj e
      rw [← e2] at hr0l
      exact hnlk hr0l
    exact ⟨n, by rw [hat, if_neg hj, hn], rfl, rfl⟩

/-- The call `RemoveNodeChildren(k)` on a node of a well-formed store, with enough rounds: it
returns, the store is well formed, and the node has no child. -/
theorem RemoveNodeChildren_total (m : Memory) (s : TreeStorage) (hc : Consistent m s) (k : Int)
    (n : TreeNode) (hn : s.nodeAt k = some n) (hp : n.parent ≠ TREEPOINTER_DEALLOCATED)
    (fuel : Nat) (hfuel : s.nodes_.length ≤ fuel) :
    ∃ s1, s.RemoveNodeChildren fuel k = some s1 ∧ Consistent m s1 ∧
      s1.nodeAt k = some { n with first_child := -1, last_child := -1 } := by
  obtain ⟨c, Lc, hch, hsize⟩ := children_chain m s hc k n hn hp
  obtain ⟨s1, hrem, hc1, hat_k, _⟩ :=
    RemoveNodeChildren_spec m s hc k n hn hp c Lc hch fuel (by omega)
  exact ⟨s1, hrem, hc1, hat_k⟩

/-- The part of a round of the loop of `SubstituteNode` that writes the first child: when it
returns, the store is well formed, it has the nodes that it had, and the nodes of the queue are
nodes of the store. -/
theorem childPhase_safe (m : Memory) (s : TreeStorage) (hc : Consistent m s) (k : Int)
    (n : TreeNode) (hn : s.nodeAt k = some n) (hp : n.parent ≠ TREEPOINTER_DEALLOCATED)
    (fc : Int) (rqueue : List (Int × Int)) (hq : ∀ el ∈ rqueue, Alive s el.2)
    (a : TreeStorage × List (Int × Int))
    (h : (if fc ≠ -1 then
            (s.writeUnknownChild k).bind fun r =>
              if r.2 = -1 then none
              else some (r.1, if fc ≥ 0 then rqueue ++ [(fc, r.2)] else rqueue)
          else some (s, rqueue)) = some a) :
    Consistent m a.1 ∧ Keeps s a.1 ∧ (∀ el ∈ a.2, Alive a.1 el.2) ∧
      ∃ n1, a.1.nodeAt k = some n1 ∧ n1.parent = n.parent ∧ n1.type = n.type := by
  by_cases hfc : fc ≠ -1
  · rw [if_pos hfc] at h
    cases hw : s.writeUnknownChild k with
    | none => rw [hw] at h; exact Option.noConfusion h
    | some r =>
      rw [hw, Option.some_bind] at h
      obtain ⟨h1, h2, h3, n1, h4, h5, h6, _⟩ := writeUnknownChild_safe m s hc k n hn hp r hw
      by_cases hr : r.2 = -1
      · rw [if_pos hr] at h; exact Option.noConfusion h
      · rw [if_neg hr] at h
        have e := Option.some.inj h
        rw [← e]
        refine ⟨h1, h2, ?_, n1, h4, h5, h6⟩
        intro el hel
        by_cases hge : fc ≥ 0
        · simp only [hge, if_true, List.mem_append, List.mem_singleton] at hel
          rcases hel with hel | hel
          · exact h2 _ (hq el hel)
          · rw [hel]; exact h3
        · simp only [hge, if_false] at hel
          exact h2 _ (hq el hel)
  · rw [if_neg hfc] at h
    have e := Option.some.inj h
    rw [← e]
    exact ⟨hc, Keeps_refl s, hq, n, hn, rfl, rfl⟩

/-- The part of a round of the loop of `SubstituteNode` that writes the right sibling: when it
returns, the store is well formed, it has the nodes that it had, and the nodes of the queue are
nodes of the store. -/
theorem rightPhase_safe (m : Memory) (s : TreeStorage) (hc : Consistent m s) (k : Int)
    (n : TreeNode) (hn : s.nodeAt k = some n) (hp : n.parent ≠ TREEPOINTER_DEALLOCATED)
    (rs : Int) (rqueue : List (Int × Int)) (hq : ∀ el ∈ rqueue, Alive s el.2)
    (b : TreeStorage × List (Int × Int))
    (h : (if rs ≠ -1 then
            if rs = -2 ∧ k = 0 then some (s, rqueue)
            else
              (s.writeUnknownRight k true).bind fun r =>
                if r.2 = -1 then none
                else some (r.1, if rs ≥ 0 then rqueue ++ [(rs, r.2)] else rqueue)
          else some (s, rqueue)) = some b) :
    Consistent m b.1 ∧ Keeps s b.1 ∧ (∀ el ∈ b.2, Alive b.1 el.2) := by
  by_cases hrs : rs ≠ -1
  · rw [if_pos hrs] at h
    by_cases hskip : rs = -2 ∧ k = 0
    · rw [if_pos hskip] at h
      have e := Option.some.inj h
      rw [← e]
      exact ⟨hc, Keeps_refl s, hq⟩
    · rw [if_neg hskip] at h
      cases hw : s.writeUnknownRight k true with
      | none => rw [hw] at h; exact Option.noConfusion h
      | some r =>
        rw [hw, Option.some_bind] at h
        obtain ⟨h1, h2, h3, _⟩ := writeUnknownRight_safe m s hc k true n hn hp r hw
        by_cases hr : r.2 = -1
        · rw [if_pos hr] at h; exact Option.noConfusion h
        · rw [if_neg hr] at h
          have e := Option.some.inj h
          rw [← e]
          refine ⟨h1, h2, ?_⟩
          intro el hel
          by_cases hge : rs ≥ 0
          · simp only [hge, if_true, List.mem_append, List.mem_singleton] at hel
            rcases hel with hel | hel
            · exact h2 _ (hq el hel)
            · rw [hel]; exact h3
          · simp only [hge, if_false] at hel
            exact h2 _ (hq el hel)
  · rw [if_neg hrs] at h
    have e := Option.some.inj h
    rw [← e]
    exact ⟨hc, Keeps_refl s, hq⟩

/-- The loop of `SubstituteNode` on an empty queue. -/
theorem substituteLoop_nil (subst : TreeSubstitution) (fuel : Nat) (s : TreeStorage) :
    TreeStorage.substituteLoop subst fuel s [] = some s := by
  cases fuel <;> rfl

/-- The loop of `SubstituteNode` without a round left. -/
theorem substituteLoop_zero (subst : TreeSubstitution) (s : TreeStorage) (el : Int × Int)
    (rqueue : List (Int × Int)) :
    TreeStorage.substituteLoop subst 0 s (el :: rqueue) = none := rfl

/-- One round of the loop of `SubstituteNode`. -/
theorem substituteLoop_succ (subst : TreeSubstitution) (fuel : Nat) (s : TreeStorage)
    (el : Int × Int) (rqueue : List (Int × Int)) :
    TreeStorage.substituteLoop subst (fuel + 1) s (el :: rqueue)
      = (if 0 ≤ el.1 then subst.data[el.1.toNat]? else none).bind fun n =>
        if n.type = EMPTY_NODE_LABEL then none
        else
          (s.modifyNode el.2 fun x => { x with type := n.type, value := n.value }).bind fun s1 =>
          (if n.first_child ≠ -1 then
              (s1.writeUnknownChild el.2).bind fun r =>
                if r.2 = -1 then none
                else some (r.1, if n.first_child ≥ 0 then rqueue ++ [(n.first_child, r.2)]
                                else rqueue)
            else some (s1, rqueue)).bind fun a =>
          (if n.right_sib ≠ -1 then
              if n.right_sib = -2 ∧ el.2 = 0 then some a
              else
                (a.1.writeUnknownRight el.2 true).bind fun r =>
                  if r.2 = -1 then none
                  else some (r.1, if n.right_sib ≥ 0 then a.2 ++ [(n.right_sib, r.2)] else a.2)
            else some a).bind fun b =>
          TreeStorage.substituteLoop subst fuel b.1 b.2 := rfl

/-- When the loop of `SubstituteNode` returns, on a well-formed store and a queue of nodes of
the store, the store is well formed. -/
theorem substituteLoop_safe (m : Memory) (subst : TreeSubstitution) :
    ∀ (fuel : Nat) (s : TreeStorage) (rqueue : List (Int × Int)) (s1 : TreeStorage),
      Consistent m s → (∀ el ∈ rqueue, Alive s el.2) →
      TreeStorage.substituteLoop subst fuel s rqueue = some s1 → Consistent m s1 := by
  intro fuel
  induction fuel with
  | zero =>
    intro s rqueue s1 hc _ h
    cases rqueue with
    | nil =>
      rw [substituteLoop_nil] at h
      rw [← Option.some.inj h]
      exact hc
    | cons el rest =>
      rw [substituteLoop_zero] at h
      exact Option.noConfusion h
  | succ fuel ih =>
    intro s rqueue s1 hc hq h
    cases rqueue with
    | nil =>
      rw [substituteLoop_nil] at h
      rw [← Option.some.inj h]
      exact hc
    | cons el rest =>
      rw [substituteLoop_succ] at h
      cases hd : (if 0 ≤ el.1 then subst.data[el.1.toNat]? else none) with
      | none => rw [hd] at h; exact Option.noConfusion h
      | some d =>
        rw [hd, Option.some_bind] at h
        by_cases hty : d.type = EMPTY_NODE_LABEL
        · rw [if_pos hty] at h; exact Option.noConfusion h
        rw [if_neg hty] at h
        obtain ⟨x, hx, hxp⟩ := hq el (List.mem_cons_self _ _)
        obtain ⟨s2, hmod, hc2, hat2⟩ := relabel_spec m s hc el.2 x hx hxp d.type d.value
        have hk2 := Keeps_relabel s s2 el.2 x d.type d.value hx hat2
        have hx2 := hat2 el.2
        rw [if_pos rfl] at hx2
        rw [hmod, Option.some_bind] at h
        cases ha : (if d.first_child ≠ -1 then
            (s2.writeUnknownChild el.2).bind fun r =>
              if r.2 = -1 then none
              else some (r.1, if d.first_child ≥ 0 then rest ++ [(d.first_child, r.2)]
                              else rest)
          else some (s2, rest)) with
        | none => rw [ha] at h; exact Option.noConfusion h
        | some a =>
          rw [ha, Option.some_bind] at h
          obtain ⟨hc3, hk3, hq3, n3, hn3, hn3p, _⟩ := childPhase_safe m s2 hc2 el.2 _ hx2 hxp
            d.first_child rest (fun e he => hk2 _ (hq e (List.mem_cons_of_mem _ he))) a ha
          have hn3d : n3.parent ≠ TREEPOINTER_DEALLOCATED := by
            rw [hn3p]; exact hxp
          cases hb : (if d.right_sib ≠ -1 then
              if d.right_sib = -2 ∧ el.2 = 0 then some a
              else
                (a.1.writeUnknownRight el.2 true).bind fun r =>
                  if r.2 = -1 then none
                  else some (r.1, if d.right_sib ≥ 0 then a.2 ++ [(d.right_sib, r.2)]
                                  else a.2)
            else some a) with
          | none => rw [hb] at h; exact Option.noConfusion h
          | some b =>
            rw [hb, Option.some_bind] at h
            obtain ⟨hc4, _, hq4⟩ := rightPhase_safe m a.1 hc3 el.2 n3 hn3 hn3d d.right_sib a.2
              hq3 b hb
            exact ih b.1 b.2 s1 hc4 hq4 h

/-- When `SubstituteNode` returns, at a node of a well-formed store and with enough rounds for
the loops of `RemoveNodeChildren`, the store is well formed. -/
theorem SubstituteNode_safe (m : Memory) (s : TreeStorage) (hc : Consistent m s) (k : Int)
    (hk : Alive s k) (fuel : Nat) (hfuel : s.nodes_.length ≤ fuel) (subst : TreeSubstitution)
    (s1 : TreeStorage) (h : s.SubstituteNode fuel k subst = some s1) : Consistent m s1 := by
  obtain ⟨n, hn, hp⟩ := hk
  unfold TreeStorage.SubstituteNode at h
  by_cases hl : subst.data.length = 0
  · rw [if_pos hl] at h
    obtain ⟨h1, h2⟩ := RemoveNode_spec m s hc k n hn hp fuel hfuel
    by_cases hcase : k = 0 ∨ n.right_sib < 0
    · obtain ⟨s2, hs2, hc2⟩ := h1 hcase
      rw [hs2] at h
      rw [← Option.some.inj h]
      exact hc2
    · rw [h2 (fun e => hcase (Or.inl e)) (by omega)] at h
      exact Option.noConfusion h
  · rw [if_neg hl] at h
    obtain ⟨s2, hs2, hc2, hat2⟩ := RemoveNodeChildren_total m s hc k n hn hp fuel hfuel
    rw [hs2, Option.some_bind] at h
    apply substituteLoop_safe m subst fuel s2 [(0, k)] s1 hc2 _ h
    intro el hel
    rw [List.mem_singleton.mp hel]
    exact ⟨_, hat2, hp⟩

/-- When `SubstituteSingleNode` returns, at a node of a well-formed store and with enough
rounds for the loops of `RemoveNodeChildren`, the store is well formed. -/
theorem SubstituteSingleNode_safe (m : Memory) (s : TreeStorage) (hc : Consistent m s)
    (k : Int) (hk : Alive s k) (fuel : Nat) (hfuel : s.nodes_.length ≤ fuel)
    (node : TreeSubstitution.Node) (s1 : TreeStorage)
    (h : s.SubstituteSingleNode fuel k node = some s1) : Consistent m s1 := by
  obtain ⟨n, hn, hp⟩ := hk
  unfold TreeStorage.SubstituteSingleNode at h
  obtain ⟨s2, hs2, hc2, hat2⟩ := RemoveNodeChildren_total m s hc k n hn hp fuel hfuel
  rw [hs2, Option.some_bind] at h
  obtain ⟨s3, hmod, hc3, hat3⟩ := relabel_spec m s2 hc2 k _ hat2 hp node.type node.value
  have hx3 := hat3 k
  rw [if_pos rfl] at hx3
  rw [hmod, Option.some_bind] at h
  cases ha : (if node.first_child ≠ -1 then (s3.writeUnknownChild k).map Prod.fst
      else some s3) with
  | none => rw [ha] at h; exact Option.noConfusion h
  | some s4 =>
    rw [ha, Option.some_bind] at h
    have h4 : Consistent m s4 ∧ ∃ n4, s4.nodeAt k = some n4 ∧ n4.parent = n.parent := by
      by_cases hfc : node.first_child ≠ -1
      · rw [if_pos hfc] at ha
        cases hw : s3.writeUnknownChild k with
        | none => rw [hw] at ha; exact Option.noConfusion ha
        | some r =>
          rw [hw, Option.map_some'] at ha
          obtain ⟨g1, _, _, n4, g4, g5, _⟩ := writeUnknownChild_safe m s3 hc3 k _ hx3 hp r hw
          rw [← Option.some.inj ha]
          exact ⟨g1, n4, g4, g5⟩
      · rw [if_neg hfc] at ha
        rw [← Option.some.inj ha]
        exact ⟨hc3, _, hx3, rfl⟩
    obtain ⟨hc4, n4, hn4, hn4p⟩ := h4
    by_cases hrs : node.right_sib ≠ -1 ∧ k ≠ 0
    · rw [if_pos hrs] at h
      cases hw : s4.writeUnknownRight k false with
      | none => rw [hw] at h; exact Option.noConfusion h
      | some r =>
        rw [hw, Option.map_some'] at h
        obtain ⟨g1, _⟩ := writeUnknownRight_safe m s4 hc4 k false n4 hn4
          (by rw [hn4p]; exact hp) r hw
        rw [← Option.some.inj h]
        exact g1
    · rw [if_neg hrs] at h
      rw [← Option.some.inj h]
      exact hc4

/-- When `SubstituteNodeType` returns, at a node of a well-formed store and with enough rounds
for the loops of `RemoveNodeChildren`, the store is well formed. -/
theorem SubstituteNodeType_safe (m : Memory) (s : TreeStorage) (hc : Consistent m s)
    (k : Int) (hk : Alive s k) (fuel : Nat) (hfuel : s.nodes_.length ≤ fuel) (type : Int)
    (s1 : TreeStorage) (h : s.SubstituteNodeType fuel k type = some s1) : Consistent m s1 := by
  obtain ⟨n, hn, hp⟩ := hk
  unfold TreeStorage.SubstituteNodeType at h
  by_cases hl : type = EMPTY_NODE_LABEL
  · rw [if_pos hl] at h
    obtain ⟨h1, h2⟩ := RemoveNode_spec m s hc k n hn hp fuel hfuel
    by_cases hcase : k = 0 ∨ n.right_sib < 0
    · obtain ⟨s2, hs2, hc2⟩ := h1 hcase
      rw [hs2] at h
      rw [← Option.some.inj h]
      exact hc2
    · rw [h2 (fun e => hcase (Or.inl e)) (by omega)] at h
      exact Option.noConfusion h
  · rw [if_neg hl] at h
    obtain ⟨s2, hs2, hc2, hat2⟩ := RemoveNodeChildren_total m s hc k n hn hp fuel hfuel
    rw [hs2, Option.some_bind] at h
    obtain ⟨s3, hmod, hc3, hat3⟩ := relabel_spec m s2 hc2 k _ hat2 hp type UNKNOWN_LABEL
    have hx3 := hat3 k
    rw [if_pos rfl] at hx3
    rw [hmod, Option.some_bind] at h
    cases hw : s3.writeUnknownChild k with
    | none => rw [hw] at h; exact Option.noConfusion h
    | some r =>
      rw [hw, Option.some_bind] at h
      obtain ⟨hc4, _, _, n4, hn4, hn4p, _⟩ := writeUnknownChild_safe m s3 hc3 k _ hx3 hp r hw
      by_cases hk0 : k ≠ 0
      · rw [if_pos hk0] at h
        cases hw2 : r.1.writeUnknownRight k false with
        | none => rw [hw2] at h; exact Option.noConfusion h
        | some r2 =>
          rw [hw2, Option.map_some'] at h
          obtain ⟨g1, _⟩ := writeUnknownRight_safe m r.1 hc4 k false n4 hn4
            (by rw [hn4p]; exact hp) r2 hw2
          rw [← Option.some.inj h]
          exact g1
      · rw [if_neg hk0] at h
        rw [← Option.some.inj h]
        exact hc4

/-- When a call that changes a store returns, at a node of a well-formed store and with enough
rounds for the loops of `RemoveNodeChildren`, the store is well formed. -/
theorem Mutation_safe (m : Memory) (s : TreeStorage) (hc : Consistent m s) ( call : Mutation)
    (hk : Alive s call.node_id) (fuel : Nat) (hfuel : s.nodes_.length ≤ fuel)
    (s1 : TreeStorage) (h : call.run fuel s = some s1) : Consistent m s1 := by
  cases call with
  | substituteNode k subst => exact SubstituteNode_safe m s hc k hk fuel hfuel subst s1 h
  | substituteSingleNode k node =>
    exact SubstituteSingleNode_safe m s hc k hk fuel hfuel node s1 h
  | substituteNodeType k type => exact SubstituteNodeType_safe m s hc k hk fuel hfuel type s1 h
  | removeNode k =>
    obtain ⟨n, hn, hp⟩ := hk
    obtain ⟨h1, h2⟩ := RemoveNode_spec m s hc k n hn hp fuel hfuel
    have h' : s.RemoveNode fuel k = some s1 := h
    by_cases hcase : k = 0 ∨ n.right_sib < 0
    · obtain ⟨s2, hs2, hc2⟩ := h1 hcase
      rw [hs2] at h'
      rw [← Option.some.inj h']
      exact hc2
    · rw [h2 (fun e => hcase (Or.inl e)) (by omega)] at h'
      exact Option.noConfusion h'
  | removeNodeChildren k =>
    obtain ⟨n, hn, hp⟩ := hk
    obtain ⟨s2, hs2, hc2, _⟩ := RemoveNodeChildren_total m s hc k n hn hp fuel hfuel
    have h' : s.RemoveNodeChildren fuel k = some s1 := h
    rw [hs2] at h'
    rw [← Option.some.inj h']
    exact hc2

/-- The test `isAlive` is right. -/
theorem isAlive_sound (s : TreeStorage) (k : Int) (h : s.isAlive k = true) : Alive s k := by
  unfold TreeStorage.isAlive at h
  cases hn : s.nodeAt k with
  | none => rw [hn] at h; exact absurd h (by decide)
  | some n =>
    rw [hn] at h
    exact ⟨n, hn, of_decide_eq_true h⟩

/-- The store that `reachCheck` returns is made by a sequence of calls. -/
theorem reachCheck_sound (m : Memory) (fuel : Nat) ( calls : List Mutation) :
    ∀ (s s1 : TreeStorage), Reachable m fuel s → reachCheck fuel s calls = some s1 →
      Reachable m fuel s1 := by
  induction calls with
  | nil =>
    intro s s1 hs h
    rw [reachCheck] at h
    rw [← Option.some.inj h]
    exact hs
  | cons call rest ih =>
    intro s s1 hs h
    rw [reachCheck] at h
    by_cases hcond : s.isAlive call.node_id = true ∧ s.nodes_.length ≤ fuel
    · rw [if_pos hcond] at h
      cases hr : call.run fuel s with
      | none => rw [hr] at h; exact Option.noConfusion h
      | some s2 =>
        rw [hr, Option.some_bind] at h
        exact ih s2 s1 (Reachable.step s s2 call hs (isAlive_sound s _ hcond.1) hcond.2 hr) h
    · rw [if_neg hcond] at h
      exact Option.noConfusion h

/-- The store of the constructor `TreeStorage()` is well formed. -/
theorem WF_create (m : Memory) : WF m TreeStorage.create UNKNOWN_LABEL (-1) .eps [] [] :=
  ⟨_, rfl, rfl, rfl, by decide, by decide, by decide, by decide, rfl, ⟨rfl, rfl, rfl⟩,
    ⟨rfl, List.nodup_nil⟩, List.nodup_nil, List.not_mem_nil _, rfl⟩

/-- The store of the constructor `TreeStorage(parent, position_in_parent)` is well formed. -/
theorem Consistent_createAttached (m : Memory) (a : Nat) (sp : Int) (s : TreeStorage)
    (h : TreeStorage.createAttached m a sp = some s) : Consistent m s := by
  cases hm : m[a]? with
  | none =>
    unfold TreeStorage.createAttached Memory.nodeAt at h
    simp only [hm, Option.none_bind, Option.map_none'] at h
    exact Option.noConfusion h
  | some self =>
    cases hpn : self.nodeAt sp with
    | none =>
      unfold TreeStorage.createAttached Memory.nodeAt at h
      simp only [hm, Option.some_bind, hpn, Option.map_none'] at h
      exact Option.noConfusion h
    | some pn =>
      obtain ⟨r0, hcr, _, g2, g3, g4, g5, g6, g7⟩ := createAttached_spec m a self sp pn hm hpn
      rw [hcr] at h
      rw [← Option.some.inj h]
      exact ⟨_, _, _, _, _, WF_single m a self sp pn r0 hm hpn g2 g3 g4 g5 g6 g7⟩

/-- Claim C11. A store that a sequence of calls of `SubstituteNode`, `SubstituteSingleNode`,
`SubstituteNodeType`, `RemoveNode` and `RemoveNodeChildren` makes from a store of a
constructor, each call at a node that is not deallocated and returning, is well formed: it
holds a tree `T` below its root in which the links `parent`, `first_child`, `last_child`,
`left_sib` and `right_sib` agree and each child index is one more than that of the left
sibling, 0 for a first child; its free list has no slot twice and holds only slots that are
marked deallocated; and every slot is the root, a node of the tree or a slot of the free list,
and only one of these. So the consistency check passes at every depth that is more than the
height of `T`. -/
theorem mutations_keep_the_store_consistent (m : Memory) (fuel : Nat) (s : TreeStorage)
    (h : Reachable m fuel s) :
    ∃ (ty v : Int) (T : FT) (L F : List Nat), WF m s ty v T L F ∧
      ∀ depth, T.height < depth → s.checkConsistencyAt m depth = some () := by
  have hc : Consistent m s := by
    induction h with
    | fresh => exact ⟨_, _, _, _, _, WF_create m⟩
    | attached a sp s h => exact Consistent_createAttached m a sp s h
    | step s s1 call _ hk hfuel hrun ih => exact Mutation_safe m s ih call hk fuel hfuel s1 hrun
  obtain ⟨ty, v, T, L, F, hwf⟩ := hc
  exact ⟨ty, v, T, L, F, hwf, fun depth hd => WF_check m s ty v T L F hwf depth hd⟩

theorem mutations_keep_the_store_consistent_witness :
    reachCheck 20 TreeStorage.create mutation_calls = some mutated_store ∧
    ∃ (ty v : Int) (T : FT) (L F : List Nat), WF [] mutated_store ty v T L F ∧
      ∀ depth, T.height < depth → mutated_store.checkConsistencyAt [] depth = some () :=
  ⟨by decide,
   mutations_keep_the_store_consistent [] 20 mutated_store
     (reachCheck_sound [] 20 mutation_calls TreeStorage.create mutated_store Reachable.fresh
       (by decide))⟩

/-! ## The tree of a substitution -/

/-- More rounds give the same tree. -/
theorem unfold_mono (subst : TreeSubstitution) :
    ∀ (fuel fuel1 : Nat) (idx : Int) (t : FT), subst.unfold fuel idx = some t →
      fuel ≤ fuel1 → subst.unfold fuel1 idx = some t := by
  intro fuel
  induction fuel with
  | zero => intro fuel1 idx t h; exact Option.noConfusion h
  | succ fuel ih =>
    intro fuel1 idx t h hle
    obtain ⟨f, rfl⟩ : ∃ f, fuel1 = f + 1 := ⟨fuel1 - 1, by omega⟩
    rw [TreeSubstitution.unfold] at h ⊢
    by_cases h1 : idx = -1
    · rw [if_pos h1] at h ⊢; exact h
    rw [if_neg h1] at h ⊢
    by_cases h2 : idx = -2
    · rw [if_pos h2] at h ⊢; exact h
    rw [if_neg h2] at h ⊢
    by_cases h3 : 0 ≤ idx
    · rw [if_pos h3] at h ⊢
      cases hd : subst.data[idx.toNat]? with
      | none => rw [hd] at h; exact Option.noConfusion h
      | some d =>
        rw [hd, Option.some_bind] at h
        cases hc : subst.unfold fuel d.first_child with
        | none => rw [hc] at h; exact Option.noConfusion h
        | some c =>
          rw [hc, Option.some_bind] at h
          cases hs : subst.unfold fuel d.right_sib with
          | none => rw [hs] at h; exact Option.noConfusion h
          | some sb =>
            rw [hs] at h
            simp only [Option.some_bind, ih f _ c hc (by omega), ih f _ sb hs (by omega)]
            exact h
    · rw [if_neg h3] at h; exact Option.noConfusion h

/-- The tree of an entry is determined. -/
theorem Unfolds_determined (subst : TreeSubstitution) (idx : Int) (t t1 : FT)
    (h : Unfolds subst idx t) (h1 : Unfolds subst idx t1) : t = t1 := by
  obtain ⟨f, hf⟩ := h
  obtain ⟨f1, hf1⟩ := h1
  have e := unfold_mono subst f (max f f1) idx t hf (le_max_left _ _)
  have e1 := unfold_mono subst f1 (max f f1) idx t1 hf1 (le_max_right _ _)
  rw [e] at e1
  exact Option.some.inj e1

/-- The tree of an entry: its type and value, the tree of its first child and the tree of its
right sibling. -/
theorem Unfolds_entry (subst : TreeSubstitution) (idx : Int) (t : FT) (h : Unfolds subst idx t)
    (h0 : 0 ≤ idx) :
    ∃ d c sb, subst.data[idx.toNat]? = some d ∧ t = .node d.type d.value c sb ∧
      Unfolds subst d.first_child c ∧ Unfolds subst d.right_sib sb := by
  obtain ⟨f, hf⟩ := h
  cases f with
  | zero => exact Option.noConfusion hf
  | succ f =>
    rw [TreeSubstitution.unfold, if_neg (by omega), if_neg (by omega), if_pos h0] at hf
    cases hd : subst.data[idx.toNat]? with
    | none => rw [hd] at hf; exact Option.noConfusion hf
    | some d =>
      rw [hd, Option.some_bind] at hf
      cases hc : subst.unfold f d.first_child with
      | none => rw [hc] at hf; exact Option.noConfusion hf
      | some c =>
        rw [hc, Option.some_bind] at hf
        cases hs : subst.unfold f d.right_sib with
        | none => rw [hs] at hf; exact Option.noConfusion hf
        | some sb =>
          rw [hs, Option.map_some'] at hf
          exact ⟨d, c, sb, rfl, (Option.some.inj hf).symm, ⟨f, hc⟩, ⟨f, hs⟩⟩

/-- The tree of a marker: nothing for -1, an unknown node for another one, which is -2. -/
theorem Unfolds_marker (subst : TreeSubstitution) (idx : Int) (t : FT)
    (h : Unfolds subst idx t) (h0 : idx < 0) :
    (idx = -1 ∧ t = .eps) ∨
      (idx = -2 ∧ t = .node UNKNOWN_LABEL UNKNOWN_LABEL .eps .eps) := by
  obtain ⟨f, hf⟩ := h
  cases f with
  | zero => exact Option.noConfusion hf
  | succ f =>
    rw [TreeSubstitution.unfold] at hf
    by_cases h1 : idx = -1
    · rw [if_pos h1] at hf
      exact Or.inl ⟨h1, (Option.some.inj hf).symm⟩
    rw [if_neg h1] at hf
    by_cases h2 : idx = -2
    · rw [if_pos h2] at hf
      exact Or.inr ⟨h2, (Option.some.inj hf).symm⟩
    rw [if_neg h2, if_neg (by omega)] at hf
    exact Option.noConfusion hf

/-- A chain is read along the links. -/
theorem Chain_Reads (s : TreeStorage) (t : FT) :
    ∀ (id p ls ci : Int) (L : List Nat) (last : Int),
      Chain s t id p ls ci L last → Reads s t id := by
  induction t with
  | eps =>
    intro id p ls ci L last h
    have : id = -1 := h.1
    show id < 0
    omega
  | node ty v c sb ihc ihs =>
    intro id p ls ci L last h
    obtain ⟨_, n, Lc, Ls, hn, hnt, hnv, _, _, _, hcc, hcs, _⟩ := h
    exact ⟨n, hn, hnt, hnv, ihc _ _ _ _ _ _ hcc, ihs _ _ _ _ _ _ hcs⟩

/-- The tree that is read from a node is determined. -/
theorem Reads_determined (s : TreeStorage) (t : FT) :
    ∀ (t1 : FT) (id : Int), Reads s t id → Reads s t1 id → t = t1 := by
  induction t with
  | eps =>
    intro t1 id h h1
    cases t1 with
    | eps => rfl
    | node _ _ _ _ =>
      obtain ⟨n, hn, _⟩ := h1
      have h0 : id < 0 := h
      rw [nodeAt_neg s id h0] at hn
      exact Option.noConfusion hn
  | node ty v c sb ihc ihs =>
    intro t1 id h h1
    obtain ⟨n, hn, hnt, hnv, hc, hs⟩ := h
    cases t1 with
    | eps =>
      have h0 : id < 0 := h1
      rw [nodeAt_neg s id h0] at hn
      exact Option.noConfusion hn
    | node ty1 v1 c1 sb1 =>
      obtain ⟨n1, hn1, hnt1, hnv1, hc1, hs1⟩ := h1
      rw [hn] at hn1
      cases hn1
      rw [ihc c1 _ hc hc1, ihs sb1 _ hs hs1, ← hnt, ← hnv, hnt1, hnv1]

/-- With an empty queue, a tree that is read with the waiting nodes is read. -/
theorem Partial_nil (subst : TreeSubstitution) (s : TreeStorage) (t : FT) :
    ∀ id, Partial subst s [] t id → Reads s t id := by
  induction t with
  | eps => intro id h; exact h
  | node ty v c sb ihc ihs =>
    intro id h
    rcases h with ⟨e, he, _⟩ | ⟨n, hn, _, _, hnt, hnv, hc, hs⟩
    · exact absurd he (List.not_mem_nil _)
    · exact ⟨n, hn, hnt, hnv, ihc _ hc, ihs _ hs⟩

theorem Frame_refl (s : TreeStorage) (x : Int) : Frame s s x :=
  fun _ n hn _ _ => ⟨n, hn, rfl, rfl, rfl, rfl, rfl⟩

theorem Frame_trans (s s1 s2 : TreeStorage) (x : Int) (h1 : Frame s s1 x)
    (h2 : Frame s1 s2 x) : Frame s s2 x := by
  intro j n hn hp hj
  obtain ⟨n1, hn1, a1, a2, a3, a4, a5⟩ := h1 j n hn hp hj
  obtain ⟨n2, hn2, b1, b2, b3, b4, b5⟩ := h2 j n1 hn1 (by rw [a5]; exact hp) hj
  exact ⟨n2, hn2, by rw [b1, a1], by rw [b2, a2], by rw [b3, a3], by rw [b4, a4],
    by rw [b5, a5]⟩

/-- A node that is not deallocated is not deallocated after a step that keeps its parent. -/
theorem Frame_Keeps (s s1 : TreeStorage) (x : Int) (h : Frame s s1 x) (hx : Alive s x → Alive s1 x) :
    Keeps s s1 := by
  rintro j ⟨n, hn, hp⟩
  by_cases hj : j = x
  · rw [hj]
    exact hx (by rw [← hj]; exact ⟨n, hn, hp⟩)
  · obtain ⟨n1, hn1, _, _, _, _, h5⟩ := h j n hn hp hj
    exact ⟨n1, hn1, by rw [h5]; exact hp⟩

/-- The part of a round of the loop of `SubstituteNode` that writes the first child, at a node
that is not empty and has no child: for the marker -1 nothing changes; otherwise a new node with
the type and the value `UNKNOWN_LABEL` is the only child, and it goes to the queue when the
marker is an entry. -/
theorem childPhase_spec (m : Memory) (s : TreeStorage) (hc : Consistent m s) (x : Int)
    (nx : TreeNode) (hx : s.nodeAt x = some nx) (hp : nx.parent ≠ TREEPOINTER_DEALLOCATED)
    (hty : nx.type ≠ EMPTY_NODE_LABEL) (hfc : nx.first_child < 0) (fc : Int)
    (rqueue : List (Int × Int)) :
    ∃ (a : TreeStorage × List (Int × Int)) (nx1 : TreeNode),
      (if fc ≠ -1 then
          (s.writeUnknownChild x).bind fun r =>
            if r.2 = -1 then none
            else some (r.1, if fc ≥ 0 then rqueue ++ [(fc, r.2)] else rqueue)
        else some (s, rqueue)) = some a ∧
      Consistent m a.1 ∧ Frame s a.1 x ∧ a.1.nodeAt x = some nx1 ∧ nx1.type = nx.type ∧
      nx1.value = nx.value ∧ nx1.right_sib = nx.right_sib ∧ nx1.parent = nx.parent ∧
      (fc = -1 → a = (s, rqueue) ∧ nx1.first_child < 0) ∧
      (fc ≠ -1 → ∃ y : Int, 0 < y ∧ ¬ Alive s y ∧ nx1.first_child = y ∧
        a.1.nodeAt y = some ⟨UNKNOWN_LABEL, UNKNOWN_LABEL, x, -1, -1, -1, -1, 0⟩ ∧
        a.2 = if fc ≥ 0 then rqueue ++ [(fc, y)] else rqueue) := by
  have hx0 : 0 ≤ x := (nodeAt_some_bounds s x nx hx).1
  by_cases h1 : fc = -1
  · refine ⟨(s, rqueue), nx, ?_, hc, Frame_refl s x, hx, rfl, rfl, rfl, rfl,
      fun _ => ⟨rfl, hfc⟩, fun h => absurd h1 h⟩
    rw [if_neg (fun h => h h1)]
  · obtain ⟨s1, y, hw, hc1, hy0, hyA, hyx, hat_y, hat_x, hfr⟩ :=
      writeUnknownChild_new m s hc x nx hx hp hty hfc
    refine ⟨(s1, if fc ≥ 0 then rqueue ++ [(fc, (y : Int))] else rqueue), _, ?_, hc1, ?_, hat_x,
      rfl, rfl, rfl, rfl, fun h => absurd h h1,
      fun _ => ⟨(y : Int), by omega, hyA, rfl, hat_y, rfl⟩⟩
    · rw [if_pos h1, hw, Option.some_bind, if_neg (by show ¬ (y : Int) = -1; omega)]
    · intro j n hn hnp hj
      have hjy : j ≠ (y : Int) := by
        intro e
        rw [e] at hn
        exact hyA ⟨n, hn, hnp⟩
      exact ⟨n, by rw [hfr j hjy hj, hn], rfl, rfl, rfl, rfl, rfl⟩

/-- The part of a round of the loop of `SubstituteNode` that writes the right sibling, at a node
that is not empty, is not the root and has no right sibling: for the marker -1 nothing changes;
otherwise a new node with the type and the value `UNKNOWN_LABEL` is the right sibling, and it
goes to the queue when the marker is an entry. -/
theorem rightPhase_spec (m : Memory) (s : TreeStorage) (hc : Consistent m s) (x : Int)
    (nx : TreeNode) (hx : s.nodeAt x = some nx) (hp : nx.parent ≠ TREEPOINTER_DEALLOCATED)
    (hty : nx.type ≠ EMPTY_NODE_LABEL) (hx0 : x ≠ 0) (hrs : nx.right_sib < 0) (rs : Int)
    (rqueue : List (Int × Int)) :
    ∃ (b : TreeStorage × List (Int × Int)) (nx1 : TreeNode),
      (if rs ≠ -1 then
          if rs = -2 ∧ x = 0 then some (s, rqueue)
          else
            (s.writeUnknownRight x true).bind fun r =>
              if r.2 = -1 then none
              else some (r.1, if rs ≥ 0 then rqueue ++ [(rs, r.2)] else rqueue)
        else some (s, rqueue)) = some b ∧
      Consistent m b.1 ∧ Frame s b.1 x ∧ b.1.nodeAt x = some nx1 ∧ nx1.type = nx.type ∧
      nx1.value = nx.value ∧ nx1.first_child = nx.first_child ∧ nx1.parent = nx.parent ∧
      (rs = -1 → b = (s, rqueue) ∧ nx1.right_sib < 0) ∧
      (rs ≠ -1 → ∃ z : Int, 0 < z ∧ ¬ Alive s z ∧ nx1.right_sib = z ∧
        (∃ nz, b.1.nodeAt z = some nz ∧ nz.type = UNKNOWN_LABEL ∧ nz.value = UNKNOWN_LABEL ∧
          nz.first_child = -1 ∧ nz.right_sib = -1 ∧ nz.parent = nx.parent) ∧
        b.2 = if rs ≥ 0 then rqueue ++ [(rs, z)] else rqueue) := by
  by_cases h1 : rs = -1
  · refine ⟨(s, rqueue), nx, ?_, hc, Frame_refl s x, hx, rfl, rfl, rfl, rfl,
      fun _ => ⟨rfl, hrs⟩, fun h => absurd h1 h⟩
    rw [if_neg (fun h => h h1)]
  · obtain ⟨s1, z, pn, hpn, hw, hc1, hz0, hzA, hzx, hzp, hat_z, hat_x, hat_p, hfr⟩ :=
      writeUnknownRight_new m s hc x true nx hx hp hx0 hty hrs
    refine ⟨(s1, if rs ≥ 0 then rqueue ++ [(rs, (z : Int))] else rqueue), _, ?_, hc1, ?_, hat_x,
      rfl, rfl, rfl, rfl, fun h => absurd h h1,
      fun _ => ⟨(z : Int), by omega, hzA, rfl, ⟨_, hat_z, rfl, rfl, rfl, rfl, rfl⟩, rfl⟩⟩
    · rw [if_pos h1, if_neg (fun h => hx0 h.2), hw, Option.some_bind,
        if_neg (by show ¬ (z : Int) = -1; omega)]
    · intro j n hn hnp hj
      have hjz : j ≠ (z : Int) := by
        intro e
        rw [e] at hn
        exact hzA ⟨n, hn, hnp⟩
      by_cases hjp : j = nx.parent
      · rw [hjp, hpn] at hn
        have e : pn = n := Option.some.inj hn
        rw [← e]
        have h2 := hat_p
        rw [← hjp] at h2
        exact ⟨_, h2, rfl, rfl, rfl, rfl, rfl⟩
      · exact ⟨n, by rw [hfr j hjz hj hjp, hn], rfl, rfl, rfl, rfl, rfl⟩

/-- The tree of a marker or of an entry is read at a link of a node after its round: nothing
for -1, the new unknown node for -2, and the new node that waits in the queue for an entry. -/
theorem Partial_link (subst : TreeSubstitution) (s : TreeStorage) (rqueue : List (Int × Int))
    (idx : Int) (c : FT) (id : Int) (hU : Unfolds subst idx c) (h1 : idx = -1 → id < 0)
    (h2 : idx ≠ -1 → ∃ ny, s.nodeAt id = some ny ∧ ny.parent ≠ TREEPOINTER_DEALLOCATED ∧
      ny.type = UNKNOWN_LABEL ∧ ny.value = UNKNOWN_LABEL ∧ ny.first_child < 0 ∧
      ny.right_sib < 0)
    (h3 : 0 ≤ idx → (idx, id) ∈ rqueue) (h4 : idx = -2 → ∀ e, (e, id) ∉ rqueue) :
    Partial subst s rqueue c id := by
  by_cases h0 : 0 ≤ idx
  · obtain ⟨d, c1, sb1, _, hc, _, _⟩ := Unfolds_entry subst idx c hU h0
    subst hc
    exact Or.inl ⟨idx, h3 h0, hU⟩
  · rcases Unfolds_marker subst idx c hU (by omega) with ⟨e1, e2⟩ | ⟨e1, e2⟩
    · subst e2
      exact h1 e1
    · subst e2
      obtain ⟨ny, hny, hp, g1, g2, g3, g4⟩ := h2 (by omega)
      exact Or.inr ⟨ny, hny, hp, h4 e1, g1, g2, g3, g4⟩

/-- Two lists that are related element by element are so with the elements of the first list
known to be its elements. -/
theorem Forall₂_mem {α β : Type} (R : α → β → Prop) (l1 : List α) (l2 : List β)
    (h : List.Forall₂ R l1 l2) : List.Forall₂ (fun a b => R a b ∧ a ∈ l1) l1 l2 := by
  induction h with
  | nil => exact List.Forall₂.nil
  | cons hab _ ih =>
    exact List.Forall₂.cons ⟨hab, List.mem_cons_self _ _⟩
      (List.Forall₂.imp (fun _ _ hr => ⟨hr.1, List.mem_cons_of_mem _ hr.2⟩) ih)

/-- One round of the loop of `SubstituteNode` at a node that waits for an entry: the node gets
the type and the value of the entry, new nodes are made for its markers and go to the queue for
its entries, the other nodes keep their links, and a tree that was read with the waiting nodes
is read so after the round. -/
theorem round_spec (m : Memory) (subst : TreeSubstitution) (s : TreeStorage) (e0 x : Int)
    (rest : List (Int × Int)) (t : FT) (ts : List FT)
    (hinv : QueueInv m subst s ((e0, x) :: rest) (t :: ts)) :
    ∃ (s1 : TreeStorage) (Q1 : List (Int × Int)) (ts1 : List FT),
      (∀ fuel, TreeStorage.substituteLoop subst (fuel + 1) s ((e0, x) :: rest)
        = TreeStorage.substituteLoop subst fuel s1 Q1) ∧
      QueueInv m subst s1 Q1 ts1 ∧ (ts1.map FT.size).sum + 1 ≤ ((t :: ts).map FT.size).sum ∧
      Frame s s1 x ∧ Keeps s s1 ∧
      (∀ t1 id, Partial subst s ((e0, x) :: rest) t1 id → Partial subst s1 Q1 t1 id) := by
  obtain ⟨hc, hnd, hall⟩ := hinv
  obtain ⟨⟨he0, hunf, hne, hpend⟩, hrest⟩ := List.forall₂_cons.mp hall
  obtain ⟨nx, hx, hp, hx0, hfc, hrs⟩ := hpend
  obtain ⟨d, c, sb, hd, ht, hUc, hUs⟩ := Unfolds_entry subst e0 t hunf he0
  subst ht
  obtain ⟨hdty, hcne, hsne⟩ := hne
  have hndr : (rest.map Prod.snd).Nodup := (List.nodup_cons.mp hnd).2
  have hxr : x ∉ rest.map Prod.snd := (List.nodup_cons.mp hnd).1
  -- the type and the value
  obtain ⟨s2, hmod, hc2, hat2⟩ := relabel_spec m s hc x nx hx hp d.type d.value
  have hx2 : s2.nodeAt x = some { nx with type := d.type, value := d.value } := by
    rw [hat2, if_pos rfl]
  have hF2 : Frame s s2 x := fun j n hn _ hj =>
    ⟨n, by rw [hat2, if_neg hj, hn], rfl, rfl, rfl, rfl, rfl⟩
  have hK2 : Keeps s s2 := Keeps_relabel s s2 x nx d.type d.value hx hat2
  -- the first child
  obtain ⟨a, nx3, ha, hc3, hF3, hx3, e1, e2, e3, e4, hfcA, hfcB⟩ :=
    childPhase_spec m s2 hc2 x _ hx2 hp hdty hfc d.first_child rest
  have hp3 : nx3.parent ≠ TREEPOINTER_DEALLOCATED := by rw [e4]; exact hp
  have hK3 : Keeps s2 a.1 := Frame_Keeps s2 a.1 x hF3 (fun _ => ⟨nx3, hx3, hp3⟩)
  -- the right sibling
  obtain ⟨b, nx4, hb, hc4, hF4, hx4, g1, g2, g3, g4, hrsA, hrsB⟩ :=
    rightPhase_spec m a.1 hc3 x nx3 hx3 hp3 (by rw [e1]; exact hdty) hx0
      (by rw [e3]; exact hrs) d.right_sib a.2
  have hp4 : nx4.parent ≠ TREEPOINTER_DEALLOCATED := by rw [g4]; exact hp3
  have hK4 : Keeps a.1 b.1 := Frame_Keeps a.1 b.1 x hF4 (fun _ => ⟨nx4, hx4, hp4⟩)
  have hF : Frame s b.1 x := Frame_trans s s2 b.1 x hF2 (Frame_trans s2 a.1 b.1 x hF3 hF4)
  have hK : Keeps s b.1 := Keeps_trans s s2 b.1 hK2 (Keeps_trans s2 a.1 b.1 hK3 hK4)
  -- the queue
  have hQa : a.2 = rest ++ (if 0 ≤ d.first_child then [(d.first_child, nx3.first_child)]
      else []) := by
    by_cases h1 : d.first_child = -1
    · rw [(hfcA h1).1, if_neg (by omega)]
      simp
    · obtain ⟨y, _, _, hy, _, hq⟩ := hfcB h1
      rw [hq, hy]
      by_cases h2 : 0 ≤ d.first_child
      · rw [if_pos h2, if_pos h2]
      · rw [if_neg h2, if_neg h2]
        simp
  have hQb : b.2 = a.2 ++ (if 0 ≤ d.right_sib then [(d.right_sib, nx4.right_sib)]
      else []) := by
    by_cases h1 : d.right_sib = -1
    · rw [(hrsA h1).1, if_neg (by omega)]
      simp
    · obtain ⟨z, _, _, hz, _, hq⟩ := hrsB h1
      rw [hq, hz]
      by_cases h2 : 0 ≤ d.right_sib
      · rw [if_pos h2, if_pos h2]
      · rw [if_neg h2, if_neg h2]
        simp
  -- the new nodes
  have hY : d.first_child ≠ -1 → 0 < nx3.first_child ∧ ¬ Alive s2 nx3.first_child ∧
      ∃ ny, b.1.nodeAt nx3.first_child = some ny ∧ ny.parent ≠ TREEPOINTER_DEALLOCATED ∧
        ny.type = UNKNOWN_LABEL ∧ ny.value = UNKNOWN_LABEL ∧ ny.first_child < 0 ∧
        ny.right_sib < 0 := by
    intro h1
    obtain ⟨y, hy0, hyA, hy, hat_y, _⟩ := hfcB h1
    rw [hy]
    have hx0' : 0 ≤ x := (nodeAt_some_bounds s x nx hx).1
    have hyx : y ≠ x := by
      intro e
      rw [e] at hyA
      exact hyA ⟨_, hx2, hp⟩
    have hyp : (⟨UNKNOWN_LABEL, UNKNOWN_LABEL, x, -1, -1, -1, -1, 0⟩ : TreeNode).parent
        ≠ TREEPOINTER_DEALLOCATED := by
      show x ≠ TREEPOINTER_DEALLOCATED
      intro e
      rw [e] at hx0'
      exact absurd hx0' (by decide)
    obtain ⟨ny, hny, k1, k2, k3, k4, k5⟩ := hF4 y _ hat_y hyp hyx
    refine ⟨hy0, hyA, ny, hny, by rw [k5]; exact hyp, k1, k2, ?_, ?_⟩
    · rw [k3]
      show (-1 : Int) < 0
      decide
    · rw [k4]
      show (-1 : Int) < 0
      decide
  have hZ : d.right_sib ≠ -1 → 0 < nx4.right_sib ∧ ¬ Alive a.1 nx4.right_sib ∧
      ∃ nz, b.1.nodeAt nx4.right_sib = some nz ∧ nz.parent ≠ TREEPOINTER_DEALLOCATED ∧
        nz.type = UNKNOWN_LABEL ∧ nz.value = UNKNOWN_LABEL ∧ nz.first_child < 0 ∧
        nz.right_sib < 0 := by
    intro h1
    obtain ⟨z, hz0, hzA, hz, ⟨nz, hnz, k1, k2, k3, k4, k5⟩, _⟩ := hrsB h1
    rw [hz]
    refine ⟨hz0, hzA, nz, hnz, by rw [k5]; exact hp3, k1, k2, ?_, ?_⟩
    · rw [k3]; decide
    · rw [k4]; decide
  have hmk1 : d.first_child < 0 → d.first_child = -1 ∨ d.first_child = -2 := by
    intro h
    rcases Unfolds_marker subst _ c hUc h with ⟨h1, _⟩ | ⟨h1, _⟩
    · exact Or.inl h1
    · exact Or.inr h1
  have hmk2 : d.right_sib < 0 → d.right_sib = -1 ∨ d.right_sib = -2 := by
    intro h
    rcases Unfolds_marker subst _ sb hUs h with ⟨h1, _⟩ | ⟨h1, _⟩
    · exact Or.inl h1
    · exact Or.inr h1
  -- the nodes of the old queue are not the new nodes
  have hrestA : ∀ el ∈ rest, Alive s el.2 := by
    intro el hel
    obtain ⟨i, hi, hi2⟩ := List.mem_iff_getElem.mp hel
    have := List.Forall₂.get hrest (i := i) hi (by rw [← List.Forall₂.length_eq hrest]; exact hi)
    simp only [List.get_eq_getElem, hi2] at this
    obtain ⟨_, _, _, np, hnp, hnpp, _⟩ := this
    exact ⟨np, hnp, hnpp⟩
  have hnotY : d.first_child ≠ -1 → ∀ e, (e, nx3.first_child) ∉ (e0, x) :: rest := by
    intro h1 e hmem
    have hyA := (hY h1).2.1
    apply hyA
    apply hK2
    rcases List.mem_cons.mp hmem with h | h
    · have : nx3.first_child = x := (Prod.mk.inj h).2
      rw [this]
      exact ⟨nx, hx, hp⟩
    · exact hrestA _ h
  have hnotZ : d.right_sib ≠ -1 → ∀ e, (e, nx4.right_sib) ∉ (e0, x) :: a.2 := by
    intro h1 e hmem
    have hzA := (hZ h1).2.1
    apply hzA
    rcases List.mem_cons.mp hmem with h | h
    · have : nx4.right_sib = x := (Prod.mk.inj h).2
      rw [this]
      exact ⟨nx3, hx3, hp3⟩
    · rw [hQa] at h
      rcases List.mem_append.mp h with h | h
      · exact hK3 _ (hK2 _ (hrestA _ h))
      · by_cases h2 : 0 ≤ d.first_child
        · rw [if_pos h2] at h
          have h3 := List.mem_singleton.mp h
          have : nx4.right_sib = nx3.first_child := (Prod.mk.inj h3).2
          rw [this]
          obtain ⟨_, _, ny, hny, hnyp, _⟩ := hY (by omega)
          obtain ⟨y, _, _, hy, hat_y, _⟩ := hfcB (by omega)
          rw [hy]
          refine ⟨_, hat_y, ?_⟩
          show x ≠ TREEPOINTER_DEALLOCATED
          intro e
          have hx0' : 0 ≤ x := (nodeAt_some_bounds s x nx hx).1
          rw [e] at hx0'
          exact absurd hx0' (by decide)
        · rw [if_neg h2] at h
          exact absurd h (List.not_mem_nil _)
  refine ⟨b.1, b.2, ts ++ (if 0 ≤ d.first_child then [c] else [])
    ++ (if 0 ≤ d.right_sib then [sb] else []), ?_, ⟨hc4, ?_, ?_⟩, ?_, hF, hK, ?_⟩
  · -- the round
    intro fuel
    rw [substituteLoop_succ]
    have hb' : (if d.right_sib ≠ -1 then
          if d.right_sib = -2 ∧ x = 0 then some a
          else
            (a.1.writeUnknownRight x true).bind fun r =>
              if r.2 = -1 then none
              else some (r.1, if d.right_sib ≥ 0 then a.2 ++ [(d.right_sib, r.2)] else a.2)
        else some a) = some b := hb
    simp only [he0, if_true, hd, Option.some_bind, hdty, if_false, hmod, ha, hb']
  · -- each node once
    rw [hQb, hQa]
    simp only [List.map_append]
    rw [List.nodup_append]
    refine ⟨?_, ?_, ?_⟩
    · rw [List.nodup_append]
      refine ⟨hndr, ?_, ?_⟩
      · by_cases h2 : 0 ≤ d.first_child
        · rw [if_pos h2]; simp
        · rw [if_neg h2]; simp
      · intro i hi hj
        by_cases h2 : 0 ≤ d.first_child
        · rw [if_pos h2] at hj
          simp only [List.map_cons, List.map_nil, List.mem_singleton] at hj
          obtain ⟨el, hel, hel2⟩ := List.mem_map.mp hi
          apply hnotY (by omega) el.1
          rw [← hj, ← hel2]
          exact List.mem_cons_of_mem _ hel
        · rw [if_neg h2] at hj
          simp at hj
    · by_cases h2 : 0 ≤ d.right_sib
      · rw [if_pos h2]; simp
      · rw [if_neg h2]; simp
    · intro i hi hj
      by_cases h2 : 0 ≤ d.right_sib
      · rw [if_pos h2] at hj
        simp only [List.map_cons, List.map_nil, List.mem_singleton] at hj
        rw [← List.map_append, ← hQa] at hi
        obtain ⟨el, hel, hel2⟩ := List.mem_map.mp hi
        apply hnotZ (by omega) el.1
        rw [← hj, ← hel2]
        exact List.mem_cons_of_mem _ hel
      · rw [if_neg h2] at hj
        simp at hj
  · -- the nodes of the queue wait for their entries
    rw [hQb, hQa]
    apply List.rel_append
    · apply List.rel_append
      · apply List.Forall₂.imp _ (Forall₂_mem _ _ _ hrest)
        intro el t1 ⟨⟨k1, k2, k3, np, hnp, hnpp, hnp0, hnpf, hnpr⟩, hel⟩
        have helx : el.2 ≠ x := by
          intro e
          apply hxr
          rw [← e]
          exact List.mem_map_of_mem _ hel
        obtain ⟨n1, hn1, q1, q2, q3, q4, q5⟩ := hF el.2 np hnp hnpp helx
        exact ⟨k1, k2, k3, n1, hn1, by rw [q5]; exact hnpp, hnp0, by rw [q3]; exact hnpf,
          by rw [q4]; exact hnpr⟩
      · by_cases h2 : 0 ≤ d.first_child
        · rw [if_pos h2, if_pos h2]
          obtain ⟨hy0, _, ny, hny, hnyp, _, _, hnyf, hnyr⟩ := hY (by omega)
          exact List.Forall₂.cons ⟨h2, hUc, hcne, ny, hny, hnyp, by omega, hnyf, hnyr⟩
            List.Forall₂.nil
        · rw [if_neg h2, if_neg h2]
          exact List.Forall₂.nil
    · by_cases h2 : 0 ≤ d.right_sib
      · rw [if_pos h2, if_pos h2]
        obtain ⟨hz0, _, nz, hnz, hnzp, _, _, hnzf, hnzr⟩ := hZ (by omega)
        exact List.Forall₂.cons ⟨h2, hUs, hsne, nz, hnz, hnzp, by omega, hnzf, hnzr⟩
          List.Forall₂.nil
      · rw [if_neg h2, if_neg h2]
        exact List.Forall₂.nil
  · -- fewer rounds are left
    simp only [List.map_append, List.sum_append, List.map_cons, List.sum_cons, FT.size]
    have k1 : ((if 0 ≤ d.first_child then [c] else []).map FT.size).sum ≤ c.size := by
      by_cases h2 : 0 ≤ d.first_child
      · rw [if_pos h2]; simp
      · rw [if_neg h2]; simp
    have k2 : ((if 0 ≤ d.right_sib then [sb] else []).map FT.size).sum ≤ sb.size := by
      by_cases h2 : 0 ≤ d.right_sib
      · rw [if_pos h2]; simp
      · rw [if_neg h2]; simp
    omega
  · -- the trees that are read
    have hxA : Alive s x := ⟨nx, hx, hp⟩
    have hYfresh : d.first_child ≠ -1 → ∀ j, Alive s j → j ≠ nx3.first_child := by
      intro h1 j hj e
      rw [e] at hj
      exact (hY h1).2.1 (hK2 _ hj)
    have hZfresh : d.right_sib ≠ -1 → ∀ j, Alive a.1 j → j ≠ nx4.right_sib := by
      intro h1 j hj e
      rw [e] at hj
      exact (hZ h1).2.1 hj
    have hmemb : ∀ e j, (e, j) ∈ b.2 → (e, j) ∈ rest ∨
        (d.first_child ≠ -1 ∧ j = nx3.first_child) ∨ (d.right_sib ≠ -1 ∧ j = nx4.right_sib) := by
      intro e j hmem
      rw [hQb, hQa] at hmem
      rcases List.mem_append.mp hmem with h | h
      · rcases List.mem_append.mp h with h | h
        · exact Or.inl h
        · by_cases h2 : 0 ≤ d.first_child
          · rw [if_pos h2] at h
            exact Or.inr (Or.inl ⟨by omega, (Prod.mk.inj (List.mem_singleton.mp h)).2⟩)
          · rw [if_neg h2] at h
            exact absurd h (List.not_mem_nil _)
      · by_cases h2 : 0 ≤ d.right_sib
        · rw [if_pos h2] at h
          exact Or.inr (Or.inr ⟨by omega, (Prod.mk.inj (List.mem_singleton.mp h)).2⟩)
        · rw [if_neg h2] at h
          exact absurd h (List.not_mem_nil _)
    have hnotb : ∀ j, Alive s j → (∀ e, (e, j) ∉ rest) → ∀ e, (e, j) ∉ b.2 := by
      intro j hj hnr e hmem
      rcases hmemb e j hmem with h | ⟨h1, h2⟩ | ⟨h1, h2⟩
      · exact hnr e h
      · exact hYfresh h1 j hj h2
      · exact hZfresh h1 j (hK3 _ (hK2 _ hj)) h2
    have hxnr : ∀ e, (e, x) ∉ rest := by
      intro e hmem
      exact hxr (List.mem_map_of_mem Prod.snd hmem)
    have hYA : d.first_child ≠ -1 → Alive a.1 nx3.first_child := by
      intro h1
      obtain ⟨y, _, _, hy, hat_y, _⟩ := hfcB h1
      rw [hy]
      refine ⟨_, hat_y, ?_⟩
      show x ≠ TREEPOINTER_DEALLOCATED
      intro e
      have hx0' : 0 ≤ x := (nodeAt_some_bounds s x nx hx).1
      rw [e] at hx0'
      exact absurd hx0' (by decide)
    have hlinkc : Partial subst b.1 b.2 c nx4.first_child := by
      rw [g3]
      apply Partial_link subst b.1 b.2 d.first_child c nx3.first_child hUc
      · intro h1
        exact (hfcA h1).2
      · intro h1
        exact (hY h1).2.2
      · intro h1
        rw [hQb, hQa, if_pos h1]
        simp
      · intro h1 e hmem
        rcases hmemb e _ hmem with h | ⟨_, _⟩ | ⟨h2, h3⟩
        · apply (hY (by omega)).2.1
          exact hK2 _ (hrestA _ h)
        · rw [hQb, hQa, if_neg (by omega)] at hmem
          rcases List.mem_append.mp hmem with h | h
          · rcases List.mem_append.mp h with h | h
            · apply (hY (by omega)).2.1
              exact hK2 _ (hrestA _ h)
            · exact absurd h (List.not_mem_nil _)
          · by_cases h4 : 0 ≤ d.right_sib
            · rw [if_pos h4] at h
              exact hZfresh (by omega) _ (hYA (by omega))
                (Prod.mk.inj (List.mem_singleton.mp h)).2
            · rw [if_neg h4] at h
              exact absurd h (List.not_mem_nil _)
        · exact hZfresh h2 _ (hYA (by omega)) h3
    have hlinks : Partial subst b.1 b.2 sb nx4.right_sib := by
      apply Partial_link subst b.1 b.2 d.right_sib sb nx4.right_sib hUs
      · intro h1
        exact (hrsA h1).2
      · intro h1
        exact (hZ h1).2.2
      · intro h1
        rw [hQb, if_pos h1]
        simp
      · intro h1 e hmem
        rw [hQb, if_neg (by omega), List.append_nil] at hmem
        exact hnotZ (by omega) e (List.mem_cons_of_mem _ hmem)
    intro t1
    induction t1 with
    | eps => intro id h; exact h
    | node ty v c1 sb1 ihc ihs =>
      intro id h
      rcases h with ⟨e, hmem, hunf1⟩ | ⟨n, hn, hnp, hnot, hty, hv, hc1, hs1⟩
      · rcases List.mem_cons.mp hmem with h1 | h1
        · obtain ⟨k1, k2⟩ := Prod.mk.inj h1
          subst k1 k2
          have et := Unfolds_determined subst e _ _ hunf1 hunf
          injection et with q1 q2 q3 q4
          subst q1 q2 q3 q4
          exact Or.inr ⟨nx4, hx4, hp4, hnotb id hxA hxnr, by rw [g1, e1], by rw [g2, e2], hlinkc,
            hlinks⟩
        · refine Or.inl ⟨e, ?_, hunf1⟩
          rw [hQb, hQa]
          exact List.mem_append_left _ (List.mem_append_left _ h1)
      · have hidx : id ≠ x := fun e => hnot e0 (by rw [e]; exact List.mem_cons_self _ _)
        obtain ⟨n1, hn1, q1, q2, q3, q4, q5⟩ := hF id n hn hnp hidx
        refine Or.inr ⟨n1, hn1, by rw [q5]; exact hnp, ?_, by rw [q1]; exact hty,
          by rw [q2]; exact hv, by rw [q3]; exact ihc _ hc1, by rw [q4]; exact ihs _ hs1⟩
        exact hnotb id ⟨n, hn, hnp⟩ (fun e hm => hnot e (List.mem_cons_of_mem _ hm))

/-- The loop of `SubstituteNode` on a queue of nodes that wait for entries, with at least as
many rounds as the trees of these entries have nodes: it returns, the store is well formed, and
a tree that was read with the waiting nodes is read in the store. -/
theorem substituteLoop_spec (m : Memory) (subst : TreeSubstitution) :
    ∀ (N : Nat) (s : TreeStorage) (rqueue : List (Int × Int)) (ts : List FT) (fuel : Nat),
      QueueInv m subst s rqueue ts → (ts.map FT.size).sum ≤ N → N ≤ fuel →
      ∃ s1, TreeStorage.substituteLoop subst fuel s rqueue = some s1 ∧ Consistent m s1 ∧
        Keeps s s1 ∧ (∀ t id, Partial subst s rqueue t id → Reads s1 t id) := by
  intro N
  induction N with
  | zero =>
    intro s rqueue ts fuel hinv hsum _
    cases rqueue with
    | nil =>
      exact ⟨s, substituteLoop_nil subst fuel s, hinv.1, Keeps_refl s,
        fun t id h => Partial_nil subst s t id h⟩
    | cons el rest =>
      obtain ⟨_, _, hall⟩ := hinv
      cases ts with
      | nil => exact absurd hall (by intro h; cases h)
      | cons t ts1 =>
        obtain ⟨⟨he0, hunf, _, _⟩, _⟩ := List.forall₂_cons.mp hall
        obtain ⟨d, c, sb, _, ht, _, _⟩ := Unfolds_entry subst el.1 t hunf he0
        rw [ht] at hsum
        simp only [List.map_cons, List.sum_cons, FT.size] at hsum
        omega
  | succ N ih =>
    intro s rqueue ts fuel hinv hsum hfuel
    cases rqueue with
    | nil =>
      exact ⟨s, substituteLoop_nil subst fuel s, hinv.1, Keeps_refl s,
        fun t id h => Partial_nil subst s t id h⟩
    | cons el rest =>
      obtain ⟨e0, x⟩ := el
      cases ts with
      | nil => exact absurd hinv.2.2 (by intro h; cases h)
      | cons t ts1 =>
        obtain ⟨s1, Q1, ts2, hround, hinv1, hsum1, _, hK, hpart⟩ :=
          round_spec m subst s e0 x rest t ts1 hinv
        obtain ⟨f, rfl⟩ : ∃ f, fuel = f + 1 := ⟨fuel - 1, by omega⟩
        obtain ⟨s2, hloop, hc2, hK2, hreads⟩ := ih s1 Q1 ts2 f hinv1 (by omega) (by omega)
        exact ⟨s2, by rw [hround f]; exact hloop, hc2, Keeps_trans s s1 s2 hK hK2,
          fun t1 id h => hreads t1 id (hpart t1 id h)⟩

/-- A chain of a store is read with the waiting nodes in a store that has the links of its
nodes, when none of them waits in the queue. -/
theorem Chain_Partial (subst : TreeSubstitution) (s s1 : TreeStorage)
    (rqueue : List (Int × Int)) (x : Int) (hF : Frame s s1 x) (t : FT) :
    ∀ (id p ls ci : Int) (L : List Nat) (last : Int),
      Chain s t id p ls ci L last → 0 ≤ p → (∀ i ∈ L, (i : Int) ≠ x) →
      (∀ i ∈ L, ∀ e, (e, (i : Int)) ∉ rqueue) → Partial subst s1 rqueue t id := by
  induction t with
  | eps =>
    intro id p ls ci L last h _ _ _
    have : id = -1 := h.1
    show id < 0
    omega
  | node ty v c sb ihc ihs =>
    intro id p ls ci L last h hp0 hx hq
    obtain ⟨h0, n, Lc, Ls, hn, hnt, hnv, hnp, _, _, hcc, hcs, hL⟩ := h
    subst hL
    have hidn : ((id.toNat : Nat) : Int) = id := Int.toNat_of_nonneg (le_of_lt h0)
    have hidx : id ≠ x := by
      have := hx id.toNat (List.mem_cons_self _ _)
      rw [hidn] at this
      exact this
    have hnpd : n.parent ≠ TREEPOINTER_DEALLOCATED := by
      rw [hnp]
      intro e
      rw [e] at hp0
      exact absurd hp0 (by decide)
    obtain ⟨n1, hn1, q1, q2, q3, q4, q5⟩ := hF id n hn hnpd hidx
    refine Or.inr ⟨n1, hn1, by rw [q5]; exact hnpd, ?_, by rw [q1]; exact hnt,
      by rw [q2]; exact hnv, ?_, ?_⟩
    · have := hq id.toNat (List.mem_cons_self _ _)
      rw [hidn] at this
      exact this
    · rw [q3]
      exact ihc _ _ _ _ _ _ hcc (le_of_lt h0)
        (fun i hi => hx i (List.mem_cons_of_mem _ (List.mem_append_left _ hi)))
        (fun i hi => hq i (List.mem_cons_of_mem _ (List.mem_append_left _ hi)))
    · rw [q4]
      exact ihs _ _ _ _ _ _ hcs hp0
        (fun i hi => hx i (List.mem_cons_of_mem _ (List.mem_append_right _ hi)))
        (fun i hi => hq i (List.mem_cons_of_mem _ (List.mem_append_right _ hi)))

/-- The block that writes an unknown right sibling in `SubstituteNode`, at a node that is not
empty and whose right sibling is not empty: nothing changes. -/
theorem writeUnknownRight_kept (s : TreeStorage) (k : Int) (n r0 : TreeNode)
    (hn : s.nodeAt k = some n) (hty : n.type ≠ EMPTY_NODE_LABEL) (hrs : 0 ≤ n.right_sib)
    (hr0 : s.nodeAt n.right_sib = some r0) (hr0t : r0.type ≠ EMPTY_NODE_LABEL) :
    s.writeUnknownRight k true = some (s, n.right_sib) := by
  have hk0 : 0 ≤ k := (nodeAt_some_bounds s k n hn).1
  have hright : (LocalEpsTreeTraversal.create k).right s
      = some (true, s, { LocalEpsTreeTraversal.create k with position_ := n.right_sib }) := by
    unfold LocalEpsTreeTraversal.right
    simp only [LocalEpsTreeTraversal.node, LocalEpsTreeTraversal.create,
      LocalEpsTreeTraversal.write_node, show ¬ k < 0 from by omega,
      show ¬ n.right_sib < 0 from by omega, if_false, hn, Option.some_bind, hty,
      Option.map_some']
  unfold TreeStorage.writeUnknownRight
  rw [hright]
  simp only [Option.some_bind, LocalEpsTreeTraversal.node, LocalEpsTreeTraversal.create,
    LocalEpsTreeTraversal.write_node, show ¬ n.right_sib < 0 from by omega, if_false, hr0,
    Bool.not_true, Bool.false_eq_true, Bool.true_and, hr0t, decide_True,
    if_true, Option.map_some', ne_eq, not_false_eq_true, not_true_eq_false]

/-- The first round of the loop of `SubstituteNode`, at a node without children, when the code
leaves what is to the right of the node: the marker `right_sib` of the entry is -1, or it is -2
and the node is the root or has a right sibling that is not empty. The node gets the type and
the value of the entry, and a new node is made for its marker `first_child`. -/
theorem first_round_kept (m : Memory) (subst : TreeSubstitution) (s : TreeStorage)
    (hc : Consistent m s) (pos : Int) (n : TreeNode) (hn : s.nodeAt pos = some n)
    (hp : n.parent ≠ TREEPOINTER_DEALLOCATED) (hfc : n.first_child < 0)
    (d : TreeSubstitution.Node) (hd : subst.data[(0 : Int).toNat]? = some d)
    (hdty : d.type ≠ EMPTY_NODE_LABEL) (c : FT) (hUc : Unfolds subst d.first_child c)
    (hcne : c.NoEmpty)
    (hkept : d.right_sib = -1 ∨ (d.right_sib = -2 ∧ pos = 0) ∨
      (d.right_sib = -2 ∧ pos ≠ 0 ∧ 0 ≤ n.right_sib ∧
        ∃ r0, s.nodeAt n.right_sib = some r0 ∧ r0.type ≠ EMPTY_NODE_LABEL ∧
          r0.parent ≠ TREEPOINTER_DEALLOCATED ∧ n.right_sib ≠ pos))
    (R : FT)
    (hR : ∀ (s2 : TreeStorage) (Q : List (Int × Int)), Frame s s2 pos →
      (∀ e j, (e, j) ∈ Q → ¬ Alive s j) → Partial subst s2 Q R n.right_sib) :
    ∃ (s1 : TreeStorage) (Q1 : List (Int × Int)) (ts1 : List FT),
      (∀ fuel, TreeStorage.substituteLoop subst (fuel + 1) s [(0, pos)]
        = TreeStorage.substituteLoop subst fuel s1 Q1) ∧
      QueueInv m subst s1 Q1 ts1 ∧ (ts1.map FT.size).sum ≤ c.size ∧ Keeps s s1 ∧
      Partial subst s1 Q1 (.node d.type d.value c R) pos := by
  have hpos0 : 0 ≤ pos := (nodeAt_some_bounds s pos n hn).1
  obtain ⟨s2, hmod, hc2, hat2⟩ := relabel_spec m s hc pos n hn hp d.type d.value
  have hx2 : s2.nodeAt pos = some { n with type := d.type, value := d.value } := by
    rw [hat2, if_pos rfl]
  have hF2 : Frame s s2 pos := fun j n' hn' _ hj =>
    ⟨n', by rw [hat2, if_neg hj, hn'], rfl, rfl, rfl, rfl, rfl⟩
  have hK2 : Keeps s s2 := Keeps_relabel s s2 pos n d.type d.value hn hat2
  obtain ⟨a, nx3, ha, hc3, hF3, hx3, e1, e2, e3, e4, hfcA, hfcB⟩ :=
    childPhase_spec m s2 hc2 pos _ hx2 hp hdty hfc d.first_child []
  have hp3 : nx3.parent ≠ TREEPOINTER_DEALLOCATED := by rw [e4]; exact hp
  have hK3 : Keeps s2 a.1 := Frame_Keeps s2 a.1 pos hF3 (fun _ => ⟨nx3, hx3, hp3⟩)
  have hF : Frame s a.1 pos := Frame_trans s s2 a.1 pos hF2 hF3
  have hQa : a.2 = (if 0 ≤ d.first_child then [(d.first_child, nx3.first_child)] else []) := by
    by_cases h1 : d.first_child = -1
    · rw [(hfcA h1).1, if_neg (by omega)]
    · obtain ⟨y, _, _, hy, _, hq⟩ := hfcB h1
      rw [hq, hy]
      by_cases h2 : 0 ≤ d.first_child
      · rw [if_pos h2, if_pos h2]
        simp
      · rw [if_neg h2, if_neg h2]
  have hY : d.first_child ≠ -1 → 0 < nx3.first_child ∧ ¬ Alive s2 nx3.first_child ∧
      ∃ ny, a.1.nodeAt nx3.first_child = some ny ∧ ny.parent ≠ TREEPOINTER_DEALLOCATED ∧
        ny.type = UNKNOWN_LABEL ∧ ny.value = UNKNOWN_LABEL ∧ ny.first_child < 0 ∧
        ny.right_sib < 0 := by
    intro h1
    obtain ⟨y, hy0, hyA, hy, hat_y, _⟩ := hfcB h1
    rw [hy]
    refine ⟨hy0, hyA, _, hat_y, ?_, rfl, rfl, by show (-1 : Int) < 0; decide,
      by show (-1 : Int) < 0; decide⟩
    show pos ≠ TREEPOINTER_DEALLOCATED
    intro e
    rw [e] at hpos0
    exact absurd hpos0 (by decide)
  -- the right sibling
  have hb : (if d.right_sib ≠ -1 then
        if d.right_sib = -2 ∧ pos = 0 then some a
        else
          (a.1.writeUnknownRight pos true).bind fun r =>
            if r.2 = -1 then none
            else some (r.1, if d.right_sib ≥ 0 then a.2 ++ [(d.right_sib, r.2)] else a.2)
      else some a) = some a := by
    rcases hkept with h | ⟨h1, h2⟩ | ⟨h1, h2, h3, r0, hr0, hr0t, hr0p, hr0x⟩
    · rw [if_neg (fun h' => h' h)]
    · rw [if_pos (by omega), if_pos ⟨h1, h2⟩]
    · rw [if_pos (by omega), if_neg (fun h' => h2 h'.2)]
      obtain ⟨r1, hr1, k1, _, _, _, _⟩ := hF _ r0 hr0 hr0p hr0x
      have hw := writeUnknownRight_kept a.1 pos nx3 r1 hx3 (by rw [e1]; exact hdty)
        (by rw [e3]; exact h3) (by rw [e3]; exact hr1) (by rw [k1]; exact hr0t)
      rw [hw, Option.some_bind, if_neg (by rw [e3]; show ¬ n.right_sib = -1; omega),
        if_neg (by omega)]
  have hfresh : ∀ e j, (e, j) ∈ a.2 → ¬ Alive s j := by
    intro e j hmem hj
    rw [hQa] at hmem
    by_cases h2 : 0 ≤ d.first_child
    · rw [if_pos h2] at hmem
      have : j = nx3.first_child := (Prod.mk.inj (List.mem_singleton.mp hmem)).2
      rw [this] at hj
      exact (hY (by omega)).2.1 (hK2 _ hj)
    · rw [if_neg h2] at hmem
      exact absurd hmem (List.not_mem_nil _)
  refine ⟨a.1, a.2, (if 0 ≤ d.first_child then [c] else []), ?_, ⟨hc3, ?_, ?_⟩, ?_,
    Keeps_trans s s2 a.1 hK2 hK3, ?_⟩
  · intro fuel
    rw [substituteLoop_succ]
    simp only [le_refl, if_true, hd, Option.some_bind, hdty, if_false, hmod, ha, hb]
  · rw [hQa]
    by_cases h2 : 0 ≤ d.first_child
    · rw [if_pos h2]; simp
    · rw [if_neg h2]; simp
  · rw [hQa]
    by_cases h2 : 0 ≤ d.first_child
    · rw [if_pos h2, if_pos h2]
      obtain ⟨hy0, _, ny, hny, hnyp, _, _, hnyf, hnyr⟩ := hY (by omega)
      exact List.Forall₂.cons ⟨h2, hUc, hcne, ny, hny, hnyp, by omega, hnyf, hnyr⟩
        List.Forall₂.nil
    · rw [if_neg h2, if_neg h2]
      exact List.Forall₂.nil
  · by_cases h2 : 0 ≤ d.first_child
    · rw [if_pos h2]; simp
    · rw [if_neg h2]; simp
  · refine Or.inr ⟨nx3, hx3, hp3, ?_, e1, e2, ?_, ?_⟩
    · intro e hmem
      exact hfresh e pos hmem ⟨n, hn, hp⟩
    · apply Partial_link subst a.1 a.2 d.first_child c nx3.first_child hUc
      · intro h1
        exact (hfcA h1).2
      · intro h1
        exact (hY h1).2.2
      · intro h1
        rw [hQa, if_pos h1]
        simp
      · intro h1 e hmem
        rw [hQa, if_neg (by omega)] at hmem
        exact absurd hmem (List.not_mem_nil _)
    · rw [e3]
      exact hR a.1 a.2 hF hfresh

/-- The call `SubstituteNode(pos, subst)` for a substitution that is not empty, at a node of a
well-formed store whose children form a chain: it returns, the store is well formed, and the
tree of the substitution is read at `pos`, with the tree `R` to its right: the tree of the
marker `right_sib` of the first entry when the node is not the root and has no right sibling,
and what was to the right of the node when the code leaves it. -/
theorem SubstituteNode_reads (m : Memory) (s : TreeStorage) (hc : Consistent m s) (pos : Int)
    (n : TreeNode) (hn : s.nodeAt pos = some n) (hp : n.parent ≠ TREEPOINTER_DEALLOCATED)
    (subst : TreeSubstitution) (d0 : TreeSubstitution.Node) (hd0 : subst.data[0]? = some d0)
    (fu : Nat) (cU sbU : FT) (hU : subst.unfold fu 0 = some (.node d0.type d0.value cU sbU))
    (hne : (FT.node d0.type d0.value cU sbU).NoEmpty)
    (ck : FT) (Lc : List Nat) (hcc : Chain s ck n.first_child pos (-1) 0 Lc n.last_child)
    (fuel : Nat) (hfuel : ck.size + cU.size + sbU.size + 1 < fuel) (R : FT)
    (hcase : (pos ≠ 0 ∧ n.right_sib < 0 ∧ d0.right_sib ≠ -1 ∧ R = sbU) ∨
      ((d0.right_sib = -1 ∨ (d0.right_sib = -2 ∧ pos = 0) ∨
          (d0.right_sib = -2 ∧ pos ≠ 0 ∧ 0 ≤ n.right_sib ∧
            ∃ r0, s.nodeAt n.right_sib = some r0 ∧ r0.type ≠ EMPTY_NODE_LABEL ∧
              r0.parent ≠ TREEPOINTER_DEALLOCATED ∧ n.right_sib ≠ pos ∧
              ∀ i ∈ Lc, n.right_sib ≠ (i : Int))) ∧
        ∀ (s1 s2 : TreeStorage) (Q : List (Int × Int)),
          (∀ j : Int, (∀ i ∈ Lc, j ≠ (i : Int)) → j ≠ pos → s1.nodeAt j = s.nodeAt j) →
          Frame s1 s2 pos → (∀ e j, (e, j) ∈ Q → ¬ Alive s1 j) →
          Partial subst s2 Q R n.right_sib)) :
    ∃ s1, s.SubstituteNode fuel pos subst = some s1 ∧ Consistent m s1 ∧ Alive s1 pos ∧
      Reads s1 (.node d0.type d0.value cU R) pos := by
  have hUn : Unfolds subst 0 (.node d0.type d0.value cU sbU) := ⟨fu, hU⟩
  obtain ⟨d, c, sb, hd, ht, hUc, hUs⟩ := Unfolds_entry subst 0 _ hUn (le_refl _)
  have hd' : subst.data[0]? = some d := hd
  rw [hd0] at hd'
  have hdd : d0 = d := Option.some.inj hd'
  subst hdd
  injection ht with _ _ q3 q4
  subst q3 q4
  obtain ⟨hdty, hcne, hsne⟩ := hne
  have hlen : ¬ subst.data.length = 0 := by
    intro h
    have : subst.data[0]? = none := List.getElem?_eq_none (by omega)
    rw [this] at hd0
    exact Option.noConfusion hd0
  obtain ⟨s1, hrem, hc1, hat1, hfr1, _, _⟩ :=
    RemoveNodeChildren_spec m s hc pos n hn hp ck Lc hcc fuel (by omega)
  have hpos0 : 0 ≤ pos := (nodeAt_some_bounds s pos n hn).1
  have hstart : s.SubstituteNode fuel pos subst
      = TreeStorage.substituteLoop subst fuel s1 [(0, pos)] := by
    unfold TreeStorage.SubstituteNode
    rw [if_neg hlen, hrem, Option.some_bind]
  rw [hstart]
  have hA1 : Alive s1 pos := ⟨_, hat1, hp⟩
  rcases hcase with ⟨h1, h2, h3, hR⟩ | ⟨hkept, hR⟩
  · -- a new right sibling
    subst hR
    have hpend : PendingNode s1 pos :=
      ⟨_, hat1, hp, h1, by show (-1 : Int) < 0; decide, h2⟩
    have hinv : QueueInv m subst s1 [(0, pos)] [.node d0.type d0.value cU R] :=
      ⟨hc1, by simp, List.Forall₂.cons ⟨le_refl _, hUn, ⟨hdty, hcne, hsne⟩, hpend⟩
        List.Forall₂.nil⟩
    obtain ⟨s2, hloop, hc2, hK, hreads⟩ := substituteLoop_spec m subst
      (cU.size + R.size + 1) s1 [(0, pos)] [.node d0.type d0.value cU R] fuel hinv
      (by simp only [List.map_cons, List.map_nil, List.sum_cons, List.sum_nil, FT.size]; omega)
      (by omega)
    exact ⟨s2, hloop, hc2, hK _ hA1, hreads _ _ (Or.inl ⟨0, List.mem_singleton_self _, hUn⟩)⟩
  · -- what is to the right of the node stays
    have hkept1 : d0.right_sib = -1 ∨ (d0.right_sib = -2 ∧ pos = 0) ∨
        (d0.right_sib = -2 ∧ pos ≠ 0 ∧
          0 ≤ ({ n with first_child := -1, last_child := -1 } : TreeNode).right_sib ∧
          ∃ r0, s1.nodeAt ({ n with first_child := -1, last_child := -1 } : TreeNode).right_sib
              = some r0 ∧ r0.type ≠ EMPTY_NODE_LABEL ∧
            r0.parent ≠ TREEPOINTER_DEALLOCATED ∧
            ({ n with first_child := -1, last_child := -1 } : TreeNode).right_sib ≠ pos) := by
      rcases hkept with h | h | ⟨k1, k2, k3, r0, hr0, k4, k5, k6, k7⟩
      · exact Or.inl h
      · exact Or.inr (Or.inl h)
      · refine Or.inr (Or.inr ⟨k1, k2, k3, r0, ?_, k4, k5, k6⟩)
        show s1.nodeAt n.right_sib = some r0
        rw [hfr1 _ k7 k6, hr0]
    obtain ⟨s2, Q1, ts1, hround, hinv, hsum, hK, hpart⟩ :=
      first_round_kept m subst s1 hc1 pos _ hat1 hp (by show (-1 : Int) < 0; decide) d0 hd
        hdty cU hUc hcne hkept1 R (fun s2 Q hF hQ => hR s1 s2 Q hfr1 hF hQ)
    obtain ⟨f, rfl⟩ : ∃ f, fuel = f + 1 := ⟨fuel - 1, by omega⟩
    obtain ⟨s3, hloop, hc3, hK3, hreads⟩ := substituteLoop_spec m subst cU.size s2 Q1 ts1 f hinv
      hsum (by omega)
    exact ⟨s3, by rw [hround f]; exact hloop, hc3, hK3 _ (hK _ hA1), hreads _ _ hpart⟩
/-- The call `SubstituteNode(pos, subst)` at a node of a well-formed store, for a substitution
whose entries describe a tree without empty types from the first entry on, when
`CanSubstituteNode` holds and the right sibling of the node is not empty: it returns, the store
is well formed, and the part of its tree at `pos` is the tree of the substitution. At the root
this is the type and the value of the first entry with the tree of its marker `first_child`
below. At another node the tree to the right of `pos` is the one that was there when the marker
`right_sib` of the first entry is -1 or the node has a right sibling, and the tree of this
marker otherwise. -/
theorem SubstituteNode_spec (m : Memory) (s : TreeStorage) (ty v : Int) (T : FT)
    (L F : List Nat) (hwf : WF m s ty v T L F) (pos : Int) (n : TreeNode)
    (hn : s.nodeAt pos = some n) (hp : n.parent ≠ TREEPOINTER_DEALLOCATED)
    (subst : TreeSubstitution) (d0 : TreeSubstitution.Node) (hd0 : subst.data[0]? = some d0)
    (fu : Nat) (cU sbU : FT) (hU : subst.unfold fu 0 = some (.node d0.type d0.value cU sbU))
    (hne : (FT.node d0.type d0.value cU sbU).NoEmpty)
    (hcan : s.CanSubstituteNode pos subst = some true)
    (hrt : ∀ r, s.nodeAt n.right_sib = some r → r.type ≠ EMPTY_NODE_LABEL)
    (fuel : Nat) (hfuel : s.nodes_.length + cU.size + sbU.size + 1 ≤ fuel) :
    ∃ (s1 : TreeStorage) (ty1 v1 : Int) (T1 : FT) (L1 F1 : List Nat),
      s.SubstituteNode fuel pos subst = some s1 ∧ WF m s1 ty1 v1 T1 L1 F1 ∧
      (pos = 0 → ty1 = d0.type ∧ v1 = d0.value ∧ T1 = cU) ∧
      (pos ≠ 0 → ∃ ck sbk, T.subAt L pos.toNat = some (.node n.type n.value ck sbk) ∧
        T1.subAt L1 pos.toNat = some (.node d0.type d0.value cU
          (if d0.right_sib = -1 ∨ 0 ≤ n.right_sib then sbk else sbU))) := by
  have hc : Consistent m s := ⟨ty, v, T, L, F, hwf⟩
  have hUn : Unfolds subst 0 (.node d0.type d0.value cU sbU) := ⟨fu, hU⟩
  have hUs : Unfolds subst d0.right_sib sbU := by
    obtain ⟨d, c, sb, hd, ht, _, hUs⟩ := Unfolds_entry subst 0 _ hUn (le_refl _)
    have hd' : subst.data[0]? = some d := hd
    rw [hd0] at hd'
    have hdd : d0 = d := Option.some.inj hd'
    subst hdd
    injection ht with _ _ _ q4
    rw [q4]
    exact hUs
  have hcan2 : 0 ≤ d0.right_sib → pos ≠ 0 ∧ n.right_sib = -1 := by
    intro h
    unfold TreeStorage.CanSubstituteNode at hcan
    rw [hn, Option.map_some'] at hcan
    cases hdata : subst.data with
    | nil =>
      rw [hdata] at hd0
      simp at hd0
    | cons d tl =>
      rw [hdata] at hd0 hcan
      simp only [List.getElem?_cons_zero, Option.some.injEq] at hd0
      subst hd0
      simp only [ge_iff_le, h, if_true, Option.some.injEq, Bool.and_eq_true,
        decide_eq_true_eq] at hcan
      exact hcan
  have hmark : d0.right_sib ≠ -1 → (pos = 0 ∨ 0 ≤ n.right_sib) → d0.right_sib = -2 := by
    intro h1 h2
    by_cases h0 : 0 ≤ d0.right_sib
    · obtain ⟨k1, k2⟩ := hcan2 h0
      rcases h2 with h2 | h2
      · exact absurd h2 k1
      · omega
    · rcases Unfolds_marker subst _ sbU hUs (by omega) with ⟨k1, _⟩ | ⟨k1, _⟩
      · exact absurd k1 h1
      · exact k1
  have hwf' := hwf
  obtain ⟨r, hr, hrt', hrv, h3, h4, h5, h6, h7, hch, hFl, hnd, h0F, hlen⟩ := hwf'
  by_cases hpos : pos = 0
  · -- the root
    subst hpos
    rw [hr] at hn
    have hrn : r = n := Option.some.inj hn
    subst hrn
    have hsize := Chain_length s T _ _ _ _ _ _ hch
    obtain ⟨s1, hsub, hc1, hA1, hreads⟩ := SubstituteNode_reads m s hc 0 r hr hp subst d0 hd0 fu
      cU sbU hU hne T L hch fuel (by omega) .eps
      (Or.inr ⟨by
          by_cases h1 : d0.right_sib = -1
          · exact Or.inl h1
          · exact Or.inr (Or.inl ⟨hmark h1 (Or.inl rfl), rfl⟩),
        fun s1 s2 Q _ _ _ => h6⟩)
    obtain ⟨ty1, v1, T1, L1, F1, hwf1⟩ := hc1
    have hwf1' := hwf1
    obtain ⟨r1, hr1, hr1t, hr1v, _, _, _, _, _, hch1, _⟩ := hwf1'
    obtain ⟨n1, hn1, hn1t, hn1v, hrc, _⟩ := hreads
    rw [hr1] at hn1
    have e : r1 = n1 := Option.some.inj hn1
    subst e
    refine ⟨s1, ty1, v1, T1, L1, F1, hsub, hwf1, fun _ => ⟨?_, ?_, ?_⟩,
      fun h => absurd rfl h⟩
    · rw [← hr1t, hn1t]
    · rw [← hr1v, hn1v]
    · exact Reads_determined s1 T1 cU _ (Chain_Reads s1 T1 _ _ _ _ _ _ hch1) hrc
  · -- another node
    obtain ⟨hk0, hkL, hnp0, hnpk, hnlk, _, hrsib⟩ := WF_node m s ty v T L F hwf pos n hn hp hpos
    obtain ⟨sub, pk, lsk, cik, lastk, pre, Lold, post, pn, hsubAt, hL, hsubc, hpk, _⟩ :=
      WF_sub m s ty v T L F hwf pos.toNat hkL
    have hkn : ((pos.toNat : Nat) : Int) = pos := Int.toNat_of_nonneg (le_of_lt hk0)
    rw [hkn] at hsubc
    cases sub with
    | eps =>
      have : pos = -1 := hsubc.1
      omega
    | node tyk vk ck sbk =>
      obtain ⟨_, n', Lc, Ls, hn', hnt, hnv, hnp, hnl, hnc, hcc, hcs, hLold⟩ := hsubc
      rw [hn] at hn'
      have e : n = n' := Option.some.inj hn'
      subst e
      subst hLold
      have hndL : (pre ++ (pos.toNat :: (Lc ++ Ls)) ++ post).Nodup := by
        rw [← hL]
        exact (List.nodup_append.mp hnd).1
      have hold := (List.nodup_append.mp (List.nodup_append.mp hndL).1).2.1
      have hold' := List.nodup_cons.mp hold
      have hcsplit := List.nodup_append.mp hold'.2
      have hpk0 : 0 ≤ pk := by rcases hpk with h | h <;> omega
      have hLcsize := Chain_length s ck _ _ _ _ _ _ hcc
      have hLlen : Lc.length ≤ L.length := by
        rw [hL]
        simp only [List.length_append, List.length_cons]
        omega
      obtain ⟨s1, hsub, hc1, hA1, hreads⟩ := SubstituteNode_reads m s hc pos n hn hp subst d0
        hd0 fu cU sbU hU hne ck Lc hcc fuel (by omega)
        (if d0.right_sib = -1 ∨ 0 ≤ n.right_sib then sbk else sbU)
        (by
          by_cases hcond : d0.right_sib = -1 ∨ 0 ≤ n.right_sib
          · rw [if_pos hcond]
            refine Or.inr ⟨?_, ?_⟩
            · by_cases h1 : d0.right_sib = -1
              · exact Or.inl h1
              · have hrs0 : 0 ≤ n.right_sib := by
                  rcases hcond with h | h
                  · exact absurd h h1
                  · exact h
                obtain ⟨r0, hr0, hr0p, hr0l⟩ := hrsib hrs0
                refine Or.inr (Or.inr ⟨hmark h1 (Or.inr hrs0), hpos, hrs0, r0, hr0, hrt r0 hr0,
                  ?_, ?_, ?_⟩)
                · rw [hr0p]
                  intro e
                  rw [e] at hnp0
                  exact absurd hnp0 (by decide)
                · intro e
                  rw [e, hn] at hr0
                  have e2 : n = r0 := Option.some.inj hr0
                  rw [← e2] at hr0l
                  exact hnlk hr0l
                · intro i hi e
                  cases sbk with
                  | eps =>
                    have : n.right_sib = -1 := hcs.1
                    omega
                  | node _ _ _ _ =>
                    obtain ⟨_, _, Lc2, Ls2, _, _, _, _, _, _, _, _, hLs⟩ := hcs
                    apply hcsplit.2.2 hi
                    rw [hLs, e]
                    simp
            · intro s1 s2 Q hfr1 hF hQ
              have hcs1 : Chain s1 sbk n.right_sib pk pos (cik + 1) Ls lastk := by
                apply Chain_frame s s1 sbk _ _ _ _ _ _ hcs
                intro i hi
                apply hfr1
                · intro i' hi' e
                  have : i = i' := by omega
                  rw [this] at hi
                  exact hcsplit.2.2 hi' hi
                · intro e
                  have : i = pos.toNat := by omega
                  rw [this] at hi
                  exact hold'.1 (List.mem_append_right _ hi)
              apply Chain_Partial subst s1 s2 Q pos hF sbk _ _ _ _ _ _ hcs1 hpk0
              · intro i hi e
                have : i = pos.toNat := by omega
                rw [this] at hi
                exact hold'.1 (List.mem_append_right _ hi)
              · intro i hi e0 hmem
                obtain ⟨_, ni, hni, hnip⟩ := Chain_mem s1 sbk _ _ _ _ _ _ hcs1 hpk0 i hi
                apply hQ e0 _ hmem
                refine ⟨ni, hni, ?_⟩
                intro e
                rw [e] at hnip
                exact absurd hnip (by decide)
          · rw [if_neg hcond]
            exact Or.inl ⟨hpos, by omega, fun h => hcond (Or.inl h), rfl⟩)
      obtain ⟨ty1, v1, T1, L1, F1, hwf1⟩ := hc1
      have hkL1 : pos.toNat ∈ L1 := by
        rcases (WF_alive_iff m s1 ty1 v1 T1 L1 F1 hwf1 pos).mp hA1 with h | h
        · exact absurd h hpos
        · exact h.2
      obtain ⟨sub1, pk1, lsk1, cik1, lastk1, pre1, Lold1, post1, pn1, hsubAt1, _, hsubc1, _⟩ :=
        WF_sub m s1 ty1 v1 T1 L1 F1 hwf1 pos.toNat hkL1
      rw [hkn] at hsubc1
      have e := Reads_determined s1 sub1 _ pos (Chain_Reads s1 sub1 _ _ _ _ _ _ hsubc1) hreads
      refine ⟨s1, ty1, v1, T1, L1, F1, hsub, hwf1, fun h => absurd h hpos,
        fun _ => ⟨ck, sbk, ?_, ?_⟩⟩
      · rw [hsubAt, hnt, hnv]
      · rw [hsubAt1, e]

/-- Claim C14, as stated, fails. In `substitute_store` the node 1 has the right sibling 2 of
type 12 with a child. `CanSubstituteNode` holds at the node 1 for the substitution of one entry
whose `right_sib` is the marker -2, and after `SubstituteNode` the right sibling of the node 1
is still the node 2 with its type, its value and its child: the marker has produced no node of
type `UNKNOWN_LABEL` without children. -/
theorem SubstituteNode_keeps_right_sibling_at_marker :
    substitute_store.CanSubstituteNode 1 substitute_marker = some true ∧
    ∃ (s1 : TreeStorage) (n1 r : TreeNode),
      substitute_store.SubstituteNode 10 1 substitute_marker = some s1 ∧
      s1.nodeAt 1 = some n1 ∧ n1.type = 7 ∧ n1.value = 70 ∧ n1.right_sib = 2 ∧
      s1.nodeAt 2 = some r ∧ r.type = 12 ∧ r.value = 22 ∧ r.first_child = 4 ∧
      r.type ≠ UNKNOWN_LABEL ∧ r.first_child ≠ -1 :=
  ⟨by decide, (substitute_store.SubstituteNode 10 1 substitute_marker).getD substitute_store,
    ⟨7, 70, 0, -1, 2, -1, -1, 0⟩, ⟨12, 22, 0, 1, -1, 4, 4, 1⟩,
    by decide, by decide, rfl, rfl, rfl, by decide, rfl, rfl, rfl, by decide, by decide⟩

/-- Claim C14, amended. For a well-formed store, a node `pos` of it and a substitution whose
entries describe from the first entry on a tree in which no type is `EMPTY_NODE_LABEL` (a marker
-1 is no node, a marker -2 is one node of type and value `UNKNOWN_LABEL` without a child and
without a right sibling), when `CanSubstituteNode(pos, subst)` holds and a right sibling of
`pos` does not have the type `EMPTY_NODE_LABEL`: `SubstituteNode(pos, subst)` returns, the store
is well formed, and at `pos` it has the type and the value of the first entry with the tree of
its `first_child` below, in place of the tree that was below `pos`. On the root of the store
the `right_sib` of the first entry is ignored. At another node the tree of the `right_sib` of
the first entry is to the right of `pos` when `pos` had no right sibling; when `pos` had a right
sibling, or this `right_sib` is -1, the tree to the right of `pos` is the one that was there, so
that a marker -2 produces no node then. -/
theorem SubstituteNode_writes_the_substitution_tree (m : Memory) (s : TreeStorage) (ty v : Int)
    (T : FT) (L F : List Nat) (hwf : WF m s ty v T L F) (pos : Int) (n : TreeNode)
    (hn : s.nodeAt pos = some n) (hp : n.parent ≠ TREEPOINTER_DEALLOCATED)
    (subst : TreeSubstitution) (d0 : TreeSubstitution.Node) (hd0 : subst.data[0]? = some d0)
    (fu : Nat) (cU sbU : FT) (hU : subst.unfold fu 0 = some (.node d0.type d0.value cU sbU))
    (hne : (FT.node d0.type d0.value cU sbU).NoEmpty)
    (hcan : s.CanSubstituteNode pos subst = some true)
    (hrt : ∀ r, s.nodeAt n.right_sib = some r → r.type ≠ EMPTY_NODE_LABEL)
    (fuel : Nat) (hfuel : s.nodes_.length + cU.size + sbU.size + 1 ≤ fuel) :
    ∃ (s1 : TreeStorage) (ty1 v1 : Int) (T1 : FT) (L1 F1 : List Nat),
      s.SubstituteNode fuel pos subst = some s1 ∧ WF m s1 ty1 v1 T1 L1 F1 ∧
      (pos = 0 → ty1 = d0.type ∧ v1 = d0.value ∧ T1 = cU) ∧
      (pos ≠ 0 → ∃ ck sbk, T.subAt L pos.toNat = some (.node n.type n.value ck sbk) ∧
        T1.subAt L1 pos.toNat = some (.node d0.type d0.value cU
          (if d0.right_sib = -1 ∨ 0 ≤ n.right_sib then sbk else sbU))) :=
  SubstituteNode_spec m s ty v T L F hwf pos n hn hp subst d0 hd0 fu cU sbU hU hne hcan hrt
    fuel hfuel

theorem SubstituteNode_writes_the_substitution_tree_witness :
    WF [] substitute_store 10 20 substitute_store_tree [1, 3, 2, 4] [] ∧
    substitute_store.CanSubstituteNode 2 substitute_template = some true ∧
    substitute_template.unfold 3 0 = some (.node 7 70
      (.node 8 80 .eps (.node UNKNOWN_LABEL UNKNOWN_LABEL .eps .eps))
      (.node 9 90 (.node UNKNOWN_LABEL UNKNOWN_LABEL .eps .eps) .eps)) ∧
    ∃ (s1 : TreeStorage) (ty1 v1 : Int) (T1 : FT) (L1 F1 : List Nat),
      substitute_store.SubstituteNode 20 2 substitute_template = some s1 ∧
      WF [] s1 ty1 v1 T1 L1 F1 ∧
      ((2 : Int) = 0 → ty1 = 7 ∧ v1 = 70 ∧
        T1 = .node 8 80 .eps (.node UNKNOWN_LABEL UNKNOWN_LABEL .eps .eps)) ∧
      ((2 : Int) ≠ 0 → ∃ ck sbk,
        substitute_store_tree.subAt [1, 3, 2, 4] (2 : Int).toNat = some (.node 12 22 ck sbk) ∧
        T1.subAt L1 (2 : Int).toNat = some (.node 7 70
          (.node 8 80 .eps (.node UNKNOWN_LABEL UNKNOWN_LABEL .eps .eps))
          (if (2 : Int) = -1 ∨ (0 : Int) ≤ -1 then sbk
            else .node 9 90 (.node UNKNOWN_LABEL UNKNOWN_LABEL .eps .eps) .eps))) :=
  ⟨wfCheck_sound _ _ _ _ _ _ _ (by decide), by decide, by decide,
   SubstituteNode_writes_the_substitution_tree [] substitute_store 10 20 substitute_store_tree
     [1, 3, 2, 4] [] (wfCheck_sound _ _ _ _ _ _ _ (by decide)) 2
     ⟨12, 22, 0, 1, -1, 4, 4, 1⟩ (by decide) (by decide) substitute_template ⟨7, 70, 1, 2⟩ rfl
     3 (.node 8 80 .eps (.node UNKNOWN_LABEL UNKNOWN_LABEL .eps .eps))
     (.node 9 90 (.node UNKNOWN_LABEL UNKNOWN_LABEL .eps .eps) .eps) (by decide)
     ⟨by decide, ⟨by decide, trivial, by decide, trivial, trivial⟩,
       by decide, ⟨by decide, trivial, trivial⟩, trivial⟩
     (by decide) (fun r h => Option.noConfusion ((nodeAt_neg substitute_store (-1) (by decide)).symm.trans h)) 20 (by decide)⟩

/-- One move of a sliced traversal of a store in pre-order, from a position that is not after
the begin of the slice: no `CHECK` fails, and the position after the move is not after the
begin of the slice. -/
theorem SliceMove_call_atPos (s : TreeStorage) (hcan : Canonical s) (begin : Int) (allow : Bool)
    (hb : begin < s.nodes_.length) (mv : SliceMove) (pos : Int) (h0 : 0 ≤ pos)
    (hpos : pos ≤ begin) :
    ∃ (b : Bool) (pos1 : Int),
      mv.call [s] (atPos (sliceFrom begin s.nodes_.length allow) pos)
        = some (b, atPos (sliceFrom begin s.nodes_.length allow) pos1) ∧
      0 ≤ pos1 ∧ pos1 ≤ begin := by
  obtain ⟨n, hn, hpre⟩ := canonical_node s hcan pos h0 (by omega)
  have hpre' := hpre
  obtain ⟨⟨hp1, hp2⟩, ⟨hl1, hl2⟩, hr, hc, hlc, _⟩ := hpre'
  have hi : ((pos.toNat : Nat) : Int) = pos := Int.toNat_of_nonneg h0
  rw [hi] at hp2 hl2 hr hc hlc
  cases mv with
  | up =>
    show ∃ b pos1, (atPos _ pos).up [s] = _ ∧ _
    rw [up_atPos s begin allow pos n ⟨h0, hpos⟩ hn hpre]
    by_cases h : n.parent < 0
    · exact ⟨false, pos, by rw [if_pos h], h0, hpos⟩
    · exact ⟨true, n.parent, by rw [if_neg h], by omega, by omega⟩
  | left =>
    show ∃ b pos1, (atPos _ pos).left [s] = _ ∧ _
    rw [left_atPos s begin allow pos n ⟨h0, hpos⟩ hn hpre]
    by_cases h : n.left_sib < 0
    · exact ⟨false, pos, by rw [if_pos h], h0, hpos⟩
    · exact ⟨true, n.left_sib, by rw [if_neg h], by omega, by omega⟩
  | right =>
    show ∃ b pos1, (atPos _ pos).right [s] = _ ∧ _
    rw [right_atPos s begin allow pos n ⟨h0, hpos⟩ hb hn hpre]
    by_cases h : pos = begin ∨ n.right_sib < 0 ∨ begin < n.right_sib
    · exact ⟨false, pos, by rw [if_pos h], h0, hpos⟩
    · exact ⟨true, n.right_sib, by rw [if_neg h], by omega, by omega⟩
  | down_first_child =>
    show ∃ b pos1, (atPos _ pos).down_first_child [s] = _ ∧ _
    rw [down_first_child_atPos s begin allow pos n hn hpre]
    by_cases h : n.first_child < 0 ∨ begin < n.first_child
    · exact ⟨false, pos, by rw [if_pos h], h0, hpos⟩
    · exact ⟨true, n.first_child, by rw [if_neg h], by omega, by omega⟩
  | down_last_child =>
    show ∃ b pos1, (atPos _ pos).down_last_child [s] = _ ∧ _
    rw [down_last_child_atPos s begin allow pos n hn hpre]
    by_cases h : n.last_child < 0 ∨ begin ≤ n.last_child
    · exact ⟨false, pos, by rw [if_pos h], h0, hpos⟩
    · rw [if_neg h]
      obtain ⟨c, hc1, _⟩ := canonical_node s hcan n.last_child (by omega) (by omega)
      rw [hc1, Option.map_some']
      by_cases hnt : c.HasNonTerminal = true
      · exact ⟨false, pos, by rw [if_pos hnt], h0, hpos⟩
      · exact ⟨true, n.last_child, by rw [if_neg hnt], by omega, by omega⟩

/-- Claim C36. For a store without a parent store whose node ids are in pre-order, the slice
`[begin, NumAllocatedNodes)` on it with a begin node of the store, and a sliced traversal that
starts at a node not after `begin`: every sequence of the moves `up`, `left`, `right`,
`down_first_child` and `down_last_child` runs without a failed `CHECK` (so the assertions
`CHECK(left_sib != BeginNode)` of `left` and `CHECK(parent != BeginNode)` of `up` hold) and
leaves the traversal in the store at a position that is not after `begin`; the position is a
node of the slice only when it is `begin`. -/
theorem sliced_moves_stay_at_or_before_begin (s : TreeStorage) (hcan : Canonical s)
    (begin : Int) (allow : Bool) (hb : begin < s.nodes_.length) (moves : List SliceMove)
    (pos : Int) (h0 : 0 ≤ pos) (hpos : pos ≤ begin) :
    ∃ pos1 : Int,
      callMoves [s] moves (atPos (sliceFrom begin s.nodes_.length allow) pos)
        = some (atPos (sliceFrom begin s.nodes_.length allow) pos1) ∧
      0 ≤ pos1 ∧ pos1 ≤ begin ∧
      ((sliceFrom begin s.nodes_.length allow).IsNodeSliced (some 0) pos1 = true →
        pos1 = begin) := by
  induction moves generalizing pos with
  | nil =>
    refine ⟨pos, rfl, h0, hpos, ?_⟩
    intro h
    simp only [TreeSlice.IsNodeSliced, sliceFrom, Bool.and_eq_true, decide_eq_true_eq] at h
    omega
  | cons mv rest ih =>
    obtain ⟨b, pos1, h1, h2, h3⟩ := SliceMove_call_atPos s hcan begin allow hb mv pos h0 hpos
    obtain ⟨pos2, h4, h5⟩ := ih pos1 h2 h3
    refine ⟨pos2, ?_, h5⟩
    show (mv.call [s] _).bind _ = _
    rw [h1]
    exact h4

theorem sliced_moves_stay_at_or_before_begin_witness :
    Canonical test_tcond_tree ∧
    ∃ pos1 : Int,
      callMoves [test_tcond_tree]
          [.down_first_child, .right, .right, .down_first_child, .up, .left, .down_last_child,
           .right, .down_last_child]
          (atPos (sliceFrom 3 test_tcond_tree.nodes_.length true) 0)
        = some (atPos (sliceFrom 3 test_tcond_tree.nodes_.length true) pos1) ∧
      0 ≤ pos1 ∧ pos1 ≤ 3 ∧
      ((sliceFrom 3 test_tcond_tree.nodes_.length true).IsNodeSliced (some 0) pos1 = true →
        pos1 = 3) :=
  ⟨by decide,
   sliced_moves_stay_at_or_before_begin test_tcond_tree (by decide) 3 true (by decide)
     [.down_first_child, .right, .right, .down_first_child, .up, .left, .down_last_child,
      .right, .down_last_child] 0 (by decide) (by decide)⟩

/-- The body of the loop over `cases` sets `p_default` in a clause `else goto N` and leaves it
in any other clause. -/
theorem parseCase_p_default (c : Str) (st st1 : CaseMap × Int × StringSet)
    (h : parseCase c st = some st1) :
    st1.2.1 = (match sscanf_else_goto (TrimLeadingAndTrailingSpaces c) with
      | some label => label
      | none => st.2.1) := by
  unfold parseCase at h
  simp only at h
  cases hs : sscanf_else_goto (TrimLeadingAndTrailingSpaces c) with
  | some label =>
    rw [hs] at h
    simp only [Option.some.injEq] at h
    rw [← h]
  | none =>
    rw [hs] at h
    simp only at h
    split at h
    · exact Option.noConfusion h
    · split at h
      · exact Option.noConfusion h
      · split at h
        · exact Option.noConfusion h
        · split at h
          · exact Option.noConfusion h
          · simp only [Option.some.injEq] at h
            rw [← h]

/-- The loop over `cases` leaves in `p_default` the id of the last clause `else goto N`. -/
theorem parseCasesLoop_p_default (cases : List Str) :
    ∀ (st st1 : CaseMap × Int × StringSet), parseCasesLoop cases st = some st1 →
      st1.2.1 = elseTarget cases st.2.1 := by
  induction cases with
  | nil =>
    intro st st1 h
    simp only [parseCasesLoop, Option.some.injEq] at h
    rw [← h]
    rfl
  | cons c cases ih =>
    intro st st1 h
    simp only [parseCasesLoop] at h
    cases hc : parseCase c st with
    | none =>
      rw [hc] at h
      exact Option.noConfusion h
    | some st2 =>
      rw [hc] at h
      simp only at h
      rw [ih st2 st1 h, parseCase_p_default c st st2 hc]
      rfl

/-- Claim C33, as stated, fails. The line `switch WRITE_TYPE: on "A" goto 1` has no clause
`else goto N`, and `ParseAsProgramLineOrDie` parses it: the program has the case `A -> 1`, and
its `p_default` is the value 7 that the object had before the call. -/
theorem ParseAsProgramLineOrDie_accepts_line_without_else :
    (BranchCondProgram.mk ⟨[]⟩ [] 7).ParseAsProgramLineOrDie ⟨["A".toList]⟩
        "switch WRITE_TYPE: on \"A\" goto 1".toList
      = some (BranchCondProgram.mk ⟨[⟨.WRITE_TYPE, -1⟩]⟩ [([0], 1)] 7, ⟨["A".toList]⟩) := by
  decide

/-- Claim C33, amended. A branched program that `ParseAsProgramLineOrDie` has parsed from a
line has in `p_default` the id of the last clause `else goto N` of the line, and the value that
`p_default` had before the call when the line has no such clause: the clause is not
required. -/
theorem ParseAsProgramLineOrDie_p_default_is_last_else (self : BranchCondProgram)
    (ss : StringSet) (str : Str) (q : BranchCondProgram) (ss1 : StringSet)
    (h : self.ParseAsProgramLineOrDie ss str = some (q, ss1)) :
    ∃ colon, strFind str [':'] = some colon ∧
      q.p_default = elseTarget (SplitStringUsing (str.drop (colon + 1)) ';') self.p_default := by
  unfold BranchCondProgram.ParseAsProgramLineOrDie at h
  split at h
  · exact Option.noConfusion h
  · split at h
    · exact Option.noConfusion h
    · rename_i colon hcolon
      refine ⟨colon, hcolon, ?_⟩
      split at h
      · exact Option.noConfusion h
      · simp only at h
        split at h
        · exact Option.noConfusion h
        · rename_i per_case_p p_default ss2 hloop
          simp only [Option.some.injEq, Prod.mk.injEq] at h
          rw [← h.1]
          exact parseCasesLoop_p_default _ _ _ hloop

theorem ParseAsProgramLineOrDie_p_default_is_last_else_witness :
    (BranchCondProgram.mk ⟨[]⟩ [] 7).ParseAsProgramLineOrDie ⟨["A".toList]⟩
        "switch WRITE_TYPE: else goto 3; on \"A\" goto 1; else goto 4".toList
      = some (BranchCondProgram.mk ⟨[⟨.WRITE_TYPE, -1⟩]⟩ [([0], 1)] 4, ⟨["A".toList]⟩) ∧
    ∃ colon, strFind "switch WRITE_TYPE: else goto 3; on \"A\" goto 1; else goto 4".toList [':']
        = some colon ∧
      (BranchCondProgram.mk ⟨[⟨.WRITE_TYPE, -1⟩]⟩ [([0], 1)] 4).p_default
        = elseTarget (SplitStringUsing
            ("switch WRITE_TYPE: else goto 3; on \"A\" goto 1; else goto 4".toList.drop
              (colon + 1)) ';')
          (BranchCondProgram.mk ⟨[]⟩ [] 7).p_default :=
  ⟨by decide,
   ParseAsProgramLineOrDie_p_default_is_last_else ⟨⟨[]⟩, [], 7⟩ ⟨["A".toList]⟩
     "switch WRITE_TYPE: else goto 3; on \"A\" goto 1; else goto 4".toList
     ⟨⟨[⟨.WRITE_TYPE, -1⟩]⟩, [([0], 1)], 4⟩ ⟨["A".toList]⟩ (by decide)⟩

/-- Claim C35: the case value `A  B`, with an empty token between two tokens, is accepted and
gives the case key of the empty quoted string, the empty vector; but the write `cmd_ids[2]` for
the token `B` comes after `cmd_ids.clear()`, when the size of `cmd_ids` is 0, and so is outside
the bounds of the vector. -/
theorem case_value_with_empty_token_writes_outside_cmd_ids :
    SplitStringUsing (TrimLeadingAndTrailingSpaces "A  B".toList) ' '
      = ["A".toList, [], "B".toList] ∧
    (BranchCondProgram.mk ⟨[]⟩ [] 7).ParseAsProgramLineOrDie ⟨[]⟩
        "switch WRITE_TYPE: on \"A  B\" goto 1; else goto 0".toList
      = some (BranchCondProgram.mk ⟨[⟨.WRITE_TYPE, -1⟩]⟩ [([], 1)] 0,
          ⟨["A".toList, "B".toList]⟩) ∧
    ((BranchCondProgram.mk ⟨[]⟩ [] 7).ParseAsProgramLineOrDie ⟨[]⟩
        "switch WRITE_TYPE: on \"\" goto 1; else goto 0".toList).map Prod.fst
      = some (BranchCondProgram.mk ⟨[⟨.WRITE_TYPE, -1⟩]⟩ [([], 1)] 0) ∧
    cmdWrites ["A".toList, [], "B".toList] 0 ["A".toList, [], "B".toList].length
      = [(0, 3), (2, 0)] ∧
    ¬ ∀ w ∈ cmdWrites ["A".toList, [], "B".toList] 0 ["A".toList, [], "B".toList].length,
        w.1 < w.2 := by
  decide

theorem GetProgramRecursiveSize_succ (t : TGenProgram) (fuel : Nat) (pos : Int) :
    t.GetProgramRecursiveSize (fuel + 1) pos
      = if pos < 0 then none
        else
          match t.program_type pos.toNat with
          | none => none
          | some .BRANCHED_PROGRAM =>
            (t.branched_prog pos.toNat).bind fun program =>
              (recursiveSizeLoop (t.GetProgramRecursiveSize fuel) program.GetReferencedPrograms
                (toSigned program.cond.program.length)).map fun size =>
                (size % 18446744073709551616).toNat
          | some .SIMPLE_PROGRAM =>
            (t.simple_prog pos.toNat).map fun p =>
              p.eq_program.length + p.context_program.length := rfl

/-- The loop over the referenced programs when the recursive call returns `g r` for each of
them. -/
theorem recursiveSizeLoop_eq ( call : Int → Option Nat) (g : Int → Nat) (refs : List Int) :
    ∀ (size : Int), (∀ r ∈ refs, call r = some (g r)) →
      recursiveSizeLoop call refs size
        = some (refs.foldl (fun size r => toSigned (toUnsigned size + g r)) size) := by
  induction refs with
  | nil =>
    intro size _
    rfl
  | cons r refs ih =>
    intro size h
    simp only [recursiveSizeLoop, h r (List.mem_cons_self _ _), Option.some_bind,
      List.foldl_cons]
    exact ih _ (fun r1 hr1 => h r1 (List.mem_cons_of_mem _ hr1))

/-- The sum in an `int` is exact below `2^31`. -/
theorem toSigned_add_exact (size : Int) (n : Nat) (h0 : 0 ≤ size)
    (h : size + n < 2147483648) : toSigned (toUnsigned size + n) = size + n := by
  unfold toSigned toUnsigned
  have h1 : (size % 4294967296).toNat = size.toNat := by
    rw [Int.emod_eq_of_lt h0 (by omega)]
  rw [h1]
  have h2 : (size.toNat + n) % 4294967296 = size.toNat + n := Nat.mod_eq_of_lt (by omega)
  rw [h2, if_pos (by omega)]
  omega

/-- The loop over the referenced programs adds the sizes when the sum is below `2^31`. -/
theorem recursiveSize_fold_exact (g : Int → Nat) (refs : List Int) :
    ∀ (size : Int), 0 ≤ size → size + ((refs.map g).sum : Nat) < 2147483648 →
      refs.foldl (fun size r => toSigned (toUnsigned size + g r)) size
        = size + ((refs.map g).sum : Nat) := by
  induction refs with
  | nil =>
    intro size _ _
    simp
  | cons r refs ih =>
    intro size h0 h
    simp only [List.map_cons, List.sum_cons, Nat.cast_add] at h
    simp only [List.foldl_cons, List.map_cons, List.sum_cons, Nat.cast_add]
    rw [toSigned_add_exact size (g r) h0 (by omega), ih _ (by omega) (by omega)]
    omega

/-- The entry of a program of a table whose internal indices point into its vectors. -/
theorem TableInv_entry (t : TGenProgram) (hinv : TableInv t) (id : Nat) (hid : id < t.size) :
    (∃ p, t.program_type id = some .SIMPLE_PROGRAM ∧ t.simple_prog id = some p ∧
      t.branched_prog id = none) ∨
    (∃ prog, t.program_type id = some .BRANCHED_PROGRAM ∧ t.branched_prog id = some prog ∧
      t.simple_prog id = none) := by
  have hlt : id < t.entries_.length := hid
  have he : t.entries_[id]? = some t.entries_[id] := List.getElem?_eq_getElem hlt
  have hmem : t.entries_[id] ∈ t.entries_ := List.getElem_mem _
  obtain ⟨h1, h2⟩ := hinv _ hmem
  cases hty : t.entries_[id].type with
  | SIMPLE_PROGRAM =>
    left
    refine ⟨t.simple_progs_.get ⟨t.entries_[id].program_internal_index, h1 hty⟩, ?_, ?_, ?_⟩
    · simp [TGenProgram.program_type, he, hty]
    · simp [TGenProgram.simple_prog, he, hty, List.getElem?_eq_getElem (h1 hty)]
    · simp [TGenProgram.branched_prog, he, hty]
  | BRANCHED_PROGRAM =>
    right
    refine ⟨t.branched_progs_.get ⟨t.entries_[id].program_internal_index, h2 hty⟩, ?_, ?_, ?_⟩
    · simp [TGenProgram.program_type, he, hty]
    · simp [TGenProgram.branched_prog, he, hty, List.getElem?_eq_getElem (h2 hty)]
    · simp [TGenProgram.simple_prog, he, hty]
/-- The programs that a branched program refers to are its default program and the targets of
its cases. -/
theorem mem_GetReferencedPrograms (prog : BranchCondProgram) (r : Int)
    (h : r ∈ prog.GetReferencedPrograms) :
    r = prog.p_default ∨ ∃ e ∈ prog.per_case_p, e.2 = r := by
  unfold BranchCondProgram.GetReferencedPrograms at h
  rcases (mem_setInsert _ _ _).mp h with h | h
  · exact Or.inl h
  · right
    have key : ∀ (l : CaseMap) (s : List Int),
        r ∈ l.foldl (fun s it => setInsert s it.2) s → r ∈ s ∨ ∃ e ∈ l, e.2 = r := by
      intro l
      induction l with
      | nil =>
        intro s hs
        exact Or.inl hs
      | cons it l ih =>
        intro s hs
        rcases ih _ hs with h1 | ⟨e, he, h1⟩
        · rcases (mem_setInsert _ _ _).mp h1 with h2 | h2
          · exact Or.inr ⟨it, List.mem_cons_self _ _, h2.symm⟩
          · exact Or.inl h2
        · exact Or.inr ⟨e, List.mem_cons_of_mem _ he, h1⟩
    rcases key _ _ h with h1 | h1
    · simp at h1
    · exact h1

/-- The recursive size of a program of a table whose targets are smaller ids: the recursion
ends, with the same result for every depth that is followed beyond the id. -/
theorem GetProgramRecursiveSize_total (t : TGenProgram) (hinv : TableInv t)
    (hdec : t.TargetsDecrease) :
    ∀ (id : Nat), id < t.size →
      ∃ n, ∀ fuel, id < fuel → t.GetProgramRecursiveSize fuel (id : Int) = some n := by
  intro id
  induction id using Nat.strong_induction_on with
  | _ id ih =>
    intro hid
    rcases TableInv_entry t hinv id hid with ⟨p, h1, h2, _⟩ | ⟨prog, h1, h2, _⟩
    · refine ⟨p.eq_program.length + p.context_program.length, ?_⟩
      intro fuel hfuel
      obtain ⟨f, rfl⟩ : ∃ f, fuel = f + 1 := ⟨fuel - 1, by omega⟩
      rw [GetProgramRecursiveSize_succ, if_neg (by omega), Int.toNat_ofNat, h1]
      simp only [h2, Option.map_some']
    · obtain ⟨hd, hcases⟩ := hdec id prog h2
      have hrefs : ∀ r ∈ prog.GetReferencedPrograms, 0 ≤ r ∧ r < (id : Int) := by
        intro r hr
        rcases mem_GetReferencedPrograms prog r hr with h | ⟨e, he, h⟩
        · rw [h]
          exact hd
        · rw [← h]
          exact hcases e he
      have hg : ∀ r ∈ prog.GetReferencedPrograms, ∀ fuel, id ≤ fuel →
          t.GetProgramRecursiveSize fuel r
            = some ((t.GetProgramRecursiveSize t.size r).getD 0) := by
        intro r hr fuel hfuel
        obtain ⟨hr0, hr1⟩ := hrefs r hr
        obtain ⟨n, hn⟩ := ih r.toNat (by omega) (by omega)
        have e : ((r.toNat : Nat) : Int) = r := Int.toNat_of_nonneg hr0
        rw [e] at hn
        rw [hn fuel (by omega), hn t.size (by omega)]
        rfl
      refine ⟨((prog.GetReferencedPrograms.foldl
          (fun size r => toSigned (toUnsigned size
            + (t.GetProgramRecursiveSize t.size r).getD 0))
          (toSigned prog.cond.program.length)) % 18446744073709551616).toNat, ?_⟩
      intro fuel hfuel
      obtain ⟨f, rfl⟩ : ∃ f, fuel = f + 1 := ⟨fuel - 1, by omega⟩
      rw [GetProgramRecursiveSize_succ, if_neg (by omega), Int.toNat_ofNat, h1]
      simp only [h2, Option.some_bind]
      rw [recursiveSizeLoop_eq _ (fun r => (t.GetProgramRecursiveSize t.size r).getD 0) _ _
        (fun r hr => hg r hr f (by omega))]
      rfl

/-- Claim C32, as stated, fails. In `one_case_table` the program 0 is a simple program of one
op, and the program 1 is a branched program with a condition of one op and one case, which
refers to the program 0 only. `GetProgramRecursiveSize(1)` is 2, the length of the condition
plus the recursive size of the program 0: the number of cases is not counted, and the size
`size()` of the entry, which is 2, plus the recursive size of the program 0 is 3. And the call
has no bound: for the table of `loop_model`, whose program 0 refers to itself, no depth of the
recursion ends the call. -/
theorem GetProgramRecursiveSize_leaves_out_the_cases :
    one_case_table.branched_prog 1
      = some { cond := ⟨[⟨.WRITE_TYPE, -1⟩]⟩, per_case_p := [([0], 0)], p_default := 0 } ∧
    one_case_table.GetProgramRecursiveSize 5 0 = some 1 ∧
    one_case_table.GetProgramRecursiveSize 5 1 = some 2 ∧
    (∀ fuel, loop_model.program_.GetProgramRecursiveSize fuel 0 = none) := by
  refine ⟨by decide, by decide, by decide, ?_⟩
  intro fuel
  induction fuel with
  | zero => rfl
  | succ f ih =>
    rw [GetProgramRecursiveSize_succ]
    have h1 : loop_model.program_.program_type (0 : Int).toNat = some .BRANCHED_PROGRAM := by
      decide
    have h2 : loop_model.program_.branched_prog (0 : Int).toNat
        = some { cond := ⟨[]⟩, per_case_p := [], p_default := 0 } := by decide
    rw [if_neg (by decide), h1]
    simp only [h2, Option.some_bind]
    have h3 : (BranchCondProgram.mk ⟨[]⟩ [] 0).GetReferencedPrograms = [0] := by decide
    rw [h3]
    simp only [recursiveSizeLoop, ih, Option.none_bind, Option.map_none']

/-- Claim C32, amended. For a program table whose entries are in its vectors and in which
every target of a branched program is a smaller id, so that it has no cycle,
`GetProgramRecursiveSize(id)` returns for every id of the table, with the same result for every
depth of the recursion that is followed beyond `id`. For a straight-line entry the result is the
length of `eq_program` plus the length of `context_program`. For a branched entry it is the
length of the condition, without the number of cases, plus the sum of
`GetProgramRecursiveSize` over the distinct programs that the entry refers to (the targets of
the cases and the default target), when this sum is below `2^31`. -/
theorem GetProgramRecursiveSize_is_condition_length_plus_referenced (t : TGenProgram)
    (hinv : TableInv t) (hdec : t.TargetsDecrease) (id : Nat) (hid : id < t.size) :
    ∃ n : Nat, (∀ fuel, id < fuel → t.GetProgramRecursiveSize fuel (id : Int) = some n) ∧
      (∀ p, t.simple_prog id = some p →
        n = p.eq_program.length + p.context_program.length) ∧
      (∀ prog, t.branched_prog id = some prog → ∃ sizes : List Nat,
        (∀ fuel, id ≤ fuel →
          prog.GetReferencedPrograms.map (t.GetProgramRecursiveSize fuel) = sizes.map some) ∧
        (prog.cond.program.length + sizes.sum < 2147483648 →
          n = prog.cond.program.length + sizes.sum)) := by
  obtain ⟨n, hn⟩ := GetProgramRecursiveSize_total t hinv hdec id hid
  refine ⟨n, hn, ?_, ?_⟩
  · intro p hp
    have h := hn (id + 1) (by omega)
    rcases TableInv_entry t hinv id hid with ⟨p1, h1, h2, _⟩ | ⟨prog, _, _, h3⟩
    · rw [GetProgramRecursiveSize_succ, if_neg (by omega), Int.toNat_ofNat, h1] at h
      simp only [h2, Option.map_some', Option.some.injEq] at h
      rw [hp] at h2
      rw [← h, Option.some.inj h2]
    · rw [hp] at h3
      exact Option.noConfusion h3
  · intro prog hprog
    obtain ⟨hd, hcases⟩ := hdec id prog hprog
    have hrefs : ∀ r ∈ prog.GetReferencedPrograms, 0 ≤ r ∧ r < (id : Int) := by
      intro r hr
      rcases mem_GetReferencedPrograms prog r hr with h | ⟨e, he, h⟩
      · rw [h]
        exact hd
      · rw [← h]
        exact hcases e he
    have hg : ∀ r ∈ prog.GetReferencedPrograms, ∀ fuel, id ≤ fuel →
        t.GetProgramRecursiveSize fuel r
          = some ((t.GetProgramRecursiveSize t.size r).getD 0) := by
      intro r hr fuel hfuel
      obtain ⟨hr0, hr1⟩ := hrefs r hr
      obtain ⟨k, hk⟩ := GetProgramRecursiveSize_total t hinv hdec r.toNat (by omega)
      have e : ((r.toNat : Nat) : Int) = r := Int.toNat_of_nonneg hr0
      rw [e] at hk
      rw [hk fuel (by omega), hk t.size (by omega)]
      rfl
    refine ⟨prog.GetReferencedPrograms.map
      (fun r => (t.GetProgramRecursiveSize t.size r).getD 0), ?_, ?_⟩
    · intro fuel hfuel
      rw [List.map_map]
      apply List.map_congr_left
      intro r hr
      exact hg r hr fuel hfuel
    · intro hsum
      have h := hn (id + 1) (by omega)
      rcases TableInv_entry t hinv id hid with ⟨_, _, _, h3⟩ | ⟨prog1, h1, h2, _⟩
      · rw [hprog] at h3
        exact Option.noConfusion h3
      · rw [hprog] at h2
        have e : prog = prog1 := Option.some.inj h2
        subst e
        rw [GetProgramRecursiveSize_succ, if_neg (by omega), Int.toNat_ofNat, h1] at h
        simp only [hprog, Option.some_bind] at h
        rw [recursiveSizeLoop_eq _ (fun r => (t.GetProgramRecursiveSize t.size r).getD 0) _ _
          (fun r hr => hg r hr id (le_refl _))] at h
        have hlen : toSigned prog.cond.program.length = (prog.cond.program.length : Int) := by
          have := toSigned_add_exact 0 prog.cond.program.length (le_refl _) (by omega)
          simpa [toUnsigned] using this
        rw [hlen, recursiveSize_fold_exact _ _ _ (by omega) (by omega)] at h
        simp only [Option.map_some', Option.some.injEq] at h
        rw [← h]
        omega

theorem GetProgramRecursiveSize_is_condition_length_plus_referenced_witness :
    TableInv decreasing_model.program_ ∧ decreasing_model.program_.TargetsDecrease ∧
    decreasing_model.program_.GetProgramRecursiveSize 3 2 = some 4 ∧
    ∃ n : Nat,
      (∀ fuel, 2 < fuel →
        decreasing_model.program_.GetProgramRecursiveSize fuel ((2 : Nat) : Int) = some n) ∧
      (∀ p, decreasing_model.program_.simple_prog 2 = some p →
        n = p.eq_program.length + p.context_program.length) ∧
      (∀ prog, decreasing_model.program_.branched_prog 2 = some prog → ∃ sizes : List Nat,
        (∀ fuel, 2 ≤ fuel →
          prog.GetReferencedPrograms.map (decreasing_model.program_.GetProgramRecursiveSize fuel)
            = sizes.map some) ∧
        (prog.cond.program.length + sizes.sum < 2147483648 →
          n = prog.cond.program.length + sizes.sum)) :=
  ⟨by unfold TableInv; decide, decreasing_model_resolves.1, by decide,
   GetProgramRecursiveSize_is_condition_length_plus_referenced decreasing_model.program_
     (by unfold TableInv; decide) decreasing_model_resolves.1 2 (by decide)⟩

/-- The consistency check on a chain: it passes and returns the number of the nodes when the
depth is enough for the tree of the chain, and the `CHECK` of the depth fails otherwise. -/
theorem check_chain_depth (s : TreeStorage) (pnode : Option TreeNode) (t : FT) :
    ∀ (id p ls ci : Int) (L : List Nat) (last : Int) (depth : Nat),
      Chain s t id p ls ci L last → t ≠ .eps → 0 ≤ p →
      (∃ pn, s.nodeAt p = some pn ∧ pn.last_child = last ∧ (ls < 0 → pn.first_child = id)) →
      (ls < 0 → ci = 0) →
      (0 ≤ ls → ∃ l, s.nodeAt ls = some l ∧ l.right_sib = id ∧ l.parent = p ∧
        l.child_index + 1 = ci) →
      s.CheckNodeConsistencyRecursive pnode depth id
        = if t.height ≤ depth then some (t.size : Int) else none := by
  induction t with
  | eps => intro id p ls ci L last depth _ h; exact absurd rfl h
  | node ty v c sb ihc ihs =>
    intro id p ls ci L last depth h _ hp hpn hci hl
    have hT := h
    obtain ⟨hid, n, Lc, Ls, hn, hnt, hnv, hnp, hnl, hnc, hcc, hcs, hL⟩ := h
    cases depth with
    | zero =>
      rw [if_neg (by simp only [FT.height]; omega)]
      rfl
    | succ d =>
    simp only [FT.height]
    obtain ⟨pn, hpn1, hpn2, hpn3⟩ := hpn
    rw [check_step s pnode d id n hn]
    · -- the two recursive calls
      have hA : (if n.first_child ≥ 0 then
            s.CheckNodeConsistencyRecursive pnode d n.first_child else some 0)
          = if c.height ≤ d then some (c.size : Int) else none := by
        cases c with
        | eps =>
          have : n.first_child = -1 := hcc.1
          simp [this, FT.size, FT.height]
        | node ty1 v1 c1 sb1 =>
          have h0 : 0 < n.first_child := hcc.1
          rw [if_pos (by omega)]
          apply ihc _ _ _ _ _ _ d hcc (by simp) (le_of_lt hid)
          · exact ⟨n, hn, rfl, fun _ => rfl⟩
          · intro _; rfl
          · intro h; exact absurd h (by decide)
      have hB : (if n.right_sib ≥ 0 then
            s.CheckNodeConsistencyRecursive pnode d n.right_sib else some 0)
          = if sb.height ≤ d then some (sb.size : Int) else none := by
        cases sb with
        | eps =>
          have : n.right_sib = -1 := hcs.1
          simp [this, FT.size, FT.height]
        | node ty1 v1 c1 sb1 =>
          have h0 : 0 < n.right_sib := hcs.1
          rw [if_pos (by omega)]
          apply ihs _ _ _ _ _ _ d hcs (by simp) hp
          · exact ⟨pn, hpn1, hpn2, fun h => by omega⟩
          · intro h; omega
          · intro _
            exact ⟨n, hn, rfl, hnp, by rw [hnc]⟩
      rw [hA, hB]
      by_cases h1 : c.height ≤ d
      · by_cases h2 : sb.height ≤ d
        · rw [if_pos h1, if_pos h2, if_pos (by omega)]
          simp only [Option.some_bind, Option.map_some', FT.size]
          exact congrArg some (by omega)
        · rw [if_pos h1, if_neg h2, if_neg (by omega)]
          rfl
      · rw [if_neg h1, if_neg (show ¬ (1 + max c.height sb.height ≤ d + 1) by omega)]
        rfl
    · rw [hnp]; unfold TREEPOINTER_DEALLOCATED; omega
    · intro _ h
      rw [hnp]
      rw [hnl] at h
      exact ⟨pn, hpn1, hpn3 h⟩
    · intro h
      rw [hnl] at h
      rw [if_neg (by omega), hnc]
      exact hci h
    · intro h
      rw [hnl] at h ⊢
      obtain ⟨l, h1, h2, h3, h4⟩ := hl h
      exact ⟨l, h1, h2, by rw [h3, hnp], by rw [h4, hnc]⟩
    · intro h
      cases sb with
      | eps =>
        have : n.right_sib = -1 := hcs.1
        omega
      | node ty1 v1 c1 sb1 =>
        obtain ⟨_, n1, _, _, hn1, _, _, _, hl1, _⟩ := hcs
        exact ⟨n1, hn1, hl1⟩
    · intro _ h
      rw [hnp]
      cases sb with
      | eps =>
        have : last = id := hcs.2.2
        exact ⟨pn, hpn1, by rw [hpn2, this]⟩
      | node ty1 v1 c1 sb1 =>
        have : 0 < n.right_sib := hcs.1
        omega
    · intro h
      cases c with
      | eps =>
        have : n.first_child = -1 := hcc.1
        omega
      | node ty1 v1 c1 sb1 =>
        obtain ⟨_, n1, _, _, hn1, _, _, hp1, _⟩ := hcc
        exact ⟨n1, hn1, hp1⟩
    · intro h
      cases c with
      | eps =>
        have : n.last_child = -1 := hcc.2.2
        omega
      | node ty1 v1 c1 sb1 =>
        obtain ⟨_, _, nl, h1, h2, _⟩ := Chain_last s _ _ _ _ _ _ _ hcc (by simp)
        exact ⟨nl, h1, h2⟩

/-- The consistency check on a well-formed store passes when its depth is enough for the tree,
and fails at the `CHECK` of the depth otherwise. -/
theorem WF_check_depth (m : Memory) (s : TreeStorage) (ty v : Int) (T : FT) (L F : List Nat)
    (h : WF m s ty v T L F) (depth : Nat) :
    s.checkConsistencyAt m depth = if T.height < depth then some () else none := by
  by_cases hd : T.height < depth
  · rw [if_pos hd]
    exact WF_check m s ty v T L F h depth hd
  · rw [if_neg hd]
    obtain ⟨r, hr, hrt, hrv, h3, h4, h5, h6, h7, hch, hF, hnd, h0F, hlen⟩ := h
    have hroot : s.CheckNodeConsistencyRecursive (m.nodeAt s.parent_ s.position_in_parent_)
        depth 0 = none := by
      cases depth with
      | zero => rfl
      | succ d =>
      rw [check_step s _ d 0 r hr h4]
      · have hA : (if r.first_child ≥ 0 then
              s.CheckNodeConsistencyRecursive (m.nodeAt s.parent_ s.position_in_parent_) d
                r.first_child else some 0)
            = none := by
          cases T with
          | eps =>
            simp only [FT.height] at hd
            omega
          | node ty1 v1 c1 sb1 =>
            have h0 : 0 < r.first_child := hch.1
            rw [if_pos (by omega)]
            rw [check_chain_depth s _ _ _ _ _ _ _ _ d hch (by simp) (le_refl _)
              ⟨r, hr, rfl, fun _ => rfl⟩ (fun _ => rfl) (fun h => absurd h (by decide))]
            rw [if_neg (by omega)]
        rw [hA]
        rfl
      · intro h; omega
      · intro _
        unfold rootIndexOK at h7
        by_cases hp : s.parent_.isSome = true
        · rw [if_pos hp] at h7
          rw [if_pos ⟨rfl, hp⟩]
          exact h7
        · rw [if_neg hp] at h7
          rw [if_neg (fun h => hp h.2)]
          exact h7
      · intro h; omega
      · intro h; omega
      · intro h; omega
      · intro h
        cases T with
        | eps =>
          have : r.first_child = -1 := hch.1
          omega
        | node ty1 v1 c1 sb1 =>
          obtain ⟨_, n1, _, _, hn1, _, _, hp1, _⟩ := hch
          exact ⟨n1, hn1, hp1⟩
      · intro h
        cases T with
        | eps =>
          have : r.last_child = -1 := hch.2.2
          omega
        | node ty1 v1 c1 sb1 =>
          obtain ⟨_, _, nl, h1, h2, _⟩ := Chain_last s _ _ _ _ _ _ _ hch (by simp)
          exact ⟨nl, h1, h2⟩
    unfold TreeStorage.checkConsistencyAt
    rw [hroot]
    rfl

/-- The height of the tree of `k` siblings. -/
theorem wideTree_height (k : Nat) : (wideTree k).height = k := by
  have key : ∀ l : List Nat,
      (l.foldr (fun _ sb => FT.node 1 2 .eps sb) .eps).height = l.length := by
    intro l
    induction l with
    | nil => rfl
    | cons a l ih =>
      simp only [List.foldr_cons, FT.height, ih, List.length_cons]
      omega
  unfold wideTree
  rw [key, List.length_range]

/-- Claim C39, as stated, fails. The store `wideStore 33`, whose root has 33 children, is well
formed: the pointers to parents, siblings and children, the child indices and the free list
agree. `CheckConsistency` fails on it, at the `CHECK` "Max depth reached" of the 33rd child,
which the recursion reaches with `max_depth == -1`. -/
theorem CheckConsistency_fails_on_33_children :
    WF [] (wideStore 33) 7 70 (wideTree 33) (List.range' 1 33) [] ∧
    (wideTree 33).height = 33 ∧ (wideStore 33).CheckConsistency [] = none := by
  have h : WF [] (wideStore 33) 7 70 (wideTree 33) (List.range' 1 33) [] :=
    wfCheck_sound [] (wideStore 33) 7 70 (wideTree 33) (List.range' 1 33) [] (by decide)
  have hh : (wideTree 33).height = 33 := wideTree_height 33
  refine ⟨h, hh, ?_⟩
  rw [CheckConsistency_eq, WF_check_depth [] _ _ _ _ _ _ h 33, hh]
  rfl

/-- Claim C39, amended. On a well-formed store, whose pointers to parents, siblings and
children, child indices and free list agree, `CheckConsistency` passes when the tree below the
root has a height of at most 32 in the recursion of the check, which goes one level down for a
first child and for a right sibling alike, and it fails at the `CHECK` of the depth otherwise:
it does not pass on a store in which a node has more than 32 children or which is deeper than
32 levels. -/
theorem CheckConsistency_passes_up_to_height_32 (m : Memory) (s : TreeStorage) (ty v : Int)
    (T : FT) (L F : List Nat) (h : WF m s ty v T L F) :
    s.CheckConsistency m = if T.height < 33 then some () else none := by
  rw [CheckConsistency_eq]
  exact WF_check_depth m s ty v T L F h 33

theorem CheckConsistency_passes_up_to_height_32_witness :
    WF [] (wideStore 32) 7 70 (wideTree 32) (List.range' 1 32) [] ∧
    (wideTree 32).height = 32 ∧
    (wideStore 32).CheckConsistency [] = if (wideTree 32).height < 33 then some () else none :=
  have h : WF [] (wideStore 32) 7 70 (wideTree 32) (List.range' 1 32) [] :=
    wfCheck_sound [] (wideStore 32) 7 70 (wideTree 32) (List.range' 1 32) [] (by decide)
  And.intro h (And.intro (wideTree_height 32)
    (CheckConsistency_passes_up_to_height_32 [] (wideStore 32) 7 70 (wideTree 32)
      (List.range' 1 32) [] h))

/-- The body that `SubstituteSingleNode` and `SubstituteNodeType` have in common, at a node
`pos` of a well-formed store with the nodes `Lc` below it: the children of `pos` are removed,
`pos` gets the type `ty1` and the value `v1`, an unknown first child is written when `child`
holds and an unknown right sibling when `right` holds and `pos` is not the root. The calls
return, and a node of the store before the calls that is neither `pos` nor a node below `pos`
has its type and value, except the right sibling that `pos` had, which has the type and the value
`UNKNOWN_LABEL` when the right sibling is written. -/
theorem labels_frame (m : Memory) (s : TreeStorage) (hc : Consistent m s) (pos : Int)
    (n : TreeNode) (hn : s.nodeAt pos = some n) (hp : n.parent ≠ TREEPOINTER_DEALLOCATED)
    (c : FT) (Lc : List Nat) (hch : Chain s c n.first_child pos (-1) 0 Lc n.last_child)
    (fuel : Nat) (hfuel : s.nodes_.length ≤ fuel) (ty1 v1 : Int) (child right : Prop)
    [Decidable child] [Decidable right]
    (hty : ty1 ≠ EMPTY_NODE_LABEL ∨ (¬ child ∧ (¬ right ∨ pos = 0))) :
    ∃ s1,
      ((s.RemoveNodeChildren fuel pos).bind fun s1 =>
        (s1.modifyNode pos fun x => { x with type := ty1, value := v1 }).bind fun s2 =>
        (if child then (s2.writeUnknownChild pos).map Prod.fst else some s2).bind fun s3 =>
        if right ∧ pos ≠ 0 then (s3.writeUnknownRight pos false).map Prod.fst
        else some s3) = some s1 ∧
      ∀ (j : Int) (nj : TreeNode), s.nodeAt j = some nj →
        nj.parent ≠ TREEPOINTER_DEALLOCATED → j ≠ pos → (∀ i ∈ Lc, j ≠ (i : Int)) →
        ∃ nj1, s1.nodeAt j = some nj1 ∧
          if j = n.right_sib ∧ right ∧ pos ≠ 0 then
            nj1.type = UNKNOWN_LABEL ∧ nj1.value = UNKNOWN_LABEL
          else nj1.type = nj.type ∧ nj1.value = nj.value := by
  have hsize : c.size < fuel := by
    obtain ⟨c', Lc', hch', hlt⟩ := children_chain m s hc pos n hn hp
    obtain ⟨e1, _⟩ := Chain_determined s c c' _ _ _ _ _ _ _ _ _ _ _ hch hch'
    rw [e1]
    omega
  -- the children are removed
  obtain ⟨s1, hs1, hc1, hat1, hfr1, _, _⟩ :=
    RemoveNodeChildren_spec m s hc pos n hn hp c Lc hch fuel hsize
  -- the node gets its type and value
  obtain ⟨s2, hs2, hc2, hat2⟩ := relabel_spec m s1 hc1 pos _ hat1 hp ty1 v1
  have hx2 := hat2 pos
  rw [if_pos rfl] at hx2
  have hfr2 : ∀ (j : Int) (nj : TreeNode), s.nodeAt j = some nj → j ≠ pos →
      (∀ i ∈ Lc, j ≠ (i : Int)) → s2.nodeAt j = some nj := by
    intro j nj hj hjp hjL
    rw [hat2 j, if_neg hjp, hfr1 j hjL hjp, hj]
  -- the first child
  have hstep3 : ∃ s3 n3, (if child then (s2.writeUnknownChild pos).map Prod.fst else some s2)
        = some s3 ∧ Consistent m s3 ∧ s3.nodeAt pos = some n3 ∧ n3.type = ty1 ∧
      n3.parent = n.parent ∧ n3.right_sib = n.right_sib ∧
      ∀ (j : Int) (nj : TreeNode), s.nodeAt j = some nj →
        nj.parent ≠ TREEPOINTER_DEALLOCATED → j ≠ pos → (∀ i ∈ Lc, j ≠ (i : Int)) →
        s3.nodeAt j = some nj := by
    by_cases hch1 : child
    · have hty1 : ty1 ≠ EMPTY_NODE_LABEL := by
        rcases hty with h | h
        · exact h
        · exact absurd hch1 h.1
      obtain ⟨s3, y, hw, hc3, _, hy, _, _, hat3, hfr3⟩ :=
        writeUnknownChild_new m s2 hc2 pos _ hx2 hp hty1 (by show (-1 : Int) < 0; decide)
      refine ⟨s3, _, by rw [if_pos hch1, hw]; rfl, hc3, hat3, rfl, rfl, rfl, ?_⟩
      intro j nj hj hjd hjp hjL
      have h2 := hfr2 j nj hj hjp hjL
      rw [hfr3 j ?_ hjp, h2]
      intro e
      rw [e] at h2
      exact hy ⟨nj, h2, hjd⟩
    · refine ⟨s2, _, by rw [if_neg hch1], hc2, hx2, rfl, rfl, rfl, ?_⟩
      intro j nj hj _ hjp hjL
      exact hfr2 j nj hj hjp hjL
  obtain ⟨s3, n3, hs3, hc3, hat3, hn3t, hn3p, hn3r, hfr3⟩ := hstep3
  rw [hs1, Option.some_bind, hs2, Option.some_bind, hs3, Option.some_bind]
  have hp3 : n3.parent ≠ TREEPOINTER_DEALLOCATED := by rw [hn3p]; exact hp
  -- the right sibling
  by_cases hr : right ∧ pos ≠ 0
  · rw [if_pos hr]
    have hty1 : ty1 ≠ EMPTY_NODE_LABEL := by
      rcases hty with h | h
      · exact h
      · rcases h.2 with h2 | h2
        · exact absurd hr.1 h2
        · exact absurd h2 hr.2
    by_cases hrs : 0 ≤ n.right_sib
    · obtain ⟨s4, r0, hr0, hw, _, hat4⟩ :=
        writeUnknownRight_old m s3 hc3 pos false n3 hat3 hp3 hr.2 (by rw [hn3t]; exact hty1)
          (by rw [hn3r]; exact hrs)
      rw [hn3r] at hw hat4 hr0
      refine ⟨s4, by rw [hw]; rfl, ?_⟩
      intro j nj hj hjd hjp hjL
      have h3 := hfr3 j nj hj hjd hjp hjL
      by_cases hjr : j = n.right_sib
      · refine ⟨_, by rw [hat4 j, if_pos ⟨hjr, by simp⟩], ?_⟩
        rw [if_pos ⟨hjr, hr⟩]
        exact ⟨rfl, rfl⟩
      · refine ⟨nj, by rw [hat4 j, if_neg (fun h => hjr h.1), h3], ?_⟩
        rw [if_neg (fun h => hjr h.1)]
        exact ⟨rfl, rfl⟩
    · obtain ⟨s4, y, pn, hpn, hw, _, _, hy, _, _, _, _, hat4p, hfr4⟩ :=
        writeUnknownRight_new m s3 hc3 pos false n3 hat3 hp3 hr.2 (by rw [hn3t]; exact hty1)
          (by rw [hn3r]; omega)
      rw [hn3p] at hpn hat4p hfr4
      refine ⟨s4, by rw [hw]; rfl, ?_⟩
      intro j nj hj hjd hjp hjL
      have h3 := hfr3 j nj hj hjd hjp hjL
      have hjr : ¬ (j = n.right_sib ∧ right ∧ pos ≠ 0) := by
        intro h
        rw [h.1, nodeAt_neg s _ (by omega)] at hj
        exact Option.noConfusion hj
      have hjy : j ≠ (y : Int) := by
        intro e
        rw [e] at h3
        exact hy ⟨nj, h3, hjd⟩
      by_cases hjpar : j = n.parent
      · rw [hjpar] at h3
        rw [hpn] at h3
        have e : pn = nj := Option.some.inj h3
        refine ⟨{ pn with last_child := (y : Int) }, by rw [hjpar, hat4p], ?_⟩
        rw [if_neg hjr, e]
        exact ⟨rfl, rfl⟩
      · refine ⟨nj, by rw [hfr4 j hjy hjp hjpar, h3], ?_⟩
        rw [if_neg hjr]
        exact ⟨rfl, rfl⟩
  · rw [if_neg hr]
    refine ⟨s3, rfl, ?_⟩
    intro j nj hj hjd hjp hjL
    refine ⟨nj, hfr3 j nj hj hjd hjp hjL, ?_⟩
    rw [if_neg (fun h => hr h.2)]
    exact ⟨rfl, rfl⟩

/-- Claim C37: `SubstituteNodeType` and `SubstituteSingleNode` overwrite the labels of a right
sibling that the node already has. In `substitute_store` the node 1 has the right sibling 2 of
type 12 and value 22, which is not below the node 1. After `SubstituteNodeType(1, 5)`, and
after `SubstituteSingleNode(1, n)` for an `n` whose `right_sib` is the marker -2, which
`CanSubstituteSingleNode` allows, the node 2 has the type and the value `UNKNOWN_LABEL`: the
block that goes to the right of the node writes them into the sibling that is there. The
function `SubstituteNode` writes them only into a node of the type `EMPTY_NODE_LABEL`
(`if (it.node().type == TreeNode::EMPTY_NODE_LABEL)`), a node that is not there yet: with the
substitution of the one entry `n` it leaves the node 2 with its type and value. -/
theorem SubstituteNodeType_overwrites_existing_right_sibling :
    substitute_store.CanSubstituteNodeType 1 5 = some true ∧
    substitute_store.CanSubstituteSingleNode 1 ⟨5, 50, -1, -2⟩ = some true ∧
    substitute_store.CanSubstituteNode 1 ⟨[⟨5, 50, -1, -2⟩]⟩ = some true ∧
    (substitute_store.nodeAt 1).map (fun n => (n.right_sib, n.first_child)) = some (2, 3) ∧
    (substitute_store.nodeAt 2).map (fun n => (n.type, n.value)) = some (12, 22) ∧
    ((substitute_store.SubstituteNodeType 10 1 5).bind fun s1 =>
        (s1.nodeAt 2).map fun n => (n.type, n.value))
      = some (UNKNOWN_LABEL, UNKNOWN_LABEL) ∧
    ((substitute_store.SubstituteSingleNode 10 1 ⟨5, 50, -1, -2⟩).bind fun s1 =>
        (s1.nodeAt 2).map fun n => (n.type, n.value))
      = some (UNKNOWN_LABEL, UNKNOWN_LABEL) ∧
    ((substitute_store.SubstituteNode 10 1 ⟨[⟨5, 50, -1, -2⟩]⟩).bind fun s1 =>
        (s1.nodeAt 2).map fun n => (n.type, n.value))
      = some (12, 22) := by
  decide

/-- The labels that `SubstituteSingleNode` and `SubstituteNodeType` keep. At a node `pos` of a
well-formed store, with the nodes `Lc` below it,
`SubstituteSingleNode(pos, node)` (for a `node` whose type is not `EMPTY_NODE_LABEL`, or that
asks for no child and for no right sibling) and `SubstituteNodeType(pos, type)` with a type that
is not `EMPTY_NODE_LABEL` return, and every node that existed before the call and is neither
`pos` nor a node below `pos` keeps its type and value, except the right sibling that `pos`
already had: when the call writes the right sibling (`pos` is not the root, and for
`SubstituteSingleNode` the `right_sib` of `node` is not -1), this sibling gets the type and the
value `UNKNOWN_LABEL`. -/
theorem SubstituteSingleNode_and_NodeType_keep_other_labels (m : Memory) (s : TreeStorage)
    (hc : Consistent m s) (pos : Int) (n : TreeNode) (hn : s.nodeAt pos = some n)
    (hp : n.parent ≠ TREEPOINTER_DEALLOCATED) (c : FT) (Lc : List Nat)
    (hch : Chain s c n.first_child pos (-1) 0 Lc n.last_child)
    (fuel : Nat) (hfuel : s.nodes_.length ≤ fuel) :
    (∀ node : TreeSubstitution.Node,
      (node.type ≠ EMPTY_NODE_LABEL ∨
        (node.first_child = -1 ∧ (node.right_sib = -1 ∨ pos = 0))) →
      ∃ s1, s.SubstituteSingleNode fuel pos node = some s1 ∧
        ∀ (j : Int) (nj : TreeNode), s.nodeAt j = some nj →
          nj.parent ≠ TREEPOINTER_DEALLOCATED → j ≠ pos → (∀ i ∈ Lc, j ≠ (i : Int)) →
          ∃ nj1, s1.nodeAt j = some nj1 ∧
            if j = n.right_sib ∧ node.right_sib ≠ -1 ∧ pos ≠ 0 then
              nj1.type = UNKNOWN_LABEL ∧ nj1.value = UNKNOWN_LABEL
            else nj1.type = nj.type ∧ nj1.value = nj.value) ∧
    (∀ type : Int, type ≠ EMPTY_NODE_LABEL →
      ∃ s1, s.SubstituteNodeType fuel pos type = some s1 ∧
        ∀ (j : Int) (nj : TreeNode), s.nodeAt j = some nj →
          nj.parent ≠ TREEPOINTER_DEALLOCATED → j ≠ pos → (∀ i ∈ Lc, j ≠ (i : Int)) →
          ∃ nj1, s1.nodeAt j = some nj1 ∧
            if j = n.right_sib ∧ pos ≠ 0 then
              nj1.type = UNKNOWN_LABEL ∧ nj1.value = UNKNOWN_LABEL
            else nj1.type = nj.type ∧ nj1.value = nj.value) := by
  constructor
  · intro node hnode
    have hty : node.type ≠ EMPTY_NODE_LABEL ∨
        (¬ (node.first_child ≠ -1) ∧ (¬ (node.right_sib ≠ -1) ∨ pos = 0)) := by
      rcases hnode with h | ⟨h1, h2⟩
      · exact Or.inl h
      · refine Or.inr ⟨fun h => h h1, ?_⟩
        rcases h2 with h2 | h2
        · exact Or.inl (fun h => h h2)
        · exact Or.inr h2
    exact labels_frame m s hc pos n hn hp c Lc hch fuel hfuel node.type node.value
      (node.first_child ≠ -1) (node.right_sib ≠ -1) hty
  · intro type htype
    obtain ⟨s1, h1, h2⟩ := labels_frame m s hc pos n hn hp c Lc hch fuel hfuel type
      UNKNOWN_LABEL True True (Or.inl htype)
    refine ⟨s1, ?_, ?_⟩
    · unfold TreeStorage.SubstituteNodeType
      rw [if_neg htype, ← h1]
      cases s.RemoveNodeChildren fuel pos with
      | none => rfl
      | some a =>
        simp only [Option.some_bind]
        cases a.modifyNode pos fun x => { x with type := type, value := UNKNOWN_LABEL } with
        | none => rfl
        | some b =>
          simp only [Option.some_bind, if_true, true_and]
          cases b.writeUnknownChild pos with
          | none => rfl
          | some r => rfl
    · intro j nj hj hjd hjp hjL
      obtain ⟨nj1, g1, g2⟩ := h2 j nj hj hjd hjp hjL
      refine ⟨nj1, g1, ?_⟩
      simp only [true_and] at g2
      exact g2

theorem SubstituteSingleNode_and_NodeType_keep_other_labels_witness :
    Consistent [] substitute_store ∧
    Chain substitute_store (.node 13 23 .eps .eps)
      (TreeNode.mk 11 21 0 (-1) 2 3 3 0).first_child 1 (-1) 0 [3]
      (TreeNode.mk 11 21 0 (-1) 2 3 3 0).last_child ∧
    (∀ node : TreeSubstitution.Node,
      (node.type ≠ EMPTY_NODE_LABEL ∨
        (node.first_child = -1 ∧ (node.right_sib = -1 ∨ (1 : Int) = 0))) →
      ∃ s1, substitute_store.SubstituteSingleNode 10 1 node = some s1 ∧
        ∀ (j : Int) (nj : TreeNode), substitute_store.nodeAt j = some nj →
          nj.parent ≠ TREEPOINTER_DEALLOCATED → j ≠ 1 → (∀ i ∈ [3], j ≠ ((i : Nat) : Int)) →
          ∃ nj1, s1.nodeAt j = some nj1 ∧
            if j = (TreeNode.mk 11 21 0 (-1) 2 3 3 0).right_sib ∧ node.right_sib ≠ -1 ∧
                (1 : Int) ≠ 0 then
              nj1.type = UNKNOWN_LABEL ∧ nj1.value = UNKNOWN_LABEL
            else nj1.type = nj.type ∧ nj1.value = nj.value) ∧
    (∀ type : Int, type ≠ EMPTY_NODE_LABEL →
      ∃ s1, substitute_store.SubstituteNodeType 10 1 type = some s1 ∧
        ∀ (j : Int) (nj : TreeNode), substitute_store.nodeAt j = some nj →
          nj.parent ≠ TREEPOINTER_DEALLOCATED → j ≠ 1 → (∀ i ∈ [3], j ≠ ((i : Nat) : Int)) →
          ∃ nj1, s1.nodeAt j = some nj1 ∧
            if j = (TreeNode.mk 11 21 0 (-1) 2 3 3 0).right_sib ∧ (1 : Int) ≠ 0 then
              nj1.type = UNKNOWN_LABEL ∧ nj1.value = UNKNOWN_LABEL
            else nj1.type = nj.type ∧ nj1.value = nj.value) :=
  have hc : Consistent [] substitute_store :=
    ⟨10, 20, substitute_store_tree, [1, 3, 2, 4], [],
      wfCheck_sound [] substitute_store 10 20 substitute_store_tree [1, 3, 2, 4] []
        (by decide)⟩
  have hch : Chain substitute_store (.node 13 23 .eps .eps)
      (TreeNode.mk 11 21 0 (-1) 2 3 3 0).first_child 1 (-1) 0 [3]
      (TreeNode.mk 11 21 0 (-1) 2 3 3 0).last_child :=
    chainCheck_sound substitute_store (.node 13 23 .eps .eps) 3 1 (-1) 0 [3] 3 (by decide)
  ⟨hc, hch,
   SubstituteSingleNode_and_NodeType_keep_other_labels [] substitute_store hc 1
     ⟨11, 21, 0, -1, 2, 3, 3, 0⟩ (by decide) (by decide) (.node 13 23 .eps .eps) [3] hch 10
     (by decide)⟩

/-- Two sets of integers in increasing order with the same elements are equal. -/
theorem SortedSet_ext (a b : List Int) (ha : SortedSet a) (hb : SortedSet b)
    (h : ∀ x, x ∈ a ↔ x ∈ b) : a = b := by
  have na : a.Nodup := ha.imp (fun h => ne_of_lt h)
  have nb : b.Nodup := hb.imp (fun h => ne_of_lt h)
  exact List.eq_of_perm_of_sorted ((List.perm_ext_iff_of_nodup na nb).mpr h) ha hb

/-- The set of the referenced programs is in increasing order. -/
theorem sorted_GetReferencedPrograms (p : BranchCondProgram) :
    SortedSet p.GetReferencedPrograms ∧
    ∀ y, y ∈ p.GetReferencedPrograms ↔ y = p.p_default ∨ ∃ it ∈ p.per_case_p, it.2 = y := by
  obtain ⟨h1, h2⟩ := insertAll_spec p.per_case_p [] List.Pairwise.nil
  refine ⟨sorted_setInsert _ _ h1, ?_⟩
  intro y
  unfold BranchCondProgram.GetReferencedPrograms
  rw [mem_setInsert, h2]
  simp

/-- The cases of the default program do not count for the programs of the clauses. -/
theorem caseTargets_dropDefaultCases (p : BranchCondProgram) :
    caseTargets (dropDefaultCases p) = caseTargets p := by
  have hs : ∀ q : BranchCondProgram, SortedSet (caseTargets q) := by
    intro q
    unfold caseTargets setErase
    exact List.Pairwise.filter _ (sorted_GetReferencedPrograms q).1
  apply SortedSet_ext _ _ (hs _) (hs _)
  intro y
  rw [(caseTargets_spec _).2, (caseTargets_spec _).2]
  simp only [dropDefaultCases, List.mem_filter, decide_eq_true_eq]
  constructor
  · rintro ⟨⟨it, ⟨h1, _⟩, h3⟩, h4⟩
    exact ⟨⟨it, h1, h3⟩, h4⟩
  · rintro ⟨⟨it, h1, h3⟩, h4⟩
    exact ⟨⟨it, ⟨h1, by rw [h3]; exact h4⟩, h3⟩, h4⟩

/-- The loop over the cases for a program other than `d` skips the cases of `d`. -/
theorem casesToStringLoop_filter (ss : StringSet) (n d : Int) (hnd : n ≠ d) (l : CaseMap) :
    ∀ (first_cond : Bool) (result : Str),
      casesToStringLoop ss n (l.filter (fun it => it.2 ≠ d)) first_cond result
        = casesToStringLoop ss n l first_cond result := by
  induction l with
  | nil => intro _ _; rfl
  | cons it l ih =>
    intro first_cond result
    by_cases h : it.2 = d
    · have hn : ¬ it.2 = n := fun e => hnd (e.symm.trans h)
      rw [List.filter_cons_of_neg (by simp [h])]
      rw [ih]
      simp only [casesToStringLoop, if_neg hn]
    · rw [List.filter_cons_of_pos (by simp [h])]
      simp only [casesToStringLoop]
      by_cases hn : it.2 = n
      · rw [if_pos hn, if_pos hn]
        cases CaseToString it.1 ss with
        | none => rfl
        | some s => exact ih _ _
      · rw [if_neg hn, if_neg hn]
        exact ih _ _

/-- The loop over the programs writes the same clauses without the cases of the default
program. -/
theorem programsToStringLoop_dropDefaultCases (ss : StringSet) (p : BranchCondProgram)
    (ts : List Int) :
    ∀ result : Str,
      programsToStringLoop ss (dropDefaultCases p) ts result
        = programsToStringLoop ss p ts result := by
  induction ts with
  | nil => intro _; rfl
  | cons n ts ih =>
    intro result
    simp only [programsToStringLoop]
    have hd : (dropDefaultCases p).p_default = p.p_default := rfl
    rw [hd]
    by_cases h : n = p.p_default
    · rw [if_pos h, if_pos h]
      exact ih _
    · rw [if_neg h, if_neg h]
      have : (dropDefaultCases p).per_case_p
          = p.per_case_p.filter (fun it => it.2 ≠ p.p_default) := rfl
      rw [this, casesToStringLoop_filter ss n p.p_default h]
      cases casesToStringLoop ss n p.per_case_p true (result ++ " on \"".toList) with
      | none => rfl
      | some r => exact ih _

/-- The line of a branched program is the line of the program without the cases of its
default program. -/
theorem ToStringAsProgramLine_dropDefaultCases (ss : StringSet) (p : BranchCondProgram) :
    (dropDefaultCases p).ToStringAsProgramLine ss = p.ToStringAsProgramLine ss := by
  unfold BranchCondProgram.ToStringAsProgramLine
  simp only
  have h1 : setErase (dropDefaultCases p).GetReferencedPrograms (dropDefaultCases p).p_default
      = setErase p.GetReferencedPrograms p.p_default := caseTargets_dropDefaultCases p
  rw [h1]
  exact programsToStringLoop_dropDefaultCases ss p _ _

/-- A readable program without the cases of its default program is given back by its line. -/
theorem BranchProgOK_dropDefaultCases (ss : StringSet) (p : BranchCondProgram)
    (h : BranchProgReadable ss p) : BranchProgOK ss (dropDefaultCases p) := by
  obtain ⟨h1, h2, h3, h4⟩ := h
  refine ⟨h1, List.Pairwise.filter _ h2, ?_, h4⟩
  intro it hit
  simp only [dropDefaultCases, List.mem_filter, decide_eq_true_eq] at hit
  obtain ⟨g1, g2⟩ := h3 it hit.1 hit.2
  exact ⟨g1, g2, hit.2⟩

/-- The cases of the default program do not count for the program that a vector selects. -/
theorem called_p_dropDefaultCases (p : BranchCondProgram) (hs : SortedMap p.per_case_p)
    (v : List Int) : (dropDefaultCases p).called_p v = p.called_p v := by
  have hs1 : SortedMap (dropDefaultCases p).per_case_p := List.Pairwise.filter _ hs
  obtain ⟨a1, a2⟩ := called_p_spec p hs v
  obtain ⟨b1, b2⟩ := called_p_spec (dropDefaultCases p) hs1 v
  have hmem : ∀ id, (v, id) ∈ (dropDefaultCases p).per_case_p
      ↔ (v, id) ∈ p.per_case_p ∧ id ≠ p.p_default := by
    intro id
    simp only [dropDefaultCases, List.mem_filter, decide_eq_true_eq]
  by_cases hex : ∃ id, (v, id) ∈ p.per_case_p
  · obtain ⟨id, hid⟩ := hex
    rw [a1 id hid]
    by_cases hd : id = p.p_default
    · apply (b2 _).trans hd.symm
      intro id1 h1
      obtain ⟨g1, g2⟩ := (hmem id1).mp h1
      have e1 := (mapFind_eq_some_iff _ hs v id1).mpr g1
      have e2 := (mapFind_eq_some_iff _ hs v id).mpr hid
      rw [e1] at e2
      exact g2 ((Option.some.inj e2).trans hd)
    · exact b1 id ((hmem id).mpr ⟨hid, hd⟩)
  · rw [a2 (fun id h => hex ⟨id, h⟩)]
    apply b2
    intro id h
    exact hex ⟨id, ((hmem id).mp h).1⟩

/-- Claim C38, as stated, fails. With the string set `{-5}`, whose string holds no separator,
the program with the condition `WRITE_VALUE`, the case `[-5 as a string] -> 1` and the default
program 0 is written as `switch WRITE_VALUE: on "-5" goto 1; else goto 0`, and the line is read
as the program with the case `[-5 as a number] -> 1`. For the vector of the id of the string,
the program selects the program 1 and the program that was read selects the program 0. -/
theorem serialized_case_string_read_as_number :
    (BranchCondProgram.mk ⟨[⟨.WRITE_VALUE, -1⟩]⟩ [([0], 1)] 0).ToStringAsProgramLine
        ⟨["-5".toList]⟩ = some "switch WRITE_VALUE: on \"-5\" goto 1; else goto 0".toList ∧
    (BranchCondProgram.mk ⟨[]⟩ [] 7).ParseAsProgramLineOrDie ⟨["-5".toList]⟩
        "switch WRITE_VALUE: on \"-5\" goto 1; else goto 0".toList
      = some (BranchCondProgram.mk ⟨[⟨.WRITE_VALUE, -1⟩]⟩ [([-5], 1)] 0, ⟨["-5".toList]⟩) ∧
    (BranchCondProgram.mk ⟨[⟨.WRITE_VALUE, -1⟩]⟩ [([0], 1)] 0).called_p [0] = 1 ∧
    (BranchCondProgram.mk ⟨[⟨.WRITE_VALUE, -1⟩]⟩ [([-5], 1)] 0).called_p [0] = 0 := by
  decide

/-- Claim C38, amended. For a string set without repeated strings and a branched program `p`
that is readable (valid ops in the condition, a case map in key order, 32-bit program ids, and,
in the cases that do not go to the default program, keys with 32-bit values whose non-negative
values are ids of strings that, escaped, are not empty, do not start with a minus sign, hold
no separator and unescape to themselves), `ToStringAsProgramLine` returns a line and
`ParseAsProgramLineOrDie`, on any object, reads it as a program `q` with the condition and the
default program of `p` that selects for every vector `v` the program that `p` selects
(`per_case_p[v]` when present and `p_default` otherwise), also when `p` has cases that go to
`p_default`: `q` is `p` without these cases. The string set is left as it was. -/
theorem serialization_preserves_selected_program (ss : StringSet) (p prev : BranchCondProgram)
    (hn : ss.strings.Nodup) (h : BranchProgReadable ss p) :
    ∃ q, (p.ToStringAsProgramLine ss).bind (prev.ParseAsProgramLineOrDie ss) = some (q, ss) ∧
      q = dropDefaultCases p ∧ q.cond = p.cond ∧ q.p_default = p.p_default ∧
      ∀ v, q.called_p v = p.called_p v := by
  have hok := BranchProgOK_dropDefaultCases ss p h
  refine ⟨dropDefaultCases p, ?_, rfl, rfl, rfl, fun v => called_p_dropDefaultCases p h.2.1 v⟩
  rw [← ToStringAsProgramLine_dropDefaultCases,
    ToStringAsProgramLine_eq ss _ (fun it hit => KeyOK_inSet (hok.2.2.1 it hit).1)]
  exact BranchCondProgram_parse_programLine ss hn _ prev hok

theorem serialization_preserves_selected_program_witness :
    (StringSet.mk ["Expression".toList, "If Expr".toList, "-5".toList]).strings.Nodup ∧
    BranchProgReadable ⟨["Expression".toList, "If Expr".toList, "-5".toList]⟩
      ⟨⟨[⟨.WRITE_TYPE, -1⟩, ⟨.UP, -1⟩]⟩, [([], 1), ([0, 1], 2), ([1, -7], 2), ([2], 0)], 0⟩ ∧
    ∃ q,
      ((BranchCondProgram.mk ⟨[⟨.WRITE_TYPE, -1⟩, ⟨.UP, -1⟩]⟩
          [([], 1), ([0, 1], 2), ([1, -7], 2), ([2], 0)] 0).ToStringAsProgramLine
          ⟨["Expression".toList, "If Expr".toList, "-5".toList]⟩).bind
        ((BranchCondProgram.mk ⟨[]⟩ [([7], 7)] 7).ParseAsProgramLineOrDie
          ⟨["Expression".toList, "If Expr".toList, "-5".toList]⟩)
        = some (q, ⟨["Expression".toList, "If Expr".toList, "-5".toList]⟩) ∧
      q = dropDefaultCases
        ⟨⟨[⟨.WRITE_TYPE, -1⟩, ⟨.UP, -1⟩]⟩, [([], 1), ([0, 1], 2), ([1, -7], 2), ([2], 0)], 0⟩ ∧
      q.cond = (BranchCondProgram.mk ⟨[⟨.WRITE_TYPE, -1⟩, ⟨.UP, -1⟩]⟩
          [([], 1), ([0, 1], 2), ([1, -7], 2), ([2], 0)] 0).cond ∧
      q.p_default = (BranchCondProgram.mk ⟨[⟨.WRITE_TYPE, -1⟩, ⟨.UP, -1⟩]⟩
          [([], 1), ([0, 1], 2), ([1, -7], 2), ([2], 0)] 0).p_default ∧
      ∀ v, q.called_p v = (BranchCondProgram.mk ⟨[⟨.WRITE_TYPE, -1⟩, ⟨.UP, -1⟩]⟩
          [([], 1), ([0, 1], 2), ([1, -7], 2), ([2], 0)] 0).called_p v :=
  ⟨by decide, by decide,
   serialization_preserves_selected_program
     ⟨["Expression".toList, "If Expr".toList, "-5".toList]⟩
     ⟨⟨[⟨.WRITE_TYPE, -1⟩, ⟨.UP, -1⟩]⟩, [([], 1), ([0, 1], 2), ([1, -7], 2), ([2], 0)], 0⟩
     ⟨⟨[]⟩, [([7], 7)], 7⟩ (by decide) (by decide)⟩

/-- A node read in a store is an element of its vector. -/
theorem nodeAt_mem (s : TreeStorage) (i : Int) (n : TreeNode) (h : s.nodeAt i = some n) :
    n ∈ s.nodes_ := by
  unfold TreeStorage.nodeAt at h
  split at h
  · exact List.getElem?_mem h
  · exact Option.noConfusion h

/-- The move `left` of a traversal without a slice, at a node whose left sibling is not in
another store. -/
theorem left_plainAt (s : TreeStorage) (pos : Int) (n : TreeNode) (hn : s.nodeAt pos = some n)
    (hl : n.left_sib ≠ TREEPOINTER_VALUE_IN_PARENT) :
    (plainAt pos).left [s]
      = some (if n.left_sib < 0 then (false, plainAt pos) else (true, plainAt n.left_sib)) := by
  unfold SlicedTreeTraversal.left
  have h1 : Memory.nodeAt [s] (plainAt pos).storage_ (plainAt pos).position_ = some n := by
    show Memory.nodeAt [s] (some 0) pos = some n
    rw [nodeAt_single, hn]
  rw [h1]
  simp only [Option.some_bind, SlicedTreeTraversal.resolve, if_neg hl]
  by_cases h : n.left_sib < 0
  · rw [if_pos h, if_pos h]
  · rw [if_neg h, if_neg h]
    rfl

/-- The move `up` of a traversal without a slice, at a node whose parent is not in another
store. -/
theorem up_plainAt (s : TreeStorage) (pos : Int) (n : TreeNode) (hn : s.nodeAt pos = some n)
    (hl : n.parent ≠ TREEPOINTER_VALUE_IN_PARENT) :
    (plainAt pos).up [s]
      = some (if n.parent < 0 then (false, plainAt pos) else (true, plainAt n.parent)) := by
  unfold SlicedTreeTraversal.up
  have h1 : Memory.nodeAt [s] (plainAt pos).storage_ (plainAt pos).position_ = some n := by
    show Memory.nodeAt [s] (some 0) pos = some n
    rw [nodeAt_single, hn]
  rw [h1]
  simp only [Option.some_bind, SlicedTreeTraversal.resolve, if_neg hl]
  by_cases h : n.parent < 0
  · rw [if_pos h, if_pos h]
  · rw [if_neg h, if_neg h]
    rfl

/-- The move `down_last_child` of a traversal without a slice, in a store without a node of an
unknown type or value. -/
theorem down_last_child_plainAt (s : TreeStorage)
    (hk : ∀ n ∈ s.nodes_, n.HasNonTerminal = false) (pos : Int) (n : TreeNode)
    (hn : s.nodeAt pos = some n) (hc : 0 ≤ n.last_child → ∃ c, s.nodeAt n.last_child = some c) :
    (plainAt pos).down_last_child [s]
      = some (if n.last_child < 0 then (false, plainAt pos)
              else (true, plainAt n.last_child)) := by
  unfold SlicedTreeTraversal.down_last_child
  have h1 : Memory.nodeAt [s] (plainAt pos).storage_ (plainAt pos).position_ = some n := by
    show Memory.nodeAt [s] (some 0) pos = some n
    rw [nodeAt_single, hn]
  rw [h1]
  simp only [Option.some_bind]
  by_cases h : n.last_child < 0
  · rw [if_pos h, if_pos h]
  · rw [if_neg h, if_neg h]
    obtain ⟨c, hc1⟩ := hc (by omega)
    have h2 : (plainAt pos).can_move_to_subtree_storage n.last_child = false := by
      simp [plainAt, SlicedTreeTraversal.create,
        SlicedTreeTraversal.can_move_to_subtree_storage]
    have h3 : (plainAt pos).sliced (plainAt pos).storage_ n.last_child = false := rfl
    have h4 : Memory.nodeAt [s] (plainAt pos).storage_ n.last_child = some c := by
      show Memory.nodeAt [s] (some 0) n.last_child = some c
      rw [nodeAt_single, hc1]
    rw [h2, h3, h4]
    simp only [Bool.false_eq_true, if_false, Option.map_some',
      hk c (nodeAt_mem s _ c hc1)]
    rfl

theorem whileDownLast_succ (m : Memory) (fuel : Nat) (t : SlicedTreeTraversal) :
    SlicedTreeTraversal.whileDownLast m (fuel + 1) t
      = (t.down_last_child m).bind fun r =>
          if r.1 then SlicedTreeTraversal.whileDownLast m fuel r.2 else some r.2 := rfl

/-- The parts of a list of consecutive numbers. -/
theorem range_parts (x a n1 n2 : Nat) (L1 L2 : List Nat) (h1 : L1.length = n1)
    (_h2 : L2.length = n2) (h : x :: (L1 ++ L2) = List.range' a (1 + n1 + n2)) :
    x = a ∧ L1 = List.range' (a + 1) n1 ∧ L2 = List.range' (a + 1 + n1) n2 := by
  have e : List.range' a (1 + n1 + n2)
      = a :: (List.range' (a + 1) n1 ++ List.range' (a + 1 + n1) n2) := by
    rw [show 1 + n1 + n2 = (n1 + n2) + 1 by omega, List.range'_succ,
      List.range'_append_1, Nat.add_comm n2 n1]
  rw [e] at h
  injection h with h3 h4
  obtain ⟨h5, h6⟩ := List.append_inj h4 (by rw [h1, List.length_range'])
  exact ⟨h3, h5, h6⟩

/-- The loop `while (t->down_last_child()) {}` from the last node of a chain of siblings whose
nodes are consecutive in pre-order ends at the last node of the chain in pre-order. -/
theorem whileDownLast_chain (s : TreeStorage) (hk : ∀ n ∈ s.nodes_, n.HasNonTerminal = false)
    (t : FT) :
    ∀ (id p ls ci : Int) (L : List Nat) (last : Int) (a fuel : Nat),
      Chain s t id p ls ci L last → t ≠ .eps → L = List.range' a t.size → t.size ≤ fuel →
      SlicedTreeTraversal.whileDownLast [s] fuel (plainAt last)
        = some (plainAt ((a + t.size - 1 : Nat) : Int)) := by
  induction t with
  | eps => intro id p ls ci L last a fuel _ h; exact absurd rfl h
  | node ty v c sb ihc ihs =>
    intro id p ls ci L last a fuel h _ hL hfuel
    obtain ⟨hid, n, Lc, Ls, hn, hnt, hnv, hnp, hnl, hnc, hcc, hcs, hL1⟩ := h
    have hLc := Chain_length s c _ _ _ _ _ _ hcc
    have hLs := Chain_length s sb _ _ _ _ _ _ hcs
    simp only [FT.size] at hL hfuel ⊢
    rw [hL1] at hL
    obtain ⟨e1, e2, e3⟩ := range_parts _ _ _ _ _ _ hLc hLs hL
    cases sb with
    | node ty1 v1 c1 sb1 =>
      rw [ihs _ _ _ _ _ _ (a + 1 + c.size) fuel hcs (by simp) e3 (by omega)]
      congr 2
      omega
    | eps =>
      obtain ⟨_, _, hlast⟩ := hcs
      rw [hlast]
      obtain ⟨f, rfl⟩ : ∃ f, fuel = f + 1 := ⟨fuel - 1, by omega⟩
      rw [whileDownLast_succ]
      have hida : id = (a : Int) := by omega
      cases c with
      | eps =>
        have hlc : n.last_child = -1 := hcc.2.2
        have hd := down_last_child_plainAt s hk id n hn (fun h => by omega)
        rw [hlc, if_pos (show (-1 : Int) < 0 by decide)] at hd
        rw [hd]
        simp only [Option.some_bind, Bool.false_eq_true, if_false, FT.size, hida]
        congr 2
      | node ty1 v1 c1 sb1 =>
        obtain ⟨hl0, _, nl, hnl1, _⟩ := Chain_last s _ _ _ _ _ _ _ hcc (by simp)
        have hd := down_last_child_plainAt s hk id n hn (fun _ => ⟨nl, hnl1⟩)
        rw [if_neg (show ¬ n.last_child < 0 by omega)] at hd
        rw [hd]
        simp only [Option.some_bind, if_true]
        rw [ihc _ _ _ _ _ _ (a + 1) f hcc (by simp) e2 (by omega)]
        congr 2
        simp only [FT.size]
        omega

/-- The loop `while (t->down_last_child()) {}` from a node whose subtree is consecutive in
pre-order ends at the last node of the subtree. -/
theorem whileDownLast_node (s : TreeStorage) (hk : ∀ n ∈ s.nodes_, n.HasNonTerminal = false)
    (c : FT) (x : Int) (n : TreeNode) (Lc : List Nat) (fuel : Nat)
    (hn : s.nodeAt x = some n) (hx : 0 ≤ x)
    (hcc : Chain s c n.first_child x (-1) 0 Lc n.last_child)
    (hL : Lc = List.range' (x.toNat + 1) c.size) (hfuel : c.size < fuel) :
    SlicedTreeTraversal.whileDownLast [s] fuel (plainAt x)
      = some (plainAt (x + (c.size : Int))) := by
  obtain ⟨f, rfl⟩ : ∃ f, fuel = f + 1 := ⟨fuel - 1, by omega⟩
  rw [whileDownLast_succ]
  cases c with
  | eps =>
    have hlc : n.last_child = -1 := hcc.2.2
    have hd := down_last_child_plainAt s hk x n hn (fun h => by omega)
    rw [hlc, if_pos (show (-1 : Int) < 0 by decide)] at hd
    rw [hd]
    simp only [Option.some_bind, Bool.false_eq_true, if_false, FT.size]
    congr 2
    omega
  | node ty1 v1 c1 sb1 =>
    obtain ⟨hl0, _, nl, hnl1, _⟩ := Chain_last s _ _ _ _ _ _ _ hcc (by simp)
    have hd := down_last_child_plainAt s hk x n hn (fun _ => ⟨nl, hnl1⟩)
    rw [if_neg (show ¬ n.last_child < 0 by omega)] at hd
    rw [hd]
    simp only [Option.some_bind, if_true]
    rw [whileDownLast_chain s hk _ _ _ _ _ _ _ (x.toNat + 1) f hcc (by simp) hL (by omega)]
    congr 2
    have : 1 ≤ (FT.node ty1 v1 c1 sb1).size := by simp only [FT.size]; omega
    omega

theorem executeOp_PREV_DFS (FingerprintCat : Int → Int → Int) (m : Memory) (fuel : Nat)
    (exec : ExecutionForTree) (extra : Int) (t : SlicedTreeTraversal) :
    exec.executeOp FingerprintCat m fuel ⟨.PREV_DFS, extra⟩ t
      = (t.left m).bind fun r =>
          if r.1 then (SlicedTreeTraversal.whileDownLast m fuel r.2).map fun t1 => ([], t1)
          else (r.2.up m).map fun u => ([], u.2) := rfl

/-- The operation `PREV_DFS` at a node of a chain whose nodes are consecutive in pre-order
leaves the traversal at the node before it, when the node before the chain is the parent of the
chain or the last node below the left sibling of the chain. -/
theorem PREV_DFS_chain (FingerprintCat : Int → Int → Int) (exec : ExecutionForTree)
    (extra : Int) (s : TreeStorage) (hk : ∀ n ∈ s.nodes_, n.HasNonTerminal = false)
    (fuel : Nat) (t : FT) :
    ∀ (id p ls ci : Int) (L : List Nat) (last : Int) (a : Nat),
      Chain s t id p ls ci L last → L = List.range' a t.size → t.size < fuel → 0 ≤ p →
      ((ls = -1 ∧ p = (a : Int) - 1) ∨
        (0 ≤ ls ∧ SlicedTreeTraversal.whileDownLast [s] fuel (plainAt ls)
          = some (plainAt ((a : Int) - 1)))) →
      ∀ k ∈ L, exec.executeOp FingerprintCat [s] fuel ⟨.PREV_DFS, extra⟩ (plainAt (k : Int))
        = some ([], plainAt ((k : Int) - 1)) := by
  induction t with
  | eps =>
    intro id p ls ci L last a h _ _ _ _ k hk1
    rw [h.2.1] at hk1
    simp at hk1
  | node ty v c sb ihc ihs =>
    intro id p ls ci L last a h hL hfuel hp hls k hkL
    obtain ⟨hid, n, Lc, Ls, hn, hnt, hnv, hnp, hnl, hnc, hcc, hcs, hL1⟩ := h
    have hLc := Chain_length s c _ _ _ _ _ _ hcc
    have hLs := Chain_length s sb _ _ _ _ _ _ hcs
    simp only [FT.size] at hL hfuel
    rw [hL1] at hL
    obtain ⟨e1, e2, e3⟩ := range_parts _ _ _ _ _ _ hLc hLs hL
    have hida : id = (a : Int) := by omega
    rw [hL1] at hkL
    simp only [List.mem_cons, List.mem_append] at hkL
    rcases hkL with hk1 | hk1 | hk1
    · -- the first node of the chain
      have hka : (k : Int) = id := by omega
      rw [hka, executeOp_PREV_DFS,
        left_plainAt s id n hn (by
          rw [hnl]
          rcases hls with ⟨h1, _⟩ | ⟨h1, _⟩
          · rw [h1]; decide
          · unfold TREEPOINTER_VALUE_IN_PARENT; omega)]
      rw [hnl]
      rcases hls with ⟨h1, h2⟩ | ⟨h1, h2⟩
      · rw [if_pos (by omega)]
        simp only [Option.some_bind, Bool.false_eq_true, if_false]
        rw [up_plainAt s id n hn (by rw [hnp]; unfold TREEPOINTER_VALUE_IN_PARENT; omega),
          hnp, if_neg (by omega)]
        simp only [Option.map_some']
        rw [h2, hida]
      · rw [if_neg (by omega)]
        simp only [Option.some_bind, if_true]
        rw [h2, hida]
        rfl
    · -- a node below the first node
      rw [e2] at hk1
      exact ihc _ _ _ _ _ _ (a + 1) hcc e2 (by omega) (le_of_lt hid)
        (Or.inl ⟨rfl, by rw [hida]; push_cast; omega⟩) k (by rw [e2]; exact hk1)
    · -- a node of the chain after the first node
      have hdesc := whileDownLast_node s hk c id n Lc fuel hn (le_of_lt hid) hcc
        (by rw [e2]; congr 1; omega) (by omega)
      exact ihs _ _ _ _ _ _ (a + 1 + c.size) hcs e3 (by omega) hp
        (Or.inr ⟨le_of_lt hid, by
          rw [hdesc]
          congr 2
          push_cast
          omega⟩) k hk1

/-- Claim C34. On a store whose node ids are in pre-order and in which no node has an unknown
type or value, for a traversal without a slice, the operation `PREV_DFS` at the node `p > 0`
leaves the traversal at the node `p - 1`, at the root it leaves the traversal where it is, and
it passes no value to the callback. -/
theorem PREV_DFS_moves_one_step_back_in_pre_order (FingerprintCat : Int → Int → Int)
    (exec : ExecutionForTree) (extra : Int) (s : TreeStorage) (T : FT)
    (hpre : PreOrderIds s T) (hk : ∀ n ∈ s.nodes_, n.HasNonTerminal = false)
    (fuel : Nat) (hfuel : T.size < fuel) (p : Nat) (hp : p ≤ T.size) :
    exec.executeOp FingerprintCat [s] fuel ⟨.PREV_DFS, extra⟩ (plainAt (p : Int))
      = some ([], plainAt (if p = 0 then 0 else (p : Int) - 1)) := by
  obtain ⟨r, hr, hrp, hrl, hch⟩ := hpre
  by_cases h0 : p = 0
  · rw [if_pos h0, h0]
    show exec.executeOp FingerprintCat [s] fuel ⟨.PREV_DFS, extra⟩ (plainAt 0) = _
    rw [executeOp_PREV_DFS, left_plainAt s 0 r hr (by rw [hrl]; decide), hrl,
      if_pos (by decide)]
    simp only [Option.some_bind, Bool.false_eq_true, if_false]
    rw [up_plainAt s 0 r hr (by rw [hrp]; decide), hrp, if_pos (by decide)]
    rfl
  · rw [if_neg h0]
    apply PREV_DFS_chain FingerprintCat exec extra s hk fuel T _ _ _ _ _ _ 1 hch rfl hfuel
      (le_refl _) (Or.inl ⟨rfl, rfl⟩) p
    rw [List.mem_range'_1]
    omega

theorem PREV_DFS_moves_one_step_back_in_pre_order_witness :
    PreOrderIds test_tcond_tree test_tcond_ft ∧
    (∀ n ∈ test_tcond_tree.nodes_, n.HasNonTerminal = false) ∧
    test_exec.executeOp test_FingerprintCat [test_tcond_tree] 7 ⟨.PREV_DFS, -1⟩
        (plainAt ((3 : Nat) : Int))
      = some ([], plainAt (if 3 = 0 then 0 else ((3 : Nat) : Int) - 1)) :=
  have hpre : PreOrderIds test_tcond_tree test_tcond_ft :=
    ⟨⟨0, -1, -1, -1, -1, 1, 3, 0⟩, by decide, rfl, rfl,
      chainCheck_sound test_tcond_tree test_tcond_ft 1 0 (-1) 0 [1, 2, 3, 4, 5] 3 (by decide)⟩
  ⟨hpre, by decide,
   PREV_DFS_moves_one_step_back_in_pre_order test_FingerprintCat test_exec (-1)
     test_tcond_tree test_tcond_ft hpre (by decide) 7 (by decide) 3 (by decide)⟩

/-! ## The evaluation metric -/

/-- The machine sum of counts that are not negative is their sum, when it is below `2^31`. -/
theorem foldl_addInt32_sum (l : List Int) :
    ∀ a : Int, 0 ≤ a → (∀ y ∈ l, 0 ≤ y) → a + l.sum < 2147483648 →
      l.foldl addInt32 a = a + l.sum := by
  induction l with
  | nil => intro a _ _ _; simp
  | cons y rest ih =>
    intro a ha hy hs
    rw [List.sum_cons] at hs
    have hy0 : 0 ≤ y := hy y (List.mem_cons_self _ _)
    have hr0 : 0 ≤ rest.sum := List.sum_nonneg fun z hz => hy z (List.mem_cons_of_mem _ hz)
    have h1 : addInt32 a y = a + y := by
      unfold addInt32
      omega
    rw [List.foldl_cons, h1, ih (a + y) (by omega) (fun z hz => hy z (List.mem_cons_of_mem _ hz))
      (by omega), List.sum_cons]
    omega

/-- After `EndAdding` on a counter with the counts of a training, every feature with statistics
has a label, its total count is the sum of its counts, and the count of a label is between 0 and
the total count. -/
theorem EndAdding_StatsBound (st : Int) (c0 c : PerFeatureValueCounter) (hc0 : c0.Counted)
    (hend : c0.EndAdding st = some c) : c.StatsBound := by
  intro f fs hfs
  by_cases hok : ∀ e ∈ c0.feature_value_counts_, countOK st e.2
  · obtain ⟨e2, h1, h2, h3⟩ := (EndAdding_spec st c0).1 hok
    rw [hend] at h1
    have he : c = e2 := Option.some.inj h1
    subst he
    rw [h3 f] at hfs
    unfold statsFor at hfs
    by_cases hne : entriesFor f (c0.feature_value_counts_.enumFrom 0) = []
    · rw [if_pos hne] at hfs
      exact Option.noConfusion hfs
    · rw [if_neg hne] at hfs
      have hfs1 : fs = (statsOf (entriesFor f (c0.feature_value_counts_.enumFrom 0))
          ).CalculateProb.SortValues := (Option.some.inj hfs).symm
      have hen := entriesFor_enum f c0.feature_value_counts_
      have hnn : ∀ y ∈ (tableEntries f c0.feature_value_counts_).map Prod.snd, 0 ≤ y := by
        intro y hy
        rw [List.mem_map] at hy
        obtain ⟨x, hx, hxy⟩ := hy
        unfold tableEntries at hx
        rw [List.mem_map] at hx
        obtain ⟨z, hz, hzx⟩ := hx
        rw [← hxy, ← hzx]
        exact (hok z (List.mem_filter.mp hz).1).1
      have htot : fs.TotalCount
          = ((tableEntries f c0.feature_value_counts_).map Prod.snd).sum := by
        rw [hfs1]
        show (statsOf _).total_count_ = _
        rw [statsOf_total, hen, foldl_addInt32_sum _ 0 (le_refl 0) hnn
          (by have := hc0.2 f; omega)]
        omega
      have huniq : fs.UniqueLabels
          = (((entriesFor f (c0.feature_value_counts_.enumFrom 0)).map Prod.snd).length : Nat) := by
        rw [hfs1]
        show (statsOf _).unique_count_ = _
        rw [statsOf_unique]
      refine ⟨?_, ?_⟩
      · rw [huniq, List.length_map]
        have : 0 < (entriesFor f (c0.feature_value_counts_.enumFrom 0)).length :=
          List.length_pos.mpr hne
        omega
      · intro label
        rw [htot]
        unfold PerFeatureValueCounter.GetCount
        rw [h2]
        cases hfind : hashMapFind keyEquals c0.feature_value_counts_ (f, label) with
        | none => exact ⟨le_refl 0, List.sum_nonneg hnn⟩
        | some k =>
          have hmem : (label, k) ∈ tableEntries f c0.feature_value_counts_ :=
            (mem_tableEntries f _ hc0.1 (label, k)).mpr hfind
          have hk : k ∈ (tableEntries f c0.feature_value_counts_).map Prod.snd :=
            List.mem_map.mpr ⟨(label, k), hmem, rfl⟩
          exact ⟨hnn k hk, List.single_le_sum hnn k hk⟩
  · rw [(EndAdding_spec st c0).2 hok] at hend
    exact Option.noConfusion hend

/-- The counters after `GenerativeEndTraining` are the results of `EndAdding` on the counters
before it. -/
theorem GenerativeEndTraining_mem (st : Int) (counts0 : List PerFeatureValueCounter) :
    ∀ counts, TGenModel.GenerativeEndTraining st counts0 = some counts →
      ∀ c ∈ counts, ∃ c0 ∈ counts0, c0.EndAdding st = some c := by
  induction counts0 with
  | nil =>
    intro counts h c hc
    unfold TGenModel.GenerativeEndTraining at h
    rw [← Option.some.inj h] at hc
    exact absurd hc (List.not_mem_nil c)
  | cons c0 rest ih =>
    intro counts h c hc
    unfold TGenModel.GenerativeEndTraining at h
    cases h1 : c0.EndAdding st with
    | none => rw [h1] at h; exact Option.noConfusion h
    | some c1 =>
      rw [h1, Option.some_bind] at h
      cases h2 : TGenModel.GenerativeEndTraining st rest with
      | none => rw [h2] at h; exact Option.noConfusion h
      | some rest1 =>
        rw [h2, Option.map_some'] at h
        rw [← Option.some.inj h, List.mem_cons] at hc
        rcases hc with hc | hc
        · exact ⟨c0, List.mem_cons_self _ _, by rw [hc]; exact h1⟩
        · obtain ⟨c2, hc2, hc3⟩ := ih rest1 h2 c hc
          exact ⟨c2, List.mem_cons_of_mem _ hc2, hc3⟩

/-- With a smoothing other than Kneser-Ney, `SetUnconditionedProb` gives a probability. -/
theorem SetUnconditionedProb_bounds (st : Int) (hst : st ≠ KneserNey) (w w1 : Smoothing)
    (count unique_count total_count prefix_count total_prefix_count : Int)
    (hc0 : 0 ≤ count) (hct : count ≤ total_count) (hu : 0 ≤ unique_count)
    (h : w.SetUnconditionedProb st count unique_count total_count prefix_count
      total_prefix_count = some w1) :
    0 ≤ w1.prob_ ∧ w1.prob_ ≤ 1 := by
  unfold Smoothing.SetUnconditionedProb at h
  simp only [if_neg hst] at h
  rw [← Option.some.inj h]
  have h1 : (0 : ℚ) ≤ (count : ℚ) := by exact_mod_cast hc0
  have h2 : (count : ℚ) ≤ (total_count : ℚ) := by exact_mod_cast hct
  have h3 : (0 : ℚ) ≤ (unique_count : ℚ) := by exact_mod_cast hu
  have hpos : (0 : ℚ) < (total_count : ℚ) + (unique_count : ℚ) + 1 := by linarith
  refine ⟨div_nonneg (by linarith) (le_of_lt hpos), ?_⟩
  rw [div_le_one hpos]
  linarith

/-- With the Witten-Bell or the Laplace smoothing, `AddForwardBackoff` makes a probability of a
probability. -/
theorem AddForwardBackoff_bounds (st : Int) (hst : st = WittenBell ∨ st = Laplace)
    (kneser_ney_d : ℚ) (w w1 : Smoothing) (count unique_count total_count : Int)
    (counts : List Int) (prefix_count total_prefix_count : Int)
    (delta : Option KneserNeyDelta)
    (hc0 : 0 ≤ count) (hct : count ≤ total_count) (hu : 0 ≤ unique_count)
    (hw : 0 ≤ w.prob_ ∧ w.prob_ ≤ 1)
    (h : w.AddForwardBackoff st kneser_ney_d count unique_count total_count counts
      prefix_count total_prefix_count delta = some w1) :
    0 ≤ w1.prob_ ∧ w1.prob_ ≤ 1 := by
  have h1 : (0 : ℚ) ≤ (count : ℚ) := by exact_mod_cast hc0
  have h2 : (count : ℚ) ≤ (total_count : ℚ) := by exact_mod_cast hct
  have h3 : (0 : ℚ) ≤ (unique_count : ℚ) := by exact_mod_cast hu
  unfold Smoothing.AddForwardBackoff at h
  rcases hst with hst | hst
  · simp only [if_pos hst] at h
    split at h
    · rename_i hg
      obtain ⟨hg0, hg1, hg2⟩ := hg
      rw [← Option.some.inj h]
      have ht : (0 : ℚ) < (total_count : ℚ) := by
        have : 0 < total_count := by omega
        exact_mod_cast this
      have hsum : (0 : ℚ) < ((unique_count + total_count : Int) : ℚ) := by
        push_cast
        linarith
      have hq0 : (0 : ℚ) ≤ (unique_count : ℚ) / ((unique_count + total_count : Int) : ℚ) :=
        div_nonneg h3 (le_of_lt hsum)
      have hq1 : (unique_count : ℚ) / ((unique_count + total_count : Int) : ℚ) ≤ 1 := by
        rw [div_le_one hsum]
        push_cast
        linarith
      show 0 ≤ (1 - (unique_count : ℚ) / ((unique_count + total_count : Int) : ℚ))
            * ((count : ℚ) / (total_count : ℚ))
          + (1 - (1 - (unique_count : ℚ) / ((unique_count + total_count : Int) : ℚ)))
            * w.prob_ ∧
        (1 - (unique_count : ℚ) / ((unique_count + total_count : Int) : ℚ))
            * ((count : ℚ) / (total_count : ℚ))
          + (1 - (1 - (unique_count : ℚ) / ((unique_count + total_count : Int) : ℚ)))
            * w.prob_ ≤ 1
      generalize (unique_count : ℚ) / ((unique_count + total_count : Int) : ℚ) = q at hq0 hq1
      have hg1a : (0 : ℚ) ≤ (count : ℚ) / (total_count : ℚ) := hg1
      have hg2a : (count : ℚ) / (total_count : ℚ) ≤ 1 := hg2
      generalize (count : ℚ) / (total_count : ℚ) = p at hg1a hg2a
      obtain ⟨hw0, hw1⟩ := hw
      constructor
      · nlinarith [mul_nonneg (sub_nonneg.mpr hq1) hg1a, mul_nonneg hq0 hw0]
      · nlinarith [mul_nonneg (sub_nonneg.mpr hq1) (sub_nonneg.mpr hg2a),
          mul_nonneg hq0 (sub_nonneg.mpr hw1)]
    · exact Option.noConfusion h
  · have hnw : st ≠ WittenBell := by rw [hst]; decide
    have hnk : st ≠ KneserNey := by rw [hst]; decide
    simp only [if_neg hnw, if_neg hnk, if_pos hst] at h
    rw [← Option.some.inj h]
    have hpos : (0 : ℚ) < ((total_count + unique_count + 1 : Int) : ℚ) := by
      push_cast
      linarith
    refine ⟨div_nonneg (by push_cast; linarith) (le_of_lt hpos), ?_⟩
    show ((count + 1 : Int) : ℚ) / ((total_count + unique_count + 1 : Int) : ℚ) ≤ 1
    rw [div_le_one hpos]
    push_cast
    linarith

/-- With the Witten-Bell or the Laplace smoothing, the loop of the callback of
`GetLabelLogProbInner` keeps a probability. -/
theorem backoffLoop_bounds (FingerprintCat : Int → Int → Int) (st : Int)
    (hst : st = WittenBell ∨ st = Laplace) (kneser_ney_d : ℚ) (c : PerFeatureValueCounter)
    (hc : c.StatsBound) (label : Int) (ops : List Int) :
    ∀ (f : SequenceHashFeature) (wb : Smoothing) (x : SequenceHashFeature × Smoothing),
      0 ≤ wb.prob_ ∧ wb.prob_ ≤ 1 →
      backoffLoop FingerprintCat st kneser_ney_d c label ops f wb = some x →
      0 ≤ x.2.prob_ ∧ x.2.prob_ ≤ 1 := by
  induction ops with
  | nil =>
    intro f wb x hw h
    unfold backoffLoop at h
    rw [← Option.some.inj h]
    exact hw
  | cons op rest ih =>
    intro f wb x hw h
    unfold backoffLoop at h
    cases hf : f.pushBack FingerprintCat op with
    | none => rw [hf] at h; exact Option.noConfusion h
    | some f1 =>
      rw [hf, Option.some_bind] at h
      cases hs : c.GetFeatureStatsOrNull f1 with
      | none =>
        simp only [hs, Option.some_bind] at h
        exact ih f1 wb x hw h
      | some stats =>
        simp only [hs] at h
        cases hd : c.GetKneserNeyDelta st f1 with
        | none => rw [hd] at h; exact Option.noConfusion h
        | some delta =>
          rw [hd, Option.some_bind] at h
          cases ha : wb.AddForwardBackoff st kneser_ney_d (c.GetCount f1 label)
              stats.UniqueLabels stats.TotalCount stats.GetCounts
              (c.GetValuePrefixCount st f1 label) (c.GetTotalPrefixCount st f1) delta with
          | none => rw [ha] at h; exact Option.noConfusion h
          | some wb1 =>
            rw [ha, Option.some_bind] at h
            obtain ⟨hu, hcount⟩ := hc f1 stats hs
            exact ih f1 wb1 x
              (AddForwardBackoff_bounds st hst kneser_ney_d wb wb1 _ _ _ _ _ _ _
                (hcount label).1 (hcount label).2 (by omega) hw ha) h

/-- With the Witten-Bell or the Laplace smoothing and counters that hold the statistics of a
training, the result of `GetLabelLogProbInner` is `log2` of a probability. -/
theorem GetLabelLogProbInner_bounds (FingerprintCat : Int → Int → Int) (m : Memory)
    (fuel : Nat) (depth : Nat) (log2 : ℚ → ℚ) (st : Int)
    (hst : st = WittenBell ∨ st = Laplace) (kneser_ney_d : ℚ) (self : TGenModel)
    (counts : List PerFeatureValueCounter) (hcs : ∀ c ∈ counts, c.StatsBound)
    (program_id : Int) (exec : ExecutionForTree) (sample : SlicedTreeTraversal) (label : Int)
    (lp : ℚ)
    (h : self.GetLabelLogProbInner FingerprintCat m fuel depth log2 st kneser_ney_d counts
      program_id exec sample label = some lp) :
    ∃ p : ℚ, 0 ≤ p ∧ p ≤ 1 ∧ lp = log2 p := by
  have hnk : st ≠ KneserNey := by
    rcases hst with hst | hst <;> rw [hst] <;> decide
  unfold TGenModel.GetLabelLogProbInner at h
  by_cases hneg : program_id < 0
  · rw [if_pos hneg] at h
    exact Option.noConfusion h
  · rw [if_neg hneg] at h
    cases hcnt : counts[program_id.toNat]? with
    | none => rw [hcnt] at h; exact Option.noConfusion h
    | some c =>
      rw [hcnt, Option.some_bind] at h
      have hc : c.StatsBound := hcs c (List.getElem?_mem hcnt)
      have hwb : ∀ wb : Smoothing,
          (match c.GetFeatureStatsOrNull SequenceHashFeature.create with
            | none => some Smoothing.create
            | some uncond_stats =>
              Smoothing.create.SetUnconditionedProb st
                (c.GetCount SequenceHashFeature.create label)
                uncond_stats.UniqueLabels uncond_stats.TotalCount
                (c.GetValuePrefixCount st SequenceHashFeature.create label)
                (c.GetTotalPrefixCount st SequenceHashFeature.create)) = some wb →
          0 ≤ wb.prob_ ∧ wb.prob_ ≤ 1 := by
        intro wb hwb
        cases hs : c.GetFeatureStatsOrNull SequenceHashFeature.create with
        | none =>
          rw [hs] at hwb
          rw [← Option.some.inj hwb]
          exact ⟨le_refl 0, zero_le_one⟩
        | some stats =>
          rw [hs] at hwb
          obtain ⟨hu, hcount⟩ := hc _ stats hs
          exact SetUnconditionedProb_bounds st hnk _ wb _ _ _ _ _ (hcount label).1
            (hcount label).2 (by omega) hwb
      have key : ∀ wb0 : Option Smoothing,
          (∀ wb : Smoothing, wb0 = some wb → 0 ≤ wb.prob_ ∧ wb.prob_ ≤ 1) →
          (wb0.bind fun wb =>
            (ExecuteContextProgramByIdInAll FingerprintCat m fuel exec self.program_ depth sample
                program_id).bind fun r =>
              (backoffLoop FingerprintCat st kneser_ney_d c label r.1 SequenceHashFeature.create
                  wb).map
                fun (x : SequenceHashFeature × Smoothing) => x.2.GetLogProb log2) = some lp →
          ∃ p : ℚ, 0 ≤ p ∧ p ≤ 1 ∧ lp = log2 p := by
        intro wb0 hb0 h
        cases hw0 : wb0 with
        | none => rw [hw0] at h; exact Option.noConfusion h
        | some wb =>
          rw [hw0, Option.some_bind] at h
          cases hx : ExecuteContextProgramByIdInAll FingerprintCat m fuel exec self.program_
              depth sample program_id with
          | none => rw [hx] at h; exact Option.noConfusion h
          | some r =>
            rw [hx, Option.some_bind] at h
            cases hb : backoffLoop FingerprintCat st kneser_ney_d c label r.1
                SequenceHashFeature.create wb with
            | none => rw [hb] at h; exact Option.noConfusion h
            | some x =>
              rw [hb, Option.map_some'] at h
              have hbound := backoffLoop_bounds FingerprintCat st hst kneser_ney_d c hc label
                r.1 SequenceHashFeature.create wb x (hb0 wb hw0) hb
              exact ⟨x.2.prob_, hbound.1, hbound.2, (Option.some.inj h).symm⟩
      exact key _ hwb h

/-- With the Witten-Bell or the Laplace smoothing and counters that hold the statistics of a
training, the result of `GetLabelLogProb` is `log2` of a probability. -/
theorem GetLabelLogProb_bounds (FingerprintCat : Int → Int → Int) (m : Memory)
    (fuel : Nat) (depth : Nat) (log2 : ℚ → ℚ) (st : Int)
    (hst : st = WittenBell ∨ st = Laplace) (kneser_ney_d : ℚ) (enable_teq : Bool)
    (self : TGenModel) (counts : List PerFeatureValueCounter)
    (hcs : ∀ c ∈ counts, c.StatsBound) (program_id : Int) (exec : ExecutionForTree)
    (sample : FullTreeTraversal) (slice : Option TreeSlice) (lp : ℚ)
    (h : self.GetLabelLogProb FingerprintCat m fuel depth log2 st kneser_ney_d enable_teq
      counts program_id exec sample slice = some lp) :
    ∃ p : ℚ, 0 ≤ p ∧ p ≤ 1 ∧ lp = log2 p := by
  unfold TGenModel.GetLabelLogProb at h
  cases hp : (self.resolve FingerprintCat m fuel program_id exec sample slice).program with
  | none => rw [hp] at h; exact Option.noConfusion h
  | some pid =>
    rw [hp, Option.some_bind] at h
    cases hl : self.GetLabelAtPosition FingerprintCat m fuel depth enable_teq pid exec sample
        slice true with
    | none => rw [hl] at h; exact Option.noConfusion h
    | some label =>
      rw [hl, Option.some_bind] at h
      exact GetLabelLogProbInner_bounds FingerprintCat m fuel depth log2 st hst kneser_ney_d
        self counts hcs pid exec _ label lp h

/-- The log-probabilities of the samples of a list are each `log2` of a probability, with the
Witten-Bell or the Laplace smoothing and counters that hold the statistics of a training. -/
theorem sampleLogProbs_bounds (FingerprintCat : Int → Int → Int) (m : Memory)
    (fuel : Nat) (depth : Nat) (log2 : ℚ → ℚ) (st : Int)
    (hst : st = WittenBell ∨ st = Laplace) (kneser_ney_d : ℚ) (enable_teq : Bool)
    (model : TGenModel) (counts : List PerFeatureValueCounter)
    (hcs : ∀ c ∈ counts, c.StatsBound) (exec : ExecutionForTree) (positions : List Int) :
    ∀ lps : List ℚ,
      sampleLogProbs FingerprintCat m fuel depth log2 st kneser_ney_d enable_teq model counts
        exec positions = some lps →
      lps.length = positions.length ∧ ∀ lp ∈ lps, ∃ p : ℚ, 0 ≤ p ∧ p ≤ 1 ∧ lp = log2 p := by
  induction positions with
  | nil =>
    intro lps h
    unfold sampleLogProbs at h
    rw [← Option.some.inj h]
    exact ⟨rfl, fun lp hlp => absurd hlp (List.not_mem_nil lp)⟩
  | cons position rest ih =>
    intro lps h
    unfold sampleLogProbs at h
    cases hs : model.evaluationSlice m exec position with
    | none => rw [hs] at h; exact Option.noConfusion h
    | some slice =>
      rw [hs, Option.some_bind] at h
      cases hl : model.GetLabelLogProb FingerprintCat m fuel depth log2 st kneser_ney_d
          enable_teq counts model.start_program_id exec
          { storage_ := exec.tree_, position_ := position } (some slice) with
      | none => rw [hl] at h; exact Option.noConfusion h
      | some lp0 =>
        rw [hl, Option.some_bind] at h
        cases hr : sampleLogProbs FingerprintCat m fuel depth log2 st kneser_ney_d enable_teq
            model counts exec rest with
        | none => rw [hr] at h; exact Option.noConfusion h
        | some lps1 =>
          rw [hr, Option.map_some'] at h
          rw [← Option.some.inj h]
          obtain ⟨ih1, ih2⟩ := ih lps1 hr
          refine ⟨by rw [List.length_cons, List.length_cons, ih1], ?_⟩
          intro lp hlp
          rw [List.mem_cons] at hlp
          rcases hlp with hlp | hlp
          · rw [hlp]
            exact GetLabelLogProb_bounds FingerprintCat m fuel depth log2 st hst kneser_ney_d
              enable_teq model counts hcs _ exec _ _ lp0 hl
          · exact ih2 lp hlp

/-- The calls of `AddSample` with the metric `ENTROPY` subtract the log-probabilities of the
samples from `value_` and count the samples. -/
theorem addSamples_ENTROPY (FingerprintCat : Int → Int → Int) (m : Memory)
    (fuel : Nat) (depth : Nat) (log2 : ℚ → ℚ) (st : Int) (kneser_ney_d : ℚ) (beam_size : Int)
    (enable_teq : Bool) (model : TGenModel) (counts : List PerFeatureValueCounter)
    (exec : ExecutionForTree) (positions : List Int) :
    ∀ (self : TGenModelEvaluationMetricComputation) (lps : List ℚ),
      self.metric_ = .ENTROPY → 0 ≤ self.num_samples_ →
      self.num_samples_ + (positions.length : Int) < 2147483648 →
      sampleLogProbs FingerprintCat m fuel depth log2 st kneser_ney_d enable_teq model counts
        exec positions = some lps →
      self.addSamples FingerprintCat m fuel depth log2 st kneser_ney_d beam_size enable_teq
        model counts exec positions
        = some { metric_ := .ENTROPY, value_ := self.value_ - lps.sum,
                 num_samples_ := self.num_samples_ + (positions.length : Int) } := by
  induction positions with
  | nil =>
    intro self lps hm _ _ h
    unfold sampleLogProbs at h
    rw [← Option.some.inj h]
    unfold TGenModelEvaluationMetricComputation.addSamples
    obtain ⟨mt, v, n⟩ := self
    simp only [] at hm
    subst hm
    simp
  | cons position rest ih =>
    intro self lps hm h0 hn h
    unfold sampleLogProbs at h
    cases hs : model.evaluationSlice m exec position with
    | none => rw [hs] at h; exact Option.noConfusion h
    | some slice =>
      rw [hs, Option.some_bind] at h
      cases hl : model.GetLabelLogProb FingerprintCat m fuel depth log2 st kneser_ney_d
          enable_teq counts model.start_program_id exec
          { storage_ := exec.tree_, position_ := position } (some slice) with
      | none => rw [hl] at h; exact Option.noConfusion h
      | some lp0 =>
        rw [hl, Option.some_bind] at h
        cases hr : sampleLogProbs FingerprintCat m fuel depth log2 st kneser_ney_d enable_teq
            model counts exec rest with
        | none => rw [hr] at h; exact Option.noConfusion h
        | some lps1 =>
          rw [hr, Option.map_some'] at h
          rw [← Option.some.inj h]
          rw [List.length_cons] at hn
          have hadd : self.AddSample FingerprintCat m fuel depth log2 st kneser_ney_d
              beam_size enable_teq model counts exec position
              = some { metric_ := .ENTROPY, value_ := self.value_ - lp0,
                       num_samples_ := self.num_samples_ + 1 } := by
            unfold TGenModelEvaluationMetricComputation.AddSample
            obtain ⟨mt, v, n⟩ := self
            simp only [] at hm h0 hn
            subst hm
            have h1 : addInt32 n 1 = n + 1 := by
              unfold addInt32
              omega
            simp only [hs, Option.some_bind, hl, Option.map_some', h1]
          unfold TGenModelEvaluationMetricComputation.addSamples
          rw [hadd, Option.some_bind, ih _ lps1 rfl (by show 0 ≤ self.num_samples_ + 1; omega)
            (by
              show self.num_samples_ + 1 + (rest.length : Int) < 2147483648
              push_cast at hn
              omega) hr]
          simp only [List.sum_cons, List.length_cons, Option.some.injEq,
            TGenModelEvaluationMetricComputation.mk.injEq, true_and]
          constructor
          · ring
          · push_cast
            ring

/-- The counts of one feature sum to at most the sum of all counts of the table, when no count
is negative. -/
theorem tableEntries_sum_le (f : SequenceHashFeature)
    (table : List ((SequenceHashFeature × Int) × Int)) (hnn : ∀ e ∈ table, 0 ≤ e.2) :
    ((tableEntries f table).map Prod.snd).sum ≤ (table.map Prod.snd).sum := by
  induction table with
  | nil => exact le_refl _
  | cons e rest ih =>
    have ih1 := ih fun x hx => hnn x (List.mem_cons_of_mem _ hx)
    have he := hnn e (List.mem_cons_self _ _)
    unfold tableEntries at ih1 ⊢
    rw [List.filter_cons]
    by_cases hf : e.1.1.equals f = true
    · rw [if_pos hf]
      simp only [List.map_cons, List.sum_cons]
      omega
    · rw [if_neg hf]
      simp only [List.map_cons, List.sum_cons]
      omega

/-- A counter whose keys differ, whose counts are not negative and sum to less than `2^31` has
the counts of a training. -/
theorem Counted_of_total (c : PerFeatureValueCounter) (hwf : c.WellFormed)
    (hnn : ∀ e ∈ c.feature_value_counts_, 0 ≤ e.2)
    (hs : (c.feature_value_counts_.map Prod.snd).sum < 2147483648) : c.Counted :=
  ⟨hwf, fun f => lt_of_le_of_lt (tableEntries_sum_le f _ hnn) hs⟩

/-- The counter `context_counter` after `EndAdding` is `context_counter_ended`. -/
theorem context_counter_built :
    context_counter.EndAdding KneserNey = some context_counter_ended := by
  simp [PerFeatureValueCounter.EndAdding, EndAddingState.visitAll, EndAddingState.visit,
    context_counter, context_counter_ended, hashMapFind, hashMapModify,
    FeatureStats.AddValue, SequenceHashFeature.equals,
    FeatureStats.create, FeatureStats.CalculateProb, FeatureStats.SortValues,
    FeatureStats.GetMLProb, truncToInt, KneserNey, test_feature, SequenceHashFeature.size,
    addInt32, KneserNeyDelta.AddCount, KneserNeyDelta.create, KneserNeyDelta.EndAdding,
    estimateDeltas, KneserNeyDelta.addCounts, KneserNeyDelta.clear,
    ValueStats.AddFeatureForValue, ValueStats.create, probGreaterEq]

/-- One round of the loop of the callback of `GetLabelLogProbInner`, for a feature with
statistics. -/
theorem backoffLoop_step (FingerprintCat : Int → Int → Int) (st : Int) (kneser_ney_d : ℚ)
    (c : PerFeatureValueCounter) (label : Int) (op : Int) (rest : List Int)
    (f f1 : SequenceHashFeature) (wb wb1 : Smoothing) (stats : FeatureStats)
    (delta : Option KneserNeyDelta) (hf : f.pushBack FingerprintCat op = some f1)
    (hs : c.GetFeatureStatsOrNull f1 = some stats) (hd : c.GetKneserNeyDelta st f1 = some delta)
    (ha : wb.AddForwardBackoff st kneser_ney_d (c.GetCount f1 label) stats.UniqueLabels
      stats.TotalCount stats.GetCounts (c.GetValuePrefixCount st f1 label)
      (c.GetTotalPrefixCount st f1) delta = some wb1) :
    backoffLoop FingerprintCat st kneser_ney_d c label (op :: rest) f wb
      = backoffLoop FingerprintCat st kneser_ney_d c label rest f1 wb1 := by
  rw [backoffLoop]
  simp only [hf, hs, hd, ha, Option.some_bind]

/-- The step of `AddForwardBackoff` with the Kneser-Ney smoothing and the discount `1 / 2`, for
a label with the count 1 of a feature with the total count 1 and one label, when the label is
met after 2 of the 2 features of this length. -/
theorem AddForwardBackoff_half (w : Smoothing) (counts : List Int)
    (delta : Option KneserNeyDelta) :
    w.AddForwardBackoff KneserNey (1 / 2) 1 1 1 counts 2 2 delta
      = some { prob_ := 1 / 2 + 1 / 2 * w.prob_tmp_,
               prob_tmp_ := 3 / 4 + 1 / 2 * w.prob_tmp_ } := by
  simp [Smoothing.AddForwardBackoff, KneserNey, WittenBell]
  norm_num

/-- The smoothing of `GetLabelLogProbInner` for the label 3 and the values `[1, 1]` on
`context_counter_ended`, with the Kneser-Ney smoothing and the discount `1 / 2`: from the
probability `3 / 4` of `SetUnconditionedProb` to `5 / 6` and then to `25 / 24`. -/
theorem context_counter_backoff :
    Smoothing.create.SetUnconditionedProb KneserNey
        (context_counter_ended.GetCount SequenceHashFeature.create 3) 1 2
        (context_counter_ended.GetValuePrefixCount KneserNey SequenceHashFeature.create 3)
        (context_counter_ended.GetTotalPrefixCount KneserNey SequenceHashFeature.create)
      = some { prob_ := 3 / 4, prob_tmp_ := 2 / 3 } ∧
    backoffLoop test_FingerprintCat KneserNey (1 / 2) context_counter_ended 3 [1]
        SequenceHashFeature.create { prob_ := 3 / 4, prob_tmp_ := 2 / 3 }
      = some ({ hash_ := 8, size_ := 1 }, { prob_ := 5 / 6, prob_tmp_ := 13 / 12 }) ∧
    backoffLoop test_FingerprintCat KneserNey (1 / 2) context_counter_ended 3 [1, 1]
        SequenceHashFeature.create { prob_ := 3 / 4, prob_tmp_ := 2 / 3 }
      = some ({ hash_ := 256, size_ := 2 }, { prob_ := 25 / 24, prob_tmp_ := 31 / 24 }) := by
  have hf1 : SequenceHashFeature.create.pushBack test_FingerprintCat 1
      = some { hash_ := 8, size_ := 1 } := by decide
  have hf2 : ({ hash_ := 8, size_ := 1 } : SequenceHashFeature).pushBack test_FingerprintCat 1
      = some { hash_ := 256, size_ := 2 } := by decide
  have hs1 : context_counter_ended.GetFeatureStatsOrNull { hash_ := 8, size_ := 1 }
      = some { total_count_ := 1, unique_count_ := 1, sorted_by_prob_ := [(1, 1)],
               counts_ := [0, 1, 0, 0] } := rfl
  have hs2 : context_counter_ended.GetFeatureStatsOrNull { hash_ := 256, size_ := 2 }
      = some { total_count_ := 1, unique_count_ := 1, sorted_by_prob_ := [(1, 2)],
               counts_ := [0, 1, 0, 0] } := rfl
  have hd1 : context_counter_ended.GetKneserNeyDelta KneserNey { hash_ := 8, size_ := 1 }
      = some (some { deltas_estimated_ := true, counts_ := [0, 0, 1, 0, 0],
                     deltas_ := [0, 0, 1, 0] }) := rfl
  have hd2 : context_counter_ended.GetKneserNeyDelta KneserNey { hash_ := 256, size_ := 2 }
      = some (some { deltas_estimated_ := true, counts_ := [0, 2, 0, 0, 0],
                     deltas_ := [0, 1, 0, 0] }) := rfl
  have hc0 : context_counter_ended.GetCount SequenceHashFeature.create 3 = 2 := by decide
  have hp0 : context_counter_ended.GetValuePrefixCount KneserNey SequenceHashFeature.create 3
      = 1 := by decide
  have ht0 : context_counter_ended.GetTotalPrefixCount KneserNey SequenceHashFeature.create
      = 1 := by decide
  have hc1 : context_counter_ended.GetCount { hash_ := 8, size_ := 1 } 3 = 1 := by decide
  have hp1 : context_counter_ended.GetValuePrefixCount KneserNey { hash_ := 8, size_ := 1 } 3
      = 2 := by decide
  have ht1 : context_counter_ended.GetTotalPrefixCount KneserNey { hash_ := 8, size_ := 1 }
      = 2 := by decide
  have hc2 : context_counter_ended.GetCount { hash_ := 256, size_ := 2 } 3 = 1 := by decide
  have hp2 : context_counter_ended.GetValuePrefixCount KneserNey { hash_ := 256, size_ := 2 } 3
      = 2 := by decide
  have ht2 : context_counter_ended.GetTotalPrefixCount KneserNey { hash_ := 256, size_ := 2 }
      = 2 := by decide
  have hw1 : (1 / 2 + 1 / 2 * (2 / 3) : ℚ) = 5 / 6 := by norm_num
  have hw2 : (3 / 4 + 1 / 2 * (2 / 3) : ℚ) = 13 / 12 := by norm_num
  have hw3 : (1 / 2 + 1 / 2 * (13 / 12) : ℚ) = 25 / 24 := by norm_num
  have hw4 : (3 / 4 + 1 / 2 * (13 / 12) : ℚ) = 31 / 24 := by norm_num
  have ha1 : ({ prob_ := 3 / 4, prob_tmp_ := 2 / 3 } : Smoothing).AddForwardBackoff KneserNey
      (1 / 2) 1 1 1 [0, 1, 0, 0] 2 2
      (some { deltas_estimated_ := true, counts_ := [0, 0, 1, 0, 0], deltas_ := [0, 0, 1, 0] })
      = some { prob_ := 5 / 6, prob_tmp_ := 13 / 12 } := by
    rw [AddForwardBackoff_half]
    show some ({ prob_ := 1 / 2 + 1 / 2 * (2 / 3), prob_tmp_ := 3 / 4 + 1 / 2 * (2 / 3) }
      : Smoothing) = _
    rw [hw1, hw2]
  have ha2 : ({ prob_ := 5 / 6, prob_tmp_ := 13 / 12 } : Smoothing).AddForwardBackoff KneserNey
      (1 / 2) 1 1 1 [0, 1, 0, 0] 2 2
      (some { deltas_estimated_ := true, counts_ := [0, 2, 0, 0, 0], deltas_ := [0, 1, 0, 0] })
      = some { prob_ := 25 / 24, prob_tmp_ := 31 / 24 } := by
    rw [AddForwardBackoff_half]
    show some ({ prob_ := 1 / 2 + 1 / 2 * (13 / 12), prob_tmp_ := 3 / 4 + 1 / 2 * (13 / 12) }
      : Smoothing) = _
    rw [hw3, hw4]
  have hstep1 : ∀ rest : List Int,
      backoffLoop test_FingerprintCat KneserNey (1 / 2) context_counter_ended 3 (1 :: rest)
        SequenceHashFeature.create { prob_ := 3 / 4, prob_tmp_ := 2 / 3 }
      = backoffLoop test_FingerprintCat KneserNey (1 / 2) context_counter_ended 3 rest
        { hash_ := 8, size_ := 1 } { prob_ := 5 / 6, prob_tmp_ := 13 / 12 } := fun rest =>
    backoffLoop_step test_FingerprintCat KneserNey (1 / 2) context_counter_ended 3 1 rest _ _ _
      _ _ _ hf1 hs1 hd1 (by rw [hc1, hp1, ht1]; exact ha1)
  have hstep2 : backoffLoop test_FingerprintCat KneserNey (1 / 2) context_counter_ended 3 [1]
        { hash_ := 8, size_ := 1 } { prob_ := 5 / 6, prob_tmp_ := 13 / 12 }
      = backoffLoop test_FingerprintCat KneserNey (1 / 2) context_counter_ended 3 []
        { hash_ := 256, size_ := 2 } { prob_ := 25 / 24, prob_tmp_ := 31 / 24 } :=
    backoffLoop_step test_FingerprintCat KneserNey (1 / 2) context_counter_ended 3 1 [] _ _ _
      _ _ _ hf2 hs2 hd2 (by rw [hc2, hp2, ht2]; exact ha2)
  refine ⟨?_, ?_, ?_⟩
  · rw [hc0, hp0, ht0]
    simp [Smoothing.SetUnconditionedProb, Smoothing.create, KneserNey]
    norm_num
  · rw [hstep1 []]
    rfl
  · rw [hstep1 [1], hstep2]
    rfl

/-- The log-probability of the sample at node 2 of `test_tcond_tree` for `context_model` with
the counter `context_counter_ended`, the Kneser-Ney smoothing and the discount `1 / 2`. -/
theorem context_model_log_prob (log2 : ℚ → ℚ) :
    sampleLogProbs test_FingerprintCat [test_tcond_tree] 10 1 log2 KneserNey (1 / 2) true
      context_model [context_counter_ended] test_exec [2] = some [log2 (25 / 24)] := by
  have hslice : context_model.evaluationSlice [test_tcond_tree] test_exec 2
      = some { storage_ := some 0, begin_ := 2, end_ := 6,
               allow_reading_type_for_begin_node_ := true } := by decide
  have hstart : context_model.start_program_id = 0 := by decide
  have hres : (context_model.resolve test_FingerprintCat [test_tcond_tree] 10 0 test_exec
      { storage_ := test_exec.tree_, position_ := 2 }
      (some { storage_ := some 0, begin_ := 2, end_ := 6,
              allow_reading_type_for_begin_node_ := true })).program = some 0 := by decide
  have hlabel : context_model.GetLabelAtPosition test_FingerprintCat [test_tcond_tree] 10 1
      true 0 test_exec { storage_ := test_exec.tree_, position_ := 2 }
      (some { storage_ := some 0, begin_ := 2, end_ := 6,
              allow_reading_type_for_begin_node_ := true }) true = some 3 := by decide
  have hexec : ExecuteContextProgramByIdInAll test_FingerprintCat [test_tcond_tree] 10
      test_exec context_model.program_ 1
      (SlicedTreeTraversal.create test_exec.tree_ 2
        (some { storage_ := some 0, begin_ := 2, end_ := 6,
                allow_reading_type_for_begin_node_ := true })) 0
      = some ([1, 1],
          { storage_ := some 0, position_ := 1,
            slice_ := some { storage_ := some 0, begin_ := 2, end_ := 6,
                             allow_reading_type_for_begin_node_ := true },
            last_subtree_position_ := -1, last_subtree_ := none }) := by decide
  have hstats : context_counter_ended.GetFeatureStatsOrNull SequenceHashFeature.create
      = some { total_count_ := 2, unique_count_ := 1, sorted_by_prob_ := [(1, 0)],
               counts_ := [0, 0, 1, 0] } := by decide
  have hinner : context_model.GetLabelLogProbInner test_FingerprintCat [test_tcond_tree] 10 1
      log2 KneserNey (1 / 2) [context_counter_ended] 0 test_exec
      (SlicedTreeTraversal.create test_exec.tree_ 2
        (some { storage_ := some 0, begin_ := 2, end_ := 6,
                allow_reading_type_for_begin_node_ := true })) 3 = some (log2 (25 / 24)) := by
    unfold TGenModel.GetLabelLogProbInner
    rw [if_neg (show ¬ (0 : Int) < 0 by decide)]
    show (some context_counter_ended).bind _ = _
    rw [Option.some_bind]
    simp only [hstats]
    show (Smoothing.create.SetUnconditionedProb KneserNey
        (context_counter_ended.GetCount SequenceHashFeature.create 3) 1 2
        (context_counter_ended.GetValuePrefixCount KneserNey SequenceHashFeature.create 3)
        (context_counter_ended.GetTotalPrefixCount KneserNey SequenceHashFeature.create)).bind _
      = _
    rw [context_counter_backoff.1, Option.some_bind, hexec, Option.some_bind,
      context_counter_backoff.2.2, Option.map_some']
    rfl
  unfold sampleLogProbs
  rw [hslice, Option.some_bind, hstart]
  unfold TGenModel.GetLabelLogProb
  rw [hres, Option.some_bind, hlabel, Option.some_bind, hinner, Option.some_bind]
  rfl

/-- The log-probability of the sample at node 4 of `test_tcond_tree` for `plain_model` with the
counter `test_counter_ended` and the Witten-Bell smoothing: the label 3 has no count, and the
score is `log2` of `(0 + 1) / (1 + 1 + 1)`. -/
theorem plain_model_log_prob :
    sampleLogProbs test_FingerprintCat [test_tcond_tree] 10 1 test_log2 0 (-1) true
      plain_model [test_counter_ended] test_exec [4] = some [test_log2 (1 / 3)] := by
  have hslice : plain_model.evaluationSlice [test_tcond_tree] test_exec 4 = some teq_slice := by
    decide
  have hstart : plain_model.start_program_id = 0 := by decide
  have hres : (plain_model.resolve test_FingerprintCat [test_tcond_tree] 10 0 test_exec
      { storage_ := test_exec.tree_, position_ := 4 } (some teq_slice)).program = some 0 := by
    decide
  have hlabel : plain_model.GetLabelAtPosition test_FingerprintCat [test_tcond_tree] 10 1
      true 0 test_exec { storage_ := test_exec.tree_, position_ := 4 } (some teq_slice) true
      = some 3 := by decide
  have hexec : ExecuteContextProgramByIdInAll test_FingerprintCat [test_tcond_tree] 10
      test_exec plain_model.program_ 1
      (SlicedTreeTraversal.create test_exec.tree_ 4 (some teq_slice)) 0
      = some ([], SlicedTreeTraversal.create test_exec.tree_ 4 (some teq_slice)) := by decide
  have hinner : plain_model.GetLabelLogProbInner test_FingerprintCat [test_tcond_tree] 10 1
      test_log2 0 (-1) [test_counter_ended] 0 test_exec
      (SlicedTreeTraversal.create test_exec.tree_ 4 (some teq_slice)) 3
      = some (test_log2 (1 / 3)) := by
    unfold TGenModel.GetLabelLogProbInner
    rw [hexec]
    simp [test_counter_ended, PerFeatureValueCounter.GetFeatureStatsOrNull, hashMapFind,
      SequenceHashFeature.equals, SequenceHashFeature.create, test_feature,
      Smoothing.SetUnconditionedProb, Smoothing.create, KneserNey,
      PerFeatureValueCounter.GetCount, keyEquals, FeatureStats.UniqueLabels,
      FeatureStats.TotalCount, backoffLoop, Smoothing.GetLogProb]
    norm_num
  unfold sampleLogProbs
  rw [hslice, Option.some_bind, hstart]
  unfold TGenModel.GetLabelLogProb
  rw [hres, Option.some_bind, hlabel, Option.some_bind, hinner, Option.some_bind]
  rfl

/-- Claim C31: with the Kneser-Ney smoothing and the discount `--kneser_ney_d=0.5`, a value in
the range that the flag asks for, the member `prob_` of `Smoothing` goes above 1, although the
branch checks `CHECK(p_ml >= 0 && p_ml <= 1)` and the Witten-Bell and Laplace branches keep a
probability. `context_model` is trained on the samples at the nodes 2 and 4 of
`test_tcond_tree`, which have the label 3 and the values `[1, 1]` and `[4, 4]` of the context
program; the counter after `GenerativeEndTraining` supplies counts with
`0 <= count <= total_count` and `unique_count >= 1`. For the sample at node 2,
`SetUnconditionedProb` gives the probability `3 / 4` and the helper probability `2 / 3`, the
first `AddForwardBackoff` gives `5 / 6` and the helper probability `13 / 12`, and the second
gives `1 / 2 + 1 / 2 * (13 / 12) = 25 / 24`, so that `GetLabelLogProb` is `log2 (25 / 24)` and
the metric `ENTROPY` of this sample is `-log2 (25 / 24)`, which is negative for every `log2`
with `log2 (25 / 24) > 0`. -/
theorem ENTROPY_is_negative_with_KneserNey_discount :
    ((context_model.GenerativeTrainOneSample test_FingerprintCat [test_tcond_tree] 10 1 true
        test_layout [PerFeatureValueCounter.create] 0 test_exec
        { storage_ := some 0, position_ := 2 }).bind fun cs =>
      context_model.GenerativeTrainOneSample test_FingerprintCat [test_tcond_tree] 10 1 true
        test_layout cs 0 test_exec { storage_ := some 0, position_ := 4 })
      = some [context_counter] ∧
    context_counter.Counted ∧
    TGenModel.GenerativeEndTraining KneserNey [context_counter]
      = some [context_counter_ended] ∧
    context_counter_ended.StatsBound ∧
    backoffLoop test_FingerprintCat KneserNey (1 / 2) context_counter_ended 3 [1, 1]
        SequenceHashFeature.create { prob_ := 3 / 4, prob_tmp_ := 2 / 3 }
      = some ({ hash_ := 256, size_ := 2 }, { prob_ := 25 / 24, prob_tmp_ := 31 / 24 }) ∧
    (1 : ℚ) < 25 / 24 ∧
    ∀ log2 : ℚ → ℚ,
      sampleLogProbs test_FingerprintCat [test_tcond_tree] 10 1 log2 KneserNey (1 / 2) true
        context_model [context_counter_ended] test_exec [2] = some [log2 (25 / 24)] ∧
      ∃ mc0 mc : TGenModelEvaluationMetricComputation,
        TGenModelEvaluationMetricComputation.create "entropy".toList .ENTROPY = some mc0 ∧
        mc0.addSamples test_FingerprintCat [test_tcond_tree] 10 1 log2 KneserNey (1 / 2) 4 true
          context_model [context_counter_ended] test_exec [2] = some mc ∧
        mc.GetComputedValue = some (-(log2 (25 / 24))) ∧
        (0 < log2 (25 / 24) → -(log2 (25 / 24)) < 0) := by
  have hcounted : context_counter.Counted :=
    Counted_of_total context_counter (by decide) (by decide) (by decide)
  have hend : TGenModel.GenerativeEndTraining KneserNey [context_counter]
      = some [context_counter_ended] := by
    unfold TGenModel.GenerativeEndTraining
    rw [context_counter_built]
    rfl
  refine ⟨by decide, hcounted, hend,
    EndAdding_StatsBound KneserNey context_counter context_counter_ended hcounted
      context_counter_built,
    context_counter_backoff.2.2, by norm_num, ?_⟩
  intro log2
  refine ⟨context_model_log_prob log2,
    { metric_ := .ENTROPY, value_ := 0, num_samples_ := 0 },
    { metric_ := .ENTROPY, value_ := 0 - [log2 (25 / 24)].sum,
      num_samples_ := 0 + (([2] : List Int).length : Int) }, rfl, ?_, ?_, ?_⟩
  · exact addSamples_ENTROPY test_FingerprintCat [test_tcond_tree] 10 1 log2 KneserNey (1 / 2)
      4 true context_model [context_counter_ended] test_exec [2]
      { metric_ := .ENTROPY, value_ := 0, num_samples_ := 0 } [log2 (25 / 24)] rfl
      (le_refl 0) (by decide) (context_model_log_prob log2)
  · simp [TGenModelEvaluationMetricComputation.GetComputedValue]
  · intro h
    linarith

/-- The metric `ENTROPY` with the Witten-Bell smoothing, which is the default, or the Laplace
smoothing. For counters that `GenerativeEndTraining` makes of counters with the
counts of a training (every key once, the sum of the counts of a feature below `2^31`): the
counters supply `unique_count >= 1` and `0 <= count <= total_count`, every result of
`GetLabelLogProb` for an added sample is `log2` of a probability between 0 and 1, which
`SetUnconditionedProb` and the following `AddForwardBackoff` updates produce, and so it is at
most 0 for a `log2` that is at most 0 between 0 and 1. When `GetLabelLogProb` has a result for
each of the samples, at least one and fewer than `2^31`, the calls of `AddSample` on a new
computation with the metric `ENTROPY` have a result, and `GetComputedValue` is minus the mean of
the log-probabilities of the samples, which is at least 0. -/
theorem ENTROPY_is_minus_mean_log_prob_and_not_negative (FingerprintCat : Int → Int → Int)
    (m : Memory) (fuel : Nat) (depth : Nat) (log2 : ℚ → ℚ) (smoothing_type : Int)
    (kneser_ney_d : ℚ) (beam_size : Int) (enable_teq : Bool) (default_tgen_eval_metric : Str)
    (model : TGenModel) (counts0 counts : List PerFeatureValueCounter)
    (exec : ExecutionForTree) (positions : List Int) (lps : List ℚ)
    (hst : smoothing_type = WittenBell ∨ smoothing_type = Laplace)
    (hlog : ∀ p : ℚ, 0 ≤ p → p ≤ 1 → log2 p ≤ 0)
    (hcounted : ∀ c ∈ counts0, c.Counted)
    (htrain : TGenModel.GenerativeEndTraining smoothing_type counts0 = some counts)
    (hpos : positions ≠ []) (hlen : positions.length < 2147483648)
    (hlps : sampleLogProbs FingerprintCat m fuel depth log2 smoothing_type kneser_ney_d
      enable_teq model counts exec positions = some lps) :
    (∀ c ∈ counts, c.StatsBound) ∧
    (∀ lp ∈ lps, ∃ p : ℚ, 0 ≤ p ∧ p ≤ 1 ∧ lp = log2 p) ∧
    (∀ lp ∈ lps, lp ≤ 0) ∧
    lps.length = positions.length ∧
    ∃ mc0 mc : TGenModelEvaluationMetricComputation,
      TGenModelEvaluationMetricComputation.create default_tgen_eval_metric .ENTROPY
        = some mc0 ∧
      mc0.addSamples FingerprintCat m fuel depth log2 smoothing_type kneser_ney_d beam_size
        enable_teq model counts exec positions = some mc ∧
      mc.GetComputedValue = some (-(lps.sum / (lps.length : ℚ))) ∧
      0 ≤ -(lps.sum / (lps.length : ℚ)) := by
  have hcs : ∀ c ∈ counts, c.StatsBound := by
    intro c hc
    obtain ⟨c0, hc0, hend⟩ := GenerativeEndTraining_mem smoothing_type counts0 counts htrain c hc
    exact EndAdding_StatsBound smoothing_type c0 c (hcounted c0 hc0) hend
  obtain ⟨hlength, hprob⟩ := sampleLogProbs_bounds FingerprintCat m fuel depth log2
    smoothing_type hst kneser_ney_d enable_teq model counts hcs exec positions lps hlps
  have hle : ∀ lp ∈ lps, lp ≤ 0 := by
    intro lp hlp
    obtain ⟨p, hp0, hp1, hp⟩ := hprob lp hlp
    rw [hp]
    exact hlog p hp0 hp1
  have key : ∀ l : List ℚ, (∀ x ∈ l, x ≤ 0) → l.sum ≤ 0 := by
    intro l
    induction l with
    | nil => intro _; simp
    | cons a t ih =>
      intro h
      rw [List.sum_cons]
      have h1 := h a (List.mem_cons_self _ _)
      have h2 := ih fun x hx => h x (List.mem_cons_of_mem _ hx)
      linarith
  have hsum : lps.sum ≤ 0 := key lps hle
  have hn : (0 : ℚ) < (lps.length : ℚ) := by
    have : 0 < positions.length := List.length_pos.mpr hpos
    rw [hlength]
    exact_mod_cast this
  refine ⟨hcs, hprob, hle, hlength,
    { metric_ := .ENTROPY, value_ := 0, num_samples_ := 0 },
    { metric_ := .ENTROPY, value_ := 0 - lps.sum,
      num_samples_ := 0 + (positions.length : Int) }, rfl, ?_, ?_, ?_⟩
  · exact addSamples_ENTROPY FingerprintCat m fuel depth log2 smoothing_type kneser_ney_d
      beam_size enable_teq model counts exec positions
      { metric_ := .ENTROPY, value_ := 0, num_samples_ := 0 } lps rfl (le_refl 0)
      (by show (0 : Int) + (positions.length : Int) < 2147483648; omega) hlps
  · show some ((0 - lps.sum) / (((0 + (positions.length : Int)) : Int) : ℚ)) = _
    rw [hlength]
    congr 1
    push_cast
    rw [zero_add, zero_sub, neg_div]
  · rw [neg_nonneg]
    exact div_nonpos_of_nonpos_of_nonneg hsum (le_of_lt hn)

theorem ENTROPY_is_minus_mean_log_prob_and_not_negative_witness :
    ((0 : Int) = WittenBell ∨ (0 : Int) = Laplace) ∧
    (∀ p : ℚ, 0 ≤ p → p ≤ 1 → test_log2 p ≤ 0) ∧
    (∀ c ∈ [test_counter], c.Counted) ∧
    TGenModel.GenerativeEndTraining 0 [test_counter] = some [test_counter_ended] ∧
    ([4] : List Int) ≠ [] ∧ ([4] : List Int).length < 2147483648 ∧
    sampleLogProbs test_FingerprintCat [test_tcond_tree] 10 1 test_log2 0 (-1) true
      plain_model [test_counter_ended] test_exec [4] = some [test_log2 (1 / 3)] ∧
    ((∀ c ∈ [test_counter_ended], c.StatsBound) ∧
    (∀ lp ∈ [test_log2 (1 / 3)], ∃ p : ℚ, 0 ≤ p ∧ p ≤ 1 ∧ lp = test_log2 p) ∧
    (∀ lp ∈ [test_log2 (1 / 3)], lp ≤ 0) ∧
    [test_log2 (1 / 3)].length = ([4] : List Int).length ∧
    ∃ mc0 mc : TGenModelEvaluationMetricComputation,
      TGenModelEvaluationMetricComputation.create "entropy".toList .ENTROPY = some mc0 ∧
      mc0.addSamples test_FingerprintCat [test_tcond_tree] 10 1 test_log2 0 (-1) 4 true
        plain_model [test_counter_ended] test_exec [4] = some mc ∧
      mc.GetComputedValue
        = some (-([test_log2 (1 / 3)].sum / (([test_log2 (1 / 3)].length : Nat) : ℚ))) ∧
      0 ≤ -([test_log2 (1 / 3)].sum / (([test_log2 (1 / 3)].length : Nat) : ℚ))) := by
  have hlog : ∀ p : ℚ, 0 ≤ p → p ≤ 1 → test_log2 p ≤ 0 := by
    intro p _ hp
    unfold test_log2
    linarith
  have hcounted : ∀ c ∈ [test_counter], c.Counted := by
    intro c hc
    rw [List.mem_singleton] at hc
    rw [hc]
    exact Counted_of_total test_counter (by decide) (by decide) (by decide)
  have hend : TGenModel.GenerativeEndTraining 0 [test_counter] = some [test_counter_ended] := by
    unfold TGenModel.GenerativeEndTraining
    rw [test_counter_built.2]
    rfl
  exact ⟨Or.inl rfl, hlog, hcounted, hend, by decide, by decide, plain_model_log_prob,
    ENTROPY_is_minus_mean_log_prob_and_not_negative test_FingerprintCat [test_tcond_tree] 10 1
      test_log2 0 (-1) 4 true "entropy".toList plain_model [test_counter] [test_counter_ended]
      test_exec [4] [test_log2 (1 / 3)] (Or.inl rfl) hlog hcounted hend (by decide) (by decide)
      plain_model_log_prob⟩

/-! ## The beam of `GetBestLabelLogProb` on a counter with two labels -/

/-- The counter `beam_counter` after `EndAdding` is `beam_counter_ended`. -/
theorem beam_counter_built : beam_counter.EndAdding 0 = some beam_counter_ended := by
  simp [PerFeatureValueCounter.EndAdding, EndAddingState.visitAll, EndAddingState.visit,
    beam_counter, beam_counter_ended, hashMapFind, hashMapModify, FeatureStats.AddValue,
    SequenceHashFeature.equals, FeatureStats.create, FeatureStats.CalculateProb,
    FeatureStats.SortValues, FeatureStats.GetMLProb, truncToInt, KneserNey, test_feature,
    SequenceHashFeature.size, addInt32, probGreaterEq]
  norm_num

/-- The step of `AddForwardBackoff` with the Witten-Bell smoothing for a feature with one label
and the total count 2: for a label with the count 0 and for the label with the count 2. -/
theorem AddForwardBackoff_WittenBell_one_label (w : Smoothing) (counts : List Int) :
    w.AddForwardBackoff 0 (-1) 0 1 2 counts 0 0 none
      = some { prob_ := 1 / 3 * w.prob_, prob_tmp_ := w.prob_tmp_ } ∧
    w.AddForwardBackoff 0 (-1) 2 1 2 counts 0 0 none
      = some { prob_ := 2 / 3 + 1 / 3 * w.prob_, prob_tmp_ := w.prob_tmp_ } := by
  constructor
  · simp [Smoothing.AddForwardBackoff, WittenBell]
  · simp [Smoothing.AddForwardBackoff, WittenBell]
    norm_num

/-- The scores of the labels 3 and 5 for the sample `teq_sample` with `context_model`, the
counter `beam_counter_ended` and the Witten-Bell smoothing. The context program gives the values
`[4, 4]`. For the label 3 the probability goes from `(3 + 1) / (5 + 2 + 1)` to `1 / 6` and to
`1 / 18`; for the label 5 it goes from `(2 + 1) / (5 + 2 + 1)` to `19 / 24` and to `67 / 72`. -/
theorem beam_scores :
    context_model.GetLabelLogProbInner test_FingerprintCat [test_tcond_tree] 10 1 test_log2 0
      (-1) [beam_counter_ended] 0 test_exec
      (SlicedTreeTraversal.create teq_sample.storage_ teq_sample.position_ (some teq_slice)) 3
      = some (test_log2 (1 / 18)) ∧
    context_model.GetLabelLogProbInner test_FingerprintCat [test_tcond_tree] 10 1 test_log2 0
      (-1) [beam_counter_ended] 0 test_exec
      (SlicedTreeTraversal.create teq_sample.storage_ teq_sample.position_ (some teq_slice)) 5
      = some (test_log2 (67 / 72)) := by
  have hexec : ExecuteContextProgramByIdInAll test_FingerprintCat [test_tcond_tree] 10
      test_exec context_model.program_ 1
      (SlicedTreeTraversal.create teq_sample.storage_ teq_sample.position_ (some teq_slice)) 0
      = some ([4, 4], beam_traversal_end) := by decide
  have hstats : beam_counter_ended.GetFeatureStatsOrNull SequenceHashFeature.create
      = some { total_count_ := 5, unique_count_ := 2, sorted_by_prob_ := [(3 / 5, 0), (2 / 5, 1)],
               counts_ := [0, 0, 1, 1] } := rfl
  have hf1 : SequenceHashFeature.create.pushBack test_FingerprintCat 4
      = some { hash_ := 11, size_ := 1 } := by decide
  have hf2 : ({ hash_ := 11, size_ := 1 } : SequenceHashFeature).pushBack test_FingerprintCat 4
      = some { hash_ := 352, size_ := 2 } := by decide
  have hs1 : beam_counter_ended.GetFeatureStatsOrNull { hash_ := 11, size_ := 1 }
      = some { total_count_ := 2, unique_count_ := 1, sorted_by_prob_ := [(1, 4)],
               counts_ := [0, 0, 1, 0] } := rfl
  have hs2 : beam_counter_ended.GetFeatureStatsOrNull { hash_ := 352, size_ := 2 }
      = some { total_count_ := 2, unique_count_ := 1, sorted_by_prob_ := [(1, 5)],
               counts_ := [0, 0, 1, 0] } := rfl
  have hd : ∀ f, beam_counter_ended.GetKneserNeyDelta 0 f = some none := fun f => rfl
  have hp : ∀ f l, beam_counter_ended.GetValuePrefixCount 0 f l = 0 := fun f l => rfl
  have ht : ∀ f, beam_counter_ended.GetTotalPrefixCount 0 f = 0 := fun f => rfl
  have hc03 : beam_counter_ended.GetCount SequenceHashFeature.create 3 = 3 := by decide
  have hc05 : beam_counter_ended.GetCount SequenceHashFeature.create 5 = 2 := by decide
  have hc13 : beam_counter_ended.GetCount { hash_ := 11, size_ := 1 } 3 = 0 := by decide
  have hc15 : beam_counter_ended.GetCount { hash_ := 11, size_ := 1 } 5 = 2 := by decide
  have hc23 : beam_counter_ended.GetCount { hash_ := 352, size_ := 2 } 3 = 0 := by decide
  have hc25 : beam_counter_ended.GetCount { hash_ := 352, size_ := 2 } 5 = 2 := by decide
  have hu3 : Smoothing.create.SetUnconditionedProb 0 3 2 5 0 0
      = some { prob_ := 1 / 2, prob_tmp_ := 0 } := by
    simp [Smoothing.SetUnconditionedProb, Smoothing.create, KneserNey]
    norm_num
  have hu5 : Smoothing.create.SetUnconditionedProb 0 2 2 5 0 0
      = some { prob_ := 3 / 8, prob_tmp_ := 0 } := by
    simp [Smoothing.SetUnconditionedProb, Smoothing.create, KneserNey]
    norm_num
  have ha (w : Smoothing) (q : ℚ) (hq : 1 / 3 * w.prob_ = q) :
      w.AddForwardBackoff 0 (-1) 0 1 2 [0, 0, 1, 0] 0 0 none
        = some { prob_ := q, prob_tmp_ := w.prob_tmp_ } := by
    rw [(AddForwardBackoff_WittenBell_one_label w _).1, hq]
  have hb (w : Smoothing) (q : ℚ) (hq : 2 / 3 + 1 / 3 * w.prob_ = q) :
      w.AddForwardBackoff 0 (-1) 2 1 2 [0, 0, 1, 0] 0 0 none
        = some { prob_ := q, prob_tmp_ := w.prob_tmp_ } := by
    rw [(AddForwardBackoff_WittenBell_one_label w _).2, hq]
  have hloop3 : backoffLoop test_FingerprintCat 0 (-1) beam_counter_ended 3 [4, 4]
      SequenceHashFeature.create { prob_ := 1 / 2, prob_tmp_ := 0 }
      = some ({ hash_ := 352, size_ := 2 }, { prob_ := 1 / 18, prob_tmp_ := 0 }) := by
    rw [backoffLoop_step test_FingerprintCat 0 (-1) beam_counter_ended 3 4 [4] _ _ _
        { prob_ := 1 / 6, prob_tmp_ := 0 } _ _ hf1 hs1 (hd _)
        (by rw [hc13, hp, ht]; exact ha _ _ (by norm_num)),
      backoffLoop_step test_FingerprintCat 0 (-1) beam_counter_ended 3 4 [] _ _ _
        { prob_ := 1 / 18, prob_tmp_ := 0 } _ _ hf2 hs2 (hd _)
        (by rw [hc23, hp, ht]; exact ha _ _ (by norm_num))]
    rfl
  have hloop5 : backoffLoop test_FingerprintCat 0 (-1) beam_counter_ended 5 [4, 4]
      SequenceHashFeature.create { prob_ := 3 / 8, prob_tmp_ := 0 }
      = some ({ hash_ := 352, size_ := 2 }, { prob_ := 67 / 72, prob_tmp_ := 0 }) := by
    rw [backoffLoop_step test_FingerprintCat 0 (-1) beam_counter_ended 5 4 [4] _ _ _
        { prob_ := 19 / 24, prob_tmp_ := 0 } _ _ hf1 hs1 (hd _)
        (by rw [hc15, hp, ht]; exact hb _ _ (by norm_num)),
      backoffLoop_step test_FingerprintCat 0 (-1) beam_counter_ended 5 4 [] _ _ _
        { prob_ := 67 / 72, prob_tmp_ := 0 } _ _ hf2 hs2 (hd _)
        (by rw [hc25, hp, ht]; exact hb _ _ (by norm_num))]
    rfl
  constructor
  · unfold TGenModel.GetLabelLogProbInner
    rw [if_neg (show ¬ (0 : Int) < 0 by decide)]
    show (some beam_counter_ended).bind _ = _
    rw [Option.some_bind]
    simp only [hstats]
    show (Smoothing.create.SetUnconditionedProb 0
        (beam_counter_ended.GetCount SequenceHashFeature.create 3) 2 5
        (beam_counter_ended.GetValuePrefixCount 0 SequenceHashFeature.create 3)
        (beam_counter_ended.GetTotalPrefixCount 0 SequenceHashFeature.create)).bind _ = _
    rw [hc03, hp, ht, hu3, Option.some_bind, hexec, Option.some_bind, hloop3, Option.map_some']
    rfl
  · unfold TGenModel.GetLabelLogProbInner
    rw [if_neg (show ¬ (0 : Int) < 0 by decide)]
    show (some beam_counter_ended).bind _ = _
    rw [Option.some_bind]
    simp only [hstats]
    show (Smoothing.create.SetUnconditionedProb 0
        (beam_counter_ended.GetCount SequenceHashFeature.create 5) 2 5
        (beam_counter_ended.GetValuePrefixCount 0 SequenceHashFeature.create 5)
        (beam_counter_ended.GetTotalPrefixCount 0 SequenceHashFeature.create)).bind _ = _
    rw [hc05, hp, ht, hu5, Option.some_bind, hexec, Option.some_bind, hloop5, Option.map_some']
    rfl

/-- The labels that the pointers into `beam_counter_ended` point to are 3 and 5, and
`GetLabelLogProbInner` scores both for the sample `teq_sample`. -/
theorem beam_labels_scored (ptr : ℚ × Nat) (x : ℚ × Int)
    (hx : beam_counter_ended.labelAt ptr = some x) :
    (x.2 = 3 ∨ x.2 = 5) ∧
    ∃ s, context_model.GetLabelLogProbInner test_FingerprintCat [test_tcond_tree] 10 1
      test_log2 0 (-1) [beam_counter_ended] 0 test_exec
      (SlicedTreeTraversal.create teq_sample.storage_ teq_sample.position_ (some teq_slice))
      x.2 = some s := by
  have hall : ∀ e ∈ beam_counter_ended.feature_value_counts_, e.1.2 = 3 ∨ e.1.2 = 5 := by
    decide
  have hlab : x.2 = 3 ∨ x.2 = 5 := by
    unfold PerFeatureValueCounter.labelAt at hx
    cases he : beam_counter_ended.feature_value_counts_[ptr.2]? with
    | none => rw [he] at hx; exact Option.noConfusion hx
    | some e =>
      rw [he, Option.map_some'] at hx
      rw [← Option.some.inj hx]
      exact hall e (List.getElem?_mem he)
  refine ⟨hlab, ?_⟩
  rcases hlab with h | h
  · rw [h]
    exact ⟨_, beam_scores.1⟩
  · rw [h]
    exact ⟨_, beam_scores.2⟩

theorem GetBestLabelLogProb_returns_best_of_first_label_and_beams_witness :
    context_model.resolve test_FingerprintCat [test_tcond_tree] 10 0 test_exec teq_sample
      (some teq_slice) = .straight 0 0 ∧
    [beam_counter_ended][(0 : Int).toNat]? = some beam_counter_ended ∧
    beam_counter.EndAdding 0 = some beam_counter_ended ∧
    ExecuteContextProgramByIdInAll test_FingerprintCat [test_tcond_tree] 10 test_exec
      context_model.program_ 1
      (SlicedTreeTraversal.create teq_sample.storage_ teq_sample.position_ (some teq_slice)) 0
      = some ([4, 4], beam_traversal_end) ∧
    prefixFeatures test_FingerprintCat [4, 4] SequenceHashFeature.create
      = some [{ hash_ := 11, size_ := 1 }, { hash_ := 352, size_ := 2 }] ∧
    (∀ ptr ∈ candidatePointers 1 beam_counter_ended
        [{ hash_ := 11, size_ := 1 }, { hash_ := 352, size_ := 2 }], ∀ x,
      beam_counter_ended.labelAt ptr = some x →
      ∃ s, context_model.GetLabelLogProbInner test_FingerprintCat [test_tcond_tree] 10 1
        test_log2 0 (-1) [beam_counter_ended] 0 test_exec
        (SlicedTreeTraversal.create teq_sample.storage_ teq_sample.position_ (some teq_slice))
        x.2 = some s) ∧
    ((beam_counter_ended.LabelsSortedByProbability SequenceHashFeature.create = [] →
      context_model.GetBestLabelLogProb test_FingerprintCat [test_tcond_tree] 10 1 test_log2 0
        (-1) 1 [beam_counter_ended] 0 test_exec teq_sample (some teq_slice) = some (0, -1)) ∧
    (beam_counter_ended.LabelsSortedByProbability SequenceHashFeature.create ≠ [] →
      ∃ (s : ℚ) (l : Int),
        context_model.GetBestLabelLogProb test_FingerprintCat [test_tcond_tree] 10 1 test_log2
          0 (-1) 1 [beam_counter_ended] 0 test_exec teq_sample (some teq_slice)
          = some (s, l) ∧
        context_model.GetLabelLogProbInner test_FingerprintCat [test_tcond_tree] 10 1 test_log2
          0 (-1) [beam_counter_ended] 0 test_exec
          (SlicedTreeTraversal.create teq_sample.storage_ teq_sample.position_
            (some teq_slice)) l = some s ∧
        (∃ ptr ∈ candidatePointers 1 beam_counter_ended
            [{ hash_ := 11, size_ := 1 }, { hash_ := 352, size_ := 2 }], ∃ x,
          beam_counter_ended.labelAt ptr = some x ∧ x.2 = l) ∧
        ∀ ptr ∈ candidatePointers 1 beam_counter_ended
            [{ hash_ := 11, size_ := 1 }, { hash_ := 352, size_ := 2 }], ∀ x,
          beam_counter_ended.labelAt ptr = some x →
          ∀ s1, context_model.GetLabelLogProbInner test_FingerprintCat [test_tcond_tree] 10 1
            test_log2 0 (-1) [beam_counter_ended] 0 test_exec
            (SlicedTreeTraversal.create teq_sample.storage_ teq_sample.position_
              (some teq_slice)) x.2 = some s1 →
          s1 ≤ s) ∧
    (1 ≤ (1 : Int) → ∀ ptr ∈ candidatePointers 1 beam_counter_ended
        [{ hash_ := 11, size_ := 1 }, { hash_ := 352, size_ := 2 }],
      ptr ∈ beamPointers 1 beam_counter_ended
        [{ hash_ := 11, size_ := 1 }, { hash_ := 352, size_ := 2 }])) ∧
    beam_counter_ended.LabelsSortedByProbability SequenceHashFeature.create
      = [(3 / 5, 0), (2 / 5, 1)] ∧
    beam_counter_ended.labelAt (3 / 5, 0) = some (3 / 5, 3) ∧
    beam_counter_ended.LabelsSortedByProbability { hash_ := 11, size_ := 1 } = [(1, 4)] ∧
    beam_counter_ended.labelAt (1, 4) = some (1, 5) ∧
    context_model.GetBestLabelLogProb test_FingerprintCat [test_tcond_tree] 10 1 test_log2 0
      (-1) 1 [beam_counter_ended] 0 test_exec teq_sample (some teq_slice)
      = some (test_log2 (67 / 72), 5) := by
  have hres : context_model.resolve test_FingerprintCat [test_tcond_tree] 10 0 test_exec
      teq_sample (some teq_slice) = .straight 0 0 := by decide
  have hexec : ExecuteContextProgramByIdInAll test_FingerprintCat [test_tcond_tree] 10
      test_exec context_model.program_ 1
      (SlicedTreeTraversal.create teq_sample.storage_ teq_sample.position_ (some teq_slice)) 0
      = some ([4, 4], beam_traversal_end) := by decide
  have hfs : prefixFeatures test_FingerprintCat [4, 4] SequenceHashFeature.create
      = some [{ hash_ := 11, size_ := 1 }, { hash_ := 352, size_ := 2 }] := by decide
  have hscore : ∀ ptr ∈ candidatePointers 1 beam_counter_ended
        [{ hash_ := 11, size_ := 1 }, { hash_ := 352, size_ := 2 }], ∀ x,
      beam_counter_ended.labelAt ptr = some x →
      ∃ s, context_model.GetLabelLogProbInner test_FingerprintCat [test_tcond_tree] 10 1
        test_log2 0 (-1) [beam_counter_ended] 0 test_exec
        (SlicedTreeTraversal.create teq_sample.storage_ teq_sample.position_ (some teq_slice))
        x.2 = some s := fun ptr _ x hx => (beam_labels_scored ptr x hx).2
  have hl0 : beam_counter_ended.LabelsSortedByProbability SequenceHashFeature.create
      = [(3 / 5, 0), (2 / 5, 1)] := rfl
  have hl1 : beam_counter_ended.LabelsSortedByProbability { hash_ := 11, size_ := 1 }
      = [(1, 4)] := rfl
  have hp0 : beam_counter_ended.labelAt (3 / 5, 0) = some (3 / 5, 3) := rfl
  have hp1 : beam_counter_ended.labelAt (1, 4) = some (1, 5) := rfl
  have h := GetBestLabelLogProb_returns_best_of_first_label_and_beams test_FingerprintCat
    [test_tcond_tree] 10 1 test_log2 0 (-1) 1 context_model [beam_counter_ended] 0 test_exec
    teq_sample (some teq_slice) 0 0 beam_counter beam_counter_ended [4, 4] beam_traversal_end
    [{ hash_ := 11, size_ := 1 }, { hash_ := 352, size_ := 2 }] hres rfl beam_counter_built
    hexec hfs hscore
  refine ⟨hres, rfl, beam_counter_built, hexec, hfs, hscore, h, hl0, hp0, hl1, hp1, ?_⟩
  obtain ⟨s, l, hg, hin, ⟨ptr, _, x, hx, hxl⟩, hmax⟩ :=
    h.2.1 (by rw [hl0]; exact List.cons_ne_nil _ _)
  have hmem : ((1 : ℚ), 4) ∈ candidatePointers 1 beam_counter_ended
      [{ hash_ := 11, size_ := 1 }, { hash_ := 352, size_ := 2 }] := by
    rw [mem_candidatePointers]
    refine Or.inr (Or.inr ⟨{ hash_ := 11, size_ := 1 }, List.mem_cons_self _ _, ?_⟩)
    rw [hl1]
    exact List.mem_cons_self _ _
  have h5 := hmax (1, 4) hmem (1, 5) hp1 _ beam_scores.2
  rcases (beam_labels_scored ptr x hx).1 with h3 | h3
  · rw [← hxl, h3, beam_scores.1] at hin
    rw [← Option.some.inj hin] at h5
    unfold test_log2 at h5
    norm_num at h5
  · rw [← hxl, h3, beam_scores.2] at hin
    rw [hg, ← Option.some.inj hin, ← hxl, h3]

end PHOG
